import Mathlib

/-!
Tipper triangulator: cyclic hull list, visibility predicate, hull growth.

A shallow embedding of `Child/Code/tMesh/TipperTriangulator.cpp`.

* C++ `int` values are modelled by `Int`.  Every index used by the code is
  bounded by the size of the array it addresses, so no `int` overflow occurs
  on the paths that stay inside the arrays.
* A C++ array is a `List`; reading or writing outside `[0, length)` is
  undefined behaviour in C++ and is reported as `outOfRange`.
* `assert(c)` with `c` false aborts the program.  For the members of
  `cyclist` the state at the abort is kept in `Run.assertFail`.
* `double` arithmetic is modelled twice.  The definitions over an arbitrary
  linearly ordered field `K` are the program in exact arithmetic (no rounding,
  no NaN), executable for `K = ℚ`; the library function `sqrt` is a parameter
  of `edge.swap`.  The definitions of the namespace `Arith` are the same
  statements over a record of the arithmetic operations and comparisons the
  program uses, with the instance `Arith.ieee`, IEEE binary64 with rounding to
  nearest, ties to even (type `Dbl`), and the instance `Arith.exact`.
* Recursion of `edge.swap` is bounded by a depth parameter; the two `while`
  loops of `triangulate` get the budget `num + 1`, which they never use up
  (`sweeps_within_budget`).

The file has two parts: the definitions, then the theorems.
-/

namespace Tipper

/-! ## Class `cyclist` -/

/-- One array slot of `cyclist`: `struct item{ int next,prev,data; }`. -/
structure item where
  next : Int
  prev : Int
  data : Int
deriving DecidableEq, Repr

/-- Data members of `cyclist` (the unused `order`, `rev` pointers are left out):
`size`, `prev`, `hole`, `num` and the backing array `ejs`. -/
structure cyclist where
  size : Int
  prev : Int
  hole : Int
  num : Int
  ejs : List item
deriving DecidableEq, Repr

/-- Outcome of running a member function on a state of type `σ`. -/
inductive Run (σ α : Type) where
  /-- normal return with the new state and the returned value -/
  | ok (s : σ) (v : α)
  /-- an `assert` failed; `s` is the state at the abort -/
  | assertFail (s : σ)
  /-- an array was indexed outside its bounds -/
  | outOfRange
deriving DecidableEq, Repr

namespace cyclist

/-- Read `ejs[i]`; `none` when `i` is outside the array. -/
def rd (l : cyclist) (i : Int) : Option item :=
  if 0 ≤ i then l.ejs[i.toNat]? else none

/-- Assignment `ejs[i] = f(ejs[i])`; `none` when `i` is outside the array. -/
def wr (l : cyclist) (i : Int) (f : item → item) : Option cyclist :=
  match l.rd i with
  | some it => some { l with ejs := l.ejs.set i.toNat (f it) }
  | none => none

/-- Assignment `ejs[i].next = v`. -/
def setNext (l : cyclist) (i v : Int) : Option cyclist :=
  l.wr i fun it => { it with next := v }

/-- Assignment `ejs[i].prev = v`. -/
def setPrev (l : cyclist) (i v : Int) : Option cyclist :=
  l.wr i fun it => { it with prev := v }

/-- Assignment `ejs[i].data = v`. -/
def setData (l : cyclist) (i v : Int) : Option cyclist :=
  l.wr i fun it => { it with data := v }

/-- Turn the result of a straight-line body into a `Run`. -/
def finish {α : Type} (o : Option (cyclist × α)) : Run cyclist α :=
  match o with
  | some (l, v) => Run.ok l v
  | none => Run.outOfRange

/-- Constructor `cyclist(int s)`: `ejs[i].data = i+1` for every slot, `prev`,
`hole`, `num` zero.  The `next` and `prev` members of the fresh slots are not
initialised by the code; `junk i` supplies their indeterminate contents. -/
def new (s : Nat) (junk : Nat → item) : cyclist :=
  { size := s, prev := 0, hole := 0, num := 0,
    ejs := (List.range s).map fun i => { junk i with data := (i : Int) + 1 } }

/-- Member `getEdge`. -/
def getEdge (l : cyclist) (list_pos : Int) : Run cyclist Int :=
  if list_pos < l.size then
    finish do
      let it ← l.rd list_pos
      pure (l, it.data)
  else Run.assertFail l

/-- Member `getNextPos`. -/
def getNextPos (l : cyclist) (list_pos : Int) : Run cyclist Int :=
  if list_pos < l.size then
    finish do
      let it ← l.rd list_pos
      pure (l, it.next)
  else Run.assertFail l

/-- Member `getNextNeg`. -/
def getNextNeg (l : cyclist) (list_pos : Int) : Run cyclist Int :=
  if list_pos < l.size then
    finish do
      let it ← l.rd list_pos
      pure (l, it.prev)
  else Run.assertFail l

/-- Statements of `delNextPos` / `delNextNeg` after the two assertions, up to
and including `num--`. -/
def unlink (l : cyclist) (list_pos : Int) : Option cyclist := do
  -- ejs[list_pos].data=hole; hole=list_pos;
  let l1 ← l.setData list_pos l.hole
  let l2 := { l1 with hole := list_pos }
  -- ejs[ejs[list_pos].prev].next=ejs[list_pos].next;
  let it ← l2.rd list_pos
  let l3 ← l2.setNext it.prev it.next
  -- ejs[ejs[list_pos].next].prev=ejs[list_pos].prev;
  let it3 ← l3.rd list_pos
  let l4 ← l3.setPrev it3.next it3.prev
  -- num--;
  pure { l4 with num := l4.num - 1 }

/-- Member `delNextPos`. -/
def delNextPos (l : cyclist) (list_pos : Int) : Run cyclist Int :=
  if list_pos < l.size then
    if l.num ≠ 0 then
      finish do
        let l5 ← l.unlink list_pos
        let it5 ← l5.rd list_pos
        pure (l5, it5.next)
    else Run.assertFail l
  else Run.assertFail l

/-- Member `delNextNeg`. -/
def delNextNeg (l : cyclist) (list_pos : Int) : Run cyclist Int :=
  if list_pos < l.size then
    if l.num ≠ 0 then
      finish do
        let l5 ← l.unlink list_pos
        let it5 ← l5.rd list_pos
        pure (l5, it5.prev)
    else Run.assertFail l
  else Run.assertFail l

/-- Body of `add` after its assertion. -/
def addBody (l : cyclist) (ej : Int) : Option cyclist := do
  -- int n=ejs[hole].data; ejs[hole].data=ej;
  let ith ← l.rd l.hole
  let n := ith.data
  let l1 ← l.setData l.hole ej
  -- ejs[prev].next=hole;
  let l2 ← l1.setNext l1.prev l1.hole
  -- ejs[hole].prev=prev;
  let l3 ← l2.setPrev l2.hole l2.prev
  -- ejs[hole].next=0;
  let l4 ← l3.setNext l3.hole 0
  -- ejs[0].prev=hole;
  let l5 ← l4.setPrev 0 l4.hole
  -- prev=hole; hole=n;num++;
  pure { l5 with prev := l5.hole, hole := n, num := l5.num + 1 }

/-- Member `add`. -/
def add (l : cyclist) (ej : Int) : Run cyclist Unit :=
  if l.hole < l.size then
    finish do
      let l6 ← l.addBody ej
      pure (l6, ())
  else Run.assertFail l

/-- Body of `addBefore` for a non-empty list. -/
def addBeforeBody (l : cyclist) (a ej : Int) : Option (cyclist × Int) := do
  -- int n=ejs[hole].data;
  let ith ← l.rd l.hole
  let n := ith.data
  -- ejs[hole].prev=ejs[a].prev;
  let ita ← l.rd a
  let l1 ← l.setPrev l.hole ita.prev
  -- ejs[hole].next=a;
  let l2 ← l1.setNext l1.hole a
  -- ejs[ejs[a].prev].next=hole;
  let ita2 ← l2.rd a
  let l3 ← l2.setNext ita2.prev l2.hole
  -- ejs[a].prev=hole;
  let l4 ← l3.setPrev a l3.hole
  -- ejs[hole].data=ej;
  let l5 ← l4.setData l4.hole ej
  -- prev=hole; hole=n; num++; return prev;
  pure ({ l5 with prev := l5.hole, hole := n, num := l5.num + 1 }, l5.hole)

/-- Member `addBefore`. -/
def addBefore (l : cyclist) (a ej : Int) : Run cyclist Int :=
  if a < l.size then
    if l.num = 0 then
      match l.add ej with
      | Run.ok l1 _ => Run.ok l1 l1.prev
      | Run.assertFail s => Run.assertFail s
      | Run.outOfRange => Run.outOfRange
    else finish (l.addBeforeBody a ej)
  else Run.assertFail l

/-- Body of `addAfter` for a non-empty list. -/
def addAfterBody (l : cyclist) (a ej : Int) : Option (cyclist × Int) := do
  -- int n=ejs[hole].data;
  let ith ← l.rd l.hole
  let n := ith.data
  -- ejs[hole].next=ejs[a].next;
  let ita ← l.rd a
  let l1 ← l.setNext l.hole ita.next
  -- ejs[ejs[a].next].prev=hole;
  let ita1 ← l1.rd a
  let l2 ← l1.setPrev ita1.next l1.hole
  -- ejs[a].next=hole;
  let l3 ← l2.setNext a l2.hole
  -- ejs[hole].prev=a;
  let l4 ← l3.setPrev l3.hole a
  -- ejs[hole].data=ej;
  let l5 ← l4.setData l4.hole ej
  -- prev=hole; hole=n; num++; return prev;
  pure ({ l5 with prev := l5.hole, hole := n, num := l5.num + 1 }, l5.hole)

/-- Member `addAfter`. -/
def addAfter (l : cyclist) (a ej : Int) : Run cyclist Int :=
  if a < l.size then
    if l.num = 0 then
      match l.add ej with
      | Run.ok l1 _ => Run.ok l1 l1.prev
      | Run.assertFail s => Run.assertFail s
      | Run.outOfRange => Run.outOfRange
    else finish (l.addAfterBody a ej)
  else Run.assertFail l

/-- Slots met when following `data` from index `h` while the index stays
inside the array, for at most `fuel` steps. -/
def freeChain (l : cyclist) : Nat → Int → List Int
  | 0, _ => []
  | fuel + 1, h =>
    match l.rd h with
    | some it => h :: freeChain l fuel it.data
    | none => []

/-- The free slots: the chain that starts at `hole`. -/
def freeSlots (l : cyclist) : List Int :=
  l.freeChain l.ejs.length l.hole

/-- Slot `i` is free: it is on the chain that starts at `hole`. -/
def isFree (l : cyclist) (i : Int) : Prop :=
  i ∈ l.freeSlots

/-- Slot `i` is occupied: it is a slot of the array that is not free. -/
def occupied (l : cyclist) (i : Int) : Prop :=
  0 ≤ i ∧ i < l.size ∧ i ∉ l.freeSlots

instance (l : cyclist) (i : Int) : Decidable (l.isFree i) := by
  unfold isFree; infer_instance

instance (l : cyclist) (i : Int) : Decidable (l.occupied i) := by
  unfold occupied; infer_instance

/-- Consistency of a list state: the array has `size` slots, `num` counts the
occupied slots, and the `next` and `prev` links of an occupied slot lead to
occupied slots. -/
def Consistent (l : cyclist) : Prop :=
  (l.ejs.length : Int) = l.size ∧ l.num + l.freeSlots.length = l.size ∧
  ∀ (k : Nat) (h : k < l.ejs.length), l.occupied k →
    l.occupied (l.ejs[k]).next ∧ l.occupied (l.ejs[k]).prev

instance (l : cyclist) : Decidable l.Consistent := by
  unfold Consistent; infer_instance

/-- Slot `b` is the `next` of slot `a`, and `a` is the `prev` of `b`. -/
def link (l : cyclist) (a b : Nat) : Prop :=
  ∃ x y, l.ejs[a]? = some x ∧ l.ejs[b]? = some y ∧ x.next = (b : Int) ∧ y.prev = (a : Int)

/-- Following `data` from the index `h` visits the slots `fr` in this order and
then reaches `size`. -/
def chainTo (l : cyclist) : Int → List Nat → Prop
  | h, [] => h = l.size
  | h, s :: rest => h = (s : Int) ∧ ∃ x, l.ejs[s]? = some x ∧ chainTo l x.data rest

/-- The list state `l` holds the cyclic list of the slots `cyc` (in `next`
order, `prev` the other way round), and its free slots are `fr`, in the order
in which they will be handed out. -/
structure Rep (l : cyclist) (cyc fr : List Nat) : Prop where
  len : (l.ejs.length : Int) = l.size
  num : l.num = (cyc.length : Int)
  perm : List.Perm (cyc ++ fr) (List.range l.ejs.length)
  chain : List.Chain' l.link cyc
  close : ∀ a b, cyc.head? = some a → cyc.getLast? = some b → l.link b a
  free : l.chainTo l.hole fr

/-- The well-formedness of a list state: the occupied slots form one cycle and
the free slots one chain from `hole` to `size`. -/
def WellFormed (l : cyclist) : Prop :=
  ∃ cyc fr, Rep l cyc fr

/-- A list of capacity three holding two entries. -/
def two3 : cyclist :=
  { size := 3, prev := 1, hole := 2, num := 2,
    ejs := [⟨1, 1, 5⟩, ⟨0, 0, 6⟩, ⟨0, 0, 3⟩] }

end cyclist

/-- A four-slot list holding edges 10, 11, 12 in slots 0, 1, 2 (the state
after three insertions into a fresh list); slot 3 was never filled. -/
def sample3 : cyclist :=
  { size := 4, prev := 2, hole := 3, num := 3,
    ejs := [⟨1, 2, 10⟩, ⟨2, 0, 11⟩, ⟨0, 1, 12⟩, ⟨0, 0, 4⟩] }

/-- A freshly constructed list of three slots. -/
def fresh3 : cyclist := cyclist.new 3 fun _ => ⟨0, 0, 0⟩

/-! ## Faults -/

/-- Ways in which a run ends without returning. -/
inductive Fault where
  /-- an `assert` failed -/
  | assertFail
  /-- `exit(1)` was called -/
  | exit1
  /-- an array was indexed outside its bounds -/
  | outOfRange
  /-- `new T[n]` with a negative `n` -/
  | badAlloc
  /-- the recursion of `swap` went deeper than the depth given to the model -/
  | diverge
  /-- a `while` loop of the model ran out of its iteration budget -/
  | outOfFuel
deriving DecidableEq, Repr

deriving instance DecidableEq for Except

/-- Sequencing of two member calls on the same object. -/
def Run.andThen {σ α β : Type} (r : Run σ α) (f : σ → α → Run σ β) : Run σ β :=
  match r with
  | Run.ok s v => f s v
  | Run.assertFail s => Run.assertFail s
  | Run.outOfRange => Run.outOfRange

/-- Use the outcome of a member function inside a caller. -/
def Run.toExcept {σ α : Type} : Run σ α → Except Fault (σ × α)
  | Run.ok s v => Except.ok (s, v)
  | Run.assertFail _ => Except.error Fault.assertFail
  | Run.outOfRange => Except.error Fault.outOfRange

/-! ## Classes `point` and `edge` -/

/-- Class `point`: the coordinates `x`, `y`. -/
structure point (K : Type) where
  x : K
  y : K
deriving DecidableEq, Repr

/-- Data members of class `edge`.  The members `from`, `to` and `let` of the
source are reserved words here and are written `from_`, `to_` and `let_`. -/
structure edge where
  from_ : Int
  to_ : Int
  lef : Int
  let_ : Int
  ref : Int
  ret : Int
deriving DecidableEq, Repr

/-- Constructor `edge()`: all six members are `-1`. -/
def edge.new : edge :=
  { from_ := -1, to_ := -1, lef := -1, let_ := -1, ref := -1, ret := -1 }

/-- Read `e[i]` of an edge table. -/
def rde (e : List edge) (i : Int) : Except Fault edge :=
  if 0 ≤ i then
    match e[i.toNat]? with
    | some x => Except.ok x
    | none => Except.error Fault.outOfRange
  else Except.error Fault.outOfRange

/-- Assignment `e[i] = f(e[i])` in an edge table. -/
def wre (e : List edge) (i : Int) (f : edge → edge) : Except Fault (List edge) :=
  match rde e i with
  | Except.ok x => Except.ok (e.set i.toNat (f x))
  | Except.error err => Except.error err

section geometry

variable {K : Type} [LinearOrderedField K]

/-- The operator `point::operator-`. -/
def point.sub (a b : point K) : point K :=
  ⟨a.x - b.x, a.y - b.y⟩

/-- Member `point::dot`. -/
def point.dot (a b : point K) : K :=
  a.x * b.x + a.y * b.y

/-- Twice the signed area of the triangle `a`, `b`, `c`: positive when the three
points are in anticlockwise order, zero when they are collinear. -/
def orient (a b c : point K) : K :=
  (b.x - a.x) * (c.y - a.y) - (b.y - a.y) * (c.x - a.x)

/-- The constant `mindistance = 0.0000001` of `edge::visible`. -/
def mindistance : K := 1 / 10000000

/-- Read `p[i]`; `none` when `i` is outside the array. -/
def rdp (p : List (point K)) (i : Int) : Option (point K) :=
  if 0 ≤ i then p[i.toNat]? else none

/-- Read `p[i]` inside a caller. -/
def rdpE (p : List (point K)) (i : Int) : Except Fault (point K) :=
  match rdp p i with
  | some x => Except.ok x
  | none => Except.error Fault.outOfRange

/-- Member `edge::visible`.  `p[from]` and `p[to]` are read by the first test;
when that test does not return, `p[i]` is read on every path. -/
def edge.visible (e : edge) (p : List (point K)) (i : Int) : Option Bool :=
  match rdp p e.from_, rdp p e.to_ with
  | some pf, some pt =>
    if |pf.x - pt.x| < mindistance then some true
    else
      match rdp p i with
      | some pi =>
        if |pt.y - pf.y| < mindistance ∧ pf.x < pt.x ∧ pi.y < pf.y then some true
        else if |pt.y - pf.y| < mindistance ∧ pf.x > pt.x ∧ pi.y > pf.y then some true
        else if pt.y ≥ pi.y ∧ pf.y ≤ pi.y ∧ |pf.y - pt.y| > mindistance then some true
        else if pt.x > pf.x then
          if pi.y < pf.y + (pt.y - pf.y) / (pt.x - pf.x) * (pi.x - pf.x) then some true
          else some false
        else if pt.x < pf.x then
          if pi.y > pf.y + (pt.y - pf.y) / (pt.x - pf.x) * (pi.x - pf.x) then some true
          else some false
        else some false
      | none => none
  | _, _ => none

/-- One assignment `e[idx].field = value` of `edge::swap`, where `idx` and
`value` are members of `*this = e[tint]`, read when the statement runs. -/
def assign (tint : Int) (idx : edge → Int) (f : edge → edge → edge)
    (e : List edge) : Except Fault (List edge) := do
  let t ← rde e tint
  wre e (idx t) (f t)

/-- Statement of the flip:
`if (e[ref].from == from){ e[ref].lef=lef; e[ref].let=tint; }
else{ e[ref].ref=tint; e[ref].ret=lef; }`. -/
def rewireRef (tint : Int) (e0 : List edge) : Except Fault (List edge) := do
  let t ← rde e0 tint
  let n ← rde e0 t.ref
  if n.from_ = t.from_ then do
    let e ← assign tint (fun t => t.ref) (fun t x => { x with lef := t.lef }) e0
    assign tint (fun t => t.ref) (fun _ x => { x with let_ := tint }) e
  else do
    let e ← assign tint (fun t => t.ref) (fun _ x => { x with ref := tint }) e0
    assign tint (fun t => t.ref) (fun t x => { x with ret := t.lef }) e

/-- Statement of the flip:
`if (e[lef].from==from){ e[lef].ref=ref; e[lef].ret=tint; }
else{ e[lef].lef=tint; e[lef].let=ref; }`. -/
def rewireLef (tint : Int) (e0 : List edge) : Except Fault (List edge) := do
  let t ← rde e0 tint
  let n ← rde e0 t.lef
  if n.from_ = t.from_ then do
    let e ← assign tint (fun t => t.lef) (fun t x => { x with ref := t.ref }) e0
    assign tint (fun t => t.lef) (fun _ x => { x with ret := tint }) e
  else do
    let e ← assign tint (fun t => t.lef) (fun _ x => { x with lef := tint }) e0
    assign tint (fun t => t.lef) (fun t x => { x with let_ := t.ref }) e

/-- Statement of the flip:
`if (e[ret].to==to){ e[ret].lef=tint; e[ret].let=let; }
else{ e[ret].ref=let; e[ret].ret=tint; }`. -/
def rewireRet (tint : Int) (e0 : List edge) : Except Fault (List edge) := do
  let t ← rde e0 tint
  let n ← rde e0 t.ret
  if n.to_ = t.to_ then do
    let e ← assign tint (fun t => t.ret) (fun _ x => { x with lef := tint }) e0
    assign tint (fun t => t.ret) (fun t x => { x with let_ := t.let_ }) e
  else do
    let e ← assign tint (fun t => t.ret) (fun t x => { x with ref := t.let_ }) e0
    assign tint (fun t => t.ret) (fun _ x => { x with ret := tint }) e

/-- Statement of the flip:
`if (e[let].to==to){ e[let].ref=tint; e[let].ret=ret; }
else{ e[let].lef=ret; e[let].let=tint; }`. -/
def rewireLet (tint : Int) (e0 : List edge) : Except Fault (List edge) := do
  let t ← rde e0 tint
  let n ← rde e0 t.let_
  if n.to_ = t.to_ then do
    let e ← assign tint (fun t => t.let_) (fun _ x => { x with ref := tint }) e0
    assign tint (fun t => t.let_) (fun t x => { x with ret := t.ret }) e
  else do
    let e ← assign tint (fun t => t.let_) (fun t x => { x with lef := t.ret }) e0
    assign tint (fun t => t.let_) (fun _ x => { x with let_ := tint }) e

/-- The flip of `edge::swap`: the four statements that rewire the neighbours,
then the new end points and the rotated neighbour fields of `*this = e[tint]`:
`to=rightp; from=leftp; int rf=ref; ref=lef; int rt=ret; ret=rf; int lt=let;
let=rt; lef=lt;`. -/
def flipStep (tint leftp rightp : Int) (e0 : List edge) : Except Fault (List edge) := do
  let e1 ← rewireRef tint e0
  let e2 ← rewireLef tint e1
  let e3 ← rewireRet tint e2
  let e4 ← rewireLet tint e3
  wre e4 tint fun t =>
    { from_ := leftp, to_ := rightp, lef := t.let_, let_ := t.ret, ref := t.lef, ret := t.ref }

/-- The four recursive calls of `edge::swap` that follow the flip of `e[tint]`,
with the calls themselves passed as `rec`:
`e[lef].swap(lef,e,p); e[let].swap(let,e,p); e[ref].swap(ref,e,p);
e[ret].swap(ret,e,p); return 1;`. -/
def afterFlip (rec : Int → List edge → Except Fault (List edge × Int))
    (tint : Int) (e : List edge) : Except Fault (List edge × Int) := do
  -- e[lef].swap(lef,e,p);
  let t ← rde e tint
  let r ← rec t.lef e
  -- e[let].swap(let,e,p);
  let t ← rde r.1 tint
  let r ← rec t.let_ r.1
  -- e[ref].swap(ref,e,p);
  let t ← rde r.1 tint
  let r ← rec t.ref r.1
  -- e[ret].swap(ret,e,p);
  let t ← rde r.1 tint
  let r ← rec t.ret r.1
  -- return 1;
  pure (r.1, 1)

/-- Member `edge::swap`, called as `e[tint].swap(tint, e, p)`.  The library
function `sqrt` is a parameter; `depth` bounds the depth of the recursion. -/
def edge.swap (sqrt : K → K) :
    Nat → Int → List edge → List (point K) → Except Fault (List edge × Int)
  | 0, _, _, _ => Except.error Fault.diverge
  | depth + 1, tint, e, p => do
    let t ← rde e tint
    -- if (ref==-1 || lef==-1 || let==-1 || ret==-1)return 0;
    if t.ref = -1 ∨ t.lef = -1 ∨ t.let_ = -1 ∨ t.ret = -1 then pure (e, 0)
    else do
      -- if (e[lef].from==from)leftp=e[lef].to; else leftp=e[lef].from;
      let el ← rde e t.lef
      let leftp := if el.from_ = t.from_ then el.to_ else el.from_
      -- if (e[ref].from==from)rightp=e[ref].to; else rightp=e[ref].from;
      let er ← rde e t.ref
      let rightp := if er.from_ = t.from_ then er.to_ else er.from_
      let pl ← rdpE p leftp
      let pf ← rdpE p t.from_
      let pt ← rdpE p t.to_
      let pr ← rdpE p rightp
      let p1 := pl.sub pf
      let p2 := pl.sub pt
      let p3 := pr.sub pf
      let p4 := pr.sub pt
      let dt1 := p1.dot p2
      let dt2 := p3.dot p4
      if dt1 < 0 ∨ dt2 < 0 then
        -- dt1=dt1/sqrt(p1.dot(p1)*p2.dot(p2)); dt2=dt2/sqrt(p3.dot(p3)*p4.dot(p4));
        if dt1 / sqrt (p1.dot p1 * p2.dot p2) + dt2 / sqrt (p3.dot p3 * p4.dot p4) < 0 then do
          let e ← flipStep tint leftp rightp e
          afterFlip (fun n e => edge.swap sqrt depth n e p) tint e
        else pure (e, 0)
      else pure (e, 0)

/-- The flip criterion of `edge::swap` on the end points `pf`, `pt` of the edge
and the opposite points `pl`, `pr`: one of the dot products
`dt1 = (pl-pf).(pl-pt)`, `dt2 = (pr-pf).(pr-pt)` is negative, and the sum of the
quotients `dt1/sqrt(p1.p1*p2.p2)`, `dt2/sqrt(p3.p3*p4.p4)` is negative. -/
def flipTest (sqrt : K → K) (pl pf pt pr : point K) : Prop :=
  ((pl.sub pf).dot (pl.sub pt) < 0 ∨ (pr.sub pf).dot (pr.sub pt) < 0) ∧
  (pl.sub pf).dot (pl.sub pt) /
      sqrt ((pl.sub pf).dot (pl.sub pf) * (pl.sub pt).dot (pl.sub pt)) +
    (pr.sub pf).dot (pr.sub pt) /
      sqrt ((pr.sub pf).dot (pr.sub pf) * (pr.sub pt).dot (pr.sub pt)) < 0

instance (sqrt : K → K) (pl pf pt pr : point K) :
    Decidable (flipTest sqrt pl pf pt pr) := by
  unfold flipTest
  infer_instance

/-- Number of entries of an edge table with `from != -1`. -/
def usedEdges (e : List edge) : Nat :=
  e.countP fun x => decide (x.from_ ≠ -1)

end geometry

/-! ## Function `triangulate` -/

/-- Local variables of `triangulate` that live across its statements. -/
structure Driver where
  hull : cyclist
  edges : List edge
  lower_hull_pos : Int
  upper_hull_pos : Int
  next_edge : Int
  saved_edge : Int
  count : Int
deriving DecidableEq, Repr

namespace Driver

/-- The call `hull.getEdge(pos)`. -/
def hullEdge (d : Driver) (pos : Int) : Except Fault Int := do
  let r ← (d.hull.getEdge pos).toExcept
  pure r.2

/-- Assignment `edges[i] = f(edges[i])`. -/
def setE (d : Driver) (i : Int) (f : edge → edge) : Except Fault Driver := do
  let e ← wre d.edges i f
  pure { d with edges := e }

end Driver

section driver

variable {K : Type} [LinearOrderedField K]

/-- The test `edges[hull.getEdge(pos)].visible(p,i)`. -/
def visibleAt (p : List (point K)) (i : Int) (d : Driver) (pos : Int) :
    Except Fault Bool := do
  let h ← d.hullEdge pos
  let e ← rde d.edges h
  match e.visible p i with
  | some b => pure b
  | none => Except.error Fault.outOfRange

/-- The three insertions that put the seed edges on the hull:
`start=hull.addAfter(0,0); lower_hull_pos=hull.addAfter(start,1);
upper_hull_pos=hull.addAfter(lower_hull_pos,2);`.  Returns the hull with
`lower_hull_pos` and `upper_hull_pos`. -/
def seedHull (hull : cyclist) : Except Fault (cyclist × Int × Int) := do
  let r0 ← (hull.addAfter 0 0).toExcept
  let r1 ← (r0.1.addAfter r0.2 1).toExcept
  let r2 ← (r1.1.addAfter r1.2 2).toExcept
  pure (r2.1, r1.2, r2.2)

/-- The comparison `a > b + n / d` of `double` values where the divisor may be
zero.  For `d = 0` the quotient of IEEE arithmetic is `+inf` when `n > 0`, `-inf`
when `n < 0` and NaN when `n = 0`, so the comparison is false, true and false. -/
def gtQuot (a b n d : K) : Bool :=
  if d = 0 then decide (n < 0) else decide (a > b + n / d)

/-- The end points of the three seed edges, by the orientation test
`p[2].y>p[0].y+(p[1].y-p[0].y)*(p[2].x-p[0].x)/(p[1].x-p[0].x)` on
`p[0]`, `p[1]`, `p[2]`; the divisor is zero when `p[0].x = p[1].x`. -/
def seedEnds (p : List (point K)) (edges : List edge) : Except Fault (List edge) := do
  let p0 ← rdpE p 0
  let p1 ← rdpE p 1
  let p2 ← rdpE p 2
  if gtQuot p2.y p0.y ((p1.y - p0.y) * (p2.x - p0.x)) (p1.x - p0.x) then do
    let e ← wre edges 0 fun x => { x with from_ := 0, to_ := 1 }
    let e ← wre e 1 fun x => { x with from_ := 1, to_ := 2 }
    wre e 2 fun x => { x with from_ := 2, to_ := 0 }
  else do
    let e ← wre edges 0 fun x => { x with from_ := 0, to_ := 2 }
    let e ← wre e 1 fun x => { x with from_ := 2, to_ := 1 }
    wre e 2 fun x => { x with from_ := 1, to_ := 0 }

/-- The seed edges: their end points, then the six `lef` / `let` assignments. -/
def seedEdges (p : List (point K)) (edges : List edge) : Except Fault (List edge) := do
  let e ← seedEnds p edges
  let e ← wre e 0 fun x => { x with lef := 2, let_ := 1 }
  let e ← wre e 1 fun x => { x with lef := 0, let_ := 2 }
  wre e 2 fun x => { x with lef := 1, let_ := 0 }

/-- The part of `triangulate` before the loop over the points. -/
def seed (junk : Nat → item) (npoints : Int) (p : List (point K)) :
    Except Fault Driver :=
  -- cyclist hull(npoints); edges=new edge[3*npoints];
  if npoints < 0 then Except.error Fault.badAlloc
  else do
    let hull := cyclist.new npoints.toNat junk
    let edges := List.replicate (3 * npoints).toNat edge.new
    let e ← seedEdges p edges
    let r ← seedHull hull
    -- int next_edge=3;
    pure { hull := r.1, edges := e, lower_hull_pos := r.2.1, upper_hull_pos := r.2.2,
           next_edge := 3, saved_edge := -1, count := 0 }

/-- The statements run when the upper reference edge is not visible from
`p[i]` and `w` is the visibility of the lower one:
`if(!w){ if (i==3){ lower_hull_pos=hull.getNextPos(upper_hull_pos);
upper_hull_pos=hull.getNextPos(lower_hull_pos); }else{ exit(1); } }`. -/
def cantSee (i : Int) (w : Bool) (d : Driver) : Except Fault Driver :=
  if w then pure d
  else if i = 3 then do
    let r ← (d.hull.getNextPos d.upper_hull_pos).toExcept
    let d := { d with lower_hull_pos := r.2 }
    let r ← (d.hull.getNextPos d.lower_hull_pos).toExcept
    pure { d with upper_hull_pos := r.2 }
  else Except.error Fault.exit1

/-- The first new edge when the upper reference edge is visible. -/
def firstUpper (i : Int) (d : Driver) : Except Fault Driver := do
  -- edges[next_edge].from=edges[hull.getEdge(upper_hull_pos)].from;
  let h ← d.hullEdge d.upper_hull_pos
  let eh ← rde d.edges h
  let d ← d.setE d.next_edge fun x => { x with from_ := eh.from_ }
  -- edges[next_edge].to=i;
  let d ← d.setE d.next_edge fun x => { x with to_ := i }
  -- saved_edge=next_edge;
  let d := { d with saved_edge := d.next_edge }
  -- edges[next_edge].lef=hull.getEdge(upper_hull_pos);
  let h ← d.hullEdge d.upper_hull_pos
  let d ← d.setE d.next_edge fun x => { x with lef := h }
  -- edges[next_edge].let=next_edge+1;
  let d ← d.setE d.next_edge fun x => { x with let_ := d.next_edge + 1 }
  -- next_edge++;
  pure { d with next_edge := d.next_edge + 1 }

/-- The first new edge when the upper reference edge is not visible: the
statements that follow the test of the lower reference edge. -/
def firstLowerEdge (i : Int) (d : Driver) : Except Fault Driver := do
  -- edges[next_edge].from=i;
  let d ← d.setE d.next_edge fun x => { x with from_ := i }
  -- edges[next_edge].to=edges[hull.getEdge(lower_hull_pos)].to;
  let h ← d.hullEdge d.lower_hull_pos
  let eh ← rde d.edges h
  let d ← d.setE d.next_edge fun x => { x with to_ := eh.to_ }
  -- edges[next_edge].let=hull.getEdge(lower_hull_pos);
  let h ← d.hullEdge d.lower_hull_pos
  let d ← d.setE d.next_edge fun x => { x with let_ := h }
  -- edges[next_edge].lef=next_edge+1;
  let d ← d.setE d.next_edge fun x => { x with lef := d.next_edge + 1 }
  -- next_edge++;
  pure { d with next_edge := d.next_edge + 1 }

/-- The `else` branch for an upper reference edge that is not visible: the test
of the lower reference edge, then the first new edge. -/
def firstLower (p : List (point K)) (i : Int) (d : Driver) : Except Fault Driver := do
  -- if(!edges[hull.getEdge(lower_hull_pos)].visible(p,i)){ ... }
  let w ← visibleAt p i d d.lower_hull_pos
  let d ← cantSee i w d
  firstLowerEdge i d

/-- The `if`/`else` on the visibility `v` of the upper reference edge. -/
def firstNew (p : List (point K)) (i : Int) (v : Bool) (d : Driver) : Except Fault Driver :=
  if v then firstUpper i d else firstLower p i d

/-- Loop body for point `i`, from `saved_edge=-1` to `count=0`: the first new
edge, joined to the upper or to the lower reference edge. -/
def firstEdge (p : List (point K)) (i : Int) (d0 : Driver) : Except Fault Driver := do
  -- saved_edge=-1;
  let d := { d0 with saved_edge := -1 }
  let v ← visibleAt p i d d.upper_hull_pos
  let d ← firstNew p i v d
  -- count=0;
  pure { d with count := 0 }

variable (sqrt : K → K) (depth : Nat)

/-- Statement of the upper `while` body:
`if (count!=0){ edges[next_edge-1].ref=next_edge; edges[next_edge-1].ret=h; }`. -/
def linkUpper (h : Int) (d : Driver) : Except Fault Driver :=
  if d.count ≠ 0 then do
    let d ← d.setE (d.next_edge - 1) fun x => { x with ref := d.next_edge }
    d.setE (d.next_edge - 1) fun x => { x with ret := h }
  else pure d

/-- Statement of the lower `while` body:
`if (saved_edge==-1){ saved_edge=next_edge-1; }
else{ edges[saved_edge].ref=h; edges[saved_edge].ret=next_edge; }`. -/
def linkLower (h : Int) (d : Driver) : Except Fault Driver :=
  if d.saved_edge = -1 then pure { d with saved_edge := d.next_edge - 1 }
  else do
    let d ← d.setE d.saved_edge fun x => { x with ref := h }
    d.setE d.saved_edge fun x => { x with ret := d.next_edge }

/-- Statements of the upper `while` body that wire the new edge
`edges[next_edge]` to the hull edge `h`, up to the call of `swap`. -/
def upperWire (i h : Int) (d : Driver) : Except Fault Driver := do
  -- edges[next_edge].from=i;
  let d ← d.setE d.next_edge fun x => { x with from_ := i }
  -- edges[next_edge].to=edges[h].to;
  let eh ← rde d.edges h
  let d ← d.setE d.next_edge fun x => { x with to_ := eh.to_ }
  -- if (count!=0){ edges[next_edge-1].ref=next_edge; edges[next_edge-1].ret=h; }
  let d ← linkUpper h d
  -- count++;
  let d := { d with count := d.count + 1 }
  -- edges[h].ref=next_edge-1; edges[h].ret=next_edge;
  let d ← d.setE h fun x => { x with ref := d.next_edge - 1 }
  let d ← d.setE h fun x => { x with ret := d.next_edge }
  -- edges[next_edge].let=h; edges[next_edge].lef=next_edge-1;
  let d ← d.setE d.next_edge fun x => { x with let_ := h }
  d.setE d.next_edge fun x => { x with lef := d.next_edge - 1 }

/-- Statements of the upper `while` body that work on the edge table, up to
`next_edge++`. -/
def upperEdges (p : List (point K)) (i : Int) (d : Driver) : Except Fault Driver := do
  -- h=hull.getEdge(upper_hull_pos);
  let h ← d.hullEdge d.upper_hull_pos
  let d ← upperWire i h d
  -- edges[h].swap(h,edges,p);
  let r ← edge.swap sqrt depth h d.edges p
  -- next_edge++;
  pure { d with edges := r.1, next_edge := d.next_edge + 1 }

/-- One pass through the body of the upper `while` loop. -/
def upperStep (p : List (point K)) (i : Int) (d : Driver) : Except Fault Driver := do
  let d ← upperEdges sqrt depth p i d
  -- upper_hull_pos=hull.delNextPos(upper_hull_pos);
  let r ← (d.hull.delNextPos d.upper_hull_pos).toExcept
  pure { d with hull := r.1, upper_hull_pos := r.2 }

/-- The upper `while` loop with an iteration budget. -/
def upperLoop (p : List (point K)) (i : Int) : Nat → Driver → Except Fault Driver
  | 0, _ => Except.error Fault.outOfFuel
  | n + 1, d => do
    let v ← visibleAt p i d d.upper_hull_pos
    if v then do
      let d ← upperStep sqrt depth p i d
      upperLoop p i n d
    else pure d

/-- The upper `while` loop.  Every pass removes a slot of the hull and the
removal asserts `num != 0`, so `num + 1` passes are never exceeded. -/
def upperSweep (p : List (point K)) (i : Int) (d : Driver) : Except Fault Driver :=
  upperLoop sqrt depth p i (d.hull.num.toNat + 1) d

/-- The statement `upper_hull_pos=hull.addBefore(upper_hull_pos,next_edge-1);`. -/
def upperInsert (d : Driver) : Except Fault Driver := do
  let r ← (d.hull.addBefore d.upper_hull_pos (d.next_edge - 1)).toExcept
  pure { d with hull := r.1, upper_hull_pos := r.2 }

/-- Statements of the lower `while` body that work on the edge table, up to
`next_edge++`. -/
def lowerEdges (p : List (point K)) (i : Int) (d : Driver) : Except Fault Driver := do
  -- h=hull.getEdge(lower_hull_pos);
  let h ← d.hullEdge d.lower_hull_pos
  -- if (saved_edge==-1){ ... }else{ ... }
  let d ← linkLower h d
  -- edges[next_edge].to=i;
  let d ← d.setE d.next_edge fun x => { x with to_ := i }
  -- edges[next_edge].from=edges[h].from;
  let eh ← rde d.edges h
  let d ← d.setE d.next_edge fun x => { x with from_ := eh.from_ }
  -- edges[h].ret=saved_edge; edges[h].ref=next_edge;
  let d ← d.setE h fun x => { x with ret := d.saved_edge }
  let d ← d.setE h fun x => { x with ref := d.next_edge }
  -- edges[next_edge].lef=h; edges[next_edge].let=saved_edge;
  let d ← d.setE d.next_edge fun x => { x with lef := h }
  let d ← d.setE d.next_edge fun x => { x with let_ := d.saved_edge }
  -- edges[h].swap(h,edges,p);
  let r ← edge.swap sqrt depth h d.edges p
  -- saved_edge=next_edge; next_edge++;
  pure { d with edges := r.1, saved_edge := d.next_edge, next_edge := d.next_edge + 1 }

/-- One pass through the body of the lower `while` loop. -/
def lowerStep (p : List (point K)) (i : Int) (d : Driver) : Except Fault Driver := do
  let d ← lowerEdges sqrt depth p i d
  -- lower_hull_pos=hull.delNextNeg(lower_hull_pos);
  let r ← (d.hull.delNextNeg d.lower_hull_pos).toExcept
  pure { d with hull := r.1, lower_hull_pos := r.2 }

/-- The lower `while` loop with an iteration budget. -/
def lowerLoop (p : List (point K)) (i : Int) : Nat → Driver → Except Fault Driver
  | 0, _ => Except.error Fault.outOfFuel
  | n + 1, d => do
    let v ← visibleAt p i d d.lower_hull_pos
    if v then do
      let d ← lowerStep sqrt depth p i d
      lowerLoop p i n d
    else pure d

/-- The lower `while` loop, with the budget `num + 1` as for the upper one. -/
def lowerSweep (p : List (point K)) (i : Int) (d : Driver) : Except Fault Driver :=
  lowerLoop sqrt depth p i (d.hull.num.toNat + 1) d

/-- The statement `lower_hull_pos=hull.addAfter(lower_hull_pos,saved_edge);`. -/
def lowerInsert (d : Driver) : Except Fault Driver := do
  let r ← (d.hull.addAfter d.lower_hull_pos d.saved_edge).toExcept
  pure { d with hull := r.1, lower_hull_pos := r.2 }

/-- The state in which the hull receives the new upper edge of point `i`:
after the first edge and the upper sweep. -/
def beforeUpperInsert (p : List (point K)) (i : Int) (d : Driver) : Except Fault Driver := do
  let d ← firstEdge p i d
  upperSweep sqrt depth p i d

/-- The state in which the hull receives the new lower edge of point `i`:
after the insertion of the upper edge and the lower sweep. -/
def beforeLowerInsert (p : List (point K)) (i : Int) (d : Driver) : Except Fault Driver := do
  let d ← beforeUpperInsert sqrt depth p i d
  let d ← upperInsert d
  lowerSweep sqrt depth p i d

/-- The body of the loop `for (int i=3;i<npoints;i++)` for one point `i`. -/
def processPoint (p : List (point K)) (i : Int) (d : Driver) : Except Fault Driver := do
  let d ← beforeLowerInsert sqrt depth p i d
  lowerInsert d

variable (junk : Nat → item)

/-- The state of `triangulate` after the seed and the first `k` passes of the
loop over the points, that is after the points `3, …, 3 + k - 1`. -/
def run (npoints : Int) (p : List (point K)) : Nat → Except Fault Driver
  | 0 => seed junk npoints p
  | k + 1 => do
    let d ← run npoints p k
    processPoint sqrt depth p (3 + (k : Int)) d

/-- Function `triangulate`, up to the end of the loop over the points. -/
def triangulate (npoints : Int) (p : List (point K)) : Except Fault Driver :=
  run sqrt depth junk npoints p (npoints - 3).toNat

/-- The loop that writes the result,
`int i=0; while(edges[i].from != -1 ){edges[i].write(file,p);i++;}`, as the
index at which it stops; what `write` sends to the file is not modelled.  The
loop starts at index `i` and has an iteration budget. -/
def scanLoop (e : List edge) : Nat → Int → Except Fault Int
  | 0, _ => Except.error Fault.outOfFuel
  | n + 1, i => do
    let x ← rde e i
    if x.from_ ≠ -1 then scanLoop e n (i + 1) else pure i

/-- The output loop from index 0; the table has `e.length` entries, so
`e.length + 1` passes are never exceeded. -/
def scan (e : List edge) : Except Fault Int :=
  scanLoop e (e.length + 1) 0

end driver

/-! ## Sample data -/

/-- The edge from point 0 to point 1, without neighbours. -/
def edge01 : edge :=
  { from_ := 0, to_ := 1, lef := -1, let_ := -1, ref := -1, ret := -1 }

/-- Four points sorted by `x`. -/
def pts4 : List (point ℚ) := [⟨0, 0⟩, ⟨1, 2⟩, ⟨2, -1⟩, ⟨3, 0⟩]

/-- Contents given to the `next` and `prev` members of fresh slots. -/
def junk0 : Nat → item := fun _ => ⟨0, 0, 0⟩

/-- The state of `triangulate(4, pts4)` when the loop starts. -/
def seed4 : Driver :=
  { hull := { size := 4, prev := 2, hole := 3, num := 3,
              ejs := [⟨1, 2, 0⟩, ⟨2, 0, 1⟩, ⟨0, 1, 2⟩, ⟨0, 0, 4⟩] },
    edges := [⟨0, 2, 2, 1, -1, -1⟩, ⟨2, 1, 0, 2, -1, -1⟩, ⟨1, 0, 1, 0, -1, -1⟩] ++
      List.replicate 9 edge.new,
    lower_hull_pos := 1, upper_hull_pos := 2, next_edge := 3, saved_edge := -1,
    count := 0 }

/-- Stand-in for the library `sqrt` in runs on `pts4`, which never call it. -/
def sqrt0 : ℚ → ℚ := fun x => x

/-- The state of `triangulate(4, pts4)` when the lower edge of point 3 is
about to be put on the hull. -/
def lower4 : Driver :=
  { hull := { size := 4, prev := 3, hole := 1, num := 3,
              ejs := [⟨3, 2, 0⟩, ⟨3, 0, 4⟩, ⟨0, 3, 2⟩, ⟨2, 0, 3⟩] },
    edges := [⟨0, 2, 2, 1, -1, -1⟩, ⟨2, 1, 0, 2, 4, 3⟩, ⟨1, 0, 1, 0, -1, -1⟩,
      ⟨3, 1, 4, 1, -1, -1⟩, ⟨2, 3, 1, 3, -1, -1⟩] ++ List.replicate 7 edge.new,
    lower_hull_pos := 0, upper_hull_pos := 3, next_edge := 5, saved_edge := 4,
    count := 0 }

/-- The list `fresh3` after `addAfter(0,10)`, `addAfter(0,11)`, `delNextPos(0)`
and `delNextPos(1)`: empty again, with `hole = 1`. -/
def emptied3 : cyclist :=
  { size := 3, prev := 1, hole := 1, num := 0,
    ejs := [⟨1, 1, 2⟩, ⟨1, 1, 0⟩, ⟨0, 0, 3⟩] }

/-- Four points: the end points `(-1,0)`, `(1,0)` of a diagonal and the points
`(0,1/2)`, `(0,-1/2)` on its two sides. -/
def quadPts : List (point ℚ) := [⟨-1, 0⟩, ⟨1, 0⟩, ⟨0, 1 / 2⟩, ⟨0, -1 / 2⟩]

/-- Edge table of the two triangles on `quadPts`: edge 0 is the diagonal
`0 -> 1`, edges 1 .. 4 are the boundary `2 -> 0`, `1 -> 2`, `0 -> 3`, `3 -> 1`. -/
def quad5 : List edge :=
  [⟨0, 1, 1, 2, 3, 4⟩, ⟨2, 0, 2, 0, -1, -1⟩, ⟨1, 2, 0, 1, -1, -1⟩,
   ⟨0, 3, 0, 4, -1, -1⟩, ⟨3, 1, 3, 0, -1, -1⟩]

/-- The table `quad5` after the flip of edge 0. -/
def quad5Flipped : List edge :=
  [⟨2, 3, 2, 4, 1, 3⟩, ⟨2, 0, 0, 3, -1, -1⟩, ⟨1, 2, 4, 0, -1, -1⟩,
   ⟨0, 3, 1, 0, -1, -1⟩, ⟨3, 1, 0, 2, -1, -1⟩]

/-- Three points, x-sorted, the first two with the same `x`. -/
def tri3 : List (point ℚ) := [⟨0, 0⟩, ⟨0, 1⟩, ⟨1, 0⟩]

/-- Two points only. -/
def pts2 : List (point ℚ) := [⟨0, 0⟩, ⟨1, 0⟩]

/-- Four points in general position, x-sorted; the fourth lies far below. -/
def ptsBelow : List (point ℚ) := [⟨0, 0⟩, ⟨1, 2⟩, ⟨2, -1⟩, ⟨3, -10⟩]

/-- Four points in general position, x-sorted; the fourth lies above. -/
def ptsAbove : List (point ℚ) := [⟨0, 0⟩, ⟨1, -2⟩, ⟨2, 1⟩, ⟨3, 5⟩]

/-- The state of `triangulate` on `ptsBelow` when the loop over the points has
ended. -/
def below4 : Driver :=
  { hull := { size := 4, prev := 0, hole := 4, num := 4,
              ejs := [⟨3, 2, 4⟩, ⟨2, 3, 1⟩, ⟨0, 1, 2⟩, ⟨1, 0, 3⟩] },
    edges := [⟨0, 2, 2, 1, 4, 3⟩, ⟨2, 1, 0, 2, -1, -1⟩, ⟨1, 0, 1, 0, -1, -1⟩,
      ⟨3, 2, 4, 0, -1, -1⟩, ⟨0, 3, 0, 3, -1, -1⟩] ++ List.replicate 7 edge.new,
    lower_hull_pos := 0, upper_hull_pos := 3, next_edge := 5, saved_edge := 4,
    count := 0 }

/-- The points `pts4` followed by a fifth point to their left. -/
def lost5 : List (point ℚ) := pts4 ++ [⟨0, 3⟩]

/-- The state of `triangulate` on `lost5` after the pass for point 3. -/
def state5 : Driver :=
  { hull := { size := 5, prev := 1, hole := 4, num := 4,
              ejs := [⟨1, 2, 0⟩, ⟨3, 0, 4⟩, ⟨0, 3, 2⟩, ⟨2, 1, 3⟩, ⟨0, 0, 5⟩] },
    edges := [⟨0, 2, 2, 1, -1, -1⟩, ⟨2, 1, 0, 2, 4, 3⟩, ⟨1, 0, 1, 0, -1, -1⟩,
      ⟨3, 1, 4, 1, -1, -1⟩, ⟨2, 3, 1, 3, -1, -1⟩] ++ List.replicate 10 edge.new,
    lower_hull_pos := 1, upper_hull_pos := 3, next_edge := 5, saved_edge := 4,
    count := 0 }

/-- The state of `triangulate` on `ptsAbove` in the pass for point 3, after
the first new edge. -/
def aboveFirst : Driver :=
  { hull := { size := 4, prev := 2, hole := 3, num := 3,
              ejs := [⟨1, 2, 0⟩, ⟨2, 0, 1⟩, ⟨0, 1, 2⟩, ⟨0, 0, 4⟩] },
    edges := [⟨0, 1, 2, 1, -1, -1⟩, ⟨1, 2, 0, 2, -1, -1⟩, ⟨2, 0, 1, 0, -1, -1⟩,
      ⟨2, 3, 2, 4, -1, -1⟩] ++ List.replicate 8 edge.new,
    lower_hull_pos := 1, upper_hull_pos := 2, next_edge := 4, saved_edge := 3,
    count := 0 }

/-! ## Consistent edge tables and the potential of a table -/

section delaunay

variable {K : Type} [LinearOrderedField K]

/-- The in-circle polynomial -/
def inCircle (pf pt pl pr : point K) : K :=
  orient pf pt pl * (pr.sub pf).dot (pr.sub pt) - (pl.sub pf).dot (pl.sub pt) * orient pf pt pr

/-- Weight of a triangle. -/
def lift3 (a b c : point K) : K :=
  orient a b c * (a.dot a + b.dot b + c.dot c)

/-- The edge `n` joins the points `u` and `v`, in one of the two directions. -/
def edge.joins (n : edge) (u v : Int) : Prop :=
  (n.from_ = u ∧ n.to_ = v) ∨ (n.from_ = v ∧ n.to_ = u)

/-- The two neighbour fields of the side that lies to the left when the edge is
walked starting at its end point `s`: the neighbour at `s`, then the neighbour
at the other end.  Walking from `from` these are `lef`, `let`; walking from `to`
they are `ret`, `ref`. -/
def edge.pairAt (x : edge) (s : Int) : Int × Int :=
  if x.from_ = s then (x.lef, x.let_) else (x.ret, x.ref)

/-- The side of edge `i` (entry `x`) to the left of the walk `s -> t` is a
triangle of the table: its two neighbour fields name edges `ea` (joining `s`
and a third point `l`) and `eb` (joining `t` and `l`), each of which names the
other two edges of the triangle on its own side towards it, and `l` lies
strictly to the left of `s -> t`. -/
def Tri (e : List edge) (p : List (point K)) (i : Int) (x : edge) (s t : Int) : Prop :=
  ∃ (l : Int) (ea eb : edge) (ps pt pl : point K),
    rde e (x.pairAt s).1 = Except.ok ea ∧ rde e (x.pairAt s).2 = Except.ok eb ∧
    ea.joins s l ∧ eb.joins t l ∧
    ea.pairAt l = ((x.pairAt s).2, i) ∧ eb.pairAt t = (i, (x.pairAt s).1) ∧
    rdpE p s = Except.ok ps ∧ rdpE p t = Except.ok pt ∧ rdpE p l = Except.ok pl ∧
    0 < orient ps pt pl

/-- Local consistency of an edge table: each side of each edge is either
unresolved (both neighbour fields `-1`) or a triangle of the table. -/
def Valid (e : List edge) (p : List (point K)) : Prop :=
  ∀ (i : Nat) (x : edge), e[i]? = some x →
    (x.pairAt x.from_ = (-1, -1) ∨ Tri e p i x x.from_ x.to_) ∧
    (x.pairAt x.to_ = (-1, -1) ∨ Tri e p i x x.to_ x.from_)

/-- The configuration around an edge `tn` with both sides resolved, in a valid
table: the edge runs from `F` to `T`, the triangle on its left has the apex `L`
and the edges `a` (at `F`) and `b` (at `T`), the triangle on its right has the
apex `R` and the edges `c` (at `F`) and `d` (at `T`). -/
structure FlipCtx (e : List edge) (p : List (point K)) (tn a b c d : Nat) (F T L R : Int)
    (ea eb ec ed : edge) (pF pT pL pR : point K) : Prop where
  het : e[tn]? = some ⟨F, T, a, b, c, d⟩
  ha : e[a]? = some ea
  hb : e[b]? = some eb
  hc : e[c]? = some ec
  hd : e[d]? = some ed
  ja : ea.joins F L
  jb : eb.joins T L
  jc : ec.joins F R
  jd : ed.joins T R
  qa : ea.pairAt L = ((b : Int), (tn : Int))
  qb : eb.pairAt T = ((tn : Int), (a : Int))
  qc : ec.pairAt F = ((tn : Int), (d : Int))
  qd : ed.pairAt R = ((c : Int), (tn : Int))
  rF : rdpE p F = Except.ok pF
  rT : rdpE p T = Except.ok pT
  rL : rdpE p L = Except.ok pL
  rR : rdpE p R = Except.ok pR
  oL : 0 < orient pF pT pL
  oR : 0 < orient pT pF pR

/-- The table after the flip of `tn`, described by the walks around the two new
triangles `L -> R -> T` and `R -> L -> F`. -/
structure Flipped (e e' : List edge) (tn a b c d : Nat) (F T L R : Int)
    (ea eb ec ed a' b' c' d' : edge) : Prop where
  len : e'.length = e.length
  gt : e'[tn]? = some ⟨L, R, b, d, a, c⟩
  ga : e'[a]? = some a'
  gb : e'[b]? = some b'
  gc : e'[c]? = some c'
  gd : e'[d]? = some d'
  other : ∀ j, j ≠ tn → j ≠ a → j ≠ b → j ≠ c → j ≠ d → e'[j]? = e[j]?
  fa : a'.from_ = ea.from_ ∧ a'.to_ = ea.to_
  fb : b'.from_ = eb.from_ ∧ b'.to_ = eb.to_
  fc : c'.from_ = ec.from_ ∧ c'.to_ = ec.to_
  fd : d'.from_ = ed.from_ ∧ d'.to_ = ed.to_
  na : a'.pairAt L = ((tn : Int), (c : Int))
  nb : b'.pairAt T = ((d : Int), (tn : Int))
  nc : c'.pairAt F = ((a : Int), (tn : Int))
  nd : d'.pairAt R = ((tn : Int), (b : Int))
  ka : a'.pairAt F = ea.pairAt F
  kb : b'.pairAt L = eb.pairAt L
  kc : c'.pairAt R = ec.pairAt R
  kd : d'.pairAt T = ed.pairAt T
  xa : a' = if ea.from_ = F then { ea with ref := c, ret := tn }
    else { ea with lef := tn, let_ := c }
  xb : b' = if eb.to_ = T then { eb with ref := tn, ret := d }
    else { eb with lef := d, let_ := tn }
  xc : c' = if ec.from_ = F then { ec with lef := a, let_ := tn }
    else { ec with ref := tn, ret := a }
  xd : d' = if ed.to_ = T then { ed with lef := tn, let_ := b }
    else { ed with ref := b, ret := tn }

/-- The end point of `n` that is not `v`: `if (n.from==v) n.to; else n.from`. -/
def edge.far (n : edge) (v : Int) : Int :=
  if n.from_ = v then n.to_ else n.from_

/-- The entry `e[i]`, or a fresh edge when `i` is outside the table. -/
def edAt (e : List edge) (i : Int) : edge :=
  match rde e i with
  | Except.ok x => x
  | Except.error _ => edge.new

/-- The point `p[i]`, or the origin when `i` is outside the array. -/
def ptAt (p : List (point K)) (i : Int) : point K :=
  match rdp p i with
  | some x => x
  | none => ⟨0, 0⟩

/-- Weight of the side of `x` to the left of the walk `s -> t`: zero for an
unresolved side, else `lift3` of the triangle with the apex taken from the
neighbour at `s`, as `swap` finds it. -/
def sideW (e : List edge) (p : List (point K)) (x : edge) (s t : Int) : K :=
  if x.pairAt s = (-1, -1) then 0
  else lift3 (ptAt p s) (ptAt p t) (ptAt p ((edAt e (x.pairAt s).1).far s))

/-- Weight of the two sides of an edge. -/
def edgeW (e : List edge) (p : List (point K)) (x : edge) : K :=
  sideW e p x x.from_ x.to_ + sideW e p x x.to_ x.from_

/-- The potential of an edge table: the sum of the weights of all sides. -/
def phi (e : List edge) (p : List (point K)) : K :=
  Finset.sum (Finset.range e.length) fun j => edgeW e p (edAt e (j : Int))

/-- All six members of the edge lie in `[-N, N]`. -/
def edge.within (x : edge) (N : Int) : Prop :=
  (-N ≤ x.from_ ∧ x.from_ ≤ N) ∧ (-N ≤ x.to_ ∧ x.to_ ≤ N) ∧ (-N ≤ x.lef ∧ x.lef ≤ N) ∧
  (-N ≤ x.let_ ∧ x.let_ ≤ N) ∧ (-N ≤ x.ref ∧ x.ref ≤ N) ∧ (-N ≤ x.ret ∧ x.ret ≤ N)

/-- All members of all entries of the table lie in `[-N, N]`. -/
def Bounded (e : List edge) (N : Int) : Prop :=
  ∀ x ∈ e, x.within N

/-- The four neighbour members of the edge are set: the test
`ref==-1 || lef==-1 || let==-1 || ret==-1` of `swap` fails. -/
def edge.full (x : edge) : Prop :=
  x.lef ≠ -1 ∧ x.let_ ≠ -1 ∧ x.ref ≠ -1 ∧ x.ret ≠ -1

/-- Every entry with its four neighbours set in `e` has them set in `e'`. -/
def KeepFull (e e' : List edge) : Prop :=
  ∀ (j : Nat) (x x' : edge), e[j]? = some x → e'[j]? = some x' → x.full → x'.full

end delaunay

/-! ## Bookkeeping of the edge table -/

/-- Every entry of the table from index `ne` on has `from = -1`. -/
def freshFrom (e : List edge) (ne : Int) : Prop :=
  ∀ (j : Nat) (x : edge), ne ≤ (j : Int) → e[j]? = some x → x.from_ = -1

/-- The table `e'` has the length of `e`, and every entry with `from = -1` in
`e` has `from = -1` in `e'`. -/
def KeepsFresh (e e' : List edge) : Prop :=
  e'.length = e.length ∧
    ∀ (j : Nat) (x : edge), e[j]? = some x → x.from_ = -1 →
      ∃ x', e'[j]? = some x' ∧ x'.from_ = -1

/-- The table `e'` has the length of `e` and every entry has the end points it
has in `e`. -/
def SameEnds (e e' : List edge) : Prop :=
  e'.length = e.length ∧
    ∀ (j : Nat) (x : edge), e[j]? = some x →
      ∃ x', e'[j]? = some x' ∧ x'.from_ = x.from_ ∧ x'.to_ = x.to_

/-- The bookkeeping of `triangulate`: the table has `len` entries, the hull is
not below empty, `next_edge` and the number of hull edges add up to `c`, no
entry from `next_edge` on has been given a `from`, and `next_edge` is at least 3. -/
def Acc (len : Nat) (c : Int) (d : Driver) : Prop :=
  d.edges.length = len ∧ 0 ≤ d.hull.num ∧ d.next_edge + d.hull.num = c ∧
    freshFrom d.edges d.next_edge ∧ 3 ≤ d.next_edge

end Tipper

/-! ## The flip criterion as geometry -/

namespace Tipper

section flipGeometry
variable {K : Type} [LinearOrderedField K]

/-- The sum `dt1 + dt2` that `edge::swap` compares with zero, after the two
dot products have been divided by the square roots:
`dt1/sqrt(p1.dot(p1)*p2.dot(p2)) + dt2/sqrt(p3.dot(p3)*p4.dot(p4))` with
`p1 = pl-pf`, `p2 = pl-pt`, `p3 = pr-pf`, `p4 = pr-pt`. -/
def cosSum (sqrt : K → K) (pl pf pt pr : point K) : K :=
  (pl.sub pf).dot (pl.sub pt) /
      sqrt ((pl.sub pf).dot (pl.sub pf) * (pl.sub pt).dot (pl.sub pt)) +
    (pr.sub pf).dot (pr.sub pt) /
      sqrt ((pr.sub pf).dot (pr.sub pf) * (pr.sub pt).dot (pr.sub pt))

/-- Square of the distance of two points. -/
def sqDist (a b : point K) : K :=
  (a.sub b).dot (a.sub b)

/-- The point `pr` lies strictly inside the circle through `pf`, `pt`, `pl`:
some point `c` has the same distance to `pf`, `pt` and `pl`, and `pr` is nearer
to it. -/
def InCircumcircle (pf pt pl pr : point K) : Prop :=
  ∃ c : point K, sqDist c pf = sqDist c pt ∧ sqDist c pf = sqDist c pl ∧
    sqDist c pr < sqDist c pf

end flipGeometry

end Tipper

namespace Tipper

/-! ## Incidence of the neighbour fields -/

/-- The neighbour field `n` names an entry of the table that has the vertex `v`
as one of its end points. -/
def Meets (e : List edge) (n v : Int) : Prop :=
  0 ≤ n ∧ n < e.length ∧ ((edAt e n).from_ = v ∨ (edAt e n).to_ = v)

/-- One side of the edge `x`, with the neighbour field `n` at `from` and the
neighbour field `m` at `to`: a field that is set names an edge incident to its
end point of `x`, and when both are set the two neighbours meet at a common
third vertex, their end points away from `x`. -/
def GoodPair (e : List edge) (x : edge) (n m : Int) : Prop :=
  (n ≠ -1 → Meets e n x.from_) ∧ (m ≠ -1 → Meets e m x.to_) ∧
  (n ≠ -1 → m ≠ -1 → (edAt e n).far x.from_ = (edAt e m).far x.to_)

/-- Local consistency of the neighbour fields of a table, by incidence alone:
for every edge, `lef` and `ref` share its `from` vertex, `let` and `ret` share
its `to` vertex, and the two neighbours of a resolved side meet at a common
third vertex. -/
def Incident (e : List edge) : Prop :=
  ∀ x ∈ e, GoodPair e x x.lef x.let_ ∧ GoodPair e x x.ref x.ret

instance (e : List edge) (n v : Int) : Decidable (Meets e n v) := by
  unfold Meets
  infer_instance

instance (e : List edge) (x : edge) (n m : Int) : Decidable (GoodPair e x n m) := by
  unfold GoodPair
  infer_instance

instance (e : List edge) : Decidable (Incident e) := by
  unfold Incident
  infer_instance

/-- The edge `tn` is named as a neighbour only by its own four neighbours, and
by each of them only in the two fields that the flip of `tn` rewrites: in
`e[lef]` the fields `ref`, `ret` when `e[lef].from == from` and `lef`, `let`
otherwise; in `e[ref]` the fields `lef`, `let` when `e[ref].from == from` and
`ref`, `ret` otherwise; in `e[ret]` the fields `lef`, `let` when
`e[ret].to == to` and `ref`, `ret` otherwise; in `e[let]` the fields `ref`,
`ret` when `e[let].to == to` and `lef`, `let` otherwise. -/
def OnlyFacing (e : List edge) (tn : Nat) : Prop :=
  ∀ j ∈ List.range e.length,
    (((edAt e j).lef = tn ∨ (edAt e j).let_ = tn) → j ≠ tn ∧
      (((j : Int) = (edAt e tn).lef ∧ (edAt e j).from_ ≠ (edAt e tn).from_) ∨
        ((j : Int) = (edAt e tn).ref ∧ (edAt e j).from_ = (edAt e tn).from_) ∨
        ((j : Int) = (edAt e tn).ret ∧ (edAt e j).to_ = (edAt e tn).to_) ∨
        ((j : Int) = (edAt e tn).let_ ∧ (edAt e j).to_ ≠ (edAt e tn).to_))) ∧
    (((edAt e j).ref = tn ∨ (edAt e j).ret = tn) → j ≠ tn ∧
      (((j : Int) = (edAt e tn).lef ∧ (edAt e j).from_ = (edAt e tn).from_) ∨
        ((j : Int) = (edAt e tn).ref ∧ (edAt e j).from_ ≠ (edAt e tn).from_) ∨
        ((j : Int) = (edAt e tn).ret ∧ (edAt e j).to_ ≠ (edAt e tn).to_) ∨
        ((j : Int) = (edAt e tn).let_ ∧ (edAt e j).to_ = (edAt e tn).to_)))

instance (e : List edge) (tn : Nat) : Decidable (OnlyFacing e tn) := by
  unfold OnlyFacing
  infer_instance

/-- The two neighbour fields of one side of an edge: `lef`, `let` for the left
side (`s` true), `ref`, `ret` for the right side. -/
def edge.side (x : edge) (s : Bool) : Int × Int :=
  if s then (x.lef, x.let_) else (x.ref, x.ret)

/-- Assignment of the two neighbour fields of one side of an edge. -/
def edge.setSide (x : edge) (s : Bool) (n m : Int) : edge :=
  if s then { x with lef := n, let_ := m } else { x with ref := n, ret := m }

/-- The table `quad5` with two more edges: edge 5 runs from point 0 to a fifth
point 4 and names edge 0 and edge 6 (from point 4 to point 1) as the neighbours
of its left side. -/
def fan7 : List edge :=
  quad5 ++ [⟨0, 4, 0, 6, -1, -1⟩, ⟨4, 1, -1, -1, -1, -1⟩]

/-- The table `fan7` after the flip of edge 0. -/
def fan7Flipped : List edge :=
  quad5Flipped ++ [⟨0, 4, 0, 6, -1, -1⟩, ⟨4, 1, -1, -1, -1, -1⟩]

end Tipper

namespace Tipper

/-- A table `E` met between the rewiring statements of the flip of `e[tn]`:
it has the length and the end points of `e`, its entry `tn` is that of `e`, and
every side of every other entry is consistent in the table `W` (the end points
after the flip), or is one of the sides `P` that a later statement rewrites. -/
structure FlipMid (e W : List edge) (tn : Nat) (P : Nat → Bool → Prop) (E : List edge) :
    Prop where
  len : E.length = e.length
  ends : ∀ (j : Nat) (x y : edge), E[j]? = some x → e[j]? = some y →
    x.from_ = y.from_ ∧ x.to_ = y.to_
  keep : E[tn]? = e[tn]?
  good : ∀ (j : Nat) (x : edge), j ≠ tn → E[j]? = some x →
    ∀ s : Bool, GoodPair W x (x.side s).1 (x.side s).2 ∨ P j s

end Tipper
/-! ## The invariant of the sweep: predicates -/

namespace Tipper

section
variable {K : Type} [LinearOrderedField K]

/-- The entry `x'` has each neighbour member set exactly when `x` has it set,
and it has the end points of `x` unless `x` has all four neighbours. -/
def edge.Keep (x x' : edge) : Prop :=
  (x.lef = -1 ↔ x'.lef = -1) ∧ (x.let_ = -1 ↔ x'.let_ = -1) ∧
  (x.ref = -1 ↔ x'.ref = -1) ∧ (x.ret = -1 ↔ x'.ret = -1) ∧
  (¬ x.full → x'.from_ = x.from_ ∧ x'.to_ = x.to_)

/-- The table `e'` has the length of `e` and keeps every entry in the sense of
`edge.Keep`: unresolved sides stay unresolved, resolved sides stay resolved, and
an edge with an unresolved side keeps its end points. -/
def Frame (e e' : List edge) : Prop :=
  e'.length = e.length ∧
    ∀ (j : Nat) (x : edge), e[j]? = some x → ∃ x', e'[j]? = some x' ∧ x.Keep x'

/-- Every entry of `e` with a `from` keeps its end points in `e'`, and each of
its two sides that is resolved keeps its two neighbour members. -/
def Stable (e e' : List edge) : Prop :=
  e'.length = e.length ∧ ∀ (j : Nat) (y : edge), e[j]? = some y → y.from_ ≠ -1 →
    ∃ y', e'[j]? = some y' ∧ y'.from_ = y.from_ ∧ y'.to_ = y.to_ ∧
      ((y.lef, y.let_) ≠ (-1, -1) → y'.lef = y.lef ∧ y'.let_ = y.let_) ∧
      ((y.ret, y.ref) ≠ (-1, -1) → y'.ret = y.ret ∧ y'.ref = y.ref)

/-- How the entry `x` at index `i` of a table came from the table `e`, when the
side of `x` that is walked from `s` has been set: either the entry was unused,
and the side of `x` walked from the other end `o` is unresolved, or the entry
had the end points of `x`, the side walked from `s` unresolved, and the side
walked from `o` as `x` has it. -/
def Side (e : List edge) (i : Nat) (x : edge) (s o : Int) : Prop :=
  ∃ y, e[i]? = some y ∧
    ((y.from_ = -1 ∧ x.pairAt o = (-1, -1)) ∨
      (y.from_ = x.from_ ∧ y.to_ = x.to_ ∧ y.pairAt s = (-1, -1) ∧ y.pairAt o = x.pairAt o))

/-- A boundary edge of the triangulated region: its index in the edge table
and the indices of its two end points, `a -> b`. -/
structure BEdge where
  id : Nat
  a : Nat
  b : Nat
deriving DecidableEq, Repr

/-- The entry is a boundary edge from `a` to `b`: the side to its left is
resolved, the side to its right is not. -/
def edge.Bnd (x : edge) (a b : Nat) : Prop :=
  x.from_ = (a : Int) ∧ x.to_ = (b : Int) ∧ x.ref = -1 ∧ x.ret = -1 ∧ x.lef ≠ -1 ∧ x.let_ ≠ -1

/-- The edge table `e` with the entries below `ne` in use is a consistent
triangulation whose boundary edges are those of the list `B`: it is valid, the
entries from `ne` on are unused, the entries named by `B` are boundary edges
with the end points `B` gives, and every other entry below `ne` has its four
neighbours. -/
structure Table (p : List (point K)) (e : List edge) (ne : Nat) (B : List BEdge) : Prop where
  valid : Valid e p
  fresh : ∀ (j : Nat) (x : edge), e[j]? = some x → ne ≤ j → x = edge.new
  nodup : (B.map BEdge.id).Nodup
  bnd : ∀ t ∈ B, t.id < ne ∧ ∃ x, e[t.id]? = some x ∧ x.Bnd t.a t.b
  full : ∀ (j : Nat) (x : edge), e[j]? = some x → j < ne → j ∉ B.map BEdge.id → x.full

/-- The slots `cyc` of the hull list hold the indices of the edges `H`, in
this order. -/
def HullData (l : cyclist) (cyc : List Nat) (H : List BEdge) : Prop :=
  List.Forall₂ (fun (s : Nat) (t : BEdge) => (l.ejs[s]?).map item.data = some (t.id : Int))
    cyc H

/-- Point `q` lies strictly to the right of the boundary edge `t`. -/
def sees (p : List (point K)) (q : Nat) (t : BEdge) : Prop :=
  orient (ptAt p t.a) (ptAt p t.b) (ptAt p q) < 0

instance (p : List (point K)) (q : Nat) (t : BEdge) : Decidable (sees p q t) := by
  unfold sees
  infer_instance

/-- The end points of the boundary edge `t` and the point `q` are points of
`p`, and `visible` from `q` on an edge with the end points of `t` is the exact
test `sees`. -/
def VisExact (p : List (point K)) (q : Nat) (t : BEdge) : Prop :=
  (∃ pa, rdpE p t.a = Except.ok pa) ∧ (∃ pb, rdpE p t.b = Except.ok pb) ∧
  (∃ pq, rdpE p q = Except.ok pq) ∧
  ∀ x : edge, x.from_ = (t.a : Int) → x.to_ = (t.b : Int) →
    x.visible p q = some (decide (sees p q t))

/-- The state at the head of the upper loop after at least one pass: the last
entry made, `n`, is the top spoke `q -> vt`, which ends where the first hull
edge starts; the boundary consists of the hull edges `H`, the top spoke and the
edges `R`. -/
structure UState (p : List (point K)) (q : Nat) (d : Driver) (n : Nat) (H R : List BEdge)
    (cyc fr : List Nat) : Prop where
  ne : d.next_edge = (n : Int) + 1
  tab : ∃ vt, (∀ t, H.head? = some t → t.a = vt) ∧
    Table p d.edges (n + 1) (H ++ ⟨n, q, vt⟩ :: R)
  rep : d.hull.Rep cyc fr
  dat : HullData d.hull cyc H
  up : ∀ s, cyc.head? = some s → d.upper_hull_pos = (s : Int)
  cnt : 0 < d.count
  cap : n + 1 + H.length ≤ d.edges.length

/-- The state at the head of the lower loop once `saved_edge` is set: the edge
`s = saved_edge` is the bottom spoke `vb -> q`, which starts where the last hull
edge ends; the boundary consists of the hull edges `H`, the bottom spoke and
the edges `R`. -/
structure LState (p : List (point K)) (q : Nat) (d : Driver) (n s : Nat) (H R : List BEdge)
    (cyc fr : List Nat) : Prop where
  ne : d.next_edge = (n : Int)
  sv : d.saved_edge = (s : Int)
  tab : ∃ vb, (∀ t, H.getLast? = some t → t.b = vb) ∧
    Table p d.edges n (H ++ ⟨s, vb, q⟩ :: R)
  rep : d.hull.Rep cyc fr
  dat : HullData d.hull cyc H
  lo : ∀ s', cyc.getLast? = some s' → d.lower_hull_pos = (s' : Int)
  cap : n + H.length ≤ d.edges.length

/-- The state between two points of the sweep: the entries below
`next_edge = n` are a consistent triangulation with the boundary `H`, the hull
list holds the edges of `H` in the slots `cyc`, the upper reference position is
the first slot and the lower one the last. -/
structure Comb (p : List (point K)) (d : Driver) (n : Nat) (H : List BEdge)
    (cyc fr : List Nat) : Prop where
  ne : d.next_edge = (n : Int)
  tab : Table p d.edges n H
  rep : d.hull.Rep cyc fr
  dat : HullData d.hull cyc H
  up : ∀ s, cyc.head? = some s → d.upper_hull_pos = (s : Int)
  lo : ∀ s, cyc.getLast? = some s → d.lower_hull_pos = (s : Int)

section
variable (sqrt : K → K)

/-- The statements of the loop body for point `i` that follow the first edge:
the upper sweep, the insertion of the upper edge, the lower sweep and the
insertion of the lower edge. -/
def afterFirst (depth : Nat) (p : List (point K)) (i : Int) (d0 : Driver) :
    Except Fault Driver :=
  upperLoop sqrt depth p i (d0.hull.num.toNat + 1) d0 >>= fun d2 =>
    upperInsert d2 >>= fun d3 =>
      (lowerLoop sqrt depth p i (d3.hull.num.toNat + 1) d3 >>= lowerInsert)

end

/-- The input is sorted by `x` and separated by the tolerance of `visible`: any
two points differ by at least `mindistance` in `x` and in `y`, and no three
points lie on a line. -/
structure Separated (p : List (point K)) : Prop where
  xgap : ∀ i j : Nat, i < j → j < p.length →
    (ptAt p (i : Int)).x + mindistance ≤ (ptAt p (j : Int)).x
  ygap : ∀ i j : Nat, i < p.length → j < p.length → i ≠ j →
    mindistance ≤ |(ptAt p (i : Int)).y - (ptAt p (j : Int)).y|
  noCol : ∀ i j k : Nat, i < p.length → j < p.length → k < p.length → i ≠ j → j ≠ k → i ≠ k →
    orient (ptAt p (i : Int)) (ptAt p (j : Int)) (ptAt p (k : Int)) ≠ 0

/-- The input is sorted strictly by `x`, no three points lie on a line, and the
tolerance tests of `visible` do not change its answer: from every point `q`, on
an edge between two earlier points, `visible` is the exact test whether `q` lies
strictly to the right of the edge. -/
structure Regular (p : List (point K)) : Prop where
  xlt : ∀ {i j : Nat}, i < j → j < p.length → (ptAt p (i : Int)).x < (ptAt p (j : Int)).x
  noCol : ∀ i j k : Nat, i < p.length → j < p.length → k < p.length → i ≠ j → j ≠ k → i ≠ k →
    orient (ptAt p (i : Int)) (ptAt p (j : Int)) (ptAt p (k : Int)) ≠ 0
  visExact : ∀ {q : Nat}, q < p.length → ∀ {t : BEdge}, t.a < q → t.b < q → t.a ≠ t.b →
    VisExact p q t

/-- The geometry of the boundary after `m` points: the boundary edges join
earlier points, every earlier point lies to the left of every boundary edge or
on its line, and the boundary is a closed chain. -/
structure Geo (p : List (point K)) (m : Nat) (H : List BEdge) : Prop where
  ne : H ≠ []
  bound : ∀ t ∈ H, t.a < m ∧ t.b < m ∧ t.a ≠ t.b
  left : ∀ t ∈ H, ∀ r : Nat, r < m →
    0 ≤ orient (ptAt p (t.a : Int)) (ptAt p (t.b : Int)) (ptAt p (r : Int))
  chain : List.Chain' (fun t t' : BEdge => t.b = t'.a) H
  close : ∀ t t', H.head? = some t → H.getLast? = some t' → t'.b = t.a

/-- The boundary, read from the last point `m - 1`, first runs to the left
along `Lw` and then to the right along `Rw`. -/
def Valley (m : Nat) (Lw Rw : List BEdge) : Prop :=
  (∀ t ∈ Lw, t.b < t.a) ∧ (∀ t ∈ Rw, t.a < t.b) ∧
  ∀ t, (Lw ++ Rw).head? = some t → t.a + 1 = m

/-- The hull list after the three seed insertions. -/
def seedList (m : Nat) (junk : Nat → item) : cyclist :=
  { size := (m : Int) + 3, prev := 2, hole := 3, num := 3,
    ejs := ⟨1, 2, 0⟩ :: ⟨2, 0, 1⟩ :: ⟨0, 1, 2⟩ ::
      (List.range m).map fun i => { junk (i + 3) with data := (i : Int) + 3 + 1 } }

/-- The shape of the boundary after `m` points: a valley read from the last
point, or, after a seed whose third point lies below the first edge, the seed
triangle read from point 1. -/
def Shape (m : Nat) (H : List BEdge) : Prop :=
  (∃ Lw Rw, H = Lw ++ Rw ∧ Valley m Lw Rw) ∨
  (m = 3 ∧ ∃ i0 i1 i2, H = [⟨i2, 1, 0⟩, ⟨i0, 0, 2⟩, ⟨i1, 2, 1⟩])

/-- The invariant of the loop over the points, after the first `m` points. -/
structure Inv (p : List (point K)) (m : Nat) (d : Driver) (n : Nat) (H : List BEdge)
    (cyc fr : List Nat) : Prop where
  comb : Comb p d n H cyc fr
  geo : Geo p m H
  shape : Shape m H
  cnt : n + H.length = 3 * m - 3
  hle : H.length ≤ m
  elen : d.edges.length = 3 * p.length
  slots : cyc.length + fr.length = p.length

/-- The edges found in the hull list from the position `pos` on: `k` calls of
`getEdge`, each followed by `getNextPos`. -/
def hullWalk (l : cyclist) : Nat → Int → Except Fault (List Int)
  | 0, _ => pure []
  | k + 1, pos => do
    let r ← (l.getEdge pos).toExcept
    let nx ← (l.getNextPos pos).toExcept
    let rest ← hullWalk l k nx.2
    pure (r.2 :: rest)

/-- Number of entries of an edge table that are in use (`from != -1`) and have
the right side unresolved (`ref = ret = -1`). -/
def boundaryEdges (e : List edge) : Nat :=
  e.countP fun x => decide (x.from_ ≠ -1 ∧ x.ref = -1 ∧ x.ret = -1)

/-- The directed pair `a -> b` of input points is an edge of the convex hull,
traversed anticlockwise: every other input point lies strictly to its left. -/
def HullPair (p : List (point K)) (a b : Nat) : Prop :=
  a < p.length ∧ b < p.length ∧ a ≠ b ∧
  ∀ r : Nat, r < p.length → r ≠ a → r ≠ b →
    0 < orient (ptAt p (a : Int)) (ptAt p (b : Int)) (ptAt p (r : Int))

end

/-- Four points sorted strictly by `x`, no three on a line; points 0 and 2 have
the same `y`, and so have points 1 and 3. -/
def tiePoints : List (point ℝ) := [⟨0, 0⟩, ⟨1, 1⟩, ⟨2, 0⟩, ⟨3, 1⟩]

/-- Four points sorted by `x`, no three on a line; the first two are `1e-8`
apart in `x`, less than the tolerance `mindistance = 1e-7` of `visible`. -/
def tolX : List (point ℚ) := [⟨0, -4⟩, ⟨1 / 100000000, -3⟩, ⟨1, -2⟩, ⟨2, 1⟩]

/-- Four points sorted by `x`, one apart in `x`, no three on a line; the first
two are `1e-8` apart in `y` and the second and the fourth have the same `y`. -/
def tolY : List (point ℚ) := [⟨0, -299999999 / 100000000⟩, ⟨1, -3⟩, ⟨2, -2⟩, ⟨3, -3⟩]

/-- The state of `triangulate` on `tolX` when the loop over the points has
ended. -/
def hullX : Driver :=
  { hull := { size := 4, prev := 1, hole := 3, num := 3,
              ejs := [⟨1, 2, 0⟩, ⟨2, 0, 5⟩, ⟨0, 1, 4⟩, ⟨0, 0, 4⟩] },
    edges := [⟨0, 2, 2, 1, -1, -1⟩, ⟨2, 1, 0, 2, 5, 3⟩, ⟨1, 0, 1, 0, 3, 4⟩,
      ⟨1, 3, 2, 4, 1, 5⟩, ⟨3, 0, 3, 2, -1, -1⟩, ⟨2, 3, 1, 3, -1, -1⟩] ++
      List.replicate 6 edge.new,
    lower_hull_pos := 1, upper_hull_pos := 2, next_edge := 6, saved_edge := 5,
    count := 1 }

/-- The state of `triangulate` on `tolY` when the loop over the points has
ended. -/
def hullY : Driver :=
  { hull := { size := 4, prev := 0, hole := 1, num := 3,
              ejs := [⟨3, 2, 5⟩, ⟨3, 0, 4⟩, ⟨0, 3, 2⟩, ⟨2, 0, 3⟩] },
    edges := [⟨0, 1, 2, 1, 5, 4⟩, ⟨1, 2, 0, 2, 4, 3⟩, ⟨2, 0, 1, 0, -1, -1⟩,
      ⟨3, 2, 4, 1, -1, -1⟩, ⟨1, 3, 1, 3, 0, 5⟩, ⟨0, 3, 0, 4, -1, -1⟩] ++
      List.replicate 6 edge.new,
    lower_hull_pos := 0, upper_hull_pos := 3, next_edge := 6, saved_edge := 5,
    count := 0 }

end Tipper
/-! ## The arithmetic of `double` -/

namespace Tipper

/-- The operations on `double` that the program uses, as a parameter: the four
operations, `fabs`, `sqrt`, the comparisons `<` and `<=` (`a > b` is `b < a`
and `a >= b` is `b <= a`), the constant `0` that `swap` compares with, and the
constant `mindistance = 0.0000001` of `edge::visible`. -/
structure Arith (F : Type) where
  add : F → F → F
  sub : F → F → F
  mul : F → F → F
  div : F → F → F
  abs : F → F
  sqrt : F → F
  lt : F → F → Bool
  le : F → F → Bool
  zero : F
  mindistance : F

/-- Arithmetic without rounding in an ordered field, with the function `sqrt`
for the square root; as in a field, a quotient by zero is zero. -/
def Arith.exact {K : Type} [LinearOrderedField K] (sqrt : K → K) : Arith K where
  add := fun a b => a + b
  sub := fun a b => a - b
  mul := fun a b => a * b
  div := fun a b => a / b
  abs := fun a => |a|
  sqrt := sqrt
  lt := fun a b => decide (a < b)
  le := fun a b => decide (a ≤ b)
  zero := 0
  mindistance := 1 / 10000000

/-- The values of a `double` (IEEE 754 binary64): the finite numbers, kept as
rational numbers, plus and minus infinity, and NaN.  The sign of a zero is not
kept. -/
inductive Dbl where
  | fin (q : ℚ)
  | inf (neg : Bool)
  | nan
deriving DecidableEq, Repr

namespace Dbl

/-- The rational number `2 ^ u` for an integer `u`. -/
def pow2 (u : Int) : ℚ :=
  if 0 ≤ u then ((2 ^ u.toNat : Nat) : ℚ) else 1 / ((2 ^ (-u).toNat : Nat) : ℚ)

/-- The number of halvings that bring `m` below 2, at most `fuel` of them. -/
def halvings : Nat → Nat → Nat
  | 0, _ => 0
  | fuel + 1, m => if m < 2 then 0 else halvings fuel (m / 2) + 1

/-- The integer part of the binary logarithm of `n`; `0` for `n = 0`. -/
def log2 (n : Nat) : Nat := halvings n n

/-- The `double` nearest to the rational number `q`, ties to the even
significand: with `2 ^ e <= |q| < 2 ^ (e + 1)` the unit of the last place is
`2 ^ u`, `u = max (e - 52) (-1074)`, and `|q| / 2 ^ u` is rounded to an integer;
a result from `2 ^ 1024` on is an infinity. -/
def round (q : ℚ) : Dbl :=
  if q = 0 then fin 0
  else
    let a : ℚ := if q < 0 then -q else q
    let e0 : Int := (log2 a.num.toNat : Int) - (log2 a.den : Int)
    let e : Int := if a < pow2 e0 then e0 - 1 else e0
    let u : Int := max (e - 52) (-1074)
    let m : ℚ := a / pow2 u
    let n : Int := Rat.floor m
    let fr : ℚ := m - (n : ℚ)
    let n' : Int := if 1 / 2 < fr ∨ (fr = 1 / 2 ∧ n % 2 = 1) then n + 1 else n
    let r : ℚ := (n' : ℚ) * pow2 u
    if pow2 1024 ≤ r then inf (decide (q < 0)) else fin (if q < 0 then -r else r)

/-- The largest `r` below `2 ^ k` added to the start value with `r * r <= n`,
found digit by digit from the highest binary digit down. -/
def sqrtBits (n : Nat) : Nat → Nat → Nat
  | 0, r => r
  | k + 1, r =>
    if (r + 2 ^ k) * (r + 2 ^ k) ≤ n then sqrtBits n k (r + 2 ^ k) else sqrtBits n k r

/-- A rational number that rounds as the square root of `q = a / b > 0` does:
with `s` the integer part of `sqrt (a * b * 4 ^ k)`, at least 64 binary digits
long, it is `(2 * s) / (b * 2 ^ (k + 1))` when the root is exact and
`(2 * s + 1) / (b * 2 ^ (k + 1))` otherwise. -/
def sqrtNear (q : ℚ) : ℚ :=
  let a : Nat := q.num.toNat
  let b : Nat := q.den
  let L : Nat := log2 (a * b)
  let k : Nat := if 128 ≤ L then 0 else (128 - L + 1) / 2
  let N : Nat := a * b * 4 ^ k
  let s : Nat := sqrtBits N (log2 N / 2 + 1) 0
  let t : Nat := 2 * s + (if s * s = N then 0 else 1)
  (t : ℚ) / ((b * 2 ^ (k + 1) : Nat) : ℚ)

/-- Negation. -/
def neg : Dbl → Dbl
  | fin a => fin (-a)
  | inf s => inf (!s)
  | nan => nan

/-- Addition of `double`. -/
def add : Dbl → Dbl → Dbl
  | fin a, fin b => round (a + b)
  | fin _, inf s => inf s
  | inf s, fin _ => inf s
  | inf s, inf t => if s = t then inf s else nan
  | _, _ => nan

/-- Subtraction of `double`. -/
def sub (x y : Dbl) : Dbl := add x (neg y)

/-- Multiplication of `double`. -/
def mul : Dbl → Dbl → Dbl
  | fin a, fin b => round (a * b)
  | fin a, inf s => if a = 0 then nan else inf (s != decide (a < 0))
  | inf s, fin b => if b = 0 then nan else inf (s != decide (b < 0))
  | inf s, inf t => inf (s != t)
  | _, _ => nan

/-- Division of `double`; a zero divisor counts as `+0`. -/
def div : Dbl → Dbl → Dbl
  | fin a, fin b =>
    if b = 0 then (if a = 0 then nan else inf (decide (a < 0))) else round (a / b)
  | fin _, inf _ => fin 0
  | inf s, fin b => inf (s != decide (b < 0))
  | _, _ => nan

/-- The function `fabs`. -/
def abs : Dbl → Dbl
  | fin a => fin (if a < 0 then -a else a)
  | inf _ => inf false
  | nan => nan

/-- The function `sqrt`, correctly rounded. -/
def sqrt : Dbl → Dbl
  | fin a => if a < 0 then nan else if a = 0 then fin 0 else round (sqrtNear a)
  | inf s => if s then nan else inf false
  | nan => nan

/-- The comparison `<` of `double`: false when an operand is NaN. -/
def lt : Dbl → Dbl → Bool
  | fin a, fin b => decide (a < b)
  | fin _, inf s => !s
  | inf s, fin _ => s
  | inf s, inf t => s && !t
  | _, _ => false

/-- The comparison `<=` of `double`: false when an operand is NaN. -/
def le : Dbl → Dbl → Bool
  | fin a, fin b => decide (a ≤ b)
  | fin _, inf s => !s
  | inf s, fin _ => s
  | inf s, inf t => s || !t
  | _, _ => false

end Dbl

/-- The arithmetic of `double`: every operation is rounded to the nearest
`double`, and `mindistance` is the `double` nearest to `0.0000001`. -/
def Arith.ieee : Arith Dbl where
  add := Dbl.add
  sub := Dbl.sub
  mul := Dbl.mul
  div := Dbl.div
  abs := Dbl.abs
  sqrt := Dbl.sqrt
  lt := Dbl.lt
  le := Dbl.le
  zero := Dbl.fin 0
  mindistance := Dbl.round (1 / 10000000)

end Tipper

/-! ## The program with the arithmetic of `double` as a parameter -/

namespace Tipper

namespace Arith

variable {F : Type} (A : Arith F)

/-- The operator `point::operator-`. -/
def psub (a b : point F) : point F :=
  ⟨A.sub a.x b.x, A.sub a.y b.y⟩

/-- Member `point::dot`: `x*p.x+y*p.y`. -/
def dot (a b : point F) : F :=
  A.add (A.mul a.x b.x) (A.mul a.y b.y)

/-- The value `p[from].y+(p[to].y-p[from].y)/(p[to].x-p[from].x)*(p[i].x-p[from].x)`
of `edge::visible`. -/
def lineAt (pf pt pi : point F) : F :=
  A.add pf.y (A.mul (A.div (A.sub pt.y pf.y) (A.sub pt.x pf.x)) (A.sub pi.x pf.x))

/-- Member `edge::visible`.  `p[from]` and `p[to]` are read by the first test;
when that test does not return, `p[i]` is read on every path. -/
def visible (e : edge) (p : List (point F)) (i : Int) : Option Bool :=
  match rdp p e.from_, rdp p e.to_ with
  | some pf, some pt =>
    -- if (fabs(p[from].x-p[to].x) < mindistance) return true;
    if A.lt (A.abs (A.sub pf.x pt.x)) A.mindistance then some true
    else
      match rdp p i with
      | some pi =>
        -- if (fabs(p[to].y-p[from].y)<mindistance){
        --   if(p[from].x<p[to].x && p[i].y<p[from].y)return true;
        if A.lt (A.abs (A.sub pt.y pf.y)) A.mindistance && A.lt pf.x pt.x &&
            A.lt pi.y pf.y then
          some true
        --   if(p[from].x>p[to].x && p[i].y>p[from].y)return true; }
        else if A.lt (A.abs (A.sub pt.y pf.y)) A.mindistance && A.lt pt.x pf.x &&
            A.lt pf.y pi.y then
          some true
        -- if (p[to].y>=p[i].y && p[from].y<=p[i].y && fabs(p[from].y-p[to].y)>mindistance)
        --   return true;
        else if A.le pi.y pt.y && A.le pf.y pi.y &&
            A.lt A.mindistance (A.abs (A.sub pf.y pt.y)) then
          some true
        -- if (p[to].x>p[from].x){ if(p[i].y< ... )return true; }
        else if A.lt pf.x pt.x then
          if A.lt pi.y (A.lineAt pf pt pi) then some true else some false
        -- else if (p[to].x<p[from].x) { if(p[i].y> ... )return true; }
        else if A.lt pt.x pf.x then
          if A.lt (A.lineAt pf pt pi) pi.y then some true else some false
        -- return false;
        else some false
      | none => none
  | _, _ => none

/-- The flip criterion of `edge::swap` on the end points `pf`, `pt` of the edge
and the opposite points `pl`, `pr`, as the program computes it:
`dt1<0 || dt2<0`, and then `(dt1+dt2)<0` for the quotients
`dt1/sqrt(p1.dot(p1)*p2.dot(p2))` and `dt2/sqrt(p3.dot(p3)*p4.dot(p4))`. -/
def flipTest (pl pf pt pr : point F) : Bool :=
  (A.lt (A.dot (A.psub pl pf) (A.psub pl pt)) A.zero ||
    A.lt (A.dot (A.psub pr pf) (A.psub pr pt)) A.zero) &&
  A.lt
    (A.add
      (A.div (A.dot (A.psub pl pf) (A.psub pl pt))
        (A.sqrt (A.mul (A.dot (A.psub pl pf) (A.psub pl pf))
          (A.dot (A.psub pl pt) (A.psub pl pt)))))
      (A.div (A.dot (A.psub pr pf) (A.psub pr pt))
        (A.sqrt (A.mul (A.dot (A.psub pr pf) (A.psub pr pf))
          (A.dot (A.psub pr pt) (A.psub pr pt))))))
    A.zero

/-- Member `edge::swap`, called as `e[tint].swap(tint, e, p)`; `depth` bounds
the depth of the recursion. -/
def swap : Nat → Int → List edge → List (point F) → Except Fault (List edge × Int)
  | 0, _, _, _ => Except.error Fault.diverge
  | depth + 1, tint, e, p => do
    let t ← rde e tint
    -- if (ref==-1 || lef==-1 || let==-1 || ret==-1)return 0;
    if t.ref = -1 ∨ t.lef = -1 ∨ t.let_ = -1 ∨ t.ret = -1 then pure (e, 0)
    else do
      -- if (e[lef].from==from)leftp=e[lef].to; else leftp=e[lef].from;
      let el ← rde e t.lef
      let leftp := if el.from_ = t.from_ then el.to_ else el.from_
      -- if (e[ref].from==from)rightp=e[ref].to; else rightp=e[ref].from;
      let er ← rde e t.ref
      let rightp := if er.from_ = t.from_ then er.to_ else er.from_
      let pl ← rdpE p leftp
      let pf ← rdpE p t.from_
      let pt ← rdpE p t.to_
      let pr ← rdpE p rightp
      -- const point p1(p[leftp]-p[from]), p2(p[leftp]-p[to]),
      --   p3(p[rightp]-p[from]), p4(p[rightp]-p[to]);
      let p1 := A.psub pl pf
      let p2 := A.psub pl pt
      let p3 := A.psub pr pf
      let p4 := A.psub pr pt
      -- double dt1=p1.dot(p2);double dt2=p3.dot(p4);
      let dt1 := A.dot p1 p2
      let dt2 := A.dot p3 p4
      -- if (dt1<0 || dt2<0){
      if A.lt dt1 A.zero || A.lt dt2 A.zero then
        -- dt1=dt1/sqrt(p1.dot(p1)*p2.dot(p2)); dt2=dt2/sqrt(p3.dot(p3)*p4.dot(p4));
        -- if ((dt1+dt2)<0){
        if A.lt (A.add (A.div dt1 (A.sqrt (A.mul (A.dot p1 p1) (A.dot p2 p2))))
            (A.div dt2 (A.sqrt (A.mul (A.dot p3 p3) (A.dot p4 p4))))) A.zero then do
          let e ← flipStep tint leftp rightp e
          afterFlip (fun n e => swap depth n e p) tint e
        else pure (e, 0)
      else pure (e, 0)

/-- The test `edges[hull.getEdge(pos)].visible(p,i)`. -/
def visibleAt (p : List (point F)) (i : Int) (d : Driver) (pos : Int) :
    Except Fault Bool := do
  let h ← d.hullEdge pos
  let e ← rde d.edges h
  match A.visible e p i with
  | some b => pure b
  | none => Except.error Fault.outOfRange

/-- The end points of the three seed edges, by the test
`p[2].y>p[0].y+(p[1].y-p[0].y)*(p[2].x-p[0].x)/(p[1].x-p[0].x)`. -/
def seedEnds (p : List (point F)) (edges : List edge) : Except Fault (List edge) := do
  let p0 ← rdpE p 0
  let p1 ← rdpE p 1
  let p2 ← rdpE p 2
  if A.lt (A.add p0.y (A.div (A.mul (A.sub p1.y p0.y) (A.sub p2.x p0.x)) (A.sub p1.x p0.x)))
      p2.y then do
    let e ← wre edges 0 fun x => { x with from_ := 0, to_ := 1 }
    let e ← wre e 1 fun x => { x with from_ := 1, to_ := 2 }
    wre e 2 fun x => { x with from_ := 2, to_ := 0 }
  else do
    let e ← wre edges 0 fun x => { x with from_ := 0, to_ := 2 }
    let e ← wre e 1 fun x => { x with from_ := 2, to_ := 1 }
    wre e 2 fun x => { x with from_ := 1, to_ := 0 }

/-- The seed edges: their end points, then the six `lef` / `let` assignments. -/
def seedEdges (p : List (point F)) (edges : List edge) : Except Fault (List edge) := do
  let e ← A.seedEnds p edges
  let e ← wre e 0 fun x => { x with lef := 2, let_ := 1 }
  let e ← wre e 1 fun x => { x with lef := 0, let_ := 2 }
  wre e 2 fun x => { x with lef := 1, let_ := 0 }

/-- The part of `triangulate` before the loop over the points. -/
def seed (junk : Nat → item) (npoints : Int) (p : List (point F)) :
    Except Fault Driver :=
  -- cyclist hull(npoints); edges=new edge[3*npoints];
  if npoints < 0 then Except.error Fault.badAlloc
  else do
    let hull := cyclist.new npoints.toNat junk
    let edges := List.replicate (3 * npoints).toNat edge.new
    let e ← A.seedEdges p edges
    let r ← seedHull hull
    -- int next_edge=3;
    pure { hull := r.1, edges := e, lower_hull_pos := r.2.1, upper_hull_pos := r.2.2,
           next_edge := 3, saved_edge := -1, count := 0 }

/-- The `else` branch for an upper reference edge that is not visible: the test
of the lower reference edge, then the first new edge. -/
def firstLower (p : List (point F)) (i : Int) (d : Driver) : Except Fault Driver := do
  -- if(!edges[hull.getEdge(lower_hull_pos)].visible(p,i)){ ... }
  let w ← A.visibleAt p i d d.lower_hull_pos
  let d ← cantSee i w d
  firstLowerEdge i d

/-- The `if`/`else` on the visibility `v` of the upper reference edge. -/
def firstNew (p : List (point F)) (i : Int) (v : Bool) (d : Driver) : Except Fault Driver :=
  if v then firstUpper i d else A.firstLower p i d

/-- Loop body for point `i`, from `saved_edge=-1` to `count=0`: the first new
edge, joined to the upper or to the lower reference edge. -/
def firstEdge (p : List (point F)) (i : Int) (d0 : Driver) : Except Fault Driver := do
  -- saved_edge=-1;
  let d := { d0 with saved_edge := -1 }
  let v ← A.visibleAt p i d d.upper_hull_pos
  let d ← A.firstNew p i v d
  -- count=0;
  pure { d with count := 0 }

variable (depth : Nat)

/-- Statements of the upper `while` body that work on the edge table, up to
`next_edge++`. -/
def upperEdges (p : List (point F)) (i : Int) (d : Driver) : Except Fault Driver := do
  -- h=hull.getEdge(upper_hull_pos);
  let h ← d.hullEdge d.upper_hull_pos
  let d ← upperWire i h d
  -- edges[h].swap(h,edges,p);
  let r ← A.swap depth h d.edges p
  -- next_edge++;
  pure { d with edges := r.1, next_edge := d.next_edge + 1 }

/-- One pass through the body of the upper `while` loop. -/
def upperStep (p : List (point F)) (i : Int) (d : Driver) : Except Fault Driver := do
  let d ← A.upperEdges depth p i d
  -- upper_hull_pos=hull.delNextPos(upper_hull_pos);
  let r ← (d.hull.delNextPos d.upper_hull_pos).toExcept
  pure { d with hull := r.1, upper_hull_pos := r.2 }

/-- The upper `while` loop with an iteration budget. -/
def upperLoop (p : List (point F)) (i : Int) : Nat → Driver → Except Fault Driver
  | 0, _ => Except.error Fault.outOfFuel
  | n + 1, d => do
    let v ← A.visibleAt p i d d.upper_hull_pos
    if v then do
      let d ← A.upperStep depth p i d
      upperLoop p i n d
    else pure d

/-- The upper `while` loop.  Every pass removes a slot of the hull and the
removal asserts `num != 0`, so `num + 1` passes are never exceeded. -/
def upperSweep (p : List (point F)) (i : Int) (d : Driver) : Except Fault Driver :=
  A.upperLoop depth p i (d.hull.num.toNat + 1) d

/-- Statements of the lower `while` body that work on the edge table, up to
`next_edge++`. -/
def lowerEdges (p : List (point F)) (i : Int) (d : Driver) : Except Fault Driver := do
  -- h=hull.getEdge(lower_hull_pos);
  let h ← d.hullEdge d.lower_hull_pos
  -- if (saved_edge==-1){ ... }else{ ... }
  let d ← linkLower h d
  -- edges[next_edge].to=i;
  let d ← d.setE d.next_edge fun x => { x with to_ := i }
  -- edges[next_edge].from=edges[h].from;
  let eh ← rde d.edges h
  let d ← d.setE d.next_edge fun x => { x with from_ := eh.from_ }
  -- edges[h].ret=saved_edge; edges[h].ref=next_edge;
  let d ← d.setE h fun x => { x with ret := d.saved_edge }
  let d ← d.setE h fun x => { x with ref := d.next_edge }
  -- edges[next_edge].lef=h; edges[next_edge].let=saved_edge;
  let d ← d.setE d.next_edge fun x => { x with lef := h }
  let d ← d.setE d.next_edge fun x => { x with let_ := d.saved_edge }
  -- edges[h].swap(h,edges,p);
  let r ← A.swap depth h d.edges p
  -- saved_edge=next_edge; next_edge++;
  pure { d with edges := r.1, saved_edge := d.next_edge, next_edge := d.next_edge + 1 }

/-- One pass through the body of the lower `while` loop. -/
def lowerStep (p : List (point F)) (i : Int) (d : Driver) : Except Fault Driver := do
  let d ← A.lowerEdges depth p i d
  -- lower_hull_pos=hull.delNextNeg(lower_hull_pos);
  let r ← (d.hull.delNextNeg d.lower_hull_pos).toExcept
  pure { d with hull := r.1, lower_hull_pos := r.2 }

/-- The lower `while` loop with an iteration budget. -/
def lowerLoop (p : List (point F)) (i : Int) : Nat → Driver → Except Fault Driver
  | 0, _ => Except.error Fault.outOfFuel
  | n + 1, d => do
    let v ← A.visibleAt p i d d.lower_hull_pos
    if v then do
      let d ← A.lowerStep depth p i d
      lowerLoop p i n d
    else pure d

/-- The lower `while` loop, with the budget `num + 1` as for the upper one. -/
def lowerSweep (p : List (point F)) (i : Int) (d : Driver) : Except Fault Driver :=
  A.lowerLoop depth p i (d.hull.num.toNat + 1) d

/-- The state in which the hull receives the new upper edge of point `i`:
after the first edge and the upper sweep. -/
def beforeUpperInsert (p : List (point F)) (i : Int) (d : Driver) : Except Fault Driver := do
  let d ← A.firstEdge p i d
  A.upperSweep depth p i d

/-- The state in which the hull receives the new lower edge of point `i`:
after the insertion of the upper edge and the lower sweep. -/
def beforeLowerInsert (p : List (point F)) (i : Int) (d : Driver) : Except Fault Driver := do
  let d ← A.beforeUpperInsert depth p i d
  let d ← upperInsert d
  A.lowerSweep depth p i d

/-- The body of the loop `for (int i=3;i<npoints;i++)` for one point `i`. -/
def processPoint (p : List (point F)) (i : Int) (d : Driver) : Except Fault Driver := do
  let d ← A.beforeLowerInsert depth p i d
  lowerInsert d

variable (junk : Nat → item)

/-- The state of `triangulate` after the seed and the first `k` passes of the
loop over the points, that is after the points `3, …, 3 + k - 1`. -/
def run (npoints : Int) (p : List (point F)) : Nat → Except Fault Driver
  | 0 => A.seed junk npoints p
  | k + 1 => do
    let d ← run npoints p k
    A.processPoint depth p (3 + (k : Int)) d

/-- Function `triangulate`, up to the end of the loop over the points. -/
def triangulate (npoints : Int) (p : List (point F)) : Except Fault Driver :=
  A.run depth junk npoints p (npoints - 3).toNat

/-- Point `i` sees a hull edge: the test that opens the upper sweep, or the
test that opens the lower sweep, finds the edge at the reference position
visible from `p[i]`. -/
def seesHull (p : List (point F)) (i : Int) (d : Driver) : Bool :=
  match A.firstEdge p i d with
  | Except.ok d1 =>
    match A.visibleAt p i d1 d1.upper_hull_pos with
    | Except.ok true => true
    | _ =>
      match A.upperSweep depth p i d1 with
      | Except.ok d2 =>
        match upperInsert d2 with
        | Except.ok d3 => decide (A.visibleAt p i d3 d3.lower_hull_pos = Except.ok true)
        | Except.error _ => false
      | Except.error _ => false
  | Except.error _ => false

end Arith

/-- The `double` nearest to each coordinate of the points `p`, as a decimal
literal of the source is read. -/
def dblPts (p : List (point ℚ)) : List (point Dbl) :=
  p.map fun a => ⟨Dbl.round a.x, Dbl.round a.y⟩

end Tipper

namespace Tipper

/-- The number a finite `double` stands for; `0` for an infinity and for NaN. -/
def Dbl.val : Dbl → ℚ
  | Dbl.fin q => q
  | _ => 0

/-- The edge from `(0.0000001, 0)` to `(0, 1)` and the point `(1, -20000000)`. -/
def edgeV : List (point Dbl) := dblPts [⟨1 / 10000000, 0⟩, ⟨0, 1⟩, ⟨1, -20000000⟩]

/-- The edge from `(0, 0)` to `(1, -0.0000001)` and the point `(1000, -1e-9)`. -/
def edgeH : List (point Dbl) := dblPts [⟨0, 0⟩, ⟨1, -1 / 10000000⟩, ⟨1000, -1 / 1000000000⟩]

/-- The edge from `(0, 0)` to `(5, 19)` and the point `(58, 220.39999999999998)`. -/
def edgeL : List (point Dbl) :=
  dblPts [⟨0, 0⟩, ⟨5, 19⟩, ⟨58, 22039999999999998 / 100000000000000⟩]

/-- The edge from `(0, 0)` to `(1, 1)` and the point `(0, 0.5)`. -/
def edgeB : List (point Dbl) := dblPts [⟨0, 0⟩, ⟨1, 1⟩, ⟨0, 1 / 2⟩]

/-- The edge from `(0, 0)` to `(0.00000005, 1)` and the point `(3, 7)`. -/
def edgeN : List (point Dbl) := dblPts [⟨0, 0⟩, ⟨1 / 20000000, 1⟩, ⟨3, 7⟩]

/-- The edge from `(0, 0)` to `(1, 0.00000005)` and the point `(2, -1)`. -/
def edgeF : List (point Dbl) := dblPts [⟨0, 0⟩, ⟨1, 1 / 20000000⟩, ⟨2, -1⟩]

namespace Arith

variable {F : Type} (A : Arith F)

end Arith

end Tipper

namespace Tipper

end Tipper

namespace Tipper

/-- The points of `quadPts` with point 2, the point opposite edge 0 of `quad5` on
its left, moved onto point 0, the start of that edge. -/
def quadN : List (point Dbl) := dblPts [⟨-1, 0⟩, ⟨1, 0⟩, ⟨-1, 0⟩, ⟨0, -1 / 2⟩]

/-- The points of `quadPts` as `double`s. -/
def quadD : List (point Dbl) := dblPts quadPts

namespace Arith

variable {F : Type} (A : Arith F)

end Arith

end Tipper

namespace Tipper

/-- The points `(0, 0)`, `(10, 1)`, `(11, 1.1)` as `double`s. -/
def seedD : List (point Dbl) := dblPts [⟨0, 0⟩, ⟨10, 1⟩, ⟨11, 11 / 10⟩]

/-- The numbers the `double`s of a point stand for. -/
def point.val (a : point Dbl) : point ℚ := ⟨a.x.val, a.y.val⟩

end Tipper

namespace Tipper

section validcheck

variable {K : Type} [LinearOrderedField K]

instance (n : edge) (u v : Int) : Decidable (n.joins u v) := by
  unfold edge.joins; infer_instance

/-- The test of `Tri`, with the third point read from the first neighbour. -/
def triB (e : List edge) (p : List (point K)) (i : Int) (x : edge) (s t : Int) : Bool :=
  match rde e (x.pairAt s).1, rde e (x.pairAt s).2 with
  | Except.ok ea, Except.ok eb =>
    match rdpE p s, rdpE p t, rdpE p (if ea.from_ = s then ea.to_ else ea.from_) with
    | Except.ok ps, Except.ok pt, Except.ok pl =>
      decide (ea.joins s (if ea.from_ = s then ea.to_ else ea.from_) ∧
        eb.joins t (if ea.from_ = s then ea.to_ else ea.from_) ∧
        ea.pairAt (if ea.from_ = s then ea.to_ else ea.from_) = ((x.pairAt s).2, i) ∧
        eb.pairAt t = (i, (x.pairAt s).1) ∧ 0 < orient ps pt pl)
    | _, _, _ => false
  | _, _ => false

/-- The test of `Valid` on the entries from index `i` on. -/
def validFrom (e : List edge) (p : List (point K)) : Nat → List edge → Bool
  | _, [] => true
  | i, x :: rest =>
    (decide (x.pairAt x.from_ = (-1, -1)) || triB e p i x x.from_ x.to_) &&
    (decide (x.pairAt x.to_ = (-1, -1)) || triB e p i x x.to_ x.from_) &&
    validFrom e p (i + 1) rest

/-- The test of `Valid`. -/
def validB (e : List edge) (p : List (point K)) : Bool := validFrom e p 0 e

/-- No three points of the list on a line and no four on a circle. -/
def generalPosition (p : List (point K)) : Prop :=
  (∀ a ∈ p, ∀ b ∈ p, ∀ c ∈ p, a ≠ b → b ≠ c → a ≠ c → orient a b c ≠ 0) ∧
  (∀ a ∈ p, ∀ b ∈ p, ∀ c ∈ p, ∀ d ∈ p, [a, b, c, d].Nodup → inCircle a b c d ≠ 0)

instance (p : List (point K)) : Decidable (generalPosition p) := by
  unfold generalPosition; infer_instance

end validcheck

namespace Arith

variable {F : Type} (A : Arith F)

/-- The part of `swap` before the recursive calls: `none` when the call returns
0 without a flip, the table after the flip step otherwise. -/
def swapHead (tint : Int) (e : List edge) (p : List (point F)) :
    Except Fault (Option (List edge)) := do
  let t ← rde e tint
  if t.ref = -1 ∨ t.lef = -1 ∨ t.let_ = -1 ∨ t.ret = -1 then pure none
  else do
    let el ← rde e t.lef
    let leftp := if el.from_ = t.from_ then el.to_ else el.from_
    let er ← rde e t.ref
    let rightp := if er.from_ = t.from_ then er.to_ else er.from_
    let pl ← rdpE p leftp
    let pf ← rdpE p t.from_
    let pt ← rdpE p t.to_
    let pr ← rdpE p rightp
    if A.flipTest pl pf pt pr then do
      let e ← flipStep tint leftp rightp e
      pure (some e)
    else pure none

/-- The first of the four edges `lef`, `let`, `ref`, `ret` of `e[tint]` on which
`swap` does not return 0 at once, when `swap` flips that edge too. -/
def firstFlip (e : List edge) (p : List (point F)) : List Int → Option Int
  | [] => none
  | n :: rest =>
    match A.swapHead n e p with
    | Except.ok none => firstFlip e p rest
    | Except.ok (some _) => some n
    | Except.error _ => none

/-- The call `swap(tint)` on `e` flips `e[tint]`, and among the recursive calls
that follow, those before the call on the edge `n` return 0 at once and the call
on `n` starts, on the table `e1`, with a flip. -/
def spinNext (p : List (point F)) (s : Int × List edge) : Option (Int × List edge) :=
  match A.swapHead s.1 s.2 p with
  | Except.ok (some e1) =>
    match rde e1 s.1 with
    | Except.ok t =>
      match A.firstFlip e1 p [t.lef, t.let_, t.ref, t.ret] with
      | some n => some (n, e1)
      | none => none
    | Except.error _ => none
  | _ => none

/-- The calls reached from `s` by `n` steps of `spinNext`. -/
def spinOrbit (p : List (point F)) : Nat → Int × List edge → List (Int × List edge)
  | 0, _ => []
  | n + 1, s =>
    match A.spinNext p s with
    | some s1 => s :: spinOrbit p n s1
    | none => [s]

end Arith

/-- The five points of the non-terminating call. -/
def spinQ : List (point ℚ) :=
  [⟨-8725663716814159 / 10000000000000000, 4884955752212389 / 10000000000000000⟩,
   ⟨-789627465303141 / 1000000000000000, -6135865595325055 / 10000000000000000⟩,
   ⟨-7859973579920739 / 10000000000000000, 618229854689564 / 1000000000000000⟩,
   ⟨-32432432432432423 / 100000000000000000, -9459459459459459 / 10000000000000000⟩,
   ⟨-8318890814558057 / 100000000000000000, -9965337954939341 / 10000000000000000⟩]

/-- The points `spinQ` as `double`s. -/
def spinD : List (point Dbl) := dblPts spinQ

/-- Edge table of three triangles on the points 0 .. 4: `0 1 3` (edges 0, 4, 1),
`0 3 2` (edges 1, 3, 2) and `3 4 2` (edges 5, 6, 3). -/
def spinTable : List edge :=
  [⟨0, 1, 1, 4, -1, -1⟩, ⟨0, 3, 2, 3, 0, 4⟩, ⟨2, 0, 3, 1, -1, -1⟩, ⟨3, 2, 1, 2, 5, 6⟩,
   ⟨1, 3, 0, 1, -1, -1⟩, ⟨3, 4, 3, 6, -1, -1⟩, ⟨4, 2, 5, 3, -1, -1⟩]

/-- The calls of `swap` that follow one another when `swap(3)` is called on
`spinTable` with the points `spinD`: the index of the edge and the table at the
call.  The call after the last one is the first one again. -/
def spinStates : List (Int × List edge) :=
  [(3, [⟨0, 1, 1, 4, -1, -1⟩, ⟨0, 3, 2, 3, 0, 4⟩, ⟨2, 0, 3, 1, -1, -1⟩, ⟨3, 2, 1, 2, 5, 6⟩,
       ⟨1, 3, 0, 1, -1, -1⟩, ⟨3, 4, 3, 6, -1, -1⟩, ⟨4, 2, 5, 3, -1, -1⟩]),
   (1, [⟨0, 1, 1, 4, -1, -1⟩, ⟨0, 3, 3, 5, 0, 4⟩, ⟨2, 0, 6, 3, -1, -1⟩, ⟨0, 4, 2, 6, 1, 5⟩,
       ⟨1, 3, 0, 1, -1, -1⟩, ⟨3, 4, 1, 3, -1, -1⟩, ⟨4, 2, 3, 2, -1, -1⟩]),
   (3, [⟨0, 1, 3, 1, -1, -1⟩, ⟨4, 1, 5, 4, 3, 0⟩, ⟨2, 0, 6, 3, -1, -1⟩, ⟨0, 4, 2, 6, 0, 1⟩,
       ⟨1, 3, 1, 5, -1, -1⟩, ⟨3, 4, 4, 1, -1, -1⟩, ⟨4, 2, 3, 2, -1, -1⟩]),
   (1, [⟨0, 1, 2, 3, -1, -1⟩, ⟨4, 1, 5, 4, 6, 3⟩, ⟨2, 0, 3, 0, -1, -1⟩, ⟨2, 1, 6, 1, 2, 0⟩,
       ⟨1, 3, 1, 5, -1, -1⟩, ⟨3, 4, 4, 1, -1, -1⟩, ⟨4, 2, 1, 3, -1, -1⟩]),
   (3, [⟨0, 1, 2, 3, -1, -1⟩, ⟨3, 2, 4, 3, 5, 6⟩, ⟨2, 0, 3, 0, -1, -1⟩, ⟨2, 1, 1, 4, 2, 0⟩,
       ⟨1, 3, 3, 1, -1, -1⟩, ⟨3, 4, 1, 6, -1, -1⟩, ⟨4, 2, 5, 1, -1, -1⟩]),
   (1, [⟨0, 1, 3, 4, -1, -1⟩, ⟨3, 2, 3, 2, 5, 6⟩, ⟨2, 0, 1, 3, -1, -1⟩, ⟨3, 0, 4, 0, 1, 2⟩,
       ⟨1, 3, 0, 3, -1, -1⟩, ⟨3, 4, 1, 6, -1, -1⟩, ⟨4, 2, 5, 1, -1, -1⟩]),
   (3, [⟨0, 1, 3, 4, -1, -1⟩, ⟨0, 4, 2, 6, 3, 5⟩, ⟨2, 0, 6, 1, -1, -1⟩, ⟨3, 0, 4, 0, 5, 1⟩,
       ⟨1, 3, 0, 3, -1, -1⟩, ⟨3, 4, 3, 1, -1, -1⟩, ⟨4, 2, 1, 2, -1, -1⟩]),
   (1, [⟨0, 1, 1, 3, -1, -1⟩, ⟨0, 4, 2, 6, 0, 3⟩, ⟨2, 0, 6, 1, -1, -1⟩, ⟨1, 4, 0, 1, 4, 5⟩,
       ⟨1, 3, 3, 5, -1, -1⟩, ⟨3, 4, 4, 3, -1, -1⟩, ⟨4, 2, 1, 2, -1, -1⟩]),
   (3, [⟨0, 1, 2, 1, -1, -1⟩, ⟨2, 1, 6, 3, 2, 0⟩, ⟨2, 0, 1, 0, -1, -1⟩, ⟨1, 4, 1, 6, 4, 5⟩,
       ⟨1, 3, 3, 5, -1, -1⟩, ⟨3, 4, 4, 3, -1, -1⟩, ⟨4, 2, 3, 1, -1, -1⟩]),
   (1, [⟨0, 1, 2, 1, -1, -1⟩, ⟨2, 1, 3, 4, 2, 0⟩, ⟨2, 0, 1, 0, -1, -1⟩, ⟨2, 3, 6, 5, 1, 4⟩,
       ⟨1, 3, 1, 3, -1, -1⟩, ⟨3, 4, 3, 6, -1, -1⟩, ⟨4, 2, 5, 3, -1, -1⟩]),
   (3, [⟨0, 1, 1, 4, -1, -1⟩, ⟨3, 0, 4, 0, 3, 2⟩, ⟨2, 0, 3, 1, -1, -1⟩, ⟨2, 3, 6, 5, 2, 1⟩,
       ⟨1, 3, 0, 1, -1, -1⟩, ⟨3, 4, 3, 6, -1, -1⟩, ⟨4, 2, 5, 3, -1, -1⟩]),
   (1, [⟨0, 1, 1, 4, -1, -1⟩, ⟨3, 0, 4, 0, 5, 3⟩, ⟨2, 0, 6, 3, -1, -1⟩, ⟨4, 0, 5, 1, 6, 2⟩,
       ⟨1, 3, 0, 1, -1, -1⟩, ⟨3, 4, 1, 3, -1, -1⟩, ⟨4, 2, 3, 2, -1, -1⟩]),
   (3, [⟨0, 1, 3, 1, -1, -1⟩, ⟨1, 4, 0, 3, 4, 5⟩, ⟨2, 0, 6, 3, -1, -1⟩, ⟨4, 0, 1, 0, 6, 2⟩,
       ⟨1, 3, 1, 5, -1, -1⟩, ⟨3, 4, 4, 1, -1, -1⟩, ⟨4, 2, 3, 2, -1, -1⟩]),
   (1, [⟨0, 1, 2, 3, -1, -1⟩, ⟨1, 4, 3, 6, 4, 5⟩, ⟨2, 0, 3, 0, -1, -1⟩, ⟨1, 2, 0, 2, 1, 6⟩,
       ⟨1, 3, 1, 5, -1, -1⟩, ⟨3, 4, 4, 1, -1, -1⟩, ⟨4, 2, 1, 3, -1, -1⟩]),
   (3, [⟨0, 1, 2, 3, -1, -1⟩, ⟨2, 3, 6, 5, 3, 4⟩, ⟨2, 0, 3, 0, -1, -1⟩, ⟨1, 2, 0, 2, 4, 1⟩,
       ⟨1, 3, 3, 1, -1, -1⟩, ⟨3, 4, 1, 6, -1, -1⟩, ⟨4, 2, 5, 1, -1, -1⟩]),
   (1, [⟨0, 1, 3, 4, -1, -1⟩, ⟨2, 3, 6, 5, 2, 3⟩, ⟨2, 0, 1, 3, -1, -1⟩, ⟨0, 3, 2, 1, 0, 4⟩,
       ⟨1, 3, 0, 3, -1, -1⟩, ⟨3, 4, 1, 6, -1, -1⟩, ⟨4, 2, 5, 1, -1, -1⟩]),
   (3, [⟨0, 1, 3, 4, -1, -1⟩, ⟨4, 0, 5, 3, 6, 2⟩, ⟨2, 0, 6, 1, -1, -1⟩, ⟨0, 3, 1, 5, 0, 4⟩,
       ⟨1, 3, 0, 3, -1, -1⟩, ⟨3, 4, 3, 1, -1, -1⟩, ⟨4, 2, 1, 2, -1, -1⟩]),
   (1, [⟨0, 1, 1, 3, -1, -1⟩, ⟨4, 0, 3, 0, 6, 2⟩, ⟨2, 0, 6, 1, -1, -1⟩, ⟨4, 1, 5, 4, 1, 0⟩,
       ⟨1, 3, 3, 5, -1, -1⟩, ⟨3, 4, 4, 3, -1, -1⟩, ⟨4, 2, 1, 2, -1, -1⟩]),
   (3, [⟨0, 1, 2, 1, -1, -1⟩, ⟨1, 2, 0, 2, 3, 6⟩, ⟨2, 0, 1, 0, -1, -1⟩, ⟨4, 1, 5, 4, 6, 1⟩,
       ⟨1, 3, 3, 5, -1, -1⟩, ⟨3, 4, 4, 3, -1, -1⟩, ⟨4, 2, 3, 1, -1, -1⟩]),
   (1, [⟨0, 1, 2, 1, -1, -1⟩, ⟨1, 2, 0, 2, 4, 3⟩, ⟨2, 0, 1, 0, -1, -1⟩, ⟨3, 2, 4, 1, 5, 6⟩,
       ⟨1, 3, 1, 3, -1, -1⟩, ⟨3, 4, 3, 6, -1, -1⟩, ⟨4, 2, 5, 3, -1, -1⟩])]

/-- The state of `spinStates` with the number `i`, counted round the list. -/
def spinState (i : Nat) : Int × List edge := spinStates.getD (i % 20) (0, [])

section validcheck

variable {K : Type} [LinearOrderedField K]

end validcheck

namespace Arith

variable {F : Type} (A : Arith F)

end Arith

end Tipper

namespace Tipper

namespace Arith

variable {F : Type} (A : Arith F)

/-- All the calls of the list `l` start with a flip that is followed, after
recursive calls that return 0 at once, by another call of `l`. -/
def spins (p : List (point F)) (l : List (Int × List edge)) : Bool :=
  l.all fun s =>
    match A.spinNext p s with
    | some s1 => l.contains s1
    | none => false

end Arith

end Tipper

namespace Tipper

namespace Arith

section insertions

variable {F : Type} (A : Arith F) (depth : Nat) (junk : Nat → item)

/-- The hull list `h` is the state of `hull` at one of the insertions made by
`triangulate(npoints, p)`: the three seed insertions, and for every point
`i = 3 + k` of the loop the `addBefore` after the upper sweep and the
`addAfter` after the lower sweep. -/
inductive InsertsAt (npoints : Int) (p : List (point F)) : cyclist → Prop
  | seed0 : 0 ≤ npoints → InsertsAt npoints p (cyclist.new npoints.toNat junk)
  | seed1 (h1 : cyclist) (s1 : Int) : 0 ≤ npoints →
      (cyclist.new npoints.toNat junk).addAfter 0 0 = Run.ok h1 s1 →
      InsertsAt npoints p h1
  | seed2 (h1 h2 : cyclist) (s1 s2 : Int) : 0 ≤ npoints →
      (cyclist.new npoints.toNat junk).addAfter 0 0 = Run.ok h1 s1 →
      h1.addAfter s1 1 = Run.ok h2 s2 →
      InsertsAt npoints p h2
  | upper (k : Nat) (d d1 : Driver) : 3 + (k : Int) < npoints →
      A.run depth junk npoints p k = Except.ok d →
      A.beforeUpperInsert depth p (3 + (k : Int)) d = Except.ok d1 →
      InsertsAt npoints p d1.hull
  | lower (k : Nat) (d d1 : Driver) : 3 + (k : Int) < npoints →
      A.run depth junk npoints p k = Except.ok d →
      A.beforeLowerInsert depth p (3 + (k : Int)) d = Except.ok d1 →
      InsertsAt npoints p d1.hull

end insertions

end Arith

/-- Seven points, sorted by `x`, with gaps of `1e-8` between some of the `x`. -/
def holeQ : List (point ℚ) :=
  [⟨0, 399999999 / 100000000⟩, ⟨1 / 100000000, 0⟩, ⟨100000001 / 100000000, 3⟩,
   ⟨200000001 / 100000000, 3⟩, ⟨100000001 / 50000000, -1⟩, ⟨200000003 / 100000000, -1⟩,
   ⟨300000003 / 100000000, 200000001 / 100000000⟩]

/-- The points `holeQ` as `double`s. -/
def holeD : List (point Dbl) := dblPts holeQ

/-- The points `pts4` as `double`s. -/
def pts4D : List (point Dbl) := dblPts pts4

namespace Arith

section driver

variable {F : Type} (A : Arith F)

variable (depth : Nat)

variable (junk : Nat → item)

end driver

end Arith

end Tipper
namespace Tipper

/-- Four points sorted by `x`, no three on a line; the first three are `1e-8`
apart in `x`, less than the tolerance `mindistance` of `edge::visible`. -/
def gap4 : List (point ℚ) :=
  [⟨0, -2⟩, ⟨1 / 100000000, 0⟩, ⟨1 / 50000000, 1⟩, ⟨50000001 / 50000000, -1⟩]

/-- The state of `triangulate(4, gap4)` at its end. -/
def ref4 : Driver :=
  { hull := { size := 4, prev := 1, hole := 0, num := 1,
              ejs := [⟨1, 1, 2⟩, ⟨0, 1, 7⟩, ⟨0, 1, 3⟩, ⟨0, 0, 4⟩] },
    edges := [⟨1, 3, 1, 5, 2, 4⟩, ⟨2, 1, 5, 0, 5, 6⟩, ⟨1, 0, 0, 4, 3, 4⟩,
              ⟨1, 3, 2, 4, 6, 7⟩, ⟨3, 0, 3, 2, 0, 2⟩, ⟨3, 2, 0, 1, 6, 1⟩,
              ⟨3, 1, 5, 1, 7, 3⟩, ⟨3, 3, 6, 3, -1, -1⟩] ++
      List.replicate 4 edge.new,
    lower_hull_pos := 1, upper_hull_pos := 1, next_edge := 8, saved_edge := 7,
    count := 3 }

/-- Five points sorted by `x`, no three on a line; the first three are `1e-8`
apart in `x`, less than the tolerance `mindistance` of `edge::visible`. -/
def gap5 : List (point ℚ) :=
  [⟨0, 1⟩, ⟨1 / 100000000, -1⟩, ⟨1 / 50000000, 0⟩, ⟨50000001 / 50000000, 0⟩,
   ⟨100000001 / 50000000, -1⟩]

/-- The state of `triangulate(5, gap5)` at its end. -/
def bad5 : Driver :=
  { hull := { size := 5, prev := 0, hole := 3, num := 3,
              ejs := [⟨0, 1, 8⟩, ⟨0, 2, 6⟩, ⟨2, 2, 7⟩, ⟨0, 0, 4⟩, ⟨0, 0, 5⟩] },
    edges := [⟨2, 3, 1, 5, 4, 3⟩, ⟨1, 2, 5, 0, 5, 6⟩, ⟨2, 0, 4, 2, 4, 2⟩,
              ⟨2, 3, 4, 0, 8, 7⟩, ⟨2, 2, 2, 2, 3, 0⟩, ⟨3, 1, 0, 1, 6, 1⟩,
              ⟨3, 2, 5, 1, -1, -1⟩, ⟨4, 3, 8, 3, -1, -1⟩, ⟨2, 4, 3, 7, -1, -1⟩] ++
      List.replicate 6 edge.new,
    lower_hull_pos := 0, upper_hull_pos := 2, next_edge := 9, saved_edge := 8,
    count := 0 }

/-- Six points sorted by `x`, no three on a line; three of the gaps in `x` are
`1e-8`, less than the tolerance `mindistance` of `edge::visible`. -/
def gap6 : List (point ℚ) :=
  [⟨0, 2⟩, ⟨1 / 100000000, -2⟩, ⟨100000001 / 100000000, 0⟩, ⟨200000001 / 100000000, 0⟩,
   ⟨100000001 / 50000000, -1⟩, ⟨200000003 / 100000000, -3⟩]

/-- The state of `triangulate(6, gap6)` at its end. -/
def bad6 : Driver :=
  { hull := { size := 6, prev := 0, hole := 2, num := 2,
              ejs := [⟨0, 1, 12⟩, ⟨0, 2, 6⟩, ⟨2, 2, 11⟩, ⟨0, 0, 4⟩, ⟨0, 0, 5⟩, ⟨0, 0, 6⟩] },
    edges := [⟨2, 3, 1, 5, 4, 3⟩, ⟨1, 2, 5, 0, 5, 6⟩, ⟨2, 0, 4, 2, 4, 2⟩,
              ⟨2, 3, 4, 0, 10, 11⟩, ⟨2, 2, 2, 2, 3, 0⟩, ⟨3, 1, 0, 1, 6, 1⟩,
              ⟨3, 2, 5, 1, -1, -1⟩, ⟨4, 3, 8, 3, 9, 10⟩, ⟨2, 4, 3, 7, 12, 9⟩,
              ⟨4, 5, 7, 10, 8, 12⟩, ⟨5, 3, 9, 7, 11, 3⟩, ⟨5, 3, 10, 3, -1, -1⟩,
              ⟨2, 5, 8, 9, -1, -1⟩] ++
      List.replicate 5 edge.new,
    lower_hull_pos := 0, upper_hull_pos := 2, next_edge := 13, saved_edge := 12,
    count := 2 }

end Tipper
namespace Tipper

/-- The four neighbour fields of the entry are below `m`. -/
def edge.below (x : edge) (m : Int) : Prop :=
  x.lef < m ∧ x.let_ < m ∧ x.ref < m ∧ x.ret < m

/-- Every neighbour field of every entry of the table is below `m`. -/
def tableBelow (e : List edge) (m : Int) : Prop :=
  ∀ x ∈ e, x.below m

/-- The `data` of every slot of the hull list, which is what `getEdge` returns,
and `hole` are below `m`. -/
def cyclist.dataBelow (l : cyclist) (m : Int) : Prop :=
  l.hole < m ∧ ∀ it ∈ l.ejs, it.data < m

/-- Every edge index the state of `triangulate` holds is below `m`: the
neighbour fields of the table entries, the `data` of the hull slots and
`saved_edge`. -/
def Below (m : Int) (d : Driver) : Prop :=
  tableBelow d.edges m ∧ d.hull.dataBelow m ∧ d.saved_edge < m

/-- What the bounds are stated about: every edge index held by the state is
below `m`, and `m` is at least the length of the edge table and the capacity of
the hull list. -/
structure Fits (m : Int) (d : Driver) : Prop where
  below : Below m d
  len : (d.edges.length : Int) ≤ m
  size : d.hull.size ≤ m

end Tipper
/-! ## The 3 by 3 grid -/

namespace Tipper

/-- The nine points of the 3 by 3 grid, sorted by `x` and, for equal `x`, by
`y`. -/
def grid9 : List (point ℚ) :=
  [⟨0, 0⟩, ⟨0, 1⟩, ⟨0, 2⟩, ⟨1, 0⟩, ⟨1, 1⟩, ⟨1, 2⟩, ⟨2, 0⟩, ⟨2, 1⟩, ⟨2, 2⟩]

/-- The grid points in the order in which `pert9` has their neighbours. -/
def grid9Moved : List (point ℚ) :=
  [⟨0, 1⟩, ⟨0, 0⟩, ⟨0, 2⟩, ⟨1, 1⟩, ⟨1, 0⟩, ⟨1, 2⟩, ⟨2, 2⟩, ⟨2, 1⟩, ⟨2, 0⟩]

/-- The grid moved off its degenerate position, sorted by `x`: every coordinate
of a grid point is raised by a multiple of `1/2048`, at most `6/2048 < 0.003`.
All coordinates are `double` values. -/
def pert9 : List (point ℚ) :=
  [⟨1 / 1024, 2053 / 2048⟩, ⟨3 / 2048, 3 / 1024⟩, ⟨3 / 1024, 4099 / 2048⟩,
   ⟨1025 / 1024, 1027 / 1024⟩, ⟨2051 / 2048, 1 / 1024⟩, ⟨1027 / 1024, 2049 / 1024⟩,
   ⟨2, 4097 / 2048⟩, ⟨4099 / 2048, 2049 / 2048⟩, ⟨1025 / 512, 3 / 1024⟩]

/-- The state of `triangulate(9, pert9)` after the passes for the points 3, 4
and 5, in `double` arithmetic. -/
def mid9 : Driver :=
  { hull := { size := 9, prev := 4, hole := 5, num := 5,
              ejs := [⟨1, 2, 0⟩, ⟨4, 0, 6⟩, ⟨0, 3, 2⟩, ⟨2, 4, 9⟩, ⟨3, 1, 7⟩, ⟨0, 0, 6⟩,
                      ⟨0, 0, 7⟩, ⟨0, 0, 8⟩, ⟨0, 0, 9⟩] },
    edges := [⟨0, 1, 1, 4, -1, -1⟩, ⟨0, 3, 2, 3, 0, 4⟩, ⟨2, 0, 3, 1, -1, -1⟩,
              ⟨3, 2, 1, 2, 8, 9⟩, ⟨1, 3, 0, 1, 6, 5⟩, ⟨4, 3, 6, 4, 7, 8⟩,
              ⟨1, 4, 4, 5, -1, -1⟩, ⟨4, 5, 5, 8, -1, -1⟩, ⟨5, 3, 7, 5, 9, 3⟩,
              ⟨5, 2, 8, 3, -1, -1⟩] ++
      List.replicate 17 edge.new,
    lower_hull_pos := 4, upper_hull_pos := 3, next_edge := 10, saved_edge := 7,
    count := 2 }

/-- The state of `triangulate(9, pert9)` at its end, in `double` arithmetic. -/
def fan9 : Driver :=
  { hull := { size := 9, prev := 4, hole := 8, num := 8,
              ejs := [⟨1, 2, 0⟩, ⟨4, 0, 6⟩, ⟨0, 3, 2⟩, ⟨2, 5, 9⟩, ⟨7, 1, 15⟩, ⟨3, 6, 10⟩,
                      ⟨5, 7, 12⟩, ⟨6, 4, 14⟩, ⟨0, 0, 9⟩] },
    edges := [⟨0, 1, 1, 4, -1, -1⟩, ⟨0, 3, 2, 3, 0, 4⟩, ⟨2, 0, 3, 1, -1, -1⟩,
              ⟨3, 2, 1, 2, 8, 9⟩, ⟨1, 3, 0, 1, 6, 5⟩, ⟨4, 3, 6, 4, 13, 11⟩,
              ⟨1, 4, 4, 5, -1, -1⟩, ⟨3, 6, 8, 10, 11, 12⟩, ⟨5, 3, 10, 7, 9, 3⟩,
              ⟨5, 2, 8, 3, -1, -1⟩, ⟨6, 5, 7, 8, -1, -1⟩, ⟨3, 7, 7, 12, 5, 13⟩,
              ⟨7, 6, 11, 7, -1, -1⟩, ⟨4, 7, 5, 11, 15, 14⟩, ⟨8, 7, 15, 13, -1, -1⟩,
              ⟨4, 8, 13, 14, -1, -1⟩] ++
      List.replicate 11 edge.new,
    lower_hull_pos := 4, upper_hull_pos := 7, next_edge := 16, saved_edge := 15,
    count := 0 }

/-- Point `i` is an end of a boundary edge of the table. -/
def boundaryPoint (e : List edge) (i : Int) : Bool :=
  e.any fun x => decide (x.from_ ≠ -1 ∧ x.ref = -1 ∧ x.ret = -1 ∧ (x.from_ = i ∨ x.to_ = i))

/-- The points among `0 .. n-1` that are no end of a boundary edge. -/
def interiorPoints (e : List edge) (n : Nat) : List Nat :=
  (List.range n).filter fun i => !boundaryPoint e (i : Int)

end Tipper

namespace Tipper

namespace cyclist

/-! ### Reading and writing slots -/

theorem rd_natCast (l : cyclist) (n : Nat) : l.rd (n : Int) = l.ejs[n]? := by
  simp [rd]

theorem rd_eq_some {l : cyclist} {i : Int} {it : item} (h : l.rd i = some it) :
    ∃ n : Nat, i = (n : Int) ∧ n < l.ejs.length ∧ l.ejs[n]? = some it := by
  unfold rd at h
  split at h
  · rename_i h0
    refine ⟨i.toNat, (Int.toNat_of_nonneg h0).symm, ?_, h⟩
    exact (List.getElem?_eq_some.mp h).1
  · cases h

theorem rd_isSome_of_lt {l : cyclist} {i : Int} (h0 : 0 ≤ i)
    (h1 : i < (l.ejs.length : Int)) : ∃ it, l.rd i = some it := by
  obtain ⟨n, rfl⟩ := Int.eq_ofNat_of_zero_le h0
  have hn : n < l.ejs.length := by exact_mod_cast h1
  exact ⟨l.ejs[n], by simp [rd_natCast, hn]⟩

theorem wr_natCast (l : cyclist) (n : Nat) (f : item → item) (it : item)
    (h : l.ejs[n]? = some it) :
    l.wr (n : Int) f = some { l with ejs := l.ejs.set n (f it) } := by
  simp [wr, rd_natCast, h]

theorem addAfterBody_nat (l : cyclist) (h a r : Nat) (ej : Int)
    (hl : h < l.ejs.length) (al : a < l.ejs.length) (rl : r < l.ejs.length)
    (hh : l.hole = (h : Int)) (e3 : (l.ejs[a]).next = (r : Int))
    (n1 : a ≠ h) (n2 : r ≠ h) :
    ∃ l' : cyclist, l.addAfterBody a ej = some (l', (h : Int)) ∧
      l'.size = l.size ∧ l'.num = l.num + 1 ∧ l'.hole = (l.ejs[h]).data ∧ l'.prev = h ∧
      l'.ejs.length = l.ejs.length ∧
      l'.ejs[h]? = some ⟨r, a, ej⟩ ∧
      (∀ j : Nat, j ≠ h → l'.ejs[j]? = (l.ejs[j]?).map fun it =>
          { next := if j = a then (h : Int) else it.next,
            prev := if j = r then (h : Int) else it.prev,
            data := it.data }) := by
  simp [addAfterBody, hh, rd_natCast, e3, setNext, setPrev, setData, wr, List.getElem?_set, List.getElem_set, n1, n2, Ne.symm n1, Ne.symm n2, hl, al, rl]
  intro j hj
  have hj' : ¬ h = j := fun e => hj e.symm
  by_cases ja : a = j
  · subst ja
    by_cases ra : r = a
    · subst ra; simp [hj', al]
    · simp [hj', ra, al, Ne.symm ra]
  · by_cases rj : r = j
    · subst rj; simp [hj', ja, rl, Ne.symm ja]
    · have ja' : ¬ j = a := fun e => ja e.symm
      have rj' : ¬ j = r := fun e => rj e.symm
      by_cases jl : j < l.ejs.length
      · simp [hj', ja, rj, ja', rj', jl]
      · simp [hj', ja, rj, ja', rj', jl, List.getElem?_eq_none (not_lt.mp jl)]

/-! ### Free and occupied slots of a consistent list -/

theorem freeChain_cons {l : cyclist} {fuel : Nat} {h x : Int} {xs : List Int}
    (e : l.freeChain fuel h = x :: xs) : x = h ∧ ∃ it, l.rd h = some it := by
  cases fuel with
  | zero => simp [freeChain] at e
  | succ f =>
    unfold freeChain at e
    split at e
    · rename_i it hit
      simp only [List.cons.injEq] at e
      exact ⟨e.1.symm, it, hit⟩
    · cases e

theorem hole_free {l : cyclist} (hc : l.Consistent) (h2 : l.num < l.size) :
    l.isFree l.hole ∧ ∃ n : Nat, l.hole = (n : Int) ∧ n < l.ejs.length := by
  obtain ⟨-, hcount, -⟩ := hc
  have hpos : 0 < l.freeSlots.length := by
    have : (0 : Int) < (l.freeSlots.length : Int) := by linarith
    exact_mod_cast this
  obtain ⟨x, xs, hx⟩ := List.exists_cons_of_length_pos hpos
  obtain ⟨rfl, it, hit⟩ := freeChain_cons hx
  refine ⟨?_, ?_⟩
  · unfold isFree; rw [hx]; exact List.mem_cons_self _ _
  · obtain ⟨n, hn, hlt, -⟩ := rd_eq_some hit
    exact ⟨n, hn, hlt⟩

theorem occupied_nat {l : cyclist} (hc : l.Consistent) {a : Int} (ha : l.occupied a) :
    ∃ n : Nat, a = (n : Int) ∧ n < l.ejs.length := by
  obtain ⟨h0, h1, -⟩ := ha
  obtain ⟨n, rfl⟩ := Int.eq_ofNat_of_zero_le h0
  refine ⟨n, rfl, ?_⟩
  have := hc.1
  have h3 : (n : Int) < (l.ejs.length : Int) := by rw [this]; exact h1
  exact_mod_cast h3

theorem occupied_ne_hole {l : cyclist} (hc : l.Consistent) (h2 : l.num < l.size)
    {a : Int} (ha : l.occupied a) : a ≠ l.hole := by
  intro e
  exact ha.2.2 (e ▸ (hole_free hc h2).1)

/-! ### The read-only members on a slot inside the array -/

theorem getEdge_of {l : cyclist} {n : Nat} {it : item} (h : l.ejs[n]? = some it)
    (hs : (n : Int) < l.size) : l.getEdge n = Run.ok l it.data := by
  simp [getEdge, hs, rd_natCast, h, finish]

theorem getNextPos_of {l : cyclist} {n : Nat} {it : item} (h : l.ejs[n]? = some it)
    (hs : (n : Int) < l.size) : l.getNextPos n = Run.ok l it.next := by
  simp [getNextPos, hs, rd_natCast, h, finish]

theorem getNextNeg_of {l : cyclist} {n : Nat} {it : item} (h : l.ejs[n]? = some it)
    (hs : (n : Int) < l.size) : l.getNextNeg n = Run.ok l it.prev := by
  simp [getNextNeg, hs, rd_natCast, h, finish]

/-- C1: on a consistent list with `1 ≤ num < size` and an occupied slot `a`,
`addAfter(a, ej)` returns a slot `s` that was free before the call; afterwards
`getEdge(s) = ej`, `getNextNeg(s) = a`, `getNextPos(a) = s`, `getNextPos(s)` is
the old successor `r` of `a`, `getNextNeg(r) = s`, and `num` has grown by one. -/
theorem addAfter_spec (l : cyclist) (a ej : Int) (hc : l.Consistent)
    (h1 : 1 ≤ l.num) (h2 : l.num < l.size) (ha : l.occupied a) :
    ∃ (l' : cyclist) (s r : Int),
      l.addAfter a ej = Run.ok l' s ∧ l.isFree s ∧
      l.getNextPos a = Run.ok l r ∧
      l'.getEdge s = Run.ok l' ej ∧
      l'.getNextNeg s = Run.ok l' a ∧
      l'.getNextPos a = Run.ok l' s ∧
      l'.getNextPos s = Run.ok l' r ∧
      l'.getNextNeg r = Run.ok l' s ∧
      l'.num = l.num + 1 := by
  obtain ⟨hfree, h, hh, hl⟩ := hole_free hc h2
  obtain ⟨an, rfl, al⟩ := occupied_nat hc ha
  have hr := (hc.2.2 an al ha).1
  obtain ⟨rn, hrn, rl⟩ := occupied_nat hc hr
  have n1 : an ≠ h := by
    intro e
    exact occupied_ne_hole hc h2 ha (by rw [hh, e])
  have n2 : rn ≠ h := by
    intro e
    exact occupied_ne_hole hc h2 hr (by rw [hh, hrn, e])
  obtain ⟨l', hbody, hsize, hnum, -, -, hlen, hslot, hrest⟩ :=
    addAfterBody_nat l h an rn ej hl al rl hh hrn n1 n2
  have hsz : ∀ k : Nat, k < l.ejs.length → (k : Int) < l'.size := by
    intro k hk
    rw [hsize, ← hc.1]
    exact_mod_cast hk
  have hsz0 : ∀ k : Nat, k < l.ejs.length → (k : Int) < l.size := by
    intro k hk
    rw [← hc.1]
    exact_mod_cast hk
  have hnz : l.num ≠ 0 := by omega
  have ea := hrest an n1
  have er := hrest rn n2
  rw [List.getElem?_eq_getElem al] at ea
  rw [List.getElem?_eq_getElem rl] at er
  refine ⟨l', h, rn, ?_, hh ▸ hfree, ?_, ?_, ?_, ?_, ?_, ?_, hnum⟩
  · simp [addAfter, hsz0 an al, hnz, hbody, finish]
  · rw [getNextPos_of (List.getElem?_eq_getElem al) (hsz0 an al), hrn]
  · simpa using getEdge_of hslot (hsz h hl)
  · simpa using getNextNeg_of hslot (hsz h hl)
  · simpa using getNextPos_of ea (hsz an al)
  · simpa using getNextPos_of hslot (hsz h hl)
  · simpa using getNextNeg_of er (hsz rn rl)

theorem addBeforeBody_nat (l : cyclist) (h a q : Nat) (ej : Int)
    (hl : h < l.ejs.length) (al : a < l.ejs.length) (ql : q < l.ejs.length)
    (hh : l.hole = (h : Int)) (e3 : (l.ejs[a]).prev = (q : Int))
    (n1 : a ≠ h) (n2 : q ≠ h) :
    ∃ l' : cyclist, l.addBeforeBody a ej = some (l', (h : Int)) ∧
      l'.size = l.size ∧ l'.num = l.num + 1 ∧ l'.hole = (l.ejs[h]).data ∧ l'.prev = h ∧
      l'.ejs.length = l.ejs.length ∧
      l'.ejs[h]? = some ⟨a, q, ej⟩ ∧
      (∀ j : Nat, j ≠ h → l'.ejs[j]? = (l.ejs[j]?).map fun it =>
          { next := if j = q then (h : Int) else it.next,
            prev := if j = a then (h : Int) else it.prev,
            data := it.data }) := by
  simp [addBeforeBody, hh, rd_natCast, e3, setNext, setPrev, setData, wr, List.getElem?_set, List.getElem_set, n1, n2, Ne.symm n1, Ne.symm n2, hl, al, ql]
  intro j hj
  have hj' : ¬ h = j := fun e => hj e.symm
  by_cases ja : a = j
  · subst ja
    by_cases qa : q = a
    · subst qa; simp [hj', al]
    · simp [hj', qa, al, Ne.symm qa]
  · by_cases qj : q = j
    · subst qj; simp [hj', ja, ql, Ne.symm ja]
    · have ja' : ¬ j = a := fun e => ja e.symm
      have qj' : ¬ j = q := fun e => qj e.symm
      by_cases jl : j < l.ejs.length
      · simp [hj', ja, qj, ja', qj', jl]
      · simp [hj', ja, qj, ja', qj', jl, List.getElem?_eq_none (not_lt.mp jl)]

set_option linter.unusedTactic false in
theorem unlink_nat (l : cyclist) (a q r : Nat)
    (al : a < l.ejs.length) (ql : q < l.ejs.length) (rl : r < l.ejs.length)
    (e2 : (l.ejs[a]).prev = (q : Int)) (e3 : (l.ejs[a]).next = (r : Int)) :
    ∃ l' : cyclist, l.unlink a = some l' ∧
      l'.size = l.size ∧ l'.num = l.num - 1 ∧ l'.hole = a ∧ l'.prev = l.prev ∧
      l'.ejs.length = l.ejs.length ∧
      (∀ j : Nat, l'.ejs[j]? = (l.ejs[j]?).map fun it =>
          { next := if j = q then (r : Int) else it.next,
            prev := if j = r then (q : Int) else it.prev,
            data := if j = a then l.hole else it.data }) := by
  by_cases aq : a = q
  · subst aq
    simp [unlink, rd_natCast, e2, e3, setNext, setPrev, setData, wr, List.getElem?_set, List.getElem_set, al, rl]
    intro j
    by_cases jl : j < l.ejs.length
    · rw [List.getElem?_eq_getElem jl]
      by_cases jr : r = j <;> by_cases ja : a = j <;>
        first
          | (subst jr; subst ja; simp [e2, e3]; done)
          | (subst jr; simp_all [eq_comm]; done)
          | (subst ja; simp_all [eq_comm]; done)
          | (simp_all [eq_comm]; done)
    · have h1 : ¬ r = j := by omega
      have h2 : ¬ a = j := by omega
      simp [h1, h2, List.getElem?_eq_none (not_lt.mp jl)]
  · have qa : ¬ q = a := fun e => aq e.symm
    simp [unlink, rd_natCast, e2, e3, setNext, setPrev, setData, wr, List.getElem?_set, List.getElem_set, al, ql, rl, aq, qa]
    intro j
    by_cases jl : j < l.ejs.length
    · rw [List.getElem?_eq_getElem jl]
      by_cases jr : r = j <;> by_cases ja : a = j <;> by_cases jq : q = j <;>
        first
          | (subst jr; subst ja; simp [e2, e3]; done)
          | (subst jr; simp_all [eq_comm]; done)
          | (subst ja; simp_all [eq_comm]; done)
          | (subst jq; simp_all [eq_comm]; done)
          | (simp_all [eq_comm]; done)
    · have h1 : ¬ r = j := by omega
      have h2 : ¬ a = j := by omega
      have h3 : ¬ q = j := by omega
      simp [h1, h2, h3, List.getElem?_eq_none (not_lt.mp jl)]

theorem addAfterBody_ret (l : cyclist) (h a r : Nat) (ej : Int)
    (hl : h < l.ejs.length) (al : a < l.ejs.length) (rl : r < l.ejs.length)
    (hh : l.hole = (h : Int)) (e3 : (l.ejs[a]).next = (r : Int)) :
    ∃ l' : cyclist, l.addAfterBody a ej = some (l', (h : Int)) ∧
      l'.hole = (l.ejs[h]).data := by
  by_cases ah : a = h
  · subst ah
    by_cases ra : r = a
    · subst ra
      simp [addAfterBody, hh, rd_natCast, e3, setNext, setPrev, setData, wr, List.getElem?_set, List.getElem_set, al]
    · have ar : ¬ a = r := fun e => ra e.symm
      simp [addAfterBody, hh, rd_natCast, e3, setNext, setPrev, setData, wr, List.getElem?_set, List.getElem_set, al, rl, ra, ar]
  · have ha : ¬ h = a := fun e => ah e.symm
    by_cases rh : r = h
    · subst rh
      simp [addAfterBody, hh, rd_natCast, e3, setNext, setPrev, setData, wr, List.getElem?_set, List.getElem_set, al, rl, ah, ha]
    · have hr : ¬ h = r := fun e => rh e.symm
      simp [addAfterBody, hh, rd_natCast, e3, setNext, setPrev, setData, wr, List.getElem?_set, List.getElem_set, al, rl, hl, ah, ha, rh, hr]

theorem addBeforeBody_ret (l : cyclist) (h a q : Nat) (ej : Int)
    (hl : h < l.ejs.length) (al : a < l.ejs.length) (ql : q < l.ejs.length)
    (hh : l.hole = (h : Int)) (e3 : (l.ejs[a]).prev = (q : Int)) :
    ∃ l' : cyclist, l.addBeforeBody a ej = some (l', (h : Int)) ∧
      l'.hole = (l.ejs[h]).data := by
  by_cases ah : a = h
  · subst ah
    by_cases qa : q = a
    · subst qa
      simp [addBeforeBody, hh, rd_natCast, e3, setNext, setPrev, setData, wr, List.getElem?_set, List.getElem_set, al]
    · have aq : ¬ a = q := fun e => qa e.symm
      simp [addBeforeBody, hh, rd_natCast, e3, setNext, setPrev, setData, wr, List.getElem?_set, List.getElem_set, al, ql, qa, aq]
  · have ha : ¬ h = a := fun e => ah e.symm
    by_cases qh : q = h
    · subst qh
      simp [addBeforeBody, hh, rd_natCast, e3, setNext, setPrev, setData, wr, List.getElem?_set, List.getElem_set, al, ql, ah, ha]
    · have hq : ¬ h = q := fun e => qh e.symm
      simp [addBeforeBody, hh, rd_natCast, e3, setNext, setPrev, setData, wr, List.getElem?_set, List.getElem_set, al, ql, hl, ah, ha, qh, hq]

theorem addBody_zero (l : cyclist) (p : Nat) (ej : Int)
    (hl : 0 < l.ejs.length) (pl : p < l.ejs.length)
    (hh : l.hole = 0) (hp : l.prev = (p : Int)) :
    ∃ l' : cyclist, l.addBody ej = some l' ∧
      l'.size = l.size ∧ l'.num = l.num + 1 ∧ l'.hole = (l.ejs[0]).data ∧ l'.prev = 0 ∧
      l'.ejs.length = l.ejs.length ∧ l'.ejs[0]? = some ⟨0, 0, ej⟩ := by
  by_cases p0 : p = 0
  · subst p0
    simp [addBody, hh, hp, rd, setNext, setPrev, setData, wr, List.getElem?_set, List.getElem_set, hl]
  · have p0' : ¬ 0 = p := fun e => p0 e.symm
    simp [addBody, hh, hp, rd, rd_natCast, setNext, setPrev, setData, wr, List.getElem?_set, List.getElem_set, hl, pl, p0, p0']

/-- C2: on a consistent list with `1 ≤ num < size` and an occupied slot `a`,
`addBefore(a, ej)` returns a slot `s` that was free before the call; afterwards
`getEdge(s) = ej`, `getNextPos(s) = a`, `getNextNeg(a) = s`, `getNextNeg(s)` is
the old predecessor `q` of `a`, `getNextPos(q) = s`, and `num` has grown by one. -/
theorem addBefore_spec (l : cyclist) (a ej : Int) (hc : l.Consistent)
    (h1 : 1 ≤ l.num) (h2 : l.num < l.size) (ha : l.occupied a) :
    ∃ (l' : cyclist) (s q : Int),
      l.addBefore a ej = Run.ok l' s ∧ l.isFree s ∧
      l.getNextNeg a = Run.ok l q ∧
      l'.getEdge s = Run.ok l' ej ∧
      l'.getNextPos s = Run.ok l' a ∧
      l'.getNextNeg a = Run.ok l' s ∧
      l'.getNextNeg s = Run.ok l' q ∧
      l'.getNextPos q = Run.ok l' s ∧
      l'.num = l.num + 1 := by
  obtain ⟨hfree, h, hh, hl⟩ := hole_free hc h2
  obtain ⟨an, rfl, al⟩ := occupied_nat hc ha
  have hq := (hc.2.2 an al ha).2
  obtain ⟨qn, hqn, ql⟩ := occupied_nat hc hq
  have n1 : an ≠ h := by
    intro e
    exact occupied_ne_hole hc h2 ha (by rw [hh, e])
  have n2 : qn ≠ h := by
    intro e
    exact occupied_ne_hole hc h2 hq (by rw [hh, hqn, e])
  obtain ⟨l', hbody, hsize, hnum, -, -, hlen, hslot, hrest⟩ :=
    addBeforeBody_nat l h an qn ej hl al ql hh hqn n1 n2
  have hsz : ∀ k : Nat, k < l.ejs.length → (k : Int) < l'.size := by
    intro k hk
    rw [hsize, ← hc.1]
    exact_mod_cast hk
  have hsz0 : ∀ k : Nat, k < l.ejs.length → (k : Int) < l.size := by
    intro k hk
    rw [← hc.1]
    exact_mod_cast hk
  have hnz : l.num ≠ 0 := by omega
  have ea := hrest an n1
  have eq := hrest qn n2
  rw [List.getElem?_eq_getElem al] at ea
  rw [List.getElem?_eq_getElem ql] at eq
  refine ⟨l', h, qn, ?_, hh ▸ hfree, ?_, ?_, ?_, ?_, ?_, ?_, hnum⟩
  · simp [addBefore, hsz0 an al, hnz, hbody, finish]
  · rw [getNextNeg_of (List.getElem?_eq_getElem al) (hsz0 an al), hqn]
  · simpa using getEdge_of hslot (hsz h hl)
  · simpa using getNextPos_of hslot (hsz h hl)
  · simpa using getNextNeg_of ea (hsz an al)
  · simpa using getNextNeg_of hslot (hsz h hl)
  · simpa using getNextPos_of eq (hsz qn ql)

/-- C3: on a consistent list with `num ≥ 2` and an occupied slot `a` with
predecessor `q` and successor `r`, `delNextPos(a)` returns `r` and
`delNextNeg(a)` returns `q`; both leave the same list, in which
`getNextPos(q) = r`, `getNextNeg(r) = q`, `num` has shrunk by one, and every
slot other than `a`, `q`, `r` is unchanged.  Of the slots `a`, `q`, `r` the
deletion writes three members only: `next` of `q` becomes `r`, `prev` of `r`
becomes `q`, and `data` of `a` becomes the old `hole`; so `q` keeps its `data`
and (when `q` is not `r`) its `prev`, and `r` keeps its `data` and (when `r` is
not `q`) its `next`. -/
theorem del_spec (l : cyclist) (a : Int) (hc : l.Consistent)
    (h2 : 2 ≤ l.num) (ha : l.occupied a) :
    ∃ (l' : cyclist) (q r : Int),
      l.getNextNeg a = Run.ok l q ∧ l.getNextPos a = Run.ok l r ∧
      l.delNextPos a = Run.ok l' r ∧ l.delNextNeg a = Run.ok l' q ∧
      l'.getNextPos q = Run.ok l' r ∧ l'.getNextNeg r = Run.ok l' q ∧
      l'.num = l.num - 1 ∧
      (∀ j : Int, j ≠ a → j ≠ q → j ≠ r → l'.rd j = l.rd j) ∧
      ∀ j : Int, l'.rd j = (l.rd j).map fun it =>
        { next := if j = q then r else it.next,
          prev := if j = r then q else it.prev,
          data := if j = a then l.hole else it.data } := by
  obtain ⟨an, rfl, al⟩ := occupied_nat hc ha
  obtain ⟨hr, hq⟩ := hc.2.2 an al ha
  obtain ⟨qn, hqn, ql⟩ := occupied_nat hc hq
  obtain ⟨rn, hrn, rl⟩ := occupied_nat hc hr
  obtain ⟨l', hbody, hsize, hnum, -, -, hlen, hrest⟩ :=
    unlink_nat l an qn rn al ql rl hqn hrn
  have hsz : ∀ k : Nat, k < l.ejs.length → (k : Int) < l'.size := by
    intro k hk
    rw [hsize, ← hc.1]
    exact_mod_cast hk
  have hsz0 : ∀ k : Nat, k < l.ejs.length → (k : Int) < l.size := by
    intro k hk
    rw [← hc.1]
    exact_mod_cast hk
  have hnz : l.num ≠ 0 := by omega
  have ea := hrest an
  have eq := hrest qn
  have er := hrest rn
  rw [List.getElem?_eq_getElem al] at ea
  rw [List.getElem?_eq_getElem ql] at eq
  rw [List.getElem?_eq_getElem rl] at er
  refine ⟨l', qn, rn, ?_, ?_, ?_, ?_, ?_, ?_, hnum, ?_, ?_⟩
  · rw [getNextNeg_of (List.getElem?_eq_getElem al) (hsz0 an al), hqn]
  · rw [getNextPos_of (List.getElem?_eq_getElem al) (hsz0 an al), hrn]
  · simp only [delNextPos, hsz0 an al, hnz, hbody, rd_natCast, ea, finish]
    simp [hrn, hnz, ea]
  · simp only [delNextNeg, hsz0 an al, hnz, hbody, rd_natCast, ea, finish]
    simp [hqn, hnz, ea]
  · simpa using getNextPos_of eq (hsz qn ql)
  · simpa using getNextNeg_of er (hsz rn rl)
  · intro j ja jq jr
    by_cases j0 : 0 ≤ j
    · obtain ⟨jn, rfl⟩ := Int.eq_ofNat_of_zero_le j0
      have h1 : ¬ jn = an := fun e => ja (by rw [e])
      have h2 : ¬ jn = qn := fun e => jq (by rw [e])
      have h3 : ¬ jn = rn := fun e => jr (by rw [e])
      rw [rd_natCast, rd_natCast, hrest jn]
      simp [h1, h2, h3]
    · simp [rd, j0]
  · intro j
    by_cases j0 : 0 ≤ j
    · obtain ⟨jn, rfl⟩ := Int.eq_ofNat_of_zero_le j0
      rw [rd_natCast, rd_natCast, hrest jn]
      simp only [Nat.cast_inj]
    · simp [rd, j0]

/-- C4: deleting an occupied slot `a` of a consistent list with `num ≥ 2`
(by `delNextPos` or `delNextNeg`) stores the old `hole` in the data field of
slot `a` and sets `hole = a`; the next `addAfter` / `addBefore` at any other
occupied slot returns exactly `a` and restores `hole` to its value before the
deletion. -/
theorem recycle_spec (l : cyclist) (a : Int) (hc : l.Consistent)
    (h2 : 2 ≤ l.num) (ha : l.occupied a) :
    ∃ (l' : cyclist) (q r : Int),
      l.delNextPos a = Run.ok l' r ∧ l.delNextNeg a = Run.ok l' q ∧
      l'.hole = a ∧ l'.getEdge a = Run.ok l' l.hole ∧
      ∀ b ej : Int, l.occupied b → b ≠ a →
        (∃ l2, l'.addAfter b ej = Run.ok l2 a ∧ l2.hole = l.hole) ∧
        (∃ l2, l'.addBefore b ej = Run.ok l2 a ∧ l2.hole = l.hole) := by
  obtain ⟨an, rfl, al⟩ := occupied_nat hc ha
  obtain ⟨hr, hq⟩ := hc.2.2 an al ha
  obtain ⟨qn, hqn, ql⟩ := occupied_nat hc hq
  obtain ⟨rn, hrn, rl⟩ := occupied_nat hc hr
  obtain ⟨l', hbody, hsize, hnum, hhole, -, hlen, hrest⟩ :=
    unlink_nat l an qn rn al ql rl hqn hrn
  have hsz : ∀ k : Nat, k < l.ejs.length → (k : Int) < l'.size := by
    intro k hk
    rw [hsize, ← hc.1]
    exact_mod_cast hk
  have hsz0 : ∀ k : Nat, k < l.ejs.length → (k : Int) < l.size := by
    intro k hk
    rw [← hc.1]
    exact_mod_cast hk
  have hnz : l.num ≠ 0 := by omega
  have hnz' : l'.num ≠ 0 := by omega
  have ea := hrest an
  rw [List.getElem?_eq_getElem al] at ea
  have al' : an < l'.ejs.length := hlen ▸ al
  have ead : (l'.ejs[an]).data = l.hole := by
    have := (List.getElem?_eq_some.mp ea).2
    simp [this]
  refine ⟨l', qn, rn, ?_, ?_, hhole, ?_, ?_⟩
  · simp only [delNextPos, hsz0 an al, hnz, hbody, rd_natCast, ea, finish]
    simp [hrn, hnz, ea]
  · simp only [delNextNeg, hsz0 an al, hnz, hbody, rd_natCast, ea, finish]
    simp [hqn, hnz, ea]
  · simpa using getEdge_of ea (hsz an al)
  · intro b ej hb hba
    obtain ⟨bn, rfl, bl⟩ := occupied_nat hc hb
    obtain ⟨hbr, hbq⟩ := hc.2.2 bn bl hb
    obtain ⟨bq, hbqn, bql⟩ := occupied_nat hc hbq
    obtain ⟨br, hbrn, brl⟩ := occupied_nat hc hbr
    have bl' : bn < l'.ejs.length := hlen ▸ bl
    have eb := hrest bn
    rw [List.getElem?_eq_getElem bl] at eb
    have eb' := (List.getElem?_eq_some.mp eb).2
    constructor
    · have hnext : ∃ r' : Nat, r' < l'.ejs.length ∧ (l'.ejs[bn]).next = (r' : Int) := by
        by_cases e : bn = qn
        · exact ⟨rn, hlen ▸ rl, by rw [eb']; simp [e]⟩
        · exact ⟨br, hlen ▸ brl, by simp [eb', e, hbrn]⟩
      obtain ⟨r', hr', er'⟩ := hnext
      obtain ⟨l2, hb2, hh2⟩ := addAfterBody_ret l' an bn r' ej al' bl' hr' hhole er'
      refine ⟨l2, ?_, by rw [hh2, ead]⟩
      simp [addAfter, hsz bn bl, hnz', hb2, finish]
    · have hprev : ∃ q' : Nat, q' < l'.ejs.length ∧ (l'.ejs[bn]).prev = (q' : Int) := by
        by_cases e : bn = rn
        · exact ⟨qn, hlen ▸ ql, by rw [eb']; simp [e]⟩
        · exact ⟨bq, hlen ▸ bql, by simp [eb', e, hbqn]⟩
      obtain ⟨q', hq', eq'⟩ := hprev
      obtain ⟨l2, hb2, hh2⟩ := addBeforeBody_ret l' an bn q' ej al' bl' hq' hhole eq'
      refine ⟨l2, ?_, by rw [hh2, ead]⟩
      simp [addBefore, hsz bn bl, hnz', hb2, finish]

/-- C5 (as amended): for every list state and every position `list_pos ≥ size`,
`getEdge`, `delNextPos`, `delNextNeg`, `addBefore` and `addAfter` fail on
their assertion and leave the list as it was. -/
theorem assert_spec (l : cyclist) (list_pos ej : Int) (h : l.size ≤ list_pos) :
    l.getEdge list_pos = Run.assertFail l ∧
    l.delNextPos list_pos = Run.assertFail l ∧
    l.delNextNeg list_pos = Run.assertFail l ∧
    l.addBefore list_pos ej = Run.assertFail l ∧
    l.addAfter list_pos ej = Run.assertFail l := by
  have h' : ¬ list_pos < l.size := not_lt.mpr h
  simp [getEdge, delNextPos, delNextNeg, addBefore, addAfter, h']

/-- C6 (as amended): on a list state with `num = 0` whose `hole` is slot 0 and
whose `prev` is a slot of the array (the freshly constructed list is one),
`add(ej)`, and `addBefore(a, ej)` / `addAfter(a, ej)` with any `a < size`,
produce a one-element cyclic list: the returned slot 0 holds `ej`,
`getNextPos(0) = 0`, `getNextNeg(0) = 0` and `num = 1`. -/
theorem add_empty_spec (l : cyclist) (a ej : Int)
    (hlen : (l.ejs.length : Int) = l.size) (hs : 0 < l.size)
    (hn : l.num = 0) (hh : l.hole = 0) (hp : 0 ≤ l.prev ∧ l.prev < l.size)
    (ha : a < l.size) :
    ∃ l' : cyclist,
      l.add ej = Run.ok l' () ∧
      l.addBefore a ej = Run.ok l' 0 ∧
      l.addAfter a ej = Run.ok l' 0 ∧
      l'.getEdge 0 = Run.ok l' ej ∧
      l'.getNextPos 0 = Run.ok l' 0 ∧
      l'.getNextNeg 0 = Run.ok l' 0 ∧
      l'.num = 1 := by
  obtain ⟨pn, hpn⟩ := Int.eq_ofNat_of_zero_le hp.1
  have hl : 0 < l.ejs.length := by
    have : (0 : Int) < (l.ejs.length : Int) := by rw [hlen]; exact hs
    exact_mod_cast this
  have pl : pn < l.ejs.length := by
    have : (pn : Int) < (l.ejs.length : Int) := by rw [hlen, ← hpn]; exact hp.2
    exact_mod_cast this
  obtain ⟨l', hbody, hsize, hnum, -, hprev, -, hslot⟩ := addBody_zero l pn ej hl pl hh hpn
  have hs' : ((0 : Nat) : Int) < l'.size := by rw [hsize]; exact_mod_cast hs
  have hadd : l.add ej = Run.ok l' () := by
    simp [add, hh, hs, hbody, finish]
  refine ⟨l', hadd, ?_, ?_, ?_, ?_, ?_, ?_⟩
  · simp [addBefore, ha, hn, hadd, hprev]
  · simp [addAfter, ha, hn, hadd, hprev]
  · simpa using getEdge_of hslot hs'
  · simpa using getNextPos_of hslot hs'
  · simpa using getNextNeg_of hslot hs'
  · rw [hnum, hn]; rfl

end cyclist
end Tipper

namespace Tipper

/-! ## The hull during `triangulate` -/

theorem bind_ok_iff {α β : Type} (x : Except Fault α) (f : α → Except Fault β) (b : β) :
    (x >>= f) = Except.ok b ↔ ∃ a, x = Except.ok a ∧ f a = Except.ok b := by
  cases x <;> simp [bind, Except.bind]

theorem toExcept_ok_iff {σ α : Type} (r : Run σ α) (s : σ) (v : α) :
    r.toExcept = Except.ok (s, v) ↔ r = Run.ok s v := by
  cases r <;> simp [Run.toExcept]

namespace cyclist

theorem wr_fields {l l' : cyclist} {i : Int} {f : item → item} (h : l.wr i f = some l') :
    l'.size = l.size ∧ l'.prev = l.prev ∧ l'.hole = l.hole ∧ l'.num = l.num := by
  unfold wr at h
  split at h
  · simp only [Option.some.injEq] at h
    subst h
    exact ⟨rfl, rfl, rfl, rfl⟩
  · cases h

theorem unlink_fields {l l' : cyclist} {a : Int} (h : l.unlink a = some l') :
    l'.size = l.size ∧ l'.num = l.num - 1 := by
  simp only [unlink, setData, setNext, setPrev, Option.bind_eq_bind, Option.bind_eq_some,
    Option.pure_def, Option.some.injEq] at h
  obtain ⟨l1, h1, it, -, l3, h3, it3, -, l4, h4, rfl⟩ := h
  have f1 := wr_fields h1
  have f3 := wr_fields h3
  have f4 := wr_fields h4
  simp only at f3
  exact ⟨by rw [f4.1, f3.1, f1.1], by simp only; rw [f4.2.2.2, f3.2.2.2, f1.2.2.2]⟩

theorem addBody_fields {l l' : cyclist} {ej : Int} (h : l.addBody ej = some l') :
    l'.size = l.size ∧ l'.num = l.num + 1 := by
  simp only [addBody, setData, setNext, setPrev, Option.bind_eq_bind, Option.bind_eq_some,
    Option.pure_def, Option.some.injEq] at h
  obtain ⟨ith, -, l1, h1, l2, h2, l3, h3, l4, h4, l5, h5, rfl⟩ := h
  have f1 := wr_fields h1
  have f2 := wr_fields h2
  have f3 := wr_fields h3
  have f4 := wr_fields h4
  have f5 := wr_fields h5
  exact ⟨by simp only; rw [f5.1, f4.1, f3.1, f2.1, f1.1],
    by simp only; rw [f5.2.2.2, f4.2.2.2, f3.2.2.2, f2.2.2.2, f1.2.2.2]⟩

theorem addAfterBody_fields {l l' : cyclist} {a ej s : Int}
    (h : l.addAfterBody a ej = some (l', s)) :
    l'.size = l.size ∧ l'.num = l.num + 1 := by
  simp only [addAfterBody, setData, setNext, setPrev, Option.bind_eq_bind, Option.bind_eq_some,
    Option.pure_def, Option.some.injEq, Prod.mk.injEq] at h
  obtain ⟨ith, -, ita, -, l1, h1, ita1, -, l2, h2, l3, h3, l4, h4, l5, h5, rfl, -⟩ := h
  have f1 := wr_fields h1
  have f2 := wr_fields h2
  have f3 := wr_fields h3
  have f4 := wr_fields h4
  have f5 := wr_fields h5
  exact ⟨by simp only; rw [f5.1, f4.1, f3.1, f2.1, f1.1],
    by simp only; rw [f5.2.2.2, f4.2.2.2, f3.2.2.2, f2.2.2.2, f1.2.2.2]⟩

theorem addBeforeBody_fields {l l' : cyclist} {a ej s : Int}
    (h : l.addBeforeBody a ej = some (l', s)) :
    l'.size = l.size ∧ l'.num = l.num + 1 := by
  simp only [addBeforeBody, setData, setNext, setPrev, Option.bind_eq_bind,
    Option.bind_eq_some, Option.pure_def, Option.some.injEq, Prod.mk.injEq] at h
  obtain ⟨ith, -, ita, -, l1, h1, l2, h2, ita2, -, l3, h3, l4, h4, l5, h5, rfl, -⟩ := h
  have f1 := wr_fields h1
  have f2 := wr_fields h2
  have f3 := wr_fields h3
  have f4 := wr_fields h4
  have f5 := wr_fields h5
  exact ⟨by simp only; rw [f5.1, f4.1, f3.1, f2.1, f1.1],
    by simp only; rw [f5.2.2.2, f4.2.2.2, f3.2.2.2, f2.2.2.2, f1.2.2.2]⟩

theorem finish_ok {α : Type} {o : Option (cyclist × α)} {l : cyclist} {v : α}
    (h : finish o = Run.ok l v) : o = some (l, v) := by
  unfold finish at h
  split at h
  · cases h; rfl
  · cases h

theorem add_ok {l l' : cyclist} {ej : Int} {u : Unit} (h : l.add ej = Run.ok l' u) :
    l'.size = l.size ∧ l'.num = l.num + 1 := by
  unfold add at h
  split at h
  · have h' := finish_ok h
    simp only [Option.bind_eq_bind, Option.bind_eq_some, Option.pure_def, Option.some.injEq,
      Prod.mk.injEq] at h'
    obtain ⟨l6, h6, rfl, -⟩ := h'
    exact addBody_fields h6
  · cases h

theorem addAfter_ok {l l' : cyclist} {a ej s : Int} (h : l.addAfter a ej = Run.ok l' s) :
    l'.size = l.size ∧ l'.num = l.num + 1 := by
  unfold addAfter at h
  split at h
  · split at h
    · split at h
      · rename_i l1 u hadd
        cases h
        exact add_ok hadd
      · cases h
      · cases h
    · exact addAfterBody_fields (finish_ok h)
  · cases h

theorem addBefore_ok {l l' : cyclist} {a ej s : Int} (h : l.addBefore a ej = Run.ok l' s) :
    l'.size = l.size ∧ l'.num = l.num + 1 := by
  unfold addBefore at h
  split at h
  · split at h
    · split at h
      · rename_i l1 u hadd
        cases h
        exact add_ok hadd
      · cases h
      · cases h
    · exact addBeforeBody_fields (finish_ok h)
  · cases h

theorem delNextPos_ok {l l' : cyclist} {a s : Int} (h : l.delNextPos a = Run.ok l' s) :
    l'.size = l.size ∧ l'.num = l.num - 1 ∧ l.num ≠ 0 := by
  unfold delNextPos at h
  split at h
  · split at h
    · rename_i hn
      have h' := finish_ok h
      simp only [Option.bind_eq_bind, Option.bind_eq_some, Option.pure_def, Option.some.injEq,
        Prod.mk.injEq] at h'
      obtain ⟨l5, h5, it5, -, rfl, -⟩ := h'
      exact ⟨(unlink_fields h5).1, (unlink_fields h5).2, hn⟩
    · cases h
  · cases h

theorem delNextNeg_ok {l l' : cyclist} {a s : Int} (h : l.delNextNeg a = Run.ok l' s) :
    l'.size = l.size ∧ l'.num = l.num - 1 ∧ l.num ≠ 0 := by
  unfold delNextNeg at h
  split at h
  · split at h
    · rename_i hn
      have h' := finish_ok h
      simp only [Option.bind_eq_bind, Option.bind_eq_some, Option.pure_def, Option.some.injEq,
        Prod.mk.injEq] at h'
      obtain ⟨l5, h5, it5, -, rfl, -⟩ := h'
      exact ⟨(unlink_fields h5).1, (unlink_fields h5).2, hn⟩
    · cases h
  · cases h

end cyclist

namespace Driver

theorem setE_hull {d d' : Driver} {i : Int} {f : edge → edge}
    (h : d.setE i f = Except.ok d') :
    d'.hull = d.hull ∧ d'.upper_hull_pos = d.upper_hull_pos ∧
      d'.lower_hull_pos = d.lower_hull_pos := by
  simp only [setE, bind_ok_iff] at h
  obtain ⟨e, -, h⟩ := h
  cases h
  exact ⟨rfl, rfl, rfl⟩

end Driver

section driver

variable {K : Type} [LinearOrderedField K]

theorem pure_ok_iff {α : Type} (a b : α) :
    (pure a : Except Fault α) = Except.ok b ↔ a = b := by
  simp [pure, Except.pure]

theorem cantSee_hull {i : Int} {w : Bool} {d d' : Driver}
    (h : cantSee i w d = Except.ok d') : d'.hull = d.hull := by
  unfold cantSee at h
  split at h
  · rw [pure_ok_iff] at h; rw [← h]
  · split at h
    · simp only [bind_ok_iff, pure_ok_iff] at h
      obtain ⟨-, -, -, -, rfl⟩ := h
      rfl
    · cases h

theorem firstUpper_hull {i : Int} {d d' : Driver}
    (h : firstUpper i d = Except.ok d') : d'.hull = d.hull := by
  simp only [firstUpper, bind_ok_iff, pure_ok_iff] at h
  obtain ⟨x1, -, x2, -, d1, h1, d2, h2, x3, -, d3, h3, d4, h4, rfl⟩ := h
  have f1 := (Driver.setE_hull h1).1
  have f2 := (Driver.setE_hull h2).1
  have f3 := (Driver.setE_hull h3).1
  have f4 := (Driver.setE_hull h4).1
  simp only at f3
  simp only
  rw [f4, f3, f2, f1]

theorem linkUpper_hull {h : Int} {d d' : Driver}
    (e : linkUpper h d = Except.ok d') :
    d'.hull = d.hull ∧ d'.upper_hull_pos = d.upper_hull_pos ∧
      d'.lower_hull_pos = d.lower_hull_pos := by
  unfold linkUpper at e
  split at e
  · simp only [bind_ok_iff] at e
    obtain ⟨d1, h1, h2⟩ := e
    have f1 := Driver.setE_hull h1
    have f2 := Driver.setE_hull h2
    exact ⟨f2.1.trans f1.1, f2.2.1.trans f1.2.1, f2.2.2.trans f1.2.2⟩
  · rw [pure_ok_iff] at e
    subst e
    exact ⟨rfl, rfl, rfl⟩

theorem linkLower_hull {h : Int} {d d' : Driver}
    (e : linkLower h d = Except.ok d') :
    d'.hull = d.hull ∧ d'.upper_hull_pos = d.upper_hull_pos ∧
      d'.lower_hull_pos = d.lower_hull_pos := by
  unfold linkLower at e
  split at e
  · rw [pure_ok_iff] at e
    subst e
    exact ⟨rfl, rfl, rfl⟩
  · simp only [bind_ok_iff] at e
    obtain ⟨d1, h1, h2⟩ := e
    have f1 := Driver.setE_hull h1
    have f2 := Driver.setE_hull h2
    exact ⟨f2.1.trans f1.1, f2.2.1.trans f1.2.1, f2.2.2.trans f1.2.2⟩

variable (sqrt : K → K) (depth : Nat)

theorem upperEdges_hull {p : List (point K)} {i : Int} {d d' : Driver}
    (h : upperEdges sqrt depth p i d = Except.ok d') :
    d'.hull = d.hull ∧ d'.upper_hull_pos = d.upper_hull_pos := by
  simp only [upperEdges, upperWire, bind_ok_iff, pure_ok_iff] at h
  obtain ⟨x1, -, d7, ⟨d1, h1, x2, -, d2, h2, d3, h3, d4, h4, d5, h5, d6, h6, h7⟩, r, -, rfl⟩ := h
  have f1 := Driver.setE_hull h1
  have f2 := Driver.setE_hull h2
  have f3 := linkUpper_hull h3
  have f4 := Driver.setE_hull h4
  have f5 := Driver.setE_hull h5
  have f6 := Driver.setE_hull h6
  have f7 := Driver.setE_hull h7
  simp only at f4
  simp only
  exact ⟨by rw [f7.1, f6.1, f5.1, f4.1, f3.1, f2.1, f1.1],
    by rw [f7.2.1, f6.2.1, f5.2.1, f4.2.1, f3.2.1, f2.2.1, f1.2.1]⟩

theorem lowerEdges_hull {p : List (point K)} {i : Int} {d d' : Driver}
    (h : lowerEdges sqrt depth p i d = Except.ok d') :
    d'.hull = d.hull ∧ d'.lower_hull_pos = d.lower_hull_pos := by
  simp only [lowerEdges, bind_ok_iff, pure_ok_iff] at h
  obtain ⟨x1, -, d1, h1, d2, h2, x2, -, d3, h3, d4, h4, d5, h5, d6, h6, d7, h7, r, -, rfl⟩ := h
  have f1 := linkLower_hull h1
  have f2 := Driver.setE_hull h2
  have f3 := Driver.setE_hull h3
  have f4 := Driver.setE_hull h4
  have f5 := Driver.setE_hull h5
  have f6 := Driver.setE_hull h6
  have f7 := Driver.setE_hull h7
  simp only
  exact ⟨by rw [f7.1, f6.1, f5.1, f4.1, f3.1, f2.1, f1.1],
    by rw [f7.2.2, f6.2.2, f5.2.2, f4.2.2, f3.2.2, f2.2.2, f1.2.2]⟩

theorem upperStep_num {p : List (point K)} {i : Int} {d d' : Driver}
    (h : upperStep sqrt depth p i d = Except.ok d') :
    d'.hull.size = d.hull.size ∧ d'.hull.num = d.hull.num - 1 ∧ d.hull.num ≠ 0 := by
  simp only [upperStep, bind_ok_iff, pure_ok_iff] at h
  obtain ⟨d1, h1, ⟨l, v⟩, h2, rfl⟩ := h
  rw [toExcept_ok_iff] at h2
  have f1 := (upperEdges_hull sqrt depth h1).1
  have f2 := cyclist.delNextPos_ok h2
  rw [f1] at f2
  exact f2

theorem lowerStep_num {p : List (point K)} {i : Int} {d d' : Driver}
    (h : lowerStep sqrt depth p i d = Except.ok d') :
    d'.hull.size = d.hull.size ∧ d'.hull.num = d.hull.num - 1 ∧ d.hull.num ≠ 0 := by
  simp only [lowerStep, bind_ok_iff, pure_ok_iff] at h
  obtain ⟨d1, h1, ⟨l, v⟩, h2, rfl⟩ := h
  rw [toExcept_ok_iff] at h2
  have f1 := (lowerEdges_hull sqrt depth h1).1
  have f2 := cyclist.delNextNeg_ok h2
  rw [f1] at f2
  exact f2

theorem upperInsert_num {d d' : Driver} (h : upperInsert d = Except.ok d') :
    d'.hull.size = d.hull.size ∧ d'.hull.num = d.hull.num + 1 := by
  simp only [upperInsert, bind_ok_iff, pure_ok_iff] at h
  obtain ⟨⟨l, v⟩, h2, rfl⟩ := h
  rw [toExcept_ok_iff] at h2
  exact cyclist.addBefore_ok h2

theorem lowerInsert_num {d d' : Driver} (h : lowerInsert d = Except.ok d') :
    d'.hull.size = d.hull.size ∧ d'.hull.num = d.hull.num + 1 := by
  simp only [lowerInsert, bind_ok_iff, pure_ok_iff] at h
  obtain ⟨⟨l, v⟩, h2, rfl⟩ := h
  rw [toExcept_ok_iff] at h2
  exact cyclist.addAfter_ok h2

variable (junk : Nat → item)

theorem new_fields (s : Nat) : (cyclist.new s junk).size = s ∧ (cyclist.new s junk).num = 0 :=
  ⟨rfl, rfl⟩

theorem seedHull_num {hull : cyclist} {r : cyclist × Int × Int}
    (h : seedHull hull = Except.ok r) :
    r.1.size = hull.size ∧ r.1.num = hull.num + 3 := by
  simp only [seedHull, bind_ok_iff, pure_ok_iff] at h
  obtain ⟨⟨l0, s0⟩, h0, ⟨l1, s1⟩, h1, ⟨l2, s2⟩, h2, rfl⟩ := h
  rw [toExcept_ok_iff] at h0 h1 h2
  have f0 := cyclist.addAfter_ok h0
  have f1 := cyclist.addAfter_ok h1
  have f2 := cyclist.addAfter_ok h2
  simp only at f1 f2 ⊢
  exact ⟨by rw [f2.1, f1.1, f0.1], by omega⟩

theorem seed_num {npoints : Int} {p : List (point K)} {d : Driver}
    (h : seed junk npoints p = Except.ok d) :
    d.hull.size = npoints ∧ d.hull.num = 3 := by
  unfold seed at h
  split at h
  · cases h
  · rename_i hn
    simp only [bind_ok_iff, pure_ok_iff] at h
    obtain ⟨e, -, r, hr, rfl⟩ := h
    have f := seedHull_num hr
    have g := new_fields junk npoints.toNat
    simp only
    rw [f.1, f.2, g.1, g.2]
    exact ⟨Int.toNat_of_nonneg (not_lt.mp hn), by norm_num⟩

end driver

end Tipper

namespace Tipper

/-! ## The iteration budget of the sweeps is never used up -/

theorem bind_nf {α β : Type} (x : Except Fault α) (f : α → Except Fault β)
    (hx : x ≠ Except.error Fault.outOfFuel)
    (hf : ∀ a, f a ≠ Except.error Fault.outOfFuel) :
    (x >>= f) ≠ Except.error Fault.outOfFuel := by
  cases x with
  | error e =>
    intro h
    apply hx
    simpa [bind, Except.bind] using h
  | ok a => exact hf a

theorem pure_nf {α : Type} (a : α) :
    (pure a : Except Fault α) ≠ Except.error Fault.outOfFuel := by
  simp [pure, Except.pure]

theorem toExcept_nf {σ α : Type} (r : Run σ α) :
    r.toExcept ≠ Except.error Fault.outOfFuel := by
  cases r <;> simp [Run.toExcept]

theorem rde_nf (e : List edge) (i : Int) : rde e i ≠ Except.error Fault.outOfFuel := by
  unfold rde
  split
  · split <;> simp
  · simp

theorem wre_nf (e : List edge) (i : Int) (f : edge → edge) :
    wre e i f ≠ Except.error Fault.outOfFuel := by
  unfold wre
  split
  · simp
  · rename_i err h
    intro h'
    cases h'
    exact rde_nf e i h

theorem rdpE_nf {K : Type} [LinearOrderedField K] (p : List (point K)) (i : Int) :
    rdpE p i ≠ Except.error Fault.outOfFuel := by
  unfold rdpE
  split <;> simp

theorem hullEdge_nf (d : Driver) (pos : Int) :
    d.hullEdge pos ≠ Except.error Fault.outOfFuel := by
  unfold Driver.hullEdge
  exact bind_nf _ _ (toExcept_nf _) fun _ => pure_nf _

theorem setE_nf (d : Driver) (i : Int) (f : edge → edge) :
    d.setE i f ≠ Except.error Fault.outOfFuel := by
  unfold Driver.setE
  exact bind_nf _ _ (wre_nf _ _ _) fun _ => pure_nf _

theorem assign_nf (tint : Int) (idx : edge → Int) (f : edge → edge → edge) (e : List edge) :
    assign tint idx f e ≠ Except.error Fault.outOfFuel := by
  unfold assign
  exact bind_nf _ _ (rde_nf _ _) fun _ => wre_nf _ _ _

theorem rewireRef_nf (tint : Int) (e : List edge) :
    rewireRef tint e ≠ Except.error Fault.outOfFuel := by
  unfold rewireRef
  refine bind_nf _ _ (rde_nf _ _) fun _ => bind_nf _ _ (rde_nf _ _) fun _ => ?_
  split <;> exact bind_nf _ _ (assign_nf _ _ _ _) fun _ => assign_nf _ _ _ _

theorem rewireLef_nf (tint : Int) (e : List edge) :
    rewireLef tint e ≠ Except.error Fault.outOfFuel := by
  unfold rewireLef
  refine bind_nf _ _ (rde_nf _ _) fun _ => bind_nf _ _ (rde_nf _ _) fun _ => ?_
  split <;> exact bind_nf _ _ (assign_nf _ _ _ _) fun _ => assign_nf _ _ _ _

theorem rewireRet_nf (tint : Int) (e : List edge) :
    rewireRet tint e ≠ Except.error Fault.outOfFuel := by
  unfold rewireRet
  refine bind_nf _ _ (rde_nf _ _) fun _ => bind_nf _ _ (rde_nf _ _) fun _ => ?_
  split <;> exact bind_nf _ _ (assign_nf _ _ _ _) fun _ => assign_nf _ _ _ _

theorem rewireLet_nf (tint : Int) (e : List edge) :
    rewireLet tint e ≠ Except.error Fault.outOfFuel := by
  unfold rewireLet
  refine bind_nf _ _ (rde_nf _ _) fun _ => bind_nf _ _ (rde_nf _ _) fun _ => ?_
  split <;> exact bind_nf _ _ (assign_nf _ _ _ _) fun _ => assign_nf _ _ _ _

theorem flipStep_nf (tint leftp rightp : Int) (e : List edge) :
    flipStep tint leftp rightp e ≠ Except.error Fault.outOfFuel := by
  unfold flipStep
  exact bind_nf _ _ (rewireRef_nf _ _) fun _ => bind_nf _ _ (rewireLef_nf _ _) fun _ =>
    bind_nf _ _ (rewireRet_nf _ _) fun _ => bind_nf _ _ (rewireLet_nf _ _) fun _ =>
      wre_nf _ _ _

section driver

variable {K : Type} [LinearOrderedField K] (sqrt : K → K)

theorem swap_nf (depth : Nat) : ∀ (tint : Int) (e : List edge) (p : List (point K)),
    edge.swap sqrt depth tint e p ≠ Except.error Fault.outOfFuel := by
  induction depth with
  | zero =>
    intro tint e p
    simp [edge.swap]
  | succ n ih =>
    intro tint e p
    unfold edge.swap
    refine bind_nf _ _ (rde_nf _ _) fun t => ?_
    split
    · exact pure_nf _
    · refine bind_nf _ _ (rde_nf _ _) fun el => ?_
      dsimp only
      refine bind_nf _ _ (rde_nf _ _) fun er => ?_
      dsimp only
      refine bind_nf _ _ (rdpE_nf _ _) fun pl => bind_nf _ _ (rdpE_nf _ _) fun pf =>
        bind_nf _ _ (rdpE_nf _ _) fun pt => bind_nf _ _ (rdpE_nf _ _) fun pr => ?_
      dsimp only
      split
      · split
        · refine bind_nf _ _ (flipStep_nf _ _ _ _) fun _ => ?_
          unfold afterFlip
          exact bind_nf _ _ (rde_nf _ _) fun _ => bind_nf _ _ (ih _ _ _) fun _ =>
            bind_nf _ _ (rde_nf _ _) fun _ => bind_nf _ _ (ih _ _ _) fun _ =>
            bind_nf _ _ (rde_nf _ _) fun _ => bind_nf _ _ (ih _ _ _) fun _ =>
            bind_nf _ _ (rde_nf _ _) fun _ => bind_nf _ _ (ih _ _ _) fun _ => pure_nf _
        · exact pure_nf _
      · exact pure_nf _

theorem visibleAt_nf (p : List (point K)) (i : Int) (d : Driver) (pos : Int) :
    visibleAt p i d pos ≠ Except.error Fault.outOfFuel := by
  unfold visibleAt
  refine bind_nf _ _ (hullEdge_nf _ _) fun _ => bind_nf _ _ (rde_nf _ _) fun _ => ?_
  split
  · exact pure_nf _
  · simp

theorem linkUpper_nf (h : Int) (d : Driver) :
    linkUpper h d ≠ Except.error Fault.outOfFuel := by
  unfold linkUpper
  split
  · exact bind_nf _ _ (setE_nf _ _ _) fun _ => setE_nf _ _ _
  · exact pure_nf _

theorem linkLower_nf (h : Int) (d : Driver) :
    linkLower h d ≠ Except.error Fault.outOfFuel := by
  unfold linkLower
  split
  · exact pure_nf _
  · exact bind_nf _ _ (setE_nf _ _ _) fun _ => setE_nf _ _ _

variable (depth : Nat)

theorem upperStep_nf (p : List (point K)) (i : Int) (d : Driver) :
    upperStep sqrt depth p i d ≠ Except.error Fault.outOfFuel := by
  unfold upperStep upperEdges upperWire
  repeat' first
    | exact pure_nf _
    | exact rde_nf _ _
    | exact rdpE_nf _ _
    | exact wre_nf _ _ _
    | exact toExcept_nf _
    | exact hullEdge_nf _ _
    | exact setE_nf _ _ _
    | exact linkUpper_nf _ _
    | exact linkLower_nf _ _
    | exact swap_nf sqrt depth _ _ _
    | apply bind_nf
    | intro _

theorem lowerStep_nf (p : List (point K)) (i : Int) (d : Driver) :
    lowerStep sqrt depth p i d ≠ Except.error Fault.outOfFuel := by
  unfold lowerStep lowerEdges
  repeat' first
    | exact pure_nf _
    | exact rde_nf _ _
    | exact rdpE_nf _ _
    | exact wre_nf _ _ _
    | exact toExcept_nf _
    | exact hullEdge_nf _ _
    | exact setE_nf _ _ _
    | exact linkUpper_nf _ _
    | exact linkLower_nf _ _
    | exact swap_nf sqrt depth _ _ _
    | apply bind_nf
    | intro _

theorem upperLoop_nf (p : List (point K)) (i : Int) (n : Nat) :
    ∀ d : Driver, 0 ≤ d.hull.num → d.hull.num.toNat < n →
      upperLoop sqrt depth p i n d ≠ Except.error Fault.outOfFuel := by
  induction n with
  | zero => intro d _ h; omega
  | succ n ih =>
    intro d h0 hn
    unfold upperLoop
    refine bind_nf _ _ (visibleAt_nf _ _ _ _) fun v => ?_
    split
    · cases hs : upperStep sqrt depth p i d with
      | error e =>
        intro h
        apply upperStep_nf sqrt depth p i d
        rw [hs]
        simpa [bind, Except.bind] using h
      | ok d1 =>
        have f := upperStep_num sqrt depth hs
        exact ih d1 (by omega) (by omega)
    · exact pure_nf _

theorem lowerLoop_nf (p : List (point K)) (i : Int) (n : Nat) :
    ∀ d : Driver, 0 ≤ d.hull.num → d.hull.num.toNat < n →
      lowerLoop sqrt depth p i n d ≠ Except.error Fault.outOfFuel := by
  induction n with
  | zero => intro d _ h; omega
  | succ n ih =>
    intro d h0 hn
    unfold lowerLoop
    refine bind_nf _ _ (visibleAt_nf _ _ _ _) fun v => ?_
    split
    · cases hs : lowerStep sqrt depth p i d with
      | error e =>
        intro h
        apply lowerStep_nf sqrt depth p i d
        rw [hs]
        simpa [bind, Except.bind] using h
      | ok d1 =>
        have f := lowerStep_num sqrt depth hs
        exact ih d1 (by omega) (by omega)
    · exact pure_nf _

/-- The `while` loops of the model never stop for lack of budget: each pass
removes a hull slot, and the removal asserts `num != 0`. -/
theorem sweeps_within_budget (p : List (point K)) (i : Int) (d : Driver)
    (h : 0 ≤ d.hull.num) :
    upperSweep sqrt depth p i d ≠ Except.error Fault.outOfFuel ∧
    lowerSweep sqrt depth p i d ≠ Except.error Fault.outOfFuel :=
  ⟨upperLoop_nf sqrt depth p i _ d h (Nat.lt_succ_self _),
   lowerLoop_nf sqrt depth p i _ d h (Nat.lt_succ_self _)⟩

end driver

end Tipper

namespace Tipper

/-! ## The visibility predicate -/

section visible

variable {K : Type} [LinearOrderedField K]

end visible

end Tipper

namespace Tipper

/-! ## Concrete instances -/

theorem addAfter_spec_witness :
    sample3.Consistent ∧ 1 ≤ sample3.num ∧ sample3.num < sample3.size ∧
      sample3.occupied 1 ∧
      ∃ (l' : cyclist) (s r : Int),
        sample3.addAfter 1 13 = Run.ok l' s ∧ sample3.isFree s ∧
        sample3.getNextPos 1 = Run.ok sample3 r ∧
        l'.getEdge s = Run.ok l' 13 ∧
        l'.getNextNeg s = Run.ok l' 1 ∧
        l'.getNextPos 1 = Run.ok l' s ∧
        l'.getNextPos s = Run.ok l' r ∧
        l'.getNextNeg r = Run.ok l' s ∧
        l'.num = sample3.num + 1 :=
  ⟨by decide, by decide, by decide, by decide,
    cyclist.addAfter_spec sample3 1 13 (by decide) (by decide) (by decide) (by decide)⟩

theorem addBefore_spec_witness :
    sample3.Consistent ∧ 1 ≤ sample3.num ∧ sample3.num < sample3.size ∧
      sample3.occupied 1 ∧
      ∃ (l' : cyclist) (s q : Int),
        sample3.addBefore 1 13 = Run.ok l' s ∧ sample3.isFree s ∧
        sample3.getNextNeg 1 = Run.ok sample3 q ∧
        l'.getEdge s = Run.ok l' 13 ∧
        l'.getNextPos s = Run.ok l' 1 ∧
        l'.getNextNeg 1 = Run.ok l' s ∧
        l'.getNextNeg s = Run.ok l' q ∧
        l'.getNextPos q = Run.ok l' s ∧
        l'.num = sample3.num + 1 :=
  ⟨by decide, by decide, by decide, by decide,
    cyclist.addBefore_spec sample3 1 13 (by decide) (by decide) (by decide) (by decide)⟩

theorem del_spec_witness :
    sample3.Consistent ∧ 2 ≤ sample3.num ∧ sample3.occupied 1 ∧
      ∃ (l' : cyclist) (q r : Int),
        sample3.getNextNeg 1 = Run.ok sample3 q ∧ sample3.getNextPos 1 = Run.ok sample3 r ∧
        sample3.delNextPos 1 = Run.ok l' r ∧ sample3.delNextNeg 1 = Run.ok l' q ∧
        l'.getNextPos q = Run.ok l' r ∧ l'.getNextNeg r = Run.ok l' q ∧
        l'.num = sample3.num - 1 ∧
        (∀ j : Int, j ≠ 1 → j ≠ q → j ≠ r → l'.rd j = sample3.rd j) ∧
        ∀ j : Int, l'.rd j = (sample3.rd j).map fun it =>
          { next := if j = q then r else it.next,
            prev := if j = r then q else it.prev,
            data := if j = 1 then sample3.hole else it.data } :=
  ⟨by decide, by decide, by decide,
    cyclist.del_spec sample3 1 (by decide) (by decide) (by decide)⟩

theorem recycle_spec_witness :
    sample3.Consistent ∧ 2 ≤ sample3.num ∧ sample3.occupied 1 ∧
      ∃ (l' : cyclist) (q r : Int),
        sample3.delNextPos 1 = Run.ok l' r ∧ sample3.delNextNeg 1 = Run.ok l' q ∧
        l'.hole = 1 ∧ l'.getEdge 1 = Run.ok l' sample3.hole ∧
        ∀ b ej : Int, sample3.occupied b → b ≠ 1 →
          (∃ l2, l'.addAfter b ej = Run.ok l2 1 ∧ l2.hole = sample3.hole) ∧
          (∃ l2, l'.addBefore b ej = Run.ok l2 1 ∧ l2.hole = sample3.hole) :=
  ⟨by decide, by decide, by decide,
    cyclist.recycle_spec sample3 1 (by decide) (by decide) (by decide)⟩

/-- C5, counterexample: slot 3 of `sample3` was never filled and `-1` is no
slot at all, yet `getEdge(3)` returns the free-chain entry 4, `delNextPos(3)`
returns and changes the list, and `getEdge(-1)` reads outside the array
instead of failing on an assertion. -/
theorem assert_counterexample :
    ¬ sample3.occupied 3 ∧ ¬ sample3.occupied (-1) ∧
      sample3.getEdge 3 = Run.ok sample3 4 ∧
      sample3.delNextPos 3 =
        Run.ok { size := 4, prev := 2, hole := 3, num := 2,
                 ejs := [⟨0, 0, 10⟩, ⟨2, 0, 11⟩, ⟨0, 1, 12⟩, ⟨0, 0, 3⟩] } 0 ∧
      sample3.getEdge (-1) = Run.outOfRange := by
  decide

theorem assert_spec_witness :
    sample3.size ≤ 4 ∧
      sample3.getEdge 4 = Run.assertFail sample3 ∧
      sample3.delNextPos 4 = Run.assertFail sample3 ∧
      sample3.delNextNeg 4 = Run.assertFail sample3 ∧
      sample3.addBefore 4 13 = Run.assertFail sample3 ∧
      sample3.addAfter 4 13 = Run.assertFail sample3 :=
  ⟨by decide, cyclist.assert_spec sample3 4 13 (by decide)⟩

/-- C6, counterexample: on the fresh list `addAfter(3, 7)` with the position
`3 = size` fails on its assertion; and on `emptied3`, a list emptied by
deletions, `addAfter(1, 12)` returns slot 1 whose successor is the free
slot 0. -/
theorem add_empty_counterexample :
    fresh3.num = 0 ∧ fresh3.addAfter 3 7 = Run.assertFail fresh3 ∧
      fresh3.addBefore 3 7 = Run.assertFail fresh3 ∧
      ((fresh3.addAfter 0 10).andThen fun l _ =>
        (l.addAfter 0 11).andThen fun l _ =>
          (l.delNextPos 0).andThen fun l _ => l.delNextPos 1) = Run.ok emptied3 1 ∧
      emptied3.num = 0 ∧
      ((emptied3.addAfter 1 12).andThen fun l s => l.getNextPos s) =
        Run.ok { size := 3, prev := 1, hole := 0, num := 1,
                 ejs := [⟨1, 1, 2⟩, ⟨0, 1, 12⟩, ⟨0, 0, 3⟩] } 0 := by
  decide

theorem add_empty_spec_witness :
    (fresh3.ejs.length : Int) = fresh3.size ∧ 0 < fresh3.size ∧ fresh3.num = 0 ∧
      fresh3.hole = 0 ∧ (0 ≤ fresh3.prev ∧ fresh3.prev < fresh3.size) ∧
      (-5 : Int) < fresh3.size ∧
      ∃ l' : cyclist,
        fresh3.add 7 = Run.ok l' () ∧
        fresh3.addBefore (-5) 7 = Run.ok l' 0 ∧
        fresh3.addAfter (-5) 7 = Run.ok l' 0 ∧
        l'.getEdge 0 = Run.ok l' 7 ∧
        l'.getNextPos 0 = Run.ok l' 0 ∧
        l'.getNextNeg 0 = Run.ok l' 0 ∧
        l'.num = 1 :=
  ⟨by decide, by decide, by decide, by decide, by decide, by decide,
    cyclist.add_empty_spec fresh3 (-5) 7 (by decide) (by decide) (by decide) (by decide)
      (by decide) (by decide)⟩

end Tipper

/-! ## Member `edge::swap` -/

namespace Tipper

theorem rde_nat {e : List edge} {n : Nat} (h : n < e.length) :
    rde e (n : Int) = Except.ok e[n] := by
  simp [rde, h]

theorem wre_nat {e : List edge} {n : Nat} (h : n < e.length) (f : edge → edge) :
    wre e (n : Int) f = Except.ok (e.set n (f e[n])) := by
  simp [wre, rde_nat h]

theorem rde_ok_iff {e : List edge} {i : Int} {x : edge} :
    rde e i = Except.ok x ↔ ∃ n : Nat, i = n ∧ ∃ h : n < e.length, e[n] = x := by
  constructor
  · intro h
    unfold rde at h
    split at h
    · rename_i h0
      refine ⟨i.toNat, (Int.toNat_of_nonneg h0).symm, ?_⟩
      cases hx : e[i.toNat]? with
      | none => simp [hx] at h
      | some y =>
        rw [hx] at h
        obtain ⟨hl, hy⟩ := List.getElem?_eq_some_iff.mp hx
        refine ⟨hl, ?_⟩
        rw [hy]
        simpa using h
    · simp at h
  · rintro ⟨n, rfl, h, rfl⟩
    exact rde_nat h

theorem rewireRef_eq {e : List edge} {tn c : Nat} (ht : tn < e.length) (hc : c < e.length)
    (hr : e[tn].ref = c) (htc : tn ≠ c) :
    rewireRef tn e = Except.ok (e.set c
      (if e[c].from_ = e[tn].from_ then { e[c] with lef := e[tn].lef, let_ := tn }
       else { e[c] with ref := tn, ret := e[tn].lef })) := by
  simp only [rewireRef, assign, rde_nat ht, hr, bind, Except.bind, rde_nat hc]
  split
  · simp [rde_nat, wre_nat, ht, hc, List.getElem_set, hr, htc, htc.symm]
  · simp [rde_nat, wre_nat, ht, hc, List.getElem_set, hr, htc, htc.symm]

theorem rewireLef_eq {e : List edge} {tn a : Nat} (ht : tn < e.length) (ha : a < e.length)
    (hr : e[tn].lef = a) (hta : tn ≠ a) :
    rewireLef tn e = Except.ok (e.set a
      (if e[a].from_ = e[tn].from_ then { e[a] with ref := e[tn].ref, ret := tn }
       else { e[a] with lef := tn, let_ := e[tn].ref })) := by
  simp only [rewireLef, assign, rde_nat ht, hr, bind, Except.bind, rde_nat ha]
  split
  · simp [rde_nat, wre_nat, ht, ha, List.getElem_set, hr, hta, hta.symm]
  · simp [rde_nat, wre_nat, ht, ha, List.getElem_set, hr, hta, hta.symm]

theorem rewireRet_eq {e : List edge} {tn d : Nat} (ht : tn < e.length) (hd : d < e.length)
    (hr : e[tn].ret = d) (htd : tn ≠ d) :
    rewireRet tn e = Except.ok (e.set d
      (if e[d].to_ = e[tn].to_ then { e[d] with lef := tn, let_ := e[tn].let_ }
       else { e[d] with ref := e[tn].let_, ret := tn })) := by
  simp only [rewireRet, assign, rde_nat ht, hr, bind, Except.bind, rde_nat hd]
  split
  · simp [rde_nat, wre_nat, ht, hd, List.getElem_set, hr, htd, htd.symm]
  · simp [rde_nat, wre_nat, ht, hd, List.getElem_set, hr, htd, htd.symm]

theorem rewireLet_eq {e : List edge} {tn b : Nat} (ht : tn < e.length) (hb : b < e.length)
    (hr : e[tn].let_ = b) (htb : tn ≠ b) :
    rewireLet tn e = Except.ok (e.set b
      (if e[b].to_ = e[tn].to_ then { e[b] with ref := tn, ret := e[tn].ret }
       else { e[b] with lef := e[tn].ret, let_ := tn })) := by
  simp only [rewireLet, assign, rde_nat ht, hr, bind, Except.bind, rde_nat hb]
  split
  · simp [rde_nat, wre_nat, ht, hb, List.getElem_set, hr, htb, htb.symm]
  · simp [rde_nat, wre_nat, ht, hb, List.getElem_set, hr, htb, htb.symm]

/-- The edge table after the flip of `e[tn]`, entry by entry. -/
theorem flipStep_get (e : List edge) (tn a b c d : Nat) (F T L R : Int)
    (ht : tn < e.length) (ha : a < e.length) (hb : b < e.length) (hc : c < e.length)
    (hd : d < e.length)
    (het : e[tn] = ⟨F, T, a, b, c, d⟩)
    (hnd : [tn, a, b, c, d].Nodup) :
    ∃ e', flipStep tn L R e = Except.ok e' ∧ e'.length = e.length ∧
      e'[tn]? = some ⟨L, R, b, d, a, c⟩ ∧
      e'[a]? = some (if e[a].from_ = F then { e[a] with ref := c, ret := tn }
        else { e[a] with lef := tn, let_ := c }) ∧
      e'[b]? = some (if e[b].to_ = T then { e[b] with ref := tn, ret := d }
        else { e[b] with lef := d, let_ := tn }) ∧
      e'[c]? = some (if e[c].from_ = F then { e[c] with lef := a, let_ := tn }
        else { e[c] with ref := tn, ret := a }) ∧
      e'[d]? = some (if e[d].to_ = T then { e[d] with lef := tn, let_ := b }
        else { e[d] with ref := b, ret := tn }) ∧
      ∀ j, j ≠ tn → j ≠ a → j ≠ b → j ≠ c → j ≠ d → e'[j]? = e[j]? := by
  simp only [List.nodup_cons, List.mem_cons, List.mem_singleton, not_or, List.not_mem_nil,
    not_false_eq_true, List.nodup_nil, and_true] at hnd
  obtain ⟨⟨hta, htb, htc, htd⟩, ⟨hab, hac, had⟩, ⟨hbc, hbd⟩, hcd⟩ := hnd
  have h1 := rewireRef_eq ht hc (by rw [het]) htc
  simp only [het] at h1
  generalize hE1 : e.set c _ = E1 at h1
  have l1 : E1.length = e.length := by rw [← hE1]; simp
  have g1 : ∀ j, j ≠ c → E1[j]? = e[j]? := by
    intro j hj
    rw [← hE1, List.getElem?_set_ne (Ne.symm hj)]
  have ht1 : tn < E1.length := by omega
  have ha1 : a < E1.length := by omega
  have t1 : E1[tn] = ⟨F, T, a, b, c, d⟩ := by
    simp [← hE1, List.getElem_set, (Ne.symm htc), het]
  have a1 : E1[a] = e[a] := by simp [← hE1, List.getElem_set, (Ne.symm hac)]
  have h2 := rewireLef_eq ht1 ha1 (by rw [t1]) hta
  simp only [t1, a1] at h2
  generalize hE2 : E1.set a _ = E2 at h2
  have l2 : E2.length = e.length := by rw [← hE2]; simp [l1]
  have g2 : ∀ j, j ≠ a → E2[j]? = E1[j]? := by
    intro j hj
    rw [← hE2, List.getElem?_set_ne (Ne.symm hj)]
  have ht2 : tn < E2.length := by omega
  have hd2 : d < E2.length := by omega
  have t2 : E2[tn] = ⟨F, T, a, b, c, d⟩ := by
    simp [← hE2, List.getElem_set, (Ne.symm hta), t1]
  have d2 : E2[d] = e[d] := by
    simp [← hE2, ← hE1, List.getElem_set, had, hcd]
  have h3 := rewireRet_eq ht2 hd2 (by rw [t2]) htd
  simp only [t2, d2] at h3
  generalize hE3 : E2.set d _ = E3 at h3
  have l3 : E3.length = e.length := by rw [← hE3]; simp [l2]
  have g3 : ∀ j, j ≠ d → E3[j]? = E2[j]? := by
    intro j hj
    rw [← hE3, List.getElem?_set_ne (Ne.symm hj)]
  have ht3 : tn < E3.length := by omega
  have hb3 : b < E3.length := by omega
  have t3 : E3[tn] = ⟨F, T, a, b, c, d⟩ := by
    simp [← hE3, List.getElem_set, (Ne.symm htd), t2]
  have b3 : E3[b] = e[b] := by
    simp [← hE3, ← hE2, ← hE1, List.getElem_set, (Ne.symm hbd), hab, (Ne.symm hbc)]
  have h4 := rewireLet_eq ht3 hb3 (by rw [t3]) htb
  simp only [t3, b3] at h4
  generalize hE4 : E3.set b _ = E4 at h4
  have l4 : E4.length = e.length := by rw [← hE4]; simp [l3]
  have g4 : ∀ j, j ≠ b → E4[j]? = E3[j]? := by
    intro j hj
    rw [← hE4, List.getElem?_set_ne (Ne.symm hj)]
  have ht4 : tn < E4.length := by omega
  have t4 : E4[tn] = ⟨F, T, a, b, c, d⟩ := by
    simp [← hE4, List.getElem_set, (Ne.symm htb), t3]
  refine ⟨E4.set tn ⟨L, R, b, d, a, c⟩, ?_, by simp [l4], ?_, ?_, ?_, ?_, ?_, ?_⟩
  · simp only [flipStep, h1, h2, h3, h4, bind, Except.bind]
    rw [wre_nat ht4, t4]
  · simp [ht4]
  · rw [List.getElem?_set_ne hta, g4 a hab, g3 a had, ← hE2]
    simp [ha1]
  · rw [List.getElem?_set_ne htb, ← hE4]
    simp [hb3]
  · rw [List.getElem?_set_ne htc, g4 c (Ne.symm hbc), g3 c hcd, g2 c (Ne.symm hac), ← hE1]
    simp [hc]
  · rw [List.getElem?_set_ne htd, g4 d (Ne.symm hbd), ← hE3]
    simp [hd2]
  · intro j h1 h2 h3 h4 h5
    rw [List.getElem?_set_ne (Ne.symm h1), g4 j h3, g3 j h5, g2 j h2, g1 j h4]

theorem usedEdges_congr : ∀ (l l' : List edge), l.length = l'.length →
    (∀ (j : Nat) (x y : edge), l[j]? = some x → l'[j]? = some y →
      (x.from_ = -1 ↔ y.from_ = -1)) →
    usedEdges l = usedEdges l'
  | [], [], _, _ => rfl
  | [], _ :: _, h, _ => by simp at h
  | _ :: _, [], h, _ => by simp at h
  | x :: l, y :: l', h, hxy => by
    have h0 := hxy 0 x y (by simp) (by simp)
    have ih := usedEdges_congr l l' (by simpa using h)
      (fun j x y hx hy => hxy (j + 1) x y (by simpa using hx) (by simpa using hy))
    unfold usedEdges at ih ⊢
    rw [List.countP_cons, List.countP_cons, ih]
    simp only [ne_eq, h0]

/-- The edge table after the flip of `e[tn]`, with the entries of the edge and
of its four neighbours given as values. -/
theorem flipStep_entries (e : List edge) (tn a b c d : Nat) (F T L R : Int)
    (ea eb ec ed : edge)
    (het : e[tn]? = some ⟨F, T, a, b, c, d⟩)
    (ha : e[a]? = some ea) (hb : e[b]? = some eb) (hc : e[c]? = some ec)
    (hd : e[d]? = some ed) (hnd : [tn, a, b, c, d].Nodup) :
    ∃ e', flipStep tn L R e = Except.ok e' ∧ e'.length = e.length ∧
      e'[tn]? = some ⟨L, R, b, d, a, c⟩ ∧
      e'[a]? = some (if ea.from_ = F then { ea with ref := c, ret := tn }
        else { ea with lef := tn, let_ := c }) ∧
      e'[b]? = some (if eb.to_ = T then { eb with ref := tn, ret := d }
        else { eb with lef := d, let_ := tn }) ∧
      e'[c]? = some (if ec.from_ = F then { ec with lef := a, let_ := tn }
        else { ec with ref := tn, ret := a }) ∧
      e'[d]? = some (if ed.to_ = T then { ed with lef := tn, let_ := b }
        else { ed with ref := b, ret := tn }) ∧
      ∀ j, j ≠ tn → j ≠ a → j ≠ b → j ≠ c → j ≠ d → e'[j]? = e[j]? := by
  obtain ⟨ht', het'⟩ := List.getElem?_eq_some_iff.mp het
  obtain ⟨ha', rfl⟩ := List.getElem?_eq_some_iff.mp ha
  obtain ⟨hb', rfl⟩ := List.getElem?_eq_some_iff.mp hb
  obtain ⟨hc', rfl⟩ := List.getElem?_eq_some_iff.mp hc
  obtain ⟨hd', rfl⟩ := List.getElem?_eq_some_iff.mp hd
  exact flipStep_get e tn a b c d F T L R ht' ha' hb' hc' hd' het' hnd

theorem rdpE_nonneg {K : Type} {p : List (point K)} {i : Int} {x : point K}
    (h : rdpE p i = Except.ok x) : 0 ≤ i := by
  unfold rdpE rdp at h
  by_contra h0
  simp [h0] at h

section swap

variable {K : Type} [LinearOrderedField K] (sqrt : K → K)

/-- C11: `swap` on a boundary edge.  When one of `lef`, `let`, `ref`, `ret` of
`e[tint]` is `-1`, the call returns 0 and the edge table it returns is the
table it was given. -/
theorem swap_boundary (depth : Nat) (tint : Int) (e : List edge) (p : List (point K))
    (t : edge) (ht : rde e tint = Except.ok t)
    (hb : t.lef = -1 ∨ t.let_ = -1 ∨ t.ref = -1 ∨ t.ret = -1) :
    edge.swap sqrt (depth + 1) tint e p = Except.ok (e, 0) := by
  have hb' : t.ref = -1 ∨ t.lef = -1 ∨ t.let_ = -1 ∨ t.ret = -1 := by tauto
  simp only [edge.swap, ht, bind, Except.bind, if_pos hb']
  rfl

/-- The call `swap` on an edge whose four neighbours are set, once the reads
of the edge table and of the points are done. -/
theorem swap_unfold (depth : Nat) (tint : Int) (e : List edge) (p : List (point K))
    (t el er : edge) (pl pf pt pr : point K)
    (ht : rde e tint = Except.ok t)
    (hn : t.lef ≠ -1 ∧ t.let_ ≠ -1 ∧ t.ref ≠ -1 ∧ t.ret ≠ -1)
    (hl : rde e t.lef = Except.ok el) (hr : rde e t.ref = Except.ok er)
    (hpl : rdpE p (if el.from_ = t.from_ then el.to_ else el.from_) = Except.ok pl)
    (hpf : rdpE p t.from_ = Except.ok pf) (hpt : rdpE p t.to_ = Except.ok pt)
    (hpr : rdpE p (if er.from_ = t.from_ then er.to_ else er.from_) = Except.ok pr) :
    edge.swap sqrt (depth + 1) tint e p =
      if flipTest sqrt pl pf pt pr then
        (flipStep tint (if el.from_ = t.from_ then el.to_ else el.from_)
          (if er.from_ = t.from_ then er.to_ else er.from_) e >>=
          afterFlip (fun n e => edge.swap sqrt depth n e p) tint)
      else Except.ok (e, 0) := by
  have hb' : ¬ (t.ref = -1 ∨ t.lef = -1 ∨ t.let_ = -1 ∨ t.ret = -1) := by tauto
  simp only [edge.swap, ht, hl, hr, hpl, hpf, hpt, hpr, bind, Except.bind, if_neg hb']
  by_cases h : flipTest sqrt pl pf pt pr
  · rw [if_pos h]
    unfold flipTest at h
    simp only [if_pos h.1, if_pos h.2]
  · rw [if_neg h]
    unfold flipTest at h
    by_cases h1 : (pl.sub pf).dot (pl.sub pt) < 0 ∨ (pr.sub pf).dot (pr.sub pt) < 0
    · have h2 := fun h3 => h ⟨h1, h3⟩
      simp only [if_pos h1, if_neg h2]
      rfl
    · simp only [if_neg h1]
      rfl

/-- C13: the flip step of `swap`.  For the edge `t = e[tn]` from `F` to `T` with
neighbours `lef = a`, `let = b`, `ref = c`, `ret = d` (five different edges) and
opposite points `L`, `R`: when the flip criterion holds, `swap` runs the flip
step and then the recursive calls on its result `e'`, in which `t` runs from `L`
to `R` with `lef = b`, `let = d`, `ref = a`, `ret = c`; `a` and `c` get the pair
on their side towards `t` rewritten (chosen by `from == F`) to `t` and `c`,
respectively `t` and `a`; `b` and `d` get theirs rewritten (chosen by `to == T`)
to `t` and `d`, respectively `t` and `b`; their other fields stay. -/
theorem flip_step (depth : Nat) (e : List edge) (p : List (point K))
    (tn a b c d : Nat) (F T : Int) (ea eb ec ed : edge) (pl pf pt pr : point K)
    (het : e[tn]? = some ⟨F, T, a, b, c, d⟩)
    (ha : e[a]? = some ea) (hb : e[b]? = some eb) (hc : e[c]? = some ec)
    (hd : e[d]? = some ed) (hnd : [tn, a, b, c, d].Nodup)
    (hpl : rdpE p (if ea.from_ = F then ea.to_ else ea.from_) = Except.ok pl)
    (hpf : rdpE p F = Except.ok pf) (hpt : rdpE p T = Except.ok pt)
    (hpr : rdpE p (if ec.from_ = F then ec.to_ else ec.from_) = Except.ok pr)
    (hflip : flipTest sqrt pl pf pt pr) :
    ∃ e', flipStep tn (if ea.from_ = F then ea.to_ else ea.from_)
        (if ec.from_ = F then ec.to_ else ec.from_) e = Except.ok e' ∧
      edge.swap sqrt (depth + 1) tn e p =
        afterFlip (fun n e => edge.swap sqrt depth n e p) tn e' ∧
      e'[tn]? = some ⟨if ea.from_ = F then ea.to_ else ea.from_,
        if ec.from_ = F then ec.to_ else ec.from_, b, d, a, c⟩ ∧
      e'[a]? = some (if ea.from_ = F then { ea with ref := c, ret := tn }
        else { ea with lef := tn, let_ := c }) ∧
      e'[b]? = some (if eb.to_ = T then { eb with ref := tn, ret := d }
        else { eb with lef := d, let_ := tn }) ∧
      e'[c]? = some (if ec.from_ = F then { ec with lef := a, let_ := tn }
        else { ec with ref := tn, ret := a }) ∧
      e'[d]? = some (if ed.to_ = T then { ed with lef := tn, let_ := b }
        else { ed with ref := b, ret := tn }) := by
  obtain ⟨e', h1, -, h3, h4, h5, h6, h7, -⟩ := flipStep_entries e tn a b c d F T
    (if ea.from_ = F then ea.to_ else ea.from_) (if ec.from_ = F then ec.to_ else ec.from_)
    ea eb ec ed het ha hb hc hd hnd
  refine ⟨e', h1, ?_, h3, h4, h5, h6, h7⟩
  have ht : rde e (tn : Int) = Except.ok ⟨F, T, a, b, c, d⟩ :=
    rde_ok_iff.mpr ⟨tn, rfl, List.getElem?_eq_some_iff.mp het⟩
  have hl : rde e (a : Int) = Except.ok ea :=
    rde_ok_iff.mpr ⟨a, rfl, List.getElem?_eq_some_iff.mp ha⟩
  have hr : rde e (c : Int) = Except.ok ec :=
    rde_ok_iff.mpr ⟨c, rfl, List.getElem?_eq_some_iff.mp hc⟩
  rw [swap_unfold sqrt depth tn e p ⟨F, T, a, b, c, d⟩ ea ec pl pf pt pr ht
    ⟨by simp, by simp, by simp, by simp⟩ hl hr hpl hpf hpt hpr,
    if_pos hflip, h1]
  rfl

end swap

/-- C15: a flip changes no end point but those of the flipped edge, and adds or
removes no edge.  For the flip step of `swap` on `t = e[tn]` (from `F`, with
opposite point `L`; both were read from `p` before): the table keeps its length,
every entry other than `t` keeps `from` and `to`, every entry other than `t` and
its four neighbours keeps all fields, `t` gets the end points `L` and `R`, and
the number of entries with `from != -1` is the same. -/
theorem flip_frame {K : Type} (e : List edge) (p : List (point K))
    (tn a b c d : Nat) (F T L R : Int) (ea eb ec ed : edge) (pl pf : point K)
    (het : e[tn]? = some ⟨F, T, a, b, c, d⟩)
    (ha : e[a]? = some ea) (hb : e[b]? = some eb) (hc : e[c]? = some ec)
    (hd : e[d]? = some ed) (hnd : [tn, a, b, c, d].Nodup)
    (hpl : rdpE p L = Except.ok pl) (hpf : rdpE p F = Except.ok pf) :
    ∃ e', flipStep tn L R e = Except.ok e' ∧ e'.length = e.length ∧
      (∃ t', e'[tn]? = some t' ∧ t'.from_ = L ∧ t'.to_ = R) ∧
      (∀ j x, j ≠ tn → e[j]? = some x →
        ∃ y, e'[j]? = some y ∧ y.from_ = x.from_ ∧ y.to_ = x.to_) ∧
      (∀ j, j ∉ [tn, a, b, c, d] → e'[j]? = e[j]?) ∧
      usedEdges e' = usedEdges e := by
  obtain ⟨e', h1, h2, h3, h4, h5, h6, h7, h8⟩ := flipStep_entries e tn a b c d F T L R
    ea eb ec ed het ha hb hc hd hnd
  have hL := rdpE_nonneg hpl
  have hF := rdpE_nonneg hpf
  have ends : ∀ j x, j ≠ tn → e[j]? = some x →
      ∃ y, e'[j]? = some y ∧ y.from_ = x.from_ ∧ y.to_ = x.to_ := by
    intro j x hj hx
    by_cases ja : j = a
    · subst ja
      rw [ha] at hx
      injection hx with hx
      subst hx
      exact ⟨_, h4, by split <;> rfl, by split <;> rfl⟩
    by_cases jb : j = b
    · subst jb
      rw [hb] at hx
      injection hx with hx
      subst hx
      exact ⟨_, h5, by split <;> rfl, by split <;> rfl⟩
    by_cases jc : j = c
    · subst jc
      rw [hc] at hx
      injection hx with hx
      subst hx
      exact ⟨_, h6, by split <;> rfl, by split <;> rfl⟩
    by_cases jd : j = d
    · subst jd
      rw [hd] at hx
      injection hx with hx
      subst hx
      exact ⟨_, h7, by split <;> rfl, by split <;> rfl⟩
    exact ⟨x, by rw [h8 j hj ja jb jc jd, hx], rfl, rfl⟩
  refine ⟨e', h1, h2, ⟨_, h3, rfl, rfl⟩, ends, ?_, ?_⟩
  · intro j hj
    simp only [List.mem_cons, List.mem_singleton, not_or, List.not_mem_nil, or_false] at hj
    exact h8 j hj.1 hj.2.1 hj.2.2.1 hj.2.2.2.1 hj.2.2.2.2
  · refine usedEdges_congr e' e h2 fun j x y hx hy => ?_
    by_cases jt : j = tn
    · subst jt
      rw [h3] at hx
      rw [het] at hy
      injection hx with hx
      injection hy with hy
      subst hx hy
      constructor
      · intro h
        simp only at h
        omega
      · intro h
        simp only at h
        omega
    · obtain ⟨y', hy1, hy2, -⟩ := ends j y jt hy
      rw [hx] at hy1
      injection hy1 with hy1
      rw [hy1, hy2]

/-! ### Concrete instances for `swap` -/

theorem swap_boundary_witness :
    rde quad5 1 = Except.ok ⟨2, 0, 2, 0, -1, -1⟩ ∧
      edge.swap sqrt0 1 1 quad5 quadPts = Except.ok (quad5, 0) :=
  ⟨by decide, swap_boundary sqrt0 0 1 quad5 quadPts ⟨2, 0, 2, 0, -1, -1⟩ (by decide)
    (by decide)⟩

theorem flip_step_witness :
    flipTest sqrt0 ⟨0, 1 / 2⟩ ⟨-1, 0⟩ ⟨1, 0⟩ ⟨0, -1 / 2⟩ ∧
      ∃ e', flipStep 0 2 3 quad5 = Except.ok e' ∧
        edge.swap sqrt0 2 0 quad5 quadPts =
          afterFlip (fun n e => edge.swap sqrt0 1 n e quadPts) 0 e' ∧
        e'[0]? = some ⟨2, 3, 2, 4, 1, 3⟩ ∧
        e'[1]? = some ⟨2, 0, 0, 3, -1, -1⟩ ∧
        e'[2]? = some ⟨1, 2, 4, 0, -1, -1⟩ ∧
        e'[3]? = some ⟨0, 3, 1, 0, -1, -1⟩ ∧
        e'[4]? = some ⟨3, 1, 0, 2, -1, -1⟩ :=
  ⟨by decide!,
    flip_step sqrt0 1 quad5 quadPts 0 1 2 3 4 0 1 ⟨2, 0, 2, 0, -1, -1⟩ ⟨1, 2, 0, 1, -1, -1⟩
      ⟨0, 3, 0, 4, -1, -1⟩ ⟨3, 1, 3, 0, -1, -1⟩ ⟨0, 1 / 2⟩ ⟨-1, 0⟩ ⟨1, 0⟩ ⟨0, -1 / 2⟩
      (by decide) (by decide) (by decide) (by decide) (by decide) (by decide)
      (by decide!) (by decide!) (by decide!) (by decide!) (by decide!)⟩

theorem flip_frame_witness :
    [0, 1, 2, 3, 4].Nodup ∧
      ∃ e', flipStep 0 2 3 quad5 = Except.ok e' ∧ e'.length = quad5.length ∧
        (∃ t', e'[0]? = some t' ∧ t'.from_ = 2 ∧ t'.to_ = 3) ∧
        (∀ j x, j ≠ 0 → quad5[j]? = some x →
          ∃ y, e'[j]? = some y ∧ y.from_ = x.from_ ∧ y.to_ = x.to_) ∧
        (∀ j, j ∉ [0, 1, 2, 3, 4] → e'[j]? = quad5[j]?) ∧
        usedEdges e' = usedEdges quad5 :=
  ⟨by decide,
    flip_frame quad5 quadPts 0 1 2 3 4 0 1 2 3 ⟨2, 0, 2, 0, -1, -1⟩ ⟨1, 2, 0, 1, -1, -1⟩
      ⟨0, 3, 0, 4, -1, -1⟩ ⟨3, 1, 3, 0, -1, -1⟩ ⟨0, 1 / 2⟩ ⟨-1, 0⟩
      (by decide) (by decide) (by decide) (by decide) (by decide) (by decide)
      (by decide!) (by decide!)⟩

end Tipper

/-! ## The seed of `triangulate` -/

namespace Tipper

theorem range_add_three (m : Nat) :
    List.range (m + 3) = 0 :: 1 :: 2 :: (List.range m).map (· + 3) := by
  rw [List.range_succ_eq_map, List.range_succ_eq_map, List.range_succ_eq_map]
  simp [List.map_map, Function.comp_def]

/-- The fresh hull of `m + 3` slots, with its first three slots written out. -/
theorem new_add_three (m : Nat) (junk : Nat → item) :
    cyclist.new (m + 3) junk =
      { size := (m : Int) + 3, prev := 0, hole := 0, num := 0,
        ejs := { junk 0 with data := 1 } :: { junk 1 with data := 2 } ::
          { junk 2 with data := 3 } ::
          (List.range m).map fun i => { junk (i + 3) with data := (i : Int) + 3 + 1 } } := by
  simp [cyclist.new, range_add_three, List.map_map, Function.comp_def]

/-- The hull after the three seeding insertions. -/
theorem seedHull_new (m : Nat) (junk : Nat → item) :
    seedHull (cyclist.new (m + 3) junk) = Except.ok
      ({ size := (m : Int) + 3, prev := 2, hole := 3, num := 3,
         ejs := ⟨1, 2, 0⟩ :: ⟨2, 0, 1⟩ :: ⟨0, 1, 2⟩ ::
          (List.range m).map fun i => { junk (i + 3) with data := (i : Int) + 3 + 1 } },
        1, 2) := by
  rw [new_add_three]
  have h3 : (0 : Int) < (m : Int) + 3 := by omega
  have h4 : (1 : Int) < (m : Int) + 3 := by omega
  simp [seedHull, cyclist.addAfter, cyclist.add, cyclist.addBody, cyclist.addAfterBody,
    cyclist.rd, cyclist.wr, cyclist.setNext, cyclist.setPrev, cyclist.setData, cyclist.finish,
    Run.toExcept, bind, Except.bind, Option.bind, pure, Except.pure, h3, h4]

theorem rd_tail (l : cyclist) (a b c : item) (g : Nat → item) (m k : Nat)
    (he : l.ejs = a :: b :: c :: (List.range m).map g) :
    l.rd ((k : Int) + 3) = if k < m then some (g k) else none := by
  have : ((k : Int) + 3) = ((k + 3 : Nat) : Int) := by push_cast; rfl
  rw [this, cyclist.rd_natCast, he]
  simp only [List.getElem?_cons_succ]
  by_cases h : k < m
  · simp [h]
  · simp [h]
    omega

theorem freeChain_tail (l : cyclist) (a b c : item) (g : Nat → item) (m : Nat)
    (he : l.ejs = a :: b :: c :: (List.range m).map g)
    (hg : ∀ i, (g i).data = (i : Int) + 3 + 1) (i : Int) :
    ∀ (fuel k : Nat), i ∈ l.freeChain fuel ((k : Int) + 3) ↔
      ∃ j : Nat, k ≤ j ∧ j < m ∧ j < k + fuel ∧ i = (j : Int) + 3 := by
  intro fuel
  induction fuel with
  | zero =>
    intro k
    simp only [cyclist.freeChain, List.not_mem_nil, false_iff]
    rintro ⟨j, h1, -, h2, -⟩
    omega
  | succ n ih =>
    intro k
    rw [cyclist.freeChain, rd_tail l a b c g m k he]
    by_cases h : k < m
    · simp only [h, if_true, List.mem_cons, hg]
      have := ih (k + 1)
      push_cast at this
      rw [show (k : Int) + 3 + 1 = (k : Int) + 1 + 3 by ring, this]
      constructor
      · rintro (h1 | ⟨j, h1, h2, h3, h4⟩)
        · exact ⟨k, le_refl _, h, by omega, h1⟩
        · exact ⟨j, by omega, h2, by omega, h4⟩
      · rintro ⟨j, h1, h2, h3, h4⟩
        by_cases hjk : j = k
        · left
          rw [h4, hjk]
        · right
          exact ⟨j, by omega, h2, by omega, h4⟩
    · simp only [h, if_false, List.not_mem_nil, false_iff]
      rintro ⟨j, h1, h2, -, -⟩
      omega

/-- C17: the seed hull list.  With `npoints >= 3` the three seeding insertions
succeed; afterwards exactly the slots 0, 1, 2 are occupied, they hold the edges
0, 1, 2, `next` runs 0 -> 1 -> 2 -> 0 and `prev` the other way round,
`lower_hull_pos` is slot 1 (edge 1), `upper_hull_pos` is slot 2 (edge 2), and
`getNextPos(lower_hull_pos)` is `upper_hull_pos`. -/
theorem seed_hull (junk : Nat → item) (npoints : Int) (hn : 3 ≤ npoints) :
    ∃ (h : cyclist) (lower upper : Int),
      seedHull (cyclist.new npoints.toNat junk) = Except.ok (h, lower, upper) ∧
      lower = 1 ∧ upper = 2 ∧ h.num = 3 ∧
      (∀ i, h.occupied i ↔ i = 0 ∨ i = 1 ∨ i = 2) ∧
      h.getEdge 0 = Run.ok h 0 ∧ h.getEdge lower = Run.ok h 1 ∧
      h.getEdge upper = Run.ok h 2 ∧
      h.getNextPos 0 = Run.ok h lower ∧ h.getNextPos lower = Run.ok h upper ∧
      h.getNextPos upper = Run.ok h 0 ∧
      h.getNextNeg 0 = Run.ok h upper ∧ h.getNextNeg lower = Run.ok h 0 ∧
      h.getNextNeg upper = Run.ok h lower := by
  obtain ⟨m, hm⟩ : ∃ m : Nat, npoints.toNat = m + 3 := ⟨npoints.toNat - 3, by omega⟩
  rw [hm, seedHull_new]
  have h0 : (0 : Int) < (m : Int) + 3 := by omega
  have h1 : (1 : Int) < (m : Int) + 3 := by omega
  have h2 : (2 : Int) < (m : Int) + 3 := by omega
  refine ⟨_, 1, 2, rfl, rfl, rfl, rfl, ?_, ?_, ?_, ?_, ?_, ?_, ?_, ?_, ?_, ?_⟩
  · intro i
    have hf := freeChain_tail
      { size := (m : Int) + 3, prev := 2, hole := 3, num := 3,
        ejs := ⟨1, 2, 0⟩ :: ⟨2, 0, 1⟩ :: ⟨0, 1, 2⟩ ::
          (List.range m).map fun i => { junk (i + 3) with data := (i : Int) + 3 + 1 } }
      ⟨1, 2, 0⟩ ⟨2, 0, 1⟩ ⟨0, 1, 2⟩
      (fun i => { junk (i + 3) with data := (i : Int) + 3 + 1 }) m rfl (fun _ => rfl) i
      (m + 3) 0
    simp only [cyclist.occupied, cyclist.freeSlots, List.length_cons, List.length_map,
      List.length_range]
    simp only [Nat.cast_zero, zero_add] at hf
    rw [hf]
    constructor
    · rintro ⟨h3, h4, h5⟩
      by_contra h6
      apply h5
      exact ⟨(i - 3).toNat, by omega, by omega, by omega, by omega⟩
    · rintro (h3 | h3 | h3)
      all_goals
        subst h3
        refine ⟨by omega, by omega, ?_⟩
        rintro ⟨j, -, -, -, h7⟩
        omega
  all_goals simp [cyclist.getEdge, cyclist.getNextPos, cyclist.getNextNeg, cyclist.rd,
    cyclist.finish, h0, h1, h2]

section seedgeom

variable {K : Type} [LinearOrderedField K]

/-- The seed edges written into a fresh table. -/
theorem seedEdges_fresh (p : List (point K)) (p0 p1 p2 : point K) (rest : List edge)
    (h0 : rdpE p 0 = Except.ok p0) (h1 : rdpE p 1 = Except.ok p1)
    (h2 : rdpE p 2 = Except.ok p2) :
    seedEdges p (edge.new :: edge.new :: edge.new :: rest) = Except.ok
      (if gtQuot p2.y p0.y ((p1.y - p0.y) * (p2.x - p0.x)) (p1.x - p0.x) then
        ⟨0, 1, 2, 1, -1, -1⟩ :: ⟨1, 2, 0, 2, -1, -1⟩ :: ⟨2, 0, 1, 0, -1, -1⟩ :: rest
      else ⟨0, 2, 2, 1, -1, -1⟩ :: ⟨2, 1, 0, 2, -1, -1⟩ :: ⟨1, 0, 1, 0, -1, -1⟩ :: rest) := by
  by_cases hg : gtQuot p2.y p0.y ((p1.y - p0.y) * (p2.x - p0.x)) (p1.x - p0.x) = true
  · simp [seedEdges, seedEnds, h0, h1, h2, bind, Except.bind, hg, wre, rde, edge.new]
  · simp [seedEdges, seedEnds, h0, h1, h2, bind, Except.bind, hg, wre, rde, edge.new]

/-- The orientation test of the seed agrees with the sign of `orient`. -/
theorem gtQuot_orient (p0 p1 p2 : point K) (hs : p0.x ≤ p1.x) (hc : orient p0 p1 p2 ≠ 0) :
    if gtQuot p2.y p0.y ((p1.y - p0.y) * (p2.x - p0.x)) (p1.x - p0.x) then
      0 < orient p0 p1 p2 else 0 < orient p0 p2 p1 := by
  unfold orient at hc ⊢
  unfold gtQuot
  by_cases hd : p1.x - p0.x = 0
  · rw [if_pos hd]
    rw [hd] at hc
    by_cases hn : (p1.y - p0.y) * (p2.x - p0.x) < 0
    · simp only [hn, decide_True, if_true, hd]
      linarith
    · simp only [hn, decide_False, hd]
      have : (p1.y - p0.y) * (p2.x - p0.x) ≠ 0 := by
        intro h
        apply hc
        rw [h]
        ring
      have h3 : 0 < (p1.y - p0.y) * (p2.x - p0.x) := lt_of_le_of_ne (not_lt.mp hn) (Ne.symm this)
      simp
      nlinarith
  · rw [if_neg hd]
    have hpos : 0 < p1.x - p0.x := lt_of_le_of_ne (by linarith) (Ne.symm hd)
    by_cases ht : p2.y > p0.y + (p1.y - p0.y) * (p2.x - p0.x) / (p1.x - p0.x)
    · simp only [ht, decide_True, if_true]
      have := (div_lt_iff₀ hpos).mp (by linarith : (p1.y - p0.y) * (p2.x - p0.x) / (p1.x - p0.x) < p2.y - p0.y)
      linarith
    · simp only [ht, decide_False]
      have h3 : p2.y - p0.y ≤ (p1.y - p0.y) * (p2.x - p0.x) / (p1.x - p0.x) := by linarith [not_lt.mp ht]
      have := (le_div_iff₀ hpos).mp h3
      have h4 : (p1.x - p0.x) * (p2.y - p0.y) - (p1.y - p0.y) * (p2.x - p0.x) < 0 :=
        lt_of_le_of_ne (by linarith) hc
      simp
      linarith

/-- The state of `triangulate` after the seed. -/
theorem seed_eq (junk : Nat → item) (npoints : Int) (p : List (point K))
    (p0 p1 p2 : point K) (hn : 3 ≤ npoints)
    (h0 : rdpE p 0 = Except.ok p0) (h1 : rdpE p 1 = Except.ok p1)
    (h2 : rdpE p 2 = Except.ok p2) :
    ∃ (hull : cyclist) (rest : List edge),
      seed junk npoints p = Except.ok
        { hull := hull,
          edges :=
            if gtQuot p2.y p0.y ((p1.y - p0.y) * (p2.x - p0.x)) (p1.x - p0.x) then
              ⟨0, 1, 2, 1, -1, -1⟩ :: ⟨1, 2, 0, 2, -1, -1⟩ :: ⟨2, 0, 1, 0, -1, -1⟩ :: rest
            else
              ⟨0, 2, 2, 1, -1, -1⟩ :: ⟨2, 1, 0, 2, -1, -1⟩ :: ⟨1, 0, 1, 0, -1, -1⟩ :: rest,
          lower_hull_pos := 1, upper_hull_pos := 2, next_edge := 3, saved_edge := -1,
          count := 0 } := by
  obtain ⟨m, hm⟩ : ∃ m : Nat, npoints.toNat = m + 3 := ⟨npoints.toNat - 3, by omega⟩
  obtain ⟨k, hk⟩ : ∃ k : Nat, (3 * npoints).toNat = k + 3 :=
    ⟨(3 * npoints).toNat - 3, by omega⟩
  have hneg : ¬ npoints < 0 := by omega
  have hrep : List.replicate (k + 3) edge.new =
      edge.new :: edge.new :: edge.new :: List.replicate k edge.new := rfl
  have hh := seedHull_new m junk
  generalize hH : (⟨(m : Int) + 3, 2, 3, 3, ⟨1, 2, 0⟩ :: ⟨2, 0, 1⟩ :: ⟨0, 1, 2⟩ ::
    (List.range m).map fun i => { junk (i + 3) with data := (i : Int) + 3 + 1 }⟩ : cyclist) = H
    at hh
  refine ⟨H, List.replicate k edge.new, ?_⟩
  simp only [seed, if_neg hneg, hm, hk, hrep, seedEdges_fresh p p0 p1 p2 _ h0 h1 h2,
    hh, bind, Except.bind]
  rfl

/-- C16 (as amended): seed orientation over exact arithmetic.  In an ordered
field, with `npoints >= 3`, `p[0].x <= p[1].x` (the array
is x-sorted) and `p[0]`, `p[1]`, `p[2]` not collinear, the seed succeeds and the
three seed edges are `a -> b`, `b -> c`, `c -> a` for `(a,b,c) = (0,1,2)` or
`(0,2,1)`, so that the `to` of each is the `from` of the next, with the triangle
`p[a]`, `p[b]`, `p[c]` anticlockwise; `lef` of each edge is the previous edge of
the cycle (it ends at the `from` vertex), `let` the next one (it starts at the
`to` vertex), and `ref = ret = -1`. -/
theorem seed_orientation (junk : Nat → item) (npoints : Int) (p : List (point K))
    (p0 p1 p2 : point K) (hn : 3 ≤ npoints)
    (h0 : rdpE p 0 = Except.ok p0) (h1 : rdpE p 1 = Except.ok p1)
    (h2 : rdpE p 2 = Except.ok p2)
    (hs : p0.x ≤ p1.x) (hc : orient p0 p1 p2 ≠ 0) :
    ∃ (d : Driver) (a b c : Int) (pa pb pc : point K),
      seed junk npoints p = Except.ok d ∧
      ((a = 0 ∧ b = 1 ∧ c = 2) ∨ (a = 0 ∧ b = 2 ∧ c = 1)) ∧
      rde d.edges 0 = Except.ok ⟨a, b, 2, 1, -1, -1⟩ ∧
      rde d.edges 1 = Except.ok ⟨b, c, 0, 2, -1, -1⟩ ∧
      rde d.edges 2 = Except.ok ⟨c, a, 1, 0, -1, -1⟩ ∧
      rdpE p a = Except.ok pa ∧ rdpE p b = Except.ok pb ∧ rdpE p c = Except.ok pc ∧
      0 < orient pa pb pc := by
  obtain ⟨hull, rest, hseed⟩ := seed_eq junk npoints p p0 p1 p2 hn h0 h1 h2
  have ho := gtQuot_orient p0 p1 p2 hs hc
  by_cases hg : gtQuot p2.y p0.y ((p1.y - p0.y) * (p2.x - p0.x)) (p1.x - p0.x) = true
  · rw [if_pos hg] at ho hseed
    exact ⟨_, 0, 1, 2, p0, p1, p2, hseed, Or.inl ⟨rfl, rfl, rfl⟩, by simp [rde],
      by simp [rde], by simp [rde], h0, h1, h2, ho⟩
  · rw [if_neg hg] at ho hseed
    exact ⟨_, 0, 2, 1, p0, p2, p1, hseed, Or.inr ⟨rfl, rfl, rfl⟩, by simp [rde],
      by simp [rde], by simp [rde], h0, h2, h1, ho⟩

end seedgeom

theorem seedHull_one (junk : Nat → item) :
    seedHull (cyclist.new 1 junk) = Except.error Fault.outOfRange := by
  simp [seedHull, cyclist.new, cyclist.addAfter, cyclist.add, cyclist.addBody,
    cyclist.addAfterBody, cyclist.rd, cyclist.wr, cyclist.setNext, cyclist.setPrev,
    cyclist.setData, cyclist.finish, Run.toExcept, bind, Except.bind, Option.bind, pure,
    Except.pure, List.range_succ_eq_map]

theorem seedHull_two (junk : Nat → item) :
    seedHull (cyclist.new 2 junk) = Except.error Fault.outOfRange := by
  simp [seedHull, cyclist.new, cyclist.addAfter, cyclist.add, cyclist.addBody,
    cyclist.addAfterBody, cyclist.rd, cyclist.wr, cyclist.setNext, cyclist.setPrev,
    cyclist.setData, cyclist.finish, Run.toExcept, bind, Except.bind, Option.bind, pure,
    Except.pure, List.range_succ_eq_map]

theorem rdpE_error {K : Type} {p : List (point K)} {i : Int} {err : Fault}
    (h : rdpE p i = Except.error err) : err = Fault.outOfRange := by
  unfold rdpE at h
  split at h
  · simp at h
  · injection h with h
    exact h.symm

section few

variable {K : Type} [LinearOrderedField K]

/-- With 0, 1 or 2 points the seed runs into an access outside an array. -/
theorem seed_small (junk : Nat → item) (npoints : Int) (p : List (point K))
    (h0 : 0 ≤ npoints) (h3 : npoints < 3) :
    seed junk npoints p = Except.error Fault.outOfRange := by
  have hneg : ¬ npoints < 0 := by omega
  have hc : npoints = 0 ∨ npoints = 1 ∨ npoints = 2 := by omega
  cases r0 : rdpE p 0 with
  | error err =>
    have := rdpE_error r0
    subst this
    simp [seed, seedEdges, seedEnds, r0, bind, Except.bind, hneg]
  | ok p0 =>
    cases r1 : rdpE p 1 with
    | error err =>
      have := rdpE_error r1
      subst this
      simp [seed, seedEdges, seedEnds, r0, r1, bind, Except.bind, hneg]
    | ok p1 =>
      cases r2 : rdpE p 2 with
      | error err =>
        have := rdpE_error r2
        subst this
        simp [seed, seedEdges, seedEnds, r0, r1, r2, bind, Except.bind, hneg]
      | ok p2 =>
        rcases hc with rfl | rfl | rfl
        · by_cases hg : gtQuot p2.y p0.y ((p1.y - p0.y) * (p2.x - p0.x)) (p1.x - p0.x) = true
          · simp [seed, seedEdges, seedEnds, r0, r1, r2, bind, Except.bind, hg, wre, rde]
          · simp [seed, seedEdges, seedEnds, r0, r1, r2, bind, Except.bind, hg, wre, rde]
        · have hr : List.replicate (3 * (1 : Int)).toNat edge.new =
              edge.new :: edge.new :: edge.new :: [] := rfl
          have h1 : (1 : Int).toNat = 1 := rfl
          simp only [seed, hr, h1, seedEdges_fresh p p0 p1 p2 _ r0 r1 r2, seedHull_one, bind,
            Except.bind]
          simp
        · have hr : List.replicate (3 * (2 : Int)).toNat edge.new =
              edge.new :: edge.new :: edge.new :: List.replicate 3 edge.new := rfl
          have h1 : (2 : Int).toNat = 2 := rfl
          simp only [seed, hr, h1, seedEdges_fresh p p0 p1 p2 _ r0 r1 r2, seedHull_two, bind,
            Except.bind]
          simp

/-- C19, as the code has it: `triangulate` does not test `npoints`.  With
`npoints < 0` the allocation of the arrays fails; with `0 <= npoints < 3` the
call runs into an access outside an array (`p[0]`, `p[1]`, `p[2]` are read
whatever `npoints` is, `edges[0]` does not exist for `npoints = 0`, and the
hull has fewer than three slots for `npoints = 1, 2`), which is undefined
behaviour and not a reported error; when `p` holds three points and `npoints`
is 1 or 2, the three seed edges have been written before that. -/
theorem too_few_points (sqrt : K → K) (depth : Nat) (junk : Nat → item) (npoints : Int)
    (p : List (point K)) (hn : npoints < 3) :
    (npoints < 0 → triangulate sqrt depth junk npoints p = Except.error Fault.badAlloc) ∧
    (0 ≤ npoints →
      triangulate sqrt depth junk npoints p = Except.error Fault.outOfRange) ∧
    (1 ≤ npoints → ∀ p0 p1 p2, rdpE p 0 = Except.ok p0 → rdpE p 1 = Except.ok p1 →
      rdpE p 2 = Except.ok p2 →
      ∃ a b c rest, seedEdges p (List.replicate (3 * npoints).toNat edge.new) =
        Except.ok (⟨a, b, 2, 1, -1, -1⟩ :: ⟨b, c, 0, 2, -1, -1⟩ :: ⟨c, a, 1, 0, -1, -1⟩ ::
          rest)) := by
  have hz : (npoints - 3).toNat = 0 := by omega
  refine ⟨fun h => ?_, fun h => ?_, fun h p0 p1 p2 h0 h1 h2 => ?_⟩
  · simp only [triangulate, hz, run, seed, if_pos h]
  · simp only [triangulate, hz, run]
    exact seed_small junk npoints p h hn
  · obtain ⟨k, hk⟩ : ∃ k : Nat, (3 * npoints).toNat = k + 3 :=
      ⟨(3 * npoints).toNat - 3, by omega⟩
    have hrep : List.replicate (k + 3) edge.new =
        edge.new :: edge.new :: edge.new :: List.replicate k edge.new := rfl
    rw [hk, hrep, seedEdges_fresh p p0 p1 p2 _ h0 h1 h2]
    by_cases hg : gtQuot p2.y p0.y ((p1.y - p0.y) * (p2.x - p0.x)) (p1.x - p0.x) = true
    · exact ⟨0, 1, 2, _, by rw [if_pos hg]⟩
    · exact ⟨0, 2, 1, _, by rw [if_neg hg]⟩

end few

/-! ### Concrete instances for the seed -/

theorem seed_orientation_witness :
    (3 : Int) ≤ 3 ∧ (0 : ℚ) ≤ 0 ∧ orient (⟨0, 0⟩ : point ℚ) ⟨0, 1⟩ ⟨1, 0⟩ ≠ 0 ∧
      ∃ (d : Driver) (a b c : Int) (pa pb pc : point ℚ),
        seed junk0 3 tri3 = Except.ok d ∧
        ((a = 0 ∧ b = 1 ∧ c = 2) ∨ (a = 0 ∧ b = 2 ∧ c = 1)) ∧
        rde d.edges 0 = Except.ok ⟨a, b, 2, 1, -1, -1⟩ ∧
        rde d.edges 1 = Except.ok ⟨b, c, 0, 2, -1, -1⟩ ∧
        rde d.edges 2 = Except.ok ⟨c, a, 1, 0, -1, -1⟩ ∧
        rdpE tri3 a = Except.ok pa ∧ rdpE tri3 b = Except.ok pb ∧
        rdpE tri3 c = Except.ok pc ∧ 0 < orient pa pb pc :=
  ⟨by decide, by decide!, by decide!,
    seed_orientation junk0 3 tri3 ⟨0, 0⟩ ⟨0, 1⟩ ⟨1, 0⟩ (by decide) (by decide!) (by decide!)
      (by decide!) (by decide!) (by decide!)⟩

theorem seed_hull_witness :
    (3 : Int) ≤ 4 ∧
      ∃ (h : cyclist) (lower upper : Int),
        seedHull (cyclist.new (4 : Int).toNat junk0) = Except.ok (h, lower, upper) ∧
        lower = 1 ∧ upper = 2 ∧ h.num = 3 ∧
        (∀ i, h.occupied i ↔ i = 0 ∨ i = 1 ∨ i = 2) ∧
        h.getEdge 0 = Run.ok h 0 ∧ h.getEdge lower = Run.ok h 1 ∧
        h.getEdge upper = Run.ok h 2 ∧
        h.getNextPos 0 = Run.ok h lower ∧ h.getNextPos lower = Run.ok h upper ∧
        h.getNextPos upper = Run.ok h 0 ∧
        h.getNextNeg 0 = Run.ok h upper ∧ h.getNextNeg lower = Run.ok h 0 ∧
        h.getNextNeg upper = Run.ok h lower :=
  ⟨by decide, seed_hull junk0 4 (by decide)⟩

/-- C19, counterexample: with `npoints = 2` and an array of two points the read
of `p[2]` is outside the array, and the call ends there as an access out of
range, not as a reported error; with `npoints = 2` and three points in the
array the three seed edges are written into the table of six entries before
the third hull insertion leaves the hull array. -/
theorem too_few_points_counterexample :
    rdpE pts2 2 = Except.error Fault.outOfRange ∧
      triangulate sqrt0 1 junk0 2 pts2 = Except.error Fault.outOfRange ∧
      seedEdges tri3 (List.replicate 6 edge.new) = Except.ok
        (⟨0, 2, 2, 1, -1, -1⟩ :: ⟨2, 1, 0, 2, -1, -1⟩ :: ⟨1, 0, 1, 0, -1, -1⟩ ::
          List.replicate 3 edge.new) ∧
      triangulate sqrt0 1 junk0 2 tri3 = Except.error Fault.outOfRange :=
  ⟨by decide!, by decide!, by decide!, by decide!⟩

theorem too_few_points_witness :
    (2 : Int) < 3 ∧
      ((2 : Int) < 0 → triangulate sqrt0 1 junk0 2 tri3 = Except.error Fault.badAlloc) ∧
      ((0 : Int) ≤ 2 →
        triangulate sqrt0 1 junk0 2 tri3 = Except.error Fault.outOfRange) ∧
      ((1 : Int) ≤ 2 → ∀ p0 p1 p2, rdpE tri3 0 = Except.ok p0 → rdpE tri3 1 = Except.ok p1 →
        rdpE tri3 2 = Except.ok p2 →
        ∃ a b c rest, seedEdges tri3 (List.replicate (3 * (2 : Int)).toNat edge.new) =
          Except.ok (⟨a, b, 2, 1, -1, -1⟩ :: ⟨b, c, 0, 2, -1, -1⟩ ::
            ⟨c, a, 1, 0, -1, -1⟩ :: rest)) :=
  ⟨by decide, too_few_points sqrt0 1 junk0 2 tri3 (by decide)⟩

end Tipper

/-! ## The loop over the points: first edge and upper sweep -/

namespace Tipper

namespace cyclist

theorem rd_wr {l l' : cyclist} {i a : Int} {f : item → item} (h : l.wr i f = some l') :
    l'.rd a = if a = i then (l.rd a).map f else l.rd a := by
  unfold wr at h
  split at h
  · rename_i it hit
    simp only [Option.some.injEq] at h
    subst h
    have hi : 0 ≤ i := by
      by_contra h0
      simp [rd, h0] at hit
    by_cases hai : a = i
    · subst hai
      simp only [rd, hi, if_true] at hit ⊢
      obtain ⟨hl, rfl⟩ := List.getElem?_eq_some_iff.mp hit
      simp [hl]
    · rw [if_neg hai]
      unfold rd
      by_cases ha : 0 ≤ a
      · simp only [ha, if_true]
        rw [List.getElem?_set_ne]
        omega
      · simp [ha]
  · simp at h

/-- The value returned by `delNextPos` is the successor of the removed slot. -/
theorem delNextPos_next {l l' : cyclist} {a r : Int} (h : l.delNextPos a = Run.ok l' r) :
    l.getNextPos a = Run.ok l r := by
  unfold delNextPos at h
  split at h
  · rename_i hs
    split at h
    · have h' := finish_ok h
      simp only [Option.bind_eq_bind, Option.bind_eq_some, Option.pure_def, Option.some.injEq,
        Prod.mk.injEq] at h'
      obtain ⟨l5, h5, it5, h6, rfl, rfl⟩ := h'
      simp only [unlink, setData, setNext, setPrev, Option.bind_eq_bind, Option.bind_eq_some,
        Option.pure_def, Option.some.injEq] at h5
      obtain ⟨l1, h1, it, hit, l3, h3, it3, hit3, l4, h4, rfl⟩ := h5
      have r1 := rd_wr (a := a) h1
      have r3 := rd_wr (a := a) h3
      have r4 := rd_wr (a := a) h4
      simp only [if_true] at r1
      have e2 : ({ l1 with hole := a } : cyclist).rd a = l1.rd a := rfl
      rw [e2] at hit r3
      have e5 : ({ l4 with num := l4.num - 1 } : cyclist).rd a = l4.rd a := rfl
      rw [e5] at h6
      cases hla : l.rd a with
      | none => simp [hla] at r1; rw [r1] at hit; simp at hit
      | some x =>
        rw [hla] at r1
        simp only [Option.map_some'] at r1
        rw [r1] at hit
        simp only [Option.some.injEq] at hit
        subst hit
        simp only at r3
        have hx3 : it3.next = x.next := by
          rw [hit3] at r3
          by_cases c : a = x.prev
          · rw [if_pos c, r1] at r3
            simp only [Option.map_some', Option.some.injEq] at r3
            rw [r3]
          · rw [if_neg c, r1] at r3
            simp only [Option.some.injEq] at r3
            rw [r3]
        have hx5 : it5.next = x.next := by
          rw [h6] at r4
          by_cases c : a = it3.next
          · rw [if_pos c, hit3] at r4
            simp only [Option.map_some', Option.some.injEq] at r4
            rw [r4]
            exact hx3
          · rw [if_neg c, hit3] at r4
            simp only [Option.some.injEq] at r4
            rw [r4]
            exact hx3
        simp [getNextPos, hs, hla, finish, hx5]
    · cases h
  · cases h

end cyclist

theorem rde_get {e : List edge} {n : Nat} {x : edge} (h : e[n]? = some x) :
    rde e (n : Int) = Except.ok x := by
  obtain ⟨hl, rfl⟩ := List.getElem?_eq_some_iff.mp h
  exact rde_nat hl

theorem wre_get {e : List edge} {n : Nat} {x : edge} (h : e[n]? = some x) (f : edge → edge) :
    wre e (n : Int) f = Except.ok (e.set n (f x)) := by
  obtain ⟨hl, rfl⟩ := List.getElem?_eq_some_iff.mp h
  exact wre_nat hl f

theorem setE_get {d : Driver} {n : Nat} {x : edge} (h : d.edges[n]? = some x)
    (f : edge → edge) :
    d.setE (n : Int) f = Except.ok { d with edges := d.edges.set n (f x) } := by
  simp [Driver.setE, wre_get h, bind, Except.bind, pure, Except.pure]

theorem getElem?_set_self_of {e : List edge} {n : Nat} {x : edge} (h : e[n]? = some x)
    (y : edge) : (e.set n y)[n]? = some y := by
  obtain ⟨hl, -⟩ := List.getElem?_eq_some_iff.mp h
  simp [hl]

theorem setE_spec (d : Driver) (m : Nat) (x : edge) (f : edge → edge)
    (h : d.edges[m]? = some x) :
    ∃ E, d.setE (m : Int) f = Except.ok { d with edges := E } ∧ E[m]? = some (f x) ∧
      ∀ j, j ≠ m → E[j]? = d.edges[j]? :=
  ⟨d.edges.set m (f x), setE_get h f, getElem?_set_self_of h _,
    fun _ hj => List.getElem?_set_ne (Ne.symm hj)⟩

/-- The edge table after the wiring statements of one pass of the upper loop. -/
theorem upperWire_eq (i : Int) (d : Driver) (n h : Nat) (eh en ep : edge)
    (hne : d.next_edge = (n : Int) + 1) (hhn : h ≠ n) (hhn1 : h ≠ n + 1)
    (heh : d.edges[h]? = some eh) (hep : d.edges[n]? = some ep)
    (hen : d.edges[n + 1]? = some en) :
    ∃ E : List edge,
      upperWire i h d = Except.ok { d with edges := E, count := d.count + 1 } ∧
      E[n + 1]? = some { en with from_ := i, to_ := eh.to_, lef := n, let_ := h } ∧
      E[h]? = some { eh with ref := n, ret := (n : Int) + 1 } ∧
      E[n]? = some (if d.count ≠ 0 then { ep with ref := (n : Int) + 1, ret := h } else ep) ∧
      ∀ j, j ≠ n → j ≠ n + 1 → j ≠ h → E[j]? = d.edges[j]? := by
  obtain ⟨hull, edges, lo, up, ne, se, cnt⟩ := d
  simp only at hne heh hep hen ⊢
  subst hne
  have c1 : ((n : Int) + 1) = ((n + 1 : Nat) : Int) := by push_cast; rfl
  have c2 : ((n : Int) + 1 - 1) = (n : Int) := by omega
  have n1 : n ≠ n + 1 := by omega
  -- edges[next_edge].from=i;
  obtain ⟨E1, s1, a1, o1⟩ := setE_spec ⟨hull, edges, lo, up, (n : Int) + 1, se, cnt⟩ (n + 1) en
    (fun x => { x with from_ := i }) hen
  -- edges[next_edge].to=edges[h].to;
  have r1 : rde E1 (h : Int) = Except.ok eh := rde_get (by rw [o1 h hhn1]; exact heh)
  obtain ⟨E2, s2, a2, o2⟩ := setE_spec ⟨hull, E1, lo, up, (n : Int) + 1, se, cnt⟩ (n + 1) _
    (fun x => { x with to_ := eh.to_ }) a1
  -- if (count!=0){ ... }
  have hp2 : E2[n]? = some ep := by rw [o2 n n1, o1 n n1]; exact hep
  have hl : ∃ E3, linkUpper (h : Int) ⟨hull, E2, lo, up, (n : Int) + 1, se, cnt⟩ =
      Except.ok ⟨hull, E3, lo, up, (n : Int) + 1, se, cnt⟩ ∧
      E3[n]? = some (if cnt ≠ 0 then { ep with ref := (n : Int) + 1, ret := h } else ep) ∧
      ∀ j, j ≠ n → E3[j]? = E2[j]? := by
    by_cases hc : cnt = 0
    · exact ⟨E2, by simp [linkUpper, hc, pure, Except.pure], by simp [hc, hp2], fun _ _ => rfl⟩
    · obtain ⟨F1, t1, b1, q1⟩ := setE_spec ⟨hull, E2, lo, up, (n : Int) + 1, se, cnt⟩ n ep
        (fun x => { x with ref := (n : Int) + 1 }) hp2
      obtain ⟨F2, t2, b2, q2⟩ := setE_spec ⟨hull, F1, lo, up, (n : Int) + 1, se, cnt⟩ n _
        (fun x => { x with ret := (h : Int) }) b1
      refine ⟨F2, ?_, by simp [hc, b2], fun j hj => by rw [q2 j hj, q1 j hj]⟩
      simp only [linkUpper, c2, ne_eq, hc, not_false_eq_true, if_true, t1, t2, bind, Except.bind]
  obtain ⟨E3, s3, a3, o3⟩ := hl
  -- edges[h].ref=next_edge-1; edges[h].ret=next_edge;
  have hh3 : E3[h]? = some eh := by rw [o3 h hhn, o2 h hhn1, o1 h hhn1]; exact heh
  obtain ⟨E4, s4, a4, o4⟩ := setE_spec ⟨hull, E3, lo, up, (n : Int) + 1, se, cnt + 1⟩ h eh
    (fun x => { x with ref := (n : Int) }) hh3
  obtain ⟨E5, s5, a5, o5⟩ := setE_spec ⟨hull, E4, lo, up, (n : Int) + 1, se, cnt + 1⟩ h _
    (fun x => { x with ret := (n : Int) + 1 }) a4
  -- edges[next_edge].let=h; edges[next_edge].lef=next_edge-1;
  have hn5 : E5[n + 1]? = some { en with from_ := i, to_ := eh.to_ } := by
    rw [o5 _ (Ne.symm hhn1), o4 _ (Ne.symm hhn1), o3 _ (Ne.symm n1), a2]
  obtain ⟨E6, s6, a6, o6⟩ := setE_spec ⟨hull, E5, lo, up, (n : Int) + 1, se, cnt + 1⟩ (n + 1) _
    (fun x => { x with let_ := (h : Int) }) hn5
  obtain ⟨E7, s7, a7, o7⟩ := setE_spec ⟨hull, E6, lo, up, (n : Int) + 1, se, cnt + 1⟩ (n + 1) _
    (fun x => { x with lef := (n : Int) }) a6
  rw [← c1] at s1 s2 s6 s7
  refine ⟨E7, ?_, a7, ?_, ?_, ?_⟩
  · simp only [upperWire, c2, s1, r1, s2, s3, s4, s5, s6, s7, bind, Except.bind]
  · rw [o7 _ hhn1, o6 _ hhn1, a5]
  · rw [o7 _ n1, o6 _ n1, o5 _ (Ne.symm hhn), o4 _ (Ne.symm hhn), a3]
  · intro j j1 j2 j3
    rw [o7 _ j2, o6 _ j2, o5 _ j3, o4 _ j3, o3 _ j1, o2 _ j2, o1 _ j2]

section sweep

variable {K : Type} [LinearOrderedField K]

/-- For a point other than point 3 that sees neither reference edge, the pass
ends in `exit(1)` before any statement that writes an edge. -/
theorem firstEdge_exit (p : List (point K)) (i : Int) (d : Driver) (hi : i ≠ 3)
    (hu : visibleAt p i d d.upper_hull_pos = Except.ok false)
    (hl : visibleAt p i d d.lower_hull_pos = Except.ok false) :
    firstEdge p i d = Except.error Fault.exit1 := by
  have hu' : visibleAt p i { d with saved_edge := -1 } d.upper_hull_pos = Except.ok false := hu
  have hl' : visibleAt p i { d with saved_edge := -1 } d.lower_hull_pos = Except.ok false := hl
  simp only [firstEdge, firstNew, firstLower, cantSee, hu', hl', bind, Except.bind, hi,
    Bool.false_eq_true, if_false]

variable (sqrt : K → K) (depth : Nat) (junk : Nat → item)

theorem run_error (npoints : Int) (p : List (point K)) (k : Nat) (err : Fault)
    (h : run sqrt depth junk npoints p k = Except.error err) :
    ∀ j, k ≤ j → run sqrt depth junk npoints p j = Except.error err := by
  intro j hj
  induction j with
  | zero =>
    have : k = 0 := by omega
    subst this
    exact h
  | succ m ih =>
    by_cases hk : k = m + 1
    · subst hk
      exact h
    · have := ih (by omega)
      simp only [run, this, bind, Except.bind]

/-- C18, as the code has it: a point `i = 3 + k` that sees neither the edge at
`upper_hull_pos` nor the edge at `lower_hull_pos`.  For `i > 3` the pass ends in
`exit(1)` before any edge is written, and so does every longer run and
`triangulate` itself.  For `i = 3` there is no error: `lower_hull_pos` becomes
`getNextPos(upper_hull_pos)`, `upper_hull_pos` becomes
`getNextPos(lower_hull_pos)`, and the first edge is built from there. -/
theorem fatal_ordering (npoints : Int) (p : List (point K)) (k : Nat) (d : Driver)
    (hrun : run sqrt depth junk npoints p k = Except.ok d)
    (hu : visibleAt p (3 + (k : Int)) d d.upper_hull_pos = Except.ok false)
    (hl : visibleAt p (3 + (k : Int)) d d.lower_hull_pos = Except.ok false) :
    (1 ≤ k →
      firstEdge p (3 + (k : Int)) d = Except.error Fault.exit1 ∧
      processPoint sqrt depth p (3 + (k : Int)) d = Except.error Fault.exit1 ∧
      (∀ j, k < j → run sqrt depth junk npoints p j = Except.error Fault.exit1) ∧
      (3 + (k : Int) < npoints →
        triangulate sqrt depth junk npoints p = Except.error Fault.exit1)) ∧
    (k = 0 → ∀ h1 h2 l' u', d.hull.getNextPos d.upper_hull_pos = Run.ok h1 l' →
      d.hull.getNextPos l' = Run.ok h2 u' →
      firstEdge p 3 d =
        (firstLowerEdge 3
            { d with saved_edge := -1, lower_hull_pos := l', upper_hull_pos := u' } >>=
          fun d1 => pure { d1 with count := 0 })) := by
  constructor
  · intro hk
    have hi : 3 + (k : Int) ≠ 3 := by omega
    have h1 := firstEdge_exit p _ d hi hu hl
    have h2 : processPoint sqrt depth p (3 + (k : Int)) d = Except.error Fault.exit1 := by
      simp only [processPoint, beforeLowerInsert, beforeUpperInsert, h1, bind, Except.bind]
    have h3 : run sqrt depth junk npoints p (k + 1) = Except.error Fault.exit1 := by
      simp only [run, hrun, h2, bind, Except.bind]
    refine ⟨h1, h2, fun j hj => run_error sqrt depth junk npoints p (k + 1) _ h3 j hj, ?_⟩
    intro hn
    exact run_error sqrt depth junk npoints p (k + 1) _ h3 _ (by omega)
  · intro hk h1 h2 l' u' g1 g2
    subst hk
    have hu' : visibleAt p 3 { d with saved_edge := -1 } d.upper_hull_pos = Except.ok false := hu
    have hl' : visibleAt p 3 { d with saved_edge := -1 } d.lower_hull_pos = Except.ok false := hl
    simp only [firstEdge, firstNew, firstLower, cantSee, hu', hl', bind, Except.bind, g1, g2,
      Run.toExcept, Bool.false_eq_true, if_false, if_true, pure, Except.pure]

/-- C20, as the code has it: one pass of the upper loop for point `i`, with the
hull edge `h` at `upper_hull_pos` and `next_edge = n + 1`.  The new edge
`edges[n+1]` runs from `i` to `h.to` with `lef = n` (the edge made just before)
and `let = h`, both on its left side; its `ref` and `ret` are not written in
this pass.  The hull edge gets `ref = n`, `ret = n + 1`, and after the first
pass (`count != 0`) the edge `n` gets `ref = n + 1`, `ret = h`.  Then `swap` is
called on `h`, `next_edge` grows by one, and `delNextPos` removes the slot of
`h` and returns its successor as the new `upper_hull_pos`. -/
theorem upper_wiring (p : List (point K)) (i : Int) (d : Driver) (n h : Nat)
    (eh en ep : edge)
    (hne : d.next_edge = (n : Int) + 1)
    (hh : d.hullEdge d.upper_hull_pos = Except.ok (h : Int))
    (hhn : h ≠ n) (hhn1 : h ≠ n + 1)
    (heh : d.edges[h]? = some eh) (hep : d.edges[n]? = some ep)
    (hen : d.edges[n + 1]? = some en) :
    ∃ E : List edge,
      upperWire i h d = Except.ok { d with edges := E, count := d.count + 1 } ∧
      E[n + 1]? = some { en with from_ := i, to_ := eh.to_, lef := n, let_ := h } ∧
      E[h]? = some { eh with ref := n, ret := (n : Int) + 1 } ∧
      E[n]? = some (if d.count ≠ 0 then { ep with ref := (n : Int) + 1, ret := h } else ep) ∧
      (∀ j, j ≠ n → j ≠ n + 1 → j ≠ h → E[j]? = d.edges[j]?) ∧
      upperStep sqrt depth p i d =
        (edge.swap sqrt depth h E p >>= fun r =>
          (d.hull.delNextPos d.upper_hull_pos).toExcept >>= fun s =>
            pure { d with edges := r.1, count := d.count + 1, next_edge := (n : Int) + 2,
                          hull := s.1, upper_hull_pos := s.2 }) ∧
      ∀ l' r, d.hull.delNextPos d.upper_hull_pos = Run.ok l' r →
        d.hull.getNextPos d.upper_hull_pos = Run.ok d.hull r := by
  obtain ⟨E, h1, h2, h3, h4, h5⟩ := upperWire_eq i d n h eh en ep hne hhn hhn1 heh hep hen
  refine ⟨E, h1, h2, h3, h4, h5, ?_, fun l' r hd => cyclist.delNextPos_next hd⟩
  have c : (n : Int) + 1 + 1 = (n : Int) + 2 := by ring
  simp only [upperStep, upperEdges, hh, h1, bind, Except.bind, hne, c, pure, Except.pure]
  cases edge.swap sqrt depth (h : Int) E p with
  | error err => rfl
  | ok r => rfl

end sweep

/-! ### Concrete instances for the loop over the points -/

/-- C18, counterexample: on the four points `ptsBelow` point 3 sees neither the
edge at `upper_hull_pos` nor the edge at `lower_hull_pos` of the seed, yet
`triangulate` does not stop: it returns with two more edges, 3 and 4. -/
theorem fatal_ordering_counterexample :
    seed junk0 4 ptsBelow = Except.ok seed4 ∧
      visibleAt ptsBelow 3 seed4 seed4.upper_hull_pos = Except.ok false ∧
      visibleAt ptsBelow 3 seed4 seed4.lower_hull_pos = Except.ok false ∧
      triangulate sqrt0 2 junk0 4 ptsBelow = Except.ok below4 ∧
      rde below4.edges 3 = Except.ok ⟨3, 2, 4, 0, -1, -1⟩ ∧
      rde below4.edges 4 = Except.ok ⟨0, 3, 0, 3, -1, -1⟩ :=
  ⟨by decide!, by decide!, by decide!, by decide!, by decide!, by decide!⟩

theorem fatal_ordering_witness :
    run sqrt0 2 junk0 5 lost5 1 = Except.ok state5 ∧
      visibleAt lost5 (3 + ((1 : Nat) : Int)) state5 state5.upper_hull_pos = Except.ok false ∧
      visibleAt lost5 (3 + ((1 : Nat) : Int)) state5 state5.lower_hull_pos = Except.ok false ∧
      firstEdge lost5 (3 + ((1 : Nat) : Int)) state5 = Except.error Fault.exit1 ∧
      triangulate sqrt0 2 junk0 5 lost5 = Except.error Fault.exit1 :=
  have h := fatal_ordering sqrt0 2 junk0 5 lost5 1 state5 (by decide!) (by decide!)
    (by decide!)
  ⟨by decide!, by decide!, by decide!, (h.1 (le_refl 1)).1,
    (h.1 (le_refl 1)).2.2.2 (by decide)⟩

/-- C20, counterexample: on `ptsAbove`, after the first new edge 3 for point 3,
the upper loop runs one pass with the hull edge `h = 2`.  The edge it creates,
`edges[4] = 3 -> 0`, has the hull edge in `let` and the edge 3 in `lef`; its
right side `ref`, `ret` is `-1`, not the hull edge. -/
theorem upper_wiring_counterexample :
    (seed junk0 4 ptsAbove >>= firstEdge ptsAbove 3) = Except.ok aboveFirst ∧
      visibleAt ptsAbove 3 aboveFirst aboveFirst.upper_hull_pos = Except.ok true ∧
      aboveFirst.hullEdge aboveFirst.upper_hull_pos = Except.ok 2 ∧
      (upperStep sqrt0 2 ptsAbove 3 aboveFirst).map (fun d => (d.edges[4]?, d.edges[2]?)) =
        Except.ok (some ⟨3, 0, 3, 2, -1, -1⟩, some ⟨2, 0, 1, 0, 3, 4⟩) :=
  ⟨by decide!, by decide!, by decide!, by decide!⟩

theorem upper_wiring_witness :
    aboveFirst.next_edge = ((3 : Nat) : Int) + 1 ∧
      aboveFirst.hullEdge aboveFirst.upper_hull_pos = Except.ok ((2 : Nat) : Int) ∧
      ∃ E : List edge,
        upperWire 3 (2 : Nat) aboveFirst =
          Except.ok { aboveFirst with edges := E, count := aboveFirst.count + 1 } ∧
        E[3 + 1]? = some ⟨3, 0, 3, 2, -1, -1⟩ ∧
        E[2]? = some ⟨2, 0, 1, 0, 3, 4⟩ ∧
        E[3]? = some ⟨2, 3, 2, 4, -1, -1⟩ :=
  have h := upper_wiring sqrt0 2 ptsAbove 3 aboveFirst 3 2 ⟨2, 0, 1, 0, -1, -1⟩
    ⟨-1, -1, -1, -1, -1, -1⟩ ⟨2, 3, 2, 4, -1, -1⟩ (by decide) (by decide) (by decide)
    (by decide) (by decide) (by decide) (by decide)
  ⟨by decide, by decide,
    h.elim fun E hE => ⟨E, hE.1, hE.2.1, hE.2.2.1, hE.2.2.2.1⟩⟩

end Tipper

/-! ## Termination of `edge::swap` on a consistent triangulation -/

namespace Tipper

section G
variable {K : Type} [LinearOrderedField K]

theorem lagrange (pl pf pt : point K) :
    (pl.sub pf).dot (pl.sub pf) * (pl.sub pt).dot (pl.sub pt) =
      (pl.sub pf).dot (pl.sub pt) * (pl.sub pf).dot (pl.sub pt) +
        orient pf pt pl * orient pf pt pl := by
  simp only [point.sub, point.dot, orient]
  ring

theorem lift3_flip (pf pt pl pr : point K) :
    lift3 pf pt pl + lift3 pt pf pr - lift3 pl pr pt - lift3 pr pl pf =
      - inCircle pf pt pl pr := by
  simp only [lift3, inCircle, point.sub, point.dot, orient]
  ring

theorem orient_cyc (a b c : point K) : orient b c a = orient a b c := by
  simp only [orient]; ring

theorem orient_swap (a b c : point K) : orient b a c = - orient a b c := by
  simp only [orient]; ring

theorem sq_sub_sides (d1 d2 c1 c2 sA sB : K) (hA : sA * sA = d1 * d1 + c1 * c1)
    (hB : sB * sB = d2 * d2 + c2 * c2)
    (h : (d2 * sA) * (d2 * sA) < (d1 * sB) * (d1 * sB)) :
    (d2 * c1) * (d2 * c1) < (d1 * c2) * (d1 * c2) := by
  have e1 : (d2 * sA) * (d2 * sA) = d2 * d2 * (d1 * d1) + (d2 * c1) * (d2 * c1) := by
    have : (d2 * sA) * (d2 * sA) = d2 * d2 * (sA * sA) := by ring
    rw [this, hA]
    ring
  have e2 : (d1 * sB) * (d1 * sB) = d2 * d2 * (d1 * d1) + (d1 * c2) * (d1 * c2) := by
    have : (d1 * sB) * (d1 * sB) = d1 * d1 * (sB * sB) := by ring
    rw [this, hB]
    ring
  rw [e1, e2] at h
  linarith

/-- the cosine test implies the in-circle test -/
theorem inCircle_of_cos (dt1 dt2 c1 c2 sA sB : K) (hA : sA * sA = dt1 * dt1 + c1 * c1)
    (hB : sB * sB = dt2 * dt2 + c2 * c2) (hsA : 0 < sA) (hsB : 0 < sB)
    (hc1 : 0 < c1) (hc2 : c2 < 0) (h : dt1 * sB + dt2 * sA < 0) :
    c1 * dt2 - dt1 * c2 < 0 := by
  by_cases h2 : 0 ≤ dt2
  · have h1 : dt1 < 0 := by
      by_contra hn
      push_neg at hn
      have := mul_nonneg hn hsB.le
      have := mul_nonneg h2 hsA.le
      linarith
    have e1 : 0 ≤ dt2 * sA := mul_nonneg h2 hsA.le
    have e2 : dt2 * sA < (-dt1) * sB := by linarith
    have hsq : (dt2 * sA) * (dt2 * sA) < (dt1 * sB) * (dt1 * sB) := by
      have := mul_self_lt_mul_self e1 e2
      calc (dt2 * sA) * (dt2 * sA) < (-dt1 * sB) * (-dt1 * sB) := this
        _ = (dt1 * sB) * (dt1 * sB) := by ring
    have h3 := sq_sub_sides dt1 dt2 c1 c2 sA sB hA hB hsq
    have e4 : 0 ≤ dt1 * c2 := (mul_pos_of_neg_of_neg h1 hc2).le
    have : dt2 * c1 < dt1 * c2 := lt_of_mul_self_lt_mul_self₀ e4 h3
    linarith
  · push_neg at h2
    by_cases h1 : dt1 ≤ 0
    · have e1 : c1 * dt2 < 0 := mul_neg_of_pos_of_neg hc1 h2
      have e2 : 0 ≤ dt1 * c2 := mul_nonneg_of_nonpos_of_nonpos h1 hc2.le
      linarith
    · push_neg at h1
      have e1 : 0 ≤ dt1 * sB := (mul_pos h1 hsB).le
      have e2 : dt1 * sB < (-dt2) * sA := by linarith
      have hsq : (dt1 * sB) * (dt1 * sB) < (dt2 * sA) * (dt2 * sA) := by
        have := mul_self_lt_mul_self e1 e2
        calc (dt1 * sB) * (dt1 * sB) < (-dt2 * sA) * (-dt2 * sA) := this
          _ = (dt2 * sA) * (dt2 * sA) := by ring
      have h3 := sq_sub_sides dt2 dt1 c2 c1 sB sA hB hA hsq
      have e4 : 0 ≤ (-dt2) * c1 := (mul_pos (by linarith) hc1).le
      have h3' : (dt1 * (-c2)) * (dt1 * (-c2)) < (-dt2 * c1) * (-dt2 * c1) := by
        calc (dt1 * (-c2)) * (dt1 * (-c2)) = (dt1 * c2) * (dt1 * c2) := by ring
          _ < (dt2 * c1) * (dt2 * c1) := h3
          _ = (-dt2 * c1) * (-dt2 * c1) := by ring
      have : dt1 * (-c2) < (-dt2) * c1 := lt_of_mul_self_lt_mul_self₀ e4 h3'
      linarith

/-- When `L` is left of `F -> T`, `R` right of it and `R` inside the circle
through `F`, `T`, `L`, the quadrilateral `F`, `R`, `T`, `L` is strictly convex:
`T` is left of `L -> R` and `F` is right of it. -/
theorem convex_of_inCircle (pf pt pl pr : point K) (h1 : 0 < orient pf pt pl)
    (h2 : orient pf pt pr < 0) (hI : inCircle pf pt pl pr < 0) :
    0 < orient pl pr pt ∧ orient pl pr pf < 0 := by
  have hc2 : orient pf pt pr = orient pf pt pl - orient pl pr pt + orient pl pr pf := by
    simp only [orient]; ring
  have hn : 0 ≤ ((pf.sub pl).dot (pf.sub pl) + (pt.sub pl).dot (pt.sub pl) -
      2 * (pf.sub pl).dot (pt.sub pl)) := by
    have : (pf.sub pl).dot (pf.sub pl) + (pt.sub pl).dot (pt.sub pl) -
        2 * (pf.sub pl).dot (pt.sub pl) =
        (pf.x - pt.x) * (pf.x - pt.x) + (pf.y - pt.y) * (pf.y - pt.y) := by
      simp only [point.sub, point.dot]; ring
    rw [this]
    exact add_nonneg (mul_self_nonneg _) (mul_self_nonneg _)
  have ha : 0 ≤ (pf.sub pl).dot (pf.sub pl) := by
    simp only [point.sub, point.dot]
    exact add_nonneg (mul_self_nonneg _) (mul_self_nonneg _)
  have hb : 0 ≤ (pt.sub pl).dot (pt.sub pl) := by
    simp only [point.sub, point.dot]
    exact add_nonneg (mul_self_nonneg _) (mul_self_nonneg _)
  have hcI : orient pf pt pl * inCircle pf pt pl pr < 0 := mul_neg_of_pos_of_neg h1 hI
  constructor
  · by_contra hD
    push_neg at hD
    have key : orient pf pt pl * inCircle pf pt pl pr =
        (orient pl pr pt * (pf.x - pl.x) +
            (-orient pl pr pf - orient pf pt pl) * (pt.x - pl.x)) *
          (orient pl pr pt * (pf.x - pl.x) +
            (-orient pl pr pf - orient pf pt pl) * (pt.x - pl.x)) +
        (orient pl pr pt * (pf.y - pl.y) +
            (-orient pl pr pf - orient pf pt pl) * (pt.y - pl.y)) *
          (orient pl pr pt * (pf.y - pl.y) +
            (-orient pl pr pf - orient pf pt pl) * (pt.y - pl.y)) +
        orient pf pt pl *
          ((2 * (pf.sub pl).dot (pt.sub pl) - (pf.sub pl).dot (pf.sub pl)) * orient pl pr pt +
            (pt.sub pl).dot (pt.sub pl) * (-orient pl pr pf - orient pf pt pl)) := by
      simp only [inCircle, orient, point.sub, point.dot]; ring
    have e1 : -orient pl pr pt ≤ -orient pl pr pf - orient pf pt pl := by linarith
    have e2 : (pt.sub pl).dot (pt.sub pl) * (-orient pl pr pt) ≤
        (pt.sub pl).dot (pt.sub pl) * (-orient pl pr pf - orient pf pt pl) :=
      mul_le_mul_of_nonneg_left e1 hb
    have e3 : 0 ≤ (-orient pl pr pt) * ((pf.sub pl).dot (pf.sub pl) +
        (pt.sub pl).dot (pt.sub pl) - 2 * (pf.sub pl).dot (pt.sub pl)) :=
      mul_nonneg (by linarith) hn
    have e4 : 0 ≤ (2 * (pf.sub pl).dot (pt.sub pl) - (pf.sub pl).dot (pf.sub pl)) *
        orient pl pr pt +
        (pt.sub pl).dot (pt.sub pl) * (-orient pl pr pf - orient pf pt pl) := by
      linarith
    have e5 := mul_nonneg h1.le e4
    have s1 := mul_self_nonneg (orient pl pr pt * (pf.x - pl.x) +
            (-orient pl pr pf - orient pf pt pl) * (pt.x - pl.x))
    have s2 := mul_self_nonneg (orient pl pr pt * (pf.y - pl.y) +
            (-orient pl pr pf - orient pf pt pl) * (pt.y - pl.y))
    linarith
  · by_contra hE
    push_neg at hE
    have key : orient pf pt pl * inCircle pf pt pl pr =
        ((orient pl pr pt - orient pf pt pl) * (pf.x - pl.x) +
            (-orient pl pr pf) * (pt.x - pl.x)) *
          ((orient pl pr pt - orient pf pt pl) * (pf.x - pl.x) +
            (-orient pl pr pf) * (pt.x - pl.x)) +
        ((orient pl pr pt - orient pf pt pl) * (pf.y - pl.y) +
            (-orient pl pr pf) * (pt.y - pl.y)) *
          ((orient pl pr pt - orient pf pt pl) * (pf.y - pl.y) +
            (-orient pl pr pf) * (pt.y - pl.y)) +
        orient pf pt pl *
          ((2 * (pf.sub pl).dot (pt.sub pl) - (pt.sub pl).dot (pt.sub pl)) *
              (-orient pl pr pf) +
            (pf.sub pl).dot (pf.sub pl) * (orient pl pr pt - orient pf pt pl)) := by
      simp only [inCircle, orient, point.sub, point.dot]; ring
    have e1 : orient pl pr pf ≤ orient pl pr pt - orient pf pt pl := by linarith
    have e2 : (pf.sub pl).dot (pf.sub pl) * orient pl pr pf ≤
        (pf.sub pl).dot (pf.sub pl) * (orient pl pr pt - orient pf pt pl) :=
      mul_le_mul_of_nonneg_left e1 ha
    have e3 : 0 ≤ orient pl pr pf * ((pf.sub pl).dot (pf.sub pl) +
        (pt.sub pl).dot (pt.sub pl) - 2 * (pf.sub pl).dot (pt.sub pl)) :=
      mul_nonneg hE hn
    have e4 : 0 ≤ (2 * (pf.sub pl).dot (pt.sub pl) - (pt.sub pl).dot (pt.sub pl)) *
          (-orient pl pr pf) +
        (pf.sub pl).dot (pf.sub pl) * (orient pl pr pt - orient pf pt pl) := by
      linarith
    have e5 := mul_nonneg h1.le e4
    have s1 := mul_self_nonneg ((orient pl pr pt - orient pf pt pl) * (pf.x - pl.x) +
            (-orient pl pr pf) * (pt.x - pl.x))
    have s2 := mul_self_nonneg ((orient pl pr pt - orient pf pt pl) * (pf.y - pl.y) +
            (-orient pl pr pf) * (pt.y - pl.y))
    linarith

/-- The flip criterion of `swap`, for a square root that is one on the
non-negative numbers, implies the in-circle inequality when `L` is left and `R`
is right of `F -> T`. -/
theorem inCircle_of_flipTest (sqrt : K → K)
    (hsq : ∀ x, 0 ≤ x → 0 ≤ sqrt x ∧ sqrt x * sqrt x = x)
    (pl pf pt pr : point K) (h1 : 0 < orient pf pt pl) (h2 : orient pf pt pr < 0)
    (h : flipTest sqrt pl pf pt pr) : inCircle pf pt pl pr < 0 := by
  have hA := lagrange pl pf pt
  have hB := lagrange pr pf pt
  have pA : 0 < (pl.sub pf).dot (pl.sub pf) * (pl.sub pt).dot (pl.sub pt) := by
    rw [hA]
    have := mul_self_nonneg ((pl.sub pf).dot (pl.sub pt))
    have := mul_pos h1 h1
    linarith
  have pB : 0 < (pr.sub pf).dot (pr.sub pf) * (pr.sub pt).dot (pr.sub pt) := by
    rw [hB]
    have := mul_self_nonneg ((pr.sub pf).dot (pr.sub pt))
    have := mul_pos_of_neg_of_neg h2 h2
    linarith
  obtain ⟨nA, sA⟩ := hsq _ pA.le
  obtain ⟨nB, sB⟩ := hsq _ pB.le
  have qA : 0 < sqrt ((pl.sub pf).dot (pl.sub pf) * (pl.sub pt).dot (pl.sub pt)) := by
    rcases nA.lt_or_eq with h0 | h0
    · exact h0
    · rw [← h0] at sA
      simp only [mul_zero] at sA
      rw [← sA] at pA
      exact absurd pA (lt_irrefl _)
  have qB : 0 < sqrt ((pr.sub pf).dot (pr.sub pf) * (pr.sub pt).dot (pr.sub pt)) := by
    rcases nB.lt_or_eq with h0 | h0
    · exact h0
    · rw [← h0] at sB
      simp only [mul_zero] at sB
      rw [← sB] at pB
      exact absurd pB (lt_irrefl _)
  have hsum := h.2
  rw [div_add_div _ _ qA.ne' qB.ne', div_lt_iff₀ (mul_pos qA qB), zero_mul] at hsum
  have := inCircle_of_cos _ _ (orient pf pt pl) (orient pf pt pr) _ _ (sA.trans hA)
    (sB.trans hB) qA qB h1 h2 (by linarith)
  exact this

end G
end Tipper

namespace Tipper

section V
variable {K : Type} [LinearOrderedField K]

theorem orient_self_left (a b : point K) : orient a b a = 0 := by
  simp only [orient]; ring

theorem orient_self_right (a b : point K) : orient a b b = 0 := by
  simp only [orient]; ring

theorem orient_self_mid (a b : point K) : orient a a b = 0 := by
  simp only [orient]; ring

end V

theorem rde_nonneg {e : List edge} {i : Int} {x : edge} (h : rde e i = Except.ok x) :
    0 ≤ i := by
  obtain ⟨n, rfl, -⟩ := rde_ok_iff.mp h
  exact Int.natCast_nonneg n

theorem rde_cast {e : List edge} {i : Int} {x : edge} (h : rde e i = Except.ok x) :
    ∃ n : Nat, i = n ∧ e[n]? = some x := by
  obtain ⟨n, rfl, hl, rfl⟩ := rde_ok_iff.mp h
  exact ⟨n, rfl, List.getElem?_eq_getElem hl⟩

end Tipper

namespace Tipper

theorem rdpE_inj {K : Type} {p : List (point K)} {i : Int} {x y : point K}
    (hx : rdpE p i = Except.ok x) (hy : rdpE p i = Except.ok y) : x = y := by
  rw [hx] at hy
  injection hy

end Tipper

namespace Tipper

section V
variable {K : Type} [LinearOrderedField K]

theorem tri_ne {p : List (point K)} {s t l : Int} {ps pt pl : point K}
    (hs : rdpE p s = Except.ok ps) (ht : rdpE p t = Except.ok pt)
    (hl : rdpE p l = Except.ok pl) (ho : 0 < orient ps pt pl) :
    s ≠ t ∧ l ≠ s ∧ l ≠ t := by
  refine ⟨?_, ?_, ?_⟩
  · rintro rfl
    rw [rdpE_inj hs ht, orient_self_mid] at ho
    exact lt_irrefl _ ho
  · rintro rfl
    rw [rdpE_inj hl hs, orient_self_left] at ho
    exact lt_irrefl _ ho
  · rintro rfl
    rw [rdpE_inj hl ht, orient_self_right] at ho
    exact lt_irrefl _ ho

/-- In a valid table an edge with its four neighbours set has a triangle on
each side. -/
theorem Valid.ctx {e : List edge} {p : List (point K)} (hv : Valid e p) {tn : Nat} {t : edge}
    (ht : e[tn]? = some t)
    (hn : t.lef ≠ -1 ∧ t.let_ ≠ -1 ∧ t.ref ≠ -1 ∧ t.ret ≠ -1) :
    ∃ (a b c d : Nat) (L R : Int) (ea eb ec ed : edge) (pF pT pL pR : point K),
      t = ⟨t.from_, t.to_, a, b, c, d⟩ ∧
      FlipCtx e p tn a b c d t.from_ t.to_ L R ea eb ec ed pF pT pL pR := by
  obtain ⟨h1, h2⟩ := hv tn t ht
  have p1 : t.pairAt t.from_ = (t.lef, t.let_) := by simp [edge.pairAt]
  rw [p1] at h1
  rcases h1 with h1 | h1
  · simp only [Prod.mk.injEq] at h1
    exact absurd h1.1 hn.1
  obtain ⟨L, ea, eb, pF, pT, pL, ra, rb, ja, jb, qa, qb, rF, rT, rL, oL⟩ := h1
  rw [p1] at ra rb qa qb
  simp only at ra rb qa qb
  obtain ⟨hFT, -, -⟩ := tri_ne rF rT rL oL
  have p2 : t.pairAt t.to_ = (t.ret, t.ref) := by simp [edge.pairAt, hFT]
  rw [p2] at h2
  rcases h2 with h2 | h2
  · simp only [Prod.mk.injEq] at h2
    exact absurd h2.1 hn.2.2.2
  obtain ⟨R, ed, ec, pT', pF', pR, rd, rc, jd, jc, qd, qc, rT', rF', rR, oR⟩ := h2
  rw [p2] at rd rc qd qc
  simp only at rd rc qd qc
  obtain ⟨a, ha1, ha2⟩ := rde_cast ra
  obtain ⟨b, hb1, hb2⟩ := rde_cast rb
  obtain ⟨c, hc1, hc2⟩ := rde_cast rc
  obtain ⟨d, hd1, hd2⟩ := rde_cast rd
  have e1 := rdpE_inj rT' rT
  have e2 := rdpE_inj rF' rF
  subst e1 e2
  refine ⟨a, b, c, d, L, R, ea, eb, ec, ed, pF', pT', pL, pR, ?_, ?_⟩
  · rw [← ha1, ← hb1, ← hc1, ← hd1]
  · have et : t = ⟨t.from_, t.to_, a, b, c, d⟩ := by rw [← ha1, ← hb1, ← hc1, ← hd1]
    exact
      { het := by rw [← et]; exact ht
        ha := ha2, hb := hb2, hc := hc2, hd := hd2
        ja := ja, jb := jb, jc := jc, jd := jd
        qa := by rw [qa, hb1]
        qb := by rw [qb, ha1]
        qc := by rw [qc, hd1]
        qd := by rw [qd, hc1]
        rF := rF, rT := rT, rL := rL, rR := rR, oL := oL, oR := oR }

end V
end Tipper

namespace Tipper

theorem edge.joins_unique {n : edge} {u v u' v' : Int} (h1 : n.joins u v)
    (h2 : n.joins u' v') : (u = u' ∧ v = v') ∨ (u = v' ∧ v = u') := by
  unfold edge.joins at h1 h2
  rcases h1 with ⟨h1, h1'⟩ | ⟨h1, h1'⟩
  · rcases h2 with ⟨h2, h2'⟩ | ⟨h2, h2'⟩
    · exact Or.inl ⟨h1.symm.trans h2, h1'.symm.trans h2'⟩
    · exact Or.inr ⟨h1.symm.trans h2, h1'.symm.trans h2'⟩
  · rcases h2 with ⟨h2, h2'⟩ | ⟨h2, h2'⟩
    · exact Or.inr ⟨h1'.symm.trans h2', h1.symm.trans h2⟩
    · exact Or.inl ⟨h1'.symm.trans h2', h1.symm.trans h2⟩

theorem joins_self {F T a b c d : Int} : (⟨F, T, a, b, c, d⟩ : edge).joins F T :=
  Or.inl ⟨rfl, rfl⟩

/-- Two entries of a table that join different pairs of points are different
entries. -/
theorem ne_of_joins {e : List edge} {i j : Nat} {x y : edge} {u v u' v' : Int}
    (hi : e[i]? = some x) (hj : e[j]? = some y) (hx : x.joins u v) (hy : y.joins u' v')
    (h1 : ¬ (u = u' ∧ v = v')) (h2 : ¬ (u = v' ∧ v = u')) : i ≠ j := by
  rintro rfl
  have := hi.symm.trans hj
  simp only [Option.some.injEq] at this
  subst this
  rcases edge.joins_unique hx hy with h | h
  · exact h1 h
  · exact h2 h

section V
variable {K : Type} [LinearOrderedField K]

variable {e : List edge} {p : List (point K)} {tn a b c d : Nat} {F T L R : Int}
  {ea eb ec ed : edge} {pF pT pL pR : point K}

theorem FlipCtx.ne (h : FlipCtx e p tn a b c d F T L R ea eb ec ed pF pT pL pR) :
    F ≠ T ∧ L ≠ F ∧ L ≠ T ∧ R ≠ F ∧ R ≠ T ∧ L ≠ R := by
  obtain ⟨h1, h2, h3⟩ := tri_ne h.rF h.rT h.rL h.oL
  obtain ⟨-, h5, h6⟩ := tri_ne h.rT h.rF h.rR h.oR
  refine ⟨h1, h2, h3, h6, h5, ?_⟩
  rintro rfl
  have := rdpE_inj h.rL h.rR
  subst this
  have o1 := h.oL
  have o2 := h.oR
  rw [orient_swap] at o2
  linarith

theorem FlipCtx.nodup (h : FlipCtx e p tn a b c d F T L R ea eb ec ed pF pT pL pR) :
    [tn, a, b, c, d].Nodup := by
  obtain ⟨n1, n2, n3, n4, n5, n6⟩ := h.ne
  have ta : tn ≠ a := ne_of_joins h.het h.ha joins_self h.ja
    (fun x => n3 x.2.symm) (fun x => n2 x.1.symm)
  have tb : tn ≠ b := ne_of_joins h.het h.hb joins_self h.jb
    (fun x => n1 x.1) (fun x => n2 x.1.symm)
  have tc : tn ≠ c := ne_of_joins h.het h.hc joins_self h.jc
    (fun x => n5 x.2.symm) (fun x => n4 x.1.symm)
  have td : tn ≠ d := ne_of_joins h.het h.hd joins_self h.jd
    (fun x => n1 x.1) (fun x => n4 x.1.symm)
  have ab : a ≠ b := ne_of_joins h.ha h.hb h.ja h.jb
    (fun x => n1 x.1) (fun x => n2 x.1.symm)
  have ac : a ≠ c := ne_of_joins h.ha h.hc h.ja h.jc
    (fun x => n6 x.2) (fun x => n4 x.1.symm)
  have ad : a ≠ d := ne_of_joins h.ha h.hd h.ja h.jd
    (fun x => n1 x.1) (fun x => n4 x.1.symm)
  have bc : b ≠ c := ne_of_joins h.hb h.hc h.jb h.jc
    (fun x => n1 x.1.symm) (fun x => n5 x.1.symm)
  have bd : b ≠ d := ne_of_joins h.hb h.hd h.jb h.jd
    (fun x => n6 x.2) (fun x => n5 x.1.symm)
  have cd : c ≠ d := ne_of_joins h.hc h.hd h.jc h.jd
    (fun x => n1 x.1) (fun x => n4 x.1.symm)
  simp only [List.nodup_cons, List.mem_cons, List.mem_singleton, not_or, List.not_mem_nil,
    not_false_eq_true, List.nodup_nil, and_true]
  exact ⟨⟨ta, tb, tc, td⟩, ⟨ab, ac, ad⟩, ⟨bc, bd⟩, cd⟩

end V
end Tipper

namespace Tipper

section V
variable {K : Type} [LinearOrderedField K]

variable {e : List edge} {p : List (point K)} {tn a b c d : Nat} {F T L R : Int}
  {ea eb ec ed : edge} {pF pT pL pR : point K}

theorem FlipCtx.flipped (h : FlipCtx e p tn a b c d F T L R ea eb ec ed pF pT pL pR) :
    ∃ (e' : List edge) (a' b' c' d' : edge), flipStep tn L R e = Except.ok e' ∧
      Flipped e e' tn a b c d F T L R ea eb ec ed a' b' c' d' := by
  obtain ⟨n1, n2, n3, n4, n5, n6⟩ := h.ne
  obtain ⟨e', h1, h2, h3, h4, h5, h6, h7, h8⟩ := flipStep_entries e tn a b c d F T L R
    ea eb ec ed h.het h.ha h.hb h.hc h.hd h.nodup
  refine ⟨e', (if ea.from_ = F then { ea with ref := c, ret := tn }
      else { ea with lef := tn, let_ := c }),
    (if eb.to_ = T then { eb with ref := tn, ret := d } else { eb with lef := d, let_ := tn }),
    (if ec.from_ = F then { ec with lef := a, let_ := tn } else { ec with ref := tn, ret := a }),
    (if ed.to_ = T then { ed with lef := tn, let_ := b } else { ed with ref := b, ret := tn }),
    h1, ?_⟩
  have ja := h.ja
  have jb := h.jb
  have jc := h.jc
  have jd := h.jd
  unfold edge.joins at ja jb jc jd
  refine
    { len := h2, gt := h3, ga := h4, gb := h5, gc := h6, gd := h7, other := h8
      fa := by split <;> exact ⟨rfl, rfl⟩
      fb := by split <;> exact ⟨rfl, rfl⟩
      fc := by split <;> exact ⟨rfl, rfl⟩
      fd := by split <;> exact ⟨rfl, rfl⟩
      na := ?_, nb := ?_, nc := ?_, nd := ?_, ka := ?_, kb := ?_, kc := ?_, kd := ?_
      xa := rfl, xb := rfl, xc := rfl, xd := rfl }
  · rcases ja with ⟨j1, j2⟩ | ⟨j1, j2⟩
    · simp [edge.pairAt, j1, j2, Ne.symm n2]
    · simp [edge.pairAt, j1, j2, n2]
  · rcases jb with ⟨j1, j2⟩ | ⟨j1, j2⟩
    · simp [edge.pairAt, j1, j2, n3]
    · simp [edge.pairAt, j1, j2, n3]
  · rcases jc with ⟨j1, j2⟩ | ⟨j1, j2⟩
    · simp [edge.pairAt, j1, j2]
    · simp [edge.pairAt, j1, j2, n4]
  · rcases jd with ⟨j1, j2⟩ | ⟨j1, j2⟩
    · simp [edge.pairAt, j1, j2, n5, Ne.symm n5]
    · simp [edge.pairAt, j1, j2]
  · rcases ja with ⟨j1, j2⟩ | ⟨j1, j2⟩
    · simp [edge.pairAt, j1, j2]
    · simp [edge.pairAt, j1, j2, n2]
  · rcases jb with ⟨j1, j2⟩ | ⟨j1, j2⟩
    · simp [edge.pairAt, j1, j2, n3, Ne.symm n3]
    · simp [edge.pairAt, j1, j2]
  · rcases jc with ⟨j1, j2⟩ | ⟨j1, j2⟩
    · simp [edge.pairAt, j1, j2, Ne.symm n4]
    · simp [edge.pairAt, j1, j2, n4]
  · rcases jd with ⟨j1, j2⟩ | ⟨j1, j2⟩
    · simp [edge.pairAt, j1, j2, n5]
    · simp [edge.pairAt, j1, j2, n5]

end V
end Tipper

namespace Tipper

theorem edge.joins_symm {n : edge} {u v : Int} (h : n.joins u v) : n.joins v u :=
  Or.symm h

theorem edge.joins_congr {n n' : edge} {u v : Int} (h : n.joins u v)
    (h1 : n'.from_ = n.from_) (h2 : n'.to_ = n.to_) : n'.joins u v := by
  unfold edge.joins at h ⊢
  rw [h1, h2]
  exact h

theorem edge.joins_ends {n : edge} {u v : Int} (h : n.joins u v) :
    (u = n.from_ ∧ v = n.to_) ∨ (u = n.to_ ∧ v = n.from_) := by
  rcases h with ⟨h1, h2⟩ | ⟨h1, h2⟩
  · exact Or.inl ⟨h1.symm, h2.symm⟩
  · exact Or.inr ⟨h2.symm, h1.symm⟩

theorem pairAt_t_from {F T a b c d : Int} : (⟨F, T, a, b, c, d⟩ : edge).pairAt F = (a, b) := by
  simp [edge.pairAt]

theorem pairAt_t_to {F T a b c d : Int} (h : F ≠ T) :
    (⟨F, T, a, b, c, d⟩ : edge).pairAt T = (d, c) := by
  simp [edge.pairAt, h]

section V
variable {K : Type} [LinearOrderedField K]

variable {e e' : List edge} {p : List (point K)} {tn a b c d : Nat} {F T L R : Int}
  {ea eb ec ed a' b' c' d' : edge} {pF pT pL pR : point K}

/-- Entries other than the flipped edge keep their end points, and keep the
neighbour pair of every walk whose pair does not name the flipped edge. -/
theorem Flipped.frame (h : FlipCtx e p tn a b c d F T L R ea eb ec ed pF pT pL pR)
    (hf : Flipped e e' tn a b c d F T L R ea eb ec ed a' b' c' d')
    (k : Nat) (y : edge) (hk : e[k]? = some y) (hkt : k ≠ tn) :
    ∃ y', e'[k]? = some y' ∧ y'.from_ = y.from_ ∧ y'.to_ = y.to_ ∧
      ∀ v, (v = y.from_ ∨ v = y.to_) → (y.pairAt v).1 ≠ tn → (y.pairAt v).2 ≠ tn →
        y'.pairAt v = y.pairAt v := by
  by_cases ka : k = a
  · subst ka
    have := hk.symm.trans h.ha
    simp only [Option.some.injEq] at this
    subst this
    refine ⟨a', hf.ga, hf.fa.1, hf.fa.2, ?_⟩
    intro v hv h1 h2
    have hv' : v = F ∨ v = L := by
      rcases edge.joins_ends h.ja with ⟨j1, j2⟩ | ⟨j1, j2⟩
      · rcases hv with rfl | rfl
        · exact Or.inl j1.symm
        · exact Or.inr j2.symm
      · rcases hv with rfl | rfl
        · exact Or.inr j2.symm
        · exact Or.inl j1.symm
    rcases hv' with rfl | rfl
    · exact hf.ka
    · rw [h.qa] at h2
      exact absurd rfl h2
  by_cases kb : k = b
  · subst kb
    have := hk.symm.trans h.hb
    simp only [Option.some.injEq] at this
    subst this
    refine ⟨b', hf.gb, hf.fb.1, hf.fb.2, ?_⟩
    intro v hv h1 h2
    have hv' : v = T ∨ v = L := by
      rcases edge.joins_ends h.jb with ⟨j1, j2⟩ | ⟨j1, j2⟩
      · rcases hv with rfl | rfl
        · exact Or.inl j1.symm
        · exact Or.inr j2.symm
      · rcases hv with rfl | rfl
        · exact Or.inr j2.symm
        · exact Or.inl j1.symm
    rcases hv' with rfl | rfl
    · rw [h.qb] at h1
      exact absurd rfl h1
    · exact hf.kb
  by_cases kc : k = c
  · subst kc
    have := hk.symm.trans h.hc
    simp only [Option.some.injEq] at this
    subst this
    refine ⟨c', hf.gc, hf.fc.1, hf.fc.2, ?_⟩
    intro v hv h1 h2
    have hv' : v = F ∨ v = R := by
      rcases edge.joins_ends h.jc with ⟨j1, j2⟩ | ⟨j1, j2⟩
      · rcases hv with rfl | rfl
        · exact Or.inl j1.symm
        · exact Or.inr j2.symm
      · rcases hv with rfl | rfl
        · exact Or.inr j2.symm
        · exact Or.inl j1.symm
    rcases hv' with rfl | rfl
    · rw [h.qc] at h1
      exact absurd rfl h1
    · exact hf.kc
  by_cases kd : k = d
  · subst kd
    have := hk.symm.trans h.hd
    simp only [Option.some.injEq] at this
    subst this
    refine ⟨d', hf.gd, hf.fd.1, hf.fd.2, ?_⟩
    intro v hv h1 h2
    have hv' : v = T ∨ v = R := by
      rcases edge.joins_ends h.jd with ⟨j1, j2⟩ | ⟨j1, j2⟩
      · rcases hv with rfl | rfl
        · exact Or.inl j1.symm
        · exact Or.inr j2.symm
      · rcases hv with rfl | rfl
        · exact Or.inr j2.symm
        · exact Or.inl j1.symm
    rcases hv' with rfl | rfl
    · exact hf.kd
    · rw [h.qd] at h2
      exact absurd rfl h2
  · exact ⟨y, by rw [hf.other k hkt ka kb kc kd, hk], rfl, rfl, fun _ _ _ _ => rfl⟩

end V
end Tipper

namespace Tipper

theorem rde_of_get {e : List edge} {n : Nat} {x : edge} (h : e[n]? = some x) :
    rde e (n : Int) = Except.ok x := rde_get h

theorem get_of_rde {e : List edge} {n : Nat} {x : edge} (h : rde e (n : Int) = Except.ok x) :
    e[n]? = some x := by
  obtain ⟨m, hm, hx⟩ := rde_cast h
  have : n = m := by exact_mod_cast hm
  subst this
  exact hx

end Tipper

namespace Tipper

section V
variable {K : Type} [LinearOrderedField K]

variable {e e' : List edge} {p : List (point K)} {tn a b c d : Nat} {F T L R : Int}
  {ea eb ec ed a' b' c' d' : edge} {pF pT pL pR : point K}

/-- A walk along an edge other than `tn` whose neighbour pair names `tn` is one
of the four walks around the two triangles of `tn`. -/
theorem FlipCtx.facing (h : FlipCtx e p tn a b c d F T L R ea eb ec ed pF pT pL pR)
    {j : Nat} {x : edge} {s t : Int} (ht : Tri e p j x s t)
    (hn : (x.pairAt s).1 = tn ∨ (x.pairAt s).2 = tn) :
    (j = c ∧ s = F) ∨ (j = b ∧ s = T) ∨ (j = a ∧ t = F) ∨ (j = d ∧ t = T) := by
  obtain ⟨n1, -, -, -, -, -⟩ := h.ne
  obtain ⟨l, xa, xb, ps, pt, pl, ra, rb, ja, jb, qa, qb, -, -, -, -⟩ := ht
  rcases hn with hn | hn
  · rw [hn] at ra
    have := (get_of_rde ra).symm.trans h.het
    simp only [Option.some.injEq] at this
    subst this
    rcases edge.joins_unique ja joins_self with ⟨rfl, rfl⟩ | ⟨rfl, rfl⟩
    · rw [pairAt_t_to n1] at qa
      simp only [Prod.mk.injEq] at qa
      left
      exact ⟨by exact_mod_cast qa.2.symm, rfl⟩
    · rw [pairAt_t_from] at qa
      simp only [Prod.mk.injEq] at qa
      right; left
      exact ⟨by exact_mod_cast qa.2.symm, rfl⟩
  · rw [hn] at rb
    have := (get_of_rde rb).symm.trans h.het
    simp only [Option.some.injEq] at this
    subst this
    rcases edge.joins_unique jb joins_self with ⟨rfl, rfl⟩ | ⟨rfl, rfl⟩
    · rw [pairAt_t_from] at qb
      simp only [Prod.mk.injEq] at qb
      right; right; left
      exact ⟨by exact_mod_cast qb.1.symm, rfl⟩
    · rw [pairAt_t_to n1] at qb
      simp only [Prod.mk.injEq] at qb
      right; right; right
      exact ⟨by exact_mod_cast qb.1.symm, rfl⟩

/-- A side that does not name the flipped edge is kept by the flip. -/
theorem Flipped.keep (h : FlipCtx e p tn a b c d F T L R ea eb ec ed pF pT pL pR)
    (hf : Flipped e e' tn a b c d F T L R ea eb ec ed a' b' c' d')
    {j : Nat} {x x' : edge} {s t : Int} (hjt : j ≠ tn)
    (hp : x'.pairAt s = x.pairAt s)
    (h1 : (x.pairAt s).1 ≠ tn) (h2 : (x.pairAt s).2 ≠ tn)
    (hs : x.pairAt s = (-1, -1) ∨ Tri e p j x s t) :
    x'.pairAt s = (-1, -1) ∨ Tri e' p j x' s t := by
  rcases hs with hs | hs
  · left
    rw [hp, hs]
  right
  obtain ⟨l, xa, xb, ps, pt, pl, ra, rb, ja, jb, qa, qb, rs, rt, rl, o⟩ := hs
  obtain ⟨na, hna, ga⟩ := rde_cast ra
  obtain ⟨nb, hnb, gb⟩ := rde_cast rb
  have ta : na ≠ tn := by
    intro hh
    apply h1
    rw [hna, hh]
  have tb : nb ≠ tn := by
    intro hh
    apply h2
    rw [hnb, hh]
  obtain ⟨ya, fa1, fa2, fa3, fa4⟩ := hf.frame h na xa ga ta
  obtain ⟨yb, fb1, fb2, fb3, fb4⟩ := hf.frame h nb xb gb tb
  have ea1 : ya.pairAt l = xa.pairAt l := by
    apply fa4
    · rcases edge.joins_ends ja with ⟨-, j2⟩ | ⟨-, j2⟩
      · exact Or.inr j2
      · exact Or.inl j2
    · rw [qa]
      exact h2
    · rw [qa]
      simp only
      exact_mod_cast hjt
  have eb1 : yb.pairAt t = xb.pairAt t := by
    apply fb4
    · rcases edge.joins_ends jb with ⟨j1, -⟩ | ⟨j1, -⟩
      · exact Or.inl j1
      · exact Or.inr j1
    · rw [qb]
      simp only
      exact_mod_cast hjt
    · rw [qb]
      exact h1
  refine ⟨l, ya, yb, ps, pt, pl, ?_, ?_, edge.joins_congr ja fa2 fa3,
    edge.joins_congr jb fb2 fb3, ?_, ?_, rs, rt, rl, o⟩
  · rw [hp, hna]
    exact rde_of_get fa1
  · rw [hp, hnb]
    exact rde_of_get fb1
  · rw [ea1, qa, hp]
  · rw [eb1, qb, hp]

end V
end Tipper

namespace Tipper

section V
variable {K : Type} [LinearOrderedField K]

variable {e e' : List edge} {p : List (point K)} {tn a b c d : Nat} {F T L R : Int}
  {ea eb ec ed a' b' c' d' : edge} {pF pT pL pR : point K}

theorem Flipped.tri_t1 (h : FlipCtx e p tn a b c d F T L R ea eb ec ed pF pT pL pR)
    (hf : Flipped e e' tn a b c d F T L R ea eb ec ed a' b' c' d')
    (g1 : 0 < orient pL pR pT) : Tri e' p tn ⟨L, R, b, d, a, c⟩ L R := by
  refine ⟨T, b', d', pL, pR, pT, ?_, ?_, ?_, ?_, ?_, ?_, h.rL, h.rR, h.rT, g1⟩
  · rw [pairAt_t_from]; exact rde_of_get hf.gb
  · rw [pairAt_t_from]; exact rde_of_get hf.gd
  · exact edge.joins_symm (edge.joins_congr h.jb hf.fb.1 hf.fb.2)
  · exact edge.joins_symm (edge.joins_congr h.jd hf.fd.1 hf.fd.2)
  · rw [pairAt_t_from]; exact hf.nb
  · rw [pairAt_t_from]; exact hf.nd

theorem Flipped.tri_t2 (h : FlipCtx e p tn a b c d F T L R ea eb ec ed pF pT pL pR)
    (hf : Flipped e e' tn a b c d F T L R ea eb ec ed a' b' c' d')
    (g2 : 0 < orient pR pL pF) : Tri e' p tn ⟨L, R, b, d, a, c⟩ R L := by
  have n6 := h.ne.2.2.2.2.2
  refine ⟨F, c', a', pR, pL, pF, ?_, ?_, ?_, ?_, ?_, ?_, h.rR, h.rL, h.rF, g2⟩
  · rw [pairAt_t_to n6]; exact rde_of_get hf.gc
  · rw [pairAt_t_to n6]; exact rde_of_get hf.ga
  · exact edge.joins_symm (edge.joins_congr h.jc hf.fc.1 hf.fc.2)
  · exact edge.joins_symm (edge.joins_congr h.ja hf.fa.1 hf.fa.2)
  · rw [pairAt_t_to n6]; exact hf.nc
  · rw [pairAt_t_to n6]; exact hf.na

theorem Flipped.tri_a (h : FlipCtx e p tn a b c d F T L R ea eb ec ed pF pT pL pR)
    (hf : Flipped e e' tn a b c d F T L R ea eb ec ed a' b' c' d')
    (g2 : 0 < orient pR pL pF) : Tri e' p a a' L F := by
  have n6 := h.ne.2.2.2.2.2
  refine ⟨R, ⟨L, R, b, d, a, c⟩, c', pL, pF, pR, ?_, ?_, joins_self, ?_, ?_, ?_,
    h.rL, h.rF, h.rR, by rw [orient_cyc]; exact g2⟩
  · rw [hf.na]; exact rde_of_get hf.gt
  · rw [hf.na]; exact rde_of_get hf.gc
  · exact edge.joins_congr h.jc hf.fc.1 hf.fc.2
  · rw [pairAt_t_to n6, hf.na]
  · rw [hf.nc, hf.na]

theorem Flipped.tri_b (h : FlipCtx e p tn a b c d F T L R ea eb ec ed pF pT pL pR)
    (hf : Flipped e e' tn a b c d F T L R ea eb ec ed a' b' c' d')
    (g1 : 0 < orient pL pR pT) : Tri e' p b b' T L := by
  refine ⟨R, d', ⟨L, R, b, d, a, c⟩, pT, pL, pR, ?_, ?_, ?_, joins_self, ?_, ?_,
    h.rT, h.rL, h.rR, by rw [← orient_cyc]; exact g1⟩
  · rw [hf.nb]; exact rde_of_get hf.gd
  · rw [hf.nb]; exact rde_of_get hf.gt
  · exact edge.joins_congr h.jd hf.fd.1 hf.fd.2
  · rw [hf.nd, hf.nb]
  · rw [pairAt_t_from, hf.nb]

theorem Flipped.tri_c (h : FlipCtx e p tn a b c d F T L R ea eb ec ed pF pT pL pR)
    (hf : Flipped e e' tn a b c d F T L R ea eb ec ed a' b' c' d')
    (g2 : 0 < orient pR pL pF) : Tri e' p c c' F R := by
  have n6 := h.ne.2.2.2.2.2
  refine ⟨L, a', ⟨L, R, b, d, a, c⟩, pF, pR, pL, ?_, ?_, ?_, edge.joins_symm joins_self,
    ?_, ?_, h.rF, h.rR, h.rL, by rw [← orient_cyc]; exact g2⟩
  · rw [hf.nc]; exact rde_of_get hf.ga
  · rw [hf.nc]; exact rde_of_get hf.gt
  · exact edge.joins_congr h.ja hf.fa.1 hf.fa.2
  · rw [hf.na, hf.nc]
  · rw [pairAt_t_to n6, hf.nc]

theorem Flipped.tri_d (h : FlipCtx e p tn a b c d F T L R ea eb ec ed pF pT pL pR)
    (hf : Flipped e e' tn a b c d F T L R ea eb ec ed a' b' c' d')
    (g1 : 0 < orient pL pR pT) : Tri e' p d d' R T := by
  refine ⟨L, ⟨L, R, b, d, a, c⟩, b', pR, pT, pL, ?_, ?_, edge.joins_symm joins_self, ?_,
    ?_, ?_, h.rR, h.rT, h.rL, by rw [orient_cyc]; exact g1⟩
  · rw [hf.nd]; exact rde_of_get hf.gt
  · rw [hf.nd]; exact rde_of_get hf.gb
  · exact edge.joins_congr h.jb hf.fb.1 hf.fb.2
  · rw [pairAt_t_from, hf.nd]
  · rw [hf.nb, hf.nd]

end V
end Tipper

namespace Tipper

theorem get_inj {e : List edge} {n : Nat} {x y : edge} (hx : e[n]? = some x)
    (hy : e[n]? = some y) : x = y := by
  rw [hx] at hy
  injection hy

end Tipper

namespace Tipper

section V
variable {K : Type} [LinearOrderedField K]

variable {e e' : List edge} {p : List (point K)} {tn a b c d : Nat} {F T L R : Int}
  {ea eb ec ed a' b' c' d' : edge} {pF pT pL pR : point K}

/-- One side of an edge other than the flipped one, after the flip. -/
theorem Flipped.side (h : FlipCtx e p tn a b c d F T L R ea eb ec ed pF pT pL pR)
    (hf : Flipped e e' tn a b c d F T L R ea eb ec ed a' b' c' d')
    (g1 : 0 < orient pL pR pT) (g2 : 0 < orient pR pL pF)
    {j : Nat} {x x' : edge} {s t : Int} (hjt : j ≠ tn)
    (hj : e[j]? = some x) (hj' : e'[j]? = some x') (hst : x.joins s t)
    (hs : x.pairAt s = (-1, -1) ∨ Tri e p j x s t) :
    x'.pairAt s = (-1, -1) ∨ Tri e' p j x' s t := by
  obtain ⟨n1, n2, n3, n4, n5, n6⟩ := h.ne
  obtain ⟨y', f1, f2, f3, f4⟩ := hf.frame h j x hj hjt
  have := get_inj f1 hj'
  subst this
  by_cases hn : (x.pairAt s).1 = tn ∨ (x.pairAt s).2 = tn
  · right
    have ht : Tri e p j x s t := by
      rcases hs with hs | hs
      · rw [hs] at hn
        simp only at hn
        omega
      · exact hs
    rcases h.facing ht hn with ⟨rfl, rfl⟩ | ⟨rfl, rfl⟩ | ⟨rfl, rfl⟩ | ⟨rfl, rfl⟩
    · have := get_inj hj h.hc
      subst this
      have := get_inj hj' hf.gc
      subst this
      have : t = R := by
        rcases edge.joins_unique hst h.jc with ⟨-, h2⟩ | ⟨h1, -⟩
        · exact h2
        · exact absurd h1.symm n4
      subst this
      exact hf.tri_c h g2
    · have := get_inj hj h.hb
      subst this
      have := get_inj hj' hf.gb
      subst this
      have : t = L := by
        rcases edge.joins_unique hst h.jb with ⟨-, h2⟩ | ⟨h1, -⟩
        · exact h2
        · exact absurd h1.symm n3
      subst this
      exact hf.tri_b h g1
    · have := get_inj hj h.ha
      subst this
      have := get_inj hj' hf.ga
      subst this
      have : s = L := by
        rcases edge.joins_unique hst h.ja with ⟨-, h2⟩ | ⟨h1, -⟩
        · exact absurd h2.symm n2
        · exact h1
      subst this
      exact hf.tri_a h g2
    · have := get_inj hj h.hd
      subst this
      have := get_inj hj' hf.gd
      subst this
      have : s = R := by
        rcases edge.joins_unique hst h.jd with ⟨-, h2⟩ | ⟨h1, -⟩
        · exact absurd h2.symm n5
        · exact h1
      subst this
      exact hf.tri_d h g1
  · push_neg at hn
    have hp : y'.pairAt s = x.pairAt s := by
      apply f4 s _ hn.1 hn.2
      rcases edge.joins_ends hst with ⟨j1, -⟩ | ⟨j1, -⟩
      · exact Or.inl j1
      · exact Or.inr j1
    exact hf.keep h hjt hp hn.1 hn.2 hs

/-- The flip of an edge whose quadrilateral is strictly convex keeps the table
valid. -/
theorem Flipped.valid (h : FlipCtx e p tn a b c d F T L R ea eb ec ed pF pT pL pR)
    (hf : Flipped e e' tn a b c d F T L R ea eb ec ed a' b' c' d')
    (hv : Valid e p) (g1 : 0 < orient pL pR pT) (g2 : 0 < orient pR pL pF) :
    Valid e' p := by
  intro j x' hj'
  by_cases hjt : j = tn
  · subst hjt
    have := get_inj hj' hf.gt
    subst this
    exact ⟨Or.inr (hf.tri_t1 h g1), Or.inr (hf.tri_t2 h g2)⟩
  · have hl : j < e.length := by
      rw [← hf.len]
      exact (List.getElem?_eq_some_iff.mp hj').1
    have hj : e[j]? = some e[j] := List.getElem?_eq_getElem hl
    obtain ⟨y', f1, f2, f3, -⟩ := hf.frame h j _ hj hjt
    have := get_inj f1 hj'
    subst this
    obtain ⟨v1, v2⟩ := hv j _ hj
    rw [f2, f3]
    exact ⟨hf.side h g1 g2 hjt hj hj' (Or.inl ⟨rfl, rfl⟩) v1,
      hf.side h g1 g2 hjt hj hj' (Or.inr ⟨rfl, rfl⟩) v2⟩

end V
end Tipper

namespace Tipper

theorem edAt_of_rde {e : List edge} {i : Int} {x : edge} (h : rde e i = Except.ok x) :
    edAt e i = x := by
  simp [edAt, h]

theorem edAt_of_get {e : List edge} {n : Nat} {x : edge} (h : e[n]? = some x) :
    edAt e (n : Int) = x :=
  edAt_of_rde (rde_get h)

theorem edge.far_of_joins {n : edge} {u v : Int} (h : n.joins u v) (hne : v ≠ u) :
    n.far u = v := by
  unfold edge.far
  rcases h with ⟨h1, h2⟩ | ⟨h1, h2⟩
  · rw [if_pos h1, h2]
  · rw [if_neg (by rw [h1]; exact hne), h1]

section P
variable {K : Type} [LinearOrderedField K]

theorem ptAt_of_rdpE {p : List (point K)} {i : Int} {x : point K}
    (h : rdpE p i = Except.ok x) : ptAt p i = x := by
  unfold rdpE at h
  unfold ptAt
  cases hr : rdp p i with
  | none =>
    rw [hr] at h
    simp at h
  | some y =>
    rw [hr] at h
    simpa using h

theorem lift3_cyc (a b c : point K) : lift3 b c a = lift3 a b c := by
  simp only [lift3, orient]; ring

/-- The weight of a side whose neighbour at `s` is the entry `xa`, joining `s`
and `l`. -/
theorem sideW_eq {e : List edge} {p : List (point K)} {x xa : edge} {s t l : Int}
    {ps pt pl : point K} {n1 n2 : Int} (hp : x.pairAt s = (n1, n2))
    (ra : rde e n1 = Except.ok xa) (ja : xa.joins s l) (hl : l ≠ s)
    (rs : rdpE p s = Except.ok ps) (rt : rdpE p t = Except.ok pt)
    (rl : rdpE p l = Except.ok pl) :
    sideW e p x s t = lift3 ps pt pl := by
  have h0 : x.pairAt s ≠ (-1, -1) := by
    rw [hp]
    intro hh
    simp only [Prod.mk.injEq] at hh
    have := rde_nonneg ra
    omega
  unfold sideW
  rw [if_neg h0, hp]
  simp only
  rw [edAt_of_rde ra, edge.far_of_joins ja hl, ptAt_of_rdpE rs, ptAt_of_rdpE rt,
    ptAt_of_rdpE rl]

end P
end Tipper

namespace Tipper

theorem edAt_out {e : List edge} {k : Int} (h : ¬ (0 ≤ k ∧ k < e.length)) :
    edAt e k = edge.new := by
  unfold edAt
  cases hr : rde e k with
  | error err => rfl
  | ok x =>
    exfalso
    obtain ⟨n, rfl, hl, -⟩ := rde_ok_iff.mp hr
    apply h
    exact ⟨Int.natCast_nonneg n, by exact_mod_cast hl⟩

theorem rde_in {e : List edge} {k : Int} (h0 : 0 ≤ k) (h1 : k < e.length) :
    ∃ n : Nat, k = n ∧ ∃ x, e[n]? = some x := by
  refine ⟨k.toNat, (Int.toNat_of_nonneg h0).symm, ?_⟩
  have : k.toNat < e.length := by omega
  exact ⟨e[k.toNat], List.getElem?_eq_getElem this⟩

section P
variable {K : Type} [LinearOrderedField K]

variable {e e' : List edge} {p : List (point K)} {tn a b c d : Nat} {F T L R : Int}
  {ea eb ec ed a' b' c' d' : edge} {pF pT pL pR : point K}

theorem Valid.sideOf (hv : Valid e p) {j : Nat} {x : edge} (hj : e[j]? = some x) {s t : Int}
    (hst : x.joins s t) : x.pairAt s = (-1, -1) ∨ Tri e p j x s t := by
  obtain ⟨v1, v2⟩ := hv j x hj
  rcases hst with ⟨rfl, rfl⟩ | ⟨rfl, rfl⟩
  · exact v1
  · exact v2

/-- Entries other than the flipped edge keep their end points, also where the
index is outside the table. -/
theorem Flipped.ends (h : FlipCtx e p tn a b c d F T L R ea eb ec ed pF pT pL pR)
    (hf : Flipped e e' tn a b c d F T L R ea eb ec ed a' b' c' d') (k : Int)
    (hk : k ≠ tn) :
    (edAt e' k).from_ = (edAt e k).from_ ∧ (edAt e' k).to_ = (edAt e k).to_ := by
  by_cases hin : 0 ≤ k ∧ k < e.length
  · obtain ⟨n, rfl, x, hx⟩ := rde_in hin.1 hin.2
    have hn : n ≠ tn := by
      intro hh
      apply hk
      rw [hh]
    obtain ⟨y', f1, f2, f3, -⟩ := hf.frame h n x hx hn
    rw [edAt_of_get hx, edAt_of_get f1]
    exact ⟨f2, f3⟩
  · have hin' : ¬ (0 ≤ k ∧ k < e'.length) := by
      rw [hf.len]
      exact hin
    rw [edAt_out hin, edAt_out hin']
    exact ⟨rfl, rfl⟩

theorem Flipped.sideW_keep (h : FlipCtx e p tn a b c d F T L R ea eb ec ed pF pT pL pR)
    (hf : Flipped e e' tn a b c d F T L R ea eb ec ed a' b' c' d')
    {x x' : edge} {s t : Int} (hp : x'.pairAt s = x.pairAt s)
    (h1 : (x.pairAt s).1 ≠ tn) : sideW e' p x' s t = sideW e p x s t := by
  unfold sideW
  rw [hp]
  have := hf.ends h (x.pairAt s).1 h1
  unfold edge.far
  rw [this.1, this.2]

/-- A walk along an edge other than `tn` that is not one of the four walks
around the triangles of `tn` does not name `tn`. -/
theorem FlipCtx.noTn (h : FlipCtx e p tn a b c d F T L R ea eb ec ed pF pT pL pR)
    (hv : Valid e p) {j : Nat} {x : edge} (hj : e[j]? = some x) {s t : Int}
    (hst : x.joins s t)
    (hnf : ¬ ((j = c ∧ s = F) ∨ (j = b ∧ s = T) ∨ (j = a ∧ t = F) ∨ (j = d ∧ t = T))) :
    (x.pairAt s).1 ≠ tn ∧ (x.pairAt s).2 ≠ tn := by
  by_contra hc
  have hn : (x.pairAt s).1 = tn ∨ (x.pairAt s).2 = tn := by
    by_contra hh
    push_neg at hh
    exact hc hh
  rcases hv.sideOf hj hst with hs | hs
  · rw [hs] at hn
    simp only at hn
    omega
  · exact hnf (h.facing hs hn)

theorem edgeW_joins (e : List edge) (p : List (point K))
    {x : edge} {u v : Int} (h : x.joins u v) :
    edgeW e p x = sideW e p x u v + sideW e p x v u := by
  unfold edgeW
  rcases h with ⟨rfl, rfl⟩ | ⟨rfl, rfl⟩
  · rfl
  · exact add_comm _ _

/-- The weight of an edge that is neither the flipped edge nor one of its four
neighbours is the same after the flip. -/
theorem Flipped.edgeW_other (h : FlipCtx e p tn a b c d F T L R ea eb ec ed pF pT pL pR)
    (hf : Flipped e e' tn a b c d F T L R ea eb ec ed a' b' c' d') (hv : Valid e p)
    {j : Nat} (hjl : j < e.length) (jt : j ≠ tn) (ja : j ≠ a) (jb : j ≠ b) (jc : j ≠ c)
    (jd : j ≠ d) :
    edgeW e' p (edAt e' (j : Int)) = edgeW e p (edAt e (j : Int)) := by
  have hj : e[j]? = some e[j] := List.getElem?_eq_getElem hjl
  have hj' : e'[j]? = some e[j] := by rw [hf.other j jt ja jb jc jd, hj]
  rw [edAt_of_get hj, edAt_of_get hj']
  have n1 := h.noTn hv hj (s := e[j].from_) (t := e[j].to_) (Or.inl ⟨rfl, rfl⟩)
    (by rintro (⟨h1, -⟩ | ⟨h1, -⟩ | ⟨h1, -⟩ | ⟨h1, -⟩)
        · exact jc h1
        · exact jb h1
        · exact ja h1
        · exact jd h1)
  have n2 := h.noTn hv hj (s := e[j].to_) (t := e[j].from_) (Or.inr ⟨rfl, rfl⟩)
    (by rintro (⟨h1, -⟩ | ⟨h1, -⟩ | ⟨h1, -⟩ | ⟨h1, -⟩)
        · exact jc h1
        · exact jb h1
        · exact ja h1
        · exact jd h1)
  unfold edgeW
  rw [hf.sideW_keep h rfl n1.1, hf.sideW_keep h rfl n2.1]

end P
end Tipper

namespace Tipper

section P
variable {K : Type} [LinearOrderedField K]

variable {e e' : List edge} {p : List (point K)} {tn a b c d : Nat} {F T L R : Int}
  {ea eb ec ed a' b' c' d' : edge} {pF pT pL pR : point K}

theorem FlipCtx.w_old (h : FlipCtx e p tn a b c d F T L R ea eb ec ed pF pT pL pR) :
    edgeW e p (edAt e (tn : Int)) = lift3 pF pT pL + lift3 pT pF pR := by
  obtain ⟨n1, n2, n3, n4, n5, n6⟩ := h.ne
  rw [edAt_of_get h.het, edgeW_joins e p (joins_self (F := F) (T := T))]
  rw [sideW_eq pairAt_t_from (rde_get h.ha) h.ja n2 h.rF h.rT h.rL,
    sideW_eq (pairAt_t_to n1) (rde_get h.hd) h.jd n5 h.rT h.rF h.rR]

theorem Flipped.w_t (h : FlipCtx e p tn a b c d F T L R ea eb ec ed pF pT pL pR)
    (hf : Flipped e e' tn a b c d F T L R ea eb ec ed a' b' c' d') :
    edgeW e' p (edAt e' (tn : Int)) = lift3 pL pR pT + lift3 pR pL pF := by
  obtain ⟨n1, n2, n3, n4, n5, n6⟩ := h.ne
  rw [edAt_of_get hf.gt, edgeW_joins e' p (joins_self (F := L) (T := R))]
  rw [sideW_eq pairAt_t_from (rde_get hf.gb)
      (edge.joins_symm (edge.joins_congr h.jb hf.fb.1 hf.fb.2)) (Ne.symm n3) h.rL h.rR h.rT,
    sideW_eq (pairAt_t_to n6) (rde_get hf.gc)
      (edge.joins_symm (edge.joins_congr h.jc hf.fc.1 hf.fc.2)) (Ne.symm n4) h.rR h.rL h.rF]

theorem Flipped.w_a (h : FlipCtx e p tn a b c d F T L R ea eb ec ed pF pT pL pR)
    (hf : Flipped e e' tn a b c d F T L R ea eb ec ed a' b' c' d') (hv : Valid e p) :
    edgeW e' p (edAt e' (a : Int)) - edgeW e p (edAt e (a : Int)) =
      lift3 pL pF pR - lift3 pL pF pT := by
  obtain ⟨n1, n2, n3, n4, n5, n6⟩ := h.ne
  have nd := h.nodup
  simp only [List.nodup_cons, List.mem_cons, List.mem_singleton, not_or, List.not_mem_nil,
    not_false_eq_true, List.nodup_nil, and_true] at nd
  obtain ⟨⟨ta, tb, tc, td⟩, ⟨ab, ac, ad⟩, ⟨bc, bd⟩, cd⟩ := nd
  rw [edAt_of_get h.ha, edAt_of_get hf.ga, edgeW_joins e p h.ja,
    edgeW_joins e' p (edge.joins_congr h.ja hf.fa.1 hf.fa.2)]
  have k := h.noTn hv h.ha h.ja
    (by rintro (⟨h1, -⟩ | ⟨h1, -⟩ | ⟨-, h1⟩ | ⟨h1, -⟩)
        · exact ac h1
        · exact ab h1
        · exact n2 h1
        · exact ad h1)
  rw [hf.sideW_keep h hf.ka k.1,
    sideW_eq h.qa (rde_get h.hb) (edge.joins_symm h.jb) (Ne.symm n3) h.rL h.rF h.rT,
    sideW_eq hf.na (rde_get hf.gt) joins_self (Ne.symm n6) h.rL h.rF h.rR]
  ring

theorem Flipped.w_b (h : FlipCtx e p tn a b c d F T L R ea eb ec ed pF pT pL pR)
    (hf : Flipped e e' tn a b c d F T L R ea eb ec ed a' b' c' d') (hv : Valid e p) :
    edgeW e' p (edAt e' (b : Int)) - edgeW e p (edAt e (b : Int)) =
      lift3 pT pL pR - lift3 pT pL pF := by
  obtain ⟨n1, n2, n3, n4, n5, n6⟩ := h.ne
  have nd := h.nodup
  simp only [List.nodup_cons, List.mem_cons, List.mem_singleton, not_or, List.not_mem_nil,
    not_false_eq_true, List.nodup_nil, and_true] at nd
  obtain ⟨⟨ta, tb, tc, td⟩, ⟨ab, ac, ad⟩, ⟨bc, bd⟩, cd⟩ := nd
  rw [edAt_of_get h.hb, edAt_of_get hf.gb, edgeW_joins e p h.jb,
    edgeW_joins e' p (edge.joins_congr h.jb hf.fb.1 hf.fb.2)]
  have k := h.noTn hv h.hb (edge.joins_symm h.jb)
    (by rintro (⟨h1, -⟩ | ⟨-, h1⟩ | ⟨h1, -⟩ | ⟨h1, -⟩)
        · exact bc h1
        · exact n3 h1
        · exact ab h1.symm
        · exact bd h1)
  rw [hf.sideW_keep h hf.kb k.1,
    sideW_eq h.qb (rde_get h.het) (edge.joins_symm joins_self) n1 h.rT h.rL h.rF,
    sideW_eq hf.nb (rde_get hf.gd) (edge.joins_congr h.jd hf.fd.1 hf.fd.2) n5 h.rT h.rL h.rR]
  ring

theorem Flipped.w_c (h : FlipCtx e p tn a b c d F T L R ea eb ec ed pF pT pL pR)
    (hf : Flipped e e' tn a b c d F T L R ea eb ec ed a' b' c' d') (hv : Valid e p) :
    edgeW e' p (edAt e' (c : Int)) - edgeW e p (edAt e (c : Int)) =
      lift3 pF pR pL - lift3 pF pR pT := by
  obtain ⟨n1, n2, n3, n4, n5, n6⟩ := h.ne
  have nd := h.nodup
  simp only [List.nodup_cons, List.mem_cons, List.mem_singleton, not_or, List.not_mem_nil,
    not_false_eq_true, List.nodup_nil, and_true] at nd
  obtain ⟨⟨ta, tb, tc, td⟩, ⟨ab, ac, ad⟩, ⟨bc, bd⟩, cd⟩ := nd
  rw [edAt_of_get h.hc, edAt_of_get hf.gc, edgeW_joins e p h.jc,
    edgeW_joins e' p (edge.joins_congr h.jc hf.fc.1 hf.fc.2)]
  have k := h.noTn hv h.hc (edge.joins_symm h.jc)
    (by rintro (⟨-, h1⟩ | ⟨h1, -⟩ | ⟨h1, -⟩ | ⟨h1, -⟩)
        · exact n4 h1
        · exact bc h1.symm
        · exact ac h1.symm
        · exact cd h1)
  rw [hf.sideW_keep h hf.kc k.1,
    sideW_eq h.qc (rde_get h.het) joins_self (Ne.symm n1) h.rF h.rR h.rT,
    sideW_eq hf.nc (rde_get hf.ga) (edge.joins_congr h.ja hf.fa.1 hf.fa.2) n2 h.rF h.rR h.rL]
  ring

theorem Flipped.w_d (h : FlipCtx e p tn a b c d F T L R ea eb ec ed pF pT pL pR)
    (hf : Flipped e e' tn a b c d F T L R ea eb ec ed a' b' c' d') (hv : Valid e p) :
    edgeW e' p (edAt e' (d : Int)) - edgeW e p (edAt e (d : Int)) =
      lift3 pR pT pL - lift3 pR pT pF := by
  obtain ⟨n1, n2, n3, n4, n5, n6⟩ := h.ne
  have nd := h.nodup
  simp only [List.nodup_cons, List.mem_cons, List.mem_singleton, not_or, List.not_mem_nil,
    not_false_eq_true, List.nodup_nil, and_true] at nd
  obtain ⟨⟨ta, tb, tc, td⟩, ⟨ab, ac, ad⟩, ⟨bc, bd⟩, cd⟩ := nd
  rw [edAt_of_get h.hd, edAt_of_get hf.gd, edgeW_joins e p (edge.joins_symm h.jd),
    edgeW_joins e' p (edge.joins_symm (edge.joins_congr h.jd hf.fd.1 hf.fd.2))]
  have k := h.noTn hv h.hd h.jd
    (by rintro (⟨h1, -⟩ | ⟨h1, -⟩ | ⟨h1, -⟩ | ⟨-, h1⟩)
        · exact cd h1.symm
        · exact bd h1.symm
        · exact ad h1.symm
        · exact n5 h1)
  rw [hf.sideW_keep h hf.kd k.1,
    sideW_eq h.qd (rde_get h.hc) (edge.joins_symm h.jc) (Ne.symm n4) h.rR h.rT h.rF,
    sideW_eq hf.nd (rde_get hf.gt) (edge.joins_symm joins_self) n6 h.rR h.rT h.rL]
  ring

end P
end Tipper

namespace Tipper

section P
variable {K : Type} [LinearOrderedField K]

variable {e e' : List edge} {p : List (point K)} {tn a b c d : Nat} {F T L R : Int}
  {ea eb ec ed a' b' c' d' : edge} {pF pT pL pR : point K}

theorem lift3_sum (pf pt pl pr : point K) :
    (lift3 pl pr pt + lift3 pr pl pf - (lift3 pf pt pl + lift3 pt pf pr)) +
      (lift3 pl pf pr - lift3 pl pf pt) + (lift3 pt pl pr - lift3 pt pl pf) +
      (lift3 pf pr pl - lift3 pf pr pt) + (lift3 pr pt pl - lift3 pr pt pf) =
      3 * inCircle pf pt pl pr := by
  simp only [lift3, inCircle, point.sub, point.dot, orient]
  ring

/-- A flip changes the potential by three times the in-circle polynomial. -/
theorem Flipped.phi_eq (h : FlipCtx e p tn a b c d F T L R ea eb ec ed pF pT pL pR)
    (hf : Flipped e e' tn a b c d F T L R ea eb ec ed a' b' c' d') (hv : Valid e p) :
    phi e' p = phi e p + 3 * inCircle pF pT pL pR := by
  have nd := h.nodup
  simp only [List.nodup_cons, List.mem_cons, List.mem_singleton, not_or, List.not_mem_nil,
    not_false_eq_true, List.nodup_nil, and_true] at nd
  obtain ⟨⟨ta, tb, tc, td⟩, ⟨ab, ac, ad⟩, ⟨bc, bd⟩, cd⟩ := nd
  have lt := (List.getElem?_eq_some_iff.mp h.het).1
  have la := (List.getElem?_eq_some_iff.mp h.ha).1
  have lb := (List.getElem?_eq_some_iff.mp h.hb).1
  have lc := (List.getElem?_eq_some_iff.mp h.hc).1
  have ld := (List.getElem?_eq_some_iff.mp h.hd).1
  have hsub : ({tn, a, b, c, d} : Finset Nat) ⊆ Finset.range e.length := by
    intro j hj
    simp only [Finset.mem_insert, Finset.mem_singleton] at hj
    rw [Finset.mem_range]
    rcases hj with rfl | rfl | rfl | rfl | rfl <;> assumption
  have key : Finset.sum (Finset.range e.length)
      (fun j => edgeW e' p (edAt e' (j : Int)) - edgeW e p (edAt e (j : Int))) =
      3 * inCircle pF pT pL pR := by
    rw [← Finset.sum_subset hsub]
    · rw [Finset.sum_insert (by simp [ta, tb, tc, td]), Finset.sum_insert (by simp [ab, ac, ad]),
        Finset.sum_insert (by simp [bc, bd]), Finset.sum_insert (by simp [cd]),
        Finset.sum_singleton, hf.w_t h, h.w_old, hf.w_a h hv, hf.w_b h hv, hf.w_c h hv,
        hf.w_d h hv, ← lift3_sum pF pT pL pR]
      ring
    · intro j hj hn
      simp only [Finset.mem_insert, Finset.mem_singleton, not_or] at hn
      rw [hf.edgeW_other h hv (Finset.mem_range.mp hj) hn.1 hn.2.1 hn.2.2.1 hn.2.2.2.1
        hn.2.2.2.2, sub_self]
  unfold phi
  rw [hf.len, ← key, Finset.sum_sub_distrib]
  ring

end P
end Tipper

namespace Tipper

theorem finite_within (N : Int) : {x : edge | x.within N}.Finite := by
  have hI : (Set.Icc (-N) N).Finite := Set.finite_Icc _ _
  have h6 := (hI.prod (hI.prod (hI.prod (hI.prod (hI.prod hI))))).image
    (fun q : Int × Int × Int × Int × Int × Int =>
      (⟨q.1, q.2.1, q.2.2.1, q.2.2.2.1, q.2.2.2.2.1, q.2.2.2.2.2⟩ : edge))
  refine h6.subset ?_
  intro x hx
  obtain ⟨h1, h2, h3, h4, h5, h6⟩ := hx
  refine ⟨(x.from_, x.to_, x.lef, x.let_, x.ref, x.ret), ?_, rfl⟩
  simp only [Set.mem_prod, Set.mem_Icc]
  exact ⟨h1, h2, h3, h4, h5, h6⟩

/-- There are finitely many tables of a given length with bounded members. -/
theorem finite_tables (m : Nat) (N : Int) :
    {e : List edge | e.length = m ∧ Bounded e N}.Finite := by
  haveI : Finite {x : edge // x.within N} := (finite_within N).to_subtype
  have hl := (List.finite_length_eq {x : edge // x.within N} m).image (List.map Subtype.val)
  refine hl.subset ?_
  rintro e ⟨h1, h2⟩
  refine ⟨e.pmap Subtype.mk h2, ?_, ?_⟩
  · simp [h1]
  · rw [List.map_pmap]
    simp

theorem abs_bound (f S : Int) (h : (f.natAbs : Int) ≤ S) : -S ≤ f ∧ f ≤ S := by
  omega

theorem edge.within_mono {x : edge} {N N' : Int} (h : x.within N) (hN : N ≤ N') :
    x.within N' := by
  obtain ⟨⟨a1, a2⟩, ⟨b1, b2⟩, ⟨c1, c2⟩, ⟨d1, d2⟩, ⟨e1, e2⟩, ⟨f1, f2⟩⟩ := h
  exact ⟨⟨by linarith, by linarith⟩, ⟨by linarith, by linarith⟩, ⟨by linarith, by linarith⟩,
    ⟨by linarith, by linarith⟩, ⟨by linarith, by linarith⟩, ⟨by linarith, by linarith⟩⟩

/-- Every table is bounded by some `N`, which can be taken above any given
number. -/
theorem exists_bound (e : List edge) (M : Nat) : ∃ N : Nat, M ≤ N ∧ Bounded e N := by
  induction e with
  | nil => exact ⟨M, le_refl _, fun x hx => by simp at hx⟩
  | cons y l ih =>
    obtain ⟨N, h1, h2⟩ := ih
    refine ⟨N + (y.from_.natAbs + y.to_.natAbs + y.lef.natAbs + y.let_.natAbs + y.ref.natAbs +
      y.ret.natAbs), by omega, ?_⟩
    intro x hx
    rcases List.mem_cons.mp hx with rfl | hx
    · have hN : (0 : Int) ≤ N := Int.natCast_nonneg N
      have g1 : (0 : Int) ≤ x.from_.natAbs := Int.natCast_nonneg _
      have g2 : (0 : Int) ≤ x.to_.natAbs := Int.natCast_nonneg _
      have g3 : (0 : Int) ≤ x.lef.natAbs := Int.natCast_nonneg _
      have g4 : (0 : Int) ≤ x.let_.natAbs := Int.natCast_nonneg _
      have g5 : (0 : Int) ≤ x.ref.natAbs := Int.natCast_nonneg _
      have g6 : (0 : Int) ≤ x.ret.natAbs := Int.natCast_nonneg _
      unfold edge.within
      simp only [Nat.cast_add]
      exact ⟨abs_bound _ _ (by linarith), abs_bound _ _ (by linarith),
        abs_bound _ _ (by linarith), abs_bound _ _ (by linarith), abs_bound _ _ (by linarith),
        abs_bound _ _ (by linarith)⟩
    · have hs : (0 : Int) ≤ ((y.from_.natAbs + y.to_.natAbs + y.lef.natAbs + y.let_.natAbs +
          y.ref.natAbs + y.ret.natAbs : Nat) : Int) := Int.natCast_nonneg _
      refine edge.within_mono (h2 x hx) ?_
      rw [Nat.cast_add]
      linarith

end Tipper

namespace Tipper

theorem afterFlip_mono {rec rec' : Int → List edge → Except Fault (List edge × Int)}
    (hm : ∀ n e r, rec n e = Except.ok r → rec' n e = Except.ok r) {tint : Int}
    {e : List edge} {r : List edge × Int} (h : afterFlip rec tint e = Except.ok r) :
    afterFlip rec' tint e = Except.ok r := by
  simp only [afterFlip, bind_ok_iff, pure_ok_iff] at h ⊢
  obtain ⟨t1, h1, r1, g1, t2, h2, r2, g2, t3, h3, r3, g3, t4, h4, r4, g4, hr⟩ := h
  exact ⟨t1, h1, r1, hm _ _ _ g1, t2, h2, r2, hm _ _ _ g2, t3, h3, r3, hm _ _ _ g3, t4, h4, r4,
    hm _ _ _ g4, hr⟩

section S
variable {K : Type} [LinearOrderedField K] (sqrt : K → K)

/-- A call of `swap` that returns within some recursion depth returns the same
with any larger depth. -/
theorem swap_mono (p : List (point K)) : ∀ (depth : Nat) (tint : Int) (e : List edge)
    (r : List edge × Int), edge.swap sqrt depth tint e p = Except.ok r →
    edge.swap sqrt (depth + 1) tint e p = Except.ok r := by
  intro depth
  induction depth with
  | zero =>
    intro tint e r h
    simp [edge.swap] at h
  | succ n ih =>
    intro tint e r h
    unfold edge.swap at h ⊢
    simp only [bind_ok_iff] at h ⊢
    obtain ⟨t, ht, h⟩ := h
    refine ⟨t, ht, ?_⟩
    split at h
    · rename_i hb
      rw [if_pos hb]
      exact h
    · rename_i hb
      rw [if_neg hb]
      simp only [bind_ok_iff] at h ⊢
      obtain ⟨el, hl, er, hr, pl, hpl, pf, hpf, pt, hpt, pr, hpr, h⟩ := h
      refine ⟨el, hl, er, hr, pl, hpl, pf, hpf, pt, hpt, pr, hpr, ?_⟩
      split at h
      · rename_i c1
        rw [if_pos c1]
        split at h
        · rename_i c2
          rw [if_pos c2]
          simp only [bind_ok_iff] at h ⊢
          obtain ⟨e1, he1, h⟩ := h
          exact ⟨e1, he1, afterFlip_mono (fun n e r hh => ih n e r hh) h⟩
        · rename_i c2
          rw [if_neg c2]
          exact h
      · rename_i c1
        rw [if_neg c1]
        exact h

theorem swap_mono_le (p : List (point K)) {d d' : Nat} (hd : d ≤ d') {tint : Int}
    {e : List edge} {r : List edge × Int} (h : edge.swap sqrt d tint e p = Except.ok r) :
    edge.swap sqrt d' tint e p = Except.ok r := by
  induction d' with
  | zero =>
    have : d = 0 := by omega
    subst this
    exact h
  | succ n ih =>
    by_cases hdn : d = n + 1
    · subst hdn
      exact h
    · exact swap_mono sqrt p n tint e r (ih (by omega))

end S
end Tipper

namespace Tipper

theorem KeepFull.refl (e : List edge) : KeepFull e e := by
  intro j x x' h1 h2 hf
  rw [h1] at h2
  injection h2 with h2
  rw [← h2]
  exact hf

theorem KeepFull.trans {e1 e2 e3 : List edge} (h12 : KeepFull e1 e2) (h23 : KeepFull e2 e3)
    (hl : e2.length = e1.length) : KeepFull e1 e3 := by
  intro j x x' h1 h3 hf
  have hj : j < e2.length := by
    rw [hl]
    exact (List.getElem?_eq_some_iff.mp h1).1
  exact h23 j _ x' (List.getElem?_eq_getElem hj) h3 (h12 j x _ h1 (List.getElem?_eq_getElem hj) hf)

theorem rdpE_lt {K : Type} {p : List (point K)} {i : Int} {x : point K}
    (h : rdpE p i = Except.ok x) : 0 ≤ i ∧ i < p.length := by
  have h0 := rdpE_nonneg h
  refine ⟨h0, ?_⟩
  unfold rdpE rdp at h
  rw [if_pos h0] at h
  cases hx : p[i.toNat]? with
  | none => rw [hx] at h; simp at h
  | some y =>
    have := (List.getElem?_eq_some_iff.mp hx).1
    omega

theorem mem_of_get {e : List edge} {n : Nat} {x : edge} (h : e[n]? = some x) : x ∈ e :=
  List.mem_iff_getElem?.mpr ⟨n, h⟩

section S
variable {K : Type} [LinearOrderedField K]

variable {e e' : List edge} {p : List (point K)} {tn a b c d : Nat} {F T L R : Int}
  {ea eb ec ed a' b' c' d' : edge} {pF pT pL pR : point K}

theorem Flipped.cases (hf : Flipped e e' tn a b c d F T L R ea eb ec ed a' b' c' d')
    {j : Nat} {x' : edge} (hj : e'[j]? = some x') :
    (j = tn ∧ x' = ⟨L, R, b, d, a, c⟩) ∨ (j = a ∧ x' = a') ∨ (j = b ∧ x' = b') ∨
      (j = c ∧ x' = c') ∨ (j = d ∧ x' = d') ∨
      (j ≠ tn ∧ j ≠ a ∧ j ≠ b ∧ j ≠ c ∧ j ≠ d ∧ e[j]? = some x') := by
  by_cases h1 : j = tn
  · subst h1; exact Or.inl ⟨rfl, get_inj hj hf.gt⟩
  by_cases h2 : j = a
  · subst h2; exact Or.inr (Or.inl ⟨rfl, get_inj hj hf.ga⟩)
  by_cases h3 : j = b
  · subst h3; exact Or.inr (Or.inr (Or.inl ⟨rfl, get_inj hj hf.gb⟩))
  by_cases h4 : j = c
  · subst h4; exact Or.inr (Or.inr (Or.inr (Or.inl ⟨rfl, get_inj hj hf.gc⟩)))
  by_cases h5 : j = d
  · subst h5; exact Or.inr (Or.inr (Or.inr (Or.inr (Or.inl ⟨rfl, get_inj hj hf.gd⟩))))
  · refine Or.inr (Or.inr (Or.inr (Or.inr (Or.inr ⟨h1, h2, h3, h4, h5, ?_⟩))))
    rw [← hf.other j h1 h2 h3 h4 h5]
    exact hj

theorem Flipped.keepFull (h : FlipCtx e p tn a b c d F T L R ea eb ec ed pF pT pL pR)
    (hf : Flipped e e' tn a b c d F T L R ea eb ec ed a' b' c' d') : KeepFull e e' := by
  intro j x x' hx hx' hfull
  have ca : ((a : Int) ≠ -1) := by omega
  have cb : ((b : Int) ≠ -1) := by omega
  have cc : ((c : Int) ≠ -1) := by omega
  have cd : ((d : Int) ≠ -1) := by omega
  have ct : ((tn : Int) ≠ -1) := by omega
  unfold edge.full at hfull ⊢
  rcases hf.cases hx' with ⟨rfl, rfl⟩ | ⟨rfl, rfl⟩ | ⟨rfl, rfl⟩ | ⟨rfl, rfl⟩ | ⟨rfl, rfl⟩ |
    ⟨-, -, -, -, -, h6⟩
  · exact ⟨cb, cd, ca, cc⟩
  · have := get_inj hx h.ha
    subst this
    rw [hf.xa]
    split
    · exact ⟨hfull.1, hfull.2.1, cc, ct⟩
    · exact ⟨ct, cc, hfull.2.2.1, hfull.2.2.2⟩
  · have := get_inj hx h.hb
    subst this
    rw [hf.xb]
    split
    · exact ⟨hfull.1, hfull.2.1, ct, cd⟩
    · exact ⟨cd, ct, hfull.2.2.1, hfull.2.2.2⟩
  · have := get_inj hx h.hc
    subst this
    rw [hf.xc]
    split
    · exact ⟨ca, ct, hfull.2.2.1, hfull.2.2.2⟩
    · exact ⟨hfull.1, hfull.2.1, ct, ca⟩
  · have := get_inj hx h.hd
    subst this
    rw [hf.xd]
    split
    · exact ⟨ct, cb, hfull.2.2.1, hfull.2.2.2⟩
    · exact ⟨hfull.1, hfull.2.1, cb, ct⟩
  · have := get_inj hx h6
    subst this
    exact hfull

theorem Flipped.bounded (h : FlipCtx e p tn a b c d F T L R ea eb ec ed pF pT pL pR)
    (hf : Flipped e e' tn a b c d F T L R ea eb ec ed a' b' c' d') {N : Int}
    (hb : Bounded e N) (hm : (e.length : Int) ≤ N) (hp : (p.length : Int) ≤ N) :
    Bounded e' N := by
  have lt := (List.getElem?_eq_some_iff.mp h.het).1
  have la := (List.getElem?_eq_some_iff.mp h.ha).1
  have lb := (List.getElem?_eq_some_iff.mp h.hb).1
  have lc := (List.getElem?_eq_some_iff.mp h.hc).1
  have ld := (List.getElem?_eq_some_iff.mp h.hd).1
  have bt : -N ≤ (tn : Int) ∧ (tn : Int) ≤ N := by omega
  have ba : -N ≤ (a : Int) ∧ (a : Int) ≤ N := by omega
  have bb : -N ≤ (b : Int) ∧ (b : Int) ≤ N := by omega
  have bc : -N ≤ (c : Int) ∧ (c : Int) ≤ N := by omega
  have bd : -N ≤ (d : Int) ∧ (d : Int) ≤ N := by omega
  have bL : -N ≤ L ∧ L ≤ N := by
    have := rdpE_lt h.rL
    omega
  have bR : -N ≤ R ∧ R ≤ N := by
    have := rdpE_lt h.rR
    omega
  have wa := hb ea (mem_of_get h.ha)
  have wb := hb eb (mem_of_get h.hb)
  have wc := hb ec (mem_of_get h.hc)
  have wd := hb ed (mem_of_get h.hd)
  intro x' hx'
  obtain ⟨j, hj⟩ := List.mem_iff_getElem?.mp hx'
  rcases hf.cases hj with ⟨rfl, rfl⟩ | ⟨rfl, rfl⟩ | ⟨rfl, rfl⟩ | ⟨rfl, rfl⟩ | ⟨rfl, rfl⟩ |
    ⟨-, -, -, -, -, h6⟩
  · exact ⟨bL, bR, bb, bd, ba, bc⟩
  · rw [hf.xa]
    split
    · exact ⟨wa.1, wa.2.1, wa.2.2.1, wa.2.2.2.1, bc, bt⟩
    · exact ⟨wa.1, wa.2.1, bt, bc, wa.2.2.2.2.1, wa.2.2.2.2.2⟩
  · rw [hf.xb]
    split
    · exact ⟨wb.1, wb.2.1, wb.2.2.1, wb.2.2.2.1, bt, bd⟩
    · exact ⟨wb.1, wb.2.1, bd, bt, wb.2.2.2.2.1, wb.2.2.2.2.2⟩
  · rw [hf.xc]
    split
    · exact ⟨wc.1, wc.2.1, ba, bt, wc.2.2.2.2.1, wc.2.2.2.2.2⟩
    · exact ⟨wc.1, wc.2.1, wc.2.2.1, wc.2.2.2.1, bt, ba⟩
  · rw [hf.xd]
    split
    · exact ⟨wd.1, wd.2.1, bt, bb, wd.2.2.2.2.1, wd.2.2.2.2.2⟩
    · exact ⟨wd.1, wd.2.1, wd.2.2.1, wd.2.2.2.1, bb, bt⟩
  · exact hb x' (mem_of_get h6)

end S
end Tipper

namespace Tipper

section S
variable {K : Type} [LinearOrderedField K]

theorem worse_finite (p : List (point K)) (m : Nat) (N : Int) (x : K) :
    {e' : List edge | e'.length = m ∧ Bounded e' N ∧ phi e' p < x}.Finite :=
  (finite_tables m N).subset fun _ h => ⟨h.1, h.2.1⟩

theorem worse_mono (p : List (point K)) (m : Nat) (N : Int) {x y : K} (h : x ≤ y) :
    Set.ncard {e' : List edge | e'.length = m ∧ Bounded e' N ∧ phi e' p < x} ≤
      Set.ncard {e' : List edge | e'.length = m ∧ Bounded e' N ∧ phi e' p < y} :=
  Set.ncard_le_ncard (fun _ h' => ⟨h'.1, h'.2.1, lt_of_lt_of_le h'.2.2 h⟩)
    (worse_finite p m N y)

theorem worse_lt (p : List (point K)) (m : Nat) (N : Int) {e1 : List edge} {y : K}
    (hl : e1.length = m) (hb : Bounded e1 N) (h : phi e1 p < y) :
    Set.ncard {e' : List edge | e'.length = m ∧ Bounded e' N ∧ phi e' p < phi e1 p} <
      Set.ncard {e' : List edge | e'.length = m ∧ Bounded e' N ∧ phi e' p < y} := by
  apply Set.ncard_lt_ncard _ (worse_finite p m N y)
  constructor
  · exact fun _ h' => ⟨h'.1, h'.2.1, lt_trans h'.2.2 h⟩
  · intro hsub
    have := hsub (show e1 ∈ {e' : List edge | e'.length = m ∧ Bounded e' N ∧ phi e' p < y}
      from ⟨hl, hb, h⟩)
    exact lt_irrefl _ this.2.2

variable (sqrt : K → K)

/-- The call returns 0 at once on an edge that lacks a neighbour. -/
theorem swap_not_full (depth : Nat) {tint : Int} {e : List edge} (p : List (point K))
    {t : edge} (ht : rde e tint = Except.ok t) (hb : ¬ t.full) :
    edge.swap sqrt (depth + 1) tint e p = Except.ok (e, 0) := by
  have hb' : t.ref = -1 ∨ t.lef = -1 ∨ t.let_ = -1 ∨ t.ret = -1 := by
    unfold edge.full at hb
    by_contra hh
    push_neg at hh
    exact hb ⟨hh.2.1, hh.2.2.1, hh.1, hh.2.2.2⟩
  simp only [edge.swap, ht, bind, Except.bind, if_pos hb']
  rfl

variable {sqrt}

/-- In a valid table the four neighbours of an edge that has them all are
entries of the table. -/
theorem Valid.nbrs {e : List edge} {p : List (point K)} (hv : Valid e p) {tn : Nat}
    {t : edge} (ht : e[tn]? = some t) (hf : t.full) :
    (∃ x, rde e t.lef = Except.ok x) ∧ (∃ x, rde e t.let_ = Except.ok x) ∧
    (∃ x, rde e t.ref = Except.ok x) ∧ (∃ x, rde e t.ret = Except.ok x) := by
  obtain ⟨a, b, c, d, L, R, ea, eb, ec, ed, pF, pT, pL, pR, et, h⟩ := hv.ctx ht hf
  rw [et]
  exact ⟨⟨ea, rde_get h.ha⟩, ⟨eb, rde_get h.hb⟩, ⟨ec, rde_get h.hc⟩, ⟨ed, rde_get h.hd⟩⟩

end S
end Tipper

namespace Tipper

section S
variable {K : Type} [LinearOrderedField K] (sqrt : K → K)

/-- One call of `swap` on an edge with its four neighbours, given that every
call on a valid table of smaller potential returns. -/
theorem swap_flip_case (hsq : ∀ x, 0 ≤ x → 0 ≤ sqrt x ∧ sqrt x * sqrt x = x)
    (p : List (point K)) (m : Nat) (N : Int) (hm : (m : Int) ≤ N)
    (hp : (p.length : Int) ≤ N) (e : List edge) (hl : e.length = m) (hb : Bounded e N)
    (hv : Valid e p) (tn : Nat) (t : edge) (ht : e[tn]? = some t) (hfull : t.full)
    (H : ∀ e2 : List edge, e2.length = m → Bounded e2 N → Valid e2 p →
      phi e2 p < phi e p → ∀ (tint : Int) (t2 : edge), rde e2 tint = Except.ok t2 →
      ∃ (depth : Nat) (r : List edge × Int), edge.swap sqrt depth tint e2 p = Except.ok r ∧
        r.1.length = m ∧ Bounded r.1 N ∧ Valid r.1 p ∧ phi r.1 p ≤ phi e2 p ∧
        KeepFull e2 r.1) :
    ∃ (depth : Nat) (r : List edge × Int), edge.swap sqrt depth tn e p = Except.ok r ∧
      r.1.length = m ∧ Bounded r.1 N ∧ Valid r.1 p ∧ phi r.1 p ≤ phi e p ∧
      KeepFull e r.1 := by
  obtain ⟨a, b, c, d, L, R, ea, eb, ec, ed, pF, pT, pL, pR, et, h⟩ := hv.ctx ht hfull
  obtain ⟨n1, n2, n3, n4, n5, n6⟩ := h.ne
  have eL : (if ea.from_ = t.from_ then ea.to_ else ea.from_) = L := edge.far_of_joins h.ja n2
  have eR : (if ec.from_ = t.from_ then ec.to_ else ec.from_) = R := edge.far_of_joins h.jc n4
  have hla : rde e t.lef = Except.ok ea := by rw [et]; exact rde_get h.ha
  have hrc : rde e t.ref = Except.ok ec := by rw [et]; exact rde_get h.hc
  have su := fun depth => swap_unfold sqrt depth tn e p t ea ec pL pF pT pR (rde_get ht)
    hfull hla hrc (by rw [eL]; exact h.rL) h.rF h.rT (by rw [eR]; exact h.rR)
  by_cases hft : flipTest sqrt pL pF pT pR
  swap
  · exact ⟨1, (e, 0), by rw [su 0, if_neg hft], hl, hb, hv, le_refl _, KeepFull.refl e⟩
  have oR' : orient pF pT pR < 0 := by
    have := h.oR
    rw [orient_swap] at this
    linarith
  have hI := inCircle_of_flipTest sqrt hsq pL pF pT pR h.oL oR' hft
  obtain ⟨g1, g2'⟩ := convex_of_inCircle pF pT pL pR h.oL oR' hI
  have g2 : 0 < orient pR pL pF := by
    rw [orient_swap]
    linarith
  obtain ⟨e1, a', b', c', d', hflip, hf⟩ := h.flipped
  have v1 := hf.valid h hv g1 g2
  have l1 : e1.length = m := hf.len.trans hl
  have b1 := hf.bounded h hb (by rw [hl]; exact hm) hp
  have k1 := hf.keepFull h
  have hphi : phi e1 p < phi e p := by
    rw [hf.phi_eq h hv]
    linarith
  have full1 : (⟨L, R, b, d, a, c⟩ : edge).full :=
    ⟨by simp, by simp, by simp, by simp⟩
  have ltn : tn < m := by
    rw [← hl]
    exact (List.getElem?_eq_some_iff.mp ht).1
  -- e[lef].swap(lef,e,p);
  obtain ⟨⟨x1, hx1⟩, -, -, -⟩ := v1.nbrs hf.gt full1
  obtain ⟨d1, r1, s1, rl1, rb1, rv1, rp1, rk1⟩ := H e1 l1 b1 v1 hphi _ x1 hx1
  -- e[let].swap(let,e,p);
  have ht2 : r1.1[tn]? = some r1.1[tn] := List.getElem?_eq_getElem (by rw [rl1]; exact ltn)
  have full2 := rk1 tn _ _ hf.gt ht2 full1
  obtain ⟨-, ⟨x2, hx2⟩, -, -⟩ := rv1.nbrs ht2 full2
  obtain ⟨d2, r2, s2, rl2, rb2, rv2, rp2, rk2⟩ :=
    H r1.1 rl1 rb1 rv1 (lt_of_le_of_lt rp1 hphi) _ x2 hx2
  -- e[ref].swap(ref,e,p);
  have ht3 : r2.1[tn]? = some r2.1[tn] := List.getElem?_eq_getElem (by rw [rl2]; exact ltn)
  have full3 := rk2 tn _ _ ht2 ht3 full2
  obtain ⟨-, -, ⟨x3, hx3⟩, -⟩ := rv2.nbrs ht3 full3
  obtain ⟨d3, r3, s3, rl3, rb3, rv3, rp3, rk3⟩ :=
    H r2.1 rl2 rb2 rv2 (lt_of_le_of_lt (rp2.trans rp1) hphi) _ x3 hx3
  -- e[ret].swap(ret,e,p);
  have ht4 : r3.1[tn]? = some r3.1[tn] := List.getElem?_eq_getElem (by rw [rl3]; exact ltn)
  have full4 := rk3 tn _ _ ht3 ht4 full3
  obtain ⟨-, -, -, ⟨x4, hx4⟩⟩ := rv3.nbrs ht4 full4
  obtain ⟨d4, r4, s4, rl4, rb4, rv4, rp4, rk4⟩ :=
    H r3.1 rl3 rb3 rv3 (lt_of_le_of_lt ((rp3.trans rp2).trans rp1) hphi) _ x4 hx4
  refine ⟨max (max d1 d2) (max d3 d4) + 1, (r4.1, 1), ?_, rl4, rb4, rv4,
    (((rp4.trans rp3).trans rp2).trans rp1).trans hphi.le, ?_⟩
  · rw [su, if_pos hft, eL, eR, hflip]
    show afterFlip (fun n e => edge.swap sqrt (max (max d1 d2) (max d3 d4)) n e p) tn e1 = _
    simp only [afterFlip, bind_ok_iff, pure_ok_iff]
    exact ⟨_, rde_get hf.gt, r1,
      swap_mono_le sqrt p (le_trans (le_max_left d1 d2) (le_max_left _ _)) s1,
      _, rde_get ht2, r2,
      swap_mono_le sqrt p (le_trans (le_max_right d1 d2) (le_max_left _ _)) s2,
      _, rde_get ht3, r3,
      swap_mono_le sqrt p (le_trans (le_max_left d3 d4) (le_max_right _ _)) s3,
      _, rde_get ht4, r4,
      swap_mono_le sqrt p (le_trans (le_max_right d3 d4) (le_max_right _ _)) s4, rfl⟩
  · exact (((k1.trans rk1 (hf.len)).trans rk2 (rl1.trans hl.symm)).trans rk3
      (rl2.trans hl.symm)).trans rk4 (rl3.trans hl.symm)

end S
end Tipper

namespace Tipper

section S
variable {K : Type} [LinearOrderedField K] (sqrt : K → K)

/-- Strong induction on the number of bounded tables of smaller potential. -/
theorem swap_returns_aux (hsq : ∀ x, 0 ≤ x → 0 ≤ sqrt x ∧ sqrt x * sqrt x = x)
    (p : List (point K)) (m : Nat) (N : Int) (hm : (m : Int) ≤ N)
    (hp : (p.length : Int) ≤ N) (n : Nat) :
    ∀ e : List edge, e.length = m → Bounded e N → Valid e p →
      Set.ncard {e' : List edge | e'.length = m ∧ Bounded e' N ∧ phi e' p < phi e p} = n →
      ∀ (tint : Int) (t : edge), rde e tint = Except.ok t →
      ∃ (depth : Nat) (r : List edge × Int), edge.swap sqrt depth tint e p = Except.ok r ∧
        r.1.length = m ∧ Bounded r.1 N ∧ Valid r.1 p ∧ phi r.1 p ≤ phi e p ∧
        KeepFull e r.1 := by
  induction n using Nat.strong_induction_on with
  | _ n ih =>
    intro e hl hb hv hn tint t ht
    by_cases hfull : t.full
    · obtain ⟨tn, rfl, htn⟩ := rde_cast ht
      refine swap_flip_case sqrt hsq p m N hm hp e hl hb hv tn t htn hfull ?_
      intro e2 l2 b2 v2 hlt tint2 t2 ht2
      exact ih _ (by rw [← hn]; exact worse_lt p m N l2 b2 hlt) e2 l2 b2 v2 rfl tint2 t2 ht2
    · exact ⟨1, (e, 0), swap_not_full sqrt 0 p ht hfull, hl, hb, hv, le_refl _,
        KeepFull.refl e⟩

/-- C14 (as amended): `edge::swap` terminates over exact arithmetic.  In an
ordered field with an exact square root, on every edge
table that encodes a consistent triangulation of the points (`Valid`: each
resolved side of each edge is a positively oriented, hence non-degenerate,
triangle whose other two edges name it back) and for every edge `tint` of the
table, some recursion depth suffices for `swap(tint, e, p)` to return; the
table it returns has the same number of entries and is again a consistent
triangulation. -/
theorem swap_terminates (hsq : ∀ x, 0 ≤ x → 0 ≤ sqrt x ∧ sqrt x * sqrt x = x)
    (e : List edge) (p : List (point K)) (hv : Valid e p) (tint : Int) (t : edge)
    (ht : rde e tint = Except.ok t) :
    ∃ (depth : Nat) (r : List edge × Int), edge.swap sqrt depth tint e p = Except.ok r ∧
      r.1.length = e.length ∧ Valid r.1 p := by
  obtain ⟨N, hN, hb⟩ := exists_bound e (max e.length p.length)
  have hm : ((e.length : Nat) : Int) ≤ (N : Int) :=
    Int.ofNat_le.mpr (le_trans (le_max_left _ _) hN)
  have hp : ((p.length : Nat) : Int) ≤ (N : Int) :=
    Int.ofNat_le.mpr (le_trans (le_max_right _ _) hN)
  obtain ⟨depth, r, hs, hl, -, hv', -, -⟩ :=
    swap_returns_aux sqrt hsq p e.length N hm hp _ e rfl hb hv rfl tint t ht
  exact ⟨depth, r, hs, hl, hv'⟩

end S

theorem valid_quad5 :
    Valid quad5 ([⟨-1, 0⟩, ⟨1, 0⟩, ⟨0, 1 / 2⟩, ⟨0, -1 / 2⟩] : List (point ℝ)) := by
  intro i x hx
  have hi : i < 5 := (List.getElem?_eq_some_iff.mp hx).1
  interval_cases i <;> simp [quad5] at hx <;> subst hx
  · exact ⟨Or.inr ⟨2, ⟨2, 0, 2, 0, -1, -1⟩, ⟨1, 2, 0, 1, -1, -1⟩, ⟨-1, 0⟩, ⟨1, 0⟩, ⟨0, 1 / 2⟩,
      rfl, rfl, by simp [edge.joins], by simp [edge.joins], rfl, rfl, rfl, rfl, rfl,
      by norm_num [orient]⟩,
      Or.inr ⟨3, ⟨3, 1, 3, 0, -1, -1⟩, ⟨0, 3, 0, 4, -1, -1⟩, ⟨1, 0⟩, ⟨-1, 0⟩, ⟨0, -1 / 2⟩,
      rfl, rfl, by simp [edge.joins], by simp [edge.joins], rfl, rfl, rfl, rfl, rfl,
      by norm_num [orient]⟩⟩
  · exact ⟨Or.inr ⟨1, ⟨1, 2, 0, 1, -1, -1⟩, ⟨0, 1, 1, 2, 3, 4⟩, ⟨0, 1 / 2⟩, ⟨-1, 0⟩, ⟨1, 0⟩,
      rfl, rfl, by simp [edge.joins], by simp [edge.joins], rfl, rfl, rfl, rfl, rfl,
      by norm_num [orient]⟩, Or.inl rfl⟩
  · exact ⟨Or.inr ⟨0, ⟨0, 1, 1, 2, 3, 4⟩, ⟨2, 0, 2, 0, -1, -1⟩, ⟨1, 0⟩, ⟨0, 1 / 2⟩, ⟨-1, 0⟩,
      rfl, rfl, by simp [edge.joins], by simp [edge.joins], rfl, rfl, rfl, rfl, rfl,
      by norm_num [orient]⟩, Or.inl rfl⟩
  · exact ⟨Or.inr ⟨1, ⟨0, 1, 1, 2, 3, 4⟩, ⟨3, 1, 3, 0, -1, -1⟩, ⟨-1, 0⟩, ⟨0, -1 / 2⟩, ⟨1, 0⟩,
      rfl, rfl, by simp [edge.joins], by simp [edge.joins], rfl, rfl, rfl, rfl, rfl,
      by norm_num [orient]⟩, Or.inl rfl⟩
  · exact ⟨Or.inr ⟨0, ⟨0, 3, 0, 4, -1, -1⟩, ⟨0, 1, 1, 2, 3, 4⟩, ⟨0, -1 / 2⟩, ⟨1, 0⟩, ⟨-1, 0⟩,
      rfl, rfl, by simp [edge.joins], by simp [edge.joins], rfl, rfl, rfl, rfl, rfl,
      by norm_num [orient]⟩, Or.inl rfl⟩

theorem swap_terminates_witness :
    Valid quad5 ([⟨-1, 0⟩, ⟨1, 0⟩, ⟨0, 1 / 2⟩, ⟨0, -1 / 2⟩] : List (point ℝ)) ∧
      ∃ (depth : Nat) (r : List edge × Int),
        edge.swap Real.sqrt depth 0 quad5
          ([⟨-1, 0⟩, ⟨1, 0⟩, ⟨0, 1 / 2⟩, ⟨0, -1 / 2⟩] : List (point ℝ)) = Except.ok r ∧
        r.1.length = quad5.length ∧
        Valid r.1 ([⟨-1, 0⟩, ⟨1, 0⟩, ⟨0, 1 / 2⟩, ⟨0, -1 / 2⟩] : List (point ℝ)) :=
  ⟨valid_quad5, swap_terminates Real.sqrt
    (fun x hx => ⟨Real.sqrt_nonneg x, Real.mul_self_sqrt hx⟩) quad5 _ valid_quad5 0
    ⟨0, 1, 1, 2, 3, 4⟩ (by decide)⟩

end Tipper

/-! ## The three-point input -/

namespace Tipper

section three
variable {K : Type} [LinearOrderedField K]

/-- The state of `triangulate` after the seed, with the whole edge table. -/
theorem seed_table (junk : Nat → item) (npoints : Int) (p : List (point K))
    (p0 p1 p2 : point K) (hn : 3 ≤ npoints)
    (h0 : rdpE p 0 = Except.ok p0) (h1 : rdpE p 1 = Except.ok p1)
    (h2 : rdpE p 2 = Except.ok p2) :
    ∃ hull : cyclist,
      seed junk npoints p = Except.ok
        { hull := hull,
          edges :=
            if gtQuot p2.y p0.y ((p1.y - p0.y) * (p2.x - p0.x)) (p1.x - p0.x) then
              ⟨0, 1, 2, 1, -1, -1⟩ :: ⟨1, 2, 0, 2, -1, -1⟩ :: ⟨2, 0, 1, 0, -1, -1⟩ ::
                List.replicate ((3 * npoints).toNat - 3) edge.new
            else
              ⟨0, 2, 2, 1, -1, -1⟩ :: ⟨2, 1, 0, 2, -1, -1⟩ :: ⟨1, 0, 1, 0, -1, -1⟩ ::
                List.replicate ((3 * npoints).toNat - 3) edge.new,
          lower_hull_pos := 1, upper_hull_pos := 2, next_edge := 3, saved_edge := -1,
          count := 0 } := by
  obtain ⟨m, hm⟩ : ∃ m : Nat, npoints.toNat = m + 3 := ⟨npoints.toNat - 3, by omega⟩
  obtain ⟨k, hk⟩ : ∃ k : Nat, (3 * npoints).toNat = k + 3 :=
    ⟨(3 * npoints).toNat - 3, by omega⟩
  have hneg : ¬ npoints < 0 := by omega
  have hrep : List.replicate (k + 3) edge.new =
      edge.new :: edge.new :: edge.new :: List.replicate k edge.new := rfl
  have hh := seedHull_new m junk
  generalize hH : (⟨(m : Int) + 3, 2, 3, 3, ⟨1, 2, 0⟩ :: ⟨2, 0, 1⟩ :: ⟨0, 1, 2⟩ ::
    (List.range m).map fun i => { junk (i + 3) with data := (i : Int) + 3 + 1 }⟩ : cyclist) = H
    at hh
  refine ⟨H, ?_⟩
  simp only [seed, if_neg hneg, hm, hk, hrep, seedEdges_fresh p p0 p1 p2 _ h0 h1 h2,
    hh, bind, Except.bind, Nat.add_sub_cancel]
  rfl

variable (sqrt : K → K)

/-- C27: three points.  For an input of exactly three points `p0`, `p1`, `p2`
(x-sorted: `p0.x <= p1.x`) that are not collinear, `triangulate` returns with
the loop over the points not entered: the table holds the three edges `a -> b`,
`b -> c`, `c -> a` of the anticlockwise triangle on the points 0, 1, 2 (with
`(a,b,c) = (0,1,2)` or `(0,2,1)`), each with `ref = ret = -1`, followed by six
untouched entries, so exactly three entries have `from != -1` and
`next_edge = 3`.  The result is the same for every recursion depth given to
`swap`, depth 0 included, at which any call of `swap` would fail: `swap` is
never called, so no edge is flipped. -/
theorem three_points (depth : Nat) (junk : Nat → item) (p0 p1 p2 : point K)
    (hs : p0.x ≤ p1.x) (hc : orient p0 p1 p2 ≠ 0) :
    ∃ (d : Driver) (a b c : Int) (pa pb pc : point K),
      triangulate sqrt depth junk 3 [p0, p1, p2] = Except.ok d ∧
      triangulate sqrt 0 junk 3 [p0, p1, p2] = Except.ok d ∧
      ((a = 0 ∧ b = 1 ∧ c = 2) ∨ (a = 0 ∧ b = 2 ∧ c = 1)) ∧
      d.edges = [⟨a, b, 2, 1, -1, -1⟩, ⟨b, c, 0, 2, -1, -1⟩, ⟨c, a, 1, 0, -1, -1⟩] ++
        List.replicate 6 edge.new ∧
      usedEdges d.edges = 3 ∧ d.next_edge = 3 ∧
      rdpE [p0, p1, p2] a = Except.ok pa ∧ rdpE [p0, p1, p2] b = Except.ok pb ∧
      rdpE [p0, p1, p2] c = Except.ok pc ∧ 0 < orient pa pb pc := by
  obtain ⟨hull, hseed⟩ := seed_table junk 3 [p0, p1, p2] p0 p1 p2 (le_refl _) rfl rfl rfl
  have ho := gtQuot_orient p0 p1 p2 hs hc
  have ht : ∀ n : Nat, triangulate sqrt n junk 3 [p0, p1, p2] = seed junk 3 [p0, p1, p2] :=
    fun _ => rfl
  by_cases hg : gtQuot p2.y p0.y ((p1.y - p0.y) * (p2.x - p0.x)) (p1.x - p0.x) = true
  · rw [if_pos hg] at ho hseed
    exact ⟨_, 0, 1, 2, p0, p1, p2, (ht depth).trans hseed, (ht 0).trans hseed,
      Or.inl ⟨rfl, rfl, rfl⟩, rfl, by simp only; decide, rfl, rfl, rfl, rfl, ho⟩
  · rw [if_neg hg] at ho hseed
    exact ⟨_, 0, 2, 1, p0, p2, p1, (ht depth).trans hseed, (ht 0).trans hseed,
      Or.inr ⟨rfl, rfl, rfl⟩, rfl, by simp only; decide, rfl, rfl, rfl, rfl, ho⟩

end three

theorem three_points_witness :
    (0 : ℚ) ≤ 0 ∧ orient (⟨0, 0⟩ : point ℚ) ⟨0, 1⟩ ⟨1, 0⟩ ≠ 0 ∧
      ∃ (d : Driver) (a b c : Int) (pa pb pc : point ℚ),
        triangulate sqrt0 1 junk0 3 [⟨0, 0⟩, ⟨0, 1⟩, ⟨1, 0⟩] = Except.ok d ∧
        triangulate sqrt0 0 junk0 3 [⟨0, 0⟩, ⟨0, 1⟩, ⟨1, 0⟩] = Except.ok d ∧
        ((a = 0 ∧ b = 1 ∧ c = 2) ∨ (a = 0 ∧ b = 2 ∧ c = 1)) ∧
        d.edges = [⟨a, b, 2, 1, -1, -1⟩, ⟨b, c, 0, 2, -1, -1⟩, ⟨c, a, 1, 0, -1, -1⟩] ++
          List.replicate 6 edge.new ∧
        usedEdges d.edges = 3 ∧ d.next_edge = 3 ∧
        rdpE [⟨0, 0⟩, ⟨0, 1⟩, ⟨1, 0⟩] a = Except.ok pa ∧
        rdpE [⟨0, 0⟩, ⟨0, 1⟩, ⟨1, 0⟩] b = Except.ok pb ∧
        rdpE [⟨0, 0⟩, ⟨0, 1⟩, ⟨1, 0⟩] c = Except.ok pc ∧ 0 < orient pa pb pc :=
  ⟨by decide, by decide!, three_points sqrt0 1 junk0 ⟨0, 0⟩ ⟨0, 1⟩ ⟨1, 0⟩ (by decide)
    (by decide!)⟩

end Tipper

/-! ## Capacity of the edge table -/

namespace Tipper

theorem KeepsFresh.refl_keeps (e : List edge) : KeepsFresh e e :=
  ⟨rfl, fun _ x hx hf => ⟨x, hx, hf⟩⟩

theorem KeepsFresh.trans_keeps {e1 e2 e3 : List edge} (h12 : KeepsFresh e1 e2)
    (h23 : KeepsFresh e2 e3) : KeepsFresh e1 e3 := by
  refine ⟨h23.1.trans h12.1, fun j x hx hf => ?_⟩
  obtain ⟨x', hx', hf'⟩ := h12.2 j x hx hf
  exact h23.2 j x' hx' hf'

theorem KeepsFresh.fresh {e e' : List edge} (h : KeepsFresh e e') {ne : Int}
    (hf : freshFrom e ne) : freshFrom e' ne := by
  intro j x hj hx
  have hl : j < e.length := by
    rw [← h.1]
    exact (List.getElem?_eq_some_iff.mp hx).1
  obtain ⟨x', hx', hf'⟩ := h.2 j e[j] (List.getElem?_eq_getElem hl)
    (hf j _ hj (List.getElem?_eq_getElem hl))
  rw [hx] at hx'
  injection hx' with hx'
  rw [hx']
  exact hf'

theorem wre_ok_iff {e e' : List edge} {i : Int} {f : edge → edge} :
    wre e i f = Except.ok e' ↔
      ∃ (n : Nat) (x : edge), i = n ∧ e[n]? = some x ∧ e' = e.set n (f x) := by
  constructor
  · intro h
    unfold wre at h
    cases hr : rde e i with
    | error err => rw [hr] at h; cases h
    | ok x =>
      rw [hr] at h
      obtain ⟨n, rfl, hn⟩ := rde_cast hr
      refine ⟨n, x, rfl, hn, ?_⟩
      simp only [Int.toNat_ofNat] at h
      injection h with h
      exact h.symm
  · rintro ⟨n, x, rfl, hn, rfl⟩
    exact wre_get hn f

/-- An assignment to a member other than `from` keeps the entries with
`from = -1`. -/
theorem wre_keeps {e e' : List edge} {i : Int} {f : edge → edge}
    (h : wre e i f = Except.ok e') (hf : ∀ x, (f x).from_ = x.from_) : KeepsFresh e e' := by
  obtain ⟨n, x, rfl, hn, rfl⟩ := wre_ok_iff.mp h
  refine ⟨by simp, fun j y hy hy1 => ?_⟩
  by_cases hj : n = j
  · subst hj
    rw [hn] at hy
    injection hy with hy
    refine ⟨f x, getElem?_set_self_of hn _, ?_⟩
    rw [hf, hy]
    exact hy1
  · exact ⟨y, by rw [List.getElem?_set_ne hj]; exact hy, hy1⟩

/-- An assignment to an entry whose `from` is not `-1` keeps the entries with
`from = -1`. -/
theorem wre_keeps_of_used {e e' : List edge} {i : Int} {f : edge → edge} {x : edge}
    (h : wre e i f = Except.ok e') (hx : rde e i = Except.ok x) (hu : x.from_ ≠ -1) :
    KeepsFresh e e' := by
  obtain ⟨n, x', rfl, hn, rfl⟩ := wre_ok_iff.mp h
  have hxx : x' = x := by
    have := rde_get hn
    rw [hx] at this
    injection this with this
    exact this.symm
  subst hxx
  refine ⟨by simp, fun j y hy hy1 => ?_⟩
  by_cases hj : n = j
  · subst hj
    rw [hn] at hy
    injection hy with hy
    rw [hy] at hu
    exact absurd hy1 hu
  · exact ⟨y, by rw [List.getElem?_set_ne hj]; exact hy, hy1⟩

/-- The entry written at the first fresh index moves the fresh part up by one. -/
theorem wre_fresh_at {e e' : List edge} {i ne : Int} {f : edge → edge}
    (h : wre e i f = Except.ok e') (hi : i < ne) (hf : freshFrom e (ne - 1)) :
    freshFrom e' ne ∧ e'.length = e.length := by
  obtain ⟨n, x, rfl, hn, rfl⟩ := wre_ok_iff.mp h
  refine ⟨fun j y hj hy => ?_, by simp⟩
  have hne : n ≠ j := by omega
  rw [List.getElem?_set_ne hne] at hy
  exact hf j y (by omega) hy

theorem SameEnds.refl_ends (e : List edge) : SameEnds e e :=
  ⟨rfl, fun _ x hx => ⟨x, hx, rfl, rfl⟩⟩

theorem SameEnds.trans_ends {e1 e2 e3 : List edge} (h12 : SameEnds e1 e2)
    (h23 : SameEnds e2 e3) : SameEnds e1 e3 := by
  refine ⟨h23.1.trans h12.1, fun j x hx => ?_⟩
  obtain ⟨x', hx', hf', ht'⟩ := h12.2 j x hx
  obtain ⟨x'', hx'', hf'', ht''⟩ := h23.2 j x' hx'
  exact ⟨x'', hx'', hf''.trans hf', ht''.trans ht'⟩

theorem SameEnds.keeps {e e' : List edge} (h : SameEnds e e') : KeepsFresh e e' := by
  refine ⟨h.1, fun j x hx hf => ?_⟩
  obtain ⟨x', hx', hf', -⟩ := h.2 j x hx
  exact ⟨x', hx', hf'.trans hf⟩

theorem SameEnds.rde {e e' : List edge} (h : SameEnds e e') {i : Int} {x : edge}
    (hx : rde e i = Except.ok x) :
    ∃ x', rde e' i = Except.ok x' ∧ x'.from_ = x.from_ ∧ x'.to_ = x.to_ := by
  obtain ⟨n, rfl, hn⟩ := rde_cast hx
  obtain ⟨x', hx', hf⟩ := h.2 n x hn
  exact ⟨x', rde_get hx', hf⟩

/-- An assignment to a member other than `from` and `to` keeps the end points. -/
theorem wre_sameEnds {e e' : List edge} {i : Int} {f : edge → edge}
    (h : wre e i f = Except.ok e')
    (hf : ∀ x, (f x).from_ = x.from_ ∧ (f x).to_ = x.to_) : SameEnds e e' := by
  obtain ⟨n, x, rfl, hn, rfl⟩ := wre_ok_iff.mp h
  refine ⟨by simp, fun j y hy => ?_⟩
  by_cases hj : n = j
  · subst hj
    rw [hn] at hy
    injection hy with hy
    subst hy
    exact ⟨f x, getElem?_set_self_of hn _, hf x⟩
  · exact ⟨y, by rw [List.getElem?_set_ne hj]; exact hy, rfl, rfl⟩

theorem assign_sameEnds {tint : Int} {idx : edge → Int} {f : edge → edge → edge}
    {e e' : List edge} (h : assign tint idx f e = Except.ok e')
    (hf : ∀ t x, (f t x).from_ = x.from_ ∧ (f t x).to_ = x.to_) : SameEnds e e' := by
  simp only [assign, bind_ok_iff] at h
  obtain ⟨t, -, h⟩ := h
  exact wre_sameEnds h (hf t)

theorem rewireRef_sameEnds {tint : Int} {e e' : List edge}
    (h : rewireRef tint e = Except.ok e') : SameEnds e e' := by
  simp only [rewireRef, bind_ok_iff] at h
  obtain ⟨t, -, n, -, h⟩ := h
  split at h
  · simp only [bind_ok_iff] at h
    obtain ⟨e1, h1, h2⟩ := h
    exact (assign_sameEnds h1 fun _ _ => ⟨rfl, rfl⟩).trans_ends
      (assign_sameEnds h2 fun _ _ => ⟨rfl, rfl⟩)
  · simp only [bind_ok_iff] at h
    obtain ⟨e1, h1, h2⟩ := h
    exact (assign_sameEnds h1 fun _ _ => ⟨rfl, rfl⟩).trans_ends
      (assign_sameEnds h2 fun _ _ => ⟨rfl, rfl⟩)

theorem rewireLef_sameEnds {tint : Int} {e e' : List edge}
    (h : rewireLef tint e = Except.ok e') : SameEnds e e' := by
  simp only [rewireLef, bind_ok_iff] at h
  obtain ⟨t, -, n, -, h⟩ := h
  split at h
  · simp only [bind_ok_iff] at h
    obtain ⟨e1, h1, h2⟩ := h
    exact (assign_sameEnds h1 fun _ _ => ⟨rfl, rfl⟩).trans_ends
      (assign_sameEnds h2 fun _ _ => ⟨rfl, rfl⟩)
  · simp only [bind_ok_iff] at h
    obtain ⟨e1, h1, h2⟩ := h
    exact (assign_sameEnds h1 fun _ _ => ⟨rfl, rfl⟩).trans_ends
      (assign_sameEnds h2 fun _ _ => ⟨rfl, rfl⟩)

theorem rewireRet_sameEnds {tint : Int} {e e' : List edge}
    (h : rewireRet tint e = Except.ok e') : SameEnds e e' := by
  simp only [rewireRet, bind_ok_iff] at h
  obtain ⟨t, -, n, -, h⟩ := h
  split at h
  · simp only [bind_ok_iff] at h
    obtain ⟨e1, h1, h2⟩ := h
    exact (assign_sameEnds h1 fun _ _ => ⟨rfl, rfl⟩).trans_ends
      (assign_sameEnds h2 fun _ _ => ⟨rfl, rfl⟩)
  · simp only [bind_ok_iff] at h
    obtain ⟨e1, h1, h2⟩ := h
    exact (assign_sameEnds h1 fun _ _ => ⟨rfl, rfl⟩).trans_ends
      (assign_sameEnds h2 fun _ _ => ⟨rfl, rfl⟩)

theorem rewireLet_sameEnds {tint : Int} {e e' : List edge}
    (h : rewireLet tint e = Except.ok e') : SameEnds e e' := by
  simp only [rewireLet, bind_ok_iff] at h
  obtain ⟨t, -, n, -, h⟩ := h
  split at h
  · simp only [bind_ok_iff] at h
    obtain ⟨e1, h1, h2⟩ := h
    exact (assign_sameEnds h1 fun _ _ => ⟨rfl, rfl⟩).trans_ends
      (assign_sameEnds h2 fun _ _ => ⟨rfl, rfl⟩)
  · simp only [bind_ok_iff] at h
    obtain ⟨e1, h1, h2⟩ := h
    exact (assign_sameEnds h1 fun _ _ => ⟨rfl, rfl⟩).trans_ends
      (assign_sameEnds h2 fun _ _ => ⟨rfl, rfl⟩)

/-- The flip of an entry whose `from` is not `-1` keeps the entries with
`from = -1`. -/
theorem flipStep_keeps {tint leftp rightp : Int} {e e' : List edge} {t : edge}
    (h : flipStep tint leftp rightp e = Except.ok e') (ht : rde e tint = Except.ok t)
    (hu : t.from_ ≠ -1) : KeepsFresh e e' := by
  simp only [flipStep, bind_ok_iff] at h
  obtain ⟨e1, h1, e2, h2, e3, h3, e4, h4, h5⟩ := h
  have s4 : SameEnds e e4 := ((rewireRef_sameEnds h1).trans_ends (rewireLef_sameEnds h2)).trans_ends
    ((rewireRet_sameEnds h3).trans_ends (rewireLet_sameEnds h4))
  obtain ⟨t4, ht4, hf4, -⟩ := s4.rde ht
  exact s4.keeps.trans_keeps (wre_keeps_of_used h5 ht4 (by rw [hf4]; exact hu))

section S
variable {K : Type} [LinearOrderedField K] (sqrt : K → K)

/-- A call of `swap` keeps the length of the table and the entries with
`from = -1`. -/
theorem swap_keeps (depth : Nat) : ∀ (tint : Int) (e : List edge) (p : List (point K))
    (r : List edge × Int), edge.swap sqrt depth tint e p = Except.ok r → KeepsFresh e r.1 := by
  induction depth with
  | zero =>
    intro tint e p r h
    simp [edge.swap] at h
  | succ depth ih =>
    intro tint e p r h
    simp only [edge.swap, bind_ok_iff] at h
    obtain ⟨t, ht, h⟩ := h
    split at h
    · rw [pure_ok_iff] at h
      rw [← h]
      exact KeepsFresh.refl_keeps e
    · simp only [bind_ok_iff] at h
      obtain ⟨el, -, er, -, pl, -, pf, hpf, pt, -, pr, -, h⟩ := h
      split at h
      · split at h
        · simp only [bind_ok_iff] at h
          obtain ⟨e1, h1, h2⟩ := h
          have hu : t.from_ ≠ -1 := by
            have := rdpE_nonneg hpf
            omega
          have k1 := flipStep_keeps h1 ht hu
          simp only [afterFlip, bind_ok_iff, pure_ok_iff] at h2
          obtain ⟨t1, -, r1, g1, t2, -, r2, g2, t3, -, r3, g3, t4, -, r4, g4, rfl⟩ := h2
          exact (((k1.trans_keeps (ih _ _ _ r1 g1)).trans_keeps (ih _ _ _ r2 g2)).trans_keeps
            (ih _ _ _ r3 g3)).trans_keeps (ih _ _ _ r4 g4)
        · rw [pure_ok_iff] at h
          rw [← h]
          exact KeepsFresh.refl_keeps e
      · rw [pure_ok_iff] at h
        rw [← h]
        exact KeepsFresh.refl_keeps e

end S

end Tipper

namespace Tipper

theorem freshFrom.mono {e : List edge} {a b : Int} (h : freshFrom e a) (hab : a ≤ b) :
    freshFrom e b :=
  fun j x hj hx => h j x (le_trans hab hj) hx

theorem wre_fresh {e e' : List edge} {i m : Int} {f : edge → edge}
    (h : wre e i f = Except.ok e') (hc : i < m ∨ ∀ x, (f x).from_ = x.from_)
    (hf : freshFrom e m) : freshFrom e' m ∧ e'.length = e.length := by
  rcases hc with hc | hc
  · obtain ⟨n, x, rfl, hn, rfl⟩ := wre_ok_iff.mp h
    refine ⟨fun j y hj hy => ?_, by simp⟩
    have hne : n ≠ j := by omega
    rw [List.getElem?_set_ne hne] at hy
    exact hf j y hj hy
  · have k := wre_keeps h hc
    exact ⟨k.fresh hf, k.1⟩

/-- What an assignment to the edge table leaves alone. -/
theorem setE_frame {d d' : Driver} {i : Int} {f : edge → edge}
    (h : d.setE i f = Except.ok d') :
    wre d.edges i f = Except.ok d'.edges ∧ d'.hull = d.hull ∧ d'.next_edge = d.next_edge ∧
      d'.saved_edge = d.saved_edge ∧ d'.count = d.count ∧
      d'.lower_hull_pos = d.lower_hull_pos ∧ d'.upper_hull_pos = d.upper_hull_pos := by
  simp only [Driver.setE, bind_ok_iff, pure_ok_iff] at h
  obtain ⟨e, he, rfl⟩ := h
  exact ⟨he, rfl, rfl, rfl, rfl, rfl, rfl⟩

theorem setE_fresh {d d' : Driver} {i m : Int} {f : edge → edge}
    (h : d.setE i f = Except.ok d') (hc : i < m ∨ ∀ x, (f x).from_ = x.from_)
    (hf : freshFrom d.edges m) :
    freshFrom d'.edges m ∧ d'.edges.length = d.edges.length ∧ d'.hull = d.hull ∧
      d'.next_edge = d.next_edge ∧ d'.saved_edge = d.saved_edge := by
  obtain ⟨h1, h2, h3, h4, -⟩ := setE_frame h
  obtain ⟨g1, g2⟩ := wre_fresh h1 hc hf
  exact ⟨g1, g2, h2, h3, h4⟩

theorem firstUpper_acc {i : Int} {d d' : Driver} {len : Nat} {c : Int}
    (h : firstUpper i d = Except.ok d') (ha : Acc len c d) : Acc len (c + 1) d' := by
  obtain ⟨a1, a2, a3, a4, a5⟩ := ha
  simp only [firstUpper, bind_ok_iff, pure_ok_iff] at h
  obtain ⟨x1, -, x2, -, d1, h1, d2, h2, x3, -, d3, h3, d4, h4, rfl⟩ := h
  have f0 : freshFrom d.edges (d.next_edge + 1) := a4.mono (by omega)
  obtain ⟨f1, l1, u1, n1, -⟩ := setE_fresh h1 (Or.inl (by omega)) f0
  obtain ⟨f2, l2, u2, n2, -⟩ := setE_fresh h2 (Or.inl (by omega)) f1
  obtain ⟨f3, l3, u3, n3, -⟩ := setE_fresh h3 (Or.inl (by omega)) f2
  have l3 : d3.edges.length = d2.edges.length := l3
  have u3 : d3.hull = d2.hull := u3
  have n3 : d3.next_edge = d2.next_edge := n3
  obtain ⟨f4, l4, u4, n4, -⟩ := setE_fresh h4 (Or.inl (by omega)) f3
  have n3' : d3.next_edge = d.next_edge := by rw [n3, n2, n1]
  refine ⟨by simp only; rw [l4, l3, l2, l1, a1], by simp only; rw [u4, u3, u2, u1]; exact a2,
    ?_, ?_⟩
  · simp only
    rw [n4, n3', u4, u3, u2, u1]
    omega
  · simp only
    rw [n4, n3']
    exact ⟨f4, by omega⟩

theorem firstLowerEdge_acc {i : Int} {d d' : Driver} {len : Nat} {c : Int}
    (h : firstLowerEdge i d = Except.ok d') (ha : Acc len c d) : Acc len (c + 1) d' := by
  obtain ⟨a1, a2, a3, a4, a5⟩ := ha
  simp only [firstLowerEdge, bind_ok_iff, pure_ok_iff] at h
  obtain ⟨d1, h1, x1, -, x2, -, d2, h2, x3, -, d3, h3, d4, h4, rfl⟩ := h
  have f0 : freshFrom d.edges (d.next_edge + 1) := a4.mono (by omega)
  obtain ⟨f1, l1, u1, n1, -⟩ := setE_fresh h1 (Or.inl (by omega)) f0
  obtain ⟨f2, l2, u2, n2, -⟩ := setE_fresh h2 (Or.inl (by omega)) f1
  obtain ⟨f3, l3, u3, n3, -⟩ := setE_fresh h3 (Or.inl (by omega)) f2
  obtain ⟨f4, l4, u4, n4, -⟩ := setE_fresh h4 (Or.inl (by omega)) f3
  have n3' : d3.next_edge = d.next_edge := by rw [n3, n2, n1]
  refine ⟨by simp only; rw [l4, l3, l2, l1, a1], by simp only; rw [u4, u3, u2, u1]; exact a2,
    ?_, ?_⟩
  · simp only
    rw [n4, n3', u4, u3, u2, u1]
    omega
  · simp only
    rw [n4, n3']
    exact ⟨f4, by omega⟩

theorem cantSee_acc {i : Int} {w : Bool} {d d' : Driver} {len : Nat} {c : Int}
    (h : cantSee i w d = Except.ok d') (ha : Acc len c d) : Acc len c d' := by
  unfold cantSee at h
  split at h
  · rw [pure_ok_iff] at h
    rw [← h]
    exact ha
  · split at h
    · simp only [bind_ok_iff, pure_ok_iff] at h
      obtain ⟨r1, -, r2, -, rfl⟩ := h
      exact ha
    · cases h

section S
variable {K : Type} [LinearOrderedField K]

theorem firstEdge_acc {p : List (point K)} {i : Int} {d d' : Driver} {len : Nat} {c : Int}
    (h : firstEdge p i d = Except.ok d') (ha : Acc len c d) : Acc len (c + 1) d' := by
  simp only [firstEdge, bind_ok_iff, pure_ok_iff] at h
  obtain ⟨v, -, d1, h1, rfl⟩ := h
  have ha' : Acc len c { d with saved_edge := -1 } := ha
  have : Acc len (c + 1) d1 := by
    unfold firstNew at h1
    split at h1
    · exact firstUpper_acc h1 ha'
    · simp only [firstLower, bind_ok_iff] at h1
      obtain ⟨w, -, d2, h2, h3⟩ := h1
      exact firstLowerEdge_acc h3 (cantSee_acc h2 ha')
  exact this

end S

end Tipper

namespace Tipper

theorem linkUpper_fresh {h m : Int} {d d' : Driver} (e : linkUpper h d = Except.ok d')
    (hf : freshFrom d.edges m) :
    freshFrom d'.edges m ∧ d'.edges.length = d.edges.length ∧ d'.hull = d.hull ∧
      d'.next_edge = d.next_edge ∧ d'.saved_edge = d.saved_edge := by
  unfold linkUpper at e
  split at e
  · simp only [bind_ok_iff] at e
    obtain ⟨d1, h1, h2⟩ := e
    obtain ⟨f1, l1, u1, n1, s1⟩ := setE_fresh h1 (Or.inr fun _ => rfl) hf
    obtain ⟨f2, l2, u2, n2, s2⟩ := setE_fresh h2 (Or.inr fun _ => rfl) f1
    exact ⟨f2, l2.trans l1, u2.trans u1, n2.trans n1, s2.trans s1⟩
  · rw [pure_ok_iff] at e
    rw [← e]
    exact ⟨hf, rfl, rfl, rfl, rfl⟩

theorem linkLower_fresh {h m : Int} {d d' : Driver} (e : linkLower h d = Except.ok d')
    (hf : freshFrom d.edges m) :
    freshFrom d'.edges m ∧ d'.edges.length = d.edges.length ∧ d'.hull = d.hull ∧
      d'.next_edge = d.next_edge := by
  unfold linkLower at e
  split at e
  · rw [pure_ok_iff] at e
    rw [← e]
    exact ⟨hf, rfl, rfl, rfl⟩
  · simp only [bind_ok_iff] at e
    obtain ⟨d1, h1, h2⟩ := e
    obtain ⟨f1, l1, u1, n1, s1⟩ := setE_fresh h1 (Or.inr fun _ => rfl) hf
    obtain ⟨f2, l2, u2, n2, s2⟩ := setE_fresh h2 (Or.inr fun _ => rfl) f1
    exact ⟨f2, l2.trans l1, u2.trans u1, n2.trans n1⟩

theorem upperWire_fresh {i h : Int} {d d' : Driver} (e : upperWire i h d = Except.ok d')
    (hf : freshFrom d.edges d.next_edge) :
    freshFrom d'.edges (d.next_edge + 1) ∧ d'.edges.length = d.edges.length ∧
      d'.hull = d.hull ∧ d'.next_edge = d.next_edge := by
  simp only [upperWire, bind_ok_iff] at e
  obtain ⟨d1, h1, x2, -, d2, h2, d3, h3, d4, h4, d5, h5, d6, h6, h7⟩ := e
  have f0 : freshFrom d.edges (d.next_edge + 1) := hf.mono (by omega)
  obtain ⟨f1, l1, u1, n1, -⟩ := setE_fresh h1 (Or.inl (by omega)) f0
  obtain ⟨f2, l2, u2, n2, -⟩ := setE_fresh h2 (Or.inl (by omega)) f1
  obtain ⟨f3, l3, u3, n3, -⟩ := linkUpper_fresh h3 f2
  obtain ⟨f4, l4, u4, n4, -⟩ := setE_fresh h4 (Or.inr fun _ => rfl) f3
  have l4 : d4.edges.length = d3.edges.length := l4
  have u4 : d4.hull = d3.hull := u4
  have n4 : d4.next_edge = d3.next_edge := n4
  obtain ⟨f5, l5, u5, n5, -⟩ := setE_fresh h5 (Or.inr fun _ => rfl) f4
  have n5' : d5.next_edge = d.next_edge := by rw [n5, n4, n3, n2, n1]
  obtain ⟨f6, l6, u6, n6, -⟩ := setE_fresh h6 (Or.inl (by omega)) f5
  have n6' : d6.next_edge = d.next_edge := by rw [n6, n5']
  obtain ⟨f7, l7, u7, n7, -⟩ := setE_fresh h7 (Or.inl (by omega)) f6
  exact ⟨f7, by rw [l7, l6, l5, l4, l3, l2, l1], by rw [u7, u6, u5, u4, u3, u2, u1],
    by rw [n7, n6']⟩

section S
variable {K : Type} [LinearOrderedField K] (sqrt : K → K) (depth : Nat)

theorem upperEdges_fresh {p : List (point K)} {i : Int} {d d' : Driver}
    (e : upperEdges sqrt depth p i d = Except.ok d') (hf : freshFrom d.edges d.next_edge) :
    freshFrom d'.edges d'.next_edge ∧ d'.edges.length = d.edges.length ∧
      d'.hull = d.hull ∧ d'.next_edge = d.next_edge + 1 := by
  simp only [upperEdges, bind_ok_iff, pure_ok_iff] at e
  obtain ⟨h, -, d1, h1, r, hr, rfl⟩ := e
  obtain ⟨f1, l1, u1, n1⟩ := upperWire_fresh h1 hf
  have k := swap_keeps sqrt depth _ _ _ _ hr
  refine ⟨?_, by simp only; rw [k.1, l1], u1, by simp only; rw [n1]⟩
  simp only
  rw [n1]
  exact k.fresh f1

theorem upperStep_acc {p : List (point K)} {i : Int} {d d' : Driver} {len : Nat} {c : Int}
    (h : upperStep sqrt depth p i d = Except.ok d') (ha : Acc len c d) : Acc len c d' := by
  obtain ⟨a1, a2, a3, a4, a5⟩ := ha
  simp only [upperStep, bind_ok_iff, pure_ok_iff] at h
  obtain ⟨d1, h1, ⟨l, v⟩, h2, rfl⟩ := h
  rw [toExcept_ok_iff] at h2
  obtain ⟨f1, l1, u1, n1⟩ := upperEdges_fresh sqrt depth h1 a4
  obtain ⟨-, g2, g3⟩ := cyclist.delNextPos_ok h2
  rw [u1] at g2 g3
  refine ⟨l1.trans a1, ?_, ?_, f1, ?_⟩
  · simp only
    omega
  · simp only
    omega
  · simp only
    omega

theorem upperLoop_acc {p : List (point K)} {i : Int} {len : Nat} {c : Int} (n : Nat) :
    ∀ {d d' : Driver}, upperLoop sqrt depth p i n d = Except.ok d' → Acc len c d →
      Acc len c d' := by
  induction n with
  | zero =>
    intro d d' h
    simp [upperLoop] at h
  | succ n ih =>
    intro d d' h ha
    simp only [upperLoop, bind_ok_iff] at h
    obtain ⟨v, -, h⟩ := h
    split at h
    · simp only [bind_ok_iff] at h
      obtain ⟨d1, h1, h2⟩ := h
      exact ih h2 (upperStep_acc sqrt depth h1 ha)
    · rw [pure_ok_iff] at h
      rw [← h]
      exact ha

theorem upperInsert_acc {d d' : Driver} {len : Nat} {c : Int}
    (h : upperInsert d = Except.ok d') (ha : Acc len c d) : Acc len (c + 1) d' := by
  obtain ⟨a1, a2, a3, a4, a5⟩ := ha
  simp only [upperInsert, bind_ok_iff, pure_ok_iff] at h
  obtain ⟨⟨l, v⟩, h2, rfl⟩ := h
  rw [toExcept_ok_iff] at h2
  have f := cyclist.addBefore_ok h2
  exact ⟨a1, by simp only; omega, by simp only; omega, a4, a5⟩

theorem lowerInsert_acc {d d' : Driver} {len : Nat} {c : Int}
    (h : lowerInsert d = Except.ok d') (ha : Acc len c d) : Acc len (c + 1) d' := by
  obtain ⟨a1, a2, a3, a4, a5⟩ := ha
  simp only [lowerInsert, bind_ok_iff, pure_ok_iff] at h
  obtain ⟨⟨l, v⟩, h2, rfl⟩ := h
  rw [toExcept_ok_iff] at h2
  have f := cyclist.addAfter_ok h2
  exact ⟨a1, by simp only; omega, by simp only; omega, a4, a5⟩

theorem lowerEdges_fresh {p : List (point K)} {i : Int} {d d' : Driver}
    (e : lowerEdges sqrt depth p i d = Except.ok d') (hf : freshFrom d.edges d.next_edge) :
    freshFrom d'.edges d'.next_edge ∧ d'.edges.length = d.edges.length ∧
      d'.hull = d.hull ∧ d'.next_edge = d.next_edge + 1 := by
  simp only [lowerEdges, bind_ok_iff, pure_ok_iff] at e
  obtain ⟨h, -, d1, h1, d2, h2, x2, -, d3, h3, d4, h4, d5, h5, d6, h6, d7, h7, r, hr, rfl⟩ := e
  have f0 : freshFrom d.edges (d.next_edge + 1) := hf.mono (by omega)
  obtain ⟨f1, l1, u1, n1⟩ := linkLower_fresh h1 f0
  obtain ⟨f2, l2, u2, n2, -⟩ := setE_fresh h2 (Or.inl (by omega)) f1
  have n2' : d2.next_edge = d.next_edge := by rw [n2, n1]
  obtain ⟨f3, l3, u3, n3, -⟩ := setE_fresh h3 (Or.inl (by omega)) f2
  obtain ⟨f4, l4, u4, n4, -⟩ := setE_fresh h4 (Or.inr fun _ => rfl) f3
  obtain ⟨f5, l5, u5, n5, -⟩ := setE_fresh h5 (Or.inr fun _ => rfl) f4
  have n5' : d5.next_edge = d.next_edge := by rw [n5, n4, n3, n2']
  obtain ⟨f6, l6, u6, n6, -⟩ := setE_fresh h6 (Or.inl (by omega)) f5
  have n6' : d6.next_edge = d.next_edge := by rw [n6, n5']
  obtain ⟨f7, l7, u7, n7, -⟩ := setE_fresh h7 (Or.inl (by omega)) f6
  have n7' : d7.next_edge = d.next_edge := by rw [n7, n6']
  have k := swap_keeps sqrt depth _ _ _ _ hr
  refine ⟨?_, by simp only; rw [k.1, l7, l6, l5, l4, l3, l2, l1],
    by simp only; rw [u7, u6, u5, u4, u3, u2, u1], by simp only; rw [n7']⟩
  simp only
  rw [n7']
  exact k.fresh f7

theorem lowerStep_acc {p : List (point K)} {i : Int} {d d' : Driver} {len : Nat} {c : Int}
    (h : lowerStep sqrt depth p i d = Except.ok d') (ha : Acc len c d) : Acc len c d' := by
  obtain ⟨a1, a2, a3, a4, a5⟩ := ha
  simp only [lowerStep, bind_ok_iff, pure_ok_iff] at h
  obtain ⟨d1, h1, ⟨l, v⟩, h2, rfl⟩ := h
  rw [toExcept_ok_iff] at h2
  obtain ⟨f1, l1, u1, n1⟩ := lowerEdges_fresh sqrt depth h1 a4
  obtain ⟨-, g2, g3⟩ := cyclist.delNextNeg_ok h2
  rw [u1] at g2 g3
  refine ⟨l1.trans a1, ?_, ?_, f1, ?_⟩
  · simp only
    omega
  · simp only
    omega
  · simp only
    omega

theorem lowerLoop_acc {p : List (point K)} {i : Int} {len : Nat} {c : Int} (n : Nat) :
    ∀ {d d' : Driver}, lowerLoop sqrt depth p i n d = Except.ok d' → Acc len c d →
      Acc len c d' := by
  induction n with
  | zero =>
    intro d d' h
    simp [lowerLoop] at h
  | succ n ih =>
    intro d d' h ha
    simp only [lowerLoop, bind_ok_iff] at h
    obtain ⟨v, -, h⟩ := h
    split at h
    · simp only [bind_ok_iff] at h
      obtain ⟨d1, h1, h2⟩ := h
      exact ih h2 (lowerStep_acc sqrt depth h1 ha)
    · rw [pure_ok_iff] at h
      rw [← h]
      exact ha

/-- One pass of the loop over the points creates three more edges than it
takes slots from the hull. -/
theorem processPoint_acc {p : List (point K)} {i : Int} {d d' : Driver} {len : Nat} {c : Int}
    (h : processPoint sqrt depth p i d = Except.ok d') (ha : Acc len c d) :
    Acc len (c + 3) d' := by
  simp only [processPoint, beforeLowerInsert, beforeUpperInsert, upperSweep, lowerSweep,
    bind_ok_iff] at h
  obtain ⟨d4, ⟨d2, ⟨d1, h1, h2⟩, d3, h3, h4⟩, h5⟩ := h
  have a1 := firstEdge_acc h1 ha
  have a2 := upperLoop_acc sqrt depth _ h2 a1
  have a3 := upperInsert_acc h3 a2
  have a4 := lowerLoop_acc sqrt depth _ h4 a3
  have a5 := lowerInsert_acc h5 a4
  have e : c + 3 = c + 1 + 1 + 1 := by ring
  rw [e]
  exact a5

variable (junk : Nat → item)

theorem seedEdges_fresh3 {p : List (point K)} {e e' : List edge}
    (h : seedEdges p e = Except.ok e') (hf : freshFrom e 3) :
    freshFrom e' 3 ∧ e'.length = e.length := by
  simp only [seedEdges, seedEnds, bind_ok_iff] at h
  obtain ⟨e1, ⟨p0, -, p1, -, p2, -, h1⟩, e2, h2, e3, h3, h4⟩ := h
  have g1 : freshFrom e1 3 ∧ e1.length = e.length := by
    split at h1
    · simp only [bind_ok_iff] at h1
      obtain ⟨x1, k1, x2, k2, k3⟩ := h1
      obtain ⟨f1, l1⟩ := wre_fresh k1 (Or.inl (by norm_num)) hf
      obtain ⟨f2, l2⟩ := wre_fresh k2 (Or.inl (by norm_num)) f1
      obtain ⟨f3, l3⟩ := wre_fresh k3 (Or.inl (by norm_num)) f2
      exact ⟨f3, by rw [l3, l2, l1]⟩
    · simp only [bind_ok_iff] at h1
      obtain ⟨x1, k1, x2, k2, k3⟩ := h1
      obtain ⟨f1, l1⟩ := wre_fresh k1 (Or.inl (by norm_num)) hf
      obtain ⟨f2, l2⟩ := wre_fresh k2 (Or.inl (by norm_num)) f1
      obtain ⟨f3, l3⟩ := wre_fresh k3 (Or.inl (by norm_num)) f2
      exact ⟨f3, by rw [l3, l2, l1]⟩
  obtain ⟨f2, l2⟩ := wre_fresh h2 (Or.inl (by norm_num)) g1.1
  obtain ⟨f3, l3⟩ := wre_fresh h3 (Or.inl (by norm_num)) f2
  obtain ⟨f4, l4⟩ := wre_fresh h4 (Or.inl (by norm_num)) f3
  exact ⟨f4, by rw [l4, l3, l2, g1.2]⟩

theorem seed_acc {npoints : Int} {p : List (point K)} {d : Driver}
    (h : seed junk npoints p = Except.ok d) : Acc (3 * npoints).toNat 6 d := by
  have hn := seed_num junk h
  unfold seed at h
  split at h
  · cases h
  · simp only [bind_ok_iff, pure_ok_iff] at h
    obtain ⟨e, he, r, -, rfl⟩ := h
    have f0 : freshFrom (List.replicate (3 * npoints).toNat edge.new) 3 := by
      intro j x _ hx
      rw [List.getElem?_replicate] at hx
      split at hx
      · injection hx with hx
        rw [← hx]
        rfl
      · cases hx
    obtain ⟨f1, l1⟩ := seedEdges_fresh3 he f0
    simp only at hn
    refine ⟨by simp only; rw [l1]; simp, by simp only; rw [hn.2]; norm_num,
      by simp only; rw [hn.2]; norm_num, f1, le_refl _⟩

/-- After the seed and `k` passes of the loop over the points, `next_edge` and
the number of hull edges add up to `3 * (3 + k) - 3`. -/
theorem run_acc (npoints : Int) (p : List (point K)) :
    ∀ (k : Nat) (d : Driver), run sqrt depth junk npoints p k = Except.ok d →
      Acc (3 * npoints).toNat (3 * (3 + (k : Int)) - 3) d := by
  intro k
  induction k with
  | zero =>
    intro d h
    exact seed_acc junk h
  | succ k ih =>
    intro d h
    simp only [run, bind_ok_iff] at h
    obtain ⟨d0, h0, h1⟩ := h
    have := processPoint_acc sqrt depth h1 (ih d0 h0)
    have e : 3 * (3 + ((k + 1 : Nat) : Int)) - 3 = 3 * (3 + (k : Int)) - 3 + 3 := by
      push_cast
      ring
    rw [e]
    exact this

end S

end Tipper

namespace Tipper

theorem scanLoop_stops (e : List edge) (j : Nat) (x : edge) (hj : e[j]? = some x)
    (hx : x.from_ = -1) :
    ∀ (n i : Nat), i ≤ j → j < i + n →
      ∃ s : Nat, scanLoop e n (i : Int) = Except.ok (s : Int) ∧ i ≤ s ∧ s ≤ j := by
  intro n
  induction n with
  | zero => intro i h1 h2; omega
  | succ n ih =>
    intro i h1 h2
    have hjl : j < e.length := (List.getElem?_eq_some_iff.mp hj).1
    have hil : i < e.length := by omega
    have hi : rde e (i : Int) = Except.ok e[i] := rde_get (List.getElem?_eq_getElem hil)
    by_cases hf : e[i].from_ = -1
    · refine ⟨i, ?_, le_refl _, h1⟩
      simp only [scanLoop, hi, bind, Except.bind, hf, ne_eq, not_true_eq_false, if_false]
      rfl
    · have hij : i ≠ j := by
        intro h
        subst h
        have := List.getElem?_eq_getElem hil
        rw [hj] at this
        injection this with this
        rw [← this] at hf
        exact hf hx
      obtain ⟨s, hs, h3, h4⟩ := ih (i + 1) (by omega) (by omega)
      refine ⟨s, ?_, by omega, h4⟩
      simp only [scanLoop, hi, bind, Except.bind, hf, ne_eq, not_false_eq_true, if_true]
      exact_mod_cast hs

section S
variable {K : Type} [LinearOrderedField K] (sqrt : K → K) (depth : Nat) (junk : Nat → item)

end S

end Tipper

/-! ## The cyclic list as a list of slots -/

namespace Tipper
namespace cyclist

theorem link_next {l : cyclist} {a b c : Nat} (h1 : l.link a b) (h2 : l.link a c) : b = c := by
  obtain ⟨x, -, hx, -, hn, -⟩ := h1
  obtain ⟨x', -, hx', -, hn', -⟩ := h2
  rw [hx] at hx'
  injection hx' with hx'
  subst hx'
  have : (b : Int) = c := hn.symm.trans hn'
  exact_mod_cast this

theorem link_prev {l : cyclist} {a b c : Nat} (h1 : l.link a c) (h2 : l.link b c) : a = b := by
  obtain ⟨-, y, -, hy, -, hp⟩ := h1
  obtain ⟨-, y', -, hy', -, hp'⟩ := h2
  rw [hy] at hy'
  injection hy' with hy'
  subst hy'
  have : (a : Int) = b := hp.symm.trans hp'
  exact_mod_cast this

theorem chainTo_congr {l l' : cyclist} (hs : l'.size = l.size) :
    ∀ (fr : List Nat) (h : Int),
      (∀ s ∈ fr, (l'.ejs[s]?).map item.data = (l.ejs[s]?).map item.data) →
      l.chainTo h fr → l'.chainTo h fr := by
  intro fr
  induction fr with
  | nil =>
    intro h _ hc
    simp only [chainTo] at hc ⊢
    rw [hs]
    exact hc
  | cons s rest ih =>
    intro h hd hc
    simp only [chainTo] at hc ⊢
    obtain ⟨h1, x, hx, hr⟩ := hc
    have := hd s (List.mem_cons_self _ _)
    rw [hx] at this
    cases hx' : l'.ejs[s]? with
    | none => rw [hx'] at this; simp at this
    | some x' =>
      rw [hx'] at this
      simp only [Option.map_some', Option.some.injEq] at this
      refine ⟨h1, x', rfl, ?_⟩
      rw [this]
      exact ih _ (fun t ht => hd t (List.mem_cons_of_mem _ ht)) hr

theorem Rep.nodup_slots {l : cyclist} {cyc fr : List Nat} (h : Rep l cyc fr) : (cyc ++ fr).Nodup :=
  h.perm.nodup_iff.mpr (List.nodup_range _)

theorem Rep.lt {l : cyclist} {cyc fr : List Nat} (h : Rep l cyc fr) {s : Nat}
    (hs : s ∈ cyc ++ fr) : s < l.ejs.length :=
  List.mem_range.mp (h.perm.mem_iff.mp hs)

theorem Rep.count {l : cyclist} {cyc fr : List Nat} (h : Rep l cyc fr) :
    cyc.length + fr.length = l.ejs.length := by
  have := h.perm.length_eq
  simpa using this

theorem mem_of_getLast? {α : Type} {l : List α} {a : α} (h : l.getLast? = some a) : a ∈ l := by
  obtain ⟨ys, rfl⟩ := List.getLast?_eq_some_iff.mp h
  simp

theorem link_get {l : cyclist} {a b : Nat} (h : l.link a b) :
    ∃ (ha : a < l.ejs.length) (hb : b < l.ejs.length),
      (l.ejs[a]).next = (b : Int) ∧ (l.ejs[b]).prev = (a : Int) := by
  obtain ⟨x, y, hx, hy, hn, hp⟩ := h
  obtain ⟨ha, rfl⟩ := List.getElem?_eq_some_iff.mp hx
  obtain ⟨hb, rfl⟩ := List.getElem?_eq_some_iff.mp hy
  exact ⟨ha, hb, hn, hp⟩

/-- Unlinking the first slot of the cycle. -/
theorem Rep.unlink_head {l : cyclist} {a b : Nat} {rest fr : List Nat}
    (h : Rep l (a :: b :: rest) fr) :
    ∃ (l' : cyclist) (q : Nat), (b :: rest).getLast? = some q ∧ l.unlink a = some l' ∧
      Rep l' (b :: rest) (a :: fr) ∧ l'.ejs[a]? = some ⟨b, q, l.hole⟩ ∧ l'.size = l.size ∧
      ∀ s, s ≠ a → (l'.ejs[s]?).map item.data = (l.ejs[s]?).map item.data := by
  obtain ⟨q, hq⟩ : ∃ q, (b :: rest).getLast? = some q := by
    cases hh : (b :: rest).getLast? with
    | none => simp at hh
    | some q => exact ⟨q, rfl⟩
  have hqa : l.link q a := h.close a q rfl (by rw [List.getLast?_cons_cons]; exact hq)
  have hab : l.link a b := (List.chain'_cons.mp h.chain).1
  obtain ⟨ql, al, -, e2⟩ := link_get hqa
  obtain ⟨_, bl, e3, -⟩ := link_get hab
  obtain ⟨l', hbody, hsize, hnum, hhole, -, hlen, hrest⟩ :=
    unlink_nat l a q b al ql bl e2 e3
  have hnd := h.nodup_slots
  have hqm : q ∈ b :: rest := mem_of_getLast? hq
  have ha_not : a ∉ b :: rest := by
    intro hm
    have := (List.nodup_append.mp hnd).1
    exact (List.nodup_cons.mp this).1 hm
  have haq : a ≠ q := fun e => ha_not (e ▸ hqm)
  have hab' : a ≠ b := fun e => ha_not (e ▸ List.mem_cons_self _ _)
  have ha_fr : a ∉ fr := by
    intro hm
    exact (List.nodup_append.mp hnd).2.2 (List.mem_cons_self _ _) hm
  have hdata : ∀ s, s ≠ a → (l'.ejs[s]?).map item.data = (l.ejs[s]?).map item.data := by
    intro s hs
    rw [hrest s]
    cases l.ejs[s]? with
    | none => rfl
    | some it => simp [hs]
  have hslot : l'.ejs[a]? = some ⟨b, q, l.hole⟩ := by
    rw [hrest a, List.getElem?_eq_getElem al]
    simp [haq, hab', e2, e3]
  refine ⟨l', q, hq, hbody, ?_, hslot, hsize, hdata⟩
  refine ⟨by rw [hlen, hsize]; exact h.len, ?_, ?_, ?_, ?_, ?_⟩
  · rw [hnum, h.num]
    simp
  · rw [hlen]
    refine List.Perm.trans ?_ h.perm
    have : (b :: rest) ++ a :: fr = (b :: rest) ++ ([a] ++ fr) := rfl
    rw [this]
    have h2 : (a :: b :: rest) ++ fr = [a] ++ ((b :: rest) ++ fr) := rfl
    rw [h2, ← List.append_assoc, ← List.append_assoc]
    exact List.Perm.append_right _ List.perm_append_comm
  · -- the links inside the rest of the cycle are untouched
    have hc : List.Chain' l.link (b :: rest) := (List.chain'_cons.mp h.chain).2
    refine (List.Chain'.iff_mem.mp hc).imp ?_
    intro x y ⟨hx, hy, hxy⟩
    have hxq : x ≠ q := by
      intro e
      subst e
      have := link_next hxy hqa
      exact ha_not (this ▸ hy)
    have hyb : y ≠ b := by
      intro e
      subst e
      have := link_prev hxy hab
      exact ha_not (this ▸ hx)
    obtain ⟨xl, yl, hn, hp⟩ := link_get hxy
    have hx' := hrest x
    have hy' := hrest y
    rw [List.getElem?_eq_getElem xl] at hx'
    rw [List.getElem?_eq_getElem yl] at hy'
    simp only [Option.map_some'] at hx' hy'
    exact ⟨_, _, hx', hy', by simp [hxq, hn], by simp [hyb, hp]⟩
  · intro x y hx hy
    simp only [List.head?_cons, Option.some.injEq] at hx
    subst hx
    rw [hq] at hy
    injection hy with hy
    subst hy
    have hx' := hrest b
    have hy' := hrest q
    rw [List.getElem?_eq_getElem bl] at hx'
    rw [List.getElem?_eq_getElem ql] at hy'
    simp only [Option.map_some'] at hx' hy'
    exact ⟨_, _, hy', hx', by simp, by simp⟩
  · simp only [chainTo]
    refine ⟨hhole, _, hslot, ?_⟩
    exact chainTo_congr hsize fr _ (fun s hs => hdata s (fun e => ha_fr (e ▸ hs))) h.free

theorem Rep.rotate_left {l : cyclist} {a : Nat} {rest fr : List Nat}
    (h : Rep l (a :: rest) fr) : Rep l (rest ++ [a]) fr := by
  refine ⟨h.len, by rw [h.num]; simp, ?_, ?_, ?_, h.free⟩
  · refine List.Perm.trans (List.Perm.append_right _ ?_) h.perm
    exact List.perm_append_comm
  · cases rest with
    | nil => exact List.chain'_singleton a
    | cons b r =>
      have hc := (List.chain'_cons.mp h.chain).2
      refine hc.append (List.chain'_singleton a) ?_
      intro x hx y hy
      simp only [List.head?_cons, Option.mem_def, Option.some.injEq] at hy
      subst hy
      exact h.close a x rfl (by rw [List.getLast?_cons_cons]; exact hx)
  · intro x y hx hy
    rw [List.getLast?_concat] at hy
    injection hy with hy
    subst hy
    cases rest with
    | nil =>
      simp only [List.nil_append, List.head?_cons, Option.some.injEq] at hx
      subst hx
      exact h.close _ _ rfl rfl
    | cons b r =>
      simp only [List.cons_append, List.head?_cons, Option.some.injEq] at hx
      subst hx
      exact (List.chain'_cons.mp h.chain).1

theorem Rep.rotate_right {l : cyclist} {a : Nat} {init fr : List Nat}
    (h : Rep l (init ++ [a]) fr) : Rep l (a :: init) fr := by
  refine ⟨h.len, by rw [h.num]; simp, ?_, ?_, ?_, h.free⟩
  · refine List.Perm.trans (List.Perm.append_right _ ?_) h.perm
    have : a :: init = [a] ++ init := rfl
    rw [this]
    exact List.perm_append_comm
  · refine List.Chain'.cons' h.chain.left_of_append ?_
    intro y hy
    refine h.close y a ?_ (List.getLast?_concat _)
    cases init with
    | nil => simp at hy
    | cons b r =>
      simp only [List.head?_cons, Option.mem_def, Option.some.injEq] at hy
      subst hy
      rfl
  · intro x y hx hy
    simp only [List.head?_cons, Option.some.injEq] at hx
    subst hx
    cases hi : init.getLast? with
    | none =>
      have : init = [] := by
        cases init with
        | nil => rfl
        | cons b r => simp at hi
      subst this
      simp only [List.getLast?_singleton, Option.some.injEq] at hy
      subst hy
      exact h.close _ _ rfl rfl
    | some q =>
      obtain ⟨i0, rfl⟩ := List.getLast?_eq_some_iff.mp hi
      have hy' : y = q := by
        have : (a :: (i0 ++ [q])).getLast? = some q := by
          have e : a :: (i0 ++ [q]) = (a :: i0) ++ [q] := rfl
          rw [e, List.getLast?_concat]
        rw [this] at hy
        injection hy with hy
        exact hy.symm
      subst hy'
      have hc : List.Chain' l.link (i0 ++ [y, a]) := by
        have e : i0 ++ [y] ++ [a] = i0 ++ [y, a] := by simp
        rw [← e]
        exact h.chain
      exact List.chain'_pair.mp hc.right_of_append

/-- Any slot of the cycle can be taken as its first slot. -/
theorem Rep.to_head {l : cyclist} {fr : List Nat} :
    ∀ (pre : List Nat) {a : Nat} {post : List Nat}, Rep l (pre ++ a :: post) fr →
      Rep l (a :: post ++ pre) fr := by
  intro pre
  induction pre with
  | nil =>
    intro a post h
    simpa using h
  | cons b r ih =>
    intro a post h
    have h1 : Rep l (r ++ a :: post ++ [b]) fr := by
      have := Rep.rotate_left (show Rep l (b :: (r ++ a :: post)) fr from h)
      simpa using this
    have h2 := @ih a (post ++ [b]) (by simpa using h1)
    simpa using h2

theorem Rep.of_mem {l : cyclist} {cyc fr : List Nat} (h : Rep l cyc fr) {a : Nat}
    (ha : a ∈ cyc) : ∃ tl, Rep l (a :: tl) fr ∧ tl.length + 1 = cyc.length := by
  obtain ⟨pre, post, rfl⟩ := List.append_of_mem ha
  exact ⟨post ++ pre, Rep.to_head pre h, by simp; omega⟩

theorem Rep.lt_size {l : cyclist} {cyc fr : List Nat} (h : Rep l cyc fr) {s : Nat}
    (hs : s ∈ cyc ++ fr) : (s : Int) < l.size := by
  rw [← h.len]
  exact_mod_cast h.lt hs

/-- Deleting the first slot `a` of a cycle `a :: b :: rest`: `delNextPos`
returns `b`, `delNextNeg` returns the last slot, `a` becomes the first free
slot, and no other slot changes its `data`. -/
theorem Rep.del_head {l : cyclist} {a b : Nat} {rest fr : List Nat}
    (h : Rep l (a :: b :: rest) fr) :
    ∃ (l' : cyclist) (q : Nat), (b :: rest).getLast? = some q ∧
      l.delNextPos a = Run.ok l' (b : Int) ∧ l.delNextNeg a = Run.ok l' (q : Int) ∧
      Rep l' (b :: rest) (a :: fr) ∧ l'.size = l.size ∧
      ∀ s, s ≠ a → (l'.ejs[s]?).map item.data = (l.ejs[s]?).map item.data := by
  obtain ⟨l', q, hq, hbody, hrep, hslot, hsize, hdata⟩ := h.unlink_head
  have ha : (a : Int) < l.size := h.lt_size (by simp)
  have hn : l.num ≠ 0 := by
    rw [h.num]
    simp only [List.length_cons]
    omega
  refine ⟨l', q, hq, ?_, ?_, hrep, hsize, hdata⟩
  · simp [delNextPos, ha, hn, hbody, rd_natCast, hslot, finish]
  · simp [delNextNeg, ha, hn, hbody, rd_natCast, hslot, finish]

/-- Deleting the last slot `a` of a cycle `init ++ [q, a]` with `delNextNeg`
returns `q`. -/
theorem Rep.del_last {l : cyclist} {a q : Nat} {init fr : List Nat}
    (h : Rep l (init ++ [q, a]) fr) :
    ∃ l' : cyclist, l.delNextNeg a = Run.ok l' (q : Int) ∧
      Rep l' (init ++ [q]) (a :: fr) ∧ l'.size = l.size ∧
      ∀ s, s ≠ a → (l'.ejs[s]?).map item.data = (l.ejs[s]?).map item.data := by
  have h1 : Rep l (a :: (init ++ [q])) fr := by
    apply Rep.rotate_right
    simpa using h
  cases hi : init ++ [q] with
  | nil => simp at hi
  | cons b rest =>
    rw [hi] at h1
    obtain ⟨l', q', hq', -, hneg, hrep, hsize, hdata⟩ := h1.del_head
    have hq2 : (b :: rest).getLast? = some q := by rw [← hi, List.getLast?_concat]
    rw [hq2] at hq'
    injection hq' with hq'
    subst hq'
    exact ⟨l', hneg, hrep, hsize, hdata⟩

/-- What the reading members return on a slot of the cycle. -/
theorem Rep.getEdge {l : cyclist} {cyc fr : List Nat} (h : Rep l cyc fr) {s : Nat}
    (hs : s ∈ cyc) :
    ∃ it, l.ejs[s]? = some it ∧ l.getEdge s = Run.ok l it.data := by
  have hl := h.lt (List.mem_append_left fr hs)
  exact ⟨_, List.getElem?_eq_getElem hl,
    getEdge_of (List.getElem?_eq_getElem hl) (h.lt_size (List.mem_append_left fr hs))⟩

theorem Rep.getNextPos_link {l : cyclist} {cyc fr : List Nat} (h : Rep l cyc fr) {a b : Nat}
    (ha : a ∈ cyc) (hab : l.link a b) : l.getNextPos a = Run.ok l (b : Int) := by
  obtain ⟨al, -, hn, -⟩ := link_get hab
  rw [getNextPos_of (List.getElem?_eq_getElem al) (h.lt_size (List.mem_append_left fr ha)), hn]

theorem Rep.getNextNeg_link {l : cyclist} {cyc fr : List Nat} (h : Rep l cyc fr) {a b : Nat}
    (hb : b ∈ cyc) (hab : l.link a b) : l.getNextNeg b = Run.ok l (a : Int) := by
  obtain ⟨_, bl, -, hp⟩ := link_get hab
  rw [getNextNeg_of (List.getElem?_eq_getElem bl) (h.lt_size (List.mem_append_left fr hb)), hp]

theorem chain'_imp_tail {α : Type} {R R' : α → α → Prop} :
    ∀ (a : α) (tl : List α), List.Chain' R (a :: tl) →
      (∀ x y, x ∈ a :: tl → y ∈ tl → R x y → R' x y) → List.Chain' R' (a :: tl) := by
  intro a tl
  induction tl generalizing a with
  | nil => intro _ _; exact List.chain'_singleton a
  | cons b r ih =>
    intro hc hi
    obtain ⟨h1, h2⟩ := List.chain'_cons.mp hc
    refine List.chain'_cons.mpr ⟨hi a b (List.mem_cons_self _ _) (List.mem_cons_self _ _) h1, ?_⟩
    exact ih b h2 fun x y hx hy hxy =>
      hi x y (List.mem_cons_of_mem _ hx) (List.mem_cons_of_mem _ hy) hxy

/-- Inserting before the first slot `a` of the cycle takes the first free slot
`s` and makes it the first slot of the cycle. -/
theorem Rep.addBefore_head {l : cyclist} {a s : Nat} {tl fr : List Nat} (ej : Int)
    (h : Rep l (a :: tl) (s :: fr)) :
    ∃ l' : cyclist, l.addBefore a ej = Run.ok l' (s : Int) ∧
      Rep l' (s :: a :: tl) fr ∧ l'.size = l.size ∧
      (∃ it, l'.ejs[s]? = some it ∧ it.data = ej) ∧
      ∀ j, j ≠ s → (l'.ejs[j]?).map item.data = (l.ejs[j]?).map item.data := by
  obtain ⟨q, hq⟩ : ∃ q, (a :: tl).getLast? = some q := by
    cases hh : (a :: tl).getLast? with
    | none => simp at hh
    | some q => exact ⟨q, rfl⟩
  have hqa : l.link q a := h.close a q rfl hq
  obtain ⟨ql, al, -, e3⟩ := link_get hqa
  have hfree := h.free
  simp only [chainTo] at hfree
  obtain ⟨hh, x, hx, hfr⟩ := hfree
  obtain ⟨sl, rfl⟩ := List.getElem?_eq_some_iff.mp hx
  have hnd := h.nodup_slots
  have hqm : q ∈ a :: tl := mem_of_getLast? hq
  have hs_not : ∀ y ∈ a :: tl, y ≠ s := by
    intro y hy e
    subst e
    exact (List.nodup_append.mp hnd).2.2 hy (List.mem_cons_self _ _)
  have hs_fr : s ∉ fr := by
    have := (List.nodup_append.mp hnd).2.1
    exact (List.nodup_cons.mp this).1
  have ha_tl : a ∉ tl := by
    have := (List.nodup_append.mp hnd).1
    exact (List.nodup_cons.mp this).1
  obtain ⟨l', hbody, hsize, hnum, hhole, -, hlen, hslot, hrest⟩ :=
    addBeforeBody_nat l s a q ej sl al ql hh e3 (hs_not a (List.mem_cons_self _ _))
      (hs_not q hqm)
  have hdata : ∀ j, j ≠ s → (l'.ejs[j]?).map item.data = (l.ejs[j]?).map item.data := by
    intro j hj
    rw [hrest j hj]
    cases l.ejs[j]? with
    | none => rfl
    | some it => rfl
  have hn : l.num ≠ 0 := by
    rw [h.num]
    simp only [List.length_cons]
    omega
  have hasz : (a : Int) < l.size := h.lt_size (by simp)
  have hget : ∀ j, j ≠ s → ∀ (jl : j < l.ejs.length), l'.ejs[j]? = some
      { next := if j = q then (s : Int) else (l.ejs[j]).next,
        prev := if j = a then (s : Int) else (l.ejs[j]).prev, data := (l.ejs[j]).data } := by
    intro j hj jl
    rw [hrest j hj, List.getElem?_eq_getElem jl]
    rfl
  refine ⟨l', ?_, ?_, hsize, ⟨_, hslot, rfl⟩, hdata⟩
  · simp [addBefore, hasz, hn, hbody, finish]
  refine ⟨by rw [hlen, hsize]; exact h.len, ?_, ?_, ?_, ?_, ?_⟩
  · rw [hnum, h.num]
    simp
  · rw [hlen]
    refine List.Perm.trans ?_ h.perm
    have e1 : (s :: a :: tl) ++ fr = [s] ++ ((a :: tl) ++ fr) := rfl
    have e2 : (a :: tl) ++ s :: fr = (a :: tl) ++ ([s] ++ fr) := rfl
    rw [e1, e2, ← List.append_assoc, ← List.append_assoc]
    exact List.Perm.append_right _ List.perm_append_comm
  · refine List.chain'_cons.mpr ⟨?_, ?_⟩
    · exact ⟨_, _, hslot, hget a (hs_not a (List.mem_cons_self _ _)) al, rfl, by simp⟩
    · refine chain'_imp_tail a tl h.chain ?_
      intro x y hx hy hxy
      have hxq : x ≠ q := by
        intro e
        subst e
        have := link_next hxy hqa
        exact ha_tl (this ▸ hy)
      have hya : y ≠ a := fun e => ha_tl (e ▸ hy)
      obtain ⟨xl, yl, hn', hp⟩ := link_get hxy
      exact ⟨_, _, hget x (hs_not x hx) xl, hget y (hs_not y (List.mem_cons_of_mem _ hy)) yl,
        by simp [hxq, hn'], by simp [hya, hp]⟩
  · intro x y hx hy
    simp only [List.head?_cons, Option.some.injEq] at hx
    subst hx
    rw [List.getLast?_cons_cons, hq] at hy
    injection hy with hy
    subst hy
    exact ⟨_, _, hget q (hs_not q hqm) ql, hslot, by simp, rfl⟩
  · rw [hhole]
    exact chainTo_congr hsize fr _ (fun t ht => hdata t (fun e => hs_fr (e ▸ ht))) hfr

/-- Inserting after the last slot `a` of the cycle takes the first free slot
`s` and makes it the last slot of the cycle. -/
theorem Rep.addAfter_last {l : cyclist} {a r s : Nat} {tl fr : List Nat} (ej : Int)
    (h : Rep l (r :: tl) (s :: fr)) (hlast : (r :: tl).getLast? = some a) :
    ∃ l' : cyclist, l.addAfter a ej = Run.ok l' (s : Int) ∧
      Rep l' (r :: tl ++ [s]) fr ∧ l'.size = l.size ∧
      (∃ it, l'.ejs[s]? = some it ∧ it.data = ej) ∧
      ∀ j, j ≠ s → (l'.ejs[j]?).map item.data = (l.ejs[j]?).map item.data := by
  have har : l.link a r := h.close r a rfl hlast
  obtain ⟨al, rl, e3, -⟩ := link_get har
  have hfree := h.free
  simp only [chainTo] at hfree
  obtain ⟨hh, x, hx, hfr⟩ := hfree
  obtain ⟨sl, rfl⟩ := List.getElem?_eq_some_iff.mp hx
  have hnd := h.nodup_slots
  have ham : a ∈ r :: tl := mem_of_getLast? hlast
  have hs_not : ∀ y ∈ r :: tl, y ≠ s := by
    intro y hy e
    subst e
    exact (List.nodup_append.mp hnd).2.2 hy (List.mem_cons_self _ _)
  have hs_fr : s ∉ fr := by
    have := (List.nodup_append.mp hnd).2.1
    exact (List.nodup_cons.mp this).1
  have hr_tl : r ∉ tl := by
    have := (List.nodup_append.mp hnd).1
    exact (List.nodup_cons.mp this).1
  obtain ⟨l', hbody, hsize, hnum, hhole, -, hlen, hslot, hrest⟩ :=
    addAfterBody_nat l s a r ej sl al rl hh e3 (hs_not a ham)
      (hs_not r (List.mem_cons_self _ _))
  have hdata : ∀ j, j ≠ s → (l'.ejs[j]?).map item.data = (l.ejs[j]?).map item.data := by
    intro j hj
    rw [hrest j hj]
    cases l.ejs[j]? with
    | none => rfl
    | some it => rfl
  have hn : l.num ≠ 0 := by
    rw [h.num]
    simp only [List.length_cons]
    omega
  have hasz : (a : Int) < l.size := h.lt_size (List.mem_append_left _ ham)
  have hget : ∀ j, j ≠ s → ∀ (jl : j < l.ejs.length), l'.ejs[j]? = some
      { next := if j = a then (s : Int) else (l.ejs[j]).next,
        prev := if j = r then (s : Int) else (l.ejs[j]).prev, data := (l.ejs[j]).data } := by
    intro j hj jl
    rw [hrest j hj, List.getElem?_eq_getElem jl]
    rfl
  refine ⟨l', ?_, ?_, hsize, ⟨_, hslot, rfl⟩, hdata⟩
  · simp [addAfter, hasz, hn, hbody, finish]
  refine ⟨by rw [hlen, hsize]; exact h.len, ?_, ?_, ?_, ?_, ?_⟩
  · rw [hnum, h.num]
    simp
  · rw [hlen]
    refine List.Perm.trans ?_ h.perm
    have e2 : (r :: tl) ++ s :: fr = (r :: tl) ++ ([s] ++ fr) := rfl
    rw [e2, ← List.append_assoc]
  · have hc : List.Chain' l'.link (r :: tl) := by
      refine chain'_imp_tail r tl h.chain ?_
      intro x y hx hy hxy
      have hxa : x ≠ a := by
        intro e
        subst e
        have := link_next hxy har
        exact hr_tl (this ▸ hy)
      have hyr : y ≠ r := fun e => hr_tl (e ▸ hy)
      obtain ⟨xl, yl, hn', hp⟩ := link_get hxy
      exact ⟨_, _, hget x (hs_not x hx) xl, hget y (hs_not y (List.mem_cons_of_mem _ hy)) yl,
        by simp [hxa, hn'], by simp [hyr, hp]⟩
    refine hc.append (List.chain'_singleton s) ?_
    intro x hx y hy
    simp only [List.head?_cons, Option.mem_def, Option.some.injEq] at hy
    subst hy
    rw [Option.mem_def, hlast] at hx
    injection hx with hx
    subst hx
    exact ⟨_, _, hget a (hs_not a ham) al, hslot, by simp, rfl⟩
  · intro x y hx hy
    simp only [List.cons_append, List.head?_cons, Option.some.injEq] at hx
    subst hx
    have : (r :: tl ++ [s]).getLast? = some s := List.getLast?_concat _
    rw [this] at hy
    injection hy with hy
    subst hy
    exact ⟨_, _, hslot, hget r (hs_not r (List.mem_cons_self _ _)) rl, rfl, by simp⟩
  · rw [hhole]
    exact chainTo_congr hsize fr _ (fun t ht => hdata t (fun e => hs_fr (e ▸ ht))) hfr

theorem chainTo_freeChain {l : cyclist} (hl : (l.ejs.length : Int) = l.size) :
    ∀ (fr : List Nat) (h : Int) (fuel : Nat), l.chainTo h fr → fr.length ≤ fuel →
      l.freeChain fuel h = fr.map (fun (s : Nat) => (s : Int)) := by
  intro fr
  induction fr with
  | nil =>
    intro h fuel hc _
    simp only [chainTo] at hc
    cases fuel with
    | zero => rfl
    | succ f =>
      have : l.rd h = none := by
        rw [hc, ← hl, rd_natCast]
        simp
      simp [freeChain, this]
  | cons s rest ih =>
    intro h fuel hc hf
    simp only [chainTo] at hc
    obtain ⟨rfl, x, hx, hr⟩ := hc
    cases fuel with
    | zero => simp at hf
    | succ f =>
      have : l.rd (s : Int) = some x := by rw [rd_natCast]; exact hx
      simp only [freeChain, this, List.map_cons]
      rw [ih _ f hr (by simpa using hf)]

theorem Rep.freeSlots {l : cyclist} {cyc fr : List Nat} (h : Rep l cyc fr) :
    l.freeSlots = fr.map (fun (s : Nat) => (s : Int)) :=
  chainTo_freeChain h.len fr _ _ h.free (by have := h.count; omega)

/-- The occupied slots of a well-formed list are the slots of its cycle. -/
theorem Rep.occupied_iff {l : cyclist} {cyc fr : List Nat} (h : Rep l cyc fr) (a : Int) :
    l.occupied a ↔ ∃ n ∈ cyc, a = (n : Int) := by
  unfold cyclist.occupied
  rw [h.freeSlots]
  constructor
  · rintro ⟨h0, h1, h2⟩
    obtain ⟨n, rfl⟩ := Int.eq_ofNat_of_zero_le h0
    have hn : n < l.ejs.length := by
      rw [← h.len] at h1
      exact_mod_cast h1
    have hm : n ∈ cyc ++ fr := h.perm.mem_iff.mpr (List.mem_range.mpr hn)
    rcases List.mem_append.mp hm with hc | hf
    · exact ⟨n, hc, rfl⟩
    · exact absurd (List.mem_map.mpr ⟨n, hf, rfl⟩) h2
  · rintro ⟨n, hn, rfl⟩
    refine ⟨Int.natCast_nonneg n, h.lt_size (List.mem_append_left _ hn), ?_⟩
    intro hm
    obtain ⟨m, hm1, hm2⟩ := List.mem_map.mp hm
    have : m = n := by exact_mod_cast hm2
    subst this
    exact (List.nodup_append.mp h.nodup_slots).2.2 hn hm1

theorem chainTo_range' (l : cyclist) :
    ∀ (n k : Nat), (k + n : Int) = l.size →
      (∀ j, k ≤ j → j < k + n → ∃ x, l.ejs[j]? = some x ∧ x.data = (j : Int) + 1) →
      l.chainTo (k : Int) (List.range' k n) := by
  intro n
  induction n with
  | zero =>
    intro k hk _
    simp only [List.range'_zero, chainTo]
    rw [← hk]
    simp
  | succ n ih =>
    intro k hk hd
    simp only [List.range'_succ, chainTo]
    obtain ⟨x, hx, hxd⟩ := hd k (le_refl _) (by omega)
    refine ⟨trivial, x, hx, ?_⟩
    rw [hxd]
    have := ih (k + 1) (by push_cast at hk ⊢; omega) (fun j h1 h2 => hd j (by omega) (by omega))
    exact_mod_cast this

/-- The list after construction and one `add`. -/
theorem new_add (m : Nat) (junk : Nat → item) (ej : Int) :
    ∃ l' : cyclist, (cyclist.new (m + 1) junk).add ej = Run.ok l' () ∧
      Rep l' [0] (List.range' 1 m) ∧ l'.ejs[0]? = some ⟨0, 0, ej⟩ := by
  have hnew : cyclist.new (m + 1) junk =
      { size := (m : Int) + 1, prev := 0, hole := 0, num := 0,
        ejs := { junk 0 with data := 1 } ::
          (List.range m).map fun i => { junk (i + 1) with data := (i : Int) + 1 + 1 } } := by
    simp [cyclist.new, List.range_succ_eq_map, List.map_map, Function.comp_def]
  rw [hnew]
  have h0 : (0 : Int) < (m : Int) + 1 := by omega
  refine ⟨cyclist.mk ((m : Int) + 1) 0 1 1 (⟨0, 0, ej⟩ ::
          (List.range m).map fun i => { junk (i + 1) with data := (i : Int) + 1 + 1 }), ?_, ?_, by simp⟩
  · simp [cyclist.add, cyclist.addBody, cyclist.rd, cyclist.wr, cyclist.setNext,
      cyclist.setPrev, cyclist.setData, cyclist.finish, h0]
  · refine ⟨by simp, by simp, ?_, List.chain'_singleton _, ?_, ?_⟩
    · simp only [List.length_cons, List.length_map, List.length_range]
      rw [List.range_eq_range', List.range'_succ]
      simp
    · intro a b ha hb
      simp only [List.head?_cons, Option.some.injEq, List.getLast?_singleton] at ha hb
      subst ha
      subst hb
      exact ⟨⟨0, 0, ej⟩, ⟨0, 0, ej⟩, by simp, by simp, by simp, by simp⟩
    · have := chainTo_range'
        (cyclist.mk ((m : Int) + 1) 0 1 1 (⟨0, 0, ej⟩ ::
            (List.range m).map fun i => { junk (i + 1) with data := (i : Int) + 1 + 1 }))
        m 1 (by simp; omega) ?_
      · exact_mod_cast this
      · intro j h1 h2
        obtain ⟨i, rfl⟩ : ∃ i, j = i + 1 := ⟨j - 1, by omega⟩
        refine ⟨{ junk (i + 1) with data := (i : Int) + 1 + 1 }, ?_, by simp⟩
        simp only [List.getElem?_cons_succ]
        rw [List.getElem?_map, List.getElem?_range (by omega)]
        rfl

theorem Rep.free_cons {l : cyclist} {cyc fr : List Nat} (h : Rep l cyc fr)
    (hn : l.num < l.size) : ∃ s fr', fr = s :: fr' := by
  cases fr with
  | nil =>
    have h1 := h.count
    have h2 := h.len
    have h3 := h.num
    simp only [List.length_nil, Nat.add_zero] at h1
    rw [← h1] at h2
    omega
  | cons s fr' => exact ⟨s, fr', rfl⟩

theorem Rep.mem_occupied {l : cyclist} {cyc fr : List Nat} (h : Rep l cyc fr) {n : Nat}
    (hn : n ∈ cyc) : l.occupied (n : Int) :=
  (h.occupied_iff _).mpr ⟨n, hn, rfl⟩

/-- `addBefore` at an occupied position of a well-formed list that is not full. -/
theorem WellFormed.addBefore_wf {l : cyclist} {a : Int} (ej : Int) (h : l.WellFormed)
    (ha : l.occupied a) (hn : l.num < l.size) :
    ∃ (l' : cyclist) (r : Int), l.addBefore a ej = Run.ok l' r ∧ l'.WellFormed ∧
      l'.num = l.num + 1 ∧ l'.size = l.size ∧ l'.occupied r ∧ l'.getEdge r = Run.ok l' ej := by
  obtain ⟨cyc, fr, hr⟩ := h
  obtain ⟨n, hnc, rfl⟩ := (hr.occupied_iff a).mp ha
  obtain ⟨tl, ht, hlen⟩ := hr.of_mem hnc
  obtain ⟨s, fr', rfl⟩ := ht.free_cons hn
  obtain ⟨l', h1, h2, h3, ⟨it, h4, h5⟩, -⟩ := ht.addBefore_head ej
  have hs : s ∈ s :: n :: tl := List.mem_cons_self _ _
  obtain ⟨it', g1, g2⟩ := h2.getEdge hs
  rw [h4] at g1
  injection g1 with g1
  subst g1
  rw [h5] at g2
  refine ⟨l', s, h1, ⟨_, _, h2⟩, ?_, h3, h2.mem_occupied hs, g2⟩
  have e1 := h2.num
  have e2 := ht.num
  simp only [List.length_cons] at e1 e2
  push_cast at e1 e2
  omega

/-- `addAfter` at an occupied position of a well-formed list that is not full. -/
theorem WellFormed.addAfter_wf {l : cyclist} {a : Int} (ej : Int) (h : l.WellFormed)
    (ha : l.occupied a) (hn : l.num < l.size) :
    ∃ (l' : cyclist) (r : Int), l.addAfter a ej = Run.ok l' r ∧ l'.WellFormed ∧
      l'.num = l.num + 1 ∧ l'.size = l.size ∧ l'.occupied r ∧ l'.getEdge r = Run.ok l' ej := by
  obtain ⟨cyc, fr, hr⟩ := h
  obtain ⟨n, hnc, rfl⟩ := (hr.occupied_iff a).mp ha
  obtain ⟨tl, ht, hlen⟩ := hr.of_mem hnc
  obtain ⟨s, fr', rfl⟩ := ht.free_cons hn
  have hrot := ht.rotate_left
  obtain ⟨r, tl', htl, hlast⟩ : ∃ r tl', tl ++ [n] = r :: tl' ∧ (r :: tl').getLast? = some n := by
    cases tl with
    | nil => exact ⟨n, [], rfl, rfl⟩
    | cons r t => exact ⟨r, t ++ [n], rfl, by rw [← List.cons_append, List.getLast?_concat]⟩
  rw [htl] at hrot
  obtain ⟨l', h1, h2, h3, ⟨it, h4, h5⟩, -⟩ := hrot.addAfter_last ej hlast
  have hs : s ∈ r :: tl' ++ [s] := by simp
  obtain ⟨it', g1, g2⟩ := h2.getEdge hs
  rw [h4] at g1
  injection g1 with g1
  subst g1
  rw [h5] at g2
  refine ⟨l', s, h1, ⟨_, _, h2⟩, ?_, h3, h2.mem_occupied hs, g2⟩
  have e1 := h2.num
  have e2 := hrot.num
  simp only [List.length_cons, List.length_append, List.length_nil] at e1 e2
  push_cast at e1 e2
  omega

/-- The two deleting members at an occupied position of a well-formed list with
at least two entries: both succeed, give the same list, and return occupied
positions of it. -/
theorem WellFormed.delNext_wf {l : cyclist} {a : Int} (h : l.WellFormed)
    (ha : l.occupied a) (hn : 2 ≤ l.num) :
    ∃ (l' : cyclist) (r q : Int), l.delNextPos a = Run.ok l' r ∧
      l.delNextNeg a = Run.ok l' q ∧ l'.WellFormed ∧ l'.num = l.num - 1 ∧
      l'.size = l.size ∧ l'.occupied r ∧ l'.occupied q ∧ ¬ l'.occupied a := by
  obtain ⟨cyc, fr, hr⟩ := h
  obtain ⟨n, hnc, rfl⟩ := (hr.occupied_iff a).mp ha
  obtain ⟨tl, ht, hlen⟩ := hr.of_mem hnc
  cases tl with
  | nil =>
    have e := ht.num
    simp only [List.length_cons, List.length_nil] at e
    omega
  | cons b rest =>
    obtain ⟨l', q, hq, h1, h2, h3, h4, -⟩ := ht.del_head
    refine ⟨l', b, q, h1, h2, ⟨_, _, h3⟩, ?_, h4, h3.mem_occupied (List.mem_cons_self _ _),
      h3.mem_occupied (mem_of_getLast? hq), ?_⟩
    · have e1 := h3.num
      have e2 := ht.num
      simp only [List.length_cons] at e1 e2
      push_cast at e1 e2
      omega
    · intro hocc
      obtain ⟨m, hm, hmn⟩ := (h3.occupied_iff _).mp hocc
      have : n = m := by exact_mod_cast hmn
      subst this
      exact (List.nodup_append.mp h3.nodup_slots).2.2 hm (List.mem_cons_self _ _)

theorem two3_wellFormed : two3.WellFormed := by
  refine ⟨[0, 1], [2], rfl, rfl, by decide, ?_, ?_, ?_⟩
  · simp only [List.chain'_cons, List.chain'_singleton, and_true]
    exact ⟨⟨1, 1, 5⟩, ⟨0, 0, 6⟩, rfl, rfl, rfl, rfl⟩
  · intro a b ha hb
    simp only [List.head?_cons, Option.some.injEq] at ha
    have hb' : (1 : Nat) = b := by simpa using hb
    subst ha
    subst hb'
    exact ⟨⟨0, 0, 6⟩, ⟨1, 1, 5⟩, rfl, rfl, rfl, rfl⟩
  · exact ⟨rfl, ⟨0, 0, 3⟩, rfl, rfl⟩

/-- C30: the well-formedness predicate of the cyclic list (the cycle slots
number exactly `num`, `next` runs through them in one cycle with `prev` its
inverse, and following `data` from `hole` visits exactly the other slots once
each before reaching `size`) holds after construction with a positive capacity
followed by `add`; `addBefore` and `addAfter` at an occupied position of a
well-formed list with `num < size` return normally with a well-formed list
holding one entry more; `delNextPos` and `delNextNeg` at an occupied position
of a well-formed list with `num ≥ 2` return normally with a well-formed list
holding one entry less. -/
theorem wellFormed_invariant (s : Nat) (junk : Nat → item) (ej0 : Int)
    (l : cyclist) (a ej : Int) :
    (0 < s → ∃ l0 : cyclist, (cyclist.new s junk).add ej0 = Run.ok l0 () ∧
        l0.WellFormed ∧ l0.num = 1 ∧ l0.occupied 0 ∧ l0.getEdge 0 = Run.ok l0 ej0) ∧
    (l.WellFormed → l.occupied a → l.num < l.size →
      (∃ (l1 : cyclist) (r : Int), l.addBefore a ej = Run.ok l1 r ∧ l1.WellFormed ∧
        l1.num = l.num + 1 ∧ l1.size = l.size ∧ l1.occupied r ∧
        l1.getEdge r = Run.ok l1 ej) ∧
      (∃ (l2 : cyclist) (r : Int), l.addAfter a ej = Run.ok l2 r ∧ l2.WellFormed ∧
        l2.num = l.num + 1 ∧ l2.size = l.size ∧ l2.occupied r ∧
        l2.getEdge r = Run.ok l2 ej)) ∧
    (l.WellFormed → l.occupied a → 2 ≤ l.num →
      ∃ (l3 : cyclist) (r q : Int), l.delNextPos a = Run.ok l3 r ∧
        l.delNextNeg a = Run.ok l3 q ∧ l3.WellFormed ∧ l3.num = l.num - 1 ∧
        l3.size = l.size ∧ l3.occupied r ∧ l3.occupied q ∧ ¬ l3.occupied a) := by
  refine ⟨?_, fun h ha hn => ⟨h.addBefore_wf ej ha hn, h.addAfter_wf ej ha hn⟩,
    fun h ha hn => h.delNext_wf ha hn⟩
  intro hs
  obtain ⟨m, rfl⟩ : ∃ m, s = m + 1 := ⟨s - 1, by omega⟩
  obtain ⟨l0, h1, h2, h3⟩ := new_add m junk ej0
  have h0 : (0 : Nat) ∈ [0] := List.mem_cons_self _ _
  obtain ⟨it, g1, g2⟩ := h2.getEdge h0
  rw [h3] at g1
  injection g1 with g1
  subst g1
  exact ⟨l0, h1, ⟨_, _, h2⟩, by simpa using h2.num, h2.mem_occupied h0, g2⟩

theorem wellFormed_invariant_witness :
    (0 < 3 ∧ two3.WellFormed ∧ two3.occupied 0 ∧ two3.num < two3.size ∧ 2 ≤ two3.num) ∧
    (∃ l0 : cyclist, (cyclist.new 3 junk0).add 7 = Run.ok l0 () ∧
        l0.WellFormed ∧ l0.num = 1 ∧ l0.occupied 0 ∧ l0.getEdge 0 = Run.ok l0 7) ∧
    ((∃ (l1 : cyclist) (r : Int), two3.addBefore 0 9 = Run.ok l1 r ∧ l1.WellFormed ∧
        l1.num = two3.num + 1 ∧ l1.size = two3.size ∧ l1.occupied r ∧
        l1.getEdge r = Run.ok l1 9) ∧
      (∃ (l2 : cyclist) (r : Int), two3.addAfter 0 9 = Run.ok l2 r ∧ l2.WellFormed ∧
        l2.num = two3.num + 1 ∧ l2.size = two3.size ∧ l2.occupied r ∧
        l2.getEdge r = Run.ok l2 9)) ∧
    (∃ (l3 : cyclist) (r q : Int), two3.delNextPos 0 = Run.ok l3 r ∧
        two3.delNextNeg 0 = Run.ok l3 q ∧ l3.WellFormed ∧ l3.num = two3.num - 1 ∧
        l3.size = two3.size ∧ l3.occupied r ∧ l3.occupied q ∧ ¬ l3.occupied 0) :=
  ⟨⟨by decide, two3_wellFormed, by decide, by decide, by decide⟩,
    (wellFormed_invariant 3 junk0 7 two3 0 9).1 (by decide),
    (wellFormed_invariant 3 junk0 7 two3 0 9).2.1 two3_wellFormed (by decide) (by decide),
    (wellFormed_invariant 3 junk0 7 two3 0 9).2.2 two3_wellFormed (by decide) (by decide)⟩

end cyclist
end Tipper

/-! ## `visible` as an orientation test -/

namespace Tipper

section S
variable {K : Type} [LinearOrderedField K]

theorem mindistance_pos : (0 : K) < mindistance := by
  unfold mindistance
  positivity

/-- For an edge whose end points are at least `mindistance` apart in `x` and in
`y`, seen from a point that is not to the left of either end and is none of
them, `visible` is the exact test: the point lies strictly to the right of the
directed edge. -/
theorem visible_exact_ge {x : edge} {p : List (point K)} {i : Int} {pf pt pi : point K}
    (hf : rdp p x.from_ = some pf) (ht : rdp p x.to_ = some pt) (hi : rdp p i = some pi)
    (hx : mindistance ≤ |pf.x - pt.x|) (hy : mindistance ≤ |pt.y - pf.y|)
    (h1 : pf.x ≤ pi.x) (h2 : pt.x ≤ pi.x) (n1 : pi ≠ pf) (n2 : pi ≠ pt) :
    x.visible p i = some (decide (orient pf pt pi < 0)) := by
  have hx' : ¬ |pf.x - pt.x| < mindistance := not_lt.mpr hx
  have hy' : ¬ |pt.y - pf.y| < mindistance := not_lt.mpr hy
  have e1 : 0 ≤ pi.x - pf.x := by linarith
  have hdx : pt.x - pf.x ≠ 0 := by
    intro h
    have : pf.x - pt.x = 0 := by linarith
    rw [this, abs_zero] at hx
    exact absurd hx (not_le.mpr mindistance_pos)
  simp only [edge.visible, hf, ht, hi, if_neg hx', hy', false_and, if_false]
  by_cases c3 : pt.y ≥ pi.y ∧ pf.y ≤ pi.y ∧ |pf.y - pt.y| > mindistance
  · rw [if_pos c3]
    obtain ⟨c31, c32, c33⟩ := c3
    have hlt : pf.y < pt.y := by
      rcases lt_or_ge pf.y pt.y with h | h
      · exact h
      · exfalso
        have : pf.y = pt.y := le_antisymm (le_trans c32 c31) h
        rw [this, sub_self, abs_zero] at c33
        exact absurd c33 (not_lt.mpr mindistance_pos.le)
    have : orient pf pt pi < 0 := by
      unfold orient
      have k1 : 0 ≤ pi.y - pf.y := by linarith
      have k2 : pi.y - pf.y ≤ pt.y - pf.y := by linarith
      have k3 : 0 < pt.y - pf.y := by linarith
      rcases lt_or_gt_of_ne hdx with k4 | k4
      · have a0 : 0 ≤ (pt.y - pf.y) * (pi.x - pf.x) := mul_nonneg k3.le e1
        have a1 : (pt.x - pf.x) * (pi.y - pf.y) ≤ 0 :=
          mul_nonpos_of_nonpos_of_nonneg k4.le k1
        rcases eq_or_lt_of_le e1 with e | e
        · have hxe : pi.x = pf.x := by linarith
          have hye : pi.y ≠ pf.y := by
            intro hh
            apply n1
            cases pi
            cases pf
            simp only [point.mk.injEq]
            exact ⟨hxe, hh⟩
          have k1' : 0 < pi.y - pf.y := lt_of_le_of_ne k1 (fun hh => hye (by linarith))
          have : (pt.x - pf.x) * (pi.y - pf.y) < 0 := mul_neg_of_neg_of_pos k4 k1'
          linarith
        · have : 0 < (pt.y - pf.y) * (pi.x - pf.x) := mul_pos k3 e
          linarith
      · have a1 : (pt.x - pf.x) * (pi.y - pf.y) ≤ (pt.x - pf.x) * (pt.y - pf.y) :=
          mul_le_mul_of_nonneg_left k2 k4.le
        rcases eq_or_lt_of_le h2 with e | e
        · have hye : pi.y ≠ pt.y := by
            intro hh
            apply n2
            cases pi
            cases pt
            simp only [point.mk.injEq]
            exact ⟨e.symm, hh⟩
          have k2' : pi.y - pf.y < pt.y - pf.y :=
            lt_of_le_of_ne k2 (fun hh => hye (by linarith))
          have a1' : (pt.x - pf.x) * (pi.y - pf.y) < (pt.x - pf.x) * (pt.y - pf.y) :=
            mul_lt_mul_of_pos_left k2' k4
          have a2 : (pt.y - pf.y) * (pt.x - pf.x) = (pt.y - pf.y) * (pi.x - pf.x) := by
            rw [e]
          nlinarith
        · have a2 : (pt.y - pf.y) * (pt.x - pf.x) < (pt.y - pf.y) * (pi.x - pf.x) :=
            mul_lt_mul_of_pos_left (by linarith) k3
          nlinarith
    rw [decide_eq_true this]
  · rw [if_neg c3]
    have hfac : ∀ s : K, s * (pt.x - pf.x) = pt.y - pf.y →
        orient pf pt pi = (pt.x - pf.x) * (pi.y - (pf.y + s * (pi.x - pf.x))) := by
      intro s hs
      unfold orient
      rw [← hs]
      ring
    rcases lt_or_gt_of_ne hdx with c4 | c4
    · have c4' : ¬ pt.x > pf.x := not_lt.mpr (by linarith)
      have c4'' : pt.x < pf.x := by linarith
      have hd : pt.x - pf.x < 0 := c4
      rw [if_neg c4', if_pos c4'']
      have ho := hfac _ (div_mul_cancel₀ (pt.y - pf.y) (ne_of_lt hd))
      have key : (pi.y > pf.y + (pt.y - pf.y) / (pt.x - pf.x) * (pi.x - pf.x)) ↔
          orient pf pt pi < 0 := by
        rw [ho, mul_neg_iff]
        constructor
        · intro h
          exact Or.inr ⟨hd, by linarith⟩
        · rintro (⟨h, -⟩ | ⟨-, h⟩)
          · linarith
          · linarith
      by_cases c5 : pi.y > pf.y + (pt.y - pf.y) / (pt.x - pf.x) * (pi.x - pf.x)
      · rw [if_pos c5, decide_eq_true (key.mp c5)]
      · rw [if_neg c5, decide_eq_false (fun h => c5 (key.mpr h))]
    · have c4' : pt.x > pf.x := by linarith
      have hd : 0 < pt.x - pf.x := c4
      rw [if_pos c4']
      have ho := hfac _ (div_mul_cancel₀ (pt.y - pf.y) (ne_of_gt hd))
      have key : (pi.y < pf.y + (pt.y - pf.y) / (pt.x - pf.x) * (pi.x - pf.x)) ↔
          orient pf pt pi < 0 := by
        rw [ho, mul_neg_iff]
        constructor
        · intro h
          exact Or.inl ⟨hd, by linarith⟩
        · rintro (⟨-, h⟩ | ⟨h, -⟩)
          · linarith
          · linarith
      by_cases c5 : pi.y < pf.y + (pt.y - pf.y) / (pt.x - pf.x) * (pi.x - pf.x)
      · rw [if_pos c5, decide_eq_true (key.mp c5)]
      · rw [if_neg c5, decide_eq_false (fun h => c5 (key.mpr h))]

/-- C39: `visible` agrees with the orientation test for x-sorted input.  For an
edge whose end points `p[from]`, `p[to]` differ by at least `mindistance = 1e-7`
in `x` and in `y`, and a point `p[i]` that is none of the two end points and has
`p[i].x >= max(p[from].x, p[to].x)`, `visible(p, i)` returns, and it returns true
if and only if the cross product `(to - from) x (p[i] - from)` is negative, that
is, `p[i]` lies strictly to the right of the directed edge. -/
theorem visible_orientation (x : edge) (p : List (point K)) (i : Int) (pf pt pi : point K)
    (hf : rdp p x.from_ = some pf) (ht : rdp p x.to_ = some pt) (hi : rdp p i = some pi)
    (hx : mindistance ≤ |pt.x - pf.x|) (hy : mindistance ≤ |pt.y - pf.y|)
    (hmax : max pf.x pt.x ≤ pi.x) (n1 : pi ≠ pf) (n2 : pi ≠ pt) :
    ∃ b : Bool, x.visible p i = some b ∧
      (b = true ↔ (pt.x - pf.x) * (pi.y - pf.y) - (pt.y - pf.y) * (pi.x - pf.x) < 0) := by
  refine ⟨decide (orient pf pt pi < 0), ?_, ?_⟩
  · exact visible_exact_ge hf ht hi (by rw [abs_sub_comm]; exact hx) hy
      (le_trans (le_max_left _ _) hmax) (le_trans (le_max_right _ _) hmax) n1 n2
  · rw [decide_eq_true_iff]
    rfl

end S

/-- Instance of C39: the edge from `(0,0)` to `(1,1)` seen from `(2,0)`. -/
theorem visible_orientation_witness :
    ∃ b : Bool, edge.visible ⟨0, 1, -1, -1, -1, -1⟩
        [(⟨0, 0⟩ : point ℚ), ⟨1, 1⟩, ⟨2, 0⟩] 2 = some b ∧
      (b = true ↔ ((1 : ℚ) - 0) * (0 - 0) - (1 - 0) * (2 - 0) < 0) :=
  visible_orientation ⟨0, 1, -1, -1, -1, -1⟩ [(⟨0, 0⟩ : point ℚ), ⟨1, 1⟩, ⟨2, 0⟩] 2
    ⟨0, 0⟩ ⟨1, 1⟩ ⟨2, 0⟩ rfl rfl rfl (by unfold mindistance; norm_num)
    (by unfold mindistance; norm_num) (by norm_num) (by decide) (by decide)

end Tipper

/-! ## The flip criterion: guard, in-circle test, convexity, flip-back -/

namespace Tipper

section G
variable {K : Type} [LinearOrderedField K]

theorem dot_self_nonneg (a : point K) : 0 ≤ a.dot a := by
  unfold point.dot
  have := mul_self_nonneg a.x
  have := mul_self_nonneg a.y
  linarith

theorem cosSum_nonneg (sqrt : K → K) (hsq : ∀ x, 0 ≤ x → 0 ≤ sqrt x ∧ sqrt x * sqrt x = x)
    (pl pf pt pr : point K) (h1 : 0 ≤ (pl.sub pf).dot (pl.sub pt))
    (h2 : 0 ≤ (pr.sub pf).dot (pr.sub pt)) : 0 ≤ cosSum sqrt pl pf pt pr := by
  unfold cosSum
  have a1 := (hsq _ (mul_nonneg (dot_self_nonneg (pl.sub pf)) (dot_self_nonneg (pl.sub pt)))).1
  have a2 := (hsq _ (mul_nonneg (dot_self_nonneg (pr.sub pf)) (dot_self_nonneg (pr.sub pt)))).1
  exact add_nonneg (div_nonneg h1 a1) (div_nonneg h2 a2)

theorem flipTest_iff_cosSum (sqrt : K → K)
    (hsq : ∀ x, 0 ≤ x → 0 ≤ sqrt x ∧ sqrt x * sqrt x = x) (pl pf pt pr : point K) :
    flipTest sqrt pl pf pt pr ↔ cosSum sqrt pl pf pt pr < 0 := by
  constructor
  · intro h
    exact h.2
  · intro h
    refine ⟨?_, h⟩
    by_contra hn
    push_neg at hn
    exact absurd h (not_lt.mpr (cosSum_nonneg sqrt hsq pl pf pt pr hn.1 hn.2))

theorem flipTest_lr (sqrt : K → K) (pl pf pt pr : point K) :
    flipTest sqrt pl pf pt pr ↔ flipTest sqrt pr pf pt pl := by
  unfold flipTest
  rw [or_comm, add_comm]

theorem dot_comm (a b : point K) : a.dot b = b.dot a := by
  unfold point.dot
  ring

theorem flipTest_ft (sqrt : K → K) (pl pf pt pr : point K) :
    flipTest sqrt pl pf pt pr ↔ flipTest sqrt pl pt pf pr := by
  unfold flipTest
  rw [dot_comm (pl.sub pf) (pl.sub pt), dot_comm (pr.sub pf) (pr.sub pt),
    mul_comm ((pl.sub pf).dot (pl.sub pf)), mul_comm ((pr.sub pf).dot (pr.sub pf))]

/-- the in-circle test implies the cosine test -/
theorem cos_of_inCircle (dt1 dt2 c1 c2 sA sB : K) (hA : sA * sA = dt1 * dt1 + c1 * c1)
    (hB : sB * sB = dt2 * dt2 + c2 * c2) (hsA : 0 < sA) (hsB : 0 < sB)
    (hc1 : 0 < c1) (hc2 : c2 < 0) (h : c1 * dt2 - dt1 * c2 < 0) :
    dt1 * sB + dt2 * sA < 0 := by
  have key : ∀ x y : K, (x * sA) * (x * sA) - (y * sB) * (y * sB) =
      x * x * (dt1 * dt1 + c1 * c1) - y * y * (dt2 * dt2 + c2 * c2) := by
    intro x y
    rw [← hA, ← hB]
    ring
  by_cases h2 : 0 ≤ dt2
  · have e0 : 0 ≤ c1 * dt2 := mul_nonneg hc1.le h2
    have e1 : 0 < dt1 * c2 := by linarith
    have h1 : dt1 < 0 := by
      by_contra hn
      push_neg at hn
      have := mul_nonpos_of_nonneg_of_nonpos hn hc2.le
      linarith
    have e2 : (c1 * dt2) * (c1 * dt2) < (dt1 * c2) * (dt1 * c2) :=
      mul_self_lt_mul_self e0 (by linarith)
    have e3 : (dt2 * sA) * (dt2 * sA) < (-dt1 * sB) * (-dt1 * sB) := by
      have := key dt2 dt1
      nlinarith
    have e4 : 0 ≤ -dt1 * sB := mul_nonneg (by linarith) hsB.le
    have := lt_of_mul_self_lt_mul_self₀ e4 e3
    linarith
  · push_neg at h2
    by_cases h1 : dt1 ≤ 0
    · have := mul_nonpos_of_nonpos_of_nonneg h1 hsB.le
      have := mul_neg_of_neg_of_pos h2 hsA
      linarith
    · push_neg at h1
      have e0 : 0 ≤ -(dt1 * c2) := by
        have := mul_neg_of_pos_of_neg h1 hc2
        linarith
      have e2 : (-(dt1 * c2)) * (-(dt1 * c2)) < (-(c1 * dt2)) * (-(c1 * dt2)) :=
        mul_self_lt_mul_self e0 (by linarith)
      have e3 : (dt1 * sB) * (dt1 * sB) < (-dt2 * sA) * (-dt2 * sA) := by
        have := key dt2 dt1
        nlinarith
      have e4 : 0 ≤ -dt2 * sA := mul_nonneg (by linarith) hsA.le
      have := lt_of_mul_self_lt_mul_self₀ e4 e3
      linarith

/-- For `L` left and `R` right of `F -> T`, the flip criterion of `swap` is
the in-circle inequality. -/
theorem flipTest_iff_inCircle (sqrt : K → K)
    (hsq : ∀ x, 0 ≤ x → 0 ≤ sqrt x ∧ sqrt x * sqrt x = x)
    (pl pf pt pr : point K) (h1 : 0 < orient pf pt pl) (h2 : orient pf pt pr < 0) :
    flipTest sqrt pl pf pt pr ↔ inCircle pf pt pl pr < 0 := by
  refine ⟨inCircle_of_flipTest sqrt hsq pl pf pt pr h1 h2, fun h => ?_⟩
  rw [flipTest_iff_cosSum sqrt hsq]
  have hA := lagrange pl pf pt
  have hB := lagrange pr pf pt
  have pA : 0 < (pl.sub pf).dot (pl.sub pf) * (pl.sub pt).dot (pl.sub pt) := by
    rw [hA]
    have := mul_self_nonneg ((pl.sub pf).dot (pl.sub pt))
    have := mul_pos h1 h1
    linarith
  have pB : 0 < (pr.sub pf).dot (pr.sub pf) * (pr.sub pt).dot (pr.sub pt) := by
    rw [hB]
    have := mul_self_nonneg ((pr.sub pf).dot (pr.sub pt))
    have := mul_pos_of_neg_of_neg h2 h2
    linarith
  obtain ⟨nA, sA⟩ := hsq _ pA.le
  obtain ⟨nB, sB⟩ := hsq _ pB.le
  have qA : 0 < sqrt ((pl.sub pf).dot (pl.sub pf) * (pl.sub pt).dot (pl.sub pt)) := by
    rcases nA.lt_or_eq with h0 | h0
    · exact h0
    · rw [← h0] at sA
      simp only [mul_zero] at sA
      rw [← sA] at pA
      exact absurd pA (lt_irrefl _)
  have qB : 0 < sqrt ((pr.sub pf).dot (pr.sub pf) * (pr.sub pt).dot (pr.sub pt)) := by
    rcases nB.lt_or_eq with h0 | h0
    · exact h0
    · rw [← h0] at sB
      simp only [mul_zero] at sB
      rw [← sB] at pB
      exact absurd pB (lt_irrefl _)
  unfold cosSum
  rw [div_add_div _ _ qA.ne' qB.ne', div_lt_iff₀ (mul_pos qA qB), zero_mul]
  have := cos_of_inCircle ((pl.sub pf).dot (pl.sub pt)) ((pr.sub pf).dot (pr.sub pt))
    (orient pf pt pl) (orient pf pt pr) _ _ (sA.trans hA) (sB.trans hB) qA qB h1 h2 h
  linarith

theorem inCircle_lr (pf pt pl pr : point K) :
    inCircle pf pt pr pl = - inCircle pf pt pl pr := by
  unfold inCircle
  ring

/-- The power of `pr` with respect to the circle through `pf`, `pt`, `pl`. -/
theorem power_circle (c pf pt pl pr : point K) (h1 : sqDist c pf = sqDist c pt)
    (h2 : sqDist c pf = sqDist c pl) :
    orient pf pt pl * (sqDist c pr - sqDist c pf) = inCircle pf pt pl pr := by
  simp only [sqDist, orient, inCircle, point.sub, point.dot] at *
  linear_combination (-((pr.x - pf.x) * (pl.y - pf.y) - (pr.y - pf.y) * (pl.x - pf.x))) * h1 +
    (-((pt.x - pf.x) * (pr.y - pf.y) - (pt.y - pf.y) * (pr.x - pf.x))) * h2

theorem circumcentre_exists (pf pt pl : point K) (h : orient pf pt pl ≠ 0) :
    ∃ c : point K, sqDist c pf = sqDist c pt ∧ sqDist c pf = sqDist c pl := by
  refine ⟨⟨pf.x + ((pt.sub pf).dot (pt.sub pf) * (pl.y - pf.y) -
        (pl.sub pf).dot (pl.sub pf) * (pt.y - pf.y)) / (2 * orient pf pt pl),
      pf.y + ((pl.sub pf).dot (pl.sub pf) * (pt.x - pf.x) -
        (pt.sub pf).dot (pt.sub pf) * (pl.x - pf.x)) / (2 * orient pf pt pl)⟩, ?_, ?_⟩
  · simp only [sqDist, point.sub, point.dot]
    field_simp
    simp only [orient]
    ring
  · simp only [sqDist, point.sub, point.dot]
    field_simp
    simp only [orient]
    ring

theorem inCircumcircle_iff (pf pt pl pr : point K) (h : orient pf pt pl ≠ 0) :
    InCircumcircle pf pt pl pr ↔ orient pf pt pl * inCircle pf pt pl pr < 0 := by
  have hpos : 0 < orient pf pt pl * orient pf pt pl := by
    rcases lt_or_gt_of_ne h with h0 | h0
    · exact mul_pos_of_neg_of_neg h0 h0
    · exact mul_pos h0 h0
  have e : ∀ c : point K, sqDist c pf = sqDist c pt → sqDist c pf = sqDist c pl →
      (sqDist c pr < sqDist c pf ↔ orient pf pt pl * inCircle pf pt pl pr < 0) := by
    intro c h1 h2
    rw [← power_circle c pf pt pl pr h1 h2, ← mul_assoc]
    constructor
    · intro h3
      exact mul_neg_of_pos_of_neg hpos (by linarith)
    · intro h3
      have := (pos_iff_neg_of_mul_neg h3).mp hpos
      linarith
  constructor
  · rintro ⟨c, h1, h2, h3⟩
    exact (e c h1 h2).mp h3
  · intro h3
    obtain ⟨c, h1, h2⟩ := circumcentre_exists pf pt pl h
    exact ⟨c, h1, h2, (e c h1 h2).mpr h3⟩

/-- The flip criterion of `swap` for opposite points on opposite sides of the
edge, in either order, is the in-circle test. -/
theorem flipTest_iff_inCircumcircle (sqrt : K → K)
    (hsq : ∀ x, 0 ≤ x → 0 ≤ sqrt x ∧ sqrt x * sqrt x = x) (pl pf pt pr : point K)
    (hopp : (0 < orient pf pt pl ∧ orient pf pt pr < 0) ∨
      (orient pf pt pl < 0 ∧ 0 < orient pf pt pr)) :
    flipTest sqrt pl pf pt pr ↔ InCircumcircle pf pt pl pr := by
  rcases hopp with ⟨h1, h2⟩ | ⟨h1, h2⟩
  · rw [flipTest_iff_inCircle sqrt hsq pl pf pt pr h1 h2, inCircumcircle_iff _ _ _ _ h1.ne']
    constructor
    · intro h
      exact mul_neg_of_pos_of_neg h1 h
    · intro h
      exact (pos_iff_neg_of_mul_neg h).mp h1
  · rw [flipTest_lr, flipTest_iff_inCircle sqrt hsq pr pf pt pl h2 h1,
      inCircumcircle_iff _ _ _ _ h1.ne, inCircle_lr]
    constructor
    · intro h
      exact mul_neg_of_neg_of_pos h1 (by linarith)
    · intro h
      have := (neg_iff_pos_of_mul_neg h).mp h1
      linarith

end G

end Tipper

namespace Tipper

section G
variable {K : Type} [LinearOrderedField K]

/-- C33: the dot-product guard of `swap` never changes the outcome.  Over an
ordered field with a square root, for distinct points: when both dot products
`dt1 = (L-from).(L-to)` and `dt2 = (R-from).(R-to)` are non-negative, the sum
of the two quotients `dt1/sqrt(..) + dt2/sqrt(..)` is non-negative; so the test
of `swap` (guard and negative sum) holds if and only if the sum is negative,
and a call of `swap` on an edge with its four neighbours set runs the flip
step exactly when the sum is negative. -/
theorem guard_redundant (sqrt : K → K)
    (hsq : ∀ x, 0 ≤ x → 0 ≤ sqrt x ∧ sqrt x * sqrt x = x) (pl pf pt pr : point K)
    (hd : pl ≠ pf ∧ pl ≠ pt ∧ pr ≠ pf ∧ pr ≠ pt) :
    (0 ≤ (pl.sub pf).dot (pl.sub pt) → 0 ≤ (pr.sub pf).dot (pr.sub pt) →
      0 ≤ cosSum sqrt pl pf pt pr) ∧
    (flipTest sqrt pl pf pt pr ↔ cosSum sqrt pl pf pt pr < 0) ∧
    ∀ (depth : Nat) (tint : Int) (e : List edge) (p : List (point K)) (t el er : edge),
      rde e tint = Except.ok t →
      (t.lef ≠ -1 ∧ t.let_ ≠ -1 ∧ t.ref ≠ -1 ∧ t.ret ≠ -1) →
      rde e t.lef = Except.ok el → rde e t.ref = Except.ok er →
      rdpE p (if el.from_ = t.from_ then el.to_ else el.from_) = Except.ok pl →
      rdpE p t.from_ = Except.ok pf → rdpE p t.to_ = Except.ok pt →
      rdpE p (if er.from_ = t.from_ then er.to_ else er.from_) = Except.ok pr →
      edge.swap sqrt (depth + 1) tint e p =
        if cosSum sqrt pl pf pt pr < 0 then
          (flipStep tint (if el.from_ = t.from_ then el.to_ else el.from_)
            (if er.from_ = t.from_ then er.to_ else er.from_) e >>=
            afterFlip (fun n e => edge.swap sqrt depth n e p) tint)
        else Except.ok (e, 0) := by
  have _ := hd
  refine ⟨cosSum_nonneg sqrt hsq pl pf pt pr, flipTest_iff_cosSum sqrt hsq pl pf pt pr, ?_⟩
  intro depth tint e p t el er ht hn hl hr hpl hpf hpt hpr
  rw [swap_unfold sqrt depth tint e p t el er pl pf pt pr ht hn hl hr hpl hpf hpt hpr]
  by_cases h : flipTest sqrt pl pf pt pr
  · rw [if_pos h, if_pos ((flipTest_iff_cosSum sqrt hsq pl pf pt pr).mp h)]
  · rw [if_neg h, if_neg (fun h2 => h ((flipTest_iff_cosSum sqrt hsq pl pf pt pr).mpr h2))]

/-- C34: the flip criterion is the in-circle test.  Over an ordered field with
a square root, for an edge `F-T` with opposite points `L` and `R` strictly on
opposite sides of the line `FT`, the cosine sum of `swap` is negative if and
only if `R` lies strictly inside the circle through `F`, `T`, `L`, and so
does the whole test of `swap`. -/
theorem flip_iff_inCircle (sqrt : K → K)
    (hsq : ∀ x, 0 ≤ x → 0 ≤ sqrt x ∧ sqrt x * sqrt x = x) (pl pf pt pr : point K)
    (hopp : (0 < orient pf pt pl ∧ orient pf pt pr < 0) ∨
      (orient pf pt pl < 0 ∧ 0 < orient pf pt pr)) :
    (cosSum sqrt pl pf pt pr < 0 ↔ InCircumcircle pf pt pl pr) ∧
    (flipTest sqrt pl pf pt pr ↔ InCircumcircle pf pt pl pr) := by
  have h := flipTest_iff_inCircumcircle sqrt hsq pl pf pt pr hopp
  exact ⟨(flipTest_iff_cosSum sqrt hsq pl pf pt pr).symm.trans h, h⟩

theorem crossing (pl pf pt pr : point K) (a b : K) (ha : a = orient pl pr pt)
    (hb : b = orient pl pr pf) (c d : K) (hc : c = orient pf pt pl) (hd : d = orient pf pt pr)
    (hab : a - b ≠ 0) :
    pf.x + (-b / (a - b)) * (pt.x - pf.x) = pl.x + (c / (c - d)) * (pr.x - pl.x) ∧
    pf.y + (-b / (a - b)) * (pt.y - pf.y) = pl.y + (c / (c - d)) * (pr.y - pl.y) := by
  have e : c - d = a - b := by
    rw [ha, hb, hc, hd]
    simp only [orient]
    ring
  rw [e]
  constructor
  · field_simp
    rw [ha, hb, hc]
    simp only [orient]
    ring
  · field_simp
    rw [ha, hb, hc]
    simp only [orient]
    ring

theorem convex_of_flipTest (sqrt : K → K)
    (hsq : ∀ x, 0 ≤ x → 0 ≤ sqrt x ∧ sqrt x * sqrt x = x) (pl pf pt pr : point K)
    (hopp : (0 < orient pf pt pl ∧ orient pf pt pr < 0) ∨
      (orient pf pt pl < 0 ∧ 0 < orient pf pt pr))
    (h : flipTest sqrt pl pf pt pr) :
    (0 < orient pf pt pl ∧ orient pf pt pr < 0 ∧ 0 < orient pl pr pt ∧ orient pl pr pf < 0) ∨
    (orient pf pt pl < 0 ∧ 0 < orient pf pt pr ∧ orient pl pr pt < 0 ∧ 0 < orient pl pr pf) := by
  rcases hopp with ⟨h1, h2⟩ | ⟨h1, h2⟩
  · have hI := inCircle_of_flipTest sqrt hsq pl pf pt pr h1 h2 h
    obtain ⟨g1, g2⟩ := convex_of_inCircle pf pt pl pr h1 h2 hI
    exact Or.inl ⟨h1, h2, g1, g2⟩
  · have hI := inCircle_of_flipTest sqrt hsq pr pf pt pl h2 h1 ((flipTest_lr sqrt _ _ _ _).mp h)
    obtain ⟨g1, g2⟩ := convex_of_inCircle pf pt pr pl h2 h1 hI
    refine Or.inr ⟨h1, h2, ?_, ?_⟩
    · have := orient_swap pr pl pt
      linarith
    · have := orient_swap pr pl pf
      linarith

/-- C35: a flip is never applied to a non-convex quadrilateral.  Over an
ordered field with a square root, when the flip criterion of `swap` holds for
the edge `F-T` with opposite points `L`, `R` strictly on opposite sides of
`FT`: the quadrilateral `F, R, T, L` is strictly convex (its four corners turn
the same way); the new edge `L-R` and the old edge `F-T` cross in a point
interior to both; and no point is a strict convex combination of the corners
of both new triangles `L, R, T` and `R, L, F`. -/
theorem flip_convex (sqrt : K → K)
    (hsq : ∀ x, 0 ≤ x → 0 ≤ sqrt x ∧ sqrt x * sqrt x = x) (pl pf pt pr : point K)
    (hopp : (0 < orient pf pt pl ∧ orient pf pt pr < 0) ∨
      (orient pf pt pl < 0 ∧ 0 < orient pf pt pr))
    (h : flipTest sqrt pl pf pt pr) :
    ((0 < orient pf pr pt ∧ 0 < orient pr pt pl ∧ 0 < orient pt pl pf ∧ 0 < orient pl pf pr) ∨
      (orient pf pr pt < 0 ∧ orient pr pt pl < 0 ∧ orient pt pl pf < 0 ∧
        orient pl pf pr < 0)) ∧
    (∃ s t : K, 0 < s ∧ s < 1 ∧ 0 < t ∧ t < 1 ∧
      pf.x + s * (pt.x - pf.x) = pl.x + t * (pr.x - pl.x) ∧
      pf.y + s * (pt.y - pf.y) = pl.y + t * (pr.y - pl.y)) ∧
    ∀ (x : point K) (a b c a' b' c' : K), 0 < a → 0 < b → 0 < c → a + b + c = 1 →
      x.x = a * pl.x + b * pr.x + c * pt.x → x.y = a * pl.y + b * pr.y + c * pt.y →
      0 < a' → 0 < b' → 0 < c' → a' + b' + c' = 1 →
      x.x = a' * pr.x + b' * pl.x + c' * pf.x → x.y = a' * pr.y + b' * pl.y + c' * pf.y →
      False := by
  have hc := convex_of_flipTest sqrt hsq pl pf pt pr hopp h
  have r1 : orient pf pr pt = - orient pf pt pr := by
    simp only [orient]
    ring
  have r2 : orient pr pt pl = orient pl pr pt := orient_cyc pl pr pt
  have r3 : orient pt pl pf = orient pf pt pl := orient_cyc pf pt pl
  have r4 : orient pl pf pr = - orient pl pr pf := by
    simp only [orient]
    ring
  rw [r1, r2, r3, r4]
  have hx : ∀ (x : point K) (a b c : K) (u v w : point K), a + b + c = 1 →
      x.x = a * u.x + b * v.x + c * w.x → x.y = a * u.y + b * v.y + c * w.y →
      orient u v x = c * orient u v w := by
    intro x a b c u v w hs h1 h2
    have ha : a = 1 - b - c := by linarith
    simp only [orient]
    rw [h1, h2, ha]
    ring
  have hover : ∀ (x : point K) (a b c a' b' c' : K), 0 < a → 0 < b → 0 < c → a + b + c = 1 →
      x.x = a * pl.x + b * pr.x + c * pt.x → x.y = a * pl.y + b * pr.y + c * pt.y →
      0 < a' → 0 < b' → 0 < c' → a' + b' + c' = 1 →
      x.x = a' * pr.x + b' * pl.x + c' * pf.x → x.y = a' * pr.y + b' * pl.y + c' * pf.y →
      orient pl pr pt * orient pl pr pf < 0 → False := by
    intro x a b c a' b' c' _ _ pc hs h1 h2 _ _ pc' hs' h1' h2' hneg
    have e1 := hx x a b c pl pr pt hs h1 h2
    have e2 := hx x b' a' c' pl pr pf (by linarith) (by linarith) (by linarith)
    have e3 : c * orient pl pr pt = c' * orient pl pr pf := by rw [← e1, ← e2]
    have e4 : (c * orient pl pr pt) * (c' * orient pl pr pf) < 0 := by
      have : (c * orient pl pr pt) * (c' * orient pl pr pf) =
          (c * c') * (orient pl pr pt * orient pl pr pf) := by ring
      rw [this]
      exact mul_neg_of_pos_of_neg (mul_pos pc pc') hneg
    rw [e3] at e4
    exact absurd e4 (not_lt.mpr (mul_self_nonneg _))
  rcases hc with ⟨h1, h2, g1, g2⟩ | ⟨h1, h2, g1, g2⟩
  · refine ⟨Or.inl ⟨by linarith, g1, h1, by linarith⟩, ?_, ?_⟩
    · have hab : orient pl pr pt - orient pl pr pf ≠ 0 := by
        have : 0 < orient pl pr pt - orient pl pr pf := by linarith
        exact this.ne'
      obtain ⟨c1, c2⟩ := crossing pl pf pt pr _ _ rfl rfl _ _ rfl rfl hab
      refine ⟨_, _, ?_, ?_, ?_, ?_, c1, c2⟩
      · exact div_pos (by linarith) (by linarith)
      · rw [div_lt_one (by linarith)]
        linarith
      · exact div_pos h1 (by linarith)
      · rw [div_lt_one (by linarith)]
        linarith
    · intro x a b c a' b' c' p1 p2 p3 p4 p5 p6 p7 p8 p9 p10 p11 p12
      exact hover x a b c a' b' c' p1 p2 p3 p4 p5 p6 p7 p8 p9 p10 p11 p12
        (mul_neg_of_pos_of_neg g1 g2)
  · refine ⟨Or.inr ⟨by linarith, g1, h1, by linarith⟩, ?_, ?_⟩
    · have hab : orient pl pr pt - orient pl pr pf ≠ 0 := by
        have : orient pl pr pt - orient pl pr pf < 0 := by linarith
        exact this.ne
      obtain ⟨c1, c2⟩ := crossing pl pf pt pr _ _ rfl rfl _ _ rfl rfl hab
      refine ⟨_, _, ?_, ?_, ?_, ?_, c1, c2⟩
      · exact div_pos_of_neg_of_neg (by linarith) (by linarith)
      · rw [div_lt_one_of_neg (by linarith)]
        linarith
      · exact div_pos_of_neg_of_neg h1 (by linarith)
      · rw [div_lt_one_of_neg (by linarith)]
        linarith
    · intro x a b c a' b' c' p1 p2 p3 p4 p5 p6 p7 p8 p9 p10 p11 p12
      exact hover x a b c a' b' c' p1 p2 p3 p4 p5 p6 p7 p8 p9 p10 p11 p12
        (mul_neg_of_neg_of_pos g1 g2)

end G

end Tipper

namespace Tipper

section G
variable {K : Type} [LinearOrderedField K]

theorem inCircle_back (pf pt pl pr : point K) :
    inCircle pl pr pt pf = - inCircle pf pt pl pr := by
  simp only [inCircle, orient, point.sub, point.dot]
  ring

/-- After a flip of `F -> T` with `L` left and `R` right, the criterion fails
on the new edge `L -> R`, whose left point is `T` and right point is `F`. -/
theorem flipTest_back (sqrt : K → K)
    (hsq : ∀ x, 0 ≤ x → 0 ≤ sqrt x ∧ sqrt x * sqrt x = x) (pl pf pt pr : point K)
    (h1 : 0 < orient pf pt pl) (h2 : orient pf pt pr < 0) (h : flipTest sqrt pl pf pt pr) :
    ¬ flipTest sqrt pt pl pr pf := by
  intro hb
  have hI := inCircle_of_flipTest sqrt hsq pl pf pt pr h1 h2 h
  obtain ⟨g1, g2⟩ := convex_of_inCircle pf pt pl pr h1 h2 hI
  have hJ := inCircle_of_flipTest sqrt hsq pt pl pr pf g1 g2 hb
  rw [inCircle_back] at hJ
  linarith

/-- C36: no immediate flip-back.  Over an ordered field with a square root:
when the flip criterion of `swap` holds for the edge `F-T` with opposite points
`L`, `R` strictly on opposite sides, it fails for the edge `L-R` with the
opposite points `T` and `F`; and in a consistent edge table, for an edge `tn`
with its four neighbours set on which the criterion holds, the flip step
returns a table in which `tn` runs from `L` to `R`, and a call of `swap` on
`tn` in that table returns 0 and leaves the table as it is. -/
theorem no_flip_back (sqrt : K → K)
    (hsq : ∀ x, 0 ≤ x → 0 ≤ sqrt x ∧ sqrt x * sqrt x = x) :
    (∀ pl pf pt pr : point K,
      ((0 < orient pf pt pl ∧ orient pf pt pr < 0) ∨
        (orient pf pt pl < 0 ∧ 0 < orient pf pt pr)) →
      flipTest sqrt pl pf pt pr → ¬ flipTest sqrt pt pl pr pf) ∧
    ∀ (depth : Nat) (e : List edge) (p : List (point K)) (tn : Nat) (t : edge),
      Valid e p → e[tn]? = some t → t.full →
      flipTest sqrt (ptAt p ((edAt e t.lef).far t.from_)) (ptAt p t.from_) (ptAt p t.to_)
        (ptAt p ((edAt e t.ref).far t.from_)) →
      ∃ e1 : List edge,
        flipStep tn ((edAt e t.lef).far t.from_) ((edAt e t.ref).far t.from_) e =
          Except.ok e1 ∧
        e1[tn]? = some ⟨(edAt e t.lef).far t.from_, (edAt e t.ref).far t.from_,
          t.let_, t.ret, t.lef, t.ref⟩ ∧
        edge.swap sqrt (depth + 1) tn e1 p = Except.ok (e1, 0) := by
  constructor
  · intro pl pf pt pr hopp h
    rcases hopp with ⟨h1, h2⟩ | ⟨h1, h2⟩
    · exact flipTest_back sqrt hsq pl pf pt pr h1 h2 h
    · have := flipTest_back sqrt hsq pr pf pt pl h2 h1 ((flipTest_lr sqrt _ _ _ _).mp h)
      intro hb
      exact this ((flipTest_ft sqrt _ _ _ _).mp hb)
  · intro depth e p tn t hv ht hfull hft
    obtain ⟨a, b, c, d, L, R, ea, eb, ec, ed, pF, pT, pL, pR, et, h⟩ := hv.ctx ht hfull
    obtain ⟨n1, n2, n3, n4, n5, n6⟩ := h.ne
    have hla : rde e t.lef = Except.ok ea := by rw [et]; exact rde_get h.ha
    have hrc : rde e t.ref = Except.ok ec := by rw [et]; exact rde_get h.hc
    have eL : (edAt e t.lef).far t.from_ = L := by
      rw [edAt_of_rde hla]
      exact edge.far_of_joins h.ja n2
    have eR : (edAt e t.ref).far t.from_ = R := by
      rw [edAt_of_rde hrc]
      exact edge.far_of_joins h.jc n4
    rw [eL, eR, ptAt_of_rdpE h.rF, ptAt_of_rdpE h.rT, ptAt_of_rdpE h.rL,
      ptAt_of_rdpE h.rR] at hft
    have oR' : orient pF pT pR < 0 := by
      have := h.oR
      rw [orient_swap] at this
      linarith
    have hI := inCircle_of_flipTest sqrt hsq pL pF pT pR h.oL oR' hft
    obtain ⟨g1, g2'⟩ := convex_of_inCircle pF pT pL pR h.oL oR' hI
    have g2 : 0 < orient pR pL pF := by
      rw [orient_swap]
      linarith
    obtain ⟨e1, a', b', c', d', hflip, hf⟩ := h.flipped
    have full1 : (⟨L, R, b, d, a, c⟩ : edge).full :=
      ⟨by simp, by simp, by simp, by simp⟩
    have jb : b'.joins L t.to_ :=
      edge.joins_symm (edge.joins_congr h.jb hf.fb.1 hf.fb.2)
    have ja : a'.joins L t.from_ :=
      edge.joins_symm (edge.joins_congr h.ja hf.fa.1 hf.fa.2)
    have fb : b'.far L = t.to_ := edge.far_of_joins jb n3.symm
    have fa : a'.far L = t.from_ := edge.far_of_joins ja n2.symm
    have su := swap_unfold sqrt depth tn e1 p ⟨L, R, b, d, a, c⟩ b' a' pT pL pR pF
      (rde_get hf.gt) full1 (rde_get hf.gb) (rde_get hf.ga)
      (by show rdpE p (b'.far L) = _; rw [fb]; exact h.rT) h.rL h.rR
      (by show rdpE p (a'.far L) = _; rw [fa]; exact h.rF)
    rw [if_neg (flipTest_back sqrt hsq pL pF pT pR h.oL oR' hft)] at su
    have k1 : t.lef = a := by rw [et]
    have k2 : t.let_ = b := by rw [et]
    have k3 : t.ref = c := by rw [et]
    have k4 : t.ret = d := by rw [et]
    refine ⟨e1, by rw [eL, eR]; exact hflip, ?_, su⟩
    rw [eL, eR, hf.gt, k1, k2, k3, k4]

end G

section S
variable {K : Type} [LinearOrderedField K] (sqrt : K → K) (depth : Nat) (junk : Nat → item)

/-- C37: the counting invariant of edges and hull.  In the state of
`triangulate` after the seed and `k` completed passes of the loop over the
points, whatever the visibility tests gave, `next_edge` (the number of edges
created so far) plus the number `num` of hull slots in use is `3 * m - 3`, with
`m = 3 + k` the number of points processed; so when `triangulate` has run to
the end on `npoints >= 3` points, the number of edges is
`3 * npoints - 3 - h`, with `h` the number of hull slots in use. -/
theorem counting_invariant (npoints : Int) (p : List (point K)) (k : Nat) (d : Driver)
    (hr : run sqrt depth junk npoints p k = Except.ok d) :
    d.next_edge + d.hull.num = 3 * (3 + (k : Int)) - 3 ∧
    ∀ d' : Driver, 3 ≤ npoints → triangulate sqrt depth junk npoints p = Except.ok d' →
      d'.next_edge = 3 * npoints - 3 - d'.hull.num := by
  refine ⟨(run_acc sqrt depth junk npoints p k d hr).2.2.1, ?_⟩
  intro d' hn ht
  have := (run_acc sqrt depth junk npoints p _ d' ht).2.2.1
  have e : (((npoints - 3).toNat : Nat) : Int) = npoints - 3 :=
    Int.toNat_of_nonneg (by omega)
  rw [e] at this
  omega

end S

end Tipper

namespace Tipper

theorem sqrt_spec : ∀ x : ℝ, 0 ≤ x → 0 ≤ Real.sqrt x ∧ Real.sqrt x * Real.sqrt x = x :=
  fun x hx => ⟨Real.sqrt_nonneg x, Real.mul_self_sqrt hx⟩

theorem sqrt_of_sq (a : ℝ) (ha : 0 ≤ a) (x : ℝ) (hx : x = a * a) : Real.sqrt x = a := by
  rw [hx]
  exact Real.sqrt_mul_self ha

theorem cosSum_kite :
    cosSum Real.sqrt (⟨0, 1 / 2⟩ : point ℝ) ⟨-1, 0⟩ ⟨1, 0⟩ ⟨0, -1 / 2⟩ = -6 / 5 := by
  simp only [cosSum, point.sub, point.dot]
  rw [sqrt_of_sq (5 / 4) (by norm_num) _ (by norm_num),
    sqrt_of_sq (5 / 4) (by norm_num) _ (by norm_num)]
  norm_num

theorem flipTest_kite :
    flipTest Real.sqrt (⟨0, 1 / 2⟩ : point ℝ) ⟨-1, 0⟩ ⟨1, 0⟩ ⟨0, -1 / 2⟩ := by
  rw [flipTest_iff_cosSum Real.sqrt sqrt_spec, cosSum_kite]
  norm_num

theorem kite_sides :
    (0 < orient (⟨-1, 0⟩ : point ℝ) ⟨1, 0⟩ ⟨0, 1 / 2⟩ ∧
      orient (⟨-1, 0⟩ : point ℝ) ⟨1, 0⟩ ⟨0, -1 / 2⟩ < 0) ∨
    (orient (⟨-1, 0⟩ : point ℝ) ⟨1, 0⟩ ⟨0, 1 / 2⟩ < 0 ∧
      0 < orient (⟨-1, 0⟩ : point ℝ) ⟨1, 0⟩ ⟨0, -1 / 2⟩) := by
  left
  simp only [orient]
  norm_num

theorem kite_distinct :
    (⟨0, 1 / 2⟩ : point ℝ) ≠ ⟨-1, 0⟩ ∧ (⟨0, 1 / 2⟩ : point ℝ) ≠ ⟨1, 0⟩ ∧
    (⟨0, -1 / 2⟩ : point ℝ) ≠ ⟨-1, 0⟩ ∧ (⟨0, -1 / 2⟩ : point ℝ) ≠ ⟨1, 0⟩ := by
  simp only [ne_eq, point.mk.injEq]
  norm_num

/-- Instance of C33: the diagonal of the kite `(-1,0)`, `(1,0)`, `(0,1/2)`,
`(0,-1/2)`, over the real numbers. -/
theorem guard_redundant_witness :
    ((⟨0, 1 / 2⟩ : point ℝ) ≠ ⟨-1, 0⟩ ∧ (⟨0, 1 / 2⟩ : point ℝ) ≠ ⟨1, 0⟩ ∧
      (⟨0, -1 / 2⟩ : point ℝ) ≠ ⟨-1, 0⟩ ∧ (⟨0, -1 / 2⟩ : point ℝ) ≠ ⟨1, 0⟩) ∧
    (flipTest Real.sqrt (⟨0, 1 / 2⟩ : point ℝ) ⟨-1, 0⟩ ⟨1, 0⟩ ⟨0, -1 / 2⟩ ↔
      cosSum Real.sqrt (⟨0, 1 / 2⟩ : point ℝ) ⟨-1, 0⟩ ⟨1, 0⟩ ⟨0, -1 / 2⟩ < 0) ∧
    edge.swap Real.sqrt (0 + 1) 0 quad5
        ([⟨-1, 0⟩, ⟨1, 0⟩, ⟨0, 1 / 2⟩, ⟨0, -1 / 2⟩] : List (point ℝ)) =
      if cosSum Real.sqrt (⟨0, 1 / 2⟩ : point ℝ) ⟨-1, 0⟩ ⟨1, 0⟩ ⟨0, -1 / 2⟩ < 0 then
        (flipStep 0 2 3 quad5 >>=
          afterFlip (fun n e => edge.swap Real.sqrt 0 n e
            ([⟨-1, 0⟩, ⟨1, 0⟩, ⟨0, 1 / 2⟩, ⟨0, -1 / 2⟩] : List (point ℝ))) 0)
      else Except.ok (quad5, 0) :=
  ⟨kite_distinct,
    (guard_redundant Real.sqrt sqrt_spec ⟨0, 1 / 2⟩ ⟨-1, 0⟩ ⟨1, 0⟩ ⟨0, -1 / 2⟩
      kite_distinct).2.1,
    (guard_redundant Real.sqrt sqrt_spec ⟨0, 1 / 2⟩ ⟨-1, 0⟩ ⟨1, 0⟩ ⟨0, -1 / 2⟩
      kite_distinct).2.2 0 0 quad5 _ ⟨0, 1, 1, 2, 3, 4⟩ ⟨2, 0, 2, 0, -1, -1⟩
      ⟨0, 3, 0, 4, -1, -1⟩ rfl (by decide) rfl rfl rfl rfl rfl rfl⟩

/-- Instance of C34: the kite over the real numbers. -/
theorem flip_iff_inCircle_witness :
    ((0 < orient (⟨-1, 0⟩ : point ℝ) ⟨1, 0⟩ ⟨0, 1 / 2⟩ ∧
        orient (⟨-1, 0⟩ : point ℝ) ⟨1, 0⟩ ⟨0, -1 / 2⟩ < 0) ∨
      (orient (⟨-1, 0⟩ : point ℝ) ⟨1, 0⟩ ⟨0, 1 / 2⟩ < 0 ∧
        0 < orient (⟨-1, 0⟩ : point ℝ) ⟨1, 0⟩ ⟨0, -1 / 2⟩)) ∧
    (cosSum Real.sqrt (⟨0, 1 / 2⟩ : point ℝ) ⟨-1, 0⟩ ⟨1, 0⟩ ⟨0, -1 / 2⟩ < 0 ↔
      InCircumcircle (⟨-1, 0⟩ : point ℝ) ⟨1, 0⟩ ⟨0, 1 / 2⟩ ⟨0, -1 / 2⟩) ∧
    (flipTest Real.sqrt (⟨0, 1 / 2⟩ : point ℝ) ⟨-1, 0⟩ ⟨1, 0⟩ ⟨0, -1 / 2⟩ ↔
      InCircumcircle (⟨-1, 0⟩ : point ℝ) ⟨1, 0⟩ ⟨0, 1 / 2⟩ ⟨0, -1 / 2⟩) :=
  ⟨kite_sides, flip_iff_inCircle Real.sqrt sqrt_spec ⟨0, 1 / 2⟩ ⟨-1, 0⟩ ⟨1, 0⟩ ⟨0, -1 / 2⟩
    kite_sides⟩

/-- Instance of C35: the kite over the real numbers; its diagonals cross in
the origin. -/
theorem flip_convex_witness :
    flipTest Real.sqrt (⟨0, 1 / 2⟩ : point ℝ) ⟨-1, 0⟩ ⟨1, 0⟩ ⟨0, -1 / 2⟩ ∧
    ∃ s t : ℝ, 0 < s ∧ s < 1 ∧ 0 < t ∧ t < 1 ∧
      (-1 : ℝ) + s * (1 - -1) = 0 + t * (0 - 0) ∧
      (0 : ℝ) + s * (0 - 0) = 1 / 2 + t * (-1 / 2 - 1 / 2) :=
  ⟨flipTest_kite,
    (flip_convex Real.sqrt sqrt_spec ⟨0, 1 / 2⟩ ⟨-1, 0⟩ ⟨1, 0⟩ ⟨0, -1 / 2⟩ kite_sides
      flipTest_kite).2.1⟩

/-- Instance of C36: the flip of the diagonal of the kite, over the real
numbers. -/
theorem no_flip_back_witness :
    Valid quad5 ([⟨-1, 0⟩, ⟨1, 0⟩, ⟨0, 1 / 2⟩, ⟨0, -1 / 2⟩] : List (point ℝ)) ∧
    flipTest Real.sqrt (⟨0, 1 / 2⟩ : point ℝ) ⟨-1, 0⟩ ⟨1, 0⟩ ⟨0, -1 / 2⟩ ∧
    ¬ flipTest Real.sqrt (⟨1, 0⟩ : point ℝ) ⟨0, 1 / 2⟩ ⟨0, -1 / 2⟩ ⟨-1, 0⟩ ∧
    ∃ e1 : List edge, flipStep 0 2 3 quad5 = Except.ok e1 ∧
      e1[0]? = some ⟨2, 3, 2, 4, 1, 3⟩ ∧
      edge.swap Real.sqrt (0 + 1) 0 e1
        ([⟨-1, 0⟩, ⟨1, 0⟩, ⟨0, 1 / 2⟩, ⟨0, -1 / 2⟩] : List (point ℝ)) = Except.ok (e1, 0) :=
  ⟨valid_quad5, flipTest_kite,
    (no_flip_back Real.sqrt sqrt_spec).1 ⟨0, 1 / 2⟩ ⟨-1, 0⟩ ⟨1, 0⟩ ⟨0, -1 / 2⟩ kite_sides
      flipTest_kite,
    (no_flip_back Real.sqrt sqrt_spec).2 0 quad5 _ 0 ⟨0, 1, 1, 2, 3, 4⟩ valid_quad5 rfl
      ⟨by decide, by decide, by decide, by decide⟩ flipTest_kite⟩

/-- Instance of C37: the four points `ptsBelow`, after the pass for point 3. -/
theorem counting_invariant_witness :
    run sqrt0 2 junk0 4 ptsBelow 1 = Except.ok below4 ∧
    below4.next_edge + below4.hull.num = 3 * (3 + ((1 : Nat) : Int)) - 3 ∧
    ∀ d' : Driver, (3 : Int) ≤ 4 → triangulate sqrt0 2 junk0 4 ptsBelow = Except.ok d' →
      d'.next_edge = 3 * 4 - 3 - d'.hull.num :=
  have h : run sqrt0 2 junk0 4 ptsBelow 1 = Except.ok below4 := by decide!
  ⟨h, counting_invariant sqrt0 2 junk0 4 ptsBelow 1 below4 h⟩

end Tipper

/-! ## Round trip of an insertion into the cyclic list and the deletion of the new slot -/

namespace Tipper
namespace cyclist

/-- The `next` and `prev` of the first slot of a cycle are fixed by the cycle. -/
theorem Rep.head_links {l : cyclist} {a : Nat} {tl fr : List Nat} (h : Rep l (a :: tl) fr) :
    ∃ x, l.ejs[a]? = some x ∧ x.next = (((tl ++ [a]).head?.getD a : Nat) : Int) ∧
      x.prev = (((a :: tl).getLast?.getD a : Nat) : Int) := by
  have hc : l.link ((a :: tl).getLast?.getD a) a := by
    have : (a :: tl).getLast? = some ((a :: tl).getLast (List.cons_ne_nil _ _)) :=
      List.getLast?_eq_getLast _ _
    rw [this]
    exact h.close _ _ rfl this
  have hn : l.link a ((tl ++ [a]).head?.getD a) := by
    cases tl with
    | nil => simpa using hc
    | cons b r =>
      have := h.chain
      simp only [List.chain'_cons] at this
      simpa using this.1
  obtain ⟨x, y, hx, hy, e1, -⟩ := hn
  obtain ⟨x', y', hx', hy', -, e2⟩ := hc
  rw [hx] at hy'
  injection hy' with hy'
  subst hy'
  exact ⟨x, hx, e1, e2⟩

/-- Two states that hold the same cycle and agree on the data of its slots
agree on these slots. -/
theorem Rep.same_slots {l l' : cyclist} {cyc fr fr' : List Nat} (h : Rep l cyc fr)
    (h' : Rep l' cyc fr') {a : Nat} (ha : a ∈ cyc)
    (hd : (l'.ejs[a]?).map item.data = (l.ejs[a]?).map item.data) :
    l'.ejs[a]? = l.ejs[a]? := by
  obtain ⟨pre, post, rfl⟩ := List.append_of_mem ha
  obtain ⟨x, hx, e1, e2⟩ := (Rep.to_head pre h).head_links
  obtain ⟨x', hx', e1', e2'⟩ := (Rep.to_head pre h').head_links
  rw [hx, hx'] at hd ⊢
  simp only [Option.map_some', Option.some.injEq] at hd
  cases x
  cases x'
  simp only at e1 e2 e1' e2' hd
  simp only [Option.some.injEq, item.mk.injEq]
  exact ⟨e1'.trans e1.symm, e2'.trans e2.symm, hd⟩

theorem chainTo_head {l : cyclist} {h : Int} {s : Nat} {fr : List Nat}
    (hc : l.chainTo h (s :: fr)) :
    h = (s : Int) ∧ ∃ x, l.ejs[s]? = some x ∧
      x.data = (match fr with | [] => l.size | t :: _ => (t : Int)) := by
  simp only [chainTo] at hc
  obtain ⟨h1, x, hx, hr⟩ := hc
  refine ⟨h1, x, hx, ?_⟩
  cases fr with
  | nil => simpa [chainTo] using hr
  | cons t r =>
    simp only [chainTo] at hr
    exact hr.1

/-- What the two round trips restore, from the cycle and the free slots. -/
theorem Rep.restored {l l2 : cyclist} {cyc : List Nat} {s : Nat} {fr : List Nat}
    (hc : Rep l cyc (s :: fr)) (h2 : Rep l2 cyc (s :: fr)) (hs : l2.size = l.size)
    (hd : ∀ j : Nat, j ≠ s → (l2.ejs[j]?).map item.data = (l.ejs[j]?).map item.data) :
    l2.WellFormed ∧ l2.num = l.num ∧ l2.hole = l.hole ∧ l2.size = l.size ∧
      l2.freeSlots = l.freeSlots ∧
      ∀ i, l.occupied i → l2.occupied i ∧ l2.rd i = l.rd i := by
  obtain ⟨e1, x, hx, dx⟩ := chainTo_head hc.free
  obtain ⟨e2, x2, hx2, dx2⟩ := chainTo_head h2.free
  refine ⟨⟨_, _, h2⟩, by rw [h2.num, hc.num], by rw [e1, e2], hs,
    by rw [h2.freeSlots, hc.freeSlots], ?_⟩
  intro i hi
  obtain ⟨n, hn, rfl⟩ := (hc.occupied_iff i).mp hi
  refine ⟨h2.mem_occupied hn, ?_⟩
  rw [rd_natCast, rd_natCast]
  refine Rep.same_slots hc h2 hn (hd n ?_)
  rintro rfl
  exact (List.nodup_append.mp hc.nodup_slots).2.2 hn (List.mem_cons_self _ _)

/-- C31: the round trip of an insertion and the deletion of the new slot.  For
a well-formed list with `1 <= num < size` and an occupied slot `a`:
`addAfter(a, ej)` returns a slot `s`, and `delNextNeg(s)` in the state it
leaves returns `a` and leaves a well-formed state with the `num`, `hole`,
`size` and free slots of the state before the insertion, in which every slot
occupied before is occupied and holds the `next`, `prev` and `data` it held;
and the same for `addBefore(a, ej)` followed by `delNextPos`. -/
theorem round_trip (l : cyclist) (a ej : Int) (hw : l.WellFormed) (h1 : 1 ≤ l.num)
    (h2 : l.num < l.size) (ha : l.occupied a) :
    (∃ (l1 : cyclist) (s : Int) (l2 : cyclist), l.addAfter a ej = Run.ok l1 s ∧
      l1.delNextNeg s = Run.ok l2 a ∧
      l2.WellFormed ∧ l2.num = l.num ∧ l2.hole = l.hole ∧ l2.size = l.size ∧
      l2.freeSlots = l.freeSlots ∧
      ∀ i, l.occupied i → l2.occupied i ∧ l2.rd i = l.rd i) ∧
    (∃ (l1 : cyclist) (s : Int) (l2 : cyclist), l.addBefore a ej = Run.ok l1 s ∧
      l1.delNextPos s = Run.ok l2 a ∧
      l2.WellFormed ∧ l2.num = l.num ∧ l2.hole = l.hole ∧ l2.size = l.size ∧
      l2.freeSlots = l.freeSlots ∧
      ∀ i, l.occupied i → l2.occupied i ∧ l2.rd i = l.rd i) := by
  have _ := h1
  obtain ⟨cyc, fr, hr⟩ := hw
  obtain ⟨n, hnc, rfl⟩ := (hr.occupied_iff a).mp ha
  obtain ⟨tl, ht, -⟩ := hr.of_mem hnc
  obtain ⟨s, fr', rfl⟩ := ht.free_cons h2
  constructor
  · have hrot := ht.rotate_left
    obtain ⟨r, tl', htl, hlast⟩ :
        ∃ r tl', tl ++ [n] = r :: tl' ∧ (r :: tl').getLast? = some n := by
      cases tl with
      | nil => exact ⟨n, [], rfl, rfl⟩
      | cons b t => exact ⟨b, t ++ [n], rfl, by rw [← List.cons_append]; exact List.getLast?_concat _ ⟩
    have hrot' := hrot
    rw [htl] at hrot'
    obtain ⟨l1, a1, r1, s1, -, d1⟩ := hrot'.addAfter_last ej hlast
    have r1' : Rep l1 (tl ++ [n, s]) fr' := by
      have e : r :: tl' ++ [s] = tl ++ [n, s] := by
        show (r :: tl') ++ [s] = tl ++ [n, s]
        rw [← htl]
        simp
      rw [← e]
      exact r1
    obtain ⟨l2, a2, r2, s2, d2⟩ := r1'.del_last
    exact ⟨l1, s, l2, a1, a2, Rep.restored hrot r2 (s2.trans s1)
      (fun j hj => (d2 j hj).trans (d1 j hj))⟩
  · obtain ⟨l1, a1, r1, s1, -, d1⟩ := ht.addBefore_head ej
    obtain ⟨l2, q, -, a2, -, r2, s2, d2⟩ := r1.del_head
    exact ⟨l1, s, l2, a1, a2, Rep.restored ht r2 (s2.trans s1)
      (fun j hj => (d2 j hj).trans (d1 j hj))⟩

/-- Instance of C31: the list `two3` of capacity three with two entries,
insertion at slot 0. -/
theorem round_trip_witness :
    (two3.WellFormed ∧ 1 ≤ two3.num ∧ two3.num < two3.size ∧ two3.occupied 0) ∧
    (∃ (l1 : cyclist) (s : Int) (l2 : cyclist), two3.addAfter 0 9 = Run.ok l1 s ∧
      l1.delNextNeg s = Run.ok l2 0 ∧
      l2.WellFormed ∧ l2.num = two3.num ∧ l2.hole = two3.hole ∧ l2.size = two3.size ∧
      l2.freeSlots = two3.freeSlots ∧
      ∀ i, two3.occupied i → l2.occupied i ∧ l2.rd i = two3.rd i) ∧
    (∃ (l1 : cyclist) (s : Int) (l2 : cyclist), two3.addBefore 0 9 = Run.ok l1 s ∧
      l1.delNextPos s = Run.ok l2 0 ∧
      l2.WellFormed ∧ l2.num = two3.num ∧ l2.hole = two3.hole ∧ l2.size = two3.size ∧
      l2.freeSlots = two3.freeSlots ∧
      ∀ i, two3.occupied i → l2.occupied i ∧ l2.rd i = two3.rd i) :=
  ⟨⟨two3_wellFormed, by decide, by decide, by decide⟩,
    round_trip two3 0 9 two3_wellFormed (by decide) (by decide) (by decide)⟩

end cyclist
end Tipper

/-! ## The flip step and the incidence of the neighbour fields -/

namespace Tipper

theorem edAt_nat {e : List edge} {j : Nat} {x : edge} (h : e[j]? = some x) :
    edAt e (j : Int) = x :=
  edAt_of_get h

theorem GoodPair.of_ends {W : List edge} {x y : edge} {n m : Int} (h : GoodPair W x n m)
    (h1 : y.from_ = x.from_) (h2 : y.to_ = x.to_) : GoodPair W y n m := by
  unfold GoodPair at h ⊢
  rw [h1, h2]
  exact h

theorem GoodPair.congr {W W' : List edge} {x : edge} {n m : Int} (h : GoodPair W x n m)
    (hl : W'.length = W.length)
    (he : ∀ k : Int, (edAt W' k).from_ = (edAt W k).from_ ∧ (edAt W' k).to_ = (edAt W k).to_) :
    GoodPair W' x n m := by
  unfold GoodPair Meets edge.far at h ⊢
  simp only [hl, (he _).1, (he _).2]
  exact h

theorem setSide_from (x : edge) (s : Bool) (n m : Int) : (x.setSide s n m).from_ = x.from_ := by
  unfold edge.setSide
  split <;> rfl

theorem setSide_to (x : edge) (s : Bool) (n m : Int) : (x.setSide s n m).to_ = x.to_ := by
  unfold edge.setSide
  split <;> rfl

theorem side_setSide (x : edge) (s s' : Bool) (n m : Int) :
    (x.setSide s n m).side s' = if s' = s then (n, m) else x.side s' := by
  cases s <;> cases s' <;> simp [edge.setSide, edge.side]

theorem setSide_ite (x : edge) (p : Prop) [Decidable p] (n m n' m' : Int) :
    (if p then { x with lef := n, let_ := m } else { x with ref := n', ret := m' }) =
      x.setSide (decide p) (if p then n else n') (if p then m else m') := by
  by_cases h : p <;> simp [edge.setSide, h]

theorem setSide_ite_right (x : edge) (p : Prop) [Decidable p] (n m n' m' : Int) :
    (if p then { x with ref := n, ret := m } else { x with lef := n', let_ := m' }) =
      x.setSide (!decide p) (if p then n else n') (if p then m else m') := by
  by_cases h : p <;> simp [edge.setSide, h]

/-- One rewiring statement: a side of the entry `z` gets a consistent pair. -/
theorem FlipMid.step {e W : List edge} {tn : Nat} {P : Nat → Bool → Prop} {E : List edge}
    {z : Nat} {s0 : Bool} {n m : Int} {xz : edge}
    (h : FlipMid e W tn (fun j s => P j s ∨ (j = z ∧ s = s0)) E)
    (hz : E[z]? = some xz) (hzt : z ≠ tn) (hg : GoodPair W xz n m) :
    FlipMid e W tn P (E.set z (xz.setSide s0 n m)) := by
  have hzl : z < E.length := (List.getElem?_eq_some_iff.mp hz).1
  refine ⟨by simp [h.len], ?_, ?_, ?_⟩
  · intro j x y hx hy
    by_cases hj : j = z
    · subst hj
      rw [List.getElem?_set_self hzl] at hx
      injection hx with hx
      subst hx
      rw [setSide_from, setSide_to]
      exact h.ends j xz y hz hy
    · rw [List.getElem?_set_ne (Ne.symm hj)] at hx
      exact h.ends j x y hx hy
  · rw [List.getElem?_set_ne hzt]
    exact h.keep
  · intro j x hjt hx s
    by_cases hj : j = z
    · subst hj
      rw [List.getElem?_set_self hzl] at hx
      injection hx with hx
      subst hx
      rw [side_setSide]
      by_cases hs : s = s0
      · rw [if_pos hs]
        exact Or.inl (hg.of_ends (setSide_from _ _ _ _) (setSide_to _ _ _ _))
      · rw [if_neg hs]
        rcases h.good j xz hjt hz s with g | g | g
        · exact Or.inl (g.of_ends (setSide_from _ _ _ _) (setSide_to _ _ _ _))
        · exact Or.inr g
        · exact absurd g.2 hs
    · rw [List.getElem?_set_ne (Ne.symm hj)] at hx
      rcases h.good j x hjt hx s with g | g | g
      · exact Or.inl g
      · exact Or.inr g
      · exact absurd g.1 hj

end Tipper

namespace Tipper

section cases
variable {W : List edge} {F T L R : Int} {a b c d tn : Nat} {A B C D : edge}

theorem meets_of {W : List edge} {k : Nat} {X : edge} {v : Int} (hk : k < W.length)
    (hX : edAt W (k : Int) = X) (h : X.from_ = v ∨ X.to_ = v) : Meets W (k : Int) v := by
  refine ⟨Int.natCast_nonneg k, by exact_mod_cast hk, ?_⟩
  rw [hX]
  exact h

theorem goodPair_of {W : List edge} {x : edge} {n m : Nat} {X Y : edge} (hn : n < W.length)
    (hm : m < W.length) (hX : edAt W (n : Int) = X) (hY : edAt W (m : Int) = Y)
    (h1 : X.from_ = x.from_ ∨ X.to_ = x.from_) (h2 : Y.from_ = x.to_ ∨ Y.to_ = x.to_)
    (h3 : X.far x.from_ = Y.far x.to_) : GoodPair W x (n : Int) (m : Int) := by
  refine ⟨fun _ => meets_of hn hX h1, fun _ => meets_of hm hY h2, fun _ _ => ?_⟩
  rw [hX, hY]
  exact h3

theorem case_ref (ha : a < W.length) (ht : tn < W.length)
    (wa : edAt W (a : Int) = A) (wt : edAt W (tn : Int) = ⟨L, R, b, d, a, c⟩)
    (mA : A.from_ = F ∨ A.to_ = F) (mC : C.from_ = F ∨ C.to_ = F)
    (hL : A.far F = L) (hR : C.far F = R) :
    GoodPair W C (if C.from_ = F then (a : Int) else (tn : Int))
      (if C.from_ = F then (tn : Int) else (a : Int)) := by
  unfold edge.far at hL hR
  by_cases p : C.from_ = F
  · rw [if_pos p, if_pos p]
    rw [if_pos p] at hR
    refine goodPair_of ha ht wa wt (by rw [p]; exact mA) (by simp only; omega) ?_
    simp only [edge.far, p]
    split_ifs at hL ⊢ <;> omega
  · rw [if_neg p, if_neg p]
    rw [if_neg p] at hR
    refine goodPair_of ht ha wt wa (by simp only; omega) (by omega) ?_
    simp only [edge.far]
    split_ifs at hL ⊢ <;> omega

theorem case_lef (hc : c < W.length) (ht : tn < W.length)
    (wc : edAt W (c : Int) = C) (wt : edAt W (tn : Int) = ⟨L, R, b, d, a, c⟩)
    (mA : A.from_ = F ∨ A.to_ = F) (mC : C.from_ = F ∨ C.to_ = F)
    (hL : A.far F = L) (hR : C.far F = R) :
    GoodPair W A (if A.from_ = F then (c : Int) else (tn : Int))
      (if A.from_ = F then (tn : Int) else (c : Int)) := by
  unfold edge.far at hL hR
  by_cases p : A.from_ = F
  · rw [if_pos p, if_pos p]
    rw [if_pos p] at hL
    refine goodPair_of hc ht wc wt (by rw [p]; exact mC) (by simp only; omega) ?_
    simp only [edge.far, p]
    split_ifs at hR ⊢ <;> omega
  · rw [if_neg p, if_neg p]
    rw [if_neg p] at hL
    refine goodPair_of ht hc wt wc (by simp only; omega) (by omega) ?_
    simp only [edge.far]
    split_ifs at hR ⊢ <;> omega

theorem case_ret (hb : b < W.length) (ht : tn < W.length)
    (wb : edAt W (b : Int) = B) (wt : edAt W (tn : Int) = ⟨L, R, b, d, a, c⟩)
    (mB : B.from_ = T ∨ B.to_ = T) (mD : D.from_ = T ∨ D.to_ = T)
    (hL : B.far T = L) (hR : D.far T = R) :
    GoodPair W D (if D.to_ = T then (tn : Int) else (b : Int))
      (if D.to_ = T then (b : Int) else (tn : Int)) := by
  unfold edge.far at hL hR
  by_cases p : D.to_ = T
  · rw [if_pos p, if_pos p]
    refine goodPair_of ht hb wt wb (by simp only; split_ifs at hR <;> omega)
      (by rw [p]; exact mB) ?_
    simp only [edge.far, p]
    split_ifs at hL hR ⊢ <;> omega
  · rw [if_neg p, if_neg p]
    refine goodPair_of hb ht wb wt (by omega) (by simp only; split_ifs at hR <;> omega) ?_
    simp only [edge.far]
    split_ifs at hL hR ⊢ <;> omega

theorem case_let (hd : d < W.length) (ht : tn < W.length)
    (wd : edAt W (d : Int) = D) (wt : edAt W (tn : Int) = ⟨L, R, b, d, a, c⟩)
    (mB : B.from_ = T ∨ B.to_ = T) (mD : D.from_ = T ∨ D.to_ = T)
    (hL : B.far T = L) (hR : D.far T = R) :
    GoodPair W B (if B.to_ = T then (tn : Int) else (d : Int))
      (if B.to_ = T then (d : Int) else (tn : Int)) := by
  unfold edge.far at hL hR
  by_cases p : B.to_ = T
  · rw [if_pos p, if_pos p]
    refine goodPair_of ht hd wt wd (by simp only; split_ifs at hL <;> omega)
      (by rw [p]; exact mD) ?_
    simp only [edge.far, p]
    split_ifs at hL hR ⊢ <;> omega
  · rw [if_neg p, if_neg p]
    refine goodPair_of hd ht wd wt (by omega) (by simp only; split_ifs at hL <;> omega) ?_
    simp only [edge.far]
    split_ifs at hL hR ⊢ <;> omega

theorem case_left (hb : b < W.length) (hd : d < W.length)
    (wb : edAt W (b : Int) = B) (wd : edAt W (d : Int) = D)
    (mB : B.from_ = T ∨ B.to_ = T) (mD : D.from_ = T ∨ D.to_ = T)
    (hL : B.far T = L) (hR : D.far T = R) (n1 n2 n3 n4 : Int) :
    GoodPair W ⟨L, R, n1, n2, n3, n4⟩ (b : Int) (d : Int) := by
  unfold edge.far at hL hR
  refine goodPair_of hb hd wb wd (by simp only; split_ifs at hL <;> omega)
    (by simp only; split_ifs at hR <;> omega) ?_
  simp only [edge.far]
  split_ifs at hL hR ⊢ <;> omega

theorem case_right (ha : a < W.length) (hc : c < W.length)
    (wa : edAt W (a : Int) = A) (wc : edAt W (c : Int) = C)
    (mA : A.from_ = F ∨ A.to_ = F) (mC : C.from_ = F ∨ C.to_ = F)
    (hL : A.far F = L) (hR : C.far F = R) (n1 n2 n3 n4 : Int) :
    GoodPair W ⟨L, R, n1, n2, n3, n4⟩ (a : Int) (c : Int) := by
  unfold edge.far at hL hR
  refine goodPair_of ha hc wa wc (by simp only; split_ifs at hL <;> omega)
    (by simp only; split_ifs at hR <;> omega) ?_
  simp only [edge.far]
  split_ifs at hL hR ⊢ <;> omega

end cases

end Tipper

namespace Tipper

theorem rewireRef_side {E : List edge} {tn c : Nat} {t C : edge} (ht : E[tn]? = some t)
    (hc : E[c]? = some C) (hr : t.ref = c) (htc : tn ≠ c) :
    rewireRef tn E = Except.ok (E.set c (C.setSide (decide (C.from_ = t.from_))
      (if C.from_ = t.from_ then t.lef else (tn : Int))
      (if C.from_ = t.from_ then (tn : Int) else t.lef))) := by
  obtain ⟨h1, rfl⟩ := List.getElem?_eq_some_iff.mp ht
  obtain ⟨h2, rfl⟩ := List.getElem?_eq_some_iff.mp hc
  rw [rewireRef_eq h1 h2 hr htc, setSide_ite]

theorem rewireLef_side {E : List edge} {tn a : Nat} {t A : edge} (ht : E[tn]? = some t)
    (ha : E[a]? = some A) (hr : t.lef = a) (hta : tn ≠ a) :
    rewireLef tn E = Except.ok (E.set a (A.setSide (!decide (A.from_ = t.from_))
      (if A.from_ = t.from_ then t.ref else (tn : Int))
      (if A.from_ = t.from_ then (tn : Int) else t.ref))) := by
  obtain ⟨h1, rfl⟩ := List.getElem?_eq_some_iff.mp ht
  obtain ⟨h2, rfl⟩ := List.getElem?_eq_some_iff.mp ha
  rw [rewireLef_eq h1 h2 hr hta, setSide_ite_right]

theorem rewireRet_side {E : List edge} {tn d : Nat} {t D : edge} (ht : E[tn]? = some t)
    (hd : E[d]? = some D) (hr : t.ret = d) (htd : tn ≠ d) :
    rewireRet tn E = Except.ok (E.set d (D.setSide (decide (D.to_ = t.to_))
      (if D.to_ = t.to_ then (tn : Int) else t.let_)
      (if D.to_ = t.to_ then t.let_ else (tn : Int)))) := by
  obtain ⟨h1, rfl⟩ := List.getElem?_eq_some_iff.mp ht
  obtain ⟨h2, rfl⟩ := List.getElem?_eq_some_iff.mp hd
  rw [rewireRet_eq h1 h2 hr htd, setSide_ite]

theorem rewireLet_side {E : List edge} {tn b : Nat} {t B : edge} (ht : E[tn]? = some t)
    (hb : E[b]? = some B) (hr : t.let_ = b) (htb : tn ≠ b) :
    rewireLet tn E = Except.ok (E.set b (B.setSide (!decide (B.to_ = t.to_))
      (if B.to_ = t.to_ then (tn : Int) else t.ret)
      (if B.to_ = t.to_ then t.ret else (tn : Int)))) := by
  obtain ⟨h1, rfl⟩ := List.getElem?_eq_some_iff.mp ht
  obtain ⟨h2, rfl⟩ := List.getElem?_eq_some_iff.mp hb
  rw [rewireLet_eq h1 h2 hr htb, setSide_ite_right]

theorem edAt_set_ne (e : List edge) (tn : Nat) (y : edge) (k : Int) (h : k ≠ (tn : Int)) :
    edAt (e.set tn y) k = edAt e k := by
  unfold edAt rde
  by_cases h0 : 0 ≤ k
  · have : tn ≠ k.toNat := by omega
    simp only [h0, if_true, List.getElem?_set_ne this]
  · simp only [h0, if_false]

theorem edAt_set_self (e : List edge) (tn : Nat) (y : edge) (h : tn < e.length) :
    edAt (e.set tn y) (tn : Int) = y := by
  apply edAt_nat
  rw [List.getElem?_set_self h]

theorem meets_nat {e : List edge} {n v : Int} (h : Meets e n v) :
    ∃ (k : Nat) (X : edge), n = (k : Int) ∧ e[k]? = some X ∧ edAt e n = X ∧
      (X.from_ = v ∨ X.to_ = v) := by
  obtain ⟨h0, h1, h2⟩ := h
  obtain ⟨k, rfl⟩ := Int.eq_ofNat_of_zero_le h0
  have hk : k < e.length := by exact_mod_cast h1
  have hx : e[k]? = some e[k] := List.getElem?_eq_getElem hk
  refine ⟨k, e[k], rfl, hx, edAt_nat hx, ?_⟩
  rw [← edAt_nat hx]
  exact h2

theorem GoodPair.away {e : List edge} {x : edge} {n m : Int} (h : GoodPair e x n m)
    (tn : Nat) (y : edge) (hn : n ≠ (tn : Int)) (hm : m ≠ (tn : Int)) :
    GoodPair (e.set tn y) x n m := by
  unfold GoodPair Meets at h ⊢
  rw [edAt_set_ne e tn y n hn, edAt_set_ne e tn y m hm]
  simpa using h

end Tipper

namespace Tipper

theorem FlipMid.edAt_ends {e W : List edge} {tn : Nat} {P : Nat → Bool → Prop} {E : List edge}
    (h : FlipMid e W tn P E) (k : Int) :
    (edAt E k).from_ = (edAt e k).from_ ∧ (edAt E k).to_ = (edAt e k).to_ := by
  unfold edAt rde
  by_cases h0 : 0 ≤ k
  · simp only [h0, if_true]
    by_cases hk : k.toNat < e.length
    · have hk' : k.toNat < E.length := by rw [h.len]; exact hk
      have := h.ends k.toNat _ _ (List.getElem?_eq_getElem hk') (List.getElem?_eq_getElem hk)
      rw [List.getElem?_eq_getElem hk', List.getElem?_eq_getElem hk]
      exact this
    · have hk' : ¬ k.toNat < E.length := by rw [h.len]; exact hk
      rw [List.getElem?_eq_none (not_lt.mp hk), List.getElem?_eq_none (not_lt.mp hk')]
      simp
  · simp only [h0, if_false, and_self]

theorem FlipMid.at {e W : List edge} {tn : Nat} {P : Nat → Bool → Prop} {E : List edge}
    (h : FlipMid e W tn P E) {z : Nat} {Z : edge} (hz : e[z]? = some Z) :
    ∃ Z1, E[z]? = some Z1 ∧ Z1.from_ = Z.from_ ∧ Z1.to_ = Z.to_ := by
  have hl : z < E.length := by
    rw [h.len]
    exact (List.getElem?_eq_some_iff.mp hz).1
  have h1 : E[z]? = some E[z] := List.getElem?_eq_getElem hl
  exact ⟨E[z], h1, h.ends z _ _ h1 hz⟩

/-- The flip step keeps the incidence of the neighbour fields, when the
flipped edge is named only by its four neighbours on the sides that the step
rewrites. -/
theorem flip_incident {e : List edge} {tn : Nat} {t : edge} (ht : e[tn]? = some t)
    (hfull : t.full) (hI : Incident e) (hO : OnlyFacing e tn) :
    ∃ e', flipStep tn ((edAt e t.lef).far t.from_) ((edAt e t.ref).far t.from_) e =
        Except.ok e' ∧ Incident e' ∧ e'.length = e.length ∧
      e'[tn]? = some ⟨(edAt e t.lef).far t.from_, (edAt e t.ref).far t.from_,
        t.let_, t.ret, t.lef, t.ref⟩ := by
  have tl : tn < e.length := (List.getElem?_eq_some_iff.mp ht).1
  obtain ⟨gl, gr⟩ := hI t (mem_of_get ht)
  obtain ⟨a, A, ea, hA, wA, mA⟩ := meets_nat (gl.1 hfull.1)
  obtain ⟨b, B, eb, hB, wB, mB⟩ := meets_nat (gl.2.1 hfull.2.1)
  obtain ⟨c, C, ec, hC, wC, mC⟩ := meets_nat (gr.1 hfull.2.2.1)
  obtain ⟨d, D, ed, hD, wD, mD⟩ := meets_nat (gr.2.1 hfull.2.2.2)
  have hLb := gl.2.2 hfull.1 hfull.2.1
  have hRd := gr.2.2 hfull.2.2.1 hfull.2.2.2
  rw [wA, wB] at hLb
  rw [wC, wD] at hRd
  rw [wA, wC]
  have hOt := hO tn (List.mem_range.mpr tl)
  rw [edAt_nat ht] at hOt
  have nta : tn ≠ a := fun h => (hOt.1 (Or.inl (by rw [ea, h]))).1 rfl
  have ntb : tn ≠ b := fun h => (hOt.1 (Or.inr (by rw [eb, h]))).1 rfl
  have ntc : tn ≠ c := fun h => (hOt.2 (Or.inl (by rw [ec, h]))).1 rfl
  have ntd : tn ≠ d := fun h => (hOt.2 (Or.inr (by rw [ed, h]))).1 rfl
  have al : a < e.length := (List.getElem?_eq_some_iff.mp hA).1
  have bl : b < e.length := (List.getElem?_eq_some_iff.mp hB).1
  have cl : c < e.length := (List.getElem?_eq_some_iff.mp hC).1
  have dl : d < e.length := (List.getElem?_eq_some_iff.mp hD).1
  generalize hL : A.far t.from_ = L at hLb ⊢
  generalize hR : C.far t.from_ = R at hRd ⊢
  have hLb' : B.far t.to_ = L := hLb.symm
  have hRd' : D.far t.to_ = R := hRd.symm
  generalize hW : e.set tn ⟨L, R, b, d, a, c⟩ = W
  have wl : W.length = e.length := by rw [← hW]; simp
  have wt : edAt W (tn : Int) = ⟨L, R, b, d, a, c⟩ := by
    rw [← hW]
    exact edAt_set_self e tn _ tl
  have wne : ∀ (k : Nat) (X : edge), tn ≠ k → e[k]? = some X → edAt W (k : Int) = X := by
    intro k X hk hX
    rw [← hW, edAt_set_ne e tn _ _ (by omega)]
    exact edAt_nat hX
  have wa := wne a A nta hA
  have wb := wne b B ntb hB
  have wc := wne c C ntc hC
  have wd := wne d D ntd hD
  have h0 : FlipMid e W tn (fun j s => ((((False ∨ (j = b ∧ s = !decide (B.to_ = t.to_))) ∨
      (j = d ∧ s = decide (D.to_ = t.to_))) ∨ (j = a ∧ s = !decide (A.from_ = t.from_))) ∨
      (j = c ∧ s = decide (C.from_ = t.from_)))) e := by
    refine ⟨rfl, ?_, rfl, ?_⟩
    · intro j x y hx hy
      rw [hx] at hy
      injection hy with hy
      subst hy
      exact ⟨rfl, rfl⟩
    · intro j x hjt hx s
      obtain ⟨gxl, gxr⟩ := hI x (mem_of_get hx)
      have hOj := hO j (List.mem_range.mpr (List.getElem?_eq_some_iff.mp hx).1)
      rw [edAt_nat hx, edAt_nat ht, ea, eb, ec, ed] at hOj
      have key : ∀ (k : Nat) (X : edge), (j : Int) = (k : Int) → e[k]? = some X → j = k ∧ x = X := by
        intro k X h1 h2
        have : j = k := by exact_mod_cast h1
        subst this
        rw [hx] at h2
        injection h2 with h2
        exact ⟨rfl, h2⟩
      cases s with
      | false =>
        by_cases hn : x.ref = (tn : Int) ∨ x.ret = (tn : Int)
        · right
          obtain ⟨-, hc⟩ := hOj.2 hn
          rcases hc with ⟨h1, h2⟩ | ⟨h1, h2⟩ | ⟨h1, h2⟩ | ⟨h1, h2⟩
          · obtain ⟨rfl, rfl⟩ := key a A h1 hA
            exact Or.inl (Or.inr ⟨rfl, by simp [h2]⟩)
          · obtain ⟨rfl, rfl⟩ := key c C h1 hC
            exact Or.inr ⟨rfl, by simp [h2]⟩
          · obtain ⟨rfl, rfl⟩ := key d D h1 hD
            exact Or.inl (Or.inl (Or.inr ⟨rfl, by simp [h2]⟩))
          · obtain ⟨rfl, rfl⟩ := key b B h1 hB
            exact Or.inl (Or.inl (Or.inl (Or.inr ⟨rfl, by simp [h2]⟩)))
        · left
          push_neg at hn
          rw [← hW]
          exact gxr.away tn _ hn.1 hn.2
      | true =>
        by_cases hn : x.lef = (tn : Int) ∨ x.let_ = (tn : Int)
        · right
          obtain ⟨-, hc⟩ := hOj.1 hn
          rcases hc with ⟨h1, h2⟩ | ⟨h1, h2⟩ | ⟨h1, h2⟩ | ⟨h1, h2⟩
          · obtain ⟨rfl, rfl⟩ := key a A h1 hA
            exact Or.inl (Or.inr ⟨rfl, by simp [h2]⟩)
          · obtain ⟨rfl, rfl⟩ := key c C h1 hC
            exact Or.inr ⟨rfl, by simp [h2]⟩
          · obtain ⟨rfl, rfl⟩ := key d D h1 hD
            exact Or.inl (Or.inl (Or.inr ⟨rfl, by simp [h2]⟩))
          · obtain ⟨rfl, rfl⟩ := key b B h1 hB
            exact Or.inl (Or.inl (Or.inl (Or.inr ⟨rfl, by simp [h2]⟩)))
        · left
          push_neg at hn
          rw [← hW]
          exact gxl.away tn _ hn.1 hn.2
  have tW : tn < W.length := by omega
  -- e[ref]
  have r1 := rewireRef_side ht hC ec ntc
  rw [ea] at r1
  have h1 := h0.step hC (Ne.symm ntc)
    (case_ref (by omega) tW wa wt mA mC hL hR)
  -- e[lef]
  obtain ⟨A1, hA1, fA, tA⟩ := h1.at hA
  have r2 := rewireLef_side (h1.keep.trans ht) hA1 ea nta
  rw [ec, fA] at r2
  have h2 := h1.step hA1 (Ne.symm nta)
    ((case_lef (by omega) tW wc wt mA mC hL hR).of_ends fA tA)
  -- e[ret]
  obtain ⟨D2, hD2, fD, tD⟩ := h2.at hD
  have r3 := rewireRet_side (h2.keep.trans ht) hD2 ed ntd
  rw [eb, tD] at r3
  have h3 := h2.step hD2 (Ne.symm ntd)
    ((case_ret (by omega) tW wb wt mB mD hLb' hRd').of_ends fD tD)
  -- e[let]
  obtain ⟨B3, hB3, fB, tB⟩ := h3.at hB
  have r4 := rewireLet_side (h3.keep.trans ht) hB3 eb ntb
  rw [ed, tB] at r4
  have h4 := h3.step hB3 (Ne.symm ntb)
    ((case_let (by omega) tW wd wt mB mD hLb' hRd').of_ends fB tB)
  -- *this
  have r5 := wre_get (h4.keep.trans ht) (fun t : edge =>
    ({ from_ := L, to_ := R, lef := t.let_, let_ := t.ret, ref := t.lef, ret := t.ref } : edge))
  simp only [ea, eb, ec, ed] at r5
  generalize hE4 : (((e.set c _).set a _).set d _).set b _ = E4 at r4 h4 r5
  have l4 : tn < E4.length := by rw [h4.len]; exact tl
  have hends : ∀ k : Int,
      (edAt (E4.set tn ⟨L, R, b, d, a, c⟩) k).from_ = (edAt W k).from_ ∧
      (edAt (E4.set tn ⟨L, R, b, d, a, c⟩) k).to_ = (edAt W k).to_ := by
    intro k
    by_cases hk : k = (tn : Int)
    · subst hk
      rw [edAt_set_self _ _ _ l4, wt]
      exact ⟨rfl, rfl⟩
    · rw [edAt_set_ne _ _ _ _ hk, ← hW, edAt_set_ne _ _ _ _ hk]
      exact h4.edAt_ends k
  have hlen : (E4.set tn ⟨L, R, b, d, a, c⟩).length = W.length := by
    rw [List.length_set, h4.len, wl]
  refine ⟨E4.set tn ⟨L, R, b, d, a, c⟩, ?_, ?_, by rw [hlen, wl], ?_⟩
  · simp only [flipStep, r1, r2, r3, r4, bind, Except.bind]
    exact r5
  · intro x hx
    obtain ⟨j, hj⟩ := List.getElem?_of_mem hx
    by_cases hjt : j = tn
    · subst hjt
      rw [List.getElem?_set_self l4] at hj
      injection hj with hj
      subst hj
      exact ⟨(case_left (by omega) (by omega) wb wd mB mD hLb' hRd' _ _ _ _).congr hlen hends,
        (case_right (by omega) (by omega) wa wc mA mC hL hR _ _ _ _).congr hlen hends⟩
    · rw [List.getElem?_set_ne (Ne.symm hjt)] at hj
      have g := h4.good j x hjt hj
      refine ⟨?_, ?_⟩
      · rcases g true with g | g
        · exact g.congr hlen hends
        · exact absurd g id
      · rcases g false with g | g
        · exact g.congr hlen hends
        · exact absurd g id
  · rw [List.getElem?_set_self l4, ea, eb, ec, ed]

end Tipper

namespace Tipper

/-- C32 (amended): the flip step keeps the local consistency of the edge
table by incidence.  If in the table every set neighbour field of every edge
names an edge incident to the right end point (`lef`, `ref` at `from`; `let`,
`ret` at `to`) and the two neighbours of each resolved side meet at a common
third vertex, and if the edge `tn`, which has its four neighbours set, is named
as a neighbour only by these four, by each only in the two fields that the
flip step rewrites, then the flip step of `swap` on `tn` returns a table in
which the same incidence holds for every edge. -/
theorem flip_keeps_incident (e : List edge) (tn : Nat) (t : edge) (ht : e[tn]? = some t)
    (hfull : t.full) (hI : Incident e) (hO : OnlyFacing e tn) :
    ∃ e', flipStep tn ((edAt e t.lef).far t.from_) ((edAt e t.ref).far t.from_) e =
        Except.ok e' ∧ Incident e' := by
  obtain ⟨e', h1, h2, -, -⟩ := flip_incident ht hfull hI hO
  exact ⟨e', h1, h2⟩

/-- Instance of C32 (amended): the flip of the diagonal of `quad5`. -/
theorem flip_keeps_incident_witness :
    Incident quad5 ∧ OnlyFacing quad5 0 ∧
    ∃ e', flipStep 0 2 3 quad5 = Except.ok e' ∧ Incident e' :=
  ⟨by decide, by decide,
    flip_keeps_incident quad5 0 ⟨0, 1, 1, 2, 3, 4⟩ rfl
      ⟨by decide, by decide, by decide, by decide⟩ (by decide) (by decide)⟩

/-- C32 fails as stated: in the table `fan7` every set neighbour field is
incident to the right end point and the neighbours of each resolved side meet
at a common third vertex; edge 5, which is none of the four neighbours of edge
0, names edge 0 as its neighbour at point 0.  On the points `(-1,0)`, `(1,0)`,
`(0,1/2)`, `(0,-1/2)`, `(0,2)` the call `swap` on edge 0 flips it (the flip step
gives `fan7Flipped`, the four recursive calls change nothing), and then edge 5
names as its neighbour at point 0 an edge from point 2 to point 3. -/
theorem flip_incident_counterexample :
    Incident fan7 ∧
    flipStep 0 2 3 fan7 = Except.ok fan7Flipped ∧
    edge.swap Real.sqrt 2 0 fan7
        ([⟨-1, 0⟩, ⟨1, 0⟩, ⟨0, 1 / 2⟩, ⟨0, -1 / 2⟩, ⟨0, 2⟩] : List (point ℝ)) =
      Except.ok (fan7Flipped, 1) ∧
    ¬ Incident fan7Flipped := by
  have hf : flipStep 0 2 3 fan7 = Except.ok fan7Flipped := by decide
  refine ⟨by decide, hf, ?_, by decide⟩
  rw [swap_unfold Real.sqrt 1 0 fan7
    ([⟨-1, 0⟩, ⟨1, 0⟩, ⟨0, 1 / 2⟩, ⟨0, -1 / 2⟩, ⟨0, 2⟩] : List (point ℝ)) ⟨0, 1, 1, 2, 3, 4⟩ ⟨2, 0, 2, 0, -1, -1⟩
    ⟨0, 3, 0, 4, -1, -1⟩ ⟨0, 1 / 2⟩ ⟨-1, 0⟩ ⟨1, 0⟩ ⟨0, -1 / 2⟩ rfl
    ⟨by decide, by decide, by decide, by decide⟩ rfl rfl rfl rfl rfl rfl,
    if_pos flipTest_kite]
  have hf' : flipStep 0 (if (2 : Int) = 0 then 0 else 2) (if (0 : Int) = 0 then 3 else 0) fan7 =
      Except.ok fan7Flipped := hf
  have b1 := swap_boundary Real.sqrt 0 2 fan7Flipped
    ([⟨-1, 0⟩, ⟨1, 0⟩, ⟨0, 1 / 2⟩, ⟨0, -1 / 2⟩, ⟨0, 2⟩] : List (point ℝ))
    ⟨1, 2, 4, 0, -1, -1⟩ rfl (Or.inr (Or.inr (Or.inl rfl)))
  have b2 := swap_boundary Real.sqrt 0 4 fan7Flipped
    ([⟨-1, 0⟩, ⟨1, 0⟩, ⟨0, 1 / 2⟩, ⟨0, -1 / 2⟩, ⟨0, 2⟩] : List (point ℝ))
    ⟨3, 1, 0, 2, -1, -1⟩ rfl (Or.inr (Or.inr (Or.inl rfl)))
  have b3 := swap_boundary Real.sqrt 0 1 fan7Flipped
    ([⟨-1, 0⟩, ⟨1, 0⟩, ⟨0, 1 / 2⟩, ⟨0, -1 / 2⟩, ⟨0, 2⟩] : List (point ℝ))
    ⟨2, 0, 0, 3, -1, -1⟩ rfl (Or.inr (Or.inr (Or.inl rfl)))
  have b4 := swap_boundary Real.sqrt 0 3 fan7Flipped
    ([⟨-1, 0⟩, ⟨1, 0⟩, ⟨0, 1 / 2⟩, ⟨0, -1 / 2⟩, ⟨0, 2⟩] : List (point ℝ))
    ⟨0, 3, 1, 0, -1, -1⟩ rfl (Or.inr (Or.inr (Or.inl rfl)))
  have hr : rde fan7Flipped 0 = Except.ok ⟨2, 3, 2, 4, 1, 3⟩ := rfl
  simp only [edge.from_, edge.to_] at hf' ⊢
  rw [hf']
  simp only [bind, Except.bind, afterFlip, hr, b1, b2, b3, b4, pure, Except.pure]

end Tipper
/-! ## Every edge index stays below the capacity of the edge table -/

namespace Tipper

theorem rde_lt {e : List edge} {i : Int} {x : edge} (h : rde e i = Except.ok x) :
    i < (e.length : Int) ∧ x ∈ e := by
  obtain ⟨n, rfl, hl, rfl⟩ := rde_ok_iff.mp h
  exact ⟨Int.ofNat_lt.mpr hl, List.getElem_mem hl⟩

theorem wre_below {e e' : List edge} {i m : Int} {f : edge → edge}
    (h : wre e i f = Except.ok e') (hf : ∀ x, x ∈ e → x.below m → (f x).below m)
    (hb : tableBelow e m) : tableBelow e' m := by
  obtain ⟨n, x, rfl, hn, rfl⟩ := wre_ok_iff.mp h
  intro y hy
  rcases List.mem_or_eq_of_mem_set hy with h1 | h1
  · exact hb y h1
  · rw [h1]
    exact hf x (mem_of_get hn) (hb x (mem_of_get hn))

theorem wre_lt {e e' : List edge} {i : Int} {f : edge → edge}
    (h : wre e i f = Except.ok e') : i < (e.length : Int) ∧ e'.length = e.length := by
  obtain ⟨n, x, rfl, hn, rfl⟩ := wre_ok_iff.mp h
  exact ⟨Int.ofNat_lt.mpr (List.getElem?_eq_some_iff.mp hn).1, by simp⟩

theorem assign_below {tint m : Int} {idx : edge → Int} {f : edge → edge → edge}
    {e e' : List edge} (h : assign tint idx f e = Except.ok e')
    (hf : ∀ t x, t.below m → x.below m → (f t x).below m)
    (hb : tableBelow e m) : tableBelow e' m ∧ e'.length = e.length := by
  simp only [assign, bind_ok_iff] at h
  obtain ⟨t, ht, h⟩ := h
  exact ⟨wre_below h (fun x _ hx => hf t x (hb t (rde_lt ht).2) hx) hb, (wre_lt h).2⟩

theorem rewireRef_below {tint m : Int} {e e' : List edge}
    (h : rewireRef tint e = Except.ok e') (hm : (e.length : Int) ≤ m)
    (hb : tableBelow e m) : tableBelow e' m ∧ e'.length = e.length := by
  simp only [rewireRef, bind_ok_iff] at h
  obtain ⟨t, ht, n, -, h⟩ := h
  have htm : tint < m := lt_of_lt_of_le (rde_lt ht).1 hm
  split at h
  · simp only [bind_ok_iff] at h
    obtain ⟨e1, h1, h2⟩ := h
    have b1 := assign_below h1 (fun t x ht hx => ⟨ht.1, hx.2.1, hx.2.2.1, hx.2.2.2⟩) hb
    have b2 := assign_below h2 (fun t x ht hx => ⟨hx.1, htm, hx.2.2.1, hx.2.2.2⟩) b1.1
    exact ⟨b2.1, b2.2.trans b1.2⟩
  · simp only [bind_ok_iff] at h
    obtain ⟨e1, h1, h2⟩ := h
    have b1 := assign_below h1 (fun t x ht hx => ⟨hx.1, hx.2.1, htm, hx.2.2.2⟩) hb
    have b2 := assign_below h2 (fun t x ht hx => ⟨hx.1, hx.2.1, hx.2.2.1, ht.1⟩) b1.1
    exact ⟨b2.1, b2.2.trans b1.2⟩

theorem rewireLef_below {tint m : Int} {e e' : List edge}
    (h : rewireLef tint e = Except.ok e') (hm : (e.length : Int) ≤ m)
    (hb : tableBelow e m) : tableBelow e' m ∧ e'.length = e.length := by
  simp only [rewireLef, bind_ok_iff] at h
  obtain ⟨t, ht, n, -, h⟩ := h
  have htm : tint < m := lt_of_lt_of_le (rde_lt ht).1 hm
  split at h
  · simp only [bind_ok_iff] at h
    obtain ⟨e1, h1, h2⟩ := h
    have b1 := assign_below h1 (fun t x ht hx => ⟨hx.1, hx.2.1, ht.2.2.1, hx.2.2.2⟩) hb
    have b2 := assign_below h2 (fun t x ht hx => ⟨hx.1, hx.2.1, hx.2.2.1, htm⟩) b1.1
    exact ⟨b2.1, b2.2.trans b1.2⟩
  · simp only [bind_ok_iff] at h
    obtain ⟨e1, h1, h2⟩ := h
    have b1 := assign_below h1 (fun t x ht hx => ⟨htm, hx.2.1, hx.2.2.1, hx.2.2.2⟩) hb
    have b2 := assign_below h2 (fun t x ht hx => ⟨hx.1, ht.2.2.1, hx.2.2.1, hx.2.2.2⟩) b1.1
    exact ⟨b2.1, b2.2.trans b1.2⟩

theorem rewireRet_below {tint m : Int} {e e' : List edge}
    (h : rewireRet tint e = Except.ok e') (hm : (e.length : Int) ≤ m)
    (hb : tableBelow e m) : tableBelow e' m ∧ e'.length = e.length := by
  simp only [rewireRet, bind_ok_iff] at h
  obtain ⟨t, ht, n, -, h⟩ := h
  have htm : tint < m := lt_of_lt_of_le (rde_lt ht).1 hm
  split at h
  · simp only [bind_ok_iff] at h
    obtain ⟨e1, h1, h2⟩ := h
    have b1 := assign_below h1 (fun t x ht hx => ⟨htm, hx.2.1, hx.2.2.1, hx.2.2.2⟩) hb
    have b2 := assign_below h2 (fun t x ht hx => ⟨hx.1, ht.2.1, hx.2.2.1, hx.2.2.2⟩) b1.1
    exact ⟨b2.1, b2.2.trans b1.2⟩
  · simp only [bind_ok_iff] at h
    obtain ⟨e1, h1, h2⟩ := h
    have b1 := assign_below h1 (fun t x ht hx => ⟨hx.1, hx.2.1, ht.2.1, hx.2.2.2⟩) hb
    have b2 := assign_below h2 (fun t x ht hx => ⟨hx.1, hx.2.1, hx.2.2.1, htm⟩) b1.1
    exact ⟨b2.1, b2.2.trans b1.2⟩

theorem rewireLet_below {tint m : Int} {e e' : List edge}
    (h : rewireLet tint e = Except.ok e') (hm : (e.length : Int) ≤ m)
    (hb : tableBelow e m) : tableBelow e' m ∧ e'.length = e.length := by
  simp only [rewireLet, bind_ok_iff] at h
  obtain ⟨t, ht, n, -, h⟩ := h
  have htm : tint < m := lt_of_lt_of_le (rde_lt ht).1 hm
  split at h
  · simp only [bind_ok_iff] at h
    obtain ⟨e1, h1, h2⟩ := h
    have b1 := assign_below h1 (fun t x ht hx => ⟨hx.1, hx.2.1, htm, hx.2.2.2⟩) hb
    have b2 := assign_below h2 (fun t x ht hx => ⟨hx.1, hx.2.1, hx.2.2.1, ht.2.2.2⟩) b1.1
    exact ⟨b2.1, b2.2.trans b1.2⟩
  · simp only [bind_ok_iff] at h
    obtain ⟨e1, h1, h2⟩ := h
    have b1 := assign_below h1 (fun t x ht hx => ⟨ht.2.2.2, hx.2.1, hx.2.2.1, hx.2.2.2⟩) hb
    have b2 := assign_below h2 (fun t x ht hx => ⟨hx.1, htm, hx.2.2.1, hx.2.2.2⟩) b1.1
    exact ⟨b2.1, b2.2.trans b1.2⟩

theorem flipStep_below {tint leftp rightp m : Int} {e e' : List edge}
    (h : flipStep tint leftp rightp e = Except.ok e') (hm : (e.length : Int) ≤ m)
    (hb : tableBelow e m) : tableBelow e' m ∧ e'.length = e.length := by
  simp only [flipStep, bind_ok_iff] at h
  obtain ⟨e1, h1, e2, h2, e3, h3, e4, h4, h5⟩ := h
  have b1 := rewireRef_below h1 hm hb
  have b2 := rewireLef_below h2 (by rw [b1.2]; exact hm) b1.1
  have b3 := rewireRet_below h3 (by rw [b2.2, b1.2]; exact hm) b2.1
  have b4 := rewireLet_below h4 (by rw [b3.2, b2.2, b1.2]; exact hm) b3.1
  refine ⟨wre_below h5 (fun x _ hx => ⟨hx.2.1, hx.2.2.2, hx.1, hx.2.2.1⟩) b4.1, ?_⟩
  rw [(wre_lt h5).2, b4.2, b3.2, b2.2, b1.2]

section S
variable {K : Type} [LinearOrderedField K] (sqrt : K → K)

/-- A call of `swap` on a table whose neighbour fields are below `m`, with
`m` at least the length of the table, returns such a table: the index of every
recursive call is a neighbour field of the table. -/
theorem swap_below (m : Int) (depth : Nat) : ∀ (tint : Int) (e : List edge) (p : List (point K))
    (r : List edge × Int), edge.swap sqrt depth tint e p = Except.ok r →
    (e.length : Int) ≤ m → tableBelow e m → tableBelow r.1 m ∧ r.1.length = e.length := by
  induction depth with
  | zero =>
    intro tint e p r h
    simp [edge.swap] at h
  | succ depth ih =>
    intro tint e p r h hm hb
    simp only [edge.swap, bind_ok_iff] at h
    obtain ⟨t, ht, h⟩ := h
    split at h
    · rw [pure_ok_iff] at h
      rw [← h]
      exact ⟨hb, rfl⟩
    · simp only [bind_ok_iff] at h
      obtain ⟨el, -, er, -, pl, -, pf, hpf, pt, -, pr, -, h⟩ := h
      split at h
      · split at h
        · simp only [bind_ok_iff] at h
          obtain ⟨e1, h1, h2⟩ := h
          have k1 := flipStep_below h1 hm hb
          simp only [afterFlip, bind_ok_iff, pure_ok_iff] at h2
          obtain ⟨t1, -, r1, g1, t2, -, r2, g2, t3, -, r3, g3, t4, -, r4, g4, rfl⟩ := h2
          have c1 := ih _ _ _ r1 g1 (by rw [k1.2]; exact hm) k1.1
          have c2 := ih _ _ _ r2 g2 (by rw [c1.2, k1.2]; exact hm) c1.1
          have c3 := ih _ _ _ r3 g3 (by rw [c2.2, c1.2, k1.2]; exact hm) c2.1
          have c4 := ih _ _ _ r4 g4 (by rw [c3.2, c2.2, c1.2, k1.2]; exact hm) c3.1
          exact ⟨c4.1, by simp only; rw [c4.2, c3.2, c2.2, c1.2, k1.2]⟩
        · rw [pure_ok_iff] at h
          rw [← h]
          exact ⟨hb, rfl⟩
      · rw [pure_ok_iff] at h
        rw [← h]
        exact ⟨hb, rfl⟩

end S

end Tipper

namespace Tipper

namespace cyclist

theorem rd_below {l : cyclist} {i m : Int} {it : item} (h : l.rd i = some it)
    (hb : l.dataBelow m) : it.data < m := by
  unfold rd at h
  split at h
  · exact hb.2 it (List.mem_iff_getElem?.mpr ⟨_, h⟩)
  · cases h

theorem wr_below {l l' : cyclist} {i m : Int} {f : item → item} (h : l.wr i f = some l')
    (hf : ∀ it, it.data < m → (f it).data < m) (hb : l.dataBelow m) : l'.dataBelow m := by
  unfold wr at h
  split at h
  · rename_i it hit
    simp only [Option.some.injEq] at h
    subst h
    refine ⟨hb.1, fun y hy => ?_⟩
    rcases List.mem_or_eq_of_mem_set hy with h1 | h1
    · exact hb.2 y h1
    · rw [h1]
      exact hf it (rd_below hit hb)
  · cases h

theorem setNext_below {l l' : cyclist} {i v m : Int} (h : l.setNext i v = some l')
    (hb : l.dataBelow m) : l'.dataBelow m :=
  wr_below h (fun _ hx => hx) hb

theorem setPrev_below {l l' : cyclist} {i v m : Int} (h : l.setPrev i v = some l')
    (hb : l.dataBelow m) : l'.dataBelow m :=
  wr_below h (fun _ hx => hx) hb

theorem setData_below {l l' : cyclist} {i v m : Int} (h : l.setData i v = some l')
    (hv : v < m) (hb : l.dataBelow m) : l'.dataBelow m :=
  wr_below h (fun _ _ => hv) hb

theorem unlink_below {l l' : cyclist} {a m : Int} (h : l.unlink a = some l') (ha : a < m)
    (hb : l.dataBelow m) : l'.dataBelow m := by
  simp only [unlink, Option.bind_eq_bind, Option.bind_eq_some, Option.pure_def,
    Option.some.injEq] at h
  obtain ⟨l1, h1, it, -, l3, h3, it3, -, l4, h4, rfl⟩ := h
  have b1 := setData_below h1 hb.1 hb
  have b2 : cyclist.dataBelow { l1 with hole := a } m := ⟨ha, b1.2⟩
  have b3 := setNext_below h3 b2
  have b4 := setPrev_below h4 b3
  exact ⟨b4.1, b4.2⟩

theorem delNextPos_below {l l' : cyclist} {a s m : Int} (h : l.delNextPos a = Run.ok l' s)
    (hm : l.size ≤ m) (hb : l.dataBelow m) : l'.dataBelow m := by
  unfold delNextPos at h
  split at h
  · rename_i ha
    split at h
    · have h' := finish_ok h
      simp only [Option.bind_eq_bind, Option.bind_eq_some, Option.pure_def, Option.some.injEq,
        Prod.mk.injEq] at h'
      obtain ⟨l5, h5, it5, -, rfl, -⟩ := h'
      exact unlink_below h5 (lt_of_lt_of_le ha hm) hb
    · cases h
  · cases h

theorem delNextNeg_below {l l' : cyclist} {a s m : Int} (h : l.delNextNeg a = Run.ok l' s)
    (hm : l.size ≤ m) (hb : l.dataBelow m) : l'.dataBelow m := by
  unfold delNextNeg at h
  split at h
  · rename_i ha
    split at h
    · have h' := finish_ok h
      simp only [Option.bind_eq_bind, Option.bind_eq_some, Option.pure_def, Option.some.injEq,
        Prod.mk.injEq] at h'
      obtain ⟨l5, h5, it5, -, rfl, -⟩ := h'
      exact unlink_below h5 (lt_of_lt_of_le ha hm) hb
    · cases h
  · cases h

theorem addBody_below {l l' : cyclist} {ej m : Int} (h : l.addBody ej = some l')
    (he : ej < m) (hb : l.dataBelow m) : l'.dataBelow m := by
  simp only [addBody, Option.bind_eq_bind, Option.bind_eq_some, Option.pure_def,
    Option.some.injEq] at h
  obtain ⟨ith, hh, l1, h1, l2, h2, l3, h3, l4, h4, l5, h5, rfl⟩ := h
  have b1 := setData_below h1 he hb
  have b2 := setNext_below h2 b1
  have b3 := setPrev_below h3 b2
  have b4 := setNext_below h4 b3
  have b5 := setPrev_below h5 b4
  exact ⟨rd_below hh hb, b5.2⟩

theorem addAfterBody_below {l l' : cyclist} {a ej s m : Int}
    (h : l.addAfterBody a ej = some (l', s)) (he : ej < m) (hb : l.dataBelow m) :
    l'.dataBelow m := by
  simp only [addAfterBody, Option.bind_eq_bind, Option.bind_eq_some, Option.pure_def,
    Option.some.injEq, Prod.mk.injEq] at h
  obtain ⟨ith, hh, ita, -, l1, h1, ita1, -, l2, h2, l3, h3, l4, h4, l5, h5, rfl, -⟩ := h
  have b1 := setNext_below h1 hb
  have b2 := setPrev_below h2 b1
  have b3 := setNext_below h3 b2
  have b4 := setPrev_below h4 b3
  have b5 := setData_below h5 he b4
  exact ⟨rd_below hh hb, b5.2⟩

theorem addBeforeBody_below {l l' : cyclist} {a ej s m : Int}
    (h : l.addBeforeBody a ej = some (l', s)) (he : ej < m) (hb : l.dataBelow m) :
    l'.dataBelow m := by
  simp only [addBeforeBody, Option.bind_eq_bind, Option.bind_eq_some, Option.pure_def,
    Option.some.injEq, Prod.mk.injEq] at h
  obtain ⟨ith, hh, ita, -, l1, h1, l2, h2, ita2, -, l3, h3, l4, h4, l5, h5, rfl, -⟩ := h
  have b1 := setPrev_below h1 hb
  have b2 := setNext_below h2 b1
  have b3 := setNext_below h3 b2
  have b4 := setPrev_below h4 b3
  have b5 := setData_below h5 he b4
  exact ⟨rd_below hh hb, b5.2⟩

theorem add_below {l l' : cyclist} {ej m : Int} {u : Unit} (h : l.add ej = Run.ok l' u)
    (he : ej < m) (hb : l.dataBelow m) : l'.dataBelow m := by
  unfold add at h
  split at h
  · have h' := finish_ok h
    simp only [Option.bind_eq_bind, Option.bind_eq_some, Option.pure_def, Option.some.injEq,
      Prod.mk.injEq] at h'
    obtain ⟨l6, h6, rfl, -⟩ := h'
    exact addBody_below h6 he hb
  · cases h

theorem addAfter_below {l l' : cyclist} {a ej s m : Int} (h : l.addAfter a ej = Run.ok l' s)
    (he : ej < m) (hb : l.dataBelow m) : l'.dataBelow m := by
  unfold addAfter at h
  split at h
  · split at h
    · split at h
      · rename_i l1 u hadd
        cases h
        exact add_below hadd he hb
      · cases h
      · cases h
    · exact addAfterBody_below (finish_ok h) he hb
  · cases h

theorem addBefore_below {l l' : cyclist} {a ej s m : Int} (h : l.addBefore a ej = Run.ok l' s)
    (he : ej < m) (hb : l.dataBelow m) : l'.dataBelow m := by
  unfold addBefore at h
  split at h
  · split at h
    · split at h
      · rename_i l1 u hadd
        cases h
        exact add_below hadd he hb
      · cases h
      · cases h
    · exact addBeforeBody_below (finish_ok h) he hb
  · cases h

theorem new_below (s : Nat) (junk : Nat → item) {m : Int} (hm : (s : Int) < m) :
    (cyclist.new s junk).dataBelow m := by
  refine ⟨lt_of_le_of_lt (Int.natCast_nonneg s) hm, ?_⟩
  intro it hit
  simp only [cyclist.new, List.mem_map, List.mem_range] at hit
  obtain ⟨i, hi, rfl⟩ := hit
  simp only
  omega

theorem getEdge_below {l l' : cyclist} {pos h m : Int} (hg : l.getEdge pos = Run.ok l' h)
    (hb : l.dataBelow m) : h < m := by
  unfold getEdge at hg
  split at hg
  · have h' := finish_ok hg
    simp only [Option.bind_eq_bind, Option.bind_eq_some, Option.pure_def, Option.some.injEq,
      Prod.mk.injEq] at h'
    obtain ⟨it, hit, -, rfl⟩ := h'
    exact rd_below hit hb
  · cases hg

end cyclist

end Tipper

namespace Tipper

theorem setE_fits {d d' : Driver} {i m : Int} {f : edge → edge}
    (h : d.setE i f = Except.ok d') (hf : ∀ x, x.below m → (f x).below m) (hb : Fits m d) :
    Fits m d' ∧ d'.next_edge = d.next_edge ∧ d'.hull = d.hull ∧
      d'.saved_edge = d.saved_edge ∧ i < m := by
  obtain ⟨h1, h2, h3, h4, -⟩ := setE_frame h
  have hl := wre_lt h1
  refine ⟨⟨⟨wre_below h1 (fun x _ hx => hf x hx) hb.below.1, ?_, ?_⟩, ?_, ?_⟩, h3, h2, h4,
    lt_of_lt_of_le hl.1 hb.len⟩
  · rw [h2]; exact hb.below.2.1
  · rw [h4]; exact hb.below.2.2
  · rw [hl.2]; exact hb.len
  · rw [h2]; exact hb.size

theorem hullEdge_below {d : Driver} {pos h m : Int} (hg : d.hullEdge pos = Except.ok h)
    (hb : Fits m d) : h < m := by
  simp only [Driver.hullEdge, bind_ok_iff, pure_ok_iff] at hg
  obtain ⟨⟨l, v⟩, h1, rfl⟩ := hg
  rw [toExcept_ok_iff] at h1
  exact cyclist.getEdge_below h1 hb.below.2.1

theorem Fits.saved {m : Int} {d : Driver} (hb : Fits m d) {v : Int} (hv : v < m) :
    Fits m { d with saved_edge := v } :=
  ⟨⟨hb.below.1, hb.below.2.1, hv⟩, hb.len, hb.size⟩

theorem firstUpper_fits {i m : Int} {d d' : Driver}
    (h : firstUpper i d = Except.ok d') (hn : d.next_edge + 1 < m) (hb : Fits m d) :
    Fits m d' ∧ d'.next_edge = d.next_edge + 1 := by
  simp only [firstUpper, bind_ok_iff, pure_ok_iff] at h
  obtain ⟨x1, -, x2, -, d1, h1, d2, h2, x3, hx3, d3, h3, d4, h4, rfl⟩ := h
  obtain ⟨b1, n1, -⟩ := setE_fits h1 (fun x hx => hx) hb
  obtain ⟨b2, n2, -⟩ := setE_fits h2 (fun x hx => hx) b1
  have b2' : Fits m { d2 with saved_edge := d2.next_edge } :=
    b2.saved (by rw [n2, n1]; omega)
  have hx : x3 < m := hullEdge_below hx3 b2'
  obtain ⟨b3, n3, -⟩ := setE_fits h3 (fun x hx' => ⟨hx, hx'.2.1, hx'.2.2.1, hx'.2.2.2⟩) b2'
  have n3' : d3.next_edge = d.next_edge := by rw [n3]; simp only; rw [n2, n1]
  obtain ⟨b4, n4, -⟩ := setE_fits h4
    (fun x hx' => ⟨hx'.1, by rw [n3']; exact hn, hx'.2.2.1, hx'.2.2.2⟩) b3
  exact ⟨⟨b4.below, b4.len, b4.size⟩, by simp only; rw [n4, n3']⟩

theorem firstLowerEdge_fits {i m : Int} {d d' : Driver}
    (h : firstLowerEdge i d = Except.ok d') (hn : d.next_edge + 1 < m) (hb : Fits m d) :
    Fits m d' ∧ d'.next_edge = d.next_edge + 1 := by
  simp only [firstLowerEdge, bind_ok_iff, pure_ok_iff] at h
  obtain ⟨d1, h1, x1, -, x2, -, d2, h2, x3, hx3, d3, h3, d4, h4, rfl⟩ := h
  obtain ⟨b1, n1, -⟩ := setE_fits h1 (fun x hx => hx) hb
  obtain ⟨b2, n2, -⟩ := setE_fits h2 (fun x hx => hx) b1
  have hx : x3 < m := hullEdge_below hx3 b2
  obtain ⟨b3, n3, -⟩ := setE_fits h3 (fun x hx' => ⟨hx'.1, hx, hx'.2.2.1, hx'.2.2.2⟩) b2
  have n3' : d3.next_edge = d.next_edge := by rw [n3, n2, n1]
  obtain ⟨b4, n4, -⟩ := setE_fits h4
    (fun x hx' => ⟨by rw [n3']; exact hn, hx'.2.1, hx'.2.2.1, hx'.2.2.2⟩) b3
  exact ⟨⟨b4.below, b4.len, b4.size⟩, by simp only; rw [n4, n3']⟩

theorem cantSee_fits {i m : Int} {w : Bool} {d d' : Driver}
    (h : cantSee i w d = Except.ok d') (hb : Fits m d) : Fits m d' := by
  unfold cantSee at h
  split at h
  · rw [pure_ok_iff] at h
    rw [← h]
    exact hb
  · split at h
    · simp only [bind_ok_iff, pure_ok_iff] at h
      obtain ⟨r1, -, r2, -, rfl⟩ := h
      exact ⟨hb.below, hb.len, hb.size⟩
    · cases h

theorem linkUpper_fits {h m : Int} {d d' : Driver}
    (e : linkUpper h d = Except.ok d') (hh : h < m) (hn : d.next_edge < m) (hb : Fits m d) :
    Fits m d' ∧ d'.next_edge = d.next_edge := by
  unfold linkUpper at e
  split at e
  · simp only [bind_ok_iff] at e
    obtain ⟨d1, h1, h2⟩ := e
    obtain ⟨b1, n1, -⟩ := setE_fits h1 (fun x hx => ⟨hx.1, hx.2.1, hn, hx.2.2.2⟩) hb
    obtain ⟨b2, n2, -⟩ := setE_fits h2 (fun x hx => ⟨hx.1, hx.2.1, hx.2.2.1, hh⟩) b1
    exact ⟨b2, n2.trans n1⟩
  · rw [pure_ok_iff] at e
    subst e
    exact ⟨hb, rfl⟩

theorem linkLower_fits {h m : Int} {d d' : Driver}
    (e : linkLower h d = Except.ok d') (hh : h < m) (hn : d.next_edge < m) (hb : Fits m d) :
    Fits m d' ∧ d'.next_edge = d.next_edge := by
  unfold linkLower at e
  split at e
  · rw [pure_ok_iff] at e
    subst e
    exact ⟨hb.saved (by omega), rfl⟩
  · simp only [bind_ok_iff] at e
    obtain ⟨d1, h1, h2⟩ := e
    obtain ⟨b1, n1, -⟩ := setE_fits h1 (fun x hx => ⟨hx.1, hx.2.1, hh, hx.2.2.2⟩) hb
    obtain ⟨b2, n2, -⟩ := setE_fits h2
      (fun x hx => ⟨hx.1, hx.2.1, hx.2.2.1, by rw [n1]; exact hn⟩) b1
    exact ⟨b2, n2.trans n1⟩

theorem upperWire_fits {i h m : Int} {d d' : Driver}
    (e : upperWire i h d = Except.ok d') (hb : Fits m d) :
    Fits m d' ∧ d'.next_edge = d.next_edge ∧ d.next_edge < m ∧ h < m := by
  simp only [upperWire, bind_ok_iff] at e
  obtain ⟨d1, h1, eh, he, d2, h2, d3, h3, d4, h4, d5, h5, d6, h6, h7⟩ := e
  obtain ⟨b1, n1, -, -, hn⟩ := setE_fits h1 (fun x hx => hx) hb
  have hh : h < m := lt_of_lt_of_le (rde_lt he).1 b1.len
  obtain ⟨b2, n2, -⟩ := setE_fits h2 (fun x hx => hx) b1
  have n2' : d2.next_edge = d.next_edge := n2.trans n1
  obtain ⟨b3, n3⟩ := linkUpper_fits h3 hh (by rw [n2']; exact hn) b2
  have n3' : d3.next_edge = d.next_edge := n3.trans n2'
  have b3' : Fits m { d3 with count := d3.count + 1 } := ⟨b3.below, b3.len, b3.size⟩
  obtain ⟨b4, n4, -⟩ := setE_fits h4
    (fun x hx => ⟨hx.1, hx.2.1, by simp only; rw [n3']; omega, hx.2.2.2⟩) b3'
  have n4' : d4.next_edge = d.next_edge := by rw [n4]; exact n3'
  obtain ⟨b5, n5, -⟩ := setE_fits h5
    (fun x hx => ⟨hx.1, hx.2.1, hx.2.2.1, by rw [n4']; exact hn⟩) b4
  have n5' : d5.next_edge = d.next_edge := n5.trans n4'
  obtain ⟨b6, n6, -⟩ := setE_fits h6 (fun x hx => ⟨hx.1, hh, hx.2.2.1, hx.2.2.2⟩) b5
  have n6' : d6.next_edge = d.next_edge := n6.trans n5'
  obtain ⟨b7, n7, -⟩ := setE_fits h7
    (fun x hx => ⟨by rw [n6']; show d.next_edge - 1 < m; omega, hx.2.1, hx.2.2.1, hx.2.2.2⟩) b6
  exact ⟨b7, n7.trans n6', hn, hh⟩

section S
variable {K : Type} [LinearOrderedField K] (sqrt : K → K) (depth : Nat)

theorem firstEdge_fits {p : List (point K)} {i m : Int} {d d' : Driver}
    (h : firstEdge p i d = Except.ok d') (hn : d.next_edge + 1 < m) (hm : 0 ≤ m)
    (hb : Fits m d) : Fits m d' ∧ d'.next_edge = d.next_edge + 1 := by
  simp only [firstEdge, bind_ok_iff, pure_ok_iff] at h
  obtain ⟨v, -, d1, h1, rfl⟩ := h
  have hb' : Fits m { d with saved_edge := -1 } := hb.saved (by omega)
  have : Fits m d1 ∧ d1.next_edge = d.next_edge + 1 := by
    unfold firstNew at h1
    split at h1
    · exact firstUpper_fits (d := { d with saved_edge := -1 }) h1 hn hb'
    · simp only [firstLower, bind_ok_iff] at h1
      obtain ⟨w, -, d2, h2, h3⟩ := h1
      have b2 := cantSee_fits h2 hb'
      have n2 : d2.next_edge = d.next_edge := by
        unfold cantSee at h2
        split at h2
        · rw [pure_ok_iff] at h2
          rw [← h2]
        · split at h2
          · simp only [bind_ok_iff, pure_ok_iff] at h2
            obtain ⟨r1, -, r2, -, rfl⟩ := h2
            rfl
          · cases h2
      have := firstLowerEdge_fits h3 (by rw [n2]; exact hn) b2
      exact ⟨this.1, this.2.trans (by rw [n2])⟩
  exact ⟨⟨this.1.below, this.1.len, this.1.size⟩, this.2⟩

theorem upperEdges_fits {p : List (point K)} {i m : Int} {d d' : Driver}
    (h : upperEdges sqrt depth p i d = Except.ok d') (hb : Fits m d) :
    Fits m d' ∧ d'.next_edge ≤ m := by
  simp only [upperEdges, bind_ok_iff, pure_ok_iff] at h
  obtain ⟨x1, -, d1, h1, r, hr, rfl⟩ := h
  obtain ⟨b1, n1, hn, -⟩ := upperWire_fits h1 hb
  have s := swap_below sqrt m depth _ _ _ r hr b1.len b1.below.1
  exact ⟨⟨⟨s.1, b1.below.2.1, b1.below.2.2⟩, by simp only; rw [s.2]; exact b1.len, b1.size⟩,
    by simp only; rw [n1]; omega⟩

theorem upperStep_fits {p : List (point K)} {i m : Int} {d d' : Driver}
    (h : upperStep sqrt depth p i d = Except.ok d') (hb : Fits m d) :
    Fits m d' ∧ d'.next_edge ≤ m := by
  simp only [upperStep, bind_ok_iff, pure_ok_iff] at h
  obtain ⟨d1, h1, ⟨l, v⟩, h2, rfl⟩ := h
  rw [toExcept_ok_iff] at h2
  obtain ⟨b1, n1⟩ := upperEdges_fits sqrt depth h1 hb
  have f2 := cyclist.delNextPos_ok h2
  exact ⟨⟨⟨b1.below.1, cyclist.delNextPos_below h2 b1.size b1.below.2.1, b1.below.2.2⟩, b1.len,
    by simp only; rw [f2.1]; exact b1.size⟩, n1⟩

theorem upperInsert_fits {m : Int} {d d' : Driver} (h : upperInsert d = Except.ok d')
    (hn : d.next_edge ≤ m) (hb : Fits m d) : Fits m d' := by
  simp only [upperInsert, bind_ok_iff, pure_ok_iff] at h
  obtain ⟨⟨l, v⟩, h2, rfl⟩ := h
  rw [toExcept_ok_iff] at h2
  have f2 := cyclist.addBefore_ok h2
  exact ⟨⟨hb.below.1, cyclist.addBefore_below h2 (by omega) hb.below.2.1, hb.below.2.2⟩, hb.len,
    by simp only; rw [f2.1]; exact hb.size⟩

theorem lowerInsert_fits {m : Int} {d d' : Driver} (h : lowerInsert d = Except.ok d')
    (hb : Fits m d) : Fits m d' := by
  simp only [lowerInsert, bind_ok_iff, pure_ok_iff] at h
  obtain ⟨⟨l, v⟩, h2, rfl⟩ := h
  rw [toExcept_ok_iff] at h2
  have f2 := cyclist.addAfter_ok h2
  exact ⟨⟨hb.below.1, cyclist.addAfter_below h2 hb.below.2.2 hb.below.2.1, hb.below.2.2⟩, hb.len,
    by simp only; rw [f2.1]; exact hb.size⟩

theorem lowerEdges_fits {p : List (point K)} {i m : Int} {d d' : Driver}
    (h : lowerEdges sqrt depth p i d = Except.ok d') (hb : Fits m d) : Fits m d' := by
  simp only [lowerEdges, bind_ok_iff, pure_ok_iff] at h
  obtain ⟨x1, hx1, d1, h1, d2, h2, x2, hx2, d3, h3, d4, h4, d5, h5, d6, h6, d7, h7, r, hr,
    rfl⟩ := h
  have hh : x1 < m := hullEdge_below hx1 hb
  -- the write to `edges[next_edge]` that follows bounds `next_edge`
  have hn : d.next_edge < m := by
    have e1 : d1.next_edge = d.next_edge := by
      unfold linkLower at h1
      split at h1
      · rw [pure_ok_iff] at h1
        rw [← h1]
      · simp only [bind_ok_iff] at h1
        obtain ⟨c1, g1, g2⟩ := h1
        rw [(setE_frame g2).2.2.1, (setE_frame g1).2.2.1]
    have l1 : d1.edges.length = d.edges.length := by
      unfold linkLower at h1
      split at h1
      · rw [pure_ok_iff] at h1
        rw [← h1]
      · simp only [bind_ok_iff] at h1
        obtain ⟨c1, g1, g2⟩ := h1
        rw [(wre_lt (setE_frame g2).1).2, (wre_lt (setE_frame g1).1).2]
    have := (wre_lt (setE_frame h2).1).1
    rw [e1, l1] at this
    exact lt_of_lt_of_le this hb.len
  obtain ⟨b1, n1⟩ := linkLower_fits h1 hh hn hb
  obtain ⟨b2, n2, -⟩ := setE_fits h2 (fun x hx => hx) b1
  obtain ⟨b3, n3, -, s3, -⟩ := setE_fits h3 (fun x hx => hx) b2
  have n3' : d3.next_edge = d.next_edge := n3.trans (n2.trans n1)
  obtain ⟨b4, n4, -, s4, -⟩ := setE_fits h4
    (fun x hx => ⟨hx.1, hx.2.1, hx.2.2.1, b3.below.2.2⟩) b3
  have n4' : d4.next_edge = d.next_edge := n4.trans n3'
  obtain ⟨b5, n5, -, s5, -⟩ := setE_fits h5
    (fun x hx => ⟨hx.1, hx.2.1, by rw [n4']; exact hn, hx.2.2.2⟩) b4
  obtain ⟨b6, n6, -, s6, -⟩ := setE_fits h6 (fun x hx => ⟨hh, hx.2.1, hx.2.2.1, hx.2.2.2⟩) b5
  obtain ⟨b7, n7, -, s7, -⟩ := setE_fits h7
    (fun x hx => ⟨hx.1, b6.below.2.2, hx.2.2.1, hx.2.2.2⟩) b6
  have n7' : d7.next_edge = d.next_edge := n7.trans (n6.trans (n5.trans n4'))
  have s := swap_below sqrt m depth _ _ _ r hr b7.len b7.below.1
  exact ⟨⟨s.1, b7.below.2.1, by simp only; rw [n7']; exact hn⟩,
    by simp only; rw [s.2]; exact b7.len, b7.size⟩

theorem lowerStep_fits {p : List (point K)} {i m : Int} {d d' : Driver}
    (h : lowerStep sqrt depth p i d = Except.ok d') (hb : Fits m d) : Fits m d' := by
  simp only [lowerStep, bind_ok_iff, pure_ok_iff] at h
  obtain ⟨d1, h1, ⟨l, v⟩, h2, rfl⟩ := h
  rw [toExcept_ok_iff] at h2
  have b1 := lowerEdges_fits sqrt depth h1 hb
  have f2 := cyclist.delNextNeg_ok h2
  exact ⟨⟨b1.below.1, cyclist.delNextNeg_below h2 b1.size b1.below.2.1, b1.below.2.2⟩, b1.len,
    by simp only; rw [f2.1]; exact b1.size⟩

theorem upperLoop_fits {p : List (point K)} {i m : Int} (n : Nat) :
    ∀ {d d' : Driver}, upperLoop sqrt depth p i n d = Except.ok d' → Fits m d →
      d.next_edge ≤ m → Fits m d' ∧ d'.next_edge ≤ m := by
  induction n with
  | zero =>
    intro d d' h
    simp [upperLoop] at h
  | succ n ih =>
    intro d d' h hb hn
    simp only [upperLoop, bind_ok_iff] at h
    obtain ⟨v, -, h⟩ := h
    split at h
    · simp only [bind_ok_iff] at h
      obtain ⟨d1, h1, h2⟩ := h
      obtain ⟨b1, n1⟩ := upperStep_fits sqrt depth h1 hb
      exact ih h2 b1 n1
    · rw [pure_ok_iff] at h
      subst h
      exact ⟨hb, hn⟩

theorem lowerLoop_fits {p : List (point K)} {i m : Int} (n : Nat) :
    ∀ {d d' : Driver}, lowerLoop sqrt depth p i n d = Except.ok d' → Fits m d → Fits m d' := by
  induction n with
  | zero =>
    intro d d' h
    simp [lowerLoop] at h
  | succ n ih =>
    intro d d' h hb
    simp only [lowerLoop, bind_ok_iff] at h
    obtain ⟨v, -, h⟩ := h
    split at h
    · simp only [bind_ok_iff] at h
      obtain ⟨d1, h1, h2⟩ := h
      exact ih h2 (lowerStep_fits sqrt depth h1 hb)
    · rw [pure_ok_iff] at h
      subst h
      exact hb

/-- One pass of the loop over the points, stopped where the hull receives the
upper edge, where it receives the lower edge, and at its end. -/
theorem processPoint_fits {p : List (point K)} {i m : Int} {d : Driver}
    (hn : d.next_edge + 1 < m) (hm : 0 ≤ m) (hb : Fits m d) :
    (∀ d1, beforeUpperInsert sqrt depth p i d = Except.ok d1 → Fits m d1) ∧
    (∀ d1, beforeLowerInsert sqrt depth p i d = Except.ok d1 → Fits m d1) ∧
    (∀ d1, processPoint sqrt depth p i d = Except.ok d1 → Fits m d1) := by
  have hup : ∀ d2, beforeUpperInsert sqrt depth p i d = Except.ok d2 →
      Fits m d2 ∧ d2.next_edge ≤ m := by
    intro d2 h
    simp only [beforeUpperInsert, upperSweep, bind_ok_iff] at h
    obtain ⟨d1, h1, h2⟩ := h
    obtain ⟨b1, n1⟩ := firstEdge_fits h1 hn hm hb
    exact upperLoop_fits sqrt depth _ h2 b1 (by omega)
  have hlow : ∀ d4, beforeLowerInsert sqrt depth p i d = Except.ok d4 → Fits m d4 := by
    intro d4 h
    simp only [beforeLowerInsert, lowerSweep, bind_ok_iff] at h
    obtain ⟨d2, h2, d3, h3, h4⟩ := h
    obtain ⟨b2, n2⟩ := hup d2 h2
    exact lowerLoop_fits sqrt depth _ h4 (upperInsert_fits h3 n2 b2)
  refine ⟨fun d1 h => (hup d1 h).1, hlow, fun d5 h => ?_⟩
  simp only [processPoint, bind_ok_iff] at h
  obtain ⟨d4, h4, h5⟩ := h
  exact lowerInsert_fits h5 (hlow d4 h4)

end S

end Tipper

namespace Tipper

section S
variable {K : Type} [LinearOrderedField K] (sqrt : K → K) (depth : Nat) (junk : Nat → item)

theorem seedEdges_below {p : List (point K)} {e e' : List edge} {m : Int} (hm : 2 < m)
    (h : seedEdges p e = Except.ok e') (hb : tableBelow e m) :
    tableBelow e' m ∧ e'.length = e.length := by
  simp only [seedEdges, bind_ok_iff] at h
  obtain ⟨e0, h0, e1, h1, e2, h2, h3⟩ := h
  have b0 : tableBelow e0 m ∧ e0.length = e.length := by
    simp only [seedEnds, bind_ok_iff] at h0
    obtain ⟨p0, -, p1, -, p2, -, h0⟩ := h0
    split at h0
    · simp only [bind_ok_iff] at h0
      obtain ⟨c1, g1, c2, g2, g3⟩ := h0
      have a1 := wre_below g1 (fun x _ hx => hx) hb
      have a2 := wre_below g2 (fun x _ hx => hx) a1
      exact ⟨wre_below g3 (fun x _ hx => hx) a2,
        by rw [(wre_lt g3).2, (wre_lt g2).2, (wre_lt g1).2]⟩
    · simp only [bind_ok_iff] at h0
      obtain ⟨c1, g1, c2, g2, g3⟩ := h0
      have a1 := wre_below g1 (fun x _ hx => hx) hb
      have a2 := wre_below g2 (fun x _ hx => hx) a1
      exact ⟨wre_below g3 (fun x _ hx => hx) a2,
        by rw [(wre_lt g3).2, (wre_lt g2).2, (wre_lt g1).2]⟩
  have b1 := wre_below h1
    (fun x _ hx => ⟨show (2 : Int) < m by omega, show (1 : Int) < m by omega, hx.2.2.1,
      hx.2.2.2⟩) b0.1
  have b2 := wre_below h2
    (fun x _ hx => ⟨show (0 : Int) < m by omega, show (2 : Int) < m by omega, hx.2.2.1,
      hx.2.2.2⟩) b1
  have b3 := wre_below h3
    (fun x _ hx => ⟨show (1 : Int) < m by omega, show (0 : Int) < m by omega, hx.2.2.1,
      hx.2.2.2⟩) b2
  exact ⟨b3, by rw [(wre_lt h3).2, (wre_lt h2).2, (wre_lt h1).2, b0.2]⟩

theorem seedHull_below {hull : cyclist} {r : cyclist × Int × Int} {m : Int} (hm : 2 < m)
    (h : seedHull hull = Except.ok r) (hb : hull.dataBelow m) : r.1.dataBelow m := by
  simp only [seedHull, bind_ok_iff, pure_ok_iff] at h
  obtain ⟨⟨l0, s0⟩, h0, ⟨l1, s1⟩, h1, ⟨l2, s2⟩, h2, rfl⟩ := h
  rw [toExcept_ok_iff] at h0 h1 h2
  have b0 := cyclist.addAfter_below h0 (show (0 : Int) < m by omega) hb
  have b1 := cyclist.addAfter_below h1 (show (1 : Int) < m by omega) b0
  exact cyclist.addAfter_below h2 (show (2 : Int) < m by omega) b1

theorem seed_fits {npoints : Int} {p : List (point K)} {d : Driver} (hn : 3 ≤ npoints)
    (h : seed junk npoints p = Except.ok d) : Fits (3 * npoints) d := by
  have hs := seed_num junk h
  unfold seed at h
  split at h
  · cases h
  · simp only [bind_ok_iff, pure_ok_iff] at h
    obtain ⟨e, he, r, hr, rfl⟩ := h
    have t0 : tableBelow (List.replicate (3 * npoints).toNat edge.new) (3 * npoints) := by
      intro x hx
      rw [List.eq_of_mem_replicate hx]
      simp only [edge.below, edge.new]
      omega
    obtain ⟨t1, l1⟩ := seedEdges_below (by omega) he t0
    have c0 : (cyclist.new npoints.toNat junk).dataBelow (3 * npoints) :=
      cyclist.new_below _ junk (by rw [Int.toNat_of_nonneg (by omega)]; omega)
    have c1 := seedHull_below (by omega) hr c0
    refine ⟨⟨t1, c1, by simp only; omega⟩, ?_, ?_⟩
    · simp only
      rw [l1, List.length_replicate, Int.toNat_of_nonneg (by omega)]
    · have := hs.1
      simp only at this
      simp only
      omega

theorem run_fits (npoints : Int) (p : List (point K)) (hn : 3 ≤ npoints) :
    ∀ (k : Nat) (d : Driver), 3 + (k : Int) ≤ npoints →
      run sqrt depth junk npoints p k = Except.ok d → Fits (3 * npoints) d := by
  intro k
  induction k with
  | zero =>
    intro d _ h
    exact seed_fits junk hn h
  | succ k ih =>
    intro d hk h
    simp only [run, bind_ok_iff] at h
    obtain ⟨d0, h0, h1⟩ := h
    have hk' : 3 + (k : Int) < npoints := by push_cast at hk; omega
    obtain ⟨-, a2, a3, -, -⟩ := run_acc sqrt depth junk npoints p k d0 h0
    exact (processPoint_fits sqrt depth (by omega) (by omega)
      (ih d0 (le_of_lt hk') h0)).2.2 d h1

/-- C26: capacity of the edge table.  For `npoints >= 3`, in every state that
`triangulate` reaches after the seed and `k` passes of the loop over the points
(`3 + k <= npoints`), the table has `3 * npoints` entries, `next_edge` plus the
number of hull edges is `3 * (3 + k) - 3`, so `next_edge`, above every index at
which the driver has created an edge, is at most `3 * npoints - 3`; the
look-ahead index `next_edge + 1` written into the first new edge of a further
point is below `3 * npoints`; no entry from `next_edge` on has a `from`, so the
output loop, run on the final table, stops at an index that is at most
`next_edge`, below `3 * npoints`.  Every edge index the state holds is below
`3 * npoints` (`Below`): the four neighbour fields of every table entry, which
are the indices `swap` reads from the table and calls itself with; the `data`
of every slot of the hull list, so every `h = hull.getEdge(pos)`; and
`saved_edge`.  For a further point the same holds in the states in which the
hull receives the upper and the lower edge of that point, and a call of `swap`
on the table returns a table whose neighbour fields are below `3 * npoints`. -/
theorem edge_capacity (npoints : Int) (p : List (point K)) (hn : 3 ≤ npoints)
    (k : Nat) (d : Driver) (hk : 3 + (k : Int) ≤ npoints)
    (hr : run sqrt depth junk npoints p k = Except.ok d) :
    (d.edges.length : Int) = 3 * npoints ∧
      0 ≤ d.hull.num ∧ d.next_edge + d.hull.num = 3 * (3 + (k : Int)) - 3 ∧
      d.next_edge ≤ 3 * npoints - 3 ∧
      (3 + (k : Int) < npoints → d.next_edge + 1 < 3 * npoints) ∧
      freshFrom d.edges d.next_edge ∧
      (∃ s : Int, scan d.edges = Except.ok s ∧ 0 ≤ s ∧ s ≤ d.next_edge ∧ s < 3 * npoints) ∧
      Below (3 * npoints) d ∧
      (∀ pos h, d.hullEdge pos = Except.ok h → h < 3 * npoints) ∧
      (3 + (k : Int) < npoints →
        (∀ d1, beforeUpperInsert sqrt depth p (3 + (k : Int)) d = Except.ok d1 →
          Below (3 * npoints) d1 ∧ d1.next_edge - 1 < 3 * npoints) ∧
        (∀ d1, beforeLowerInsert sqrt depth p (3 + (k : Int)) d = Except.ok d1 →
          Below (3 * npoints) d1)) ∧
      (∀ (n : Nat) (tint : Int) (r : List edge × Int),
        edge.swap sqrt n tint d.edges p = Except.ok r →
          tint < 3 * npoints ∧ tableBelow r.1 (3 * npoints)) := by
  obtain ⟨a1, a2, a3, a4, a5⟩ := run_acc sqrt depth junk npoints p k d hr
  have hlen : (d.edges.length : Int) = 3 * npoints := by
    rw [a1]
    exact Int.toNat_of_nonneg (by omega)
  have hne : d.next_edge ≤ 3 * npoints - 3 := by omega
  have hf := run_fits sqrt depth junk npoints p hn k d hk hr
  refine ⟨hlen, a2, a3, hne, fun _ => by omega, a4, ?_, hf.below,
    fun pos h hh => hullEdge_below hh hf, fun hk' => ?_, fun n tint r hs => ?_⟩
  · obtain ⟨m, hm⟩ : ∃ m : Nat, d.next_edge = m := ⟨d.next_edge.toNat, by omega⟩
    have hml : m < d.edges.length := by omega
    obtain ⟨s, hs, -, h2⟩ := scanLoop_stops d.edges m _ (List.getElem?_eq_getElem hml)
      (a4 m _ (by omega) (List.getElem?_eq_getElem hml)) (d.edges.length + 1) 0 (by omega)
      (by omega)
    exact ⟨s, hs, by omega, by omega, by omega⟩
  · have pp := processPoint_fits sqrt depth (p := p) (i := 3 + (k : Int)) (by omega)
      (by omega) hf
    refine ⟨fun d1 h1 => ⟨(pp.1 d1 h1).below, ?_⟩, fun d1 h1 => (pp.2.1 d1 h1).below⟩
    simp only [beforeUpperInsert, upperSweep, bind_ok_iff] at h1
    obtain ⟨d0, g0, g1⟩ := h1
    obtain ⟨b0, n0⟩ := firstEdge_fits g0 (by omega) (by omega) hf
    have := (upperLoop_fits sqrt depth _ g1 b0 (by omega)).2
    omega
  · refine ⟨?_, (swap_below sqrt (3 * npoints) n tint d.edges p r hs (le_of_eq hlen)
      hf.below.1).1⟩
    cases n with
    | zero => simp [edge.swap] at hs
    | succ n =>
      simp only [edge.swap, bind_ok_iff] at hs
      obtain ⟨t, ht, -⟩ := hs
      rw [← hlen]
      exact (rde_lt ht).1

end S

theorem edge_capacity_witness :
    (3 : Int) ≤ 4 ∧ 3 + ((1 : Nat) : Int) ≤ 4 ∧
      run sqrt0 2 junk0 4 ptsBelow 1 = Except.ok below4 ∧
      (below4.edges.length : Int) = 3 * 4 ∧
      0 ≤ below4.hull.num ∧ below4.next_edge + below4.hull.num = 3 * (3 + ((1 : Nat) : Int)) - 3 ∧
      below4.next_edge ≤ 3 * 4 - 3 ∧
      (3 + ((1 : Nat) : Int) < 4 → below4.next_edge + 1 < 3 * 4) ∧
      freshFrom below4.edges below4.next_edge ∧
      (∃ s : Int, scan below4.edges = Except.ok s ∧ 0 ≤ s ∧ s ≤ below4.next_edge ∧ s < 3 * 4) ∧
      Below (3 * 4) below4 ∧
      (∀ pos h, below4.hullEdge pos = Except.ok h → h < 3 * 4) :=
  have h : run sqrt0 2 junk0 4 ptsBelow 1 = Except.ok below4 := by decide!
  have t := edge_capacity sqrt0 2 junk0 4 ptsBelow (by decide) 1 below4 (by decide) h
  ⟨by decide, by decide, h, t.1, t.2.1, t.2.2.1, t.2.2.2.1, t.2.2.2.2.1, t.2.2.2.2.2.1,
    t.2.2.2.2.2.2.1, t.2.2.2.2.2.2.2.1, t.2.2.2.2.2.2.2.2.1⟩

end Tipper
namespace Tipper

theorem edge.Keep.rfl_keep (x : edge) : x.Keep x :=
  ⟨Iff.rfl, Iff.rfl, Iff.rfl, Iff.rfl, fun _ => ⟨rfl, rfl⟩⟩

theorem edge.Keep.full_iff {x x' : edge} (h : x.Keep x') : x.full ↔ x'.full := by
  obtain ⟨h1, h2, h3, h4, -⟩ := h
  unfold edge.full
  rw [Ne, Ne, Ne, Ne, h1, h2, h3, h4]

theorem edge.Keep.trans_keep {x y z : edge} (h1 : x.Keep y) (h2 : y.Keep z) : x.Keep z := by
  refine ⟨h1.1.trans h2.1, h1.2.1.trans h2.2.1, h1.2.2.1.trans h2.2.2.1,
    h1.2.2.2.1.trans h2.2.2.2.1, fun hx => ?_⟩
  have hy : ¬ y.full := fun hy => hx (h1.full_iff.mpr hy)
  obtain ⟨a1, a2⟩ := h1.2.2.2.2 hx
  obtain ⟨b1, b2⟩ := h2.2.2.2.2 hy
  exact ⟨b1.trans a1, b2.trans a2⟩

theorem Frame.refl_frame (e : List edge) : Frame e e :=
  ⟨rfl, fun _ x hx => ⟨x, hx, edge.Keep.rfl_keep x⟩⟩

theorem Frame.trans_frame {e1 e2 e3 : List edge} (h12 : Frame e1 e2) (h23 : Frame e2 e3) :
    Frame e1 e3 := by
  refine ⟨h23.1.trans h12.1, fun j x hx => ?_⟩
  obtain ⟨y, hy, k1⟩ := h12.2 j x hx
  obtain ⟨z, hz, k2⟩ := h23.2 j y hy
  exact ⟨z, hz, k1.trans_keep k2⟩

section S

variable {K : Type} [LinearOrderedField K]

variable {e e' : List edge} {p : List (point K)} {tn a b c d : Nat} {F T L R : Int}
  {ea eb ec ed a' b' c' d' : edge} {pF pT pL pR : point K}

theorem Flipped.frameKeep (h : FlipCtx e p tn a b c d F T L R ea eb ec ed pF pT pL pR)
    (hf : Flipped e e' tn a b c d F T L R ea eb ec ed a' b' c' d') : Frame e e' := by
  refine ⟨hf.len, fun j x hx => ?_⟩
  have ca : ((a : Int) ≠ -1) := by omega
  have cb : ((b : Int) ≠ -1) := by omega
  have cc : ((c : Int) ≠ -1) := by omega
  have cd : ((d : Int) ≠ -1) := by omega
  have ct : ((tn : Int) ≠ -1) := by omega
  obtain ⟨n1, n2, n3, n4, n5, n6⟩ := h.ne
  have hj' : j < e'.length := by
    rw [hf.len]
    exact (List.getElem?_eq_some_iff.mp hx).1
  obtain ⟨x', hx'⟩ : ∃ x', e'[j]? = some x' := ⟨_, List.getElem?_eq_getElem hj'⟩
  refine ⟨x', hx', ?_⟩
  rcases hf.cases hx' with ⟨rfl, rfl⟩ | ⟨rfl, rfl⟩ | ⟨rfl, rfl⟩ | ⟨rfl, rfl⟩ | ⟨rfl, rfl⟩ |
    ⟨-, -, -, -, -, h6⟩
  · have := get_inj hx h.het
    subst this
    refine ⟨by simp [ca, cb], by simp [cb, cd], by simp [ca, cc], by simp [cc, cd], ?_⟩
    intro hnf
    exact absurd ⟨ca, cb, cc, cd⟩ hnf
  · have := get_inj hx h.ha
    subst this
    have q := h.qa
    rw [hf.xa]
    unfold edge.pairAt at q
    rcases h.ja with ⟨j1, j2⟩ | ⟨j1, j2⟩
    · rw [if_pos j1]
      rw [if_neg (by rw [j1]; exact fun hh => n2 hh.symm)] at q
      injection q with q1 q2
      refine ⟨Iff.rfl, Iff.rfl, ?_, ?_, fun _ => ⟨rfl, rfl⟩⟩
      · simp [q2, ct, cc]
      · simp [q1, cb, ct]
    · rw [if_neg (by rw [j1]; exact n2)]
      rw [if_pos j1] at q
      injection q with q1 q2
      refine ⟨?_, ?_, Iff.rfl, Iff.rfl, fun _ => ⟨rfl, rfl⟩⟩
      · simp [q1, cb, ct]
      · simp [q2, ct, cc]
  · have := get_inj hx h.hb
    subst this
    have q := h.qb
    rw [hf.xb]
    unfold edge.pairAt at q
    rcases h.jb with ⟨j1, j2⟩ | ⟨j1, j2⟩
    · rw [if_neg (by rw [j2]; exact fun hh => n3 hh)]
      rw [if_pos j1] at q
      injection q with q1 q2
      refine ⟨?_, ?_, Iff.rfl, Iff.rfl, fun _ => ⟨rfl, rfl⟩⟩
      · simp [q1, cd, ct]
      · simp [q2, ct, ca]
    · rw [if_pos j2]
      rw [if_neg (by rw [j1]; exact n3)] at q
      injection q with q1 q2
      refine ⟨Iff.rfl, Iff.rfl, ?_, ?_, fun _ => ⟨rfl, rfl⟩⟩
      · simp [q2, ct, ca]
      · simp [q1, cd, ct]
  · have := get_inj hx h.hc
    subst this
    have q := h.qc
    rw [hf.xc]
    unfold edge.pairAt at q
    rcases h.jc with ⟨j1, j2⟩ | ⟨j1, j2⟩
    · rw [if_pos j1]
      rw [if_pos j1] at q
      injection q with q1 q2
      refine ⟨?_, ?_, Iff.rfl, Iff.rfl, fun _ => ⟨rfl, rfl⟩⟩
      · simp [q1, ca, ct]
      · simp [q2, ct, cd]
    · rw [if_neg (by rw [j1]; exact fun hh => n4 hh)]
      rw [if_neg (by rw [j1]; exact fun hh => n4 hh)] at q
      injection q with q1 q2
      refine ⟨Iff.rfl, Iff.rfl, ?_, ?_, fun _ => ⟨rfl, rfl⟩⟩
      · simp [q2, ct, cd]
      · simp [q1, ca, ct]
  · have := get_inj hx h.hd
    subst this
    have q := h.qd
    rw [hf.xd]
    unfold edge.pairAt at q
    rcases h.jd with ⟨j1, j2⟩ | ⟨j1, j2⟩
    · rw [if_neg (by rw [j2]; exact fun hh => n5 hh)]
      rw [if_neg (by rw [j1]; exact fun hh => n5 hh.symm)] at q
      injection q with q1 q2
      refine ⟨Iff.rfl, Iff.rfl, ?_, ?_, fun _ => ⟨rfl, rfl⟩⟩
      · simp [q2, ct, cb]
      · simp [q1, cc, ct]
    · rw [if_pos j2]
      rw [if_pos j1] at q
      injection q with q1 q2
      refine ⟨?_, ?_, Iff.rfl, Iff.rfl, fun _ => ⟨rfl, rfl⟩⟩
      · simp [q1, cc, ct]
      · simp [q2, ct, cb]
  · have := get_inj hx h6
    subst this
    exact edge.Keep.rfl_keep x

end S

end Tipper

namespace Tipper

section S

variable {K : Type} [LinearOrderedField K] (sqrt : K → K)

/-- A call of `swap` on a valid table that returns, returns a valid table that
keeps the frame of the table it was given. -/
theorem swap_frame (hsq : ∀ x, 0 ≤ x → 0 ≤ sqrt x ∧ sqrt x * sqrt x = x)
    (p : List (point K)) : ∀ (depth : Nat) (tint : Int) (e : List edge)
    (r : List edge × Int), Valid e p → edge.swap sqrt depth tint e p = Except.ok r →
    Valid r.1 p ∧ Frame e r.1 := by
  intro depth
  induction depth with
  | zero =>
    intro tint e r _ h
    simp [edge.swap] at h
  | succ n ih =>
    intro tint e r hv hs
    obtain ⟨t, ht⟩ : ∃ t, rde e tint = Except.ok t := by
      unfold edge.swap at hs
      simp only [bind_ok_iff] at hs
      obtain ⟨t, ht, -⟩ := hs
      exact ⟨t, ht⟩
    by_cases hfull : t.full
    swap
    · rw [swap_not_full sqrt n p ht hfull] at hs
      injection hs with hs
      subst hs
      exact ⟨hv, Frame.refl_frame e⟩
    obtain ⟨tn, rfl, htn⟩ := rde_cast ht
    obtain ⟨a, b, c, d, L, R, ea, eb, ec, ed, pF, pT, pL, pR, et, h⟩ := hv.ctx htn hfull
    obtain ⟨n1, n2, n3, n4, n5, n6⟩ := h.ne
    have eL : (if ea.from_ = t.from_ then ea.to_ else ea.from_) = L := edge.far_of_joins h.ja n2
    have eR : (if ec.from_ = t.from_ then ec.to_ else ec.from_) = R := edge.far_of_joins h.jc n4
    have hla : rde e t.lef = Except.ok ea := by rw [et]; exact rde_get h.ha
    have hrc : rde e t.ref = Except.ok ec := by rw [et]; exact rde_get h.hc
    rw [swap_unfold sqrt n tn e p t ea ec pL pF pT pR (rde_get htn)
      hfull hla hrc (by rw [eL]; exact h.rL) h.rF h.rT (by rw [eR]; exact h.rR)] at hs
    by_cases hft : flipTest sqrt pL pF pT pR
    swap
    · rw [if_neg hft] at hs
      injection hs with hs
      subst hs
      exact ⟨hv, Frame.refl_frame e⟩
    have oR' : orient pF pT pR < 0 := by
      have := h.oR
      rw [orient_swap] at this
      linarith
    have hI := inCircle_of_flipTest sqrt hsq pL pF pT pR h.oL oR' hft
    obtain ⟨g1, g2'⟩ := convex_of_inCircle pF pT pL pR h.oL oR' hI
    have g2 : 0 < orient pR pL pF := by
      rw [orient_swap]
      linarith
    obtain ⟨e1, a', b', c', d', hflip, hf⟩ := h.flipped
    have v1 := hf.valid h hv g1 g2
    have f1 := hf.frameKeep h
    rw [if_pos hft, eL, eR, hflip] at hs
    have hs' : afterFlip (fun n' e => edge.swap sqrt n n' e p) tn e1 = Except.ok r := hs
    simp only [afterFlip, bind_ok_iff, pure_ok_iff] at hs'
    obtain ⟨t1, h1, r1, s1, t2, h2, r2, s2, t3, h3, r3, s3, t4, h4, r4, s4, hr⟩ := hs'
    obtain ⟨w1, k1⟩ := ih _ _ _ v1 s1
    obtain ⟨w2, k2⟩ := ih _ _ _ w1 s2
    obtain ⟨w3, k3⟩ := ih _ _ _ w2 s3
    obtain ⟨w4, k4⟩ := ih _ _ _ w3 s4
    subst hr
    exact ⟨w4, (((f1.trans_frame k1).trans_frame k2).trans_frame k3).trans_frame k4⟩

/-- With an exact square root, `swap` on a valid table returns for every
large enough recursion depth, always the same valid table with the same frame. -/
theorem swap_total (hsq : ∀ x, 0 ≤ x → 0 ≤ sqrt x ∧ sqrt x * sqrt x = x)
    (p : List (point K)) (e : List edge) (hv : Valid e p) (tint : Int) (t : edge)
    (ht : rde e tint = Except.ok t) :
    ∃ (r : List edge × Int) (D : Nat), Valid r.1 p ∧ Frame e r.1 ∧
      ∀ depth, D ≤ depth → edge.swap sqrt depth tint e p = Except.ok r := by
  obtain ⟨N, hN, hb⟩ := exists_bound e (max e.length p.length)
  have hm : ((e.length : Nat) : Int) ≤ (N : Int) :=
    Int.ofNat_le.mpr (le_trans (le_max_left _ _) hN)
  have hp : ((p.length : Nat) : Int) ≤ (N : Int) :=
    Int.ofNat_le.mpr (le_trans (le_max_right _ _) hN)
  obtain ⟨D, r, hs, -⟩ :=
    swap_returns_aux sqrt hsq p e.length N hm hp _ e rfl hb hv rfl tint t ht
  obtain ⟨w, k⟩ := swap_frame sqrt hsq p D tint e r hv hs
  exact ⟨r, D, w, k, fun depth hd => swap_mono_le sqrt p hd hs⟩

end S

end Tipper

namespace Tipper

theorem pairAt_stable {y y' : edge} (h1 : y'.from_ = y.from_)
    (h3 : (y.lef, y.let_) ≠ (-1, -1) → y'.lef = y.lef ∧ y'.let_ = y.let_)
    (h4 : (y.ret, y.ref) ≠ (-1, -1) → y'.ret = y.ret ∧ y'.ref = y.ref) (w : Int)
    (hw : y.pairAt w ≠ (-1, -1)) : y'.pairAt w = y.pairAt w := by
  unfold edge.pairAt at hw ⊢
  rw [h1]
  split
  · rename_i hf
    rw [if_pos hf] at hw
    obtain ⟨a, b⟩ := h3 hw
    rw [a, b]
  · rename_i hf
    rw [if_neg hf] at hw
    obtain ⟨a, b⟩ := h4 hw
    rw [a, b]

section S

variable {K : Type} [LinearOrderedField K]

variable {e e' : List edge} {p : List (point K)}

theorem Tri.congr_pair {i : Int} {x x' : edge} {s t : Int} (hp : x'.pairAt s = x.pairAt s)
    (h : Tri e p i x s t) : Tri e p i x' s t := by
  unfold Tri at h ⊢
  rw [hp]
  exact h

theorem Tri.stable (hs : Stable e e') {i : Int} (hi : 0 ≤ i) {x : edge} {s t : Int}
    (h : Tri e p i x s t) : Tri e' p i x s t := by
  obtain ⟨l, ea, eb, ps, pt, pl, h1, h2, j1, j2, q1, q2, r1, r2, r3, ho⟩ := h
  have hs0 := rdpE_nonneg r1
  have ht0 := rdpE_nonneg r2
  have hl0 := rdpE_nonneg r3
  obtain ⟨na, ea1, ea2⟩ := rde_cast h1
  obtain ⟨nb, eb1, eb2⟩ := rde_cast h2
  have fa : ea.from_ ≠ -1 := by
    rcases j1 with ⟨a, -⟩ | ⟨a, -⟩ <;> omega
  have fb : eb.from_ ≠ -1 := by
    rcases j2 with ⟨a, -⟩ | ⟨a, -⟩ <;> omega
  obtain ⟨ea', ga, a1, a2, a3, a4⟩ := hs.2 na ea ea2 fa
  obtain ⟨eb', gb, b1, b2, b3, b4⟩ := hs.2 nb eb eb2 fb
  have pa : ea'.pairAt l = ea.pairAt l := by
    apply pairAt_stable a1 a3 a4
    rw [q1]
    intro hh
    injection hh with _ hh
    omega
  have pb : eb'.pairAt t = eb.pairAt t := by
    apply pairAt_stable b1 b3 b4
    rw [q2]
    intro hh
    injection hh with hh _
    omega
  refine ⟨l, ea', eb', ps, pt, pl, ?_, ?_, edge.joins_congr j1 a1 a2, edge.joins_congr j2 b1 b2, ?_, ?_,
    r1, r2, r3, ho⟩
  · rw [ea1]; exact rde_get ga
  · rw [eb1]; exact rde_get gb
  · rw [pa, q1]
  · rw [pb, q2]

/-- A table that keeps the resolved sides of a valid table, and in which every
other resolved side is a triangle, is valid. -/
theorem Valid.extend (hv : Valid e p) (hs : Stable e e')
    (hnew : ∀ (j : Nat) (y' : edge), e'[j]? = some y' → ∀ s t : Int,
      ((s = y'.from_ ∧ t = y'.to_) ∨ (s = y'.to_ ∧ t = y'.from_)) →
      y'.pairAt s ≠ (-1, -1) →
      Tri e' p j y' s t ∨
        ∃ y, e[j]? = some y ∧ y.from_ = y'.from_ ∧ y.to_ = y'.to_ ∧ y.pairAt s = y'.pairAt s) :
    Valid e' p := by
  have key : ∀ (j : Nat) (y' : edge), e'[j]? = some y' → ∀ s t : Int,
      ((s = y'.from_ ∧ t = y'.to_) ∨ (s = y'.to_ ∧ t = y'.from_)) →
      y'.pairAt s = (-1, -1) ∨ Tri e' p j y' s t := by
    intro j y' hj s t hst
    by_cases ho : y'.pairAt s = (-1, -1)
    · exact Or.inl ho
    right
    rcases hnew j y' hj s t hst ho with h | ⟨y, hy, f1, f2, hp⟩
    · exact h
    · have hjo : y.joins s t := by
        rcases hst with ⟨rfl, rfl⟩ | ⟨rfl, rfl⟩
        · exact Or.inl ⟨f1, f2⟩
        · exact Or.inr ⟨f1, f2⟩
      rcases hv.sideOf hy hjo with h | h
      · rw [hp] at h
        exact absurd h ho
      · exact Tri.congr_pair hp.symm (Tri.stable hs (Int.natCast_nonneg j) h)
  intro j y' hj
  exact ⟨key j y' hj _ _ (Or.inl ⟨rfl, rfl⟩), key j y' hj _ _ (Or.inr ⟨rfl, rfl⟩)⟩

/-- Three entries that name each other around the points `A`, `B`, `C`, which
are in anticlockwise order, make the three sides of one triangle. -/
theorem tri_of_cycle {A B C : Int} {pA pB pC : point K} {i1 i2 i3 : Nat} {x1 x2 x3 : edge}
    (g1 : e[i1]? = some x1) (g2 : e[i2]? = some x2) (g3 : e[i3]? = some x3)
    (j1 : x1.joins A B) (j2 : x2.joins B C) (j3 : x3.joins C A)
    (q1 : x1.pairAt A = ((i3 : Int), (i2 : Int))) (q2 : x2.pairAt B = ((i1 : Int), (i3 : Int)))
    (q3 : x3.pairAt C = ((i2 : Int), (i1 : Int)))
    (rA : rdpE p A = Except.ok pA) (rB : rdpE p B = Except.ok pB)
    (rC : rdpE p C = Except.ok pC) (ho : 0 < orient pA pB pC) :
    Tri e p i1 x1 A B ∧ Tri e p i2 x2 B C ∧ Tri e p i3 x3 C A := by
  refine ⟨⟨C, x3, x2, pA, pB, pC, ?_, ?_, edge.joins_symm j3, j2, ?_, ?_, rA, rB, rC, ho⟩,
    ⟨A, x1, x3, pB, pC, pA, ?_, ?_, edge.joins_symm j1, j3, ?_, ?_, rB, rC, rA, ?_⟩,
    ⟨B, x2, x1, pC, pA, pB, ?_, ?_, edge.joins_symm j2, j1, ?_, ?_, rC, rA, rB, ?_⟩⟩
  · rw [q1]; exact rde_get g3
  · rw [q1]; exact rde_get g2
  · rw [q1, q3]
  · rw [q1, q2]
  · rw [q2]; exact rde_get g1
  · rw [q2]; exact rde_get g3
  · rw [q2, q1]
  · rw [q2, q3]
  · rw [orient_cyc]; exact ho
  · rw [q3]; exact rde_get g2
  · rw [q3]; exact rde_get g1
  · rw [q3, q2]
  · rw [q3, q1]
  · rw [orient_cyc, orient_cyc]; exact ho

end S

end Tipper

namespace Tipper

theorem pair_fields {y x : edge} {s o : Int} (hj : x.joins s o) (hso : s ≠ o)
    (f1 : y.from_ = x.from_) (ps : y.pairAt s = (-1, -1)) (po : y.pairAt o = x.pairAt o) :
    ((y.lef, y.let_) ≠ (-1, -1) → x.lef = y.lef ∧ x.let_ = y.let_) ∧
    ((y.ret, y.ref) ≠ (-1, -1) → x.ret = y.ret ∧ x.ref = y.ref) := by
  unfold edge.pairAt at ps po
  rw [f1] at ps po
  rcases hj with ⟨a, b⟩ | ⟨a, b⟩
  · rw [if_pos a] at ps
    have hn : ¬ x.from_ = o := by rw [a]; exact hso
    simp only [if_neg hn] at po
    injection po with p1 p2
    exact ⟨fun h => absurd ps h, fun _ => ⟨p1.symm, p2.symm⟩⟩
  · rw [if_neg (by rw [a]; exact fun h => hso h.symm)] at ps
    simp only [if_pos a] at po
    injection po with p1 p2
    exact ⟨fun _ => ⟨p1.symm, p2.symm⟩, fun h => absurd ps h⟩

section S

variable {K : Type} [LinearOrderedField K]

variable {e E : List edge} {p : List (point K)}

/-- Gluing a triangle onto a valid table gives a valid table. -/
theorem glue_valid (hv : Valid e p) (hlen : E.length = e.length)
    {A B C : Int} {pA pB pC : point K} {i1 i2 i3 : Nat} {x1 x2 x3 : edge}
    (g1 : E[i1]? = some x1) (g2 : E[i2]? = some x2) (g3 : E[i3]? = some x3)
    (j1 : x1.joins A B) (j2 : x2.joins B C) (j3 : x3.joins C A)
    (q1 : x1.pairAt A = ((i3 : Int), (i2 : Int))) (q2 : x2.pairAt B = ((i1 : Int), (i3 : Int)))
    (q3 : x3.pairAt C = ((i2 : Int), (i1 : Int)))
    (rA : rdpE p A = Except.ok pA) (rB : rdpE p B = Except.ok pB)
    (rC : rdpE p C = Except.ok pC) (ho : 0 < orient pA pB pC)
    (oth : ∀ j, j ≠ i1 → j ≠ i2 → j ≠ i3 → E[j]? = e[j]?)
    (h1 : Side e i1 x1 A B) (h2 : Side e i2 x2 B C) (h3 : Side e i3 x3 C A) : Valid E p := by
  obtain ⟨nAB, nCA, nCB⟩ := tri_ne rA rB rC ho
  obtain ⟨t1, t2, t3⟩ := tri_of_cycle g1 g2 g3 j1 j2 j3 q1 q2 q3 rA rB rC ho
  have hst : Stable e E := by
    refine ⟨hlen, fun j y hy hf => ?_⟩
    have sub : ∀ (i : Nat) (x : edge) (s o : Int), E[i]? = some x → x.joins s o → s ≠ o →
        Side e i x s o → j = i →
        ∃ y', E[j]? = some y' ∧ y'.from_ = y.from_ ∧ y'.to_ = y.to_ ∧
          ((y.lef, y.let_) ≠ (-1, -1) → y'.lef = y.lef ∧ y'.let_ = y.let_) ∧
          ((y.ret, y.ref) ≠ (-1, -1) → y'.ret = y.ret ∧ y'.ref = y.ref) := by
      intro i x s o gi ji hso hS hji
      subst hji
      obtain ⟨y0, hy0, hc⟩ := hS
      have := get_inj hy hy0
      subst this
      rcases hc with ⟨c1, -⟩ | ⟨c1, c2, c3, c4⟩
      · exact absurd c1 hf
      · obtain ⟨u1, u2⟩ := pair_fields ji hso c1 c3 c4
        exact ⟨x, gi, c1.symm, c2.symm, u1, u2⟩
    by_cases e1 : j = i1
    · exact sub i1 x1 A B g1 j1 nAB h1 e1
    by_cases e2 : j = i2
    · exact sub i2 x2 B C g2 j2 (fun h => nCB h.symm) h2 e2
    by_cases e3 : j = i3
    · exact sub i3 x3 C A g3 j3 nCA h3 e3
    · exact ⟨y, by rw [oth j e1 e2 e3]; exact hy, rfl, rfl, fun _ => ⟨rfl, rfl⟩,
        fun _ => ⟨rfl, rfl⟩⟩
  refine hv.extend hst ?_
  intro j y' hj s t hstj ho'
  have sub : ∀ (i : Nat) (x : edge) (s0 o : Int), E[i]? = some x → x.joins s0 o → s0 ≠ o →
      Side e i x s0 o → Tri E p i x s0 o → j = i →
      Tri E p j y' s t ∨
        ∃ y, e[j]? = some y ∧ y.from_ = y'.from_ ∧ y.to_ = y'.to_ ∧
          y.pairAt s = y'.pairAt s := by
    intro i x s0 o gi ji hso hS ht hji
    subst hji
    have := get_inj hj gi
    subst this
    have hends : (s = s0 ∧ t = o) ∨ (s = o ∧ t = s0) := by
      rcases hstj with ⟨a, b⟩ | ⟨a, b⟩ <;> rcases ji with ⟨c, d⟩ | ⟨c, d⟩
      · exact Or.inl ⟨a.trans c, b.trans d⟩
      · exact Or.inr ⟨a.trans c, b.trans d⟩
      · exact Or.inr ⟨a.trans d, b.trans c⟩
      · exact Or.inl ⟨a.trans d, b.trans c⟩
    rcases hends with ⟨rfl, rfl⟩ | ⟨rfl, rfl⟩
    · exact Or.inl ht
    · obtain ⟨y0, hy0, hc⟩ := hS
      rcases hc with ⟨-, c2⟩ | ⟨c1, c2, -, c4⟩
      · exact absurd c2 ho'
      · exact Or.inr ⟨y0, hy0, c1, c2, c4⟩
  by_cases e1 : j = i1
  · exact sub i1 x1 A B g1 j1 nAB h1 t1 e1
  by_cases e2 : j = i2
  · exact sub i2 x2 B C g2 j2 (fun h => nCB h.symm) h2 t2 e2
  by_cases e3 : j = i3
  · exact sub i3 x3 C A g3 j3 nCA h3 t3 e3
  · exact Or.inr ⟨y', by rw [← oth j e1 e2 e3]; exact hj, rfl, rfl, rfl⟩

end S

end Tipper

namespace Tipper

section S

variable {K : Type} [LinearOrderedField K]

variable {p : List (point K)} {e E : List edge}

theorem edge.Keep.bnd {x x' : edge} (h : x.Keep x') {a b : Nat} (hb : x.Bnd a b) :
    x'.Bnd a b := by
  obtain ⟨b1, b2, b3, b4, b5, b6⟩ := hb
  obtain ⟨k1, k2, k3, k4, k5⟩ := h
  have hnf : ¬ x.full := fun hf => hf.2.2.1 b3
  obtain ⟨f1, f2⟩ := k5 hnf
  exact ⟨f1.trans b1, f2.trans b2, k3.mp b3, k4.mp b4, fun hh => b5 (k1.mpr hh),
    fun hh => b6 (k2.mpr hh)⟩

theorem edge.Keep.fresh_eq {x' : edge} (h : edge.new.Keep x') : x' = edge.new := by
  obtain ⟨k1, k2, k3, k4, k5⟩ := h
  have hnf : ¬ edge.new.full := fun hf => hf.1 rfl
  obtain ⟨f1, f2⟩ := k5 hnf
  obtain ⟨a, b, c, d, g, i⟩ := x'
  simp only [edge.new] at k1 k2 k3 k4 f1 f2 ⊢
  simp only [true_iff] at k1 k2 k3 k4
  subst k1 k2 k3 k4 f1 f2
  rfl

theorem Frame.get {e e' : List edge} (hf : Frame e e') {j : Nat} {x' : edge}
    (hx' : e'[j]? = some x') : ∃ x, e[j]? = some x ∧ x.Keep x' := by
  have hj : j < e.length := by
    rw [← hf.1]
    exact (List.getElem?_eq_some_iff.mp hx').1
  obtain ⟨x'', h1, h2⟩ := hf.2 j _ (List.getElem?_eq_getElem hj)
  have := get_inj hx' h1
  subst this
  exact ⟨_, List.getElem?_eq_getElem hj, h2⟩

/-- A valid table with the frame of a table that is a consistent triangulation
is a consistent triangulation with the same boundary. -/
theorem Table.of_frame {ne : Nat} {B : List BEdge} (T : Table p e ne B) (hf : Frame e E)
    (hv : Valid E p) : Table p E ne B := by
  refine ⟨hv, ?_, T.nodup, ?_, ?_⟩
  · intro j x' hx' hj
    obtain ⟨x, hx, hk⟩ := hf.get hx'
    have := T.fresh j x hx hj
    subst this
    exact hk.fresh_eq
  · intro t ht
    obtain ⟨h1, x, hx, hb⟩ := T.bnd t ht
    obtain ⟨x', hx', hk⟩ := hf.2 _ x hx
    exact ⟨h1, x', hx', hk.bnd hb⟩
  · intro j x' hx' hj hn
    obtain ⟨x, hx, hk⟩ := hf.get hx'
    exact hk.full_iff.mp (T.full j x hx hj hn)

/-- The boundary list matters only through its members. -/
theorem Table.congr_bnd {ne : Nat} {B B' : List BEdge} (T : Table p e ne B)
    (hm : ∀ t, t ∈ B' ↔ t ∈ B) (hn : (B'.map BEdge.id).Nodup) : Table p e ne B' := by
  refine ⟨T.valid, T.fresh, hn, fun t ht => T.bnd t ((hm t).mp ht), ?_⟩
  intro j x hx hj hnot
  apply T.full j x hx hj
  intro hmem
  obtain ⟨t, ht, rfl⟩ := List.mem_map.mp hmem
  exact hnot (List.mem_map.mpr ⟨t, (hm t).mpr ht, rfl⟩)

theorem orient_swap23 (a b c : point K) : orient a c b = - orient a b c := by
  unfold orient
  ring

theorem length_eq_of_get {α : Type} {l l' : List α}
    (h : ∀ j : Nat, (l'[j]?).isSome = (l[j]?).isSome) : l'.length = l.length := by
  apply le_antisymm
  · by_contra hc
    have hlt : l.length < l'.length := by omega
    have := h l.length
    rw [List.getElem?_eq_getElem hlt, List.getElem?_eq_none (le_refl _)] at this
    simp at this
  · by_contra hc
    have hlt : l'.length < l.length := by omega
    have := h l'.length
    rw [List.getElem?_eq_getElem hlt, List.getElem?_eq_none (le_refl _)] at this
    simp at this

end S

end Tipper

namespace Tipper

section S

variable {K : Type} [LinearOrderedField K]

variable {p : List (point K)} {e E : List edge}

theorem length_eq_of_three {i1 i2 i3 : Nat} {x1 x2 x3 y1 y2 y3 : edge}
    (g1 : E[i1]? = some x1) (g2 : E[i2]? = some x2) (g3 : E[i3]? = some x3)
    (h1 : e[i1]? = some y1) (h2 : e[i2]? = some y2) (h3 : e[i3]? = some y3)
    (oth : ∀ j, j ≠ i1 → j ≠ i2 → j ≠ i3 → E[j]? = e[j]?) : E.length = e.length := by
  apply length_eq_of_get
  intro j
  by_cases e1 : j = i1
  · subst e1; rw [g1, h1]; rfl
  by_cases e2 : j = i2
  · subst e2; rw [g2, h2]; rfl
  by_cases e3 : j = i3
  · subst e3; rw [g3, h3]; rfl
  · rw [oth j e1 e2 e3]

theorem Table.perm {ne : Nat} {B B' : List BEdge} (T : Table p e ne B) (hp : B.Perm B') :
    Table p e ne B' :=
  T.congr_bnd (fun _ => hp.mem_iff.symm) ((hp.map BEdge.id).nodup_iff.mp T.nodup)

/-- The bookkeeping of a step that turns the boundary edges `O` into inner
edges and makes the unused entries from `ne` up to `ne'` the boundary edges
`N`. -/
theorem Table.book {ne ne' : Nat} {O R N : List BEdge} (T : Table p e ne (O ++ R))
    (hv : Valid E p) (hne : ne ≤ ne')
    (oth : ∀ j, j ∉ O.map BEdge.id → j ∉ N.map BEdge.id → E[j]? = e[j]?)
    (hN : ∀ t ∈ N, ne ≤ t.id ∧ t.id < ne' ∧ ∃ x, E[t.id]? = some x ∧ x.Bnd t.a t.b)
    (hNn : (N.map BEdge.id).Nodup)
    (hall : ∀ j, ne ≤ j → j < ne' → j ∈ N.map BEdge.id)
    (hO : ∀ t ∈ O, ∀ x, E[t.id]? = some x → x.full) :
    Table p E ne' (N ++ R) := by
  have nd := T.nodup
  rw [List.map_append] at nd
  obtain ⟨ndO, ndR, ndD⟩ := List.nodup_append.mp nd
  have hOlt : ∀ j, j ∈ O.map BEdge.id → j < ne := by
    intro j hj
    obtain ⟨t, ht, rfl⟩ := List.mem_map.mp hj
    exact (T.bnd t (List.mem_append_left _ ht)).1
  have hRlt : ∀ j, j ∈ R.map BEdge.id → j < ne := by
    intro j hj
    obtain ⟨t, ht, rfl⟩ := List.mem_map.mp hj
    exact (T.bnd t (List.mem_append_right _ ht)).1
  have hNge : ∀ j, j ∈ N.map BEdge.id → ne ≤ j ∧ j < ne' := by
    intro j hj
    obtain ⟨t, ht, rfl⟩ := List.mem_map.mp hj
    exact ⟨(hN t ht).1, (hN t ht).2.1⟩
  refine ⟨hv, ?_, ?_, ?_, ?_⟩
  · intro j x hx hj
    rw [oth j (fun h => by have := hOlt j h; omega) (fun h => by have := hNge j h; omega)] at hx
    exact T.fresh j x hx (by omega)
  · rw [List.map_append]
    refine List.nodup_append.mpr ⟨hNn, ndR, ?_⟩
    apply List.disjoint_left.mpr
    intro j h1 h2
    have := hNge j h1
    have := hRlt j h2
    omega
  · intro t ht
    rcases List.mem_append.mp ht with h | h
    · obtain ⟨-, h2, h3⟩ := hN t h
      exact ⟨h2, h3⟩
    · obtain ⟨h1, x, hx, hb⟩ := T.bnd t (List.mem_append_right _ h)
      have hm : t.id ∈ R.map BEdge.id := List.mem_map.mpr ⟨t, h, rfl⟩
      refine ⟨by omega, x, ?_, hb⟩
      rw [oth _ (fun hh => List.disjoint_left.mp ndD hh hm)
        (fun hh => by have := hNge _ hh; omega)]
      exact hx
  · intro j x hx hj hnot
    rw [List.map_append, List.mem_append, not_or] at hnot
    by_cases hjO : j ∈ O.map BEdge.id
    · obtain ⟨t, ht, rfl⟩ := List.mem_map.mp hjO
      exact hO t ht x hx
    · rw [oth j hjO hnot.1] at hx
      have hlt : j < ne := by
        by_contra hc
        exact hnot.1 (hall j (by omega) hj)
      apply T.full j x hx hlt
      rw [List.map_append, List.mem_append, not_or]
      exact ⟨hjO, hnot.2⟩

/-- One more triangle of the upper fan: the hull edge `h = a -> b` and the
top spoke `n = q -> a` get their right sides, the entry `n + 1` becomes the new
top spoke `q -> b`. -/
theorem Table.upper_next {h n a b q : Nat} {R : List BEdge} {eh ep en : edge}
    {pa pb pq : point K}
    (T : Table p e (n + 1) (⟨h, a, b⟩ :: ⟨n, q, a⟩ :: R))
    (heh : e[h]? = some eh) (hep : e[n]? = some ep) (hen : e[n + 1]? = some en)
    (g1 : E[n + 1]? = some ⟨q, b, n, h, -1, -1⟩)
    (g2 : E[h]? = some { eh with ref := n, ret := (n : Int) + 1 })
    (g3 : E[n]? = some { ep with ref := (n : Int) + 1, ret := h })
    (oth : ∀ j, j ≠ n → j ≠ n + 1 → j ≠ h → E[j]? = e[j]?)
    (ra : rdpE p a = Except.ok pa) (rb : rdpE p b = Except.ok pb)
    (rq : rdpE p q = Except.ok pq) (ho : orient pa pb pq < 0) :
    Table p E (n + 2) (⟨n + 1, q, b⟩ :: R) := by
  have ho' : 0 < orient pa pq pb := by rw [orient_swap23]; linarith
  obtain ⟨nAB, nCA, nCB⟩ := tri_ne ra rq rb ho'
  obtain ⟨hh, xh, hxh, bh⟩ := T.bnd ⟨h, a, b⟩ (by simp)
  obtain ⟨hn', xn, hxn, bn⟩ := T.bnd ⟨n, q, a⟩ (by simp)
  have := get_inj hxh heh
  subst this
  have := get_inj hxn hep
  subst this
  have := T.fresh (n + 1) en hen (le_refl _)
  subst this
  simp only at hh hxh bh hxn bn
  obtain ⟨b1, b2, b3, b4, b5, b6⟩ := bh
  obtain ⟨c1, c2, c3, c4, c5, c6⟩ := bn
  have hlen : E.length = e.length :=
    length_eq_of_three g3 g1 g2 hep hen heh oth
  have hv : Valid E p := by
    refine glue_valid T.valid hlen g3 g1 g2 ?_ ?_ ?_ ?_ ?_ ?_ ra rq rb ho' ?_ ?_ ?_ ?_
    · exact Or.inr ⟨c1, c2⟩
    · exact Or.inl ⟨rfl, rfl⟩
    · exact Or.inr ⟨b1, b2⟩
    · simp only [edge.pairAt, c1, if_neg (Ne.symm nAB)]
      push_cast
      rfl
    · simp [edge.pairAt]
    · simp only [edge.pairAt, b1, if_neg (Ne.symm nCA)]
      push_cast
      rfl
    · intro j j1 j2 j3
      exact oth j j1 j2 j3
    · refine ⟨xn, hep, Or.inr ⟨rfl, rfl, ?_, ?_⟩⟩
      · simp only [edge.pairAt, c1, if_neg (Ne.symm nAB), c3, c4]
      · simp only [edge.pairAt, c1, if_true]
    · refine ⟨edge.new, hen, Or.inl ⟨rfl, ?_⟩⟩
      simp only [edge.pairAt, if_neg nCB.symm]
    · refine ⟨xh, heh, Or.inr ⟨rfl, rfl, ?_, ?_⟩⟩
      · simp only [edge.pairAt, b1, if_neg (Ne.symm nCA), b3, b4]
      · simp only [edge.pairAt, b1, if_true]
  have T' : Table p e (n + 1) ([⟨h, a, b⟩, ⟨n, q, a⟩] ++ R) := T
  refine Table.book (N := [⟨n + 1, q, b⟩]) T' hv (by omega) ?_ ?_ (by simp) ?_ ?_
  · intro j h1 h2
    simp only [List.map_cons, List.map_nil, List.mem_cons, List.not_mem_nil, or_false,
      not_or] at h1 h2
    exact oth j h1.2 h2 h1.1
  · intro t ht
    simp only [List.mem_cons, List.not_mem_nil, or_false] at ht
    subst ht
    refine ⟨le_refl _, by simp, _, g1, rfl, rfl, rfl, rfl, ?_, ?_⟩
    · show ((n : Int) ≠ -1); omega
    · show ((h : Int) ≠ -1); omega
  · intro j h1 h2
    simp only [List.map_cons, List.map_nil, List.mem_cons, List.not_mem_nil, or_false]
    omega
  · intro t ht x hx
    simp only [List.mem_cons, List.not_mem_nil, or_false] at ht
    rcases ht with rfl | rfl
    · have := get_inj hx g2
      subst this
      refine ⟨b5, b6, ?_, ?_⟩
      · show ((n : Int) ≠ -1); omega
      · show ((n : Int) + 1 ≠ -1); omega
    · have := get_inj hx g3
      subst this
      refine ⟨c5, c6, ?_, ?_⟩
      · show ((n : Int) + 1 ≠ -1); omega
      · show ((h : Int) ≠ -1); omega

end S

end Tipper

namespace Tipper

section S

variable {K : Type} [LinearOrderedField K]

variable {p : List (point K)} {e E : List edge}

/-- The first triangle of the fan when the upper reference edge is visible:
the hull edge `h = a -> b` gets its right side, the unused entries `n` and
`n + 1` become the bottom spoke `a -> q` and the top spoke `q -> b`. -/
theorem Table.upper_first {h n a b q : Nat} {R : List BEdge} {eh en0 en1 : edge}
    {pa pb pq : point K}
    (T : Table p e n (⟨h, a, b⟩ :: R))
    (heh : e[h]? = some eh) (hen0 : e[n]? = some en0) (hen1 : e[n + 1]? = some en1)
    (g1 : E[n + 1]? = some ⟨q, b, n, h, -1, -1⟩)
    (g2 : E[h]? = some { eh with ref := n, ret := (n : Int) + 1 })
    (g3 : E[n]? = some ⟨a, q, h, (n : Int) + 1, -1, -1⟩)
    (oth : ∀ j, j ≠ n → j ≠ n + 1 → j ≠ h → E[j]? = e[j]?)
    (ra : rdpE p a = Except.ok pa) (rb : rdpE p b = Except.ok pb)
    (rq : rdpE p q = Except.ok pq) (ho : orient pa pb pq < 0) :
    Table p E (n + 2) (⟨n + 1, q, b⟩ :: ⟨n, a, q⟩ :: R) := by
  have ho' : 0 < orient pa pq pb := by rw [orient_swap23]; linarith
  obtain ⟨nAB, nCA, nCB⟩ := tri_ne ra rq rb ho'
  obtain ⟨hh, xh, hxh, bh⟩ := T.bnd ⟨h, a, b⟩ (by simp)
  have := get_inj hxh heh
  subst this
  have := T.fresh n en0 hen0 (le_refl _)
  subst this
  have := T.fresh (n + 1) en1 hen1 (by omega)
  subst this
  simp only at hh hxh bh
  obtain ⟨b1, b2, b3, b4, b5, b6⟩ := bh
  have hlen : E.length = e.length :=
    length_eq_of_three g3 g1 g2 hen0 hen1 heh oth
  have hv : Valid E p := by
    refine glue_valid T.valid hlen g3 g1 g2 ?_ ?_ ?_ ?_ ?_ ?_ ra rq rb ho' ?_ ?_ ?_ ?_
    · exact Or.inl ⟨rfl, rfl⟩
    · exact Or.inl ⟨rfl, rfl⟩
    · exact Or.inr ⟨b1, b2⟩
    · simp only [edge.pairAt, if_true]
      push_cast
      rfl
    · simp [edge.pairAt]
    · simp only [edge.pairAt, b1, if_neg (Ne.symm nCA)]
      push_cast
      rfl
    · intro j j1 j2 j3
      exact oth j j1 j2 j3
    · refine ⟨edge.new, hen0, Or.inl ⟨rfl, ?_⟩⟩
      simp only [edge.pairAt, if_neg nAB]
    · refine ⟨edge.new, hen1, Or.inl ⟨rfl, ?_⟩⟩
      simp only [edge.pairAt, if_neg nCB.symm]
    · refine ⟨xh, heh, Or.inr ⟨rfl, rfl, ?_, ?_⟩⟩
      · simp only [edge.pairAt, b1, if_neg (Ne.symm nCA), b3, b4]
      · simp only [edge.pairAt, b1, if_true]
  have T' : Table p e n ([⟨h, a, b⟩] ++ R) := T
  have key := Table.book (N := [⟨n + 1, q, b⟩, ⟨n, a, q⟩]) T' hv (show n ≤ n + 2 by omega)
    ?_ ?_ (by simp) ?_ ?_
  · exact key
  · intro j h1 h2
    simp only [List.map_cons, List.map_nil, List.mem_cons, List.not_mem_nil, or_false,
      not_or] at h1 h2
    exact oth j h2.2 h2.1 h1
  · intro t ht
    simp only [List.mem_cons, List.not_mem_nil, or_false] at ht
    rcases ht with rfl | rfl
    · refine ⟨by simp, by simp, _, g1, rfl, rfl, rfl, rfl, ?_, ?_⟩
      · show ((n : Int) ≠ -1); omega
      · show ((h : Int) ≠ -1); omega
    · refine ⟨le_refl _, by simp, _, g3, rfl, rfl, rfl, rfl, ?_, ?_⟩
      · show ((h : Int) ≠ -1); omega
      · show ((n : Int) + 1 ≠ -1); omega
  · intro j h1 h2
    simp only [List.map_cons, List.map_nil, List.mem_cons, List.not_mem_nil, or_false]
    omega
  · intro t ht x hx
    simp only [List.mem_cons, List.not_mem_nil, or_false] at ht
    subst ht
    have := get_inj hx g2
    subst this
    refine ⟨b5, b6, ?_, ?_⟩
    · show ((n : Int) ≠ -1); omega
    · show ((n : Int) + 1 ≠ -1); omega

/-- One more triangle of the lower fan: the hull edge `h = a -> b` and the
bottom spoke `s = b -> q` get their right sides, the entry `n` becomes the new
bottom spoke `a -> q`. -/
theorem Table.lower_next {h n s a b q : Nat} {R : List BEdge} {eh es en : edge}
    {pa pb pq : point K}
    (T : Table p e n (⟨h, a, b⟩ :: ⟨s, b, q⟩ :: R))
    (heh : e[h]? = some eh) (hes : e[s]? = some es) (hen : e[n]? = some en)
    (g1 : E[n]? = some ⟨a, q, h, s, -1, -1⟩)
    (g2 : E[h]? = some { eh with ret := s, ref := n })
    (g3 : E[s]? = some { es with ref := h, ret := n })
    (oth : ∀ j, j ≠ n → j ≠ s → j ≠ h → E[j]? = e[j]?)
    (ra : rdpE p a = Except.ok pa) (rb : rdpE p b = Except.ok pb)
    (rq : rdpE p q = Except.ok pq) (ho : orient pa pb pq < 0) :
    Table p E (n + 1) (⟨n, a, q⟩ :: R) := by
  have ho' : 0 < orient pa pq pb := by rw [orient_swap23]; linarith
  obtain ⟨nAB, nCA, nCB⟩ := tri_ne ra rq rb ho'
  obtain ⟨hh, xh, hxh, bh⟩ := T.bnd ⟨h, a, b⟩ (by simp)
  obtain ⟨hs', xs, hxs, bs⟩ := T.bnd ⟨s, b, q⟩ (by simp)
  have := get_inj hxh heh
  subst this
  have := get_inj hxs hes
  subst this
  have := T.fresh n en hen (le_refl _)
  subst this
  simp only at hh hxh bh hs' hxs bs
  obtain ⟨b1, b2, b3, b4, b5, b6⟩ := bh
  obtain ⟨c1, c2, c3, c4, c5, c6⟩ := bs
  have hlen : E.length = e.length :=
    length_eq_of_three g1 g3 g2 hen hes heh oth
  have hv : Valid E p := by
    refine glue_valid T.valid hlen g1 g3 g2 ?_ ?_ ?_ ?_ ?_ ?_ ra rq rb ho' ?_ ?_ ?_ ?_
    · exact Or.inl ⟨rfl, rfl⟩
    · exact Or.inr ⟨c1, c2⟩
    · exact Or.inr ⟨b1, b2⟩
    · simp only [edge.pairAt, if_true]
    · simp only [edge.pairAt, c1, if_neg nCB]
    · simp only [edge.pairAt, b1, if_neg (Ne.symm nCA)]
    · intro j j1 j2 j3
      exact oth j j1 j2 j3
    · refine ⟨edge.new, hen, Or.inl ⟨rfl, ?_⟩⟩
      simp only [edge.pairAt, if_neg nAB]
    · refine ⟨xs, hes, Or.inr ⟨rfl, rfl, ?_, ?_⟩⟩
      · simp only [edge.pairAt, c1, if_neg nCB, c3, c4]
      · simp only [edge.pairAt, c1, if_true]
    · refine ⟨xh, heh, Or.inr ⟨rfl, rfl, ?_, ?_⟩⟩
      · simp only [edge.pairAt, b1, if_neg (Ne.symm nCA), b3, b4]
      · simp only [edge.pairAt, b1, if_true]
  have T' : Table p e n ([⟨h, a, b⟩, ⟨s, b, q⟩] ++ R) := T
  have key := Table.book (N := [⟨n, a, q⟩]) T' hv (show n ≤ n + 1 by omega) ?_ ?_ (by simp)
    ?_ ?_
  · exact key
  · intro j h1 h2
    simp only [List.map_cons, List.map_nil, List.mem_cons, List.not_mem_nil, or_false,
      not_or] at h1 h2
    exact oth j h2 h1.2 h1.1
  · intro t ht
    simp only [List.mem_cons, List.not_mem_nil, or_false] at ht
    subst ht
    refine ⟨le_refl _, by simp, _, g1, rfl, rfl, rfl, rfl, ?_, ?_⟩
    · show ((h : Int) ≠ -1); omega
    · show ((s : Int) ≠ -1); omega
  · intro j h1 h2
    simp only [List.map_cons, List.map_nil, List.mem_cons, List.not_mem_nil, or_false]
    omega
  · intro t ht x hx
    simp only [List.mem_cons, List.not_mem_nil, or_false] at ht
    rcases ht with rfl | rfl
    · have := get_inj hx g2
      subst this
      refine ⟨b5, b6, ?_, ?_⟩
      · show ((n : Int) ≠ -1); omega
      · show ((s : Int) ≠ -1); omega
    · have := get_inj hx g3
      subst this
      refine ⟨c5, c6, ?_, ?_⟩
      · show ((h : Int) ≠ -1); omega
      · show ((n : Int) ≠ -1); omega

/-- The first triangle of the fan when the upper reference edge is not
visible: the hull edge `h = a -> b` gets its right side, the unused entries `n`
and `n + 1` become the top spoke `q -> b` and the bottom spoke `a -> q`. -/
theorem Table.lower_first {h n a b q : Nat} {R : List BEdge} {eh en0 en1 : edge}
    {pa pb pq : point K}
    (T : Table p e n (⟨h, a, b⟩ :: R))
    (heh : e[h]? = some eh) (hen0 : e[n]? = some en0) (hen1 : e[n + 1]? = some en1)
    (g1 : E[n + 1]? = some ⟨a, q, h, n, -1, -1⟩)
    (g2 : E[h]? = some { eh with ret := n, ref := (n : Int) + 1 })
    (g3 : E[n]? = some ⟨q, b, (n : Int) + 1, h, -1, -1⟩)
    (oth : ∀ j, j ≠ n → j ≠ n + 1 → j ≠ h → E[j]? = e[j]?)
    (ra : rdpE p a = Except.ok pa) (rb : rdpE p b = Except.ok pb)
    (rq : rdpE p q = Except.ok pq) (ho : orient pa pb pq < 0) :
    Table p E (n + 2) (⟨n, q, b⟩ :: ⟨n + 1, a, q⟩ :: R) := by
  have ho' : 0 < orient pa pq pb := by rw [orient_swap23]; linarith
  obtain ⟨nAB, nCA, nCB⟩ := tri_ne ra rq rb ho'
  obtain ⟨hh, xh, hxh, bh⟩ := T.bnd ⟨h, a, b⟩ (by simp)
  have := get_inj hxh heh
  subst this
  have := T.fresh n en0 hen0 (le_refl _)
  subst this
  have := T.fresh (n + 1) en1 hen1 (by omega)
  subst this
  simp only at hh hxh bh
  obtain ⟨b1, b2, b3, b4, b5, b6⟩ := bh
  have hlen : E.length = e.length :=
    length_eq_of_three g3 g1 g2 hen0 hen1 heh oth
  have hv : Valid E p := by
    refine glue_valid T.valid hlen g1 g3 g2 ?_ ?_ ?_ ?_ ?_ ?_ ra rq rb ho' ?_ ?_ ?_ ?_
    · exact Or.inl ⟨rfl, rfl⟩
    · exact Or.inl ⟨rfl, rfl⟩
    · exact Or.inr ⟨b1, b2⟩
    · simp only [edge.pairAt, if_true]
    · simp only [edge.pairAt, if_true]
      push_cast
      rfl
    · simp only [edge.pairAt, b1, if_neg (Ne.symm nCA)]
      push_cast
      rfl
    · intro j j1 j2 j3
      exact oth j j2 j1 j3
    · refine ⟨edge.new, hen1, Or.inl ⟨rfl, ?_⟩⟩
      simp only [edge.pairAt, if_neg nAB]
    · refine ⟨edge.new, hen0, Or.inl ⟨rfl, ?_⟩⟩
      simp only [edge.pairAt, if_neg nCB.symm]
    · refine ⟨xh, heh, Or.inr ⟨rfl, rfl, ?_, ?_⟩⟩
      · simp only [edge.pairAt, b1, if_neg (Ne.symm nCA), b3, b4]
      · simp only [edge.pairAt, b1, if_true]
  have T' : Table p e n ([⟨h, a, b⟩] ++ R) := T
  have key := Table.book (N := [⟨n, q, b⟩, ⟨n + 1, a, q⟩]) T' hv (show n ≤ n + 2 by omega)
    ?_ ?_ (by simp) ?_ ?_
  · exact key
  · intro j h1 h2
    simp only [List.map_cons, List.map_nil, List.mem_cons, List.not_mem_nil, or_false,
      not_or] at h1 h2
    exact oth j h2.1 h2.2 h1
  · intro t ht
    simp only [List.mem_cons, List.not_mem_nil, or_false] at ht
    rcases ht with rfl | rfl
    · refine ⟨le_refl _, by simp, _, g3, rfl, rfl, rfl, rfl, ?_, ?_⟩
      · show ((n : Int) + 1 ≠ -1); omega
      · show ((h : Int) ≠ -1); omega
    · refine ⟨by simp, by simp, _, g1, rfl, rfl, rfl, rfl, ?_, ?_⟩
      · show ((h : Int) ≠ -1); omega
      · show ((n : Int) ≠ -1); omega
  · intro j h1 h2
    simp only [List.map_cons, List.map_nil, List.mem_cons, List.not_mem_nil, or_false]
    omega
  · intro t ht x hx
    simp only [List.mem_cons, List.not_mem_nil, or_false] at ht
    subst ht
    have := get_inj hx g2
    subst this
    refine ⟨b5, b6, ?_, ?_⟩
    · show ((n : Int) + 1 ≠ -1); omega
    · show ((n : Int) ≠ -1); omega

end S

end Tipper

namespace Tipper

section S

variable {K : Type} [LinearOrderedField K]

/-- For an edge whose end points are at least `mindistance` apart in `x` and in
`y`, seen from a point to the right of both, `visible` is the exact test: the
point lies strictly to the right of the directed edge. -/
theorem visible_exact {x : edge} {p : List (point K)} {i : Int} {pf pt pi : point K}
    (hf : rdp p x.from_ = some pf) (ht : rdp p x.to_ = some pt) (hi : rdp p i = some pi)
    (hx : mindistance ≤ |pf.x - pt.x|) (hy : mindistance ≤ |pt.y - pf.y|)
    (h1 : pf.x < pi.x) (h2 : pt.x < pi.x) :
    x.visible p i = some (decide (orient pf pt pi < 0)) := by
  have hx' : ¬ |pf.x - pt.x| < mindistance := not_lt.mpr hx
  have hy' : ¬ |pt.y - pf.y| < mindistance := not_lt.mpr hy
  have e1 : pi.x - pf.x > 0 := by linarith
  simp only [edge.visible, hf, ht, hi, if_neg hx', hy', false_and, if_false]
  by_cases c3 : pt.y ≥ pi.y ∧ pf.y ≤ pi.y ∧ |pf.y - pt.y| > mindistance
  · rw [if_pos c3]
    obtain ⟨c31, c32, c33⟩ := c3
    have hlt : pf.y < pt.y := by
      rcases lt_or_ge pf.y pt.y with h | h
      · exact h
      · exfalso
        have : pf.y = pt.y := le_antisymm (le_trans c32 c31) h
        rw [this, sub_self, abs_zero] at c33
        exact absurd c33 (not_lt.mpr mindistance_pos.le)
    have : orient pf pt pi < 0 := by
      unfold orient
      have k1 : 0 ≤ pi.y - pf.y := by linarith
      have k2 : pi.y - pf.y ≤ pt.y - pf.y := by linarith
      have k3 : 0 < pt.y - pf.y := by linarith
      rcases le_or_lt (pt.x - pf.x) 0 with k4 | k4
      · have : (pt.x - pf.x) * (pi.y - pf.y) ≤ 0 := mul_nonpos_of_nonpos_of_nonneg k4 k1
        have : 0 < (pt.y - pf.y) * (pi.x - pf.x) := mul_pos k3 e1
        linarith
      · have a1 : (pt.x - pf.x) * (pi.y - pf.y) ≤ (pt.x - pf.x) * (pt.y - pf.y) :=
          mul_le_mul_of_nonneg_left k2 k4.le
        have a2 : (pt.y - pf.y) * (pt.x - pf.x) < (pt.y - pf.y) * (pi.x - pf.x) :=
          mul_lt_mul_of_pos_left (by linarith) k3
        nlinarith
    rw [decide_eq_true this]
  · rw [if_neg c3]
    have hfac : ∀ s : K, s * (pt.x - pf.x) = pt.y - pf.y →
        orient pf pt pi = (pt.x - pf.x) * (pi.y - (pf.y + s * (pi.x - pf.x))) := by
      intro s hs
      unfold orient
      rw [← hs]
      ring
    rcases lt_trichotomy pf.x pt.x with c4 | c4 | c4
    · have c4' : pt.x > pf.x := c4
      have hd : 0 < pt.x - pf.x := by linarith
      rw [if_pos c4']
      have ho := hfac _ (div_mul_cancel₀ (pt.y - pf.y) (ne_of_gt hd))
      have key : (pi.y < pf.y + (pt.y - pf.y) / (pt.x - pf.x) * (pi.x - pf.x)) ↔
          orient pf pt pi < 0 := by
        rw [ho, mul_neg_iff]
        constructor
        · intro h
          exact Or.inl ⟨hd, by linarith⟩
        · rintro (⟨-, h⟩ | ⟨h, -⟩)
          · linarith
          · linarith
      by_cases c5 : pi.y < pf.y + (pt.y - pf.y) / (pt.x - pf.x) * (pi.x - pf.x)
      · rw [if_pos c5, decide_eq_true (key.mp c5)]
      · rw [if_neg c5, decide_eq_false (fun h => c5 (key.mpr h))]
    · exfalso
      rw [c4, sub_self, abs_zero] at hx
      exact absurd hx (not_le.mpr mindistance_pos)
    · have c4' : ¬ pt.x > pf.x := not_lt.mpr c4.le
      have hd : pt.x - pf.x < 0 := by linarith
      rw [if_neg c4', if_pos c4]
      have ho := hfac _ (div_mul_cancel₀ (pt.y - pf.y) (ne_of_lt hd))
      have key : (pi.y > pf.y + (pt.y - pf.y) / (pt.x - pf.x) * (pi.x - pf.x)) ↔
          orient pf pt pi < 0 := by
        rw [ho, mul_neg_iff]
        constructor
        · intro h
          exact Or.inr ⟨hd, by linarith⟩
        · rintro (⟨h, -⟩ | ⟨-, h⟩)
          · linarith
          · linarith
      by_cases c5 : pi.y > pf.y + (pt.y - pf.y) / (pt.x - pf.x) * (pi.x - pf.x)
      · rw [if_pos c5, decide_eq_true (key.mp c5)]
      · rw [if_neg c5, decide_eq_false (fun h => c5 (key.mpr h))]

end S

end Tipper

namespace Tipper

theorem hullEdge_setE {d d' : Driver} {i : Int} {f : edge → edge}
    (h : d.setE i f = Except.ok d') (pos : Int) : d'.hullEdge pos = d.hullEdge pos := by
  simp only [Driver.setE, bind_ok_iff, pure_ok_iff] at h
  obtain ⟨e, -, rfl⟩ := h
  rfl

/-- The edge table after the statements that make the first new edge at a
visible upper reference edge. -/
theorem firstUpper_eq (i : Int) (d : Driver) (n h : Nat) (eh en : edge)
    (hne : d.next_edge = (n : Int))
    (hh : d.hullEdge d.upper_hull_pos = Except.ok (h : Int))
    (heh : d.edges[h]? = some eh) (hen : d.edges[n]? = some en) :
    ∃ E : List edge,
      firstUpper i d = Except.ok { d with edges := E, saved_edge := n, next_edge := (n : Int) + 1 } ∧
      E[n]? = some { en with from_ := eh.from_, to_ := i, lef := h, let_ := (n : Int) + 1 } ∧
      ∀ j, j ≠ n → E[j]? = d.edges[j]? := by
  obtain ⟨hull, edges, lo, up, ne, se, cnt⟩ := d
  simp only at hne heh hen hh ⊢
  subst hne
  obtain ⟨E1, s1, a1, o1⟩ := setE_spec ⟨hull, edges, lo, up, (n : Int), se, cnt⟩ n en
    (fun x => { x with from_ := eh.from_ }) hen
  obtain ⟨E2, s2, a2, o2⟩ := setE_spec ⟨hull, E1, lo, up, (n : Int), se, cnt⟩ n _
    (fun x => { x with to_ := i }) a1
  obtain ⟨E3, s3, a3, o3⟩ := setE_spec ⟨hull, E2, lo, up, (n : Int), (n : Int), cnt⟩ n _
    (fun x => { x with lef := (h : Int) }) a2
  obtain ⟨E4, s4, a4, o4⟩ := setE_spec ⟨hull, E3, lo, up, (n : Int), (n : Int), cnt⟩ n _
    (fun x => { x with let_ := (n : Int) + 1 }) a3
  have hh2 : Driver.hullEdge ⟨hull, E2, lo, up, (n : Int), (n : Int), cnt⟩ up =
      Except.ok (h : Int) := hh
  refine ⟨E4, ?_, a4, fun j hj => by rw [o4 j hj, o3 j hj, o2 j hj, o1 j hj]⟩
  simp only [firstUpper, hh, rde_get heh, s1, s2, hh2, s3, s4, bind, Except.bind, pure,
    Except.pure]

/-- The edge table after the statements that make the first new edge when the
upper reference edge is not visible. -/
theorem firstLowerEdge_eq (i : Int) (d : Driver) (n h : Nat) (eh en : edge)
    (hne : d.next_edge = (n : Int))
    (hh : d.hullEdge d.lower_hull_pos = Except.ok (h : Int))
    (heh : d.edges[h]? = some eh) (hen : d.edges[n]? = some en) (hhn : h ≠ n) :
    ∃ E : List edge,
      firstLowerEdge i d = Except.ok { d with edges := E, next_edge := (n : Int) + 1 } ∧
      E[n]? = some { en with from_ := i, to_ := eh.to_, let_ := h, lef := (n : Int) + 1 } ∧
      ∀ j, j ≠ n → E[j]? = d.edges[j]? := by
  obtain ⟨hull, edges, lo, up, ne, se, cnt⟩ := d
  simp only at hne heh hen hh ⊢
  subst hne
  obtain ⟨E1, s1, a1, o1⟩ := setE_spec ⟨hull, edges, lo, up, (n : Int), se, cnt⟩ n en
    (fun x => { x with from_ := i }) hen
  have r1 : rde E1 (h : Int) = Except.ok eh := rde_get (by rw [o1 h hhn]; exact heh)
  obtain ⟨E2, s2, a2, o2⟩ := setE_spec ⟨hull, E1, lo, up, (n : Int), se, cnt⟩ n _
    (fun x => { x with to_ := eh.to_ }) a1
  obtain ⟨E3, s3, a3, o3⟩ := setE_spec ⟨hull, E2, lo, up, (n : Int), se, cnt⟩ n _
    (fun x => { x with let_ := (h : Int) }) a2
  obtain ⟨E4, s4, a4, o4⟩ := setE_spec ⟨hull, E3, lo, up, (n : Int), se, cnt⟩ n _
    (fun x => { x with lef := (n : Int) + 1 }) a3
  have hh1 : Driver.hullEdge ⟨hull, E1, lo, up, (n : Int), se, cnt⟩ lo =
      Except.ok (h : Int) := hh
  have hh2 : Driver.hullEdge ⟨hull, E2, lo, up, (n : Int), se, cnt⟩ lo =
      Except.ok (h : Int) := hh
  refine ⟨E4, ?_, a4, fun j hj => by rw [o4 j hj, o3 j hj, o2 j hj, o1 j hj]⟩
  simp only [firstLowerEdge, s1, hh1, r1, s2, hh2, s3, s4, bind, Except.bind, pure,
    Except.pure]

section S

variable {K : Type} [LinearOrderedField K] (sqrt : K → K)

/-- The statements of one pass of the lower loop on the edge table, when
`saved_edge` names an edge: the table `E` that `swap` is called on. -/
theorem lowerEdges_next (p : List (point K)) (i : Int) (d : Driver) (n h s : Nat)
    (eh es en : edge) (hne : d.next_edge = (n : Int)) (hsv : d.saved_edge = (s : Int))
    (hh : d.hullEdge d.lower_hull_pos = Except.ok (h : Int))
    (hhn : h ≠ n) (hhs : h ≠ s) (hsn : s ≠ n)
    (heh : d.edges[h]? = some eh) (hes : d.edges[s]? = some es)
    (hen : d.edges[n]? = some en) :
    ∃ E : List edge,
      E[n]? = some { en with to_ := i, from_ := eh.from_, lef := h, let_ := s } ∧
      E[h]? = some { eh with ret := s, ref := n } ∧
      E[s]? = some { es with ref := h, ret := n } ∧
      (∀ j, j ≠ n → j ≠ s → j ≠ h → E[j]? = d.edges[j]?) ∧
      ∀ depth, lowerEdges sqrt depth p i d =
        (edge.swap sqrt depth h E p >>= fun r =>
          pure { d with edges := r.1, saved_edge := n, next_edge := (n : Int) + 1 }) := by
  obtain ⟨hull, edges, lo, up, ne, se, cnt⟩ := d
  simp only at hne hsv heh hes hen hh ⊢
  subst hne
  subst hsv
  have sne : ¬ ((s : Int) = -1) := by omega
  -- edges[saved_edge].ref=h; edges[saved_edge].ret=next_edge;
  obtain ⟨F1, t1, b1, q1⟩ := setE_spec ⟨hull, edges, lo, up, (n : Int), (s : Int), cnt⟩ s es
    (fun x => { x with ref := (h : Int) }) hes
  obtain ⟨F2, t2, b2, q2⟩ := setE_spec ⟨hull, F1, lo, up, (n : Int), (s : Int), cnt⟩ s _
    (fun x => { x with ret := (n : Int) }) b1
  -- edges[next_edge].to=i;
  have hn2 : F2[n]? = some en := by rw [q2 n (Ne.symm hsn), q1 n (Ne.symm hsn)]; exact hen
  obtain ⟨E1, s1, a1, o1⟩ := setE_spec ⟨hull, F2, lo, up, (n : Int), (s : Int), cnt⟩ n en
    (fun x => { x with to_ := i }) hn2
  -- edges[next_edge].from=edges[h].from;
  have r1 : rde E1 (h : Int) = Except.ok eh :=
    rde_get (by rw [o1 h hhn, q2 h hhs, q1 h hhs]; exact heh)
  obtain ⟨E2, s2, a2, o2⟩ := setE_spec ⟨hull, E1, lo, up, (n : Int), (s : Int), cnt⟩ n _
    (fun x => { x with from_ := eh.from_ }) a1
  -- edges[h].ret=saved_edge; edges[h].ref=next_edge;
  have hh2 : E2[h]? = some eh := by
    rw [o2 h hhn, o1 h hhn, q2 h hhs, q1 h hhs]; exact heh
  obtain ⟨E3, s3, a3, o3⟩ := setE_spec ⟨hull, E2, lo, up, (n : Int), (s : Int), cnt⟩ h eh
    (fun x => { x with ret := (s : Int) }) hh2
  obtain ⟨E4, s4, a4, o4⟩ := setE_spec ⟨hull, E3, lo, up, (n : Int), (s : Int), cnt⟩ h _
    (fun x => { x with ref := (n : Int) }) a3
  -- edges[next_edge].lef=h; edges[next_edge].let=saved_edge;
  have hn4 : E4[n]? = some { en with to_ := i, from_ := eh.from_ } := by
    rw [o4 _ (Ne.symm hhn), o3 _ (Ne.symm hhn), a2]
  obtain ⟨E5, s5, a5, o5⟩ := setE_spec ⟨hull, E4, lo, up, (n : Int), (s : Int), cnt⟩ n _
    (fun x => { x with lef := (h : Int) }) hn4
  obtain ⟨E6, s6, a6, o6⟩ := setE_spec ⟨hull, E5, lo, up, (n : Int), (s : Int), cnt⟩ n _
    (fun x => { x with let_ := (s : Int) }) a5
  have hl : linkLower (h : Int) ⟨hull, edges, lo, up, (n : Int), (s : Int), cnt⟩ =
      Except.ok ⟨hull, F2, lo, up, (n : Int), (s : Int), cnt⟩ := by
    simp only [linkLower, sne, if_false, t1, t2, bind, Except.bind]
  refine ⟨E6, a6, ?_, ?_, ?_, ?_⟩
  · rw [o6 _ hhn, o5 _ hhn, a4]
  · rw [o6 _ hsn, o5 _ hsn, o4 _ (Ne.symm hhs), o3 _ (Ne.symm hhs), o2 _ hsn, o1 _ hsn, b2]
  · intro j j1 j2 j3
    rw [o6 _ j1, o5 _ j1, o4 _ j3, o3 _ j3, o2 _ j1, o1 _ j1, q2 _ j2, q1 _ j2]
  · intro depth
    simp only [lowerEdges, hh, hl, s1, r1, s2, s3, s4, s5, s6, bind, Except.bind]

/-- The statements of the first pass of the lower loop on the edge table, when
`saved_edge` is still `-1`: the table `E` that `swap` is called on. -/
theorem lowerEdges_first (p : List (point K)) (i : Int) (d : Driver) (n h : Nat)
    (eh en : edge) (hne : d.next_edge = (n : Int) + 1) (hsv : d.saved_edge = -1)
    (hh : d.hullEdge d.lower_hull_pos = Except.ok (h : Int))
    (hhn : h ≠ n + 1)
    (heh : d.edges[h]? = some eh) (hen : d.edges[n + 1]? = some en) :
    ∃ E : List edge,
      E[n + 1]? = some { en with to_ := i, from_ := eh.from_, lef := h, let_ := n } ∧
      E[h]? = some { eh with ret := n, ref := (n : Int) + 1 } ∧
      (∀ j, j ≠ n + 1 → j ≠ h → E[j]? = d.edges[j]?) ∧
      ∀ depth, lowerEdges sqrt depth p i d =
        (edge.swap sqrt depth h E p >>= fun r =>
          pure { d with edges := r.1, saved_edge := (n : Int) + 1,
                        next_edge := (n : Int) + 1 + 1 }) := by
  obtain ⟨hull, edges, lo, up, ne, se, cnt⟩ := d
  simp only at hne hsv heh hen hh ⊢
  subst hne
  subst hsv
  have c1 : ((n : Int) + 1) = ((n + 1 : Nat) : Int) := by push_cast; rfl
  have c2 : ((n : Int) + 1 - 1) = (n : Int) := by omega
  -- edges[next_edge].to=i;
  obtain ⟨E1, s1, a1, o1⟩ := setE_spec ⟨hull, edges, lo, up, (n : Int) + 1, (n : Int), cnt⟩
    (n + 1) en (fun x => { x with to_ := i }) hen
  -- edges[next_edge].from=edges[h].from;
  have r1 : rde E1 (h : Int) = Except.ok eh := rde_get (by rw [o1 h hhn]; exact heh)
  obtain ⟨E2, s2, a2, o2⟩ := setE_spec ⟨hull, E1, lo, up, (n : Int) + 1, (n : Int), cnt⟩
    (n + 1) _ (fun x => { x with from_ := eh.from_ }) a1
  -- edges[h].ret=saved_edge; edges[h].ref=next_edge;
  have hh2 : E2[h]? = some eh := by rw [o2 h hhn, o1 h hhn]; exact heh
  obtain ⟨E3, s3, a3, o3⟩ := setE_spec ⟨hull, E2, lo, up, (n : Int) + 1, (n : Int), cnt⟩ h eh
    (fun x => { x with ret := (n : Int) }) hh2
  obtain ⟨E4, s4, a4, o4⟩ := setE_spec ⟨hull, E3, lo, up, (n : Int) + 1, (n : Int), cnt⟩ h _
    (fun x => { x with ref := (n : Int) + 1 }) a3
  -- edges[next_edge].lef=h; edges[next_edge].let=saved_edge;
  have hn4 : E4[n + 1]? = some { en with to_ := i, from_ := eh.from_ } := by
    rw [o4 _ (Ne.symm hhn), o3 _ (Ne.symm hhn), a2]
  obtain ⟨E5, s5, a5, o5⟩ := setE_spec ⟨hull, E4, lo, up, (n : Int) + 1, (n : Int), cnt⟩
    (n + 1) _ (fun x => { x with lef := (h : Int) }) hn4
  obtain ⟨E6, s6, a6, o6⟩ := setE_spec ⟨hull, E5, lo, up, (n : Int) + 1, (n : Int), cnt⟩
    (n + 1) _ (fun x => { x with let_ := (n : Int) }) a5
  have hl : linkLower (h : Int) ⟨hull, edges, lo, up, (n : Int) + 1, -1, cnt⟩ =
      Except.ok ⟨hull, edges, lo, up, (n : Int) + 1, (n : Int), cnt⟩ := by
    simp only [linkLower, if_true, c2]
    rfl
  rw [← c1] at s1 s2 s5 s6
  refine ⟨E6, a6, ?_, ?_, ?_⟩
  · rw [o6 _ hhn, o5 _ hhn, a4]
  · intro j j1 j3
    rw [o6 _ j1, o5 _ j1, o4 _ j3, o3 _ j3, o2 _ j1, o1 _ j1]
  · intro depth
    simp only [lowerEdges, hh, hl, s1, r1, s2, s3, s4, s5, s6, bind, Except.bind]

end S

end Tipper

namespace Tipper

theorem HullData.congr_slots {l l' : cyclist} {cyc : List Nat} {H : List BEdge}
    (h : HullData l cyc H)
    (hs : ∀ s ∈ cyc, (l'.ejs[s]?).map item.data = (l.ejs[s]?).map item.data) :
    HullData l' cyc H := by
  unfold HullData at h ⊢
  induction h with
  | nil => exact List.Forall₂.nil
  | cons hd _ ih =>
    refine List.Forall₂.cons ?_ (ih fun s hs' => hs s (List.mem_cons_of_mem _ hs'))
    rw [hs _ (List.mem_cons_self _ _)]
    exact hd

theorem HullData.length_eq {l : cyclist} {cyc : List Nat} {H : List BEdge}
    (h : HullData l cyc H) : cyc.length = H.length :=
  List.Forall₂.length_eq h

theorem hullEdge_of {d : Driver} {cyc fr : List Nat} (hr : d.hull.Rep cyc fr) {s h : Nat}
    (hs : s ∈ cyc) (hd : (d.hull.ejs[s]?).map item.data = some (h : Int)) :
    d.hullEdge (s : Int) = Except.ok (h : Int) := by
  obtain ⟨it, h1, h2⟩ := hr.getEdge hs
  rw [h1] at hd
  simp only [Option.map_some', Option.some.injEq] at hd
  simp only [Driver.hullEdge, h2, Run.toExcept, bind, Except.bind, pure, Except.pure, hd]

section S

variable {K : Type} [LinearOrderedField K] (sqrt : K → K)

/-- One pass of the upper loop, given that the wiring statements lead to a
consistent triangulation. -/
theorem upperStep_core (hsq : ∀ x, 0 ≤ x → 0 ≤ sqrt x ∧ sqrt x * sqrt x = x)
    (p : List (point K)) (q : Nat) (d : Driver) (n h s s2 a b : Nat) (ctl fr : List Nat)
    (H' : List BEdge) (eh ep en : edge) (B' : List BEdge)
    (hne : d.next_edge = (n : Int) + 1) (hhn : h ≠ n) (hhn1 : h ≠ n + 1)
    (heh : d.edges[h]? = some eh) (hep : d.edges[n]? = some ep)
    (hen : d.edges[n + 1]? = some en)
    (hrep : d.hull.Rep (s :: s2 :: ctl) fr)
    (hdat : HullData d.hull (s :: s2 :: ctl) (⟨h, a, b⟩ :: H'))
    (hup : d.upper_hull_pos = (s : Int))
    (hT : ∀ E : List edge,
      E[n + 1]? = some { en with from_ := (q : Int), to_ := eh.to_, lef := n, let_ := h } →
      E[h]? = some { eh with ref := n, ret := (n : Int) + 1 } →
      E[n]? = some (if d.count ≠ 0 then { ep with ref := (n : Int) + 1, ret := h } else ep) →
      (∀ j, j ≠ n → j ≠ n + 1 → j ≠ h → E[j]? = d.edges[j]?) → Table p E (n + 2) B') :
    ∃ (d' : Driver) (D : Nat),
      (∀ depth, D ≤ depth → upperStep sqrt depth p (q : Int) d = Except.ok d') ∧
      Table p d'.edges (n + 2) B' ∧ d'.next_edge = (n : Int) + 2 ∧
      d'.hull.Rep (s2 :: ctl) (s :: fr) ∧ HullData d'.hull (s2 :: ctl) H' ∧
      d'.upper_hull_pos = (s2 : Int) ∧ d'.count = d.count + 1 ∧
      d'.lower_hull_pos = d.lower_hull_pos ∧ d'.saved_edge = d.saved_edge ∧
      d'.edges.length = d.edges.length := by
  have hd0 : (d.hull.ejs[s]?).map item.data = some (h : Int) := by
    cases hdat with
    | cons h1 _ => exact h1
  have hd1 : HullData d.hull (s2 :: ctl) H' := by
    cases hdat with
    | cons _ h2 => exact h2
  have hh : d.hullEdge d.upper_hull_pos = Except.ok (h : Int) := by
    rw [hup]
    exact hullEdge_of hrep (List.mem_cons_self _ _) hd0
  obtain ⟨E, hw, g1, g2, g3, oth⟩ := upperWire_eq (q : Int) d n h eh en ep hne hhn hhn1 heh hep hen
  have T := hT E g1 g2 g3 oth
  have hlen : E.length = d.edges.length := length_eq_of_three g3 g1 g2 hep hen heh oth
  obtain ⟨r, D, rv, rf, rs⟩ := swap_total sqrt hsq p E T.valid (h : Int) _ (rde_get g2)
  obtain ⟨l', q', -, dp, -, hrep', hsz, hdata⟩ := hrep.del_head
  have hnd := hrep.nodup_slots
  have hs_not : s ∉ s2 :: ctl := by
    have := (List.nodup_append.mp hnd).1
    exact (List.nodup_cons.mp this).1
  refine ⟨{ d with hull := l', edges := r.1, upper_hull_pos := (s2 : Int),
                   next_edge := (n : Int) + 2, count := d.count + 1 }, D, ?_,
    T.of_frame rf rv, rfl, hrep', ?_, rfl, rfl, rfl, rfl, ?_⟩
  · intro depth hdep
    have e1 : upperEdges sqrt depth p (q : Int) d =
        Except.ok { d with edges := r.1, count := d.count + 1,
                           next_edge := (n : Int) + 1 + 1 } := by
      simp only [upperEdges, hh, hw, rs depth hdep, bind, Except.bind, pure, Except.pure, hne]
    have e2 : (n : Int) + 1 + 1 = (n : Int) + 2 := by ring
    simp only [upperStep, e1, bind, Except.bind, hup, dp, Run.toExcept, pure, Except.pure, e2]
  · refine hd1.congr_slots ?_
    intro t ht
    apply hdata
    rintro rfl
    exact hs_not ht
  · exact rf.1.trans hlen

end S

end Tipper

namespace Tipper

theorem HullData.concat_iff {l : cyclist} {c1 : List Nat} {H1 : List BEdge} {s : Nat}
    {t : BEdge} :
    HullData l (c1 ++ [s]) (H1 ++ [t]) ↔
      HullData l c1 H1 ∧ (l.ejs[s]?).map item.data = some (t.id : Int) := by
  unfold HullData
  rw [← List.forall₂_reverse_iff, List.reverse_append, List.reverse_append]
  simp only [List.reverse_cons, List.reverse_nil, List.nil_append, List.singleton_append,
    List.forall₂_cons]
  rw [List.forall₂_reverse_iff]
  exact And.comm

theorem length_eq_of_two {e E : List edge} {i1 i2 : Nat} {x1 x2 y1 y2 : edge}
    (g1 : E[i1]? = some x1) (g2 : E[i2]? = some x2)
    (h1 : e[i1]? = some y1) (h2 : e[i2]? = some y2)
    (oth : ∀ j, j ≠ i1 → j ≠ i2 → E[j]? = e[j]?) : E.length = e.length :=
  length_eq_of_three g1 g2 g2 h1 h2 h2 (fun j a b _ => oth j a b)

section S

variable {K : Type} [LinearOrderedField K] (sqrt : K → K)

/-- One pass of the lower loop when `saved_edge` names an edge, given that the
wiring statements lead to a consistent triangulation. -/
theorem lowerStep_core (hsq : ∀ x, 0 ≤ x → 0 ≤ sqrt x ∧ sqrt x * sqrt x = x)
    (p : List (point K)) (q : Nat) (d : Driver) (n h s sl sl2 a b : Nat)
    (cinit fr : List Nat) (H' : List BEdge) (eh es en : edge) (B' : List BEdge)
    (hne : d.next_edge = (n : Int)) (hsv : d.saved_edge = (s : Int))
    (hhn : h ≠ n) (hhs : h ≠ s) (hsn : s ≠ n)
    (heh : d.edges[h]? = some eh) (hes : d.edges[s]? = some es)
    (hen : d.edges[n]? = some en)
    (hrep : d.hull.Rep (cinit ++ [sl2, sl]) fr)
    (hdat : HullData d.hull (cinit ++ [sl2, sl]) (H' ++ [⟨h, a, b⟩]))
    (hlo : d.lower_hull_pos = (sl : Int))
    (hT : ∀ E : List edge,
      E[n]? = some { en with to_ := (q : Int), from_ := eh.from_, lef := h, let_ := s } →
      E[h]? = some { eh with ret := s, ref := n } →
      E[s]? = some { es with ref := h, ret := n } →
      (∀ j, j ≠ n → j ≠ s → j ≠ h → E[j]? = d.edges[j]?) → Table p E (n + 1) B') :
    ∃ (d' : Driver) (D : Nat),
      (∀ depth, D ≤ depth → lowerStep sqrt depth p (q : Int) d = Except.ok d') ∧
      Table p d'.edges (n + 1) B' ∧ d'.next_edge = (n : Int) + 1 ∧
      d'.hull.Rep (cinit ++ [sl2]) (sl :: fr) ∧ HullData d'.hull (cinit ++ [sl2]) H' ∧
      d'.lower_hull_pos = (sl2 : Int) ∧ d'.saved_edge = (n : Int) ∧
      d'.upper_hull_pos = d.upper_hull_pos ∧ d'.count = d.count ∧
      d'.edges.length = d.edges.length := by
  have hdat' : HullData d.hull ((cinit ++ [sl2]) ++ [sl]) (H' ++ [⟨h, a, b⟩]) := by
    rw [List.append_assoc]
    exact hdat
  obtain ⟨hd1, hd0⟩ := HullData.concat_iff.mp hdat'
  have hsl : sl ∈ cinit ++ [sl2, sl] := by simp
  have hh : d.hullEdge d.lower_hull_pos = Except.ok (h : Int) := by
    rw [hlo]
    exact hullEdge_of hrep hsl hd0
  obtain ⟨E, g1, g2, g3, oth, hw⟩ :=
    lowerEdges_next sqrt p (q : Int) d n h s eh es en hne hsv hh hhn hhs hsn heh hes hen
  have T := hT E g1 g2 g3 oth
  have hlen : E.length = d.edges.length := length_eq_of_three g1 g3 g2 hen hes heh oth
  obtain ⟨r, D, rv, rf, rs⟩ := swap_total sqrt hsq p E T.valid (h : Int) _ (rde_get g2)
  obtain ⟨l', dp, hrep', hsz, hdata⟩ := hrep.del_last
  have hnd := hrep.nodup_slots
  have hs_not : sl ∉ cinit ++ [sl2] := by
    have h1 := (List.nodup_append.mp hnd).1
    have h2 : (cinit ++ [sl2] ++ [sl]).Nodup := by
      rw [List.append_assoc]
      exact h1
    have := (List.nodup_append.mp h2).2.2
    intro hc
    exact this hc (List.mem_singleton_self _)
  refine ⟨{ d with hull := l', edges := r.1, lower_hull_pos := (sl2 : Int),
                   next_edge := (n : Int) + 1, saved_edge := (n : Int) }, D, ?_,
    T.of_frame rf rv, rfl, hrep', ?_, rfl, rfl, rfl, rfl, ?_⟩
  · intro depth hdep
    have e1 : lowerEdges sqrt depth p (q : Int) d =
        Except.ok { d with edges := r.1, saved_edge := (n : Int),
                           next_edge := (n : Int) + 1 } := by
      rw [hw depth, rs depth hdep]
      rfl
    simp only [lowerStep, e1, bind, Except.bind, hlo, dp, Run.toExcept, pure, Except.pure]
  · refine hd1.congr_slots ?_
    intro t ht
    apply hdata
    rintro rfl
    exact hs_not ht
  · exact rf.1.trans hlen

/-- The first pass of the lower loop when `saved_edge` is still `-1`, given
that the wiring statements lead to a consistent triangulation. -/
theorem lowerStep_core_first (hsq : ∀ x, 0 ≤ x → 0 ≤ sqrt x ∧ sqrt x * sqrt x = x)
    (p : List (point K)) (q : Nat) (d : Driver) (n h sl sl2 a b : Nat)
    (cinit fr : List Nat) (H' : List BEdge) (eh en : edge) (B' : List BEdge)
    (hne : d.next_edge = (n : Int) + 1) (hsv : d.saved_edge = -1)
    (hhn : h ≠ n + 1)
    (heh : d.edges[h]? = some eh) (hen : d.edges[n + 1]? = some en)
    (hrep : d.hull.Rep (cinit ++ [sl2, sl]) fr)
    (hdat : HullData d.hull (cinit ++ [sl2, sl]) (H' ++ [⟨h, a, b⟩]))
    (hlo : d.lower_hull_pos = (sl : Int))
    (hT : ∀ E : List edge,
      E[n + 1]? = some { en with to_ := (q : Int), from_ := eh.from_, lef := h, let_ := n } →
      E[h]? = some { eh with ret := n, ref := (n : Int) + 1 } →
      (∀ j, j ≠ n + 1 → j ≠ h → E[j]? = d.edges[j]?) → Table p E (n + 2) B') :
    ∃ (d' : Driver) (D : Nat),
      (∀ depth, D ≤ depth → lowerStep sqrt depth p (q : Int) d = Except.ok d') ∧
      Table p d'.edges (n + 2) B' ∧ d'.next_edge = (n : Int) + 2 ∧
      d'.hull.Rep (cinit ++ [sl2]) (sl :: fr) ∧ HullData d'.hull (cinit ++ [sl2]) H' ∧
      d'.lower_hull_pos = (sl2 : Int) ∧ d'.saved_edge = (n : Int) + 1 ∧
      d'.upper_hull_pos = d.upper_hull_pos ∧ d'.count = d.count ∧
      d'.edges.length = d.edges.length := by
  have hdat' : HullData d.hull ((cinit ++ [sl2]) ++ [sl]) (H' ++ [⟨h, a, b⟩]) := by
    rw [List.append_assoc]
    exact hdat
  obtain ⟨hd1, hd0⟩ := HullData.concat_iff.mp hdat'
  have hsl : sl ∈ cinit ++ [sl2, sl] := by simp
  have hh : d.hullEdge d.lower_hull_pos = Except.ok (h : Int) := by
    rw [hlo]
    exact hullEdge_of hrep hsl hd0
  obtain ⟨E, g1, g2, oth, hw⟩ :=
    lowerEdges_first sqrt p (q : Int) d n h eh en hne hsv hh hhn heh hen
  have T := hT E g1 g2 oth
  have hlen : E.length = d.edges.length := length_eq_of_two g1 g2 hen heh oth
  obtain ⟨r, D, rv, rf, rs⟩ := swap_total sqrt hsq p E T.valid (h : Int) _ (rde_get g2)
  obtain ⟨l', dp, hrep', hsz, hdata⟩ := hrep.del_last
  have hnd := hrep.nodup_slots
  have hs_not : sl ∉ cinit ++ [sl2] := by
    have h1 := (List.nodup_append.mp hnd).1
    have h2 : (cinit ++ [sl2] ++ [sl]).Nodup := by
      rw [List.append_assoc]
      exact h1
    have := (List.nodup_append.mp h2).2.2
    intro hc
    exact this hc (List.mem_singleton_self _)
  refine ⟨{ d with hull := l', edges := r.1, lower_hull_pos := (sl2 : Int),
                   next_edge := (n : Int) + 2, saved_edge := (n : Int) + 1 }, D, ?_,
    T.of_frame rf rv, rfl, hrep', ?_, rfl, rfl, rfl, rfl, ?_⟩
  · intro depth hdep
    have e2 : (n : Int) + 1 + 1 = (n : Int) + 2 := by ring
    have e1 : lowerEdges sqrt depth p (q : Int) d =
        Except.ok { d with edges := r.1, saved_edge := (n : Int) + 1,
                           next_edge := (n : Int) + 2 } := by
      rw [hw depth, rs depth hdep, e2]
      rfl
    simp only [lowerStep, e1, bind, Except.bind, hlo, dp, Run.toExcept, pure, Except.pure]
  · refine hd1.congr_slots ?_
    intro t ht
    apply hdata
    rintro rfl
    exact hs_not ht
  · exact rf.1.trans hlen

end S

end Tipper
namespace Tipper

section S

variable {K : Type} [LinearOrderedField K]

theorem visibleAt_of {p : List (point K)} {q : Nat} {d : Driver} {cyc fr : List Nat}
    (hr : d.hull.Rep cyc fr) {s : Nat} {t : BEdge} (hs : s ∈ cyc)
    (hd : (d.hull.ejs[s]?).map item.data = some (t.id : Int)) {x : edge}
    (hx : d.edges[t.id]? = some x) (hb : x.Bnd t.a t.b) (hv : VisExact p q t) :
    visibleAt p (q : Int) d (s : Int) = Except.ok (decide (sees p q t)) := by
  have h1 := hullEdge_of hr hs hd
  simp only [visibleAt, h1, rde_get hx, hv.2.2.2 x hb.1 hb.2.1, bind, Except.bind, pure,
    Except.pure]

variable (sqrt : K → K)

theorem upperLoop_spec (hsq : ∀ x, 0 ≤ x → 0 ≤ sqrt x ∧ sqrt x * sqrt x = x)
    (p : List (point K)) (q : Nat) (R M : List BEdge) (hM : M ≠ []) (cM : List Nat) :
    ∀ (pre : List BEdge) (d : Driver) (n : Nat) (cpre fr : List Nat) (fuel : Nat),
      UState p q d n (pre ++ M) R (cpre ++ cM) fr → cpre.length = pre.length →
      (∀ t ∈ pre, VisExact p q t) → (∀ t, M.head? = some t → VisExact p q t) →
      List.Chain' (fun t t' : BEdge => t.b = t'.a) (pre ++ M) →
      (∀ t ∈ pre, sees p q t) → (∀ t, M.head? = some t → ¬ sees p q t) →
      pre.length + 1 ≤ fuel →
      ∃ (d' : Driver) (D : Nat),
        (∀ depth, D ≤ depth → upperLoop sqrt depth p (q : Int) fuel d = Except.ok d') ∧
        UState p q d' (n + pre.length) M R cM (cpre.reverse ++ fr) ∧
        d'.lower_hull_pos = d.lower_hull_pos ∧ d'.saved_edge = d.saved_edge ∧
        d'.edges.length = d.edges.length := by
  intro pre
  induction pre with
  | nil =>
    intro d n cpre fr fuel U hlen _ hvisM _ _ hinv hfuel
    have hc : cpre = [] := List.length_eq_zero.mp hlen
    subst hc
    simp only [List.nil_append] at U
    obtain ⟨t, M', rfl⟩ := List.exists_cons_of_ne_nil hM
    have hcl := U.dat.length_eq
    obtain ⟨s, cM', rfl⟩ : ∃ s cM', cM = s :: cM' := by
      cases cM with
      | nil => simp at hcl
      | cons s c => exact ⟨s, c, rfl⟩
    obtain ⟨vt, -, T⟩ := U.tab
    obtain ⟨-, x, hx, hb⟩ := T.bnd t (by simp)
    have hd0 : (d.hull.ejs[s]?).map item.data = some (t.id : Int) := by
      cases U.dat with
      | cons h1 _ => exact h1
    have hv := visibleAt_of U.rep (List.mem_cons_self _ _) hd0 hx hb (hvisM t rfl)
    rw [decide_eq_false (hinv t rfl)] at hv
    obtain ⟨f, rfl⟩ : ∃ f, fuel = f + 1 := ⟨fuel - 1, by omega⟩
    refine ⟨d, 0, ?_, ?_, rfl, rfl, rfl⟩
    · intro depth _
      simp only [upperLoop, U.up s rfl, hv, bind, Except.bind, pure, Except.pure]
      rfl
    · simpa using U
  | cons t pre' ih =>
    intro d n cpre fr fuel U hlen hvis hvisM hchain hsee hinv hfuel
    obtain ⟨s, cpre', rfl⟩ : ∃ s c, cpre = s :: c := by
      cases cpre with
      | nil => simp at hlen
      | cons s c => exact ⟨s, c, rfl⟩
    have hlen' : cpre'.length = pre'.length := by simpa using hlen
    obtain ⟨f, rfl⟩ : ∃ f, fuel = f + 1 := ⟨fuel - 1, by omega⟩
    obtain ⟨h, a, b⟩ := t
    obtain ⟨vt, hvt, T⟩ := U.tab
    have hva : a = vt := hvt ⟨h, a, b⟩ rfl
    subst hva
    -- the next hull edge
    obtain ⟨t2, H2, hH2⟩ : ∃ t2 H2, pre' ++ M = t2 :: H2 := by
      cases hh : pre' ++ M with
      | nil =>
        have := List.append_eq_nil.mp hh
        exact absurd this.2 hM
      | cons t2 H2 => exact ⟨t2, H2, rfl⟩
    have hcl := U.dat.length_eq
    obtain ⟨s2, ctl, hc2⟩ : ∃ s2 ctl, cpre' ++ cM = s2 :: ctl := by
      cases hh : cpre' ++ cM with
      | nil =>
        rw [List.cons_append, hh, List.cons_append, hH2] at hcl
        simp at hcl
      | cons s2 ctl => exact ⟨s2, ctl, rfl⟩
    have hb2 : t2.a = b := by
      have := hchain
      rw [List.cons_append, hH2] at this
      exact ((List.chain'_cons.mp this).1).symm
    -- entries
    obtain ⟨hlt, eh, heh, bh⟩ := T.bnd ⟨h, a, b⟩ (by simp)
    obtain ⟨-, ep, hep, bp⟩ := T.bnd ⟨n, q, a⟩ (by simp)
    simp only at hlt heh bh hep bp
    have hcap := U.cap
    simp only [List.cons_append, List.length_cons] at hcap
    have hen : d.edges[n + 1]? = some d.edges[n + 1] :=
      List.getElem?_eq_getElem (by omega)
    have hfresh := T.fresh (n + 1) _ hen (le_refl _)
    have hhn : h ≠ n := by
      have nd := T.nodup
      simp only [List.cons_append, List.map_cons, List.map_append, List.nodup_cons,
        List.mem_append, List.mem_cons, not_or] at nd
      exact nd.1.2.1
    have hhn1 : h ≠ n + 1 := by omega
    obtain ⟨⟨pa, ra⟩, ⟨pb, rb⟩, ⟨pq, rq⟩, hvx⟩ := hvis ⟨h, a, b⟩ (by simp)
    simp only at ra rb
    have hsees := hsee ⟨h, a, b⟩ (List.mem_cons_self _ _)
    unfold sees at hsees
    simp only at hsees
    rw [ptAt_of_rdpE ra, ptAt_of_rdpE rb, ptAt_of_rdpE rq] at hsees
    have hrep : d.hull.Rep (s :: s2 :: ctl) fr := by
      have := U.rep
      rw [List.cons_append, hc2] at this
      exact this
    have hdat : HullData d.hull (s :: s2 :: ctl) (⟨h, a, b⟩ :: t2 :: H2) := by
      have := U.dat
      rw [List.cons_append, hc2, List.cons_append, hH2] at this
      exact this
    have hcnt : d.count ≠ 0 := by
      have := U.cnt
      omega
    obtain ⟨d1, D1, run1, T1, ne1, rep1, dat1, up1, cnt1, lo1, sv1, len1⟩ :=
      upperStep_core sqrt hsq p q d n h s s2 a b ctl fr (t2 :: H2) eh ep _
        (⟨n + 1, q, b⟩ :: (t2 :: H2 ++ R)) U.ne hhn hhn1 heh hep hen hrep hdat
        (U.up s rfl) (by
          intro E g1 g2 g3 oth
          rw [if_pos hcnt] at g3
          have Tc : Table p d.edges (n + 1) (⟨h, a, b⟩ :: ⟨n, q, a⟩ :: (t2 :: H2 ++ R)) := by
            refine T.perm ?_
            rw [List.cons_append, hH2]
            exact List.Perm.cons _ List.perm_middle
          refine Table.upper_next Tc heh hep hen ?_ g2 g3 oth ra rb rq hsees
          rw [g1, hfresh, bh.2.1]
          rfl)
    -- the remaining passes
    have U1 : UState p q d1 (n + 1) (pre' ++ M) R (cpre' ++ cM) (s :: fr) := by
      refine ⟨by rw [ne1]; push_cast; ring, ⟨b, ?_, ?_⟩, ?_, ?_, ?_, ?_, ?_⟩
      · intro t ht
        rw [hH2] at ht
        simp only [List.head?_cons, Option.some.injEq] at ht
        rw [← ht]
        exact hb2
      · rw [hH2]
        exact T1.perm List.perm_middle.symm
      · rw [hc2]; exact rep1
      · rw [hc2, hH2]; exact dat1
      · intro s' hs'
        rw [hc2] at hs'
        simp only [List.head?_cons, Option.some.injEq] at hs'
        rw [← hs']
        exact up1
      · rw [cnt1]
        have := U.cnt
        omega
      · rw [len1]
        omega
    obtain ⟨d2, D2, run2, U2, lo2, sv2, len2⟩ :=
      ih d1 (n + 1) cpre' (s :: fr) f U1 hlen'
        (fun t ht => hvis t (List.mem_cons_of_mem _ ht)) hvisM
        (by
          have := hchain
          rw [List.cons_append] at this
          exact (List.chain'_cons'.mp this).2)
        (fun t ht => hsee t (List.mem_cons_of_mem _ ht)) hinv
        (by simp only [List.length_cons] at hfuel; omega)
    refine ⟨d2, max D1 D2, ?_, ?_, lo2.trans lo1, sv2.trans sv1, len2.trans len1⟩
    · intro depth hdep
      have hd0 : (d.hull.ejs[s]?).map item.data = some (h : Int) := by
        cases hdat with
        | cons h1 _ => exact h1
      have hv := visibleAt_of (t := ⟨h, a, b⟩) hrep (List.mem_cons_self _ _) hd0 heh bh
        (hvis ⟨h, a, b⟩ (by simp))
      rw [decide_eq_true (hsee ⟨h, a, b⟩ (List.mem_cons_self _ _))] at hv
      simp only [upperLoop, U.up s rfl, hv, bind, Except.bind, if_true,
        run1 depth (le_trans (le_max_left _ _) hdep),
        run2 depth (le_trans (le_max_right _ _) hdep)]
    · have e1 : n + 1 + pre'.length = n + (⟨h, a, b⟩ :: pre' : List BEdge).length := by
        simp only [List.length_cons]
        omega
      have e2 : cpre'.reverse ++ s :: fr = (s :: cpre').reverse ++ fr := by simp
      rw [← e1, ← e2]
      exact U2

end S

end Tipper

namespace Tipper

section S

variable {K : Type} [LinearOrderedField K]

variable (sqrt : K → K)

theorem lowerLoop_spec (hsq : ∀ x, 0 ≤ x → 0 ≤ sqrt x ∧ sqrt x * sqrt x = x)
    (p : List (point K)) (q : Nat) (R M : List BEdge) (hM : M ≠ []) (cM : List Nat) :
    ∀ (suf : List BEdge) (d : Driver) (n s : Nat) (csuf fr : List Nat) (fuel : Nat),
      LState p q d n s (M ++ suf) R (cM ++ csuf) fr → csuf.length = suf.length →
      (∀ t ∈ suf, VisExact p q t) → (∀ t, M.getLast? = some t → VisExact p q t) →
      List.Chain' (fun t t' : BEdge => t.b = t'.a) (M ++ suf) →
      (∀ t ∈ suf, sees p q t) → (∀ t, M.getLast? = some t → ¬ sees p q t) →
      suf.length + 1 ≤ fuel →
      ∃ (d' : Driver) (D : Nat) (s' : Nat),
        (∀ depth, D ≤ depth → lowerLoop sqrt depth p (q : Int) fuel d = Except.ok d') ∧
        LState p q d' (n + suf.length) s' M R cM (csuf ++ fr) ∧
        d'.upper_hull_pos = d.upper_hull_pos ∧ d'.count = d.count ∧
        d'.edges.length = d.edges.length := by
  intro suf
  induction suf using List.reverseRecOn with
  | nil =>
    intro d n s csuf fr fuel U hlen _ hvisM _ _ hinv hfuel
    have hc : csuf = [] := List.length_eq_zero.mp hlen
    subst hc
    simp only [List.append_nil] at U
    obtain ⟨M0, t, rfl⟩ : ∃ M0 t, M = M0 ++ [t] :=
      ⟨M.dropLast, M.getLast hM, (List.dropLast_append_getLast hM).symm⟩
    have hcl := U.dat.length_eq
    obtain ⟨cM0, sl, rfl⟩ : ∃ c0 sl, cM = c0 ++ [sl] := by
      have hne : cM ≠ [] := by
        intro h
        rw [h] at hcl
        simp at hcl
      exact ⟨cM.dropLast, cM.getLast hne, (List.dropLast_append_getLast hne).symm⟩
    obtain ⟨vb, -, T⟩ := U.tab
    obtain ⟨-, x, hx, hb⟩ := T.bnd t (by simp)
    have hd0 : (d.hull.ejs[sl]?).map item.data = some (t.id : Int) :=
      (HullData.concat_iff.mp U.dat).2
    have hv := visibleAt_of U.rep (by simp) hd0 hx hb (hvisM t (by simp))
    rw [decide_eq_false (hinv t (by simp))] at hv
    obtain ⟨f, rfl⟩ : ∃ f, fuel = f + 1 := ⟨fuel - 1, by omega⟩
    refine ⟨d, 0, s, ?_, ?_, rfl, rfl, rfl⟩
    · intro depth _
      simp only [lowerLoop, U.lo sl (by simp), hv, bind, Except.bind, pure, Except.pure]
      rfl
    · simpa using U
  | append_singleton suf' t ih =>
    intro d n s csuf fr fuel U hlen hvis hvisM hchain hsee hinv hfuel
    obtain ⟨csuf', sl, rfl⟩ : ∃ c sl, csuf = c ++ [sl] := by
      have hne : csuf ≠ [] := by
        intro h
        rw [h] at hlen
        simp at hlen
      exact ⟨csuf.dropLast, csuf.getLast hne, (List.dropLast_append_getLast hne).symm⟩
    have hlen' : csuf'.length = suf'.length := by simpa using hlen
    obtain ⟨f, rfl⟩ : ∃ f, fuel = f + 1 := ⟨fuel - 1, by omega⟩
    obtain ⟨h, a, b⟩ := t
    obtain ⟨vb, hvb, T⟩ := U.tab
    have hvb' : b = vb := hvb ⟨h, a, b⟩ (by simp)
    subst hvb'
    -- the hull edge before
    have hne1 : M ++ suf' ≠ [] := by
      intro hh
      exact hM (List.append_eq_nil.mp hh).1
    obtain ⟨H1, t2, hH1⟩ : ∃ H1 t2, M ++ suf' = H1 ++ [t2] :=
      ⟨_, _, (List.dropLast_append_getLast hne1).symm⟩
    have hcl := U.dat.length_eq
    have hne2 : cM ++ csuf' ≠ [] := by
      intro hh
      rw [← List.append_assoc, hh, ← List.append_assoc] at hcl
      simp only [List.nil_append, List.length_singleton, List.length_append] at hcl
      have : (M ++ suf').length ≠ 0 := fun h0 => hne1 (List.length_eq_zero.mp h0)
      simp only [List.length_append] at this
      omega
    obtain ⟨cinit, sl2, hc2⟩ : ∃ c sl2, cM ++ csuf' = c ++ [sl2] :=
      ⟨_, _, (List.dropLast_append_getLast hne2).symm⟩
    have hchain' : List.Chain' (fun t t' : BEdge => t.b = t'.a) (H1 ++ [t2] ++ [⟨h, a, b⟩]) := by
      rw [← hH1, List.append_assoc]
      exact hchain
    have hb2 : t2.b = a := by
      rw [List.append_assoc] at hchain'
      have := (List.chain'_append.mp hchain').2.1
      simp only [List.singleton_append, List.chain'_cons, List.chain'_singleton,
        and_true] at this
      exact this
    -- entries
    have T' : Table p d.edges n (⟨h, a, b⟩ :: ⟨s, b, q⟩ :: ((M ++ suf') ++ R)) := by
      refine T.perm ?_
      rw [← List.append_assoc, List.append_assoc (M ++ suf')]
      simp only [List.singleton_append]
      exact (List.perm_middle.trans (List.Perm.cons _ List.perm_middle)).trans
        (List.Perm.refl _) |>.symm.symm
    obtain ⟨hlt, eh, heh, bh⟩ := T'.bnd ⟨h, a, b⟩ (by simp)
    obtain ⟨slt, es, hes, bs⟩ := T'.bnd ⟨s, b, q⟩ (by simp)
    simp only at hlt heh bh slt hes bs
    have hcap := U.cap
    simp only [List.length_append, List.length_singleton] at hcap
    have hen : d.edges[n]? = some d.edges[n] :=
      List.getElem?_eq_getElem (by omega)
    have hfresh := T.fresh n _ hen (le_refl _)
    have hhs : h ≠ s := by
      have nd := T'.nodup
      simp only [List.map_cons, List.nodup_cons, List.mem_cons, not_or] at nd
      exact nd.1.1
    obtain ⟨⟨pa, ra⟩, ⟨pb, rb⟩, ⟨pq, rq⟩, hvx⟩ := hvis ⟨h, a, b⟩ (by simp)
    simp only at ra rb
    have hsees := hsee ⟨h, a, b⟩ (by simp)
    unfold sees at hsees
    simp only at hsees
    rw [ptAt_of_rdpE ra, ptAt_of_rdpE rb, ptAt_of_rdpE rq] at hsees
    have hrep : d.hull.Rep (cinit ++ [sl2, sl]) fr := by
      have := U.rep
      rw [← List.append_assoc, hc2, List.append_assoc] at this
      exact this
    have hdat : HullData d.hull (cinit ++ [sl2, sl]) (H1 ++ [t2] ++ [⟨h, a, b⟩]) := by
      have := U.dat
      rw [← List.append_assoc, hc2, List.append_assoc, ← List.append_assoc M, hH1] at this
      exact this
    have hlo : d.lower_hull_pos = (sl : Int) := U.lo sl (by simp)
    obtain ⟨d1, D1, run1, T1, ne1, rep1, dat1, lo1, sv1, up1, cnt1, len1⟩ :=
      lowerStep_core sqrt hsq p q d n h s sl sl2 a b cinit fr (H1 ++ [t2]) eh es _
        (⟨n, a, q⟩ :: ((M ++ suf') ++ R)) U.ne U.sv (by omega) hhs (by omega) heh hes hen
        hrep hdat hlo (by
          intro E g1 g2 g3 oth
          refine Table.lower_next T' heh hes hen ?_ g2 g3 oth ra rb rq hsees
          rw [g1, hfresh, bh.1]
          rfl)
    -- the remaining passes
    have U1 : LState p q d1 (n + 1) n (M ++ suf') R (cM ++ csuf') (sl :: fr) := by
      refine ⟨by rw [ne1]; push_cast; ring, sv1, ⟨a, ?_, ?_⟩, ?_, ?_, ?_, ?_⟩
      · intro t ht
        rw [hH1, List.getLast?_concat] at ht
        injection ht with ht
        rw [← ht]
        exact hb2
      · exact T1.perm List.perm_middle.symm
      · rw [hc2]; exact rep1
      · rw [hc2, hH1]; exact dat1
      · intro s' hs'
        rw [hc2, List.getLast?_concat] at hs'
        injection hs' with hs'
        rw [← hs']
        exact lo1
      · rw [len1]
        simp only [List.length_append]
        omega
    obtain ⟨d2, D2, s2, run2, U2, up2, cnt2, len2⟩ :=
      ih d1 (n + 1) n csuf' (sl :: fr) f U1 hlen'
        (fun t ht => hvis t (List.mem_append_left _ ht)) hvisM
        (by
          have := hchain
          rw [← List.append_assoc] at this
          exact (List.chain'_append.mp this).1)
        (fun t ht => hsee t (List.mem_append_left _ ht)) hinv
        (by simp only [List.length_append, List.length_singleton] at hfuel; omega)
    refine ⟨d2, max D1 D2, s2, ?_, ?_, up2.trans up1, cnt2.trans cnt1, len2.trans len1⟩
    · intro depth hdep
      have hd0 : (d.hull.ejs[sl]?).map item.data = some (h : Int) := by
        have := U.dat
        rw [← List.append_assoc, ← List.append_assoc] at this
        exact (HullData.concat_iff.mp this).2
      have hv := visibleAt_of (t := ⟨h, a, b⟩) U.rep (by simp) hd0 heh bh
        (hvis ⟨h, a, b⟩ (by simp))
      rw [decide_eq_true (hsee ⟨h, a, b⟩ (by simp))] at hv
      simp only [lowerLoop, hlo, hv, bind, Except.bind, if_true,
        run1 depth (le_trans (le_max_left _ _) hdep),
        run2 depth (le_trans (le_max_right _ _) hdep)]
    · have e1 : n + 1 + suf'.length = n + (suf' ++ [(⟨h, a, b⟩ : BEdge)]).length := by
        simp only [List.length_append, List.length_singleton]
        omega
      have e2 : csuf' ++ sl :: fr = (csuf' ++ [sl]) ++ fr := by simp
      rw [← e1, ← e2]
      exact U2

end S

end Tipper

namespace Tipper

theorem upperInsert_spec {d : Driver} {a s : Nat} {tl fr : List Nat} {H : List BEdge}
    {n : Nat} (t : BEdge) (ht : t.id = n)
    (hrep : d.hull.Rep (a :: tl) (s :: fr)) (hdat : HullData d.hull (a :: tl) H)
    (hup : d.upper_hull_pos = (a : Int)) (hne : d.next_edge = (n : Int) + 1) :
    ∃ l' : cyclist, upperInsert d = Except.ok { d with hull := l', upper_hull_pos := (s : Int) } ∧
      l'.Rep (s :: a :: tl) fr ∧ HullData l' (s :: a :: tl) (t :: H) ∧ l'.size = d.hull.size := by
  obtain ⟨l', h1, h2, h3, ⟨it, h4, h5⟩, h6⟩ := hrep.addBefore_head ((n : Int) + 1 - 1)
  have hs : s ∉ a :: tl := by
    intro hc
    exact (List.nodup_append.mp hrep.nodup_slots).2.2 hc (List.mem_cons_self _ _)
  refine ⟨l', ?_, h2, ?_, h3⟩
  · simp only [upperInsert, hup, hne, h1, Run.toExcept, bind, Except.bind, pure, Except.pure]
  · refine List.Forall₂.cons ?_ (hdat.congr_slots fun j hj => h6 j ?_)
    · rw [h4, Option.map_some', h5, ht]
      simp
    · rintro rfl
      exact hs hj

theorem lowerInsert_spec {d : Driver} {r a s : Nat} {tl fr : List Nat} {H : List BEdge}
    {n : Nat} (t : BEdge) (ht : t.id = n)
    (hrep : d.hull.Rep (r :: tl) (s :: fr)) (hlast : (r :: tl).getLast? = some a)
    (hdat : HullData d.hull (r :: tl) H)
    (hlo : d.lower_hull_pos = (a : Int)) (hsv : d.saved_edge = (n : Int)) :
    ∃ l' : cyclist, lowerInsert d = Except.ok { d with hull := l', lower_hull_pos := (s : Int) } ∧
      l'.Rep (r :: tl ++ [s]) fr ∧ HullData l' (r :: tl ++ [s]) (H ++ [t]) ∧
      l'.size = d.hull.size := by
  obtain ⟨l', h1, h2, h3, ⟨it, h4, h5⟩, h6⟩ := hrep.addAfter_last (n : Int) hlast
  have hs : s ∉ r :: tl := by
    intro hc
    exact (List.nodup_append.mp hrep.nodup_slots).2.2 hc (List.mem_cons_self _ _)
  refine ⟨l', ?_, h2, ?_, h3⟩
  · simp only [lowerInsert, hlo, hsv, h1, Run.toExcept, bind, Except.bind, pure, Except.pure]
  · show HullData l' ((r :: tl) ++ [s]) (H ++ [t])
    refine HullData.concat_iff.mpr ⟨hdat.congr_slots fun j hj => h6 j ?_, ?_⟩
    · rintro rfl
      exact hs hj
    · rw [h4, Option.map_some', h5, ht]

end Tipper

namespace Tipper

section S

variable {K : Type} [LinearOrderedField K] (sqrt : K → K)

/-- Point `q` sees the upper reference edge: the first new edge and the first
pass of the upper loop. -/
theorem caseA_first (hsq : ∀ x, 0 ≤ x → 0 ≤ sqrt x ∧ sqrt x * sqrt x = x)
    (p : List (point K)) (q : Nat) (d : Driver) (n h s s2 a b : Nat) (ctl fr : List Nat)
    (H' : List BEdge)
    (hne : d.next_edge = (n : Int)) (T : Table p d.edges n (⟨h, a, b⟩ :: H'))
    (hrep : d.hull.Rep (s :: s2 :: ctl) fr)
    (hdat : HullData d.hull (s :: s2 :: ctl) (⟨h, a, b⟩ :: H'))
    (hup : d.upper_hull_pos = (s : Int)) (hvis : VisExact p q ⟨h, a, b⟩)
    (hsee : sees p q ⟨h, a, b⟩) (hch : ∀ t, H'.head? = some t → t.a = b)
    (cap : n + 2 + H'.length ≤ d.edges.length) :
    ∃ (d0 d1 : Driver) (D : Nat),
      firstEdge p (q : Int) d = Except.ok d0 ∧
      visibleAt p (q : Int) d0 d0.upper_hull_pos = Except.ok true ∧
      (∀ depth, D ≤ depth → upperStep sqrt depth p (q : Int) d0 = Except.ok d1) ∧
      d0.hull = d.hull ∧
      UState p q d1 (n + 1) H' [⟨n, a, q⟩] (s2 :: ctl) (s :: fr) ∧
      d1.saved_edge = (n : Int) ∧ d1.lower_hull_pos = d.lower_hull_pos ∧
      d1.edges.length = d.edges.length := by
  obtain ⟨hlt, eh, heh, bh⟩ := T.bnd ⟨h, a, b⟩ (by simp)
  simp only at hlt heh bh
  have hen0 : d.edges[n]? = some d.edges[n] := List.getElem?_eq_getElem (by omega)
  have hen1 : d.edges[n + 1]? = some d.edges[n + 1] := List.getElem?_eq_getElem (by omega)
  have hf0 := T.fresh n _ hen0 (le_refl _)
  have hf1 := T.fresh (n + 1) _ hen1 (by omega)
  rw [hf0] at hen0
  rw [hf1] at hen1
  have hd0 : (d.hull.ejs[s]?).map item.data = some (h : Int) := by
    cases hdat with
    | cons h1 _ => exact h1
  obtain ⟨⟨pa, ra⟩, ⟨pb, rb⟩, ⟨pq, rq⟩, hvx⟩ := hvis
  simp only at ra rb
  have hsees := hsee
  unfold sees at hsees
  simp only at hsees
  rw [ptAt_of_rdpE ra, ptAt_of_rdpE rb, ptAt_of_rdpE rq] at hsees
  -- the test of the upper reference edge
  have hv : visibleAt p (q : Int) { d with saved_edge := -1 } (s : Int) = Except.ok true := by
    have := visibleAt_of (d := { d with saved_edge := -1 }) (q := q) (t := ⟨h, a, b⟩) hrep
      (List.mem_cons_self _ _) hd0 heh bh ⟨⟨pa, ra⟩, ⟨pb, rb⟩, ⟨pq, rq⟩, hvx⟩
    rw [decide_eq_true hsee] at this
    exact this
  have hh : Driver.hullEdge { d with saved_edge := -1 } (s : Int) = Except.ok (h : Int) :=
    hullEdge_of (d := { d with saved_edge := -1 }) hrep (List.mem_cons_self _ _) hd0
  obtain ⟨E, hfu, gn, oth1⟩ := firstUpper_eq (q : Int) { d with saved_edge := -1 } n h eh
    edge.new hne (by rw [hup]; exact hh) heh hen0
  have hhn : h ≠ n := by omega
  have hhn1 : h ≠ n + 1 := by omega
  have hEh : E[h]? = some eh := by rw [oth1 h hhn]; exact heh
  have hE1 : E[n + 1]? = some edge.new := by rw [oth1 (n + 1) (by omega)]; exact hen1
  have hElen : E.length = d.edges.length := by
    have h1 : ∀ j, j ≠ n → j ≠ n → E[j]? = d.edges[j]? := fun j hj _ => oth1 j hj
    exact length_eq_of_two gn gn hen0 hen0 h1
  obtain ⟨d0, e0⟩ : ∃ d0 : Driver, d0 = { d with
      edges := E, saved_edge := (n : Int), next_edge := (n : Int) + 1, count := 0 } := ⟨_, rfl⟩
  have k1 : d0.hull = d.hull := by rw [e0]
  have k2 : d0.edges = E := by rw [e0]
  have k3 : d0.next_edge = (n : Int) + 1 := by rw [e0]
  have k4 : d0.count = 0 := by rw [e0]
  have k5 : d0.upper_hull_pos = (s : Int) := by rw [e0]; exact hup
  have k6 : d0.saved_edge = (n : Int) := by rw [e0]
  have k7 : d0.lower_hull_pos = d.lower_hull_pos := by rw [e0]
  have hrep0 : d0.hull.Rep (s :: s2 :: ctl) fr := by rw [k1]; exact hrep
  have hdat0 : HullData d0.hull (s :: s2 :: ctl) (⟨h, a, b⟩ :: H') := by rw [k1]; exact hdat
  have hd00 : (d0.hull.ejs[s]?).map item.data = some (h : Int) := by rw [k1]; exact hd0
  obtain ⟨d1, D, run1, T1, ne1, rep1, dat1, up1, cnt1, lo1, sv1, len1⟩ :=
    upperStep_core sqrt hsq p q d0 n h s s2 a b ctl fr H' eh _ edge.new
      (⟨n + 1, q, b⟩ :: ⟨n, a, q⟩ :: H')
      k3 hhn hhn1 (by rw [k2]; exact hEh) (by rw [k2]; exact gn) (by rw [k2]; exact hE1)
      hrep0 hdat0 k5 (by
        intro E' g1 g2 g3 oth
        rw [k4] at g3
        rw [k2] at oth
        have oth' : ∀ j, j ≠ n → j ≠ n + 1 → j ≠ h → E'[j]? = d.edges[j]? := by
          intro j j1 j2 j3
          rw [oth j j1 j2 j3]
          exact oth1 j j1
        refine Table.upper_first T heh hen0 hen1 ?_ g2 ?_ oth' ra rb rq hsees
        · rw [g1, bh.2.1]
          rfl
        · rw [g3, bh.1]
          rfl)
  refine ⟨d0, d1, D, ?_, ?_, run1, k1, ?_, sv1.trans k6, lo1.trans k7, ?_⟩
  · rw [← hup] at hv
    rw [e0]
    simp only [firstEdge, hv, firstNew, if_true, hfu, bind, Except.bind, pure, Except.pure]
  · have := visibleAt_of (q := q) (t := ⟨h, a, b⟩) hrep0
      (List.mem_cons_self _ _) hd00 (by rw [k2]; exact hEh) bh
      ⟨⟨pa, ra⟩, ⟨pb, rb⟩, ⟨pq, rq⟩, hvx⟩
    rw [decide_eq_true hsee] at this
    rw [k5]
    exact this
  · refine ⟨by rw [ne1]; push_cast; ring, ⟨b, hch, ?_⟩, rep1, dat1, ?_, ?_, ?_⟩
    · exact T1.perm (@List.perm_append_comm _ [_, _] _)
    · intro s' hs'
      simp only [List.head?_cons, Option.some.injEq] at hs'
      rw [← hs']
      exact up1
    · rw [cnt1, k4]
      norm_num
    · rw [len1, k2, hElen]
      omega
  · rw [len1, k2]
    exact hElen

end S

end Tipper

namespace Tipper

section S

variable {K : Type} [LinearOrderedField K]

variable (sqrt : K → K)

/-- The lower sweep and the insertion of the bottom spoke. -/
theorem lowerPhase (hsq : ∀ x, 0 ≤ x → 0 ≤ sqrt x ∧ sqrt x * sqrt x = x)
    (p : List (point K)) (q : Nat) (M : List BEdge) (hM : M ≠ []) (cM : List Nat)
    (suf : List BEdge) (d : Driver) (n s : Nat) (csuf : List Nat) (fr : List Nat)
    (fuel : Nat)
    (L : LState p q d n s (M ++ suf) [] (cM ++ csuf) fr) (hfree : csuf ++ fr ≠ [])
    (hlen : csuf.length = suf.length)
    (hup : ∀ s, cM.head? = some s → d.upper_hull_pos = (s : Int))
    (hvis : ∀ t ∈ suf, VisExact p q t) (hvisM : ∀ t, M.getLast? = some t → VisExact p q t)
    (hchain : List.Chain' (fun t t' : BEdge => t.b = t'.a) (M ++ suf))
    (hsee : ∀ t ∈ suf, sees p q t) (hinv : ∀ t, M.getLast? = some t → ¬ sees p q t)
    (hfuel : suf.length + 1 ≤ fuel) :
    ∃ (d' : Driver) (D s' f' vb : Nat) (fr' : List Nat),
      (∀ depth, D ≤ depth →
        (lowerLoop sqrt depth p (q : Int) fuel d >>= lowerInsert) = Except.ok d') ∧
      (∀ t, M.getLast? = some t → t.b = vb) ∧
      Comb p d' (n + suf.length) (M ++ [⟨s', vb, q⟩]) (cM ++ [f']) fr' ∧
      f' :: fr' = csuf ++ fr ∧ d'.edges.length = d.edges.length := by
  obtain ⟨d1, D, s', run1, L1, up1, -, len1⟩ :=
    lowerLoop_spec sqrt hsq p q [] M hM cM suf d n s csuf fr fuel L hlen hvis hvisM
      hchain hsee hinv hfuel
  obtain ⟨vb, hvb, T1⟩ := L1.tab
  have hcl := L1.dat.length_eq
  obtain ⟨r, tl, rfl⟩ : ∃ r tl, cM = r :: tl := by
    cases cM with
    | nil =>
      exfalso
      simp only [List.length_nil] at hcl
      exact hM (List.length_eq_zero.mp hcl.symm)
    | cons r tl => exact ⟨r, tl, rfl⟩
  obtain ⟨f', fr', hfr⟩ : ∃ f' fr', csuf ++ fr = f' :: fr' :=
    List.exists_cons_of_ne_nil hfree
  obtain ⟨a, ha⟩ : ∃ a, (r :: tl).getLast? = some a :=
    ⟨_, List.getLast?_eq_getLast _ (List.cons_ne_nil _ _)⟩
  have hrep := L1.rep
  rw [hfr] at hrep
  obtain ⟨l', hins, rep', dat', -⟩ :=
    lowerInsert_spec (⟨s', vb, q⟩ : BEdge) rfl hrep ha L1.dat (L1.lo a ha) L1.sv
  refine ⟨{ d1 with hull := l', lower_hull_pos := (f' : Int) }, D, s', f', vb, fr', ?_, hvb, ⟨?_, ?_, rep', dat', ?_, ?_⟩, hfr.symm, len1⟩
  · intro depth hdep
    simp only [run1 depth hdep, hins, bind, Except.bind]
  · exact L1.ne
  · exact T1
  · intro s0 hs0
    simp only [List.cons_append, List.head?_cons, Option.some.injEq] at hs0
    show d1.upper_hull_pos = (s0 : Int)
    rw [up1]
    exact hup s0 (by simp [hs0])
  · intro s0 hs0
    rw [List.getLast?_concat] at hs0
    injection hs0 with hs0
    rw [← hs0]

theorem split_len {α : Type} (c : List α) (k l : Nat) (h : c.length = k + l) :
    ∃ c1 c2, c = c1 ++ c2 ∧ c1.length = k ∧ c2.length = l :=
  ⟨c.take k, c.drop k, (List.take_append_drop k c).symm, by
    rw [List.length_take]; omega, by rw [List.length_drop]; omega⟩

end S

end Tipper

namespace Tipper

section S

variable {K : Type} [LinearOrderedField K]

variable (sqrt : K → K)

theorem processPoint_eq (depth : Nat) (p : List (point K)) (i : Int) (d : Driver) :
    processPoint sqrt depth p i d =
      (firstEdge p i d >>= fun d0 =>
        upperLoop sqrt depth p i (d0.hull.num.toNat + 1) d0 >>= fun d2 =>
          upperInsert d2 >>= fun d3 =>
            (lowerLoop sqrt depth p i (d3.hull.num.toNat + 1) d3 >>= lowerInsert)) := by
  simp only [processPoint, beforeLowerInsert, beforeUpperInsert, upperSweep, lowerSweep, bind,
    Except.bind]
  cases firstEdge p i d with
  | error e => rfl
  | ok d0 =>
    simp only
    cases upperLoop sqrt depth p i (d0.hull.num.toNat + 1) d0 with
    | error e => rfl
    | ok d2 =>
      simp only
      cases upperInsert d2 with
      | error e => rfl
      | ok d3 => rfl

theorem getLast?_cons_of_ne {α : Type} (x : α) {l : List α} (h : l ≠ []) :
    (x :: l).getLast? = l.getLast? := by
  obtain ⟨y, l', rfl⟩ := List.exists_cons_of_ne_nil h
  exact List.getLast?_cons_cons

/-- A point that sees the upper reference edge: the first edge runs from the
pivot to the point, the upper sweep removes the edges `pre`, the lower sweep
the edges `suf`. -/
theorem caseA (hsq : ∀ x, 0 ≤ x → 0 ≤ sqrt x ∧ sqrt x * sqrt x = x)
    (p : List (point K)) (q : Nat) (d : Driver) (n h a b : Nat)
    (pre mid suf : List BEdge) (cyc fr : List Nat)
    (C : Comb p d n (⟨h, a, b⟩ :: pre ++ (mid ++ suf)) cyc fr)
    (hmid : mid ≠ []) (hfr : fr ≠ [])
    (hchain : List.Chain' (fun t t' : BEdge => t.b = t'.a) (⟨h, a, b⟩ :: pre ++ (mid ++ suf)))
    (hclose : ∀ t, (mid ++ suf).getLast? = some t → t.b = a)
    (hvis : ∀ t ∈ (⟨h, a, b⟩ :: pre ++ (mid ++ suf) : List BEdge), VisExact p q t)
    (hs0 : sees p q ⟨h, a, b⟩) (hspre : ∀ t ∈ pre, sees p q t) (hssuf : ∀ t ∈ suf, sees p q t)
    (hn1 : ∀ t, mid.head? = some t → ¬ sees p q t)
    (hn2 : ∀ t, mid.getLast? = some t → ¬ sees p q t)
    (cap : n + (pre ++ (mid ++ suf)).length + 4 ≤ d.edges.length) :
    ∃ (d' : Driver) (D nt nb vt vb ft fb : Nat) (cmid fr' : List Nat),
      (∀ depth, D ≤ depth → processPoint sqrt depth p (q : Int) d = Except.ok d') ∧
      Comb p d' (n + 2 + pre.length + suf.length) (⟨nt, q, vt⟩ :: mid ++ [⟨nb, vb, q⟩])
        (ft :: cmid ++ [fb]) fr' ∧
      (∀ t, mid.head? = some t → t.a = vt) ∧ (∀ t, mid.getLast? = some t → t.b = vb) ∧
      d'.edges.length = d.edges.length ∧
      (ft :: cmid ++ [fb]).length + fr'.length = cyc.length + fr.length := by
  have hcl := C.dat.length_eq
  simp only [List.length_cons, List.length_append] at hcl cap
  obtain ⟨c1, cms, hc1, l1, l2⟩ := split_len cyc (1 + pre.length) (mid.length + suf.length)
    (by omega)
  obtain ⟨s, cpre, rfl⟩ : ∃ s cpre, c1 = s :: cpre := by
    cases c1 with
    | nil => simp at l1; omega
    | cons s cpre => exact ⟨s, cpre, rfl⟩
  obtain ⟨cmid, csuf, hc2, l3, l4⟩ := split_len cms mid.length suf.length l2
  simp only [List.length_cons] at l1
  have hml : 0 < mid.length := List.length_pos.mpr hmid
  obtain ⟨m0, mid', rfl⟩ := List.exists_cons_of_ne_nil hmid
  obtain ⟨cm0, cmid', rfl⟩ : ∃ cm0 cmid', cmid = cm0 :: cmid' := by
    cases cmid with
    | nil => simp at l3
    | cons x y => exact ⟨x, y, rfl⟩
  subst hc1 hc2
  simp only [List.length_cons, List.length_append] at hcl cap l1 l2 l3 l4
  -- the first edge and the first pass of the upper sweep
  obtain ⟨s2, ctl, hctl⟩ : ∃ s2 ctl, cpre ++ ((cm0 :: cmid') ++ csuf) = s2 :: ctl := by
    cases cpre with
    | nil => exact ⟨cm0, cmid' ++ csuf, rfl⟩
    | cons x y => exact ⟨x, y ++ ((cm0 :: cmid') ++ csuf), rfl⟩
  have hrep0 : d.hull.Rep (s :: s2 :: ctl) fr := by
    rw [← hctl]
    exact C.rep
  have hdat0 : HullData d.hull (s :: s2 :: ctl) (⟨h, a, b⟩ :: (pre ++ ((m0 :: mid') ++ suf))) := by
    rw [← hctl]
    exact C.dat
  have hchain' : List.Chain' (fun t t' : BEdge => t.b = t'.a)
      (pre ++ ((m0 :: mid') ++ suf)) := (List.chain'_cons'.mp hchain).2
  obtain ⟨d0, d1, D1, hfe, hv0, run1, hull0, U1, sv1, lo1, len1⟩ :=
    caseA_first sqrt hsq p q d n h s s2 a b ctl fr (pre ++ ((m0 :: mid') ++ suf))
      C.ne C.tab hrep0 hdat0 (C.up s rfl) (hvis _ (List.mem_cons_self _ _)) hs0
      (fun t ht => ((List.chain'_cons'.mp hchain).1 t ht).symm)
      (by simp only [List.length_cons, List.length_append]; omega)
  rw [← hctl] at U1
  -- the other passes of the upper sweep
  obtain ⟨d2, D2, run2, U2, lo2, sv2, len2⟩ :=
    upperLoop_spec sqrt hsq p q [⟨n, a, q⟩] ((m0 :: mid') ++ suf) (by simp)
      ((cm0 :: cmid') ++ csuf) pre d1 (n + 1) cpre (s :: fr) d.hull.num.toNat U1 (by omega)
      (fun t ht => hvis t (List.mem_cons_of_mem _ (List.mem_append_left _ ht)))
      (fun t ht => hvis t (by
        simp only [List.cons_append, List.head?_cons, Option.some.injEq] at ht
        subst ht
        simp))
      hchain' hspre
      (fun t ht => hn1 t (by
        simp only [List.cons_append, List.head?_cons, Option.some.injEq] at ht ⊢
        exact ht))
      (by
        have := C.rep.num
        rw [this]
        simp only [List.length_cons, List.length_append, Int.toNat_ofNat]
        omega)
  -- the insertion of the top spoke
  obtain ⟨vt, hvt, T2⟩ := U2.tab
  obtain ⟨f0, fr0, hf0⟩ : ∃ f0 fr0, cpre.reverse ++ s :: fr = f0 :: fr0 :=
    List.exists_cons_of_ne_nil (by simp)
  have hrep2 := U2.rep
  rw [hf0] at hrep2
  obtain ⟨l3', hins, rep3, dat3, -⟩ :=
    upperInsert_spec (⟨n + 1 + pre.length, q, vt⟩ : BEdge) rfl hrep2 U2.dat (U2.up cm0 rfl)
      U2.ne
  obtain ⟨d3, hd3⟩ : ∃ d3 : Driver, d3 = { d2 with hull := l3', upper_hull_pos := (f0 : Int) } :=
    ⟨_, rfl⟩
  have k1 : d3.hull = l3' := by rw [hd3]
  have k2 : d3.edges = d2.edges := by rw [hd3]
  have hfr0 : fr0 ≠ [] := by
    intro hh
    subst hh
    have := congrArg List.length hf0
    simp only [List.length_append, List.length_reverse, List.length_cons, List.length_nil] at this
    have : fr.length = 0 := by omega
    exact hfr (List.length_eq_zero.mp this)
  have hlast : ∀ s', (f0 :: ((cm0 :: cmid') ++ csuf)).getLast? = some s' →
      (s :: cpre ++ ((cm0 :: cmid') ++ csuf)).getLast? = some s' := by
    intro s' hs'
    rw [getLast?_cons_of_ne _ (by simp)] at hs'
    rw [show s :: cpre ++ ((cm0 :: cmid') ++ csuf) = (s :: cpre) ++ ((cm0 :: cmid') ++ csuf)
      from rfl, List.getLast?_append_of_ne_nil _ (by simp)]
    exact hs'
  have L3 : LState p q d3 (n + 1 + pre.length + 1) n
      ((⟨n + 1 + pre.length, q, vt⟩ :: m0 :: mid') ++ suf) []
      ((f0 :: cm0 :: cmid') ++ csuf) fr0 := by
    refine ⟨?_, ?_, ⟨a, ?_, ?_⟩, ?_, ?_, ?_, ?_⟩
    · rw [hd3]
      show d2.next_edge = _
      rw [U2.ne]
      push_cast
      ring
    · rw [hd3]
      show d2.saved_edge = _
      rw [sv2, sv1]
    · intro t ht
      apply hclose t
      rw [List.cons_append, getLast?_cons_of_ne _ (by simp)] at ht
      exact ht
    · rw [k2]
      refine T2.perm ?_
      have := @List.perm_middle _ (⟨n + 1 + pre.length, q, vt⟩ : BEdge) ((m0 :: mid') ++ suf)
        [⟨n, a, q⟩]
      exact this
    · rw [k1]; exact rep3
    · rw [k1]; exact dat3
    · intro s' hs'
      rw [hd3]
      show d2.lower_hull_pos = _
      rw [lo2, lo1]
      exact C.lo s' (hlast s' hs')
    · rw [k2, len2, len1]
      simp only [List.length_cons, List.length_append]
      omega
  obtain ⟨d4, D4, nb, fb, vb, fr4, run4, hvb, C4, hfr4, len4⟩ :=
    lowerPhase sqrt hsq p q (⟨n + 1 + pre.length, q, vt⟩ :: m0 :: mid') (by simp)
      (f0 :: cm0 :: cmid') suf d3 (n + 1 + pre.length + 1) n csuf fr0
      (d3.hull.num.toNat + 1) L3 (by simp [hfr0]) l4
      (by
        intro s' hs'
        simp only [List.head?_cons, Option.some.injEq] at hs'
        rw [hd3, ← hs'])
      (fun t ht => hvis t (by simp [ht]))
      (fun t ht => hvis t (by
        rw [getLast?_cons_of_ne _ (by simp)] at ht
        have := List.mem_of_mem_getLast? ht
        simp only [List.mem_cons, List.mem_append] at this ⊢
        tauto))
      (by
        rw [List.cons_append, List.chain'_cons']
        refine ⟨?_, ?_⟩
        · intro t ht
          simp only [List.cons_append, List.head?_cons, Option.mem_def,
            Option.some.injEq] at ht
          subst ht
          exact (hvt _ rfl).symm
        · exact (List.chain'_append.mp hchain').2.1)
      hssuf
      (fun t ht => hn2 t (by
        rw [getLast?_cons_of_ne _ (by simp)] at ht
        exact ht))
      (by
        rw [k1, rep3.num]
        simp only [List.length_cons, List.length_append, Int.toNat_ofNat, List.append_eq]
        omega)
  refine ⟨d4, max (max D1 D2) D4, n + 1 + pre.length, nb, vt, vb, f0, fb, cm0 :: cmid', fr4, ?_,
    ?_, ?_, ?_, ?_, ?_⟩
  · intro depth hdep
    have e1 := run1 depth (le_trans (le_trans (le_max_left _ _) (le_max_left _ _)) hdep)
    have e2 := run2 depth (le_trans (le_trans (le_max_right _ _) (le_max_left _ _)) hdep)
    have e4 := run4 depth (le_trans (le_max_right _ _) hdep)
    rw [processPoint_eq, hfe]
    simp only [bind, Except.bind] at e4 ⊢
    rw [hull0]
    simp only [upperLoop, hv0, e1, e2, bind, Except.bind, if_true, hins]
    rw [← hd3, ← k1]
    exact e4
  · have e : n + 2 + pre.length + suf.length = n + 1 + pre.length + 1 + suf.length := by omega
    rw [e]
    exact C4
  · intro t ht
    exact hvt t (by
      simp only [List.cons_append, List.head?_cons] at ht ⊢
      exact ht)
  · intro t ht
    exact hvb t (by
      rw [getLast?_cons_of_ne _ (by simp)]
      exact ht)
  · rw [len4, k2, len2, len1]
  · have := congrArg List.length hfr4
    have h0 := congrArg List.length hf0
    simp only [List.length_cons, List.length_append, List.length_reverse,
      List.length_nil] at this h0 ⊢
    omega

end S

end Tipper

namespace Tipper

section S

variable {K : Type} [LinearOrderedField K]

variable (sqrt : K → K)

theorem processPoint_first (depth : Nat) (p : List (point K)) (i : Int) (d : Driver) :
    processPoint sqrt depth p i d = (firstEdge p i d >>= afterFirst sqrt depth p i) :=
  processPoint_eq sqrt depth p i d

theorem Comb.congr_state {p : List (point K)} {d d' : Driver} {n : Nat} {H : List BEdge}
    {cyc fr : List Nat} (C : Comb p d n H cyc fr) (h1 : d'.hull = d.hull)
    (h2 : d'.edges = d.edges) (h3 : d'.lower_hull_pos = d.lower_hull_pos)
    (h4 : d'.upper_hull_pos = d.upper_hull_pos) (h5 : d'.next_edge = d.next_edge) :
    Comb p d' n H cyc fr :=
  ⟨h5.trans C.ne, h2 ▸ C.tab, h1 ▸ C.rep, h1 ▸ C.dat, fun s hs => h4.trans (C.up s hs),
    fun s hs => h3.trans (C.lo s hs)⟩

/-- A point that does not see the upper reference edge and sees the lower one:
the first edge runs from the point to the pivot, the upper sweep removes
nothing, the lower sweep removes the edges `sufi ++ [⟨h, a, b⟩]`. -/
theorem caseB_rest (hsq : ∀ x, 0 ≤ x → 0 ≤ sqrt x ∧ sqrt x * sqrt x = x)
    (p : List (point K)) (q : Nat) (d : Driver) (n h a b : Nat)
    (mid sufi : List BEdge) (cyc fr : List Nat)
    (C : Comb p d n (mid ++ (sufi ++ [⟨h, a, b⟩])) cyc fr) (hsv : d.saved_edge = -1)
    (hmid : mid ≠ []) (hfr : fr ≠ [])
    (hchain : List.Chain' (fun t t' : BEdge => t.b = t'.a) (mid ++ (sufi ++ [⟨h, a, b⟩])))
    (hclose : ∀ t, mid.head? = some t → t.a = b)
    (hvis : ∀ t ∈ (mid ++ (sufi ++ [⟨h, a, b⟩]) : List BEdge), VisExact p q t)
    (hs0 : sees p q ⟨h, a, b⟩) (hssuf : ∀ t ∈ sufi, sees p q t)
    (hn1 : ∀ t, mid.head? = some t → ¬ sees p q t)
    (hn2 : ∀ t, mid.getLast? = some t → ¬ sees p q t)
    (cap : n + (mid ++ sufi).length + 4 ≤ d.edges.length) :
    ∃ (d' : Driver) (D nb vb ft fb : Nat) (cmid fr' : List Nat),
      (∀ depth, D ≤ depth →
        (firstLowerEdge (q : Int) d >>= fun d1 =>
          afterFirst sqrt depth p (q : Int) { d1 with count := 0 }) = Except.ok d') ∧
      Comb p d' (n + 2 + sufi.length) (⟨n, q, b⟩ :: mid ++ [⟨nb, vb, q⟩])
        (ft :: cmid ++ [fb]) fr' ∧
      (∀ t, mid.getLast? = some t → t.b = vb) ∧
      d'.edges.length = d.edges.length ∧
      (ft :: cmid ++ [fb]).length + fr'.length = cyc.length + fr.length := by
  have hcl := C.dat.length_eq
  obtain ⟨cmid, cs, rfl, l1, l2⟩ := split_len cyc mid.length (sufi.length + 1)
    (by simp only [List.length_append, List.length_singleton] at hcl; omega)
  obtain ⟨csuf, cl, rfl, l3, l4⟩ := split_len cs sufi.length 1 l2
  obtain ⟨sl, rfl⟩ : ∃ sl, cl = [sl] := List.length_eq_one.mp l4
  obtain ⟨m0, mid', rfl⟩ := List.exists_cons_of_ne_nil hmid
  obtain ⟨cm0, cmid', rfl⟩ : ∃ cm0 cmid', cmid = cm0 :: cmid' := by
    cases cmid with
    | nil => simp at l1
    | cons x y => exact ⟨x, y, rfl⟩
  obtain ⟨f, fr', rfl⟩ := List.exists_cons_of_ne_nil hfr
  simp only [List.length_cons, List.length_append, List.length_singleton] at hcl cap l1 l2 l3
  -- the lower reference edge
  have T := C.tab
  have hmemh : (⟨h, a, b⟩ : BEdge) ∈ (m0 :: mid') ++ (sufi ++ [⟨h, a, b⟩]) := by simp
  obtain ⟨hlt, eh, heh, bh⟩ := T.bnd ⟨h, a, b⟩ hmemh
  simp only at hlt heh bh
  have hen0 : d.edges[n]? = some d.edges[n] := List.getElem?_eq_getElem (by omega)
  have hen1 : d.edges[n + 1]? = some d.edges[n + 1] := List.getElem?_eq_getElem (by omega)
  have hf0 := T.fresh n _ hen0 (le_refl _)
  have hf1 := T.fresh (n + 1) _ hen1 (by omega)
  rw [hf0] at hen0
  rw [hf1] at hen1
  have hdl : (d.hull.ejs[sl]?).map item.data = some (h : Int) := by
    have := C.dat
    rw [← List.append_assoc, ← List.append_assoc] at this
    exact (HullData.concat_iff.mp this).2
  have hslm : sl ∈ (cm0 :: cmid') ++ (csuf ++ [sl]) := by simp
  have hlo : d.lower_hull_pos = (sl : Int) := C.lo sl (by
    rw [← List.append_assoc, List.getLast?_concat])
  have hh : d.hullEdge d.lower_hull_pos = Except.ok (h : Int) := by
    rw [hlo]
    exact hullEdge_of C.rep hslm hdl
  obtain ⟨E, hfl, gn, oth1⟩ := firstLowerEdge_eq (q : Int) d n h eh edge.new C.ne hh heh hen0
    (by omega)
  have hEh : E[h]? = some eh := by rw [oth1 h (by omega)]; exact heh
  have hE1 : E[n + 1]? = some edge.new := by rw [oth1 (n + 1) (by omega)]; exact hen1
  have hElen : E.length = d.edges.length := by
    have h1 : ∀ j, j ≠ n → j ≠ n → E[j]? = d.edges[j]? := fun j hj _ => oth1 j hj
    exact length_eq_of_two gn gn hen0 hen0 h1
  obtain ⟨d0, e0⟩ : ∃ d0 : Driver, d0 = { d with
      edges := E, next_edge := (n : Int) + 1, count := 0 } := ⟨_, rfl⟩
  have k1 : d0.hull = d.hull := by rw [e0]
  have k2 : d0.edges = E := by rw [e0]
  have k3 : d0.next_edge = (n : Int) + 1 := by rw [e0]
  have k5 : d0.upper_hull_pos = (cm0 : Int) := by rw [e0]; exact C.up cm0 rfl
  have k6 : d0.saved_edge = -1 := by rw [e0]; exact hsv
  have k7 : d0.lower_hull_pos = (sl : Int) := by rw [e0]; exact hlo
  have hrep0 : d0.hull.Rep ((cm0 :: cmid') ++ (csuf ++ [sl])) (f :: fr') := by
    rw [k1]; exact C.rep
  have hdat0 : HullData d0.hull ((cm0 :: cmid') ++ (csuf ++ [sl]))
      ((m0 :: mid') ++ (sufi ++ [⟨h, a, b⟩])) := by
    rw [k1]; exact C.dat
  -- the upper sweep makes no pass
  obtain ⟨-, x0, hx0, bx0⟩ := T.bnd m0 (by simp)
  have hm0n : m0.id ≠ n := by
    have := (T.bnd m0 (by simp)).1
    omega
  have hdm : (d0.hull.ejs[cm0]?).map item.data = some (m0.id : Int) := by
    have := hdat0
    simp only [List.cons_append, HullData, List.forall₂_cons] at this
    exact this.1
  have hv0 : visibleAt p (q : Int) d0 d0.upper_hull_pos = Except.ok false := by
    have := visibleAt_of (q := q) (t := m0) hrep0 (by simp) hdm
      (by rw [k2, oth1 _ hm0n]; exact hx0) bx0 (hvis m0 (by simp))
    rw [decide_eq_false (hn1 m0 rfl)] at this
    rw [k5]
    exact this
  -- the insertion of the top spoke
  obtain ⟨l3', hins, rep3, dat3, -⟩ :=
    upperInsert_spec (⟨n, q, b⟩ : BEdge) rfl hrep0 hdat0 k5 k3
  obtain ⟨d3, hd3⟩ : ∃ d3 : Driver, d3 = { d0 with hull := l3', upper_hull_pos := (f : Int) } :=
    ⟨_, rfl⟩
  have j1 : d3.hull = l3' := by rw [hd3]
  have j2 : d3.edges = E := by rw [hd3]; exact k2
  have j3 : d3.next_edge = (n : Int) + 1 := by rw [hd3]; exact k3
  have j6 : d3.saved_edge = -1 := by rw [hd3]; exact k6
  have j7 : d3.lower_hull_pos = (sl : Int) := by rw [hd3]; exact k7
  have j5 : d3.upper_hull_pos = (f : Int) := by rw [hd3]
  -- the first pass of the lower sweep
  obtain ⟨cinit, sl2, hci⟩ : ∃ cinit sl2, f :: ((cm0 :: cmid') ++ csuf) = cinit ++ [sl2] :=
    ⟨_, _, (List.dropLast_append_getLast (List.cons_ne_nil _ _)).symm⟩
  have hcyc3 : f :: ((cm0 :: cmid') ++ (csuf ++ [sl])) = cinit ++ [sl2, sl] := by
    have : f :: ((cm0 :: cmid') ++ (csuf ++ [sl])) = (f :: ((cm0 :: cmid') ++ csuf)) ++ [sl] := by
      simp
    rw [this, hci]
    simp
  have hH3 : (⟨n, q, b⟩ : BEdge) :: ((m0 :: mid') ++ (sufi ++ [⟨h, a, b⟩])) =
      ((⟨n, q, b⟩ : BEdge) :: ((m0 :: mid') ++ sufi)) ++ [⟨h, a, b⟩] := by simp
  have hrep3 : d3.hull.Rep (cinit ++ [sl2, sl]) fr' := by
    rw [j1, ← hcyc3]; exact rep3
  have hdat3 : HullData d3.hull (cinit ++ [sl2, sl])
      (((⟨n, q, b⟩ : BEdge) :: ((m0 :: mid') ++ sufi)) ++ [⟨h, a, b⟩]) := by
    rw [j1, ← hcyc3, ← hH3]; exact dat3
  obtain ⟨⟨pa, ra⟩, ⟨pb, rb⟩, ⟨pq, rq⟩, hvx⟩ := hvis ⟨h, a, b⟩ hmemh
  simp only at ra rb
  have hsees := hs0
  unfold sees at hsees
  simp only at hsees
  rw [ptAt_of_rdpE ra, ptAt_of_rdpE rb, ptAt_of_rdpE rq] at hsees
  have T' : Table p d.edges n (⟨h, a, b⟩ :: ((m0 :: mid') ++ sufi)) := by
    refine T.perm ?_
    rw [← List.append_assoc]
    exact List.perm_append_comm
  obtain ⟨d4, D4, run4, T4, ne4, rep4, dat4, lo4, sv4, up4, -, len4⟩ :=
    lowerStep_core_first sqrt hsq p q d3 n h sl sl2 a b cinit fr'
      ((⟨n, q, b⟩ : BEdge) :: ((m0 :: mid') ++ sufi)) eh edge.new
      (⟨n, q, b⟩ :: ⟨n + 1, a, q⟩ :: ((m0 :: mid') ++ sufi))
      j3 j6 (by omega) (by rw [j2]; exact hEh) (by rw [j2]; exact hE1) hrep3 hdat3 j7 (by
        intro E' g1 g2 oth
        rw [j2] at oth
        have oth' : ∀ j, j ≠ n → j ≠ n + 1 → j ≠ h → E'[j]? = d.edges[j]? := by
          intro j i1 i2 i3
          rw [oth j i2 i3]
          exact oth1 j i1
        refine Table.lower_first T' heh hen0 hen1 ?_ g2 ?_ oth' ra rb rq hsees
        · rw [g1, bh.1]
          rfl
        · rw [oth n (by omega) (by omega), gn, bh.2.1]
          rfl)
  have hlastb : ∀ t, ((m0 :: mid') ++ sufi).getLast? = some t → t.b = a := by
    intro t ht
    have := hchain
    rw [← List.append_assoc] at this
    exact (List.chain'_append.mp this).2.2 t ht ⟨h, a, b⟩ rfl
  have hv3 : visibleAt p (q : Int) d3 d3.lower_hull_pos = Except.ok true := by
    have := visibleAt_of (q := q) (t := ⟨h, a, b⟩) (s := sl) hrep3 (by simp)
      (HullData.concat_iff.mp (by
        have := hdat3
        rw [show cinit ++ [sl2, sl] = (cinit ++ [sl2]) ++ [sl] by rw [List.append_assoc]; rfl] at this
        exact this)).2
      (by rw [j2]; exact hEh) bh (hvis _ hmemh)
    rw [decide_eq_true hs0] at this
    rw [j7]
    exact this
  have L4 : LState p q d4 (n + 2) (n + 1) (((⟨n, q, b⟩ : BEdge) :: m0 :: mid') ++ sufi) []
      ((f :: cm0 :: cmid') ++ csuf) (sl :: fr') := by
    refine ⟨by rw [ne4]; push_cast; ring, by rw [sv4]; push_cast; ring, ⟨a, ?_, ?_⟩, ?_, ?_, ?_,
      ?_⟩
    · intro t ht
      apply hlastb t
      rw [List.cons_append, getLast?_cons_of_ne _ (by simp)] at ht
      exact ht
    · refine T4.perm ?_
      refine List.Perm.cons _ ?_
      have := @List.perm_middle _ (⟨n + 1, a, q⟩ : BEdge) ((m0 :: mid') ++ sufi) []
      simp only [List.append_eq, List.append_nil] at this ⊢
      exact this.symm
    · have : (f :: cm0 :: cmid') ++ csuf = cinit ++ [sl2] := hci
      rw [this]; exact rep4
    · have : (f :: cm0 :: cmid') ++ csuf = cinit ++ [sl2] := hci
      rw [this]; exact dat4
    · intro s' hs'
      have : (f :: cm0 :: cmid') ++ csuf = cinit ++ [sl2] := hci
      rw [this, List.getLast?_concat] at hs'
      injection hs' with hs'
      rw [← hs']
      exact lo4
    · rw [len4, j2, hElen]
      simp only [List.length_cons, List.length_append]
      omega
  obtain ⟨d5, D5, nb, fb, vb, fr5, run5, hvb, C5, hfr5, len5⟩ :=
    lowerPhase sqrt hsq p q ((⟨n, q, b⟩ : BEdge) :: m0 :: mid') (by simp)
      (f :: cm0 :: cmid') sufi d4 (n + 2) (n + 1) csuf (sl :: fr')
      d3.hull.num.toNat L4 (by simp) l3
      (by
        intro s' hs'
        simp only [List.head?_cons, Option.some.injEq] at hs'
        rw [up4, j5, hs'])
      (fun t ht => hvis t (by simp [ht]))
      (fun t ht => hvis t (by
        rw [getLast?_cons_of_ne _ (by simp)] at ht
        have := List.mem_of_mem_getLast? ht
        simp only [List.mem_cons, List.mem_append] at this ⊢
        tauto))
      (by
        rw [List.cons_append, List.chain'_cons']
        refine ⟨?_, ?_⟩
        · intro t ht
          simp only [List.cons_append, List.head?_cons, Option.mem_def,
            Option.some.injEq] at ht
          subst ht
          exact (hclose _ rfl).symm
        · have := hchain
          rw [← List.append_assoc] at this
          exact (List.chain'_append.mp this).1)
      hssuf
      (fun t ht => hn2 t (by
        rw [getLast?_cons_of_ne _ (by simp)] at ht
        exact ht))
      (by
        rw [j1, rep3.num]
        simp only [List.length_cons, List.length_append, Int.toNat_ofNat, List.append_eq,
          List.length_singleton]
        omega)
  refine ⟨d5, max D4 D5, nb, vb, f, fb, cm0 :: cmid', fr5, ?_, ?_, ?_, ?_, ?_⟩
  · intro depth hdep
    have e4 := run4 depth (le_trans (le_max_left _ _) hdep)
    have e5 := run5 depth (le_trans (le_max_right _ _) hdep)
    rw [hfl]
    simp only [bind, Except.bind, afterFirst] at e5 ⊢
    rw [← e0]
    simp only [upperLoop, hv0, bind, Except.bind, pure, Except.pure, Bool.false_eq_true,
      if_false, hins]
    rw [← hd3]
    simp only [lowerLoop, hv3, e4, bind, Except.bind, if_true]
    rw [← j1]
    exact e5
  · have e : n + 2 + sufi.length = n + 2 + sufi.length := rfl
    exact C5
  · intro t ht
    exact hvb t (by
      rw [getLast?_cons_of_ne _ (by simp)]
      exact ht)
  · rw [len5, len4, j2, hElen]
  · have := congrArg List.length hfr5
    simp only [List.length_cons, List.length_append, List.length_singleton] at this ⊢
    omega

end S

end Tipper

namespace Tipper

section S

variable {K : Type} [LinearOrderedField K]

variable (sqrt : K → K)

theorem firstEdge_lower (p : List (point K)) (i : Int) (d : Driver)
    (h1 : visibleAt p i { d with saved_edge := -1 } d.upper_hull_pos = Except.ok false)
    (h2 : visibleAt p i { d with saved_edge := -1 } d.lower_hull_pos = Except.ok true) :
    firstEdge p i d =
      (firstLowerEdge i { d with saved_edge := -1 } >>= fun d1 =>
        pure { d1 with count := 0 }) := by
  simp only [firstEdge, h1, firstNew, firstLower, h2, cantSee, bind, Except.bind, pure,
    Except.pure, Bool.false_eq_true, if_false, if_true]

theorem firstEdge_rot (p : List (point K)) (d : Driver) (r1 r2 : Int)
    (h1 : visibleAt p 3 { d with saved_edge := -1 } d.upper_hull_pos = Except.ok false)
    (h2 : visibleAt p 3 { d with saved_edge := -1 } d.lower_hull_pos = Except.ok false)
    (g1 : d.hull.getNextPos d.upper_hull_pos = Run.ok d.hull r1)
    (g2 : d.hull.getNextPos r1 = Run.ok d.hull r2) :
    firstEdge p 3 d =
      (firstLowerEdge 3 { d with saved_edge := -1, lower_hull_pos := r1, upper_hull_pos := r2 }
        >>= fun d1 => pure { d1 with count := 0 }) := by
  simp only [firstEdge, h1, firstNew, firstLower, h2, cantSee, bind, Except.bind, pure,
    Except.pure, Bool.false_eq_true, if_false, if_true, g1, g2, Run.toExcept]

/-- A point that does not see the upper reference edge and sees the lower
one. -/
theorem caseB (hsq : ∀ x, 0 ≤ x → 0 ≤ sqrt x ∧ sqrt x * sqrt x = x)
    (p : List (point K)) (q : Nat) (d : Driver) (n h a b : Nat)
    (mid sufi : List BEdge) (cyc fr : List Nat)
    (C : Comb p d n (mid ++ (sufi ++ [⟨h, a, b⟩])) cyc fr)
    (hmid : mid ≠ []) (hfr : fr ≠ [])
    (hchain : List.Chain' (fun t t' : BEdge => t.b = t'.a) (mid ++ (sufi ++ [⟨h, a, b⟩])))
    (hclose : ∀ t, mid.head? = some t → t.a = b)
    (hvis : ∀ t ∈ (mid ++ (sufi ++ [⟨h, a, b⟩]) : List BEdge), VisExact p q t)
    (hs0 : sees p q ⟨h, a, b⟩) (hssuf : ∀ t ∈ sufi, sees p q t)
    (hn1 : ∀ t, mid.head? = some t → ¬ sees p q t)
    (hn2 : ∀ t, mid.getLast? = some t → ¬ sees p q t)
    (cap : n + (mid ++ sufi).length + 4 ≤ d.edges.length) :
    ∃ (d' : Driver) (D nb vb ft fb : Nat) (cmid fr' : List Nat),
      (∀ depth, D ≤ depth → processPoint sqrt depth p (q : Int) d = Except.ok d') ∧
      Comb p d' (n + 2 + sufi.length) (⟨n, q, b⟩ :: mid ++ [⟨nb, vb, q⟩])
        (ft :: cmid ++ [fb]) fr' ∧
      (∀ t, mid.getLast? = some t → t.b = vb) ∧
      d'.edges.length = d.edges.length ∧
      (ft :: cmid ++ [fb]).length + fr'.length = cyc.length + fr.length := by
  obtain ⟨ds, hds⟩ : ∃ ds : Driver, ds = { d with saved_edge := -1 } := ⟨_, rfl⟩
  have Cs : Comb p ds n (mid ++ (sufi ++ [⟨h, a, b⟩])) cyc fr := by
    rw [hds]
    exact C.congr_state rfl rfl rfl rfl rfl
  have hcl := C.dat.length_eq
  obtain ⟨m0, mid', rfl⟩ := List.exists_cons_of_ne_nil hmid
  obtain ⟨cm0, ctl, rfl⟩ : ∃ cm0 ctl, cyc = cm0 :: ctl := by
    cases cyc with
    | nil => simp at hcl
    | cons x y => exact ⟨x, y, rfl⟩
  obtain ⟨cinit, sl, hcs⟩ : ∃ cinit sl, cm0 :: ctl = cinit ++ [sl] :=
    ⟨_, _, (List.dropLast_append_getLast (List.cons_ne_nil _ _)).symm⟩
  have T := C.tab
  -- the two tests
  obtain ⟨-, x0, hx0, bx0⟩ := T.bnd m0 (by simp)
  have hdm : (ds.hull.ejs[cm0]?).map item.data = some (m0.id : Int) := by
    have := Cs.dat
    simp only [List.cons_append, HullData, List.forall₂_cons] at this
    exact this.1
  have hv0 : visibleAt p (q : Int) ds d.upper_hull_pos = Except.ok false := by
    have := visibleAt_of (q := q) (t := m0) Cs.rep (by simp) hdm
      (by rw [hds]; exact hx0) bx0 (hvis m0 (by simp))
    rw [decide_eq_false (hn1 m0 rfl)] at this
    rw [C.up cm0 rfl]
    exact this
  obtain ⟨-, xh, hxh, bxh⟩ := T.bnd ⟨h, a, b⟩ (by simp)
  have hdl : (ds.hull.ejs[sl]?).map item.data = some (h : Int) := by
    have := Cs.dat
    rw [hcs, ← List.append_assoc] at this
    exact (HullData.concat_iff.mp this).2
  have hv1 : visibleAt p (q : Int) ds d.lower_hull_pos = Except.ok true := by
    have := visibleAt_of (q := q) (t := ⟨h, a, b⟩) (s := sl) Cs.rep (by rw [hcs]; simp) hdl
      (by rw [hds]; exact hxh) bxh (hvis _ (by simp))
    rw [decide_eq_true hs0] at this
    rw [C.lo sl (by rw [hcs, List.getLast?_concat])]
    exact this
  rw [hds] at hv0 hv1
  have hfe := firstEdge_lower p (q : Int) d hv0 hv1
  rw [← hds] at hfe
  obtain ⟨d', D, nb, vb, ft, fb, cmid, fr', run, C', hvb, len', hl'⟩ :=
    caseB_rest sqrt hsq p q ds n h a b (m0 :: mid') sufi (cm0 :: ctl) fr Cs (by rw [hds])
      (by simp) hfr hchain hclose hvis hs0 hssuf hn1 hn2 (by rw [hds]; exact cap)
  refine ⟨d', D, nb, vb, ft, fb, cmid, fr', ?_, C', hvb, by rw [len', hds], hl'⟩
  intro depth hdep
  have := run depth hdep
  rw [processPoint_first, hfe]
  simp only [bind, Except.bind, pure, Except.pure] at this ⊢
  cases hfl : firstLowerEdge (q : Int) ds with
  | error e =>
    rw [hfl] at this
    exact this
  | ok d1 =>
    rw [hfl] at this
    exact this

/-- Point 3 when it sees neither reference edge: the reference positions move
on by one slot, then the lower reference edge is the one the point sees. -/
theorem caseR (hsq : ∀ x, 0 ≤ x → 0 ≤ sqrt x ∧ sqrt x * sqrt x = x)
    (p : List (point K)) (d : Driver) (n h a b : Nat) (e1 e2 : BEdge) (cyc fr : List Nat)
    (C : Comb p d n [e2, ⟨h, a, b⟩, e1] cyc fr) (hfr : fr ≠ [])
    (h20 : e2.b = a) (h01 : b = e1.a) (h12 : e1.b = e2.a)
    (hvis : ∀ t ∈ ([e2, ⟨h, a, b⟩, e1] : List BEdge), VisExact p 3 t)
    (hs0 : sees p 3 ⟨h, a, b⟩) (hn1 : ¬ sees p 3 e1) (hn2 : ¬ sees p 3 e2)
    (cap : n + 6 ≤ d.edges.length) :
    ∃ (d' : Driver) (D nb vb ft fb : Nat) (cmid fr' : List Nat),
      (∀ depth, D ≤ depth → processPoint sqrt depth p ((3 : Nat) : Int) d = Except.ok d') ∧
      Comb p d' (n + 2) (⟨n, 3, b⟩ :: [e1, e2] ++ [⟨nb, vb, 3⟩]) (ft :: cmid ++ [fb]) fr' ∧
      e2.b = vb ∧ d'.edges.length = d.edges.length ∧
      (ft :: cmid ++ [fb]).length + fr'.length = cyc.length + fr.length := by
  have hcl := C.dat.length_eq
  obtain ⟨c2, c0, c1, rfl⟩ : ∃ c2 c0 c1, cyc = [c2, c0, c1] := by
    match cyc, hcl with
    | [x, y, z], _ => exact ⟨x, y, z, rfl⟩
  have hdat := C.dat
  simp only [HullData, List.forall₂_cons, List.forall₂_nil_left_iff, and_true] at hdat
  obtain ⟨hd2, hd0, hd1⟩ := hdat
  have hch := C.rep.chain
  simp only [List.chain'_cons, List.chain'_singleton, and_true] at hch
  have hup := C.up c2 rfl
  have hlo := C.lo c1 rfl
  obtain ⟨ds, hds⟩ : ∃ ds : Driver, ds = { d with saved_edge := -1 } := ⟨_, rfl⟩
  have Cs : Comb p ds n [e2, ⟨h, a, b⟩, e1] [c2, c0, c1] fr := by
    rw [hds]
    exact C.congr_state rfl rfl rfl rfl rfl
  have T := C.tab
  obtain ⟨-, x2, hx2, bx2⟩ := T.bnd e2 (by simp)
  obtain ⟨-, x1, hx1, bx1⟩ := T.bnd e1 (by simp)
  have hv0 : visibleAt p ((3 : Nat) : Int) ds d.upper_hull_pos = Except.ok false := by
    have := visibleAt_of (q := 3) (t := e2) (s := c2) Cs.rep (by simp) (by rw [hds]; exact hd2)
      (by rw [hds]; exact hx2) bx2 (hvis e2 (by simp))
    rw [decide_eq_false hn2] at this
    rw [hup]
    exact this
  have hv1 : visibleAt p ((3 : Nat) : Int) ds d.lower_hull_pos = Except.ok false := by
    have := visibleAt_of (q := 3) (t := e1) (s := c1) Cs.rep (by simp) (by rw [hds]; exact hd1)
      (by rw [hds]; exact hx1) bx1 (hvis e1 (by simp))
    rw [decide_eq_false hn1] at this
    rw [hlo]
    exact this
  have g1 : d.hull.getNextPos d.upper_hull_pos = Run.ok d.hull (c0 : Int) := by
    rw [hup]
    exact C.rep.getNextPos_link (by simp) hch.1
  have g2 : d.hull.getNextPos (c0 : Int) = Run.ok d.hull (c1 : Int) :=
    C.rep.getNextPos_link (by simp) hch.2
  rw [hds] at hv0 hv1
  have hfe := firstEdge_rot p d (c0 : Int) (c1 : Int) hv0 hv1 g1 g2
  obtain ⟨dr, hdr⟩ : ∃ dr : Driver, dr = { d with
      saved_edge := -1, lower_hull_pos := (c0 : Int), upper_hull_pos := (c1 : Int) } := ⟨_, rfl⟩
  rw [← hdr] at hfe
  have Cr : Comb p dr n ([e1, e2] ++ ([] ++ [⟨h, a, b⟩])) [c1, c2, c0] fr := by
    refine ⟨by rw [hdr]; exact C.ne, ?_, ?_, ?_, ?_, ?_⟩
    · rw [hdr]
      refine T.perm ?_
      have : [e2, (⟨h, a, b⟩ : BEdge), e1] = [e2, ⟨h, a, b⟩] ++ [e1] := rfl
      rw [this]
      exact List.perm_append_comm
    · rw [hdr]
      exact @cyclist.Rep.rotate_right _ _ [c2, c0] _ C.rep
    · rw [hdr]
      simp only [HullData, List.cons_append, List.nil_append, List.forall₂_cons,
        List.forall₂_nil_left_iff, and_true]
      exact ⟨hd1, hd2, hd0⟩
    · intro s hs
      simp only [List.head?_cons, Option.some.injEq] at hs
      rw [hdr, ← hs]
    · intro s hs
      simp only [List.getLast?_cons_cons, List.getLast?_singleton, Option.some.injEq] at hs
      rw [hdr, ← hs]
  obtain ⟨d', D, nb, vb, ft, fb, cmid, fr', run, C', hvb, len', hl'⟩ :=
    caseB_rest sqrt hsq p 3 dr n h a b [e1, e2] [] [c1, c2, c0] fr Cr (by rw [hdr])
      (by simp) hfr
      (by
        simp only [List.cons_append, List.nil_append, List.chain'_cons, List.chain'_singleton,
          and_true]
        exact ⟨h12, h20⟩)
      (by
        intro t ht
        simp only [List.head?_cons, Option.some.injEq] at ht
        rw [← ht]
        exact h01.symm)
      (by
        intro t ht
        apply hvis
        simp only [List.cons_append, List.nil_append, List.mem_cons, List.mem_singleton,
          List.not_mem_nil, or_false] at ht ⊢
        tauto)
      hs0 (by simp)
      (by
        intro t ht
        simp only [List.head?_cons, Option.some.injEq] at ht
        rw [← ht]
        exact hn1)
      (by
        intro t ht
        simp only [List.getLast?_cons_cons, List.getLast?_singleton, Option.some.injEq] at ht
        rw [← ht]
        exact hn2)
      (by rw [hdr]; simp only [List.append_nil, List.length_cons, List.length_nil]; exact cap)
  refine ⟨d', D, nb, vb, ft, fb, cmid, fr', ?_, C', ?_, by rw [len', hdr], hl'⟩
  · intro depth hdep
    have := run depth hdep
    have e3 : ((3 : Nat) : Int) = 3 := rfl
    rw [e3] at this ⊢
    rw [processPoint_first, hfe]
    simp only [bind, Except.bind, pure, Except.pure] at this ⊢
    cases hfl : firstLowerEdge 3 dr with
    | error e =>
      rw [hfl] at this
      exact this
    | ok d1 =>
      rw [hfl] at this
      exact this
  · exact hvb e2 (by simp)

end S

end Tipper

namespace Tipper

section S

variable {K : Type} [LinearOrderedField K]

variable (sqrt : K → K)

/-- One point of the sweep: the point sees the hull edges `pre` from the upper
reference edge on and the hull edges `suf` up to the lower reference edge, and
does not see the first and the last edge of the part `mid` between them.  The
new boundary is `mid` with a spoke from the point to its start and a spoke
from its end to the point. -/
theorem step_N (hsq : ∀ x, 0 ≤ x → 0 ≤ sqrt x ∧ sqrt x * sqrt x = x)
    (p : List (point K)) (q : Nat) (d : Driver) (n : Nat)
    (pre mid suf : List BEdge) (cyc fr : List Nat)
    (C : Comb p d n (pre ++ (mid ++ suf)) cyc fr)
    (hmid : mid ≠ []) (hfr : fr ≠ []) (hps : pre ++ suf ≠ [])
    (hchain : List.Chain' (fun t t' : BEdge => t.b = t'.a) (pre ++ (mid ++ suf)))
    (hclose : ∀ t t', (pre ++ (mid ++ suf)).head? = some t →
      (pre ++ (mid ++ suf)).getLast? = some t' → t'.b = t.a)
    (hvis : ∀ t ∈ (pre ++ (mid ++ suf) : List BEdge), VisExact p q t)
    (hspre : ∀ t ∈ pre, sees p q t) (hssuf : ∀ t ∈ suf, sees p q t)
    (hn1 : ∀ t, mid.head? = some t → ¬ sees p q t)
    (hn2 : ∀ t, mid.getLast? = some t → ¬ sees p q t)
    (cap : n + (pre ++ (mid ++ suf)).length + 3 ≤ d.edges.length) :
    ∃ (d' : Driver) (D nt nb vt vb : Nat) (cyc' fr' : List Nat),
      (∀ depth, D ≤ depth → processPoint sqrt depth p (q : Int) d = Except.ok d') ∧
      Comb p d' (n + 1 + pre.length + suf.length) (⟨nt, q, vt⟩ :: mid ++ [⟨nb, vb, q⟩])
        cyc' fr' ∧
      (∀ t, mid.head? = some t → t.a = vt) ∧ (∀ t, mid.getLast? = some t → t.b = vb) ∧
      d'.edges.length = d.edges.length ∧
      cyc'.length + fr'.length = cyc.length + fr.length := by
  cases pre with
  | cons x pre' =>
    obtain ⟨h, a, b⟩ := x
    obtain ⟨d', D, nt, nb, vt, vb, ft, fb, cmid, fr', run, C', hvt, hvb, len', hl'⟩ :=
      caseA sqrt hsq p q d n h a b pre' mid suf cyc fr C hmid hfr hchain
        (by
          intro t ht
          refine hclose ⟨h, a, b⟩ t rfl ?_
          rw [List.cons_append, getLast?_cons_of_ne _ (by simp [hmid]),
            List.getLast?_append_of_ne_nil _ (by simp [hmid])]
          exact ht)
        hvis (hspre _ (List.mem_cons_self _ _))
        (fun t ht => hspre t (List.mem_cons_of_mem _ ht)) hssuf hn1 hn2
        (by simp only [List.length_cons, List.length_append] at cap ⊢; omega)
    refine ⟨d', D, nt, nb, vt, vb, _, fr', run, ?_, hvt, hvb, len', hl'⟩
    have e : n + 1 + (⟨h, a, b⟩ :: pre').length + suf.length =
        n + 2 + pre'.length + suf.length := by
      simp only [List.length_cons]; omega
    rw [e]
    exact C'
  | nil =>
    simp only [List.nil_append] at hps C hchain hclose hvis cap
    obtain ⟨sufi, l, rfl⟩ : ∃ sufi l, suf = sufi ++ [l] :=
      ⟨_, _, (List.dropLast_append_getLast hps).symm⟩
    obtain ⟨h, a, b⟩ := l
    obtain ⟨m0, mid', rfl⟩ := List.exists_cons_of_ne_nil hmid
    have hcl : m0.a = b := by
      have := hclose m0 ⟨h, a, b⟩ rfl (by
        rw [← List.append_assoc, List.getLast?_concat])
      exact this.symm
    obtain ⟨d', D, nb, vb, ft, fb, cmid, fr', run, C', hvb, len', hl'⟩ :=
      caseB sqrt hsq p q d n h a b (m0 :: mid') sufi cyc fr C hmid hfr hchain
        (by
          intro t ht
          simp only [List.head?_cons, Option.some.injEq] at ht
          rw [← ht]
          exact hcl)
        hvis (hssuf _ (by simp)) (fun t ht => hssuf t (by simp [ht])) hn1 hn2
        (by simp only [List.length_cons, List.length_append, List.length_singleton] at cap ⊢
            omega)
    refine ⟨d', D, n, nb, b, vb, _, fr', run, ?_, ?_, hvb, len', hl'⟩
    · have e : n + 1 + ([] : List BEdge).length + (sufi ++ [(⟨h, a, b⟩ : BEdge)]).length =
          n + 2 + sufi.length := by
        simp only [List.length_nil, List.length_append, List.length_singleton]; omega
      rw [e]
      exact C'
    · intro t ht
      simp only [List.head?_cons, Option.some.injEq] at ht
      rw [← ht]
      exact hcl

end S

end Tipper
namespace Tipper

section S

variable {K : Type} [LinearOrderedField K]

theorem rdp_nat {p : List (point K)} {i : Nat} (h : i < p.length) :
    rdp p (i : Int) = some (ptAt p (i : Int)) := by
  have h1 : rdp p (i : Int) = some p[i] := by
    unfold rdp
    simp only [Int.natCast_nonneg, if_true, Int.toNat_ofNat]
    exact List.getElem?_eq_getElem h
  unfold ptAt
  rw [h1]

theorem rdpE_nat {p : List (point K)} {i : Nat} (h : i < p.length) :
    rdpE p (i : Int) = Except.ok (ptAt p (i : Int)) := by
  unfold rdpE
  rw [rdp_nat h]

theorem Separated.xlt {p : List (point K)} (hp : Separated p) {i j : Nat} (hij : i < j)
    (hj : j < p.length) : (ptAt p (i : Int)).x < (ptAt p (j : Int)).x := by
  have := hp.xgap i j hij hj
  have := mindistance_pos (K := K)
  linarith

theorem Separated.xabs {p : List (point K)} (hp : Separated p) {i j : Nat} (hi : i < p.length)
    (hj : j < p.length) (hij : i ≠ j) :
    mindistance ≤ |(ptAt p (i : Int)).x - (ptAt p (j : Int)).x| := by
  rcases Nat.lt_or_gt_of_ne hij with h | h
  · have := hp.xgap i j h hj
    rw [abs_sub_comm]
    exact le_trans (by linarith) (le_abs_self _)
  · have := hp.xgap j i h hi
    exact le_trans (by linarith) (le_abs_self _)

/-- The test `visible` is exact for an edge between two earlier points. -/
theorem Separated.visExact {p : List (point K)} (hp : Separated p) {q : Nat}
    (hq : q < p.length) {t : BEdge} (ha : t.a < q) (hb : t.b < q) (hab : t.a ≠ t.b) :
    VisExact p q t := by
  refine ⟨⟨_, rdpE_nat (by omega)⟩, ⟨_, rdpE_nat (by omega)⟩, ⟨_, rdpE_nat hq⟩, ?_⟩
  intro x hf ht
  have := visible_exact (x := x) (p := p) (i := (q : Int))
    (by rw [hf]; exact rdp_nat (by omega)) (by rw [ht]; exact rdp_nat (by omega))
    (rdp_nat hq) (hp.xabs (by omega) (by omega) hab)
    (hp.ygap t.b t.a (by omega) (by omega) (Ne.symm hab)) (hp.xlt ha hq) (hp.xlt hb hq)
  rw [this]
  rfl

/-- Points that are at least `mindistance` apart in `x` and in `y` are regular. -/
theorem Separated.regular {p : List (point K)} (hp : Separated p) : Regular p :=
  ⟨fun hij hj => hp.xlt hij hj, hp.noCol, fun hq _ ha hb hab => hp.visExact hq ha hb hab⟩

/-! ### Orientation identities -/

/-- The identity behind the prefix and suffix shape of the visible edges. -/
theorem orient_x (u v w q : point K) :
    orient u v w * (q.x - v.x) = orient v w q * (u.x - v.x) + orient u v q * (w.x - v.x) := by
  unfold orient; ring

/-- The identity behind the upper tangent. -/
theorem orient_t (u v w q r : point K) :
    orient q v r * orient u v w = orient v w q * orient u v r - orient u v q * orient v w r := by
  unfold orient; ring

/-- The identity behind the lower tangent. -/
theorem orient_t2 (u v w q r : point K) :
    orient v q r * orient u v w = orient u v q * orient v w r - orient v w q * orient u v r := by
  unfold orient; ring

/-- The value of an affine function at a point, from its values at three
points. -/
theorem orient_affine (a b u v w c : point K) :
    orient u v w * (orient a b c - orient a b v) =
      orient v w c * (orient a b u - orient a b v) +
      orient u v c * (orient a b w - orient a b v) := by
  unfold orient; ring

/-- On a chain that runs to the left, the point sees the edge before an edge it
sees. -/
theorem seen_left {u v w q : point K} (h1 : v.x < u.x) (h2 : w.x < v.x) (hq : v.x < q.x)
    (hc : 0 ≤ orient u v w) (hs : orient v w q < 0) : orient u v q < 0 := by
  have e := orient_x u v w q
  have a1 : 0 ≤ orient u v w * (q.x - v.x) := mul_nonneg hc (by linarith)
  have a2 : orient v w q * (u.x - v.x) < 0 := mul_neg_of_neg_of_pos hs (by linarith)
  have a3 : 0 < orient u v q * (w.x - v.x) := by linarith
  by_contra hcon
  have : orient u v q * (w.x - v.x) ≤ 0 :=
    mul_nonpos_of_nonneg_of_nonpos (not_lt.mp hcon) (by linarith)
  linarith

/-- On a chain that runs to the right, the point sees the edge after an edge it
sees. -/
theorem seen_right {u v w q : point K} (h1 : u.x < v.x) (h2 : v.x < w.x) (hq : v.x < q.x)
    (hc : 0 ≤ orient u v w) (hs : orient u v q < 0) : orient v w q < 0 := by
  have e := orient_x u v w q
  have a1 : 0 ≤ orient u v w * (q.x - v.x) := mul_nonneg hc (by linarith)
  have a2 : orient u v q * (w.x - v.x) < 0 := mul_neg_of_neg_of_pos hs (by linarith)
  have a3 : 0 < orient v w q * (u.x - v.x) := by linarith
  by_contra hcon
  have : orient v w q * (u.x - v.x) ≤ 0 :=
    mul_nonpos_of_nonneg_of_nonpos (not_lt.mp hcon) (by linarith)
  linarith

/-- At the leftmost vertex the point does not see both edges. -/
theorem seen_turn {u v w q : point K} (h1 : v.x < u.x) (h2 : v.x < w.x) (hq : v.x < q.x)
    (hc : 0 ≤ orient u v w) (hs1 : orient u v q < 0) (hs2 : orient v w q < 0) : False := by
  have e := orient_x u v w q
  have a1 : 0 ≤ orient u v w * (q.x - v.x) := mul_nonneg hc (by linarith)
  have a2 : orient u v q * (w.x - v.x) < 0 := mul_neg_of_neg_of_pos hs1 (by linarith)
  have a3 : orient v w q * (u.x - v.x) < 0 := mul_neg_of_neg_of_pos hs2 (by linarith)
  linarith

/-- At the rightmost vertex the point sees one of the two edges. -/
theorem seen_pivot {u v w q : point K} (h1 : u.x < v.x) (h2 : w.x < v.x) (hq : v.x < q.x)
    (hc : 0 ≤ orient u v w) (hs1 : 0 < orient u v q) (hs2 : 0 < orient v w q) : False := by
  have e := orient_x u v w q
  have a1 : 0 ≤ orient u v w * (q.x - v.x) := mul_nonneg hc (by linarith)
  have a2 : orient u v q * (w.x - v.x) < 0 := mul_neg_of_pos_of_neg hs1 (by linarith)
  have a3 : orient v w q * (u.x - v.x) < 0 := mul_neg_of_pos_of_neg hs2 (by linarith)
  linarith

/-- The upper tangent: every point to the left of the two edges at `v` is to
the left of the new edge from `q` to `v`. -/
theorem tangent_top {u v w q r : point K} (hc : 0 < orient u v w)
    (hs : orient u v q < 0) (hn : 0 ≤ orient v w q)
    (r1 : 0 ≤ orient u v r) (r2 : 0 ≤ orient v w r) : 0 ≤ orient q v r := by
  have e := orient_t u v w q r
  have a1 : 0 ≤ orient v w q * orient u v r := mul_nonneg hn r1
  have a2 : orient u v q * orient v w r ≤ 0 :=
    mul_nonpos_of_nonpos_of_nonneg (le_of_lt hs) r2
  have a3 : 0 ≤ orient q v r * orient u v w := by linarith
  by_contra hcon
  have : orient q v r * orient u v w < 0 := mul_neg_of_neg_of_pos (not_le.mp hcon) hc
  linarith

/-- The lower tangent. -/
theorem tangent_bot {u v w q r : point K} (hc : 0 < orient u v w)
    (hn : 0 ≤ orient u v q) (hs : orient v w q < 0)
    (r1 : 0 ≤ orient u v r) (r2 : 0 ≤ orient v w r) : 0 ≤ orient v q r := by
  have e := orient_t2 u v w q r
  have a1 : 0 ≤ orient u v q * orient v w r := mul_nonneg hn r2
  have a2 : orient v w q * orient u v r ≤ 0 :=
    mul_nonpos_of_nonpos_of_nonneg (le_of_lt hs) r1
  have a3 : 0 ≤ orient v q r * orient u v w := by linarith
  by_contra hcon
  have : orient v q r * orient u v w < 0 := mul_neg_of_neg_of_pos (not_le.mp hcon) hc
  linarith

end S

end Tipper

namespace Tipper

section S

variable {K : Type} [LinearOrderedField K]

theorem chain_all {α : Type} (S : α → Prop) :
    ∀ (L : List α) (x : α), List.Chain' (fun t t' => S t → S t') (x :: L) → S x →
      ∀ t ∈ L, S t := by
  intro L
  induction L with
  | nil => intro x _ _ t ht; simp at ht
  | cons y L ih =>
    intro x hc hx t ht
    rw [List.chain'_cons] at hc
    rcases List.mem_cons.mp ht with h | h
    · subst h
      exact hc.1 hx
    · exact ih y hc.2 (hc.1 hx) t h

/-- A list along which a property is inherited by the next entry splits into
a part without the property and a part with it. -/
theorem split_chain {α : Type} (S : α → Prop) :
    ∀ (L : List α), List.Chain' (fun t t' => S t → S t') L →
      ∃ L1 L2, L = L1 ++ L2 ∧ (∀ t ∈ L1, ¬ S t) ∧ ∀ t ∈ L2, S t := by
  intro L
  induction L with
  | nil => intro _; exact ⟨[], [], rfl, by simp, by simp⟩
  | cons x L ih =>
    intro hc
    by_cases hx : S x
    · refine ⟨[], x :: L, rfl, by simp, ?_⟩
      intro t ht
      rcases List.mem_cons.mp ht with h | h
      · subst h; exact hx
      · exact chain_all S L x hc hx t h
    · obtain ⟨L1, L2, e, h1, h2⟩ := ih (List.chain'_cons'.mp hc).2
      refine ⟨x :: L1, L2, by rw [e]; rfl, ?_, h2⟩
      intro t ht
      rcases List.mem_cons.mp ht with h | h
      · subst h; exact hx
      · exact h1 t h

variable {p : List (point K)} {m : Nat}

theorem Geo.mem_lt {H : List BEdge} (G : Geo p m H) {t : BEdge} (ht : t ∈ H) :
    t.a < m ∧ t.b < m ∧ t.a ≠ t.b := G.bound t ht

/-- The boundary turns to the left at every vertex. -/
theorem Geo.turn_pos {H : List BEdge} (G : Geo p m H) (hp : Regular p) (hm : 3 ≤ m)
    (hl : m ≤ p.length) {t t' : BEdge} (ht : t ∈ H) (ht' : t' ∈ H) (hb : t.b = t'.a) :
    0 < orient (ptAt p (t.a : Int)) (ptAt p (t.b : Int)) (ptAt p (t'.b : Int)) := by
  obtain ⟨a1, a2, a3⟩ := G.bound t ht
  obtain ⟨b1, b2, b3⟩ := G.bound t' ht'
  have h0 := G.left t ht t'.b b2
  by_cases hc : t'.b = t.a
  · exfalso
    obtain ⟨r, hr, r1, r2⟩ : ∃ r, r < 3 ∧ r ≠ t.a ∧ r ≠ t.b := by
      by_cases c0 : 0 ≠ t.a ∧ 0 ≠ t.b
      · exact ⟨0, by omega, c0.1, c0.2⟩
      · by_cases c1 : 1 ≠ t.a ∧ 1 ≠ t.b
        · exact ⟨1, by omega, c1.1, c1.2⟩
        · exact ⟨2, by omega, by omega, by omega⟩
    have g1 := G.left t ht r (by omega)
    have g2 := G.left t' ht' r (by omega)
    rw [← hb, hc, orient_swap] at g2
    have : orient (ptAt p (t.a : Int)) (ptAt p (t.b : Int)) (ptAt p (r : Int)) = 0 := by
      linarith
    exact hp.noCol t.a t.b r (by omega) (by omega) (by omega) a3 (Ne.symm r2) (Ne.symm r1) this
  · have := hp.noCol t.a t.b t'.b (by omega) (by omega) (by omega) a3 (by omega)
      (fun h => hc h.symm)
    exact lt_of_le_of_ne h0 (Ne.symm this)

/-- A point after the first `m` that does not see a boundary edge lies
strictly to its left. -/
theorem Geo.unseen_pos {H : List BEdge} (G : Geo p m H) (hp : Regular p) {q : Nat}
    (hq : m ≤ q) (hl : q < p.length) {t : BEdge} (ht : t ∈ H) (hn : ¬ sees p q t) :
    0 < orient (ptAt p (t.a : Int)) (ptAt p (t.b : Int)) (ptAt p (q : Int)) := by
  obtain ⟨a1, a2, a3⟩ := G.bound t ht
  unfold sees at hn
  have := hp.noCol t.a t.b q (by omega) (by omega) hl a3 (by omega) (by omega)
  exact lt_of_le_of_ne (not_lt.mp hn) (Ne.symm this)

end S

end Tipper

namespace Tipper

section S

variable {K : Type} [LinearOrderedField K]

variable {p : List (point K)} {m : Nat}

/-- The edges that the next point sees form a first part of the boundary that
runs to the left and a last part of the boundary that runs to the right, and
the point sees an edge and does not see all. -/
theorem arc_of_valley (hp : Regular p) (hq : m < p.length) {Lw Rw : List BEdge}
    (G : Geo p m (Lw ++ Rw)) (V : Valley m Lw Rw) :
    ∃ pre Lm Rm suf, Lw = pre ++ Lm ∧ Rw = Rm ++ suf ∧
      (∀ t ∈ pre, sees p m t) ∧ (∀ t ∈ suf, sees p m t) ∧
      (∀ t ∈ Lm ++ Rm, ¬ sees p m t) ∧ Lm ++ Rm ≠ [] ∧ pre ++ suf ≠ [] := by
  obtain ⟨vl, vr, vp⟩ := V
  have xl : ∀ {i j : Nat}, i < j → j ≤ m → (ptAt p (i : Int)).x < (ptAt p (j : Int)).x :=
    fun hij hj => hp.xlt hij (by omega)
  -- the two parts are not empty
  have hLw : Lw ≠ [] := by
    intro h
    subst h
    obtain ⟨t, R', rfl⟩ := List.exists_cons_of_ne_nil G.ne
    have h1 := vp t rfl
    have h2 := vr t (by simp)
    have h3 := (G.bound t (by simp)).2.1
    omega
  have hRw : Rw ≠ [] := by
    intro h
    subst h
    rw [List.append_nil] at G vp
    obtain ⟨t, L', rfl⟩ := List.exists_cons_of_ne_nil hLw
    have h1 := vp t rfl
    obtain ⟨t', ht'⟩ : ∃ t', (t :: L').getLast? = some t' :=
      ⟨_, List.getLast?_eq_getLast _ (List.cons_ne_nil _ _)⟩
    have hm' := List.mem_of_mem_getLast? ht'
    have h2 := G.close t t' rfl ht'
    have h3 := vl t' hm'
    have h4 := (G.bound t' hm').1
    omega
  -- the chains
  have cL : List.Chain' (fun t t' : BEdge => ¬ sees p m t → ¬ sees p m t') Lw := by
    have := (List.Chain'.iff_mem.mp G.chain.left_of_append)
    refine this.imp ?_
    intro t t' ⟨h1, h2, h3⟩ hn hs
    apply hn
    have b1 := G.bound t (List.mem_append_left _ h1)
    have b2 := G.bound t' (List.mem_append_left _ h2)
    have := seen_left (u := ptAt p (t.a : Int)) (v := ptAt p (t.b : Int))
      (w := ptAt p (t'.b : Int)) (q := ptAt p (m : Int))
      (xl (vl t h1) (by omega)) (by rw [h3]; exact xl (vl t' h2) (by omega))
      (xl b1.2.1 (le_refl _)) (G.left t (List.mem_append_left _ h1) t'.b b2.2.1)
      (by rw [h3]; exact hs)
    exact this
  have cR : List.Chain' (fun t t' : BEdge => sees p m t → sees p m t') Rw := by
    have := (List.Chain'.iff_mem.mp G.chain.right_of_append)
    refine this.imp ?_
    intro t t' ⟨h1, h2, h3⟩ hs
    have b1 := G.bound t (List.mem_append_right _ h1)
    have b2 := G.bound t' (List.mem_append_right _ h2)
    have := seen_right (u := ptAt p (t.a : Int)) (v := ptAt p (t.b : Int))
      (w := ptAt p (t'.b : Int)) (q := ptAt p (m : Int))
      (xl (vr t h1) (by omega)) (by rw [h3]; exact xl (vr t' h2) (by omega))
      (xl b1.2.1 (le_refl _)) (G.left t (List.mem_append_right _ h1) t'.b b2.2.1) hs
    rw [h3] at this
    exact this
  obtain ⟨pre, Lm, eL, hpre, hLm⟩ := split_chain (fun t => ¬ sees p m t) Lw cL
  obtain ⟨Rm, suf, eR, hRm, hsuf⟩ := split_chain (fun t => sees p m t) Rw cR
  have hpre' : ∀ t ∈ pre, sees p m t := fun t ht => not_not.mp (hpre t ht)
  refine ⟨pre, Lm, Rm, suf, eL, eR, hpre', hsuf, ?_, ?_, ?_⟩
  · intro t ht
    rcases List.mem_append.mp ht with h | h
    · exact hLm t h
    · exact hRm t h
  · intro hnil
    obtain ⟨h1, h2⟩ := List.append_eq_nil.mp hnil
    subst h1 h2
    rw [List.append_nil] at eL
    rw [List.nil_append] at eR
    subst eL eR
    obtain ⟨t, ht⟩ : ∃ t, Lw.getLast? = some t := ⟨_, List.getLast?_eq_getLast _ hLw⟩
    obtain ⟨t', R', rfl⟩ := List.exists_cons_of_ne_nil hRw
    have hb := (List.chain'_append.mp G.chain).2.2 t ht t' rfl
    have m1 := List.mem_of_mem_getLast? ht
    have b1 := G.bound t (List.mem_append_left _ m1)
    have b2 := G.bound t' (List.mem_append_right _ (List.mem_cons_self _ _))
    have s1 := hpre' t m1
    have s2 := hsuf t' (List.mem_cons_self _ _)
    unfold sees at s1 s2
    rw [← hb] at s2
    exact seen_turn (u := ptAt p (t.a : Int)) (v := ptAt p (t.b : Int))
      (w := ptAt p (t'.b : Int)) (q := ptAt p (m : Int))
      (xl (vl t m1) (by omega))
      (by rw [hb]; exact xl (vr t' (List.mem_cons_self _ _)) (by omega))
      (xl b1.2.1 (le_refl _)) (G.left t (List.mem_append_left _ m1) t'.b b2.2.1) s1 s2
  · intro hnil
    obtain ⟨h1, h2⟩ := List.append_eq_nil.mp hnil
    subst h1 h2
    rw [List.nil_append] at eL
    rw [List.append_nil] at eR
    subst eL eR
    obtain ⟨t', L', rfl⟩ := List.exists_cons_of_ne_nil hLw
    obtain ⟨t, ht⟩ : ∃ t, Rw.getLast? = some t := ⟨_, List.getLast?_eq_getLast _ hRw⟩
    have hb := G.close t' t rfl (by rw [List.getLast?_append_of_ne_nil _ hRw]; exact ht)
    have m1 := List.mem_of_mem_getLast? ht
    have b1 := G.bound t (List.mem_append_right _ m1)
    have b2 := G.bound t' (List.mem_append_left _ (List.mem_cons_self _ _))
    have s1 := G.unseen_pos hp (le_refl _) hq (List.mem_append_right _ m1) (hRm t m1)
    have s2 := G.unseen_pos hp (le_refl _) hq
      (List.mem_append_left _ (List.mem_cons_self _ _)) (hLm t' (List.mem_cons_self _ _))
    rw [← hb] at s2
    exact seen_pivot (u := ptAt p (t.a : Int)) (v := ptAt p (t.b : Int))
      (w := ptAt p (t'.b : Int)) (q := ptAt p (m : Int))
      (xl (vr t m1) (by omega))
      (by rw [hb]; exact xl (vl t' (List.mem_cons_self _ _)) (by omega))
      (xl b1.2.1 (le_refl _)) (G.left t (List.mem_append_right _ m1) t'.b b2.2.1) s1 s2

end S

end Tipper

namespace Tipper

section S

variable {K : Type} [LinearOrderedField K]

variable {p : List (point K)} {m : Nat}

/-- The boundary after the next point: the edges the point does not see, with
the two spokes. -/
theorem geo_new (hp : Regular p) (hm : 3 ≤ m) (hq : m < p.length)
    {pre mid suf : List BEdge} (G : Geo p m (pre ++ (mid ++ suf)))
    (hmid : mid ≠ []) (hps : pre ++ suf ≠ [])
    (hspre : ∀ t ∈ pre, sees p m t) (hssuf : ∀ t ∈ suf, sees p m t)
    (hnm : ∀ t ∈ mid, ¬ sees p m t) {nt nb vt vb : Nat}
    (hvt : ∀ t, mid.head? = some t → t.a = vt) (hvb : ∀ t, mid.getLast? = some t → t.b = vb) :
    Geo p (m + 1) (⟨nt, m, vt⟩ :: mid ++ [⟨nb, vb, m⟩]) := by
  obtain ⟨m0, mid', rfl⟩ := List.exists_cons_of_ne_nil hmid
  obtain ⟨ml, hml⟩ : ∃ ml, (m0 :: mid').getLast? = some ml :=
    ⟨_, List.getLast?_eq_getLast _ (List.cons_ne_nil _ _)⟩
  have hmlm : ml ∈ m0 :: mid' := List.mem_of_mem_getLast? hml
  have e0 : m0.a = vt := hvt m0 rfl
  have el : ml.b = vb := hvb ml hml
  have memM : ∀ t ∈ m0 :: mid', t ∈ pre ++ ((m0 :: mid') ++ suf) := fun t ht =>
    List.mem_append_right _ (List.mem_append_left _ ht)
  have b0 := G.bound m0 (memM m0 (List.mem_cons_self _ _))
  have bl := G.bound ml (memM ml hmlm)
  -- the edge before the first edge that is kept
  obtain ⟨ep, hep, sp, bp⟩ : ∃ e ∈ pre ++ ((m0 :: mid') ++ suf), sees p m e ∧ e.b = m0.a := by
    rcases List.eq_nil_or_concat pre with h | ⟨pre', e, rfl⟩
    · subst h
      have hs : suf ≠ [] := by simpa using hps
      obtain ⟨e, he⟩ : ∃ e, suf.getLast? = some e := ⟨_, List.getLast?_eq_getLast _ hs⟩
      have hme := List.mem_of_mem_getLast? he
      refine ⟨e, by simp [hme], hssuf e hme, ?_⟩
      refine G.close m0 e rfl ?_
      rw [List.nil_append, List.getLast?_append_of_ne_nil _ hs]
      exact he
    · refine ⟨e, by simp, hspre e (by simp), ?_⟩
      exact (List.chain'_append.mp G.chain).2.2 e (by simp) m0 rfl
  -- the edge after the last edge that is kept
  obtain ⟨es, hes, ss, bs⟩ : ∃ e ∈ pre ++ ((m0 :: mid') ++ suf), sees p m e ∧ ml.b = e.a := by
    cases suf with
    | nil =>
      have hs : pre ≠ [] := by simpa using hps
      obtain ⟨e, pre', rfl⟩ := List.exists_cons_of_ne_nil hs
      refine ⟨e, by simp, hspre e (by simp), ?_⟩
      refine G.close e ml rfl ?_
      rw [List.append_nil, List.getLast?_append_of_ne_nil _ (List.cons_ne_nil _ _)]
      exact hml
    | cons e suf' =>
      refine ⟨e, by simp, hssuf e (by simp), ?_⟩
      exact (List.chain'_append.mp (List.Chain'.right_of_append G.chain)).2.2 ml hml e rfl
  have tp := G.turn_pos hp hm (le_of_lt hq) hep (memM m0 (List.mem_cons_self _ _)) bp
  have ts := G.turn_pos hp hm (le_of_lt hq) (memM ml hmlm) hes bs
  have n0 := hnm m0 (List.mem_cons_self _ _)
  have nl := hnm ml hmlm
  unfold sees at sp ss n0 nl
  refine ⟨by simp, ?_, ?_, ?_, ?_⟩
  · intro t ht
    simp only [List.cons_append, List.mem_cons, List.mem_append, List.mem_singleton,
      List.not_mem_nil, or_false] at ht
    rcases ht with h | h | h | h
    · subst h
      refine ⟨?_, ?_, ?_⟩ <;> simp only <;> omega
    · subst h
      have := G.bound t (memM t (List.mem_cons_self _ _))
      omega
    · have := G.bound t (memM t (List.mem_cons_of_mem _ h))
      omega
    · subst h
      refine ⟨?_, ?_, ?_⟩ <;> simp only <;> omega
  · intro t ht r hr
    simp only [List.cons_append, List.mem_cons, List.mem_append, List.mem_singleton,
      List.not_mem_nil, or_false] at ht
    have mid_case : ∀ t ∈ m0 :: mid',
        0 ≤ orient (ptAt p (t.a : Int)) (ptAt p (t.b : Int)) (ptAt p (r : Int)) := by
      intro t2 ht2
      rcases Nat.lt_or_ge r m with h | h
      · exact G.left t2 (memM t2 ht2) r h
      · have e : r = m := by omega
        rw [e]
        have := hnm t2 ht2
        unfold sees at this
        exact not_lt.mp this
    rcases ht with h | h | h | h
    · subst h
      simp only
      rcases Nat.lt_or_ge r m with h | h
      · rw [← e0]
        have r1 := G.left ep hep r h
        have r2 := G.left m0 (memM m0 (List.mem_cons_self _ _)) r h
        rw [bp] at r1 sp tp
        exact tangent_top tp sp (not_lt.mp n0) r1 r2
      · have e : r = m := by omega
        rw [e, orient_self_left]
    · exact mid_case t (by rw [h]; exact List.mem_cons_self _ _)
    · exact mid_case t (List.mem_cons_of_mem _ h)
    · subst h
      simp only
      rcases Nat.lt_or_ge r m with h | h
      · rw [← el]
        have r1 := G.left ml (memM ml hmlm) r h
        have r2 := G.left es hes r h
        rw [← bs] at r2 ss
        exact tangent_bot ts (not_lt.mp nl) ss r1 r2
      · have e : r = m := by omega
        rw [e, orient_self_right]
  · rw [List.cons_append, List.chain'_cons']
    refine ⟨?_, ?_⟩
    · intro t ht
      simp only [List.cons_append, List.head?_cons, Option.mem_def, Option.some.injEq] at ht
      subst ht
      exact e0.symm
    · rw [List.chain'_append]
      refine ⟨(List.Chain'.right_of_append G.chain).left_of_append, List.chain'_singleton _, ?_⟩
      intro x hx y hy
      simp only [List.head?_cons, Option.mem_def, Option.some.injEq] at hy
      subst hy
      exact hvb x hx
  · intro t t' h1 h2
    simp only [List.cons_append, List.head?_cons, Option.some.injEq] at h1
    rw [List.cons_append, ← List.cons_append, List.getLast?_concat] at h2
    injection h2 with h2
    subst h1 h2
    rfl

end S

end Tipper

namespace Tipper

section S

variable {K : Type} [LinearOrderedField K]

theorem seedList_rep (m : Nat) (junk : Nat → item) :
    (seedList m junk).Rep [0, 1, 2] (List.range' 3 m) := by
  refine ⟨by simp [seedList]; ring, by simp [seedList], ?_, ?_, ?_, ?_⟩
  · simp only [seedList, List.length_cons, List.length_map, List.length_range]
    rw [List.range_eq_range', List.range'_succ, List.range'_succ, List.range'_succ]
    simp
  · simp only [List.chain'_cons, List.chain'_singleton, and_true]
    exact ⟨⟨⟨1, 2, 0⟩, ⟨2, 0, 1⟩, by simp [seedList], by simp [seedList], by simp, by simp⟩,
      ⟨⟨2, 0, 1⟩, ⟨0, 1, 2⟩, by simp [seedList], by simp [seedList], by simp, by simp⟩⟩
  · intro a b ha hb
    simp only [List.head?_cons, Option.some.injEq, List.getLast?_cons_cons,
      List.getLast?_singleton] at ha hb
    subst ha
    subst hb
    exact ⟨⟨0, 1, 2⟩, ⟨1, 2, 0⟩, by simp [seedList], by simp [seedList], by simp, by simp⟩
  · have := cyclist.chainTo_range' (seedList m junk) m 3 (by simp [seedList]; omega) ?_
    · exact_mod_cast this
    · intro j h1 h2
      obtain ⟨i, rfl⟩ : ∃ i, j = i + 3 := ⟨j - 3, by omega⟩
      refine ⟨{ junk (i + 3) with data := (i : Int) + 3 + 1 }, ?_, by simp⟩
      simp only [seedList, List.getElem?_cons_succ]
      rw [List.getElem?_map, List.getElem?_range (by omega)]
      rfl

/-- The state of `triangulate` after the seed, for `m + 3` points. -/
theorem seed_closed (junk : Nat → item) (m : Nat) (p : List (point K))
    (p0 p1 p2 : point K)
    (h0 : rdpE p 0 = Except.ok p0) (h1 : rdpE p 1 = Except.ok p1)
    (h2 : rdpE p 2 = Except.ok p2) :
    seed junk ((m + 3 : Nat) : Int) p = Except.ok
      { hull := seedList m junk,
        edges :=
          (if gtQuot p2.y p0.y ((p1.y - p0.y) * (p2.x - p0.x)) (p1.x - p0.x) then
            [⟨0, 1, 2, 1, -1, -1⟩, ⟨1, 2, 0, 2, -1, -1⟩, ⟨2, 0, 1, 0, -1, -1⟩]
          else
            [⟨0, 2, 2, 1, -1, -1⟩, ⟨2, 1, 0, 2, -1, -1⟩, ⟨1, 0, 1, 0, -1, -1⟩]) ++
            List.replicate (3 * m + 6) edge.new,
        lower_hull_pos := 1, upper_hull_pos := 2, next_edge := 3, saved_edge := -1,
        count := 0 } := by
  have hm : (((m + 3 : Nat) : Int)).toNat = m + 3 := Int.toNat_ofNat _
  have hk : (3 * ((m + 3 : Nat) : Int)).toNat = (3 * m + 6) + 3 := by
    have : (3 * ((m + 3 : Nat) : Int)) = ((3 * m + 6 + 3 : Nat) : Int) := by push_cast; ring
    rw [this, Int.toNat_ofNat]
  have hneg : ¬ ((m + 3 : Nat) : Int) < 0 := by omega
  have hrep : List.replicate (3 * m + 6 + 3) edge.new =
      edge.new :: edge.new :: edge.new :: List.replicate (3 * m + 6) edge.new := rfl
  have hh := seedHull_new m junk
  simp only [seed, if_neg hneg, hm, hk, hrep, seedEdges_fresh p p0 p1 p2 _ h0 h1 h2,
    hh, bind, Except.bind]
  unfold seedList
  split <;> rfl

end S

end Tipper

namespace Tipper

section S

variable {K : Type} [LinearOrderedField K]

theorem valid_fresh (p : List (point K)) (k : Nat) : Valid (List.replicate k edge.new) p := by
  intro i x hx
  have : x = edge.new := by
    exact List.eq_of_mem_replicate (mem_of_get hx)
  subst this
  exact ⟨Or.inl rfl, Or.inl rfl⟩

/-- The table of the seed is a consistent triangulation: the triangle of the
points `0`, `v1`, `v2`, anticlockwise. -/
theorem seed_tableOK (p : List (point K)) (k : Nat) (v1 v2 : Nat) (p0 q1 q2 : point K)
    (h0 : rdpE p ((0 : Nat) : Int) = Except.ok p0) (h1 : rdpE p (v1 : Int) = Except.ok q1)
    (h2 : rdpE p (v2 : Int) = Except.ok q2) (ho : 0 < orient p0 q1 q2) :
    Table p ([⟨0, v1, 2, 1, -1, -1⟩, ⟨v1, v2, 0, 2, -1, -1⟩, ⟨v2, 0, 1, 0, -1, -1⟩] ++
        List.replicate k edge.new) 3
      [⟨2, v2, 0⟩, ⟨0, 0, v1⟩, ⟨1, v1, v2⟩] := by
  have hv : Valid ([⟨0, v1, 2, 1, -1, -1⟩, ⟨v1, v2, 0, 2, -1, -1⟩, ⟨v2, 0, 1, 0, -1, -1⟩] ++
        List.replicate k edge.new) p := by
    obtain ⟨n01, n20, n21⟩ := tri_ne h0 h1 h2 ho
    have n01' : (v1 : Int) ≠ 0 := fun h => n01 (by rw [h]; rfl)
    have n02' : (v2 : Int) ≠ 0 := fun h => n20 (by rw [h]; rfl)
    refine @glue_valid _ _ (List.replicate (k + 3) edge.new) _ _ (valid_fresh p (k + 3))
      (by simp) ((0 : Nat) : Int) (v1 : Int) (v2 : Int) _ _ _ 0 1 2
      ⟨0, v1, 2, 1, -1, -1⟩ ⟨v1, v2, 0, 2, -1, -1⟩
      ⟨v2, 0, 1, 0, -1, -1⟩ (by simp) (by simp) (by simp)
      (Or.inl ⟨rfl, rfl⟩) (Or.inl ⟨rfl, rfl⟩) (Or.inl ⟨rfl, rfl⟩)
      (by simp [edge.pairAt]) (by simp [edge.pairAt]) (by simp [edge.pairAt])
      h0 h1 h2 ho ?_ ?_ ?_ ?_
    · intro j j0 j1 j2
      obtain ⟨i, rfl⟩ : ∃ i, j = i + 3 := ⟨j - 3, by omega⟩
      simp only [List.cons_append, List.nil_append, List.getElem?_cons_succ]
      rw [show List.replicate (k + 3) edge.new =
        edge.new :: edge.new :: edge.new :: List.replicate k edge.new from rfl]
      simp only [List.getElem?_cons_succ]
    · refine ⟨edge.new, by simp, Or.inl ⟨rfl, ?_⟩⟩
      simp only [edge.pairAt, Nat.cast_zero]
      rw [if_neg (fun h => n01' h.symm)]
    · refine ⟨edge.new, by simp, Or.inl ⟨rfl, ?_⟩⟩
      simp only [edge.pairAt]
      rw [if_neg n21.symm]
    · refine ⟨edge.new, by simp, Or.inl ⟨rfl, ?_⟩⟩
      simp only [edge.pairAt, Nat.cast_zero]
      rw [if_neg n02']
  refine ⟨hv, ?_, by simp, ?_, ?_⟩
  · intro j x hx hj
    obtain ⟨i, rfl⟩ : ∃ i, j = i + 3 := ⟨j - 3, by omega⟩
    simp only [List.cons_append, List.nil_append, List.getElem?_cons_succ] at hx
    exact List.eq_of_mem_replicate (mem_of_get hx)
  · intro t ht
    simp only [List.mem_cons, List.mem_singleton, List.not_mem_nil, or_false] at ht
    rcases ht with h | h | h <;> subst h
    · exact ⟨by simp, ⟨v2, 0, 1, 0, -1, -1⟩, by simp, rfl, by simp, rfl, rfl, by simp,
        by simp⟩
    · exact ⟨by simp, ⟨0, v1, 2, 1, -1, -1⟩, by simp, by simp, rfl, rfl, rfl, by simp,
        by simp⟩
    · exact ⟨by simp, ⟨v1, v2, 0, 2, -1, -1⟩, by simp, rfl, rfl, rfl, rfl, by simp,
        by simp⟩
  · intro j x _ hj hn
    exfalso
    apply hn
    simp only [List.map_cons, List.map_nil, List.mem_cons, List.mem_singleton,
      List.not_mem_nil, or_false]
    omega

end S

end Tipper

namespace Tipper

section S

variable {K : Type} [LinearOrderedField K]

theorem seed_geo {p : List (point K)} (hN : 3 ≤ p.length) (v1 v2 : Nat)
    (hv : (v1 = 1 ∧ v2 = 2) ∨ (v1 = 2 ∧ v2 = 1))
    (ho : 0 < orient (ptAt p ((0 : Nat) : Int)) (ptAt p (v1 : Int)) (ptAt p (v2 : Int))) :
    Geo p 3 [⟨2, v2, 0⟩, ⟨0, 0, v1⟩, ⟨1, v1, v2⟩] := by
  refine ⟨by simp, ?_, ?_, ?_, ?_⟩
  · intro t ht
    simp only [List.mem_cons, List.mem_singleton, List.not_mem_nil, or_false] at ht
    rcases ht with h | h | h <;> subst h <;> simp only <;> omega
  · intro t ht r hr
    have hr' : r = 0 ∨ r = v1 ∨ r = v2 := by omega
    simp only [List.mem_cons, List.mem_singleton, List.not_mem_nil, or_false] at ht
    rcases ht with h | h | h <;> subst h <;> simp only <;>
      rcases hr' with h | h | h <;> subst h
    · exact le_of_eq (orient_self_right _ _).symm
    · rw [orient_cyc, orient_cyc]
      exact le_of_lt ho
    · exact le_of_eq (orient_self_left _ _).symm
    · exact le_of_eq (orient_self_left _ _).symm
    · exact le_of_eq (orient_self_right _ _).symm
    · exact le_of_lt ho
    · rw [orient_cyc]
      exact le_of_lt ho
    · exact le_of_eq (orient_self_left _ _).symm
    · exact le_of_eq (orient_self_right _ _).symm
  · simp
  · intro t t' h1 h2
    simp only [List.head?_cons, Option.some.injEq, List.getLast?_cons_cons,
      List.getLast?_singleton] at h1 h2
    subst h1 h2
    rfl

/-- The invariant holds after the seed. -/
theorem seed_inv {p : List (point K)} (hp : Regular p) (junk : Nat → item) (m : Nat)
    (hN : p.length = m + 3) :
    ∃ (d : Driver) (v1 v2 : Nat) (cyc fr : List Nat),
      seed junk ((m + 3 : Nat) : Int) p = Except.ok d ∧
      Inv p 3 d 3 [⟨2, v2, 0⟩, ⟨0, 0, v1⟩, ⟨1, v1, v2⟩] cyc fr := by
  have h0 : rdpE p 0 = Except.ok (ptAt p ((0 : Nat) : Int)) := rdpE_nat (i := 0) (by omega)
  have h1 : rdpE p 1 = Except.ok (ptAt p ((1 : Nat) : Int)) := rdpE_nat (i := 1) (by omega)
  have h2 : rdpE p 2 = Except.ok (ptAt p ((2 : Nat) : Int)) := rdpE_nat (i := 2) (by omega)
  have hs := seed_closed junk m p _ _ _ h0 h1 h2
  have hx := le_of_lt (hp.xlt (i := 0) (j := 1) (by omega) (by omega))
  have hc := hp.noCol 0 1 2 (by omega) (by omega) (by omega) (by omega) (by omega) (by omega)
  have hg := gtQuot_orient _ _ _ hx hc
  have hrep : (seedList m junk).Rep [2, 0, 1] (List.range' 3 m) :=
    @cyclist.Rep.rotate_right _ _ [0, 1] _ (seedList_rep m junk)
  have hdat : ∀ v1 v2 : Nat, HullData (seedList m junk) [2, 0, 1]
      [⟨2, v2, 0⟩, ⟨0, 0, v1⟩, ⟨1, v1, v2⟩] := by
    intro v1 v2
    simp [HullData, seedList]
  by_cases hb : gtQuot (ptAt p ((2 : Nat) : Int)).y (ptAt p ((0 : Nat) : Int)).y
      (((ptAt p ((1 : Nat) : Int)).y - (ptAt p ((0 : Nat) : Int)).y) *
        ((ptAt p ((2 : Nat) : Int)).x - (ptAt p ((0 : Nat) : Int)).x))
      ((ptAt p ((1 : Nat) : Int)).x - (ptAt p ((0 : Nat) : Int)).x) = true
  · rw [if_pos hb] at hs hg
    refine ⟨_, 1, 2, [2, 0, 1], List.range' 3 m, hs, ?_⟩
    refine ⟨⟨rfl, seed_tableOK p (3 * m + 6) 1 2 _ _ _ h0 h1 h2 hg, hrep, hdat 1 2, ?_, ?_⟩,
      seed_geo (by omega) 1 2 (Or.inl ⟨rfl, rfl⟩) hg, ?_, by simp, by simp, ?_, ?_⟩
    · intro s hs'
      simp only [List.head?_cons, Option.some.injEq] at hs'
      rw [← hs']; rfl
    · intro s hs'
      simp only [List.getLast?_cons_cons, List.getLast?_singleton, Option.some.injEq] at hs'
      rw [← hs']; rfl
    · refine Or.inl ⟨[⟨2, 2, 0⟩], [⟨0, 0, 1⟩, ⟨1, 1, 2⟩], rfl, ?_, ?_, ?_⟩
      · simp
      · simp
      · intro t ht
        simp only [List.cons_append, List.head?_cons, Option.some.injEq] at ht
        rw [← ht]
    · simp only [List.length_append, List.length_cons, List.length_nil,
        List.length_replicate, hN]
      omega
    · simp only [List.length_cons, List.length_nil, List.length_range', hN]
      omega
  · rw [if_neg hb] at hs hg
    refine ⟨_, 2, 1, [2, 0, 1], List.range' 3 m, hs, ?_⟩
    refine ⟨⟨rfl, seed_tableOK p (3 * m + 6) 2 1 _ _ _ h0 h2 h1 hg, hrep, hdat 2 1, ?_, ?_⟩,
      seed_geo (by omega) 2 1 (Or.inr ⟨rfl, rfl⟩) hg, ?_, by simp, by simp, ?_, ?_⟩
    · intro s hs'
      simp only [List.head?_cons, Option.some.injEq] at hs'
      rw [← hs']; rfl
    · intro s hs'
      simp only [List.getLast?_cons_cons, List.getLast?_singleton, Option.some.injEq] at hs'
      rw [← hs']; rfl
    · exact Or.inr ⟨rfl, 0, 1, 2, rfl⟩
    · simp only [List.length_append, List.length_cons, List.length_nil,
        List.length_replicate, hN]
      omega
    · simp only [List.length_cons, List.length_nil, List.length_range', hN]
      omega

end S

end Tipper

namespace Tipper

section S

variable {K : Type} [LinearOrderedField K]

variable (sqrt : K → K)

theorem Inv.free_ne {p : List (point K)} {m : Nat} {d : Driver} {n : Nat} {H : List BEdge}
    {cyc fr : List Nat} (I : Inv p m d n H cyc fr) (hq : m < p.length) : fr ≠ [] := by
  intro h
  subst h
  have h1 := I.comb.dat.length_eq
  have h2 := I.slots
  have h3 := I.hle
  simp only [List.length_nil] at h2
  omega

/-- One point of the sweep, for a boundary given with the edges that the point
sees. -/
theorem step_arc (hsq : ∀ x, 0 ≤ x → 0 ≤ sqrt x ∧ sqrt x * sqrt x = x)
    {p : List (point K)} (hp : Regular p) {m : Nat} (hm : 3 ≤ m) (hq : m < p.length)
    {d : Driver} {n : Nat} {cyc fr : List Nat} (pre Lm Rm suf : List BEdge)
    (I : Inv p m d n (pre ++ ((Lm ++ Rm) ++ suf)) cyc fr)
    (hmid : Lm ++ Rm ≠ []) (hps : pre ++ suf ≠ [])
    (hspre : ∀ t ∈ pre, sees p m t) (hssuf : ∀ t ∈ suf, sees p m t)
    (hnm : ∀ t ∈ Lm ++ Rm, ¬ sees p m t)
    (hL : ∀ t ∈ Lm, t.b < t.a) (hR : ∀ t ∈ Rm, t.a < t.b) :
    ∃ (d' : Driver) (D n' : Nat) (H' : List BEdge) (cyc' fr' : List Nat),
      (∀ depth, D ≤ depth → processPoint sqrt depth p (m : Int) d = Except.ok d') ∧
      Inv p (m + 1) d' n' H' cyc' fr' := by
  have G := I.geo
  have hvis : ∀ t ∈ pre ++ ((Lm ++ Rm) ++ suf), VisExact p m t := by
    intro t ht
    obtain ⟨b1, b2, b3⟩ := G.bound t ht
    exact hp.visExact hq b1 b2 b3
  have hcap : n + (pre ++ ((Lm ++ Rm) ++ suf)).length + 3 ≤ d.edges.length := by
    have := I.cnt
    rw [I.elen]
    omega
  obtain ⟨d', D, nt, nb, vt, vb, cyc', fr', run, C', hvt, hvb, len', hl'⟩ :=
    step_N sqrt hsq p m d n pre (Lm ++ Rm) suf cyc fr I.comb hmid (I.free_ne hq) hps
      G.chain G.close hvis hspre hssuf
      (fun t ht => hnm t (List.mem_of_mem_head? ht))
      (fun t ht => hnm t (List.mem_of_mem_getLast? ht)) hcap
  have G' := @geo_new _ _ _ _ hp hm hq _ _ _ G hmid hps hspre hssuf hnm nt nb _ _ hvt hvb
  obtain ⟨m0, hm0⟩ : ∃ m0, (Lm ++ Rm).head? = some m0 := by
    obtain ⟨x, l, h⟩ := List.exists_cons_of_ne_nil hmid
    exact ⟨x, by rw [h]; rfl⟩
  obtain ⟨ml, hml⟩ : ∃ ml, (Lm ++ Rm).getLast? = some ml :=
    ⟨_, List.getLast?_eq_getLast _ hmid⟩
  have memM : ∀ t ∈ Lm ++ Rm, t ∈ pre ++ ((Lm ++ Rm) ++ suf) := fun t ht =>
    List.mem_append_right _ (List.mem_append_left _ ht)
  have b0 := G.bound m0 (memM m0 (List.mem_of_mem_head? hm0))
  have bl := G.bound ml (memM ml (List.mem_of_mem_getLast? hml))
  have e0 := hvt m0 hm0
  have el := hvb ml hml
  refine ⟨d', D, _, _, cyc', fr', run, ⟨C', G', ?_, ?_, ?_, ?_, ?_⟩⟩
  · refine Or.inl ⟨⟨nt, m, vt⟩ :: Lm, Rm ++ [⟨nb, vb, m⟩], by simp, ?_, ?_, ?_⟩
    · intro t ht
      rcases List.mem_cons.mp ht with h | h
      · subst h
        simp only
        omega
      · exact hL t h
    · intro t ht
      rcases List.mem_append.mp ht with h | h
      · exact hR t h
      · simp only [List.mem_singleton] at h
        subst h
        simp only
        omega
    · intro t ht
      simp only [List.cons_append, List.head?_cons, Option.some.injEq] at ht
      rw [← ht]
  · have := I.cnt
    have hne : 0 < (pre ++ suf).length := List.length_pos.mpr hps
    simp only [List.length_cons, List.length_append, List.length_singleton, List.length_nil] at this hne ⊢
    omega
  · have := I.hle
    have hne : 0 < (pre ++ suf).length := List.length_pos.mpr hps
    simp only [List.length_cons, List.length_append, List.length_singleton, List.length_nil] at this hne ⊢
    omega
  · rw [len', I.elen]
  · rw [hl', I.slots]

end S

end Tipper

namespace Tipper

section S

variable {K : Type} [LinearOrderedField K]

variable (sqrt : K → K)

/-- Point 3 after a seed whose third point lies below the first edge. -/
theorem step_else (hsq : ∀ x, 0 ≤ x → 0 ≤ sqrt x ∧ sqrt x * sqrt x = x)
    {p : List (point K)} (hp : Regular p) (hq : 3 < p.length)
    {d : Driver} {n : Nat} {cyc fr : List Nat} (i0 i1 i2 : Nat)
    (I : Inv p 3 d n [⟨i2, 1, 0⟩, ⟨i0, 0, 2⟩, ⟨i1, 2, 1⟩] cyc fr) :
    ∃ (d' : Driver) (D n' : Nat) (H' : List BEdge) (cyc' fr' : List Nat),
      (∀ depth, D ≤ depth → processPoint sqrt depth p ((3 : Nat) : Int) d = Except.ok d') ∧
      Inv p (3 + 1) d' n' H' cyc' fr' := by
  have G := I.geo
  have xl : ∀ {i j : Nat}, i < j → j ≤ 3 → (ptAt p (i : Int)).x < (ptAt p (j : Int)).x :=
    fun hij hj => hp.xlt hij (by omega)
  have m2 : (⟨i2, 1, 0⟩ : BEdge) ∈ [(⟨i2, 1, 0⟩ : BEdge), ⟨i0, 0, 2⟩, ⟨i1, 2, 1⟩] := by simp
  have m0 : (⟨i0, 0, 2⟩ : BEdge) ∈ [(⟨i2, 1, 0⟩ : BEdge), ⟨i0, 0, 2⟩, ⟨i1, 2, 1⟩] := by simp
  have m1 : (⟨i1, 2, 1⟩ : BEdge) ∈ [(⟨i2, 1, 0⟩ : BEdge), ⟨i0, 0, 2⟩, ⟨i1, 2, 1⟩] := by simp
  have turn : sees p 3 ⟨i2, 1, 0⟩ → sees p 3 ⟨i0, 0, 2⟩ → False := by
    intro s2 s0
    unfold sees at s2 s0
    exact seen_turn (xl (i := 0) (j := 1) (by omega) (by omega))
      (xl (i := 0) (j := 2) (by omega) (by omega)) (xl (i := 0) (j := 3) (by omega) (by omega))
      (G.left _ m2 2 (by omega)) s2 s0
  have pivot : ¬ sees p 3 ⟨i0, 0, 2⟩ → ¬ sees p 3 ⟨i1, 2, 1⟩ → False := by
    intro s0 s1
    exact seen_pivot (xl (i := 0) (j := 2) (by omega) (by omega))
      (xl (i := 1) (j := 2) (by omega) (by omega)) (xl (i := 2) (j := 3) (by omega) (by omega))
      (G.left _ m0 1 (by omega)) (G.unseen_pos hp (le_refl _) hq m0 s0)
      (G.unseen_pos hp (le_refl _) hq m1 s1)
  by_cases s1 : sees p 3 ⟨i1, 2, 1⟩
  · by_cases s0 : sees p 3 ⟨i0, 0, 2⟩
    · have s2 : ¬ sees p 3 ⟨i2, 1, 0⟩ := fun h => turn h s0
      exact step_arc sqrt hsq hp (le_refl _) hq [] [⟨i2, 1, 0⟩] [] [⟨i0, 0, 2⟩, ⟨i1, 2, 1⟩] I
        (by simp) (by simp) (by simp)
        (by
          intro t ht
          simp only [List.mem_cons, List.mem_singleton, List.not_mem_nil, or_false] at ht
          rcases ht with h | h <;> subst h <;> assumption)
        (by
          intro t ht
          simp only [List.append_nil, List.mem_singleton] at ht
          subst ht
          exact s2)
        (by
          intro t ht
          simp only [List.mem_singleton] at ht
          subst ht
          simp)
        (by simp)
    · by_cases s2 : sees p 3 ⟨i2, 1, 0⟩
      · exact step_arc sqrt hsq hp (le_refl _) hq [⟨i2, 1, 0⟩] [] [⟨i0, 0, 2⟩] [⟨i1, 2, 1⟩] I
          (by simp) (by simp)
          (by
            intro t ht
            simp only [List.mem_singleton] at ht
            subst ht
            exact s2)
          (by
            intro t ht
            simp only [List.mem_singleton] at ht
            subst ht
            exact s1)
          (by
            intro t ht
            simp only [List.nil_append, List.mem_singleton] at ht
            subst ht
            exact s0)
          (by simp)
          (by
            intro t ht
            simp only [List.mem_singleton] at ht
            subst ht
            simp)
      · exact step_arc sqrt hsq hp (le_refl _) hq [] [⟨i2, 1, 0⟩] [⟨i0, 0, 2⟩] [⟨i1, 2, 1⟩] I
          (by simp) (by simp) (by simp)
          (by
            intro t ht
            simp only [List.mem_singleton] at ht
            subst ht
            exact s1)
          (by
            intro t ht
            simp only [List.cons_append, List.nil_append, List.mem_cons, List.mem_singleton,
              List.not_mem_nil, or_false] at ht
            rcases ht with h | h <;> subst h <;> assumption)
          (by
            intro t ht
            simp only [List.mem_singleton] at ht
            subst ht
            simp)
          (by
            intro t ht
            simp only [List.mem_singleton] at ht
            subst ht
            simp)
  · have s0 : sees p 3 ⟨i0, 0, 2⟩ := by
      by_contra h
      exact pivot h s1
    have s2 : ¬ sees p 3 ⟨i2, 1, 0⟩ := fun h => turn h s0
    have hvis : ∀ t ∈ [(⟨i2, 1, 0⟩ : BEdge), ⟨i0, 0, 2⟩, ⟨i1, 2, 1⟩], VisExact p 3 t := by
      intro t ht
      obtain ⟨b1, b2, b3⟩ := G.bound t ht
      exact hp.visExact hq b1 b2 b3
    have hn : n = 3 := by
      have := I.cnt
      simp only [List.length_cons, List.length_nil] at this
      omega
    obtain ⟨d', D, nb, vb, ft, fb, cmid, fr', run, C', hvb, len', hl'⟩ :=
      caseR sqrt hsq p d n i0 0 2 ⟨i1, 2, 1⟩ ⟨i2, 1, 0⟩ cyc fr I.comb (I.free_ne hq)
        rfl rfl rfl hvis s0 s1 s2 (by rw [I.elen]; omega)
    simp only at hvb
    subst hvb
    have Gr : Geo p 3 ([] ++ ([(⟨i1, 2, 1⟩ : BEdge), ⟨i2, 1, 0⟩] ++ [⟨i0, 0, 2⟩])) := by
      refine ⟨by simp, ?_, ?_, by simp, ?_⟩
      · intro t ht
        exact G.bound t (by
          simp only [List.nil_append, List.cons_append, List.mem_cons, List.mem_singleton,
            List.not_mem_nil, or_false] at ht ⊢
          tauto)
      · intro t ht
        exact G.left t (by
          simp only [List.nil_append, List.cons_append, List.mem_cons, List.mem_singleton,
            List.not_mem_nil, or_false] at ht ⊢
          tauto)
      · intro t t' h1 h2
        simp only [List.nil_append, List.cons_append, List.head?_cons, Option.some.injEq,
          List.getLast?_cons_cons, List.getLast?_singleton] at h1 h2
        subst h1 h2
        rfl
    have G' := @geo_new _ _ _ _ hp (le_refl _) hq _ _ _ Gr (by simp) (by simp) (by simp)
      (by
        intro t ht
        simp only [List.mem_singleton] at ht
        subst ht
        exact s0)
      (by
        intro t ht
        simp only [List.mem_cons, List.mem_singleton, List.not_mem_nil, or_false] at ht
        rcases ht with h | h <;> subst h <;> assumption)
      n nb 2 0
      (by
        intro t ht
        simp only [List.head?_cons, Option.some.injEq] at ht
        rw [← ht])
      (by
        intro t ht
        simp only [List.getLast?_cons_cons, List.getLast?_singleton, Option.some.injEq] at ht
        rw [← ht])
    refine ⟨d', D, _, _, _, fr', run, ⟨C', G', ?_, ?_, ?_, ?_, ?_⟩⟩
    · refine Or.inl ⟨[⟨n, 3, 2⟩, ⟨i1, 2, 1⟩, ⟨i2, 1, 0⟩], [⟨nb, 0, 3⟩], rfl, ?_, ?_, ?_⟩
      · intro t ht
        simp only [List.mem_cons, List.mem_singleton, List.not_mem_nil, or_false] at ht
        rcases ht with h | h | h <;> subst h <;> simp
      · intro t ht
        simp only [List.mem_singleton] at ht
        subst ht
        simp
      · intro t ht
        simp only [List.cons_append, List.head?_cons, Option.some.injEq] at ht
        rw [← ht]
    · simp only [List.length_cons, List.length_append, List.length_nil]
      omega
    · simp only [List.length_cons, List.length_append, List.length_nil]
      omega
    · rw [len', I.elen]
    · rw [hl', I.slots]

/-- The invariant is kept by the loop body. -/
theorem step_inv (hsq : ∀ x, 0 ≤ x → 0 ≤ sqrt x ∧ sqrt x * sqrt x = x)
    {p : List (point K)} (hp : Regular p) {m : Nat} (hm : 3 ≤ m) (hq : m < p.length)
    {d : Driver} {n : Nat} {H : List BEdge} {cyc fr : List Nat}
    (I : Inv p m d n H cyc fr) :
    ∃ (d' : Driver) (D n' : Nat) (H' : List BEdge) (cyc' fr' : List Nat),
      (∀ depth, D ≤ depth → processPoint sqrt depth p (m : Int) d = Except.ok d') ∧
      Inv p (m + 1) d' n' H' cyc' fr' := by
  rcases I.shape with ⟨Lw, Rw, rfl, V⟩ | ⟨rfl, i0, i1, i2, rfl⟩
  · obtain ⟨pre, Lm, Rm, suf, rfl, rfl, hspre, hssuf, hnm, hmid, hps⟩ :=
      arc_of_valley hp hq I.geo V
    have e : pre ++ Lm ++ (Rm ++ suf) = pre ++ ((Lm ++ Rm) ++ suf) := by
      simp only [List.append_assoc]
    rw [e] at I
    exact step_arc sqrt hsq hp hm hq pre Lm Rm suf I hmid hps hspre hssuf hnm
      (fun t ht => V.1 t (List.mem_append_right _ ht))
      (fun t ht => V.2.1 t (List.mem_append_left _ ht))
  · exact step_else sqrt hsq hp hq i0 i1 i2 I

end S

end Tipper

namespace Tipper

section S

variable {K : Type} [LinearOrderedField K]

variable (sqrt : K → K)

/-- The invariant holds after the seed and after every point, and the run
reaches every point when the recursion depth of `swap` is large enough. -/
theorem run_inv (hsq : ∀ x, 0 ≤ x → 0 ≤ sqrt x ∧ sqrt x * sqrt x = x)
    {p : List (point K)} (hp : Regular p) (junk : Nat → item) (hN : 3 ≤ p.length) :
    ∀ k, 3 + k ≤ p.length →
      ∃ (d : Driver) (D n : Nat) (H : List BEdge) (cyc fr : List Nat),
        (∀ depth, D ≤ depth → run sqrt depth junk (p.length : Int) p k = Except.ok d) ∧
        Inv p (3 + k) d n H cyc fr := by
  intro k
  induction k with
  | zero =>
    intro _
    obtain ⟨m0, hm0⟩ : ∃ m0, p.length = m0 + 3 := ⟨p.length - 3, by omega⟩
    obtain ⟨d, v1, v2, cyc, fr, hs, I⟩ := seed_inv hp junk m0 hm0
    refine ⟨d, 0, 3, _, cyc, fr, ?_, I⟩
    intro depth _
    rw [hm0]
    exact hs
  | succ k ih =>
    intro hk
    obtain ⟨d, D, n, H, cyc, fr, hrun, I⟩ := ih (by omega)
    obtain ⟨d', D', n', H', cyc', fr', hstep, I'⟩ :=
      step_inv sqrt hsq hp (by omega) (by omega) I
    refine ⟨d', max D D', n', H', cyc', fr', ?_, I'⟩
    intro depth hdep
    have e : (3 : Int) + (k : Int) = ((3 + k : Nat) : Int) := by push_cast; rfl
    simp only [run, hrun depth (le_trans (le_max_left _ _) hdep), bind, Except.bind]
    rw [e]
    exact hstep depth (le_trans (le_max_right _ _) hdep)

end S

end Tipper
namespace Tipper

theorem hullWalk_succ (l : cyclist) (k : Nat) (pos : Int) :
    hullWalk l (k + 1) pos =
      ((l.getEdge pos).toExcept >>= fun r =>
        (l.getNextPos pos).toExcept >>= fun nx =>
          hullWalk l k nx.2 >>= fun rest => pure (r.2 :: rest)) := rfl

theorem walk_suffix {l : cyclist} {cyc fr : List Nat} (R : l.Rep cyc fr) :
    ∀ (c2 : List Nat) (H2 : List BEdge) (c1 : List Nat), c1 ++ c2 = cyc →
      HullData l c2 H2 → ∀ s, c2.head? = some s →
      hullWalk l c2.length (s : Int) = Except.ok (H2.map fun t => (t.id : Int)) := by
  intro c2
  induction c2 with
  | nil => intro H2 c1 _ _ s hs; simp at hs
  | cons s0 c2' ih =>
    intro H2 c1 hc hd s hs
    simp only [List.head?_cons, Option.some.injEq] at hs
    subst hs
    obtain ⟨t, H2', rfl⟩ : ∃ t H2', H2 = t :: H2' := by
      cases H2 with
      | nil => simp [HullData] at hd
      | cons t H2' => exact ⟨t, H2', rfl⟩
    simp only [HullData, List.forall₂_cons] at hd
    have hmem : s0 ∈ cyc := by rw [← hc]; simp
    obtain ⟨it, hit, hge⟩ := R.getEdge hmem
    have hdata : it.data = (t.id : Int) := by
      have := hd.1
      rw [hit] at this
      simpa using this
    cases c2' with
    | nil =>
      have hH : H2' = [] := by
        have := hd.2
        cases H2' with
        | nil => rfl
        | cons a b => simp at this
      subst hH
      obtain ⟨a, ha⟩ : ∃ a, cyc.head? = some a := by
        cases cyc with
        | nil => simp at hmem
        | cons a b => exact ⟨a, rfl⟩
      have hl : l.link s0 a := R.close a s0 ha (by rw [← hc, List.getLast?_concat])
      simp only [List.length_singleton, hullWalk, hge, R.getNextPos_link hmem hl, Run.toExcept,
        bind, Except.bind, pure, Except.pure, hdata, List.map_cons, List.map_nil]
    | cons s1 c3 =>
      have hl : l.link s0 s1 := by
        have := R.chain
        rw [← hc] at this
        have := this.right_of_append
        rw [List.chain'_cons] at this
        exact this.1
      have := ih H2' (c1 ++ [s0]) (by rw [← hc]; simp) hd.2 s1 rfl
      rw [List.length_cons, hullWalk_succ, hge, R.getNextPos_link hmem hl]
      simp only [Run.toExcept, bind, Except.bind]
      rw [this]
      simp only [pure, Except.pure, hdata, List.map_cons]

/-- Reading the hull list from the first slot of its cycle gives the edges of
the boundary. -/
theorem walk_of_rep {l : cyclist} {cyc fr : List Nat} (R : l.Rep cyc fr) {H : List BEdge}
    (hd : HullData l cyc H) {s : Nat} (hs : cyc.head? = some s) :
    hullWalk l l.num.toNat (s : Int) = Except.ok (H.map fun t => (t.id : Int)) := by
  have := walk_suffix R cyc H [] rfl hd s hs
  rw [R.num, Int.toNat_ofNat]
  exact this

/-- In a closed chain the entry after entry `j`, cyclically, starts where entry
`j` ends. -/
theorem chain_cyclic {H : List BEdge}
    (hc : List.Chain' (fun t t' : BEdge => t.b = t'.a) H)
    (hcl : ∀ t t', H.head? = some t → H.getLast? = some t' → t'.b = t.a)
    {j : Nat} (hj : j < H.length) :
    ∃ t t', H[j]? = some t ∧ H[(j + 1) % H.length]? = some t' ∧ t.b = t'.a := by
  by_cases h1 : j + 1 < H.length
  · rw [Nat.mod_eq_of_lt h1]
    refine ⟨H[j], H[j + 1], List.getElem?_eq_getElem hj, List.getElem?_eq_getElem h1, ?_⟩
    have := List.chain'_iff_get.mp hc j (by omega)
    simpa using this
  · have e : j + 1 = H.length := by omega
    rw [e, Nat.mod_self]
    have h0 : 0 < H.length := by omega
    refine ⟨H[j], H[0], List.getElem?_eq_getElem hj, List.getElem?_eq_getElem h0, ?_⟩
    refine hcl H[0] H[j] ?_ ?_
    · cases H with
      | nil => simp at h0
      | cons a b => rfl
    · rw [List.getLast?_eq_getElem?]
      have : H.length - 1 = j := by omega
      rw [this]
      exact List.getElem?_eq_getElem hj

end Tipper

namespace Tipper

section S

variable {K : Type} [LinearOrderedField K]

variable (sqrt : K → K)

/-- The reference positions of a state that satisfies the invariant: the upper
one holds the first boundary edge, the lower one the last, and the upper one
follows the lower one in the hull list. -/
theorem Inv.refs {p : List (point K)} {m : Nat} {d : Driver} {n : Nat} {H : List BEdge}
    {cyc fr : List Nat} (I : Inv p m d n H cyc fr) :
    ∃ (tu tl : BEdge) (xu xl : edge), H.head? = some tu ∧ H.getLast? = some tl ∧
      d.hull.getNextPos d.lower_hull_pos = Run.ok d.hull d.upper_hull_pos ∧
      d.hullEdge d.upper_hull_pos = Except.ok (tu.id : Int) ∧
      d.hullEdge d.lower_hull_pos = Except.ok (tl.id : Int) ∧
      d.edges[tu.id]? = some xu ∧ d.edges[tl.id]? = some xl ∧
      xu.Bnd tu.a tu.b ∧ xl.Bnd tl.a tl.b ∧ tl.b = tu.a := by
  have hne := I.geo.ne
  have hlen := I.comb.dat.length_eq
  obtain ⟨tu, H', rfl⟩ := List.exists_cons_of_ne_nil hne
  obtain ⟨su, cyc', rfl⟩ : ∃ su cyc', cyc = su :: cyc' := by
    cases cyc with
    | nil => simp at hlen
    | cons a b => exact ⟨a, b, rfl⟩
  obtain ⟨Hi, tl, hH⟩ : ∃ Hi tl, tu :: H' = Hi ++ [tl] :=
    ⟨_, _, (List.dropLast_append_getLast (List.cons_ne_nil _ _)).symm⟩
  obtain ⟨ci, sl, hc⟩ : ∃ ci sl, su :: cyc' = ci ++ [sl] :=
    ⟨_, _, (List.dropLast_append_getLast (List.cons_ne_nil _ _)).symm⟩
  have hup := I.comb.up su rfl
  have hlo := I.comb.lo sl (by rw [hc, List.getLast?_concat])
  have hdu : (d.hull.ejs[su]?).map item.data = some (tu.id : Int) := by
    have := I.comb.dat
    simp only [HullData, List.forall₂_cons] at this
    exact this.1
  have hdl : (d.hull.ejs[sl]?).map item.data = some (tl.id : Int) := by
    have := I.comb.dat
    rw [hc, hH] at this
    exact (HullData.concat_iff.mp this).2
  have hml : sl ∈ su :: cyc' := by rw [hc]; simp
  have hmt : tl ∈ tu :: H' := by rw [hH]; simp
  obtain ⟨-, xu, hxu, bu⟩ := I.comb.tab.bnd tu (List.mem_cons_self _ _)
  obtain ⟨-, xl, hxl, bl⟩ := I.comb.tab.bnd tl hmt
  refine ⟨tu, tl, xu, xl, rfl, by rw [hH, List.getLast?_concat], ?_, ?_, ?_, hxu, hxl, bu, bl, ?_⟩
  · rw [hlo, hup]
    exact I.comb.rep.getNextPos_link hml
      (I.comb.rep.close su sl rfl (by rw [hc, List.getLast?_concat]))
  · rw [hup]
    exact hullEdge_of I.comb.rep (List.mem_cons_self _ _) hdu
  · rw [hlo]
    exact hullEdge_of I.comb.rep hml hdl
  · exact I.geo.close tu tl rfl (by rw [hH, List.getLast?_concat])

/-- C21 (as amended), over exact arithmetic.  Let the points be sorted strictly
by `x` with no three on a line, let `visible` answer as the exact side test
for every edge between two points and every later point (`Regular`; this is
so when any two points are at least `mindistance = 1e-7` apart in `x` and in
`y`), and let `sqrt` be the exact square root.  Then the seed and every pass of the
loop of `triangulate` return (when the recursion depth allowed to `swap` is
large enough), and after the seed and after each point the hull list, read from
`upper_hull_pos` in `getNextPos` order, gives edges `e_0 .. e_{k-1}` with
`e_j.to = e_{(j+1) mod k}.from`, every one with `ref = ret = -1`, and no edge
index occurs in two slots. -/
theorem hull_closed_polygon (hsq : ∀ x, 0 ≤ x → 0 ≤ sqrt x ∧ sqrt x * sqrt x = x)
    (p : List (point K)) (hp : Regular p) (junk : Nat → item) (hN : 3 ≤ p.length)
    (k : Nat) (hk : 3 + k ≤ p.length) :
    ∃ (d : Driver) (D : Nat) (ids : List Nat),
      (∀ depth, D ≤ depth → run sqrt depth junk (p.length : Int) p k = Except.ok d) ∧
      hullWalk d.hull d.hull.num.toNat d.upper_hull_pos =
        Except.ok (List.map (fun i : Nat => (i : Int)) ids) ∧
      ids.Nodup ∧
      ∀ j, j < ids.length → ∃ (a b : Nat) (x y : edge),
        ids[j]? = some a ∧ ids[(j + 1) % ids.length]? = some b ∧
        d.edges[a]? = some x ∧ d.edges[b]? = some y ∧
        x.to_ = y.from_ ∧ x.ref = -1 ∧ x.ret = -1 := by
  obtain ⟨d, D, n, H, cyc, fr, hrun, I⟩ := run_inv sqrt hsq hp junk hN k hk
  have hlen := I.comb.dat.length_eq
  obtain ⟨su, hsu⟩ : ∃ su, cyc.head? = some su := by
    cases cyc with
    | nil =>
      exfalso
      exact I.geo.ne (List.length_eq_zero.mp hlen.symm)
    | cons a b => exact ⟨a, rfl⟩
  refine ⟨d, D, H.map BEdge.id, hrun, ?_, I.comb.tab.nodup, ?_⟩
  · rw [I.comb.up su hsu, walk_of_rep I.comb.rep I.comb.dat hsu, List.map_map]
    rfl
  · intro j hj
    rw [List.length_map] at hj ⊢
    obtain ⟨t, t', h1, h2, h3⟩ := chain_cyclic I.geo.chain I.geo.close hj
    obtain ⟨-, x, hx, bx⟩ := I.comb.tab.bnd t (List.mem_iff_getElem?.mpr ⟨_, h1⟩)
    obtain ⟨-, y, hy, by'⟩ := I.comb.tab.bnd t' (List.mem_iff_getElem?.mpr ⟨_, h2⟩)
    refine ⟨t.id, t'.id, x, y, ?_, ?_, hx, hy, ?_, bx.2.2.1, bx.2.2.2.1⟩
    · rw [List.getElem?_map, h1]; rfl
    · rw [List.getElem?_map, h2]; rfl
    · rw [bx.2.1, by'.1, h3]

/-- C38 (as amended), over exact arithmetic.  Let the points be sorted strictly
by `x` with no three on a line, let `visible` answer as the exact side test
for every edge between two points and every later point (`Regular`; this is
so when any two points are at least `mindistance = 1e-7` apart in `x` and in
`y`), and let `sqrt` be the exact square root.  Then after the seed and after each
completed pass of the loop of `triangulate`, `getNextPos(lower_hull_pos)` is
`upper_hull_pos`; after the seed the hull edges at the two positions are the
edges 1 and 2, and edge 1 ends where edge 2 starts; after point `i = 2 + k` the
edge at `lower_hull_pos` ends at `i` and the edge at `upper_hull_pos` starts at
`i`. -/
theorem reference_positions (hsq : ∀ x, 0 ≤ x → 0 ≤ sqrt x ∧ sqrt x * sqrt x = x)
    (p : List (point K)) (hp : Regular p) (junk : Nat → item) (hN : 3 ≤ p.length)
    (k : Nat) (hk : 3 + k ≤ p.length) :
    ∃ (d : Driver) (D : Nat) (hl hu : Int) (xl xu : edge),
      (∀ depth, D ≤ depth → run sqrt depth junk (p.length : Int) p k = Except.ok d) ∧
      d.hull.getNextPos d.lower_hull_pos = Run.ok d.hull d.upper_hull_pos ∧
      d.hullEdge d.lower_hull_pos = Except.ok hl ∧
      d.hullEdge d.upper_hull_pos = Except.ok hu ∧
      rde d.edges hl = Except.ok xl ∧ rde d.edges hu = Except.ok xu ∧
      (k = 0 → hl = 1 ∧ hu = 2 ∧ xl.to_ = xu.from_) ∧
      (0 < k → xl.to_ = 2 + (k : Int) ∧ xu.from_ = 2 + (k : Int)) := by
  cases k with
  | zero =>
    obtain ⟨m0, hm0⟩ : ∃ m0, p.length = m0 + 3 := ⟨p.length - 3, by omega⟩
    obtain ⟨d, v1, v2, cyc, fr, hs, I⟩ := seed_inv hp junk m0 hm0
    obtain ⟨tu, tl, xu, xl, h1, h2, h3, h4, h5, h6, h7, h8, h9, h10⟩ := I.refs
    simp only [List.head?_cons, Option.some.injEq, List.getLast?_cons_cons,
      List.getLast?_singleton] at h1 h2
    subst h1 h2
    refine ⟨d, 0, _, _, xl, xu, ?_, h3, h5, h4, rde_get h7, rde_get h6, ?_, ?_⟩
    · intro depth _
      rw [hm0]
      exact hs
    · intro _
      refine ⟨rfl, rfl, ?_⟩
      rw [h9.2.1, h8.1]
    · intro h
      omega
  | succ k =>
    obtain ⟨d, D, n, H, cyc, fr, hrun, I⟩ := run_inv sqrt hsq hp junk hN (k + 1) hk
    obtain ⟨tu, tl, xu, xl, h1, h2, h3, h4, h5, h6, h7, h8, h9, h10⟩ := I.refs
    have hpiv : tu.a + 1 = 3 + (k + 1) := by
      rcases I.shape with ⟨Lw, Rw, rfl, V⟩ | ⟨h, -⟩
      · exact V.2.2 tu h1
      · omega
    refine ⟨d, D, _, _, xl, xu, hrun, h3, h5, h4, rde_get h7, rde_get h6, ?_, ?_⟩
    · intro h
      omega
    · intro _
      rw [h9.2.1, h8.1, h10]
      have : tu.a = 2 + (k + 1) := by omega
      rw [this]
      push_cast
      exact ⟨rfl, rfl⟩

end S

end Tipper

namespace Tipper

section S

variable {K : Type} [LinearOrderedField K]

variable (sqrt : K → K)

/-- The two neighbours named by a resolved side of an entry of a consistent
triangulation are entries in use. -/
theorem Table.tri_lt {p : List (point K)} {e : List edge} {ne : Nat} {B : List BEdge}
    (T : Table p e ne B) {i : Int} {x : edge} {s t : Int} (h : Tri e p i x s t) :
    (0 ≤ (x.pairAt s).1 ∧ (x.pairAt s).1 < ne) ∧ (0 ≤ (x.pairAt s).2 ∧ (x.pairAt s).2 < ne) ∧
      s ≠ t := by
  obtain ⟨l, ea, eb, ps, pt, pl, ha, hb, ja, jb, -, -, rs, rt, rl, ho⟩ := h
  have hs := rdpE_nonneg rs
  have ht := rdpE_nonneg rt
  have hl := rdpE_nonneg rl
  have key : ∀ (k : Int) (y : edge) (u v : Int), rde e k = Except.ok y → y.joins u v →
      0 ≤ u → 0 ≤ v → 0 ≤ k ∧ k < ne := by
    intro k y u v hk hj hu hv
    obtain ⟨n, rfl, hn⟩ := rde_cast hk
    refine ⟨Int.natCast_nonneg n, ?_⟩
    by_contra hc
    have hge : ne ≤ n := by omega
    have := T.fresh n y hn hge
    subst this
    rcases hj with ⟨h1, -⟩ | ⟨h1, -⟩
    · simp only [edge.new] at h1
      omega
    · simp only [edge.new] at h1
      omega
  exact ⟨key _ ea s l ha ja hs hl, key _ eb t l hb jb ht hl, (tri_ne rs rt rl ho).1⟩

/-- The neighbour members of the entries in use of a consistent
triangulation. -/
theorem Table.nbrs_lt {p : List (point K)} {e : List edge} {ne : Nat} {B : List BEdge}
    (T : Table p e ne B) {j : Nat} {x : edge} (hx : e[j]? = some x) (hj : j < ne) :
    (0 ≤ x.lef ∧ x.lef < ne ∧ 0 ≤ x.let_ ∧ x.let_ < ne) ∧
    ((0 ≤ x.ref ∧ x.ref < ne ∧ 0 ≤ x.ret ∧ x.ret < ne) ∨ (x.ref = -1 ∧ x.ret = -1)) ∧
    ((x.ref = -1 ∧ x.ret = -1) ↔ j ∈ B.map BEdge.id) := by
  obtain ⟨v1, v2⟩ := T.valid j x hx
  have pl : x.pairAt x.from_ = (x.lef, x.let_) := by simp [edge.pairAt]
  by_cases hB : j ∈ B.map BEdge.id
  · obtain ⟨t, ht, rfl⟩ := List.mem_map.mp hB
    obtain ⟨-, y, hy, by'⟩ := T.bnd t ht
    have := get_inj hx hy
    subst this
    obtain ⟨b1, b2, b3, b4, b5, b6⟩ := by'
    rcases v1 with h | h
    · rw [pl] at h
      simp only [Prod.mk.injEq] at h
      exact absurd h.1 b5
    · obtain ⟨⟨h1, h2⟩, ⟨h3, h4⟩, -⟩ := T.tri_lt h
      rw [pl] at h1 h2 h3 h4
      exact ⟨⟨h1, h2, h3, h4⟩, Or.inr ⟨b3, b4⟩, fun _ => hB, fun _ => ⟨b3, b4⟩⟩
  · have hf := T.full j x hx hj hB
    obtain ⟨f1, f2, f3, f4⟩ := hf
    rcases v1 with h | h
    · rw [pl] at h
      simp only [Prod.mk.injEq] at h
      exact absurd h.1 f1
    · obtain ⟨⟨h1, h2⟩, ⟨h3, h4⟩, hne⟩ := T.tri_lt h
      rw [pl] at h1 h2 h3 h4
      have pr : x.pairAt x.to_ = (x.ret, x.ref) := by
        unfold edge.pairAt
        rw [if_neg hne]
      rcases v2 with g | g
      · rw [pr] at g
        simp only [Prod.mk.injEq] at g
        exact absurd g.2 f3
      · obtain ⟨⟨g1, g2⟩, ⟨g3, g4⟩, -⟩ := T.tri_lt g
        rw [pr] at g1 g2 g3 g4
        exact ⟨⟨h1, h2, h3, h4⟩, Or.inl ⟨g3, g4, g1, g2⟩,
          fun hh => absurd hh.1 f3, fun hh => absurd hh hB⟩

theorem triangulate_eq (depth : Nat) (junk : Nat → item) (p : List (point K)) (k : Nat)
    (hk : p.length = 3 + k) :
    triangulate sqrt depth junk (p.length : Int) p = run sqrt depth junk (p.length : Int) p k := by
  unfold triangulate
  have : ((p.length : Int) - 3).toNat = k := by omega
  rw [this]

/-- C22 (as amended), over exact arithmetic.  Let the `n >= 3` points be sorted strictly
by `x` with no three on a line, let `visible` answer as the exact side test
for every edge between two points and every later point (`Regular`; this is
so when any two points are at least `mindistance = 1e-7` apart in `x` and in
`y`), and let `sqrt` be the exact square root.  Then `triangulate` returns
(when the recursion depth allowed to `swap` is large enough), and every created
edge (index below `next_edge`) has `lef` and `let` set to indices of created
edges, and its right side is either fully resolved (`ref` and `ret` indices of
created edges) or fully unresolved (`ref = ret = -1`), the latter exactly for
the edges on the hull list. -/
theorem neighbours_resolved (hsq : ∀ x, 0 ≤ x → 0 ≤ sqrt x ∧ sqrt x * sqrt x = x)
    (p : List (point K)) (hp : Regular p) (junk : Nat → item) (hN : 3 ≤ p.length) :
    ∃ (d : Driver) (D ne : Nat) (ids : List Nat),
      (∀ depth, D ≤ depth → triangulate sqrt depth junk (p.length : Int) p = Except.ok d) ∧
      hullWalk d.hull d.hull.num.toNat d.upper_hull_pos =
        Except.ok (List.map (fun i : Nat => (i : Int)) ids) ∧
      d.next_edge = (ne : Int) ∧ ne ≤ d.edges.length ∧
      ∀ (j : Nat) (x : edge), j < ne → d.edges[j]? = some x →
        (0 ≤ x.lef ∧ x.lef < ne ∧ 0 ≤ x.let_ ∧ x.let_ < ne) ∧
        ((0 ≤ x.ref ∧ x.ref < ne ∧ 0 ≤ x.ret ∧ x.ret < ne) ∨ (x.ref = -1 ∧ x.ret = -1)) ∧
        ((x.ref = -1 ∧ x.ret = -1) ↔ j ∈ ids) := by
  obtain ⟨k, hk⟩ : ∃ k, p.length = 3 + k := ⟨p.length - 3, by omega⟩
  obtain ⟨d, D, n, H, cyc, fr, hrun, I⟩ := run_inv sqrt hsq hp junk hN k (by omega)
  have hlen := I.comb.dat.length_eq
  obtain ⟨su, hsu⟩ : ∃ su, cyc.head? = some su := by
    cases cyc with
    | nil =>
      exfalso
      exact I.geo.ne (List.length_eq_zero.mp hlen.symm)
    | cons a b => exact ⟨a, rfl⟩
  refine ⟨d, D, n, H.map BEdge.id, ?_, ?_, I.comb.ne, ?_, ?_⟩
  · intro depth hdep
    rw [triangulate_eq sqrt depth junk p k hk]
    exact hrun depth hdep
  · rw [I.comb.up su hsu, walk_of_rep I.comb.rep I.comb.dat hsu, List.map_map]
    rfl
  · have := I.cnt
    have := I.elen
    have := I.hle
    omega
  · intro j x hj hx
    exact I.comb.tab.nbrs_lt hx hj

end S

end Tipper

namespace Tipper

theorem countP_prefix {α : Type} (P : α → Bool) (e : List α) (n : Nat) (hn : n ≤ e.length)
    (h : ∀ (j : Nat) (x : α), e[j]? = some x → (P x = true ↔ j < n)) : e.countP P = n := by
  have e1 : e = e.take n ++ e.drop n := (List.take_append_drop n e).symm
  rw [e1, List.countP_append]
  have h1 : (e.take n).countP P = (e.take n).length := by
    rw [List.countP_eq_length]
    intro x hx
    obtain ⟨j, hj⟩ := List.mem_iff_getElem?.mp hx
    have hjn : j < n := by
      have := (List.getElem?_eq_some_iff.mp hj).1
      rw [List.length_take] at this
      omega
    rw [List.getElem?_take_of_lt hjn] at hj
    exact (h j x hj).mpr hjn
  have h2 : (e.drop n).countP P = 0 := by
    rw [List.countP_eq_zero]
    intro x hx
    obtain ⟨j, hj⟩ := List.mem_iff_getElem?.mp hx
    rw [List.getElem?_drop] at hj
    intro hp
    have := (h (n + j) x hj).mp hp
    omega
  rw [h1, h2, List.length_take]
  omega

theorem countP_index {α : Type} (P : α → Bool) :
    ∀ (e : List α) (ids : List Nat), ids.Nodup → (∀ i ∈ ids, i < e.length) →
      (∀ (j : Nat) (x : α), e[j]? = some x → (P x = true ↔ j ∈ ids)) →
      e.countP P = ids.length := by
  intro e
  induction e using List.reverseRecOn with
  | nil =>
    intro ids _ hb _
    cases ids with
    | nil => rfl
    | cons a l =>
      have := hb a (List.mem_cons_self _ _)
      simp at this
  | append_singleton e' x ih =>
    intro ids hnd hb h
    have hx := h e'.length x (by simp)
    have ih' := ih (ids.erase e'.length) (hnd.erase _)
      (by
        intro i hi
        have h1 := hb i (List.mem_of_mem_erase hi)
        have h2 : i ≠ e'.length := fun hh => by
          rw [hh] at hi
          exact (List.Nodup.not_mem_erase hnd) hi
        simp only [List.length_append, List.length_singleton] at h1
        omega)
      (by
        intro j y hy
        have hj : j < e'.length := (List.getElem?_eq_some_iff.mp hy).1
        have := h j y (by rw [List.getElem?_append_left hj]; exact hy)
        rw [this, List.Nodup.mem_erase_iff hnd]
        constructor
        · intro hh
          exact ⟨by omega, hh⟩
        · intro hh
          exact hh.2)
    rw [List.countP_append, ih']
    by_cases hp : P x = true
    · have hm := hx.mp hp
      rw [List.length_erase_of_mem hm]
      simp only [List.countP_cons, List.countP_nil, hp, if_true]
      have : 0 < ids.length := List.length_pos_of_mem hm
      omega
    · have hm : e'.length ∉ ids := fun hh => hp (hx.mpr hh)
      rw [List.erase_of_not_mem hm]
      simp [hp]

section S

variable {K : Type} [LinearOrderedField K]

variable (sqrt : K → K)

/-- The entries in use of a consistent triangulation are the entries below
`ne`, and those with the right side unresolved are the boundary edges. -/
theorem Table.counts {p : List (point K)} {e : List edge} {ne : Nat} {B : List BEdge}
    (T : Table p e ne B) (hne : ne ≤ e.length) :
    usedEdges e = ne ∧ boundaryEdges e = B.length := by
  have used : ∀ (j : Nat) (x : edge), e[j]? = some x → (x.from_ ≠ -1 ↔ j < ne) := by
    intro j x hx
    constructor
    · intro hf
      by_contra hc
      have := T.fresh j x hx (by omega)
      subst this
      exact hf rfl
    · intro hj hf
      obtain ⟨v1, -⟩ := T.valid j x hx
      have pl : x.pairAt x.from_ = (x.lef, x.let_) := by simp [edge.pairAt]
      have hl : x.lef ≠ -1 := by
        by_cases hB : j ∈ B.map BEdge.id
        · obtain ⟨t, ht, rfl⟩ := List.mem_map.mp hB
          obtain ⟨-, y, hy, by'⟩ := T.bnd t ht
          have := get_inj hx hy
          subst this
          exact by'.2.2.2.2.1
        · exact (T.full j x hx hj hB).1
      rcases v1 with h | h
      · rw [pl] at h
        simp only [Prod.mk.injEq] at h
        exact hl h.1
      · obtain ⟨l, ea, eb, ps, pt, pl', -, -, -, -, -, -, rs, -⟩ := h
        have := rdpE_nonneg rs
        omega
  refine ⟨?_, ?_⟩
  · unfold usedEdges
    refine countP_prefix _ e ne hne ?_
    intro j x hx
    rw [decide_eq_true_iff]
    exact used j x hx
  · unfold boundaryEdges
    have := countP_index (fun x : edge => decide (x.from_ ≠ -1 ∧ x.ref = -1 ∧ x.ret = -1)) e
      (B.map BEdge.id) T.nodup
      (by
        intro i hi
        obtain ⟨t, ht, rfl⟩ := List.mem_map.mp hi
        have := (T.bnd t ht).1
        omega)
      (by
        intro j x hx
        rw [decide_eq_true_iff]
        constructor
        · intro ⟨h1, h2, h3⟩
          have hj := (used j x hx).mp h1
          exact ((T.nbrs_lt hx hj).2.2).mp ⟨h2, h3⟩
        · intro hB
          obtain ⟨t, ht, rfl⟩ := List.mem_map.mp hB
          obtain ⟨hlt, y, hy, by'⟩ := T.bnd t ht
          have := get_inj hx hy
          subst this
          exact ⟨(used _ x hx).mpr hlt, by'.2.2.1, by'.2.2.2.1⟩)
    rw [this, List.length_map]

/-- C24 (as amended), over exact arithmetic.  Let the `n >= 3` points be sorted strictly
by `x` with no three on a line, let `visible` answer as the exact side test
for every edge between two points and every later point (`Regular`; this is
so when any two points are at least `mindistance = 1e-7` apart in `x` and in
`y`), and let `sqrt` be the exact square root.  Then `triangulate` returns
(when the recursion depth allowed to `swap` is large enough), and with `E` the
number of produced edges, `h` the number of boundary edges (right side
unresolved) and `T` the triangle count fixed by `3T = h + 2(E - h)`, the result
satisfies `n - E + T = 1`. -/
theorem euler_relation (hsq : ∀ x, 0 ≤ x → 0 ≤ sqrt x ∧ sqrt x * sqrt x = x)
    (p : List (point K)) (hp : Regular p) (junk : Nat → item) (hN : 3 ≤ p.length) :
    ∃ (d : Driver) (D T : Nat),
      (∀ depth, D ≤ depth → triangulate sqrt depth junk (p.length : Int) p = Except.ok d) ∧
      3 * T = boundaryEdges d.edges + 2 * (usedEdges d.edges - boundaryEdges d.edges) ∧
      (p.length : Int) - (usedEdges d.edges : Int) + (T : Int) = 1 := by
  obtain ⟨k, hk⟩ : ∃ k, p.length = 3 + k := ⟨p.length - 3, by omega⟩
  obtain ⟨d, D, n, H, cyc, fr, hrun, I⟩ := run_inv sqrt hsq hp junk hN k (by omega)
  have h1 := I.cnt
  have h2 := I.elen
  have h3 := I.hle
  obtain ⟨c1, c2⟩ := I.comb.tab.counts (by omega)
  refine ⟨d, D, 2 * p.length - 2 - H.length, ?_, ?_, ?_⟩
  · intro depth hdep
    rw [triangulate_eq sqrt depth junk p k hk]
    exact hrun depth hdep
  · rw [c1, c2]
    omega
  · rw [c1]
    omega

end S

end Tipper

namespace Tipper

section S

variable {K : Type} [LinearOrderedField K]

theorem chain_succ {H : List BEdge}
    (hc : List.Chain' (fun t t' : BEdge => t.b = t'.a) H)
    (hcl : ∀ t t', H.head? = some t → H.getLast? = some t' → t'.b = t.a)
    {t : BEdge} (ht : t ∈ H) : ∃ t' ∈ H, t.b = t'.a := by
  obtain ⟨j, hj⟩ := List.mem_iff_getElem?.mp ht
  have hjl := (List.getElem?_eq_some_iff.mp hj).1
  obtain ⟨t1, t2, h1, h2, h3⟩ := chain_cyclic hc hcl hjl
  have := Option.some.inj (hj.symm.trans h1)
  subst this
  exact ⟨t2, List.mem_iff_getElem?.mpr ⟨_, h2⟩, h3⟩

theorem chain_pred {H : List BEdge}
    (hc : List.Chain' (fun t t' : BEdge => t.b = t'.a) H)
    (hcl : ∀ t t', H.head? = some t → H.getLast? = some t' → t'.b = t.a)
    {t : BEdge} (ht : t ∈ H) : ∃ t' ∈ H, t'.b = t.a := by
  obtain ⟨j, hj⟩ := List.mem_iff_getElem?.mp ht
  have hjl := (List.getElem?_eq_some_iff.mp hj).1
  have hi : (j + H.length - 1) % H.length < H.length := Nat.mod_lt _ (by omega)
  obtain ⟨t1, t2, h1, h2, h3⟩ := chain_cyclic hc hcl hi
  have e : ((j + H.length - 1) % H.length + 1) % H.length = j := by
    rcases Nat.eq_zero_or_pos j with h0 | h0
    · subst h0
      have : (0 + H.length - 1) % H.length = H.length - 1 := by
        rw [Nat.zero_add]
        exact Nat.mod_eq_of_lt (by omega)
      rw [this]
      have : H.length - 1 + 1 = H.length := by omega
      rw [this, Nat.mod_self]
    · obtain ⟨i, rfl⟩ : ∃ i, j = i + 1 := ⟨j - 1, by omega⟩
      have : i + 1 + H.length - 1 = i + H.length := by omega
      rw [this, Nat.add_mod_right, Nat.mod_eq_of_lt (show i < H.length by omega),
        Nat.mod_eq_of_lt hjl]
  rw [e] at h2
  have := Option.some.inj (hj.symm.trans h2)
  subst this
  exact ⟨t1, List.mem_iff_getElem?.mpr ⟨_, h1⟩, h3⟩

/-- Every edge of the convex hull is an edge of a boundary that has all points
to its left. -/
theorem Geo.hull_edge {p : List (point K)} {H : List BEdge} (G : Geo p p.length H)
    (hp : Regular p) (hN : 3 ≤ p.length) {a b : Nat} (hab : HullPair p a b) :
    ∃ t ∈ H, t.a = a ∧ t.b = b := by
  obtain ⟨ha, hb, hne, hall⟩ := hab
  have g0 : ∀ r : Nat, r < p.length →
      0 ≤ orient (ptAt p (a : Int)) (ptAt p (b : Int)) (ptAt p (r : Int)) := by
    intro r hr
    by_cases h1 : r = a
    · rw [h1, orient_self_left]
    · by_cases h2 : r = b
      · rw [h2, orient_self_right]
      · exact le_of_lt (hall r hr h1 h2)
  -- a third point
  obtain ⟨r0, hr0, r1, r2⟩ : ∃ r, r < 3 ∧ r ≠ a ∧ r ≠ b := by
    by_cases c0 : 0 ≠ a ∧ 0 ≠ b
    · exact ⟨0, by omega, c0.1, c0.2⟩
    · by_cases c1 : 1 ≠ a ∧ 1 ≠ b
      · exact ⟨1, by omega, c1.1, c1.2⟩
      · exact ⟨2, by omega, by omega, by omega⟩
  have hr0p := hall r0 (by omega) r1 r2
  -- the edge from `b` to `a` is no boundary edge
  have noback : ∀ t ∈ H, t.a = b → t.b = a → False := by
    intro t ht h1 h2
    have := G.left t ht r0 (by omega)
    rw [h1, h2, orient_swap] at this
    linarith
  -- the vertex where the function is least
  obtain ⟨t1, ht1, hmin⟩ := Finset.exists_min_image H.toFinset
    (fun t : BEdge => orient (ptAt p (a : Int)) (ptAt p (b : Int)) (ptAt p (t.b : Int)))
    (by
      obtain ⟨x, l, h⟩ := List.exists_cons_of_ne_nil G.ne
      exact ⟨x, by rw [h]; simp⟩)
  rw [List.mem_toFinset] at ht1
  obtain ⟨t2, ht2, h12⟩ := chain_succ G.chain G.close ht1
  obtain ⟨t0, ht0, h01⟩ := chain_pred G.chain G.close ht1
  have m0 := hmin t0 (List.mem_toFinset.mpr ht0)
  have m2 := hmin t2 (List.mem_toFinset.mpr ht2)
  simp only at m0 m2
  rw [h01] at m0
  have b1 := G.bound t1 ht1
  have b2 := G.bound t2 ht2
  have tp := G.turn_pos hp hN (le_refl _) ht1 ht2 h12
  have l1a := G.left t1 ht1 a ha
  have l2a := G.left t2 ht2 a ha
  have l1b := G.left t1 ht1 b hb
  have l2b := G.left t2 ht2 b hb
  rw [← h12] at l2a l2b
  -- the least value is not positive
  have hv : orient (ptAt p (a : Int)) (ptAt p (b : Int)) (ptAt p (t1.b : Int)) ≤ 0 := by
    have e := orient_affine (ptAt p (a : Int)) (ptAt p (b : Int)) (ptAt p (t1.a : Int))
      (ptAt p (t1.b : Int)) (ptAt p (t2.b : Int)) (ptAt p (a : Int))
    rw [orient_self_left] at e
    have a1 := mul_nonneg l2a (sub_nonneg.mpr m0)
    have a2 := mul_nonneg l1a (sub_nonneg.mpr m2)
    by_contra hcon
    have : orient (ptAt p (t1.a : Int)) (ptAt p (t1.b : Int)) (ptAt p (t2.b : Int)) *
        (0 - orient (ptAt p (a : Int)) (ptAt p (b : Int)) (ptAt p (t1.b : Int))) < 0 :=
      mul_neg_of_pos_of_neg tp (by linarith [not_le.mp hcon])
    linarith
  have hvab : t1.b = a ∨ t1.b = b := by
    by_contra hcon
    rw [not_or] at hcon
    have := hall t1.b b1.2.1 hcon.1 hcon.2
    linarith
  have gu := g0 t1.a b1.1
  have gw := g0 t2.b b2.2.1
  rcases hvab with hva | hvb
  · -- the vertex is `a`
    rw [hva] at l1b l2b tp
    have e := orient_affine (ptAt p (a : Int)) (ptAt p (b : Int)) (ptAt p (t1.a : Int))
      (ptAt p (a : Int)) (ptAt p (t2.b : Int)) (ptAt p (b : Int))
    rw [orient_self_left, orient_self_right, sub_zero, sub_zero, sub_zero, mul_zero] at e
    by_cases hw : t2.b = b
    · exact ⟨t2, ht2, by rw [← h12, hva], hw⟩
    · exfalso
      have hwa : t2.b ≠ a := by
        rw [← hva, h12]
        exact fun h => b2.2.2 h.symm
      have gwp := hall t2.b b2.2.1 hwa hw
      have a1 := mul_nonneg l2b gu
      have hz : orient (ptAt p (t1.a : Int)) (ptAt p (a : Int)) (ptAt p (b : Int)) *
          orient (ptAt p (a : Int)) (ptAt p (b : Int)) (ptAt p (t2.b : Int)) = 0 := by
        have a2 := mul_nonneg l1b (le_of_lt gwp)
        linarith
      have hz' : orient (ptAt p (t1.a : Int)) (ptAt p (a : Int)) (ptAt p (b : Int)) = 0 := by
        rcases mul_eq_zero.mp hz with h | h
        · exact h
        · linarith
      have hub : t1.a = b := by
        by_contra hcon
        exact hp.noCol t1.a a b b1.1 ha hb (by rw [← hva]; exact b1.2.2) hne hcon hz'
      exact noback t1 ht1 hub hva
  · -- the vertex is `b`
    rw [hvb] at l1a l2a tp
    have e := orient_affine (ptAt p (a : Int)) (ptAt p (b : Int)) (ptAt p (t1.a : Int))
      (ptAt p (b : Int)) (ptAt p (t2.b : Int)) (ptAt p (a : Int))
    rw [orient_self_left, orient_self_right, sub_zero, sub_zero, sub_zero, mul_zero] at e
    by_cases hu : t1.a = a
    · exact ⟨t1, ht1, hu, hvb⟩
    · exfalso
      have hub : t1.a ≠ b := by
        rw [← hvb]
        exact b1.2.2
      have gup := hall t1.a b1.1 hu hub
      have a2 := mul_nonneg l1a gw
      have hz : orient (ptAt p (b : Int)) (ptAt p (t2.b : Int)) (ptAt p (a : Int)) *
          orient (ptAt p (a : Int)) (ptAt p (b : Int)) (ptAt p (t1.a : Int)) = 0 := by
        have a1 := mul_nonneg l2a (le_of_lt gup)
        linarith
      have hz' : orient (ptAt p (b : Int)) (ptAt p (t2.b : Int)) (ptAt p (a : Int)) = 0 := by
        rcases mul_eq_zero.mp hz with h | h
        · exact h
        · linarith
      have hwa : t2.b = a := by
        by_contra hcon
        refine hp.noCol b t2.b a hb b2.2.1 ha ?_ hcon (Ne.symm hne) hz'
        rw [← hvb, h12]
        exact b2.2.2
      exact noback t2 ht2 (by rw [← h12, hvb]) hwa

variable (sqrt : K → K)

/-- C25 (as amended), over exact arithmetic.  Let the `n >= 3` points be sorted strictly
by `x` with no three on a line, let `visible` answer as the exact side test
for every edge between two points and every later point (`Regular`; this is
so when any two points are at least `mindistance = 1e-7` apart in `x` and in
`y`), and let `sqrt` be the exact square root.  Then `triangulate` returns
(when the recursion depth allowed to `swap` is large enough), and the edges of
the final table whose right side is unresolved (`ref = ret = -1`) are exactly
the edges of the convex hull of the input points, traversed anticlockwise: each
of them runs from a point `a` to a point `b` such that every other input point
lies strictly to the left of `a -> b`, and every such pair is one of them. -/
theorem convex_hull_extraction (hsq : ∀ x, 0 ≤ x → 0 ≤ sqrt x ∧ sqrt x * sqrt x = x)
    (p : List (point K)) (hp : Regular p) (junk : Nat → item) (hN : 3 ≤ p.length) :
    ∃ (d : Driver) (D : Nat),
      (∀ depth, D ≤ depth → triangulate sqrt depth junk (p.length : Int) p = Except.ok d) ∧
      (∀ (j : Nat) (x : edge), d.edges[j]? = some x → x.from_ ≠ -1 → x.ref = -1 →
        x.ret = -1 → ∃ a b : Nat, x.from_ = (a : Int) ∧ x.to_ = (b : Int) ∧ HullPair p a b) ∧
      (∀ a b : Nat, HullPair p a b → ∃ (j : Nat) (x : edge), d.edges[j]? = some x ∧
        x.from_ = (a : Int) ∧ x.to_ = (b : Int) ∧ x.ref = -1 ∧ x.ret = -1) := by
  obtain ⟨k, hk⟩ : ∃ k, p.length = 3 + k := ⟨p.length - 3, by omega⟩
  obtain ⟨d, D, n, H, cyc, fr, hrun, I⟩ := run_inv sqrt hsq hp junk hN k (by omega)
  have hG : Geo p p.length H := by
    have := I.geo
    rw [← hk] at this
    exact this
  have hnl : n ≤ d.edges.length := by
    have := I.cnt
    have := I.elen
    have := I.hle
    omega
  refine ⟨d, D, ?_, ?_, ?_⟩
  · intro depth hdep
    rw [triangulate_eq sqrt depth junk p k hk]
    exact hrun depth hdep
  · intro j x hx hf h1 h2
    have hj : j < n := by
      by_contra hc
      have := I.comb.tab.fresh j x hx (by omega)
      subst this
      exact hf rfl
    have hB := ((I.comb.tab.nbrs_lt hx hj).2.2).mp ⟨h1, h2⟩
    obtain ⟨t, ht, rfl⟩ := List.mem_map.mp hB
    obtain ⟨-, y, hy, by'⟩ := I.comb.tab.bnd t ht
    have := get_inj hx hy
    subst this
    obtain ⟨b1, b2, b3⟩ := hG.bound t ht
    refine ⟨t.a, t.b, by'.1, by'.2.1, b1, b2, b3, ?_⟩
    intro r hr r1 r2
    have h0 := hG.left t ht r hr
    have := hp.noCol t.a t.b r b1 b2 hr b3 (Ne.symm r2) (Ne.symm r1)
    exact lt_of_le_of_ne h0 (Ne.symm this)
  · intro a b hab
    obtain ⟨t, ht, rfl, rfl⟩ := hG.hull_edge hp hN hab
    obtain ⟨-, y, hy, by'⟩ := I.comb.tab.bnd t ht
    exact ⟨t.id, y, hy, by'.1, by'.2.1, by'.2.2.1, by'.2.2.2.1⟩

end S

end Tipper
/-! ## Instances of the claims on regular input, and runs within the tolerance -/

namespace Tipper

theorem regular_tiePoints : Regular tiePoints := by
  refine ⟨?_, ?_, ?_⟩
  · intro i j hij hj
    have hj' : j < 4 := hj
    interval_cases j <;> interval_cases i <;>
      first
      | omega
      | (simp [ptAt, rdp, tiePoints] <;> norm_num)
  · intro i j k hi hj hk hij hjk hik
    have hi' : i < 4 := hi
    have hj' : j < 4 := hj
    have hk' : k < 4 := hk
    interval_cases i <;> interval_cases j <;> interval_cases k <;>
      first
      | exact absurd rfl hij
      | exact absurd rfl hjk
      | exact absurd rfl hik
      | (simp [ptAt, rdp, tiePoints, orient] <;> norm_num)
  · intro q hq t ha hb hab
    have hq' : q < 4 := hq
    obtain ⟨id, a, b⟩ := t
    simp only at ha hb hab
    refine ⟨⟨_, rdpE_nat (by simp [tiePoints]; omega)⟩, ⟨_, rdpE_nat (by simp [tiePoints]; omega)⟩,
      ⟨_, rdpE_nat hq⟩, ?_⟩
    intro x hf ht
    simp only at hf ht
    interval_cases q <;> interval_cases a <;> interval_cases b <;>
      first
      | exact absurd rfl hab
      | (simp [edge.visible, hf, ht, rdp, tiePoints, sees, ptAt, orient, mindistance] <;> norm_num)

/-- Instance of C21: the four points `tiePoints`, after the pass for point 3. -/
theorem hull_closed_polygon_witness :
    ∃ (d : Driver) (D : Nat) (ids : List Nat),
      (∀ depth, D ≤ depth →
        run Real.sqrt depth junk0 (tiePoints.length : Int) tiePoints 1 = Except.ok d) ∧
      hullWalk d.hull d.hull.num.toNat d.upper_hull_pos =
        Except.ok (List.map (fun i : Nat => (i : Int)) ids) ∧
      ids.Nodup ∧
      ∀ j, j < ids.length → ∃ (a b : Nat) (x y : edge),
        ids[j]? = some a ∧ ids[(j + 1) % ids.length]? = some b ∧
        d.edges[a]? = some x ∧ d.edges[b]? = some y ∧
        x.to_ = y.from_ ∧ x.ref = -1 ∧ x.ret = -1 :=
  hull_closed_polygon Real.sqrt sqrt_spec tiePoints regular_tiePoints junk0 (by decide) 1
    (by decide)

/-- Instance of C38: the four points `tiePoints`, after the pass for point 3. -/
theorem reference_positions_witness :
    ∃ (d : Driver) (D : Nat) (hl hu : Int) (xl xu : edge),
      (∀ depth, D ≤ depth →
        run Real.sqrt depth junk0 (tiePoints.length : Int) tiePoints 1 = Except.ok d) ∧
      d.hull.getNextPos d.lower_hull_pos = Run.ok d.hull d.upper_hull_pos ∧
      d.hullEdge d.lower_hull_pos = Except.ok hl ∧
      d.hullEdge d.upper_hull_pos = Except.ok hu ∧
      rde d.edges hl = Except.ok xl ∧ rde d.edges hu = Except.ok xu ∧
      (1 = 0 → hl = 1 ∧ hu = 2 ∧ xl.to_ = xu.from_) ∧
      (0 < 1 → xl.to_ = 2 + ((1 : Nat) : Int) ∧ xu.from_ = 2 + ((1 : Nat) : Int)) :=
  reference_positions Real.sqrt sqrt_spec tiePoints regular_tiePoints junk0 (by decide) 1
    (by decide)

/-- Instance of C22: the four points `tiePoints`. -/
theorem neighbours_resolved_witness :
    ∃ (d : Driver) (D ne : Nat) (ids : List Nat),
      (∀ depth, D ≤ depth →
        triangulate Real.sqrt depth junk0 (tiePoints.length : Int) tiePoints = Except.ok d) ∧
      hullWalk d.hull d.hull.num.toNat d.upper_hull_pos =
        Except.ok (List.map (fun i : Nat => (i : Int)) ids) ∧
      d.next_edge = (ne : Int) ∧ ne ≤ d.edges.length ∧
      ∀ (j : Nat) (x : edge), j < ne → d.edges[j]? = some x →
        (0 ≤ x.lef ∧ x.lef < ne ∧ 0 ≤ x.let_ ∧ x.let_ < ne) ∧
        ((0 ≤ x.ref ∧ x.ref < ne ∧ 0 ≤ x.ret ∧ x.ret < ne) ∨ (x.ref = -1 ∧ x.ret = -1)) ∧
        ((x.ref = -1 ∧ x.ret = -1) ↔ j ∈ ids) :=
  neighbours_resolved Real.sqrt sqrt_spec tiePoints regular_tiePoints junk0 (by decide)

/-- Instance of C24: the four points `tiePoints`. -/
theorem euler_relation_witness :
    ∃ (d : Driver) (D T : Nat),
      (∀ depth, D ≤ depth →
        triangulate Real.sqrt depth junk0 (tiePoints.length : Int) tiePoints = Except.ok d) ∧
      3 * T = boundaryEdges d.edges + 2 * (usedEdges d.edges - boundaryEdges d.edges) ∧
      (tiePoints.length : Int) - (usedEdges d.edges : Int) + (T : Int) = 1 :=
  euler_relation Real.sqrt sqrt_spec tiePoints regular_tiePoints junk0 (by decide)

/-- Instance of C25: the four points `tiePoints`. -/
theorem convex_hull_extraction_witness :
    ∃ (d : Driver) (D : Nat),
      (∀ depth, D ≤ depth →
        triangulate Real.sqrt depth junk0 (tiePoints.length : Int) tiePoints = Except.ok d) ∧
      (∀ (j : Nat) (x : edge), d.edges[j]? = some x → x.from_ ≠ -1 → x.ref = -1 →
        x.ret = -1 →
          ∃ a b : Nat, x.from_ = (a : Int) ∧ x.to_ = (b : Int) ∧ HullPair tiePoints a b) ∧
      (∀ a b : Nat, HullPair tiePoints a b → ∃ (j : Nat) (x : edge), d.edges[j]? = some x ∧
        x.from_ = (a : Int) ∧ x.to_ = (b : Int) ∧ x.ref = -1 ∧ x.ret = -1) :=
  convex_hull_extraction Real.sqrt sqrt_spec tiePoints regular_tiePoints junk0 (by decide)

/-- C25, counterexample.  The points `tolX` are sorted by `x` with no three on
a line, and points 0 and 1 are `1e-8` apart in `x`: `triangulate` ends with the
boundary edge `3 -> 0` (entry 4, `ref = ret = -1`), and point 1 lies strictly
to the right of it, so it is no edge of the convex hull.  The points `tolY` are
sorted by `x`, one apart, with no three on a line, and points 0 and 1 are `1e-8`
apart in `y`: `triangulate` ends with the boundary edge `0 -> 3` (entry 5), and
point 1 lies strictly to the right of it.  Neither run calls `sqrt`, and both
end in the same state in exact and in `double` arithmetic.  The points `seedD`,
`(0, 0)`, `(10, 1)`, `(11, 1.1)`, are far apart and not on a line; in `double`
arithmetic `triangulate` ends with the boundary edge `0 -> 2`, and point 1 lies
strictly to the right of it. -/
theorem convex_hull_counterexample :
    (orient (ptAt tolX 0) (ptAt tolX 1) (ptAt tolX 2) ≠ 0 ∧
      orient (ptAt tolX 0) (ptAt tolX 1) (ptAt tolX 3) ≠ 0 ∧
      orient (ptAt tolX 0) (ptAt tolX 2) (ptAt tolX 3) ≠ 0 ∧
      orient (ptAt tolX 1) (ptAt tolX 2) (ptAt tolX 3) ≠ 0 ∧
      triangulate sqrt0 2 junk0 4 tolX = Except.ok hullX ∧
      hullX.edges[4]? = some ⟨3, 0, 3, 2, -1, -1⟩ ∧
      orient (ptAt tolX 3) (ptAt tolX 0) (ptAt tolX 1) < 0 ∧ ¬ HullPair tolX 3 0) ∧
    (orient (ptAt tolY 0) (ptAt tolY 1) (ptAt tolY 2) ≠ 0 ∧
      orient (ptAt tolY 0) (ptAt tolY 1) (ptAt tolY 3) ≠ 0 ∧
      orient (ptAt tolY 0) (ptAt tolY 2) (ptAt tolY 3) ≠ 0 ∧
      orient (ptAt tolY 1) (ptAt tolY 2) (ptAt tolY 3) ≠ 0 ∧
      triangulate sqrt0 2 junk0 4 tolY = Except.ok hullY ∧
      hullY.edges[5]? = some ⟨0, 3, 0, 4, -1, -1⟩ ∧
      orient (ptAt tolY 0) (ptAt tolY 3) (ptAt tolY 1) < 0 ∧ ¬ HullPair tolY 0 3) ∧
    (Arith.ieee.triangulate 2 junk0 4 (dblPts tolX) = Except.ok hullX ∧
      orient (ptAt ((dblPts tolX).map point.val) 3) (ptAt ((dblPts tolX).map point.val) 0)
        (ptAt ((dblPts tolX).map point.val) 1) < 0 ∧
      Arith.ieee.triangulate 2 junk0 4 (dblPts tolY) = Except.ok hullY ∧
      orient (ptAt ((dblPts tolY).map point.val) 0) (ptAt ((dblPts tolY).map point.val) 3)
        (ptAt ((dblPts tolY).map point.val) 1) < 0) ∧
    (List.Pairwise (fun a b : point ℚ => a.x < b.x) (seedD.map point.val) ∧
      orient (ptAt (seedD.map point.val) 0) (ptAt (seedD.map point.val) 1)
        (ptAt (seedD.map point.val) 2) ≠ 0 ∧
      (Arith.ieee.triangulate 2 junk0 3 seedD).map (fun d => d.edges.take 3) =
        Except.ok [⟨0, 2, 2, 1, -1, -1⟩, ⟨2, 1, 0, 2, -1, -1⟩, ⟨1, 0, 1, 0, -1, -1⟩] ∧
      orient (ptAt (seedD.map point.val) 0) (ptAt (seedD.map point.val) 2)
        (ptAt (seedD.map point.val) 1) < 0 ∧
      ¬ HullPair (seedD.map point.val) 0 2) := by
  have hx : orient (ptAt tolX 3) (ptAt tolX 0) (ptAt tolX 1) < 0 := by decide!
  have hy : orient (ptAt tolY 0) (ptAt tolY 3) (ptAt tolY 1) < 0 := by decide!
  have hs : orient (ptAt (seedD.map point.val) 0) (ptAt (seedD.map point.val) 2)
      (ptAt (seedD.map point.val) 1) < 0 := by decide!
  refine ⟨⟨by decide!, by decide!, by decide!, by decide!, by decide!, by decide!, hx, ?_⟩,
    ⟨by decide!, by decide!, by decide!, by decide!, by decide!, by decide!, hy, ?_⟩,
    ⟨by decide!, by decide!, by decide!, by decide!⟩,
    ⟨by decide!, by decide!, by decide!, hs, ?_⟩⟩
  · intro h
    have := h.2.2.2 1 (by decide) (by decide) (by decide)
    exact absurd hx (not_lt.mpr (le_of_lt this))
  · intro h
    have := h.2.2.2 1 (by decide) (by decide) (by decide)
    exact absurd hy (not_lt.mpr (le_of_lt this))
  · intro h
    have := h.2.2.2 1 (by decide) (by decide) (by decide)
    exact absurd hs (not_lt.mpr (le_of_lt this))

end Tipper
/-! ## The arithmetic of `double` -/

namespace Tipper

namespace Dbl

end Dbl

end Tipper

/-! ## The program with the arithmetic of `double` as a parameter -/

namespace Tipper

namespace Arith

variable {F : Type} (A : Arith F)

variable (depth : Nat)

variable (junk : Nat → item)

end Arith

end Tipper

namespace Tipper

namespace Arith

variable {F : Type} (A : Arith F)

/-- C8 (as amended): when the test `fabs(p[from].x-p[to].x) < mindistance`, as
the program computes it, holds for the end points of the edge, `visible(p, i)`
returns true for every index `i`, whatever `p[i]` is. -/
theorem near_vertical (e : edge) (p : List (point F)) (i : Int)
    (pf pt : point F) (hf : rdp p e.from_ = some pf) (ht : rdp p e.to_ = some pt)
    (hx : A.lt (A.abs (A.sub pf.x pt.x)) A.mindistance = true) :
    A.visible e p i = some true := by
  simp [visible, hf, ht, hx]

/-- C9 (as amended): when `fabs(p[from].x-p[to].x) < mindistance` is false and
`fabs(p[to].y-p[from].y) < mindistance` is true, both as the program computes
them, `visible(p, i)` returns true if `p[from].x < p[to].x` and
`p[i].y < p[from].y`, and returns true if `p[from].x > p[to].x` and
`p[i].y > p[from].y`. -/
theorem near_horizontal (e : edge) (p : List (point F)) (i : Int)
    (pf pt pi : point F) (hf : rdp p e.from_ = some pf) (ht : rdp p e.to_ = some pt)
    (hi : rdp p i = some pi)
    (hx : A.lt (A.abs (A.sub pf.x pt.x)) A.mindistance = false)
    (hy : A.lt (A.abs (A.sub pt.y pf.y)) A.mindistance = true) :
    (A.lt pf.x pt.x = true ∧ A.lt pi.y pf.y = true → A.visible e p i = some true) ∧
    (A.lt pt.x pf.x = true ∧ A.lt pf.y pi.y = true → A.visible e p i = some true) := by
  constructor
  · rintro ⟨h1, h2⟩
    simp [visible, hf, ht, hi, hx, hy, h1, h2]
  · rintro ⟨h1, h2⟩
    simp [visible, hf, ht, hi, hx, hy, h1, h2]

/-- C10 (as amended): `visible(p, i)` returns true exactly through one of four
tests, each as the program computes it: (a) `fabs(p[from].x-p[to].x) <
mindistance`; (b) `fabs(p[to].y-p[from].y) < mindistance` with the point on the
outer side; the band test `p[to].y >= p[i].y`, `p[from].y <= p[i].y`,
`fabs(p[from].y-p[to].y) > mindistance`; (c) `p[i].y` strictly below the
computed value `p[from].y+(p[to].y-p[from].y)/(p[to].x-p[from].x)*(p[i].x-p[from].x)`
when `p[to].x > p[from].x`, strictly above it when `p[to].x < p[from].x`
(and `p[to].x > p[from].x` is false).  When the tests (a) and
`fabs(p[to].y-p[from].y) < mindistance` are false this leaves the band test
and (c). -/
theorem visible_tests (e : edge) (p : List (point F)) (i : Int)
    (pf pt pi : point F) (hf : rdp p e.from_ = some pf) (ht : rdp p e.to_ = some pt)
    (hi : rdp p i = some pi) :
    (A.visible e p i = some true ↔
      A.lt (A.abs (A.sub pf.x pt.x)) A.mindistance = true ∨
      (A.lt (A.abs (A.sub pt.y pf.y)) A.mindistance = true ∧
        ((A.lt pf.x pt.x = true ∧ A.lt pi.y pf.y = true) ∨
          (A.lt pt.x pf.x = true ∧ A.lt pf.y pi.y = true))) ∨
      (A.le pi.y pt.y = true ∧ A.le pf.y pi.y = true ∧
        A.lt A.mindistance (A.abs (A.sub pf.y pt.y)) = true) ∨
      (A.lt pf.x pt.x = true ∧ A.lt pi.y (A.lineAt pf pt pi) = true) ∨
      (A.lt pf.x pt.x = false ∧ A.lt pt.x pf.x = true ∧
        A.lt (A.lineAt pf pt pi) pi.y = true)) ∧
    (A.lt (A.abs (A.sub pf.x pt.x)) A.mindistance = false →
      A.lt (A.abs (A.sub pt.y pf.y)) A.mindistance = false →
      (A.visible e p i = some true ↔
        (A.le pi.y pt.y = true ∧ A.le pf.y pi.y = true ∧
          A.lt A.mindistance (A.abs (A.sub pf.y pt.y)) = true) ∨
        (A.lt pf.x pt.x = true ∧ A.lt pi.y (A.lineAt pf pt pi) = true) ∨
        (A.lt pf.x pt.x = false ∧ A.lt pt.x pf.x = true ∧
          A.lt (A.lineAt pf pt pi) pi.y = true))) ∧
    (A.visible e p i = some true ∨ A.visible e p i = some false) := by
  have key : (A.visible e p i = some true ↔
      A.lt (A.abs (A.sub pf.x pt.x)) A.mindistance = true ∨
      (A.lt (A.abs (A.sub pt.y pf.y)) A.mindistance = true ∧
        ((A.lt pf.x pt.x = true ∧ A.lt pi.y pf.y = true) ∨
          (A.lt pt.x pf.x = true ∧ A.lt pf.y pi.y = true))) ∨
      (A.le pi.y pt.y = true ∧ A.le pf.y pi.y = true ∧
        A.lt A.mindistance (A.abs (A.sub pf.y pt.y)) = true) ∨
      (A.lt pf.x pt.x = true ∧ A.lt pi.y (A.lineAt pf pt pi) = true) ∨
      (A.lt pf.x pt.x = false ∧ A.lt pt.x pf.x = true ∧
        A.lt (A.lineAt pf pt pi) pi.y = true)) ∧
      (A.visible e p i = some true ∨ A.visible e p i = some false) := by
    simp only [visible, hf, ht, hi]
    cases A.lt (A.abs (A.sub pf.x pt.x)) A.mindistance <;>
    cases A.lt (A.abs (A.sub pt.y pf.y)) A.mindistance <;>
    cases A.lt pf.x pt.x <;> cases A.lt pi.y pf.y <;>
    cases A.lt pt.x pf.x <;> cases A.lt pf.y pi.y <;>
    cases A.le pi.y pt.y <;> cases A.le pf.y pi.y <;>
    cases A.lt A.mindistance (A.abs (A.sub pf.y pt.y)) <;>
    cases A.lt pi.y (A.lineAt pf pt pi) <;>
    cases A.lt (A.lineAt pf pt pi) pi.y <;> simp
  refine ⟨key.1, ?_, key.2⟩
  intro hx hy
  rw [key.1]
  simp only [hx, hy, Bool.false_eq_true, false_and, false_or]

end Arith

end Tipper

namespace Tipper

/-- C8, counterexample: the edge from `(0.0000001, 0)` to `(0, 1)`.  The
`double` nearest to `0.0000001` is smaller than `1e-7`, so the end points
satisfy `|p[from].x - p[to].x| < 1e-7`; the program compares the difference with
`mindistance`, the same `double`, finds the test false, and for the point
`(1, -20000000)` `visible` returns false. -/
theorem near_vertical_counterexample :
    rdp edgeV edge01.from_ =
      some ⟨Dbl.fin (944473296573929 / 9444732965739290427392), Dbl.fin 0⟩ ∧
    rdp edgeV edge01.to_ = some ⟨Dbl.fin 0, Dbl.fin 1⟩ ∧
    |(944473296573929 / 9444732965739290427392 : ℚ) - 0| < 1 / 10000000 ∧
    Arith.ieee.visible edge01 edgeV 2 = some false := by
  decide!

theorem near_vertical_witness :
    rdp edgeN edge01.from_ = some ⟨Dbl.fin 0, Dbl.fin 0⟩ ∧
    rdp edgeN edge01.to_ =
      some ⟨Dbl.fin (944473296573929 / 18889465931478580854784), Dbl.fin 1⟩ ∧
    Arith.ieee.visible edge01 edgeN 2 = some true :=
  ⟨by decide!, by decide!,
    Arith.near_vertical Arith.ieee edge01 edgeN 2 ⟨Dbl.fin 0, Dbl.fin 0⟩
      ⟨Dbl.fin (944473296573929 / 18889465931478580854784), Dbl.fin 1⟩
      (by decide!) (by decide!) (by decide!)⟩

/-- C9, counterexample: the edge from `(0, 0)` to `(1, -0.0000001)` and the
point `(1000, -1e-9)`.  The end points satisfy `|dx| >= 1e-7` and, the `double`
nearest to `0.0000001` being smaller than `1e-7`, `|dy| < 1e-7`; `p[from].x <
p[to].x` and `p[i].y < p[from].y`; the program finds
`fabs(p[to].y-p[from].y) < mindistance` false and `visible` returns false. -/
theorem near_horizontal_counterexample :
    rdp edgeH edge01.from_ = some ⟨Dbl.fin 0, Dbl.fin 0⟩ ∧
    rdp edgeH edge01.to_ =
      some ⟨Dbl.fin 1, Dbl.fin (-944473296573929 / 9444732965739290427392)⟩ ∧
    rdp edgeH 2 =
      some ⟨Dbl.fin 1000, Dbl.fin (-4835703278458517 / 4835703278458516698824704)⟩ ∧
    (1 / 10000000 : ℚ) ≤ |(0 : ℚ) - 1| ∧
    |(-944473296573929 / 9444732965739290427392 : ℚ) - 0| < 1 / 10000000 ∧
    (0 : ℚ) < 1 ∧ (-4835703278458517 / 4835703278458516698824704 : ℚ) < 0 ∧
    Arith.ieee.visible edge01 edgeH 2 = some false := by
  decide!

theorem near_horizontal_witness :
    rdp edgeF edge01.from_ = some ⟨Dbl.fin 0, Dbl.fin 0⟩ ∧
    rdp edgeF edge01.to_ =
      some ⟨Dbl.fin 1, Dbl.fin (944473296573929 / 18889465931478580854784)⟩ ∧
    rdp edgeF 2 = some ⟨Dbl.fin 2, Dbl.fin (-1)⟩ ∧
    Arith.ieee.visible edge01 edgeF 2 = some true :=
  ⟨by decide!, by decide!, by decide!,
    (Arith.near_horizontal Arith.ieee edge01 edgeF 2 ⟨Dbl.fin 0, Dbl.fin 0⟩
      ⟨Dbl.fin 1, Dbl.fin (944473296573929 / 18889465931478580854784)⟩
      ⟨Dbl.fin 2, Dbl.fin (-1)⟩ (by decide!) (by decide!) (by decide!) (by decide!)
      (by decide!)).1 ⟨by decide!, by decide!⟩⟩

/-- C10, counterexample, in both directions.  For the edge from `(0,0)` to
`(1,1)`, neither near-vertical nor near-horizontal, and the point `(0,0.5)`,
`visible` returns true through the band test although the point is not strictly
below the line through the edge, whose height at `x = 0` is `0`.  For the edge
from `(0,0)` to `(5,19)` and the point `(58, 220.39999999999998)` the point is
strictly below the line, whose height at `x = 58` is `220.4`, but the program
computes `19/5*58` as `220.39999999999998` and `visible` returns false. -/
theorem visible_tests_counterexample :
    (rdp edgeB edge01.from_ = some ⟨Dbl.fin 0, Dbl.fin 0⟩ ∧
      rdp edgeB edge01.to_ = some ⟨Dbl.fin 1, Dbl.fin 1⟩ ∧
      rdp edgeB 2 = some ⟨Dbl.fin 0, Dbl.fin (1 / 2)⟩ ∧
      (1 / 10000000 : ℚ) ≤ |(0 : ℚ) - 1| ∧ (1 / 10000000 : ℚ) ≤ |(1 : ℚ) - 0| ∧
      (1 : ℚ) > 0 ∧
      Arith.ieee.visible edge01 edgeB 2 = some true ∧
      ¬ ((1 / 2 : ℚ) < 0 + (1 - 0) / (1 - 0) * (0 - 0))) ∧
    (rdp edgeL edge01.from_ = some ⟨Dbl.fin 0, Dbl.fin 0⟩ ∧
      rdp edgeL edge01.to_ = some ⟨Dbl.fin 5, Dbl.fin 19⟩ ∧
      rdp edgeL 2 = some ⟨Dbl.fin 58, Dbl.fin (1938658902094643 / 8796093022208)⟩ ∧
      (1 / 10000000 : ℚ) ≤ |(0 : ℚ) - 5| ∧ (1 / 10000000 : ℚ) ≤ |(19 : ℚ) - 0| ∧
      (5 : ℚ) > 0 ∧
      (1938658902094643 / 8796093022208 : ℚ) < 0 + (19 - 0) / (5 - 0) * (58 - 0) ∧
      Arith.ieee.visible edge01 edgeL 2 = some false) := by
  decide!

theorem visible_tests_witness :
    rdp edgeL edge01.from_ = some ⟨Dbl.fin 0, Dbl.fin 0⟩ ∧
    rdp edgeL edge01.to_ = some ⟨Dbl.fin 5, Dbl.fin 19⟩ ∧
    rdp edgeL 2 = some ⟨Dbl.fin 58, Dbl.fin (1938658902094643 / 8796093022208)⟩ ∧
    (Arith.ieee.visible edge01 edgeL 2 = some true ∨
      Arith.ieee.visible edge01 edgeL 2 = some false) :=
  ⟨by decide!, by decide!, by decide!,
    (Arith.visible_tests Arith.ieee edge01 edgeL 2 ⟨Dbl.fin 0, Dbl.fin 0⟩
      ⟨Dbl.fin 5, Dbl.fin 19⟩ ⟨Dbl.fin 58, Dbl.fin (1938658902094643 / 8796093022208)⟩
      (by decide!) (by decide!) (by decide!)).2.2⟩

end Tipper

namespace Tipper

namespace Arith

variable {F : Type} (A : Arith F)

/-- The call `swap` on an edge with one of `lef`, `let`, `ref`, `ret` equal to
`-1` returns 0 with the table it was given. -/
theorem swap_on_boundary (depth : Nat) (tint : Int) (e : List edge) (p : List (point F))
    (t : edge) (ht : rde e tint = Except.ok t)
    (hb : t.lef = -1 ∨ t.let_ = -1 ∨ t.ref = -1 ∨ t.ret = -1) :
    A.swap (depth + 1) tint e p = Except.ok (e, 0) := by
  have hb' : t.ref = -1 ∨ t.lef = -1 ∨ t.let_ = -1 ∨ t.ret = -1 := by tauto
  simp only [swap, ht, bind, Except.bind, if_pos hb']
  rfl

/-- The call `swap` on an edge whose four neighbours are set, once the reads
of the edge table and of the points are done. -/
theorem swap_cases (depth : Nat) (tint : Int) (e : List edge) (p : List (point F))
    (t el er : edge) (pl pf pt pr : point F)
    (ht : rde e tint = Except.ok t)
    (hn : t.lef ≠ -1 ∧ t.let_ ≠ -1 ∧ t.ref ≠ -1 ∧ t.ret ≠ -1)
    (hl : rde e t.lef = Except.ok el) (hr : rde e t.ref = Except.ok er)
    (hpl : rdpE p (if el.from_ = t.from_ then el.to_ else el.from_) = Except.ok pl)
    (hpf : rdpE p t.from_ = Except.ok pf) (hpt : rdpE p t.to_ = Except.ok pt)
    (hpr : rdpE p (if er.from_ = t.from_ then er.to_ else er.from_) = Except.ok pr) :
    A.swap (depth + 1) tint e p =
      if A.flipTest pl pf pt pr = true then
        (flipStep tint (if el.from_ = t.from_ then el.to_ else el.from_)
          (if er.from_ = t.from_ then er.to_ else er.from_) e >>=
          afterFlip (fun n e => A.swap depth n e p) tint)
      else Except.ok (e, 0) := by
  have hb' : ¬ (t.ref = -1 ∨ t.lef = -1 ∨ t.let_ = -1 ∨ t.ret = -1) := by tauto
  simp only [swap, ht, hl, hr, hpl, hpf, hpt, hpr, bind, Except.bind, if_neg hb', flipTest]
  cases A.lt (A.dot (A.psub pl pf) (A.psub pl pt)) A.zero <;>
  cases A.lt (A.dot (A.psub pr pf) (A.psub pr pt)) A.zero <;>
  cases A.lt
    (A.add
      (A.div (A.dot (A.psub pl pf) (A.psub pl pt))
        (A.sqrt (A.mul (A.dot (A.psub pl pf) (A.psub pl pf))
          (A.dot (A.psub pl pt) (A.psub pl pt)))))
      (A.div (A.dot (A.psub pr pf) (A.psub pr pt))
        (A.sqrt (A.mul (A.dot (A.psub pr pf) (A.psub pr pf))
          (A.dot (A.psub pr pt) (A.psub pr pt))))))
    A.zero <;> simp <;> rfl

/-- C12: the flip decision of `swap`, in the arithmetic of the program.  For an
edge `e[tint]` whose four neighbours are set, with `el = e[lef]`, `er = e[ref]`,
the opposite points `leftp`, `rightp` taken from them, and the four points read
from `p`, let `dt1 = (L-from).(L-to)` and `dt2 = (R-from).(R-to)` be the dot
products as computed.  The criterion `flipTest` is: `dt1 < 0` or `dt2 < 0`, and
the computed sum of `dt1/sqrt(|L-from|^2*|L-to|^2)` and
`dt2/sqrt(|R-from|^2*|R-to|^2)` compares `< 0`.  When the criterion fails the
call returns 0 with the table unchanged; when it holds the call is the flip step
followed by the four recursive calls, which return 1; so a call that returns,
returns 1 exactly when the criterion holds. -/
theorem flip_decision (depth : Nat) (tint : Int) (e : List edge) (p : List (point F))
    (t el er : edge) (pl pf pt pr : point F)
    (ht : rde e tint = Except.ok t)
    (hn : t.lef ≠ -1 ∧ t.let_ ≠ -1 ∧ t.ref ≠ -1 ∧ t.ret ≠ -1)
    (hl : rde e t.lef = Except.ok el) (hr : rde e t.ref = Except.ok er)
    (hpl : rdpE p (if el.from_ = t.from_ then el.to_ else el.from_) = Except.ok pl)
    (hpf : rdpE p t.from_ = Except.ok pf) (hpt : rdpE p t.to_ = Except.ok pt)
    (hpr : rdpE p (if er.from_ = t.from_ then er.to_ else er.from_) = Except.ok pr) :
    (A.flipTest pl pf pt pr = true ↔
      (A.lt (A.dot (A.psub pl pf) (A.psub pl pt)) A.zero = true ∨
        A.lt (A.dot (A.psub pr pf) (A.psub pr pt)) A.zero = true) ∧
      A.lt
        (A.add
          (A.div (A.dot (A.psub pl pf) (A.psub pl pt))
            (A.sqrt (A.mul (A.dot (A.psub pl pf) (A.psub pl pf))
              (A.dot (A.psub pl pt) (A.psub pl pt)))))
          (A.div (A.dot (A.psub pr pf) (A.psub pr pt))
            (A.sqrt (A.mul (A.dot (A.psub pr pf) (A.psub pr pf))
              (A.dot (A.psub pr pt) (A.psub pr pt))))))
        A.zero = true) ∧
    (A.flipTest pl pf pt pr = false →
      A.swap (depth + 1) tint e p = Except.ok (e, 0)) ∧
    (A.flipTest pl pf pt pr = true →
      A.swap (depth + 1) tint e p =
        (flipStep tint (if el.from_ = t.from_ then el.to_ else el.from_)
          (if er.from_ = t.from_ then er.to_ else er.from_) e >>=
          afterFlip (fun n e => A.swap depth n e p) tint)) ∧
    (∀ r, A.swap (depth + 1) tint e p = Except.ok r →
      (r.2 = 1 ↔ A.flipTest pl pf pt pr = true) ∧ (r.2 = 1 ∨ r = (e, 0))) := by
  have key := swap_cases A depth tint e p t el er pl pf pt pr ht hn hl hr hpl hpf hpt hpr
  refine ⟨by simp [flipTest], fun h => by rw [key, h]; rfl, fun h => by rw [key, if_pos h], ?_⟩
  intro r hr'
  rw [key] at hr'
  by_cases h : A.flipTest pl pf pt pr = true
  · rw [if_pos h] at hr'
    have h1 : r.2 = 1 := by
      simp only [afterFlip, bind_ok_iff, pure_ok_iff] at hr'
      obtain ⟨e1, -, t1, -, r1, -, t2, -, r2, -, t3, -, r3, -, t4, -, r4, -, rfl⟩ := hr'
      rfl
    exact ⟨⟨fun _ => h, fun _ => h1⟩, Or.inl h1⟩
  · rw [if_neg h] at hr'
    have h1 : r = (e, 0) := by
      injection hr' with h2
      exact h2.symm
    refine ⟨⟨fun h2 => ?_, fun h2 => absurd h2 h⟩, Or.inr h1⟩
    rw [h1] at h2
    simp at h2

end Arith

/-- In `double` arithmetic, with the left opposite point on the start of the
edge: `dt2 < 0`, the first quotient is `0/sqrt(0)`, not a number, the sum
does not compare `< 0`, and `swap` returns 0 with the table unchanged.  With
the points of `quadPts` the criterion holds and the edge is flipped. -/
theorem flip_decision_witness :
    Arith.ieee.lt (Arith.ieee.dot (Arith.ieee.psub ⟨Dbl.fin (-1), Dbl.fin 0⟩ ⟨Dbl.fin (-1), Dbl.fin 0⟩)
      (Arith.ieee.psub ⟨Dbl.fin (-1), Dbl.fin 0⟩ ⟨Dbl.fin 1, Dbl.fin 0⟩)) Arith.ieee.zero = false ∧
    Arith.ieee.lt (Arith.ieee.dot (Arith.ieee.psub ⟨Dbl.fin 0, Dbl.fin (-1 / 2)⟩ ⟨Dbl.fin (-1), Dbl.fin 0⟩)
      (Arith.ieee.psub ⟨Dbl.fin 0, Dbl.fin (-1 / 2)⟩ ⟨Dbl.fin 1, Dbl.fin 0⟩)) Arith.ieee.zero = true ∧
    Arith.ieee.div (Dbl.fin 0) (Arith.ieee.sqrt (Dbl.fin 0)) = Dbl.nan ∧
    Arith.ieee.flipTest ⟨Dbl.fin (-1), Dbl.fin 0⟩ ⟨Dbl.fin (-1), Dbl.fin 0⟩ ⟨Dbl.fin 1, Dbl.fin 0⟩
      ⟨Dbl.fin 0, Dbl.fin (-1 / 2)⟩ = false ∧
    Arith.ieee.swap 2 0 quad5 quadN = Except.ok (quad5, 0) ∧
    Arith.ieee.swap 2 0 quad5 quadD = Except.ok (quad5Flipped, 1) :=
  ⟨by decide!, by decide!, by decide!, by decide!,
    (Arith.flip_decision Arith.ieee 1 0 quad5 quadN ⟨0, 1, 1, 2, 3, 4⟩ ⟨2, 0, 2, 0, -1, -1⟩
      ⟨0, 3, 0, 4, -1, -1⟩ ⟨Dbl.fin (-1), Dbl.fin 0⟩ ⟨Dbl.fin (-1), Dbl.fin 0⟩
      ⟨Dbl.fin 1, Dbl.fin 0⟩ ⟨Dbl.fin 0, Dbl.fin (-1 / 2)⟩ (by decide) (by decide)
      (by decide) (by decide) (by decide!) (by decide!) (by decide!) (by decide!)).2.1
      (by decide!),
    by decide!⟩

end Tipper

namespace Tipper

/-- C16, counterexample: the points `(0, 0)`, `(10, 1)`, `(11, 1.1)`.  They are
x-sorted, and the `double` nearest to `1.1` is larger than `1.1`, so they are
not collinear: `p[0]`, `p[1]`, `p[2]` are in anticlockwise order.  The program
computes `p[0].y+(p[1].y-p[0].y)*(p[2].x-p[0].x)/(p[1].x-p[0].x)` as `11/10`
rounded, which is `p[2].y`; the test `p[2].y > ...` is false and the seed edges
are `0 -> 2`, `2 -> 1`, `1 -> 0`, a clockwise cycle. -/
theorem seed_orientation_counterexample :
    seedD = [⟨Dbl.fin 0, Dbl.fin 0⟩, ⟨Dbl.fin 10, Dbl.fin 1⟩,
      ⟨Dbl.fin 11, Dbl.fin (2476979795053773 / 2251799813685248)⟩] ∧
    (0 : ℚ) ≤ 10 ∧ (10 : ℚ) ≤ 11 ∧
    orient (⟨0, 0⟩ : point ℚ) ⟨10, 1⟩ ⟨11, 2476979795053773 / 2251799813685248⟩ ≠ 0 ∧
    Arith.ieee.add (Dbl.fin 0)
      (Arith.ieee.div (Arith.ieee.mul (Arith.ieee.sub (Dbl.fin 1) (Dbl.fin 0))
        (Arith.ieee.sub (Dbl.fin 11) (Dbl.fin 0))) (Arith.ieee.sub (Dbl.fin 10) (Dbl.fin 0))) =
      Dbl.fin (2476979795053773 / 2251799813685248) ∧
    (Arith.ieee.seed junk0 3 seedD).map (fun d => d.edges) = Except.ok
      [⟨0, 2, 2, 1, -1, -1⟩, ⟨2, 1, 0, 2, -1, -1⟩, ⟨1, 0, 1, 0, -1, -1⟩,
        edge.new, edge.new, edge.new, edge.new, edge.new, edge.new] ∧
    orient (⟨0, 0⟩ : point ℚ) ⟨11, 2476979795053773 / 2251799813685248⟩ ⟨10, 1⟩ < 0 := by
  decide!

end Tipper

namespace Tipper

section validcheck

variable {K : Type} [LinearOrderedField K]

end validcheck

namespace Arith

variable {F : Type} (A : Arith F)

end Arith

section validcheck

variable {K : Type} [LinearOrderedField K]

theorem triB_sound (e : List edge) (p : List (point K)) (i : Int) (x : edge) (s t : Int)
    (h : triB e p i x s t = true) : Tri e p i x s t := by
  unfold triB at h
  split at h
  · rename_i ea eb h1 h2
    split at h
    · rename_i ps pt pl h3 h4 h5
      have h6 := of_decide_eq_true h
      exact ⟨_, ea, eb, ps, pt, pl, h1, h2, h6.1, h6.2.1, h6.2.2.1, h6.2.2.2.1, h3, h4, h5,
        h6.2.2.2.2⟩
    · cases h
  · cases h

theorem validFrom_sound (e : List edge) (p : List (point K)) :
    ∀ (l : List edge) (i : Nat), validFrom e p i l = true →
      ∀ (j : Nat) (x : edge), l[j]? = some x →
        (x.pairAt x.from_ = (-1, -1) ∨ Tri e p ((i + j : Nat) : Int) x x.from_ x.to_) ∧
        (x.pairAt x.to_ = (-1, -1) ∨ Tri e p ((i + j : Nat) : Int) x x.to_ x.from_) := by
  intro l
  induction l with
  | nil => intro i _ j x hx; simp at hx
  | cons y rest ih =>
    intro i h j x hx
    simp only [validFrom, Bool.and_eq_true, Bool.or_eq_true, decide_eq_true_eq] at h
    cases j with
    | zero =>
      simp only [List.getElem?_cons_zero, Option.some.injEq] at hx
      subst hx
      exact ⟨h.1.1.imp id (triB_sound e p _ _ _ _), h.1.2.imp id (triB_sound e p _ _ _ _)⟩
    | succ j =>
      simp only [List.getElem?_cons_succ] at hx
      have := ih (i + 1) h.2 j x hx
      rw [show i + 1 + j = i + (j + 1) by omega] at this
      exact this

theorem validB_sound (e : List edge) (p : List (point K)) (h : validB e p = true) :
    Valid e p := by
  intro i x hx
  have := validFrom_sound e p e 0 h i x hx
  simpa using this

end validcheck

namespace Arith

variable {F : Type} (A : Arith F)

/-- The call `swap` is its part before the recursive calls, followed by them. -/
theorem swap_head (depth : Nat) (tint : Int) (e : List edge) (p : List (point F)) :
    A.swap (depth + 1) tint e p =
      match A.swapHead tint e p with
      | Except.ok none => Except.ok (e, 0)
      | Except.ok (some e1) => afterFlip (fun n e => A.swap depth n e p) tint e1
      | Except.error err => Except.error err := by
  simp only [swap, swapHead, bind, Except.bind, pure, Except.pure]
  cases rde e tint with
  | error err => rfl
  | ok t =>
    simp only
    by_cases hb : t.ref = -1 ∨ t.lef = -1 ∨ t.let_ = -1 ∨ t.ret = -1
    · simp only [if_pos hb]
    · simp only [if_neg hb]
      cases rde e t.lef with
      | error err => rfl
      | ok el =>
        simp only
        cases rde e t.ref with
        | error err => rfl
        | ok er =>
          simp only
          cases rdpE p (if el.from_ = t.from_ then el.to_ else el.from_) with
          | error err => rfl
          | ok pl =>
            simp only
            cases rdpE p t.from_ with
            | error err => rfl
            | ok pf =>
              simp only
              cases rdpE p t.to_ with
              | error err => rfl
              | ok pt =>
                simp only
                cases rdpE p (if er.from_ = t.from_ then er.to_ else er.from_) with
                | error err => rfl
                | ok pr =>
                  simp only [flipTest, Bool.and_eq_true]
                  by_cases h1 : (A.lt (A.dot (A.psub pl pf) (A.psub pl pt)) A.zero ||
                      A.lt (A.dot (A.psub pr pf) (A.psub pr pt)) A.zero) = true
                  · by_cases h2 : A.lt
                        (A.add
                          (A.div (A.dot (A.psub pl pf) (A.psub pl pt))
                            (A.sqrt (A.mul (A.dot (A.psub pl pf) (A.psub pl pf))
                              (A.dot (A.psub pl pt) (A.psub pl pt)))))
                          (A.div (A.dot (A.psub pr pf) (A.psub pr pt))
                            (A.sqrt (A.mul (A.dot (A.psub pr pf) (A.psub pr pf))
                              (A.dot (A.psub pr pt) (A.psub pr pt))))))
                        A.zero = true
                    · simp only [h1, h2, and_self, if_true]
                      cases flipStep tint (if el.from_ = t.from_ then el.to_ else el.from_)
                        (if er.from_ = t.from_ then er.to_ else er.from_) e <;> rfl
                    · simp [h1, h2]
                  · simp [h1]

end Arith

end Tipper

namespace Tipper

namespace Arith

variable {F : Type} (A : Arith F)

theorem swap_still (depth : Nat) (n : Int) (e : List edge) (p : List (point F))
    (h : A.swapHead n e p = Except.ok none) :
    A.swap (depth + 1) n e p = Except.ok (e, 0) := by
  rw [swap_head, h]

theorem firstFlip_cons (e : List edge) (p : List (point F)) (m : Int) (rest : List Int)
    (n : Int) (h : A.firstFlip e p (m :: rest) = some n) :
    (A.swapHead m e p = Except.ok none ∧ A.firstFlip e p rest = some n) ∨
      ((∃ x, A.swapHead m e p = Except.ok (some x)) ∧ m = n) := by
  unfold firstFlip at h
  cases hm : A.swapHead m e p with
  | error err => rw [hm] at h; cases h
  | ok o =>
    cases o with
    | none => rw [hm] at h; exact Or.inl ⟨rfl, h⟩
    | some x =>
      rw [hm] at h
      simp only [Option.some.injEq] at h
      exact Or.inr ⟨⟨x, rfl⟩, h⟩

/-- One step of a chain of flips: when the call that `spinNext` names does not
return within depth `d`, the call it was made from does not return within depth
`d + 1`. -/
theorem spin_step (p : List (point F)) (s s1 : Int × List edge) (d : Nat)
    (h : A.spinNext p s = some s1)
    (hd : A.swap d s1.1 s1.2 p = Except.error Fault.diverge) :
    A.swap (d + 1) s.1 s.2 p = Except.error Fault.diverge := by
  unfold spinNext at h
  rw [swap_head]
  cases hh : A.swapHead s.1 s.2 p with
  | error err => rw [hh] at h; cases h
  | ok o =>
    cases o with
    | none => rw [hh] at h; cases h
    | some e1 =>
      rw [hh] at h
      simp only at h ⊢
      cases ht : rde e1 s.1 with
      | error err => rw [ht] at h; cases h
      | ok t =>
        rw [ht] at h
        simp only at h
        cases hf : A.firstFlip e1 p [t.lef, t.let_, t.ref, t.ret] with
        | none => rw [hf] at h; cases h
        | some n =>
          rw [hf] at h
          simp only [Option.some.injEq] at h
          subst h
          simp only at hd
          cases d with
          | zero => simp [afterFlip, ht, swap, bind, Except.bind]
          | succ d =>
            unfold afterFlip
            simp only [ht, bind, Except.bind]
            rcases A.firstFlip_cons e1 p _ _ n hf with ⟨h1, hf1⟩ | ⟨-, h1⟩
            · rw [A.swap_still d _ e1 p h1]
              simp only [ht]
              rcases A.firstFlip_cons e1 p _ _ n hf1 with ⟨h2, hf2⟩ | ⟨-, h2⟩
              · rw [A.swap_still d _ e1 p h2]
                simp only [ht]
                rcases A.firstFlip_cons e1 p _ _ n hf2 with ⟨h3, hf3⟩ | ⟨-, h3⟩
                · rw [A.swap_still d _ e1 p h3]
                  simp only [ht]
                  rcases A.firstFlip_cons e1 p _ _ n hf3 with ⟨h4, hf4⟩ | ⟨-, h4⟩
                  · simp [firstFlip] at hf4
                  · rw [h4, hd]
                · rw [h3, hd]
              · rw [h2, hd]
            · rw [h1, hd]

/-- A closed chain of flips never ends: when every call of `l` leads, by a flip
and recursive calls that return 0 at once, to a call of `l`, no call of `l`
returns, whatever the depth allowed. -/
theorem spin_forever (p : List (point F)) (l : List (Int × List edge))
    (h : A.spins p l = true) :
    ∀ (depth : Nat) (s : Int × List edge), s ∈ l →
      A.swap depth s.1 s.2 p = Except.error Fault.diverge := by
  intro depth
  induction depth with
  | zero => intro s _; rfl
  | succ d ih =>
    intro s hs
    have h1 := List.all_eq_true.mp h s hs
    cases hn : A.spinNext p s with
    | none => rw [hn] at h1; cases h1
    | some s1 =>
      rw [hn] at h1
      exact A.spin_step p s s1 d hn (ih s1 (List.mem_of_elem_eq_true h1))

end Arith

namespace Arith

theorem spinOrbit_links {F : Type} (A : Arith F) (p : List (point F))
    (st : Nat → Int × List edge) (n k : Nat)
    (h : ∀ i, k ≤ i → i < k + n → A.spinNext p (st i) = some (st (i + 1))) :
    A.spinOrbit p n (st k) = (List.range' k n).map st := by
  induction n generalizing k with
  | zero => rfl
  | succ n ih =>
    unfold spinOrbit
    rw [h k (le_refl k) (by omega)]
    simp only [List.range'_succ, List.map_cons]
    rw [ih (k + 1) fun i h1 h2 => h i (by omega) (by omega)]

end Arith

set_option maxRecDepth 100000 in
theorem spinState_next0 : ∀ k ∈ [0, 1],
    Arith.ieee.spinNext spinD (spinState k) = some (spinState (k + 1)) := by
  decide!

set_option maxRecDepth 100000 in
theorem spinState_next2 : ∀ k ∈ [2, 3],
    Arith.ieee.spinNext spinD (spinState k) = some (spinState (k + 1)) := by
  decide!

set_option maxRecDepth 100000 in
theorem spinState_next4 : ∀ k ∈ [4, 5],
    Arith.ieee.spinNext spinD (spinState k) = some (spinState (k + 1)) := by
  decide!

set_option maxRecDepth 100000 in
theorem spinState_next6 : ∀ k ∈ [6, 7],
    Arith.ieee.spinNext spinD (spinState k) = some (spinState (k + 1)) := by
  decide!

set_option maxRecDepth 100000 in
theorem spinState_next8 : ∀ k ∈ [8, 9],
    Arith.ieee.spinNext spinD (spinState k) = some (spinState (k + 1)) := by
  decide!

set_option maxRecDepth 100000 in
theorem spinState_next10 : ∀ k ∈ [10, 11],
    Arith.ieee.spinNext spinD (spinState k) = some (spinState (k + 1)) := by
  decide!

set_option maxRecDepth 100000 in
theorem spinState_next12 : ∀ k ∈ [12, 13],
    Arith.ieee.spinNext spinD (spinState k) = some (spinState (k + 1)) := by
  decide!

set_option maxRecDepth 100000 in
theorem spinState_next14 : ∀ k ∈ [14, 15],
    Arith.ieee.spinNext spinD (spinState k) = some (spinState (k + 1)) := by
  decide!

set_option maxRecDepth 100000 in
theorem spinState_next16 : ∀ k ∈ [16, 17],
    Arith.ieee.spinNext spinD (spinState k) = some (spinState (k + 1)) := by
  decide!

set_option maxRecDepth 100000 in
theorem spinState_next18 : ∀ k ∈ [18, 19],
    Arith.ieee.spinNext spinD (spinState k) = some (spinState (k + 1)) := by
  decide!

theorem spinState_mod (i : Nat) : spinState (i % 20) = spinState i := by
  unfold spinState
  rw [Nat.mod_mod]

theorem spinState_next (i : Nat) :
    Arith.ieee.spinNext spinD (spinState i) = some (spinState (i + 1)) := by
  have hk : i % 20 < 20 := Nat.mod_lt _ (by norm_num)
  have e : spinState (i + 1) = spinState (i % 20 + 1) := by
    unfold spinState
    rw [Nat.add_mod, Nat.add_mod (i % 20), Nat.mod_mod]
  rw [← spinState_mod i, e]
  generalize i % 20 = k at hk
  interval_cases k
  all_goals first
    | exact spinState_next0 _ (by decide)
    | exact spinState_next2 _ (by decide)
    | exact spinState_next4 _ (by decide)
    | exact spinState_next6 _ (by decide)
    | exact spinState_next8 _ (by decide)
    | exact spinState_next10 _ (by decide)
    | exact spinState_next12 _ (by decide)
    | exact spinState_next14 _ (by decide)
    | exact spinState_next16 _ (by decide)
    | exact spinState_next18 _ (by decide)

theorem spinOrbit_states (n : Nat) :
    Arith.ieee.spinOrbit spinD n (3, spinTable) = (List.range' 0 n).map spinState :=
  Arith.spinOrbit_links Arith.ieee spinD spinState n 0 fun i _ _ => spinState_next i

theorem spinStates_spins : Arith.ieee.spins spinD spinStates = true := by
  unfold Arith.spins
  rw [List.all_eq_true]
  intro s hs
  obtain ⟨k, hk, rfl⟩ := List.getElem_of_mem hs
  have hk20 : k < 20 := hk
  have e : spinStates[k] = spinState k := by
    unfold spinState
    rw [Nat.mod_eq_of_lt hk20, List.getD_eq_getElem _ _ hk]
  rw [e, spinState_next k]
  have hm : spinState (k + 1) ∈ spinStates := by
    unfold spinState
    have hlt : (k + 1) % 20 < spinStates.length := Nat.mod_lt _ (by norm_num)
    rw [List.getD_eq_getElem _ _ hlt]
    exact List.getElem_mem _
  simpa using hm

/-- C14, counterexample: in `double` arithmetic `swap` does not return.  The
five points `spinD` are in general position (no three on a line, no four on a
circle) and `spinTable` is a consistent triangulation of them, with the
triangles `0 1 3`, `0 3 2` and `3 4 2`; edge 3 is the edge between the last two.
The call `swap(3)` flips edge 3, the recursive calls flip in turn, and after 20
flips the call `swap(3)` is made again on the table `spinTable`: the four points
0, 1, 2, 3 are so close to one circle that the rounded sums of cosines are
negative for both diagonals.  So at no depth does the call return. -/
theorem swap_terminates_counterexample :
    spinD =
      [⟨Dbl.fin (-7859379172720901 / 9007199254740992),
          Dbl.fin (4399976981077015 / 9007199254740992)⟩,
        ⟨Dbl.fin (-3556165958500735 / 4503599627370496),
          Dbl.fin (-5526696401740273 / 9007199254740992)⟩,
        ⟨Dbl.fin (-7079634817134597 / 9007199254740992),
          Dbl.fin (5568519486418473 / 9007199254740992)⟩,
        ⟨Dbl.fin (-2921253812348429 / 9007199254740992),
          Dbl.fin (-8520323619349587 / 9007199254740992)⟩,
        ⟨Dbl.fin (-5994392571612721 / 72057594037927936),
          Dbl.fin (-8975978460097175 / 9007199254740992)⟩] ∧
    generalPosition (spinD.map point.val) ∧
    Valid spinTable (spinD.map point.val) ∧
    rde spinTable 3 = Except.ok ⟨3, 2, 1, 2, 5, 6⟩ ∧
    (Arith.ieee.spinOrbit spinD 20 (3, spinTable)).length = 20 ∧
    (Arith.ieee.spinOrbit spinD 21 (3, spinTable)).getLast? = some (3, spinTable) ∧
    ∀ depth : Nat,
      Arith.ieee.swap depth 3 spinTable spinD = Except.error Fault.diverge :=
  ⟨by decide!, by decide!, validB_sound _ _ (by decide!), by decide,
    by rw [spinOrbit_states]; decide, by rw [spinOrbit_states]; decide,
    fun depth => Arith.spin_forever Arith.ieee spinD spinStates spinStates_spins depth
      (3, spinTable) (by decide)⟩

end Tipper

namespace Tipper

namespace Arith

section insertions

variable {F : Type} (A : Arith F) (depth : Nat) (junk : Nat → item)

end insertions

end Arith

namespace Arith

section driver

variable {F : Type} (A : Arith F)

theorem firstLower_keeps {p : List (point F)} {i : Int} {d d' : Driver}
    (h : A.firstLower p i d = Except.ok d') : d'.hull = d.hull := by
  simp only [firstLower, firstLowerEdge, bind_ok_iff, pure_ok_iff] at h
  obtain ⟨w, -, d0, h0, d1, h1, x1, -, x2, -, d2, h2, x3, -, d3, h3, d4, h4, rfl⟩ := h
  have f0 := cantSee_hull h0
  have f1 := (Driver.setE_hull h1).1
  have f2 := (Driver.setE_hull h2).1
  have f3 := (Driver.setE_hull h3).1
  have f4 := (Driver.setE_hull h4).1
  simp only
  rw [f4, f3, f2, f1, f0]

theorem firstEdge_keeps {p : List (point F)} {i : Int} {d d' : Driver}
    (h : A.firstEdge p i d = Except.ok d') : d'.hull = d.hull := by
  simp only [firstEdge, bind_ok_iff, pure_ok_iff] at h
  obtain ⟨v, -, d1, h1, rfl⟩ := h
  unfold firstNew at h1
  split at h1
  · exact (firstUpper_hull h1).trans rfl
  · exact (firstLower_keeps A h1).trans rfl

variable (depth : Nat)

theorem upperEdges_keeps {p : List (point F)} {i : Int} {d d' : Driver}
    (h : A.upperEdges depth p i d = Except.ok d') :
    d'.hull = d.hull ∧ d'.upper_hull_pos = d.upper_hull_pos := by
  simp only [upperEdges, upperWire, bind_ok_iff, pure_ok_iff] at h
  obtain ⟨x1, -, d7, ⟨d1, h1, x2, -, d2, h2, d3, h3, d4, h4, d5, h5, d6, h6, h7⟩, r, -, rfl⟩ := h
  have f1 := Driver.setE_hull h1
  have f2 := Driver.setE_hull h2
  have f3 := linkUpper_hull h3
  have f4 := Driver.setE_hull h4
  have f5 := Driver.setE_hull h5
  have f6 := Driver.setE_hull h6
  have f7 := Driver.setE_hull h7
  simp only at f4
  simp only
  exact ⟨by rw [f7.1, f6.1, f5.1, f4.1, f3.1, f2.1, f1.1],
    by rw [f7.2.1, f6.2.1, f5.2.1, f4.2.1, f3.2.1, f2.2.1, f1.2.1]⟩

theorem lowerEdges_keeps {p : List (point F)} {i : Int} {d d' : Driver}
    (h : A.lowerEdges depth p i d = Except.ok d') :
    d'.hull = d.hull ∧ d'.lower_hull_pos = d.lower_hull_pos := by
  simp only [lowerEdges, bind_ok_iff, pure_ok_iff] at h
  obtain ⟨x1, -, d1, h1, d2, h2, x2, -, d3, h3, d4, h4, d5, h5, d6, h6, d7, h7, r, -, rfl⟩ := h
  have f1 := linkLower_hull h1
  have f2 := Driver.setE_hull h2
  have f3 := Driver.setE_hull h3
  have f4 := Driver.setE_hull h4
  have f5 := Driver.setE_hull h5
  have f6 := Driver.setE_hull h6
  have f7 := Driver.setE_hull h7
  simp only
  exact ⟨by rw [f7.1, f6.1, f5.1, f4.1, f3.1, f2.1, f1.1],
    by rw [f7.2.2, f6.2.2, f5.2.2, f4.2.2, f3.2.2, f2.2.2, f1.2.2]⟩

theorem upperStep_count {p : List (point F)} {i : Int} {d d' : Driver}
    (h : A.upperStep depth p i d = Except.ok d') :
    d'.hull.size = d.hull.size ∧ d'.hull.num = d.hull.num - 1 ∧ d.hull.num ≠ 0 := by
  simp only [upperStep, bind_ok_iff, pure_ok_iff] at h
  obtain ⟨d1, h1, ⟨l, v⟩, h2, rfl⟩ := h
  rw [toExcept_ok_iff] at h2
  have f1 := (upperEdges_keeps A depth h1).1
  have f2 := cyclist.delNextPos_ok h2
  rw [f1] at f2
  exact f2

theorem lowerStep_count {p : List (point F)} {i : Int} {d d' : Driver}
    (h : A.lowerStep depth p i d = Except.ok d') :
    d'.hull.size = d.hull.size ∧ d'.hull.num = d.hull.num - 1 ∧ d.hull.num ≠ 0 := by
  simp only [lowerStep, bind_ok_iff, pure_ok_iff] at h
  obtain ⟨d1, h1, ⟨l, v⟩, h2, rfl⟩ := h
  rw [toExcept_ok_iff] at h2
  have f1 := (lowerEdges_keeps A depth h1).1
  have f2 := cyclist.delNextNeg_ok h2
  rw [f1] at f2
  exact f2

theorem upperLoop_count {p : List (point F)} {i : Int} (n : Nat) :
    ∀ {d d' : Driver}, A.upperLoop depth p i n d = Except.ok d' →
      d'.hull.size = d.hull.size ∧ d'.hull.num ≤ d.hull.num ∧
      (A.visibleAt p i d d.upper_hull_pos = Except.ok true → d'.hull.num + 1 ≤ d.hull.num) := by
  induction n with
  | zero =>
    intro d d' h
    simp [upperLoop] at h
  | succ n ih =>
    intro d d' h
    simp only [upperLoop, bind_ok_iff] at h
    obtain ⟨v, hv, h⟩ := h
    split at h
    · simp only [bind_ok_iff] at h
      obtain ⟨d1, h1, h2⟩ := h
      have f1 := upperStep_count A depth h1
      have f2 := ih h2
      refine ⟨f2.1.trans f1.1, by omega, fun _ => by omega⟩
    · rw [pure_ok_iff] at h
      subst h
      refine ⟨rfl, le_refl _, fun hv' => ?_⟩
      rw [hv] at hv'
      cases hv'
      contradiction

theorem lowerLoop_count {p : List (point F)} {i : Int} (n : Nat) :
    ∀ {d d' : Driver}, A.lowerLoop depth p i n d = Except.ok d' →
      d'.hull.size = d.hull.size ∧ d'.hull.num ≤ d.hull.num ∧
      (A.visibleAt p i d d.lower_hull_pos = Except.ok true → d'.hull.num + 1 ≤ d.hull.num) := by
  induction n with
  | zero =>
    intro d d' h
    simp [lowerLoop] at h
  | succ n ih =>
    intro d d' h
    simp only [lowerLoop, bind_ok_iff] at h
    obtain ⟨v, hv, h⟩ := h
    split at h
    · simp only [bind_ok_iff] at h
      obtain ⟨d1, h1, h2⟩ := h
      have f1 := lowerStep_count A depth h1
      have f2 := ih h2
      refine ⟨f2.1.trans f1.1, by omega, fun _ => by omega⟩
    · rw [pure_ok_iff] at h
      subst h
      refine ⟨rfl, le_refl _, fun hv' => ?_⟩
      rw [hv] at hv'
      cases hv'
      contradiction

/-- The counting facts of one pass of the loop over the points. -/
theorem processPoint_count {p : List (point F)} {i : Int} {d : Driver}
    (hs : A.seesHull depth p i d = true) :
    (∀ d1, A.beforeUpperInsert depth p i d = Except.ok d1 →
      d1.hull.size = d.hull.size ∧ d1.hull.num ≤ d.hull.num) ∧
    (∀ d1, A.beforeLowerInsert depth p i d = Except.ok d1 →
      d1.hull.size = d.hull.size ∧ d1.hull.num ≤ d.hull.num) ∧
    (∀ d1, A.processPoint depth p i d = Except.ok d1 →
      d1.hull.size = d.hull.size ∧ d1.hull.num ≤ d.hull.num + 1) := by
  have hup : ∀ d2, A.beforeUpperInsert depth p i d = Except.ok d2 →
      ∃ d1, A.firstEdge p i d = Except.ok d1 ∧ A.upperSweep depth p i d1 = Except.ok d2 ∧
        d2.hull.size = d.hull.size ∧ d2.hull.num ≤ d.hull.num ∧
        (A.visibleAt p i d1 d1.upper_hull_pos = Except.ok true →
          d2.hull.num + 1 ≤ d.hull.num) := by
    intro d2 h
    simp only [beforeUpperInsert, bind_ok_iff] at h
    obtain ⟨d1, h1, h2⟩ := h
    have f1 := firstEdge_keeps A h1
    have f2 := upperLoop_count A depth _ h2
    rw [f1] at f2
    exact ⟨d1, h1, h2, f2⟩
  have hlow : ∀ d4, A.beforeLowerInsert depth p i d = Except.ok d4 →
      d4.hull.size = d.hull.size ∧ d4.hull.num ≤ d.hull.num := by
    intro d4 h
    simp only [beforeLowerInsert, bind_ok_iff] at h
    obtain ⟨d2, h2, d3, h3, h4⟩ := h
    obtain ⟨d1, h1, h12, f2⟩ := hup d2 h2
    have f3 := upperInsert_num h3
    have f4 := lowerLoop_count A depth _ h4
    refine ⟨by rw [f4.1, f3.1, f2.1], ?_⟩
    simp only [seesHull, h1, h12, h3] at hs
    by_cases hv : A.visibleAt p i d1 d1.upper_hull_pos = Except.ok true
    · have := f2.2.2 hv
      omega
    · have hw : A.visibleAt p i d3 d3.lower_hull_pos = Except.ok true := by
        split at hs
        · rename_i heq
          exact absurd heq hv
        · simpa using hs
      have := f4.2.2 hw
      omega
  refine ⟨fun d1 h => ?_, hlow, fun d5 h => ?_⟩
  · obtain ⟨_, _, _, f⟩ := hup d1 h
    exact ⟨f.1, f.2.1⟩
  · simp only [processPoint, bind_ok_iff] at h
    obtain ⟨d4, h4, h5⟩ := h
    have f4 := hlow d4 h4
    have f5 := lowerInsert_num h5
    exact ⟨by rw [f5.1, f4.1], by omega⟩

variable (junk : Nat → item)

theorem seed_count {npoints : Int} {p : List (point F)} {d : Driver}
    (h : A.seed junk npoints p = Except.ok d) :
    d.hull.size = npoints ∧ d.hull.num = 3 := by
  unfold seed at h
  split at h
  · cases h
  · rename_i hn
    simp only [bind_ok_iff, pure_ok_iff] at h
    obtain ⟨e, -, r, hr, rfl⟩ := h
    have f := seedHull_num hr
    have g := new_fields junk npoints.toNat
    simp only
    rw [f.1, f.2, g.1, g.2]
    exact ⟨Int.toNat_of_nonneg (not_lt.mp hn), by norm_num⟩

/-- After the seed and `k` passes of the loop, the hull has capacity `npoints`
and holds at most `3 + k` edges, when every point processed so far saw a hull
edge. -/
theorem run_count (npoints : Int) (p : List (point F))
    (hsee : ∀ (k : Nat) (d : Driver), 3 + (k : Int) < npoints →
      A.run depth junk npoints p k = Except.ok d →
      A.seesHull depth p (3 + (k : Int)) d = true) :
    ∀ (k : Nat) (d : Driver), 3 + (k : Int) ≤ npoints →
      A.run depth junk npoints p k = Except.ok d →
      d.hull.size = npoints ∧ d.hull.num ≤ 3 + (k : Int) := by
  intro k
  induction k with
  | zero =>
    intro d _ h
    have f := seed_count A junk h
    exact ⟨f.1, by rw [f.2]; simp⟩
  | succ k ih =>
    intro d hk h
    simp only [run, bind_ok_iff] at h
    obtain ⟨d0, h0, h1⟩ := h
    have hk' : 3 + (k : Int) < npoints := by push_cast at hk; omega
    have f0 := ih d0 (le_of_lt hk') h0
    have f1 := (processPoint_count A depth (hsee k d0 hk' h0)).2.2 d h1
    refine ⟨f1.1.trans f0.1, ?_⟩
    push_cast
    omega

/-- C7 (as amended): in the arithmetic of the program, during `triangulate` on
`npoints ≥ 3` points in which every point `i ≥ 3` sees a hull edge, at every
insertion into the hull list the list has capacity `npoints` and its number of
occupied slots `num` is strictly below that capacity; the slot the insertion
takes, `hole`, is a free slot below `size` when the list is consistent at that
insertion; and after the seed and after every pass of the loop the hull holds at
most `npoints` edges. -/
theorem hull_capacity (npoints : Int) (p : List (point F)) (h3 : 3 ≤ npoints)
    (hsee : ∀ (k : Nat) (d : Driver), 3 + (k : Int) < npoints →
      A.run depth junk npoints p k = Except.ok d →
      A.seesHull depth p (3 + (k : Int)) d = true) :
    (∀ h : cyclist, A.InsertsAt depth junk npoints p h →
      h.size = npoints ∧ h.num < h.size ∧
        (h.Consistent → 0 ≤ h.hole ∧ h.hole < h.size ∧ h.isFree h.hole)) ∧
    (∀ (k : Nat) (d : Driver), 3 + (k : Int) ≤ npoints →
      A.run depth junk npoints p k = Except.ok d →
      d.hull.size = npoints ∧ d.hull.num ≤ npoints) := by
  refine ⟨fun h hi => ?_, fun k d hk hr => ?_⟩
  · have key : h.size = npoints ∧ h.num < h.size := by
      cases hi with
      | seed0 hn =>
        have g := new_fields junk npoints.toNat
        rw [g.1, g.2, Int.toNat_of_nonneg hn]
        exact ⟨rfl, by omega⟩
      | seed1 _ s1 hn h1 =>
        have g := new_fields junk npoints.toNat
        have f := cyclist.addAfter_ok h1
        rw [f.1, f.2, g.1, g.2, Int.toNat_of_nonneg hn]
        exact ⟨rfl, by omega⟩
      | seed2 h1 _ s1 s2 hn e1 e2 =>
        have g := new_fields junk npoints.toNat
        have f1 := cyclist.addAfter_ok e1
        have f2 := cyclist.addAfter_ok e2
        rw [f2.1, f2.2, f1.1, f1.2, g.1, g.2, Int.toNat_of_nonneg hn]
        exact ⟨rfl, by omega⟩
      | upper k d d1 hk hr hb =>
        have f0 := run_count A depth junk npoints p hsee k d (le_of_lt hk) hr
        have f1 := (processPoint_count A depth (hsee k d hk hr)).1 d1 hb
        exact ⟨f1.1.trans f0.1, by rw [f1.1, f0.1]; omega⟩
      | lower k d d1 hk hr hb =>
        have f0 := run_count A depth junk npoints p hsee k d (le_of_lt hk) hr
        have f1 := (processPoint_count A depth (hsee k d hk hr)).2.1 d1 hb
        exact ⟨f1.1.trans f0.1, by rw [f1.1, f0.1]; omega⟩
    refine ⟨key.1, key.2, fun hc => ?_⟩
    obtain ⟨hfree, n, hn, hlt⟩ := cyclist.hole_free hc key.2
    refine ⟨by rw [hn]; exact Int.natCast_nonneg n, ?_, hfree⟩
    rw [hn, ← hc.1]
    exact_mod_cast hlt
  · have f := run_count A depth junk npoints p hsee k d hk hr
    exact ⟨f.1, by omega⟩

end driver

end Arith

theorem hull_capacity_witness :
    (3 : Int) ≤ 4 ∧ Arith.InsertsAt Arith.ieee 10 junk0 4 pts4D lower4.hull ∧
      lower4.hull.Consistent ∧ lower4.hull.size = 4 ∧
      lower4.hull.num < lower4.hull.size ∧
      (0 ≤ lower4.hull.hole ∧ lower4.hull.hole < lower4.hull.size ∧
        lower4.hull.isFree lower4.hull.hole) ∧
      Arith.ieee.run 10 junk0 4 pts4D 0 = Except.ok seed4 ∧ seed4.hull.num ≤ 4 := by
  have hseed : Arith.ieee.run 10 junk0 4 pts4D 0 = Except.ok seed4 := by decide!
  have hins : Arith.InsertsAt Arith.ieee 10 junk0 4 pts4D lower4.hull :=
    Arith.InsertsAt.lower 0 seed4 lower4 (by norm_num) hseed (by decide!)
  have hcons : lower4.hull.Consistent := by decide
  have hsee : ∀ (k : Nat) (d : Driver), 3 + (k : Int) < 4 →
      Arith.ieee.run 10 junk0 4 pts4D k = Except.ok d →
      Arith.ieee.seesHull 10 pts4D (3 + (k : Int)) d = true := by
    intro k d hk hr
    have hk0 : k = 0 := by omega
    subst hk0
    rw [hseed] at hr
    cases hr
    decide!
  have main := Arith.hull_capacity Arith.ieee 10 junk0 4 pts4D (by norm_num) hsee
  have m1 := main.1 lower4.hull hins
  have m2 := main.2 0 seed4 (by norm_num) hseed
  exact ⟨by norm_num, hins, hcons, m1.1, m1.2.1, m1.2.2 hcons, hseed, m2.2⟩

/-- C7, counterexample: seven x-sorted points, `holeD`, in `double` arithmetic.
Each of the points 3, 4, 5, 6 sees a hull edge.  When the edge of point 6 is
about to be inserted after the lower sweep, the hull list holds `num = 3` edges,
fewer than its capacity `size = 7`, but the slot the insertion takes is
`hole = 11`, outside the array, and `triangulate` ends there in an access out of
range.  The list is inconsistent from point 4 on: the upper sweep of point 4
removes the slot that `lower_hull_pos` names. -/
theorem hull_capacity_counterexample :
    ((List.range 4).map fun k =>
      (Arith.ieee.run 10 junk0 7 holeD k).map fun d =>
        Arith.ieee.seesHull 10 holeD (3 + (k : Int)) d) =
      [Except.ok true, Except.ok true, Except.ok true, Except.ok true] ∧
    (∃ d d1 : Driver, Arith.ieee.run 10 junk0 7 holeD 3 = Except.ok d ∧
      Arith.ieee.beforeLowerInsert 10 holeD 6 d = Except.ok d1 ∧
      Arith.InsertsAt Arith.ieee 10 junk0 7 holeD d1.hull ∧
      d1.hull.size = 7 ∧ d1.hull.num = 3 ∧ d1.hull.hole = 11 ∧
      lowerInsert d1 = Except.error Fault.outOfRange) ∧
    Arith.ieee.triangulate 10 junk0 7 holeD = Except.error Fault.outOfRange := by
  refine ⟨by decide!, ?_, by decide!⟩
  have h : ((Arith.ieee.run 10 junk0 7 holeD 3 >>= fun d =>
      Arith.ieee.beforeLowerInsert 10 holeD 6 d >>= fun d1 =>
        pure (d1.hull.size, d1.hull.num, d1.hull.hole, lowerInsert d1)) :
      Except Fault (Int × Int × Int × Except Fault Driver)) =
      Except.ok (7, 3, 11, Except.error Fault.outOfRange) := by decide!
  simp only [bind_ok_iff, pure_ok_iff, Prod.mk.injEq] at h
  obtain ⟨d, hd, d1, hd1, h1, h2, h3, h4⟩ := h
  exact ⟨d, d1, hd, hd1, Arith.InsertsAt.lower 3 d d1 (by norm_num) hd hd1, h1, h2, h3, h4⟩

end Tipper
/-! ## Runs in `double` arithmetic within the tolerance of `visible` -/

namespace Tipper

theorem hullWalk_range {l : cyclist} {k : Nat} {pos : Int} {ids : List Int}
    (h : hullWalk l (k + 1) pos = Except.ok ids) : 0 ≤ pos ∧ pos.toNat < l.ejs.length := by
  unfold hullWalk at h
  simp only [bind_ok_iff] at h
  obtain ⟨r, hr, -⟩ := h
  obtain ⟨s, v⟩ := r
  rw [toExcept_ok_iff] at hr
  unfold cyclist.getEdge at hr
  split at hr
  · unfold cyclist.rd at hr
    by_cases h0 : 0 ≤ pos
    · refine ⟨h0, ?_⟩
      rw [if_pos h0] at hr
      by_contra hlt
      rw [List.getElem?_eq_none (not_lt.mp hlt)] at hr
      simp [cyclist.finish] at hr
    · rw [if_neg h0] at hr
      simp [cyclist.finish] at hr
  · cases hr

/-- A property of the walks of the hull list from the slots of the array holds
for the walks from every position. -/
theorem walks_all {l : cyclist} {k : Nat} {P : List Int → Prop}
    (h : ∀ n ∈ List.range l.ejs.length,
      ∀ ids ∈ (hullWalk l (k + 1) (n : Int)).toOption, P ids) :
    ∀ (pos : Int) (ids : List Int), hullWalk l (k + 1) pos = Except.ok ids → P ids := by
  intro pos ids hw
  obtain ⟨h0, h1⟩ := hullWalk_range hw
  have := h pos.toNat (List.mem_range.mpr h1) ids
  rw [Int.toNat_of_nonneg h0, hw] at this
  exact this rfl

/-- C38, counterexample: the four points `gap4` in `double` arithmetic.  They
are sorted strictly by `x` and no three are on a line; the first three are
`1e-8` apart in `x`.  The loop of `triangulate` returns on them in the state
`ref4`, in which `getNextPos(lower_hull_pos)` is not `upper_hull_pos`. -/
theorem reference_positions_counterexample :
    List.Pairwise (fun a b : point ℚ => a.x < b.x) ((dblPts gap4).map point.val) ∧
    (∀ i ∈ List.range 4, ∀ j ∈ List.range 4, ∀ k ∈ List.range 4, i < j → j < k →
      orient (ptAt ((dblPts gap4).map point.val) (i : Int))
        (ptAt ((dblPts gap4).map point.val) (j : Int))
        (ptAt ((dblPts gap4).map point.val) (k : Int)) ≠ 0) ∧
    Arith.ieee.run 10 junk0 4 (dblPts gap4) 1 = Except.ok ref4 ∧
    ref4.hull.getNextPos ref4.lower_hull_pos ≠ Run.ok ref4.hull ref4.upper_hull_pos := by
  decide!

/-- C21, counterexample: the five points `gap5` in `double` arithmetic.  They
are sorted strictly by `x` and no three are on a line; the first three are
`1e-8` apart in `x`.  After the last point the state of `triangulate` is `bad5`,
in which the hull list read in `getNextPos` order from any position, for as many
steps as the list has entries, meets an edge index twice. -/
theorem hull_polygon_counterexample :
    List.Pairwise (fun a b : point ℚ => a.x < b.x) ((dblPts gap5).map point.val) ∧
    (∀ i ∈ List.range 5, ∀ j ∈ List.range 5, ∀ k ∈ List.range 5, i < j → j < k →
      orient (ptAt ((dblPts gap5).map point.val) (i : Int))
        (ptAt ((dblPts gap5).map point.val) (j : Int))
        (ptAt ((dblPts gap5).map point.val) (k : Int)) ≠ 0) ∧
    Arith.ieee.run 10 junk0 5 (dblPts gap5) 2 = Except.ok bad5 ∧
    ∀ (pos : Int) (ids : List Int),
      hullWalk bad5.hull bad5.hull.num.toNat pos = Except.ok ids → ¬ ids.Nodup :=
  ⟨by decide!, by decide!, by decide!, walks_all (l := bad5.hull) (k := 2) (by decide!)⟩

/-- C22, counterexample: the five points `gap5` in `double` arithmetic.
`triangulate` returns on them in the state `bad5`, in which a created edge with
`ref = ret = -1` is missing from the hull list, from whichever position the
list is read. -/
theorem neighbours_counterexample :
    List.Pairwise (fun a b : point ℚ => a.x < b.x) ((dblPts gap5).map point.val) ∧
    (∀ i ∈ List.range 5, ∀ j ∈ List.range 5, ∀ k ∈ List.range 5, i < j → j < k →
      orient (ptAt ((dblPts gap5).map point.val) (i : Int))
        (ptAt ((dblPts gap5).map point.val) (j : Int))
        (ptAt ((dblPts gap5).map point.val) (k : Int)) ≠ 0) ∧
    Arith.ieee.triangulate 10 junk0 5 (dblPts gap5) = Except.ok bad5 ∧
    ∀ (pos : Int) (ids : List Int),
      hullWalk bad5.hull bad5.hull.num.toNat pos = Except.ok ids →
      ∃ j ∈ List.range bad5.next_edge.toNat, ∃ x ∈ bad5.edges[j]?,
        x.ref = -1 ∧ x.ret = -1 ∧ (j : Int) ∉ ids :=
  ⟨by decide!, by decide!, by decide!, walks_all (l := bad5.hull) (k := 2) (by decide!)⟩

/-- C24, counterexample: the six points `gap6` in `double` arithmetic.  They
are sorted strictly by `x` and no three are on a line; three of the gaps in `x`
are `1e-8`.  `triangulate` returns on them in the state `bad6`, which has
`E = 13` produced edges and `h = 3` boundary edges, so that no triangle count
`T` has `3T = h + 2(E - h)`. -/
theorem euler_counterexample :
    List.Pairwise (fun a b : point ℚ => a.x < b.x) ((dblPts gap6).map point.val) ∧
    (∀ i ∈ List.range 6, ∀ j ∈ List.range 6, ∀ k ∈ List.range 6, i < j → j < k →
      orient (ptAt ((dblPts gap6).map point.val) (i : Int))
        (ptAt ((dblPts gap6).map point.val) (j : Int))
        (ptAt ((dblPts gap6).map point.val) (k : Int)) ≠ 0) ∧
    Arith.ieee.triangulate 10 junk0 6 (dblPts gap6) = Except.ok bad6 ∧
    usedEdges bad6.edges = 13 ∧ boundaryEdges bad6.edges = 3 ∧
    ¬ ∃ T : Nat, 3 * T =
      boundaryEdges bad6.edges + 2 * (usedEdges bad6.edges - boundaryEdges bad6.edges) := by
  have hu : usedEdges bad6.edges = 13 := by decide
  have hb : boundaryEdges bad6.edges = 3 := by decide
  refine ⟨by decide!, by decide!, by decide!, hu, hb, ?_⟩
  rw [hu, hb]
  rintro ⟨T, hT⟩
  omega

end Tipper
/-! ## The 3 by 3 grid in `double` arithmetic -/

namespace Tipper

/-- C28, counterexample: the 3 by 3 grid itself, sorted by `x` and then by `y`,
in `double` arithmetic.  The pass of the loop for point 3 returns, the pass for
point 4 ends in a failed assertion of the hull list, and so does
`triangulate`: no triangulation is produced. -/
theorem grid_scenario_counterexample :
    (grid9.map point.x).Pairwise (fun a b => a ≤ b) ∧
    (Arith.ieee.run 10 junk0 9 (dblPts grid9) 1).toOption.isSome = true ∧
    Arith.ieee.run 10 junk0 9 (dblPts grid9) 2 = Except.error Fault.assertFail ∧
    Arith.ieee.triangulate 10 junk0 9 (dblPts grid9) = Except.error Fault.assertFail := by
  refine ⟨by decide, by decide!, by decide!, by decide!⟩

theorem run_pert9 : Arith.ieee.run 10 junk0 9 (dblPts pert9) 3 = Except.ok mid9 := by
  decide!

/-- C28 (as amended): the 3 by 3 grid moved off its degenerate position.  The
nine points `pert9` are sorted strictly by `x`; they are `double` values and
arise from the grid points by raising each coordinate by at most `0.003`.  In
`double` arithmetic `triangulate` returns on them the table `fan9`: a
consistent triangulation with 16 edges, 8 of them boundary edges, hence 8
triangles (`3 T = h + 2 (E - h)`, `n - E + T = 1`), and exactly one point, the
centre (index 3), is on no boundary edge. -/
theorem grid_scenario :
    (pert9.map point.x).Pairwise (fun a b => a < b) ∧
    (dblPts pert9).map point.val = pert9 ∧
    grid9Moved.Perm grid9 ∧
    (∀ i : Nat, i < 9 →
      0 ≤ (ptAt pert9 i).x - (ptAt grid9Moved i).x ∧
      (ptAt pert9 i).x - (ptAt grid9Moved i).x ≤ 3 / 1000 ∧
      0 ≤ (ptAt pert9 i).y - (ptAt grid9Moved i).y ∧
      (ptAt pert9 i).y - (ptAt grid9Moved i).y ≤ 3 / 1000) ∧
    Arith.ieee.triangulate 10 junk0 9 (dblPts pert9) = Except.ok fan9 ∧
    validB fan9.edges pert9 = true ∧
    usedEdges fan9.edges = 16 ∧ boundaryEdges fan9.edges = 8 ∧
    3 * 8 = boundaryEdges fan9.edges + 2 * (usedEdges fan9.edges - boundaryEdges fan9.edges) ∧
    (9 : Int) - (usedEdges fan9.edges : Int) + 8 = 1 ∧
    interiorPoints fan9.edges 9 = [3] := by
  have hu : usedEdges fan9.edges = 16 := by decide
  have hb : boundaryEdges fan9.edges = 8 := by decide
  have hrun : Arith.ieee.triangulate 10 junk0 9 (dblPts pert9) = Except.ok fan9 := by
    have e : Arith.ieee.triangulate 10 junk0 9 (dblPts pert9) =
        Arith.ieee.run 10 junk0 9 (dblPts pert9) 6 := rfl
    have s : ∀ k : Nat, Arith.ieee.run 10 junk0 9 (dblPts pert9) (k + 1) =
        (Arith.ieee.run 10 junk0 9 (dblPts pert9) k >>= fun d =>
          Arith.ieee.processPoint 10 (dblPts pert9) (3 + (k : Int)) d) := fun _ => rfl
    rw [e, s 5, s 4, s 3, run_pert9]
    decide!
  refine ⟨by decide!, by decide!, by decide, by decide!, hrun, by decide!, hu, hb, ?_, ?_,
    by decide⟩
  · rw [hu, hb]
  · rw [hu]
    norm_num

end Tipper
